import Mathlib

/-!
The difference-logic constraint graph of OpenSMT (`DLGraph.C`)

A shallow embedding of `src/tsolvers/dlsolver/DLGraph.C` and the properties
of its operations.

Conventions of the embedding.

* The numeric kind `T` of weights and potentials is `Int` (exact arithmetic).
* A vertex is named by its dense `id`; the fields of a `DLVertex` object
  (`pi`, `old_pi`, `gamma`) are maps from vertex ids, because the C++ code
  reaches them through pointers and never through a bounded table.
* A `std::vector` is a `List`; an access outside its bounds, a failed
  `assert` and running out of loop fuel all give `none`.
* An atom is an `Enode` term; terms are hash-consed in the term store, so
  pointer identity is structural equality.  The mutable `atom_data` of the
  atoms (polarity, deduced flag) lives in an `AtomStore`.
-/

namespace DL

/-! ## Terms -/

/-- The three-valued Boolean of the SAT solver. -/
inductive lbool
  | l_True
  | l_False
  | l_Undef
deriving DecidableEq, Repr

/-- Terms of the expression graph that can reach the solver: variables,
numerals, unary minus, binary minus, binary plus and the atom `lhs <= rhs`. -/
inductive Enode
  | var (name : Nat)
  | num (value : Int)
  | uminus (a : Enode)
  | minus (a b : Enode)
  | plus (a b : Enode)
  | leq (a b : Enode)
deriving DecidableEq, Repr

/-- `Enode::isVar`: a term of arity 0 over a user symbol. -/
def Enode.isVar : Enode → Bool
  | .var _ => true
  | _ => false

/-- `Enode::isConstant`: the car of the term is a number. -/
def Enode.isConstant : Enode → Bool
  | .num _ => true
  | _ => false

/-- `Enode::isUminus`. -/
def Enode.isUminus : Enode → Bool
  | .uminus _ => true
  | _ => false

/-- `Enode::isMinus`. -/
def Enode.isMinus : Enode → Bool
  | .minus _ _ => true
  | _ => false

/-- `Enode::get1st`: the first argument; `assert( getArity( ) > 0 )`. -/
def Enode.get1st : Enode → Option Enode
  | .uminus a => some a
  | .minus a _ => some a
  | .plus a _ => some a
  | .leq a _ => some a
  | _ => none

/-- `Enode::get2nd`: the second argument; `assert( getArity( ) > 1 )`. -/
def Enode.get2nd : Enode → Option Enode
  | .minus _ b => some b
  | .plus _ b => some b
  | .leq _ b => some b
  | _ => none

/-- The expression `t->getCar( )->getValue( )`: the value of a numeral; the
car of any other term is a symbol without a value. -/
def Enode.getValue : Enode → Option Int
  | .num v => some v
  | _ => none

/-- The test `t->isUminus( ) && t->get1st( )->isConstant( )`. -/
def Enode.isUminusConstant (t : Enode) : Bool :=
  t.isUminus && (match t.get1st with
    | some a => a.isConstant
    | none => false)

/-- The fields of `AtomData` read by the graph. -/
structure AtomData where
  polarity : lbool
  has_polarity : Bool
  is_deduced : Bool
deriving DecidableEq, Repr

/-- The `atom_data` of every atom, as the SAT solver left it. -/
abbrev AtomStore := Enode → AtomData

/-- `Enode::hasPolarity`. -/
def hasPolarity (A : AtomStore) (e : Enode) : Bool := (A e).has_polarity

/-- `Enode::getPolarity`. -/
def getPolarity (A : AtomStore) (e : Enode) : lbool := (A e).polarity

/-- `Enode::isDeduced`. -/
def isDeduced (A : AtomStore) (e : Enode) : Bool := (A e).is_deduced

/-! ## Configuration -/

/-- The two logics of the solver. -/
inductive Logic
  | QF_IDL
  | QF_RDL
deriving DecidableEq, Repr

/-- `config.dlconfig`. -/
structure DLConfig where
  theory_propagation : Int
deriving DecidableEq, Repr

/-- The configuration read by `DLGraph.C`, with the compile-time switch
`RESCALE_IN_DL` and the factor `egraph.getRescale( ... )` of the term store. -/
structure Config where
  logic : Logic
  dlconfig : DLConfig
  RESCALE_IN_DL : Bool
  getRescale : Int
deriving DecidableEq, Repr

/-! ## Graph data -/

/-- A `DLEdge<T>`: the atom `c`, the identifier, the endpoints (vertex ids)
and the weight. -/
structure DLEdge where
  c : Enode
  id : Nat
  u : Nat
  v : Nat
  wt : Int
deriving DecidableEq, Repr

/-- A `DLComplEdges<T>`: the positive and the negative edge of one atom. -/
structure DLComplEdges where
  pos : DLEdge
  neg : DLEdge
deriving DecidableEq, Repr

/-- An `AdjList`. -/
abbrev AdjList := List DLEdge

/-- The state of a `DLGraph<T>` object. -/
structure DLGraph where
  /-- The keys of `vertexMap` in order of creation; the vertex of the key at
  position `i` has id `i`.  The key `none` is the `NULL` term. -/
  vertexMap : List (Option Enode)
  /-- The entries of `edgeMap` in order of creation. -/
  edgeMap : List (Enode × DLComplEdges)
  tmp_edge_weight : Int
  Vcnt : Nat
  Ecnt : Nat
  sAdj : List AdjList
  dAdj : List AdjList
  dAdjInc : List AdjList
  hAdj : List AdjList
  hAdjInc : List AdjList
  iAdj : List AdjList
  sEdges : List DLEdge
  dEdges : List DLEdge
  hEdges : List DLEdge
  max_dyn_edges : Nat
  after_backtrack : Bool
  /-- Field `pi` of the vertices. -/
  pi : Nat → Int
  /-- Field `old_pi` of the vertices. -/
  old_pi : Nat → Int
  /-- Field `gamma` of the vertices. -/
  gamma : Nat → Int
  /-- Epoch stamp of `gamma` per vertex and the current token. -/
  gamma_list : Nat → Nat
  gamma_token : Nat
  /-- Epoch stamp of `pi'` per vertex and the current token. -/
  pi_prime_list : Nat → Nat
  pi_prime_token : Nat
  vertex_heap : List Nat
  changed_vertices : List Nat
  conflict_edges : List (Option DLEdge)
  negCycleVertex : Option Nat

/-- The graph right after construction: no vertex, no edge, every table
empty, every potential 0. -/
def DLGraph.empty : DLGraph where
  vertexMap := []
  edgeMap := []
  tmp_edge_weight := 0
  Vcnt := 0
  Ecnt := 0
  sAdj := []
  dAdj := []
  dAdjInc := []
  hAdj := []
  hAdjInc := []
  iAdj := []
  sEdges := []
  dEdges := []
  hEdges := []
  max_dyn_edges := 0
  after_backtrack := false
  pi := fun _ => 0
  old_pi := fun _ => 0
  gamma := fun _ => 0
  gamma_list := fun _ => 0
  gamma_token := 0
  pi_prime_list := fun _ => 0
  pi_prime_token := 0
  vertex_heap := []
  changed_vertices := []
  conflict_edges := []
  negCycleVertex := none

/-! ## Vectors -/

/-- `std::vector::resize( n )`: cut to `n` elements or fill up with `d`. -/
def resize {α : Type} (l : List α) (n : Nat) (d : α) : List α :=
  l.take n ++ List.replicate (n - l.length) d

/-- The assignment `vec[ i ] = f( vec[ i ] )`; `none` outside the bounds. -/
def modifyAt {α : Type} (l : List α) (i : Nat) (f : α → α) : Option (List α) :=
  match l[i]? with
  | some a => some (l.set i (f a))
  | none => none

/-- `edgeMap.find( e )`; `none` stands for `edgeMap.end( )`. -/
def findEdges : List (Enode × DLComplEdges) → Enode → Option DLComplEdges
  | [], _ => none
  | (k, p) :: rest, e => if k = e then some p else findEdges rest e

/-! ## Vertices and edge pairs -/

/-- `vertexMap.find( x )`: the id of the vertex of the term `x`, which is the
position of its key; `none` stands for `vertexMap.end( )`. -/
def findVertex : List (Option Enode) → Option Enode → Option Nat
  | [], _ => none
  | k :: rest, x => if k = x then some 0 else (findVertex rest x).map (fun i => i + 1)

/-- Modelled from the spec: `getDLVertex` of the header `DLGraph.h`, which is
not among the sources.  A vertex is allocated on the first mention of a
variable and gets the next dense id; later requests return the same vertex. -/
def getDLVertex (g : DLGraph) (x : Option Enode) : Nat × DLGraph :=
  match findVertex g.vertexMap x with
  | some i => (i, g)
  | none => (g.vertexMap.length, { g with vertexMap := g.vertexMap ++ [x] })

/-- Modelled from the spec: `getPosWeight` of the header `DLGraph.h`, which is
not among the sources.  The pair is built with `pos_weight = c`, the constant
that the classification left in `tmp_edge_weight`. -/
def getPosWeight (g : DLGraph) : Int := g.tmp_edge_weight

/-- The factor of lines 118-122: `egraph.getRescale( ... )` when the file is
compiled with `RESCALE_IN_DL` and the logic is `QF_RDL`, else 1. -/
def rescaleFactor (cfg : Config) : Int :=
  if cfg.RESCALE_IN_DL && cfg.logic == Logic.QF_RDL then cfg.getRescale else 1

/-- Lines 51-116 of `getDLEdge`: the classification of the atom `e`, giving
`tmp_edge_weight` and the terms `x` and `y` (`none` is `NULL`). -/
def classify (e : Enode) : Option (Int × Option Enode × Option Enode) :=
  match e.get1st, e.get2nd with
  | some lhs, some rhs =>
    let lhs_v_c := lhs.isVar || lhs.isConstant || lhs.isUminusConstant
    let rhs_v_c := rhs.isVar || rhs.isConstant || rhs.isUminusConstant
    if lhs_v_c && rhs_v_c then
      if lhs.isVar && rhs.isVar then
        some (0, some lhs, some rhs)
      else if lhs.isVar then
        if rhs.isConstant || rhs.isUminusConstant then
          (if rhs.isConstant then rhs.getValue
           else (rhs.get1st.bind Enode.getValue).map (fun w => -w)).map
            (fun w => (w, some lhs, none))
        else none
      else
        if lhs.isConstant || lhs.isUminusConstant then
          (if lhs.isConstant then lhs.getValue
           else (rhs.get1st.bind Enode.getValue).map (fun w => -w)).map
            (fun w => (w, none, some rhs))
        else none
    else
      let d := if lhs.isMinus then lhs else rhs
      let c := if lhs.isMinus then rhs else lhs
      if c.isConstant || c.isUminusConstant then
        let w0 := if c.isConstant then c.getValue
                  else (c.get1st.bind Enode.getValue).map (fun w => -w)
        let w := if lhs.isMinus then w0 else w0.map (fun w => -w)
        let x := if lhs.isMinus then d.get1st else d.get2nd
        let y := if lhs.isMinus then d.get2nd else d.get1st
        match w, x, y with
        | some w, some x, some y => some (w, some x, some y)
        | _, _, _ => none
      else none
  | _, _ => none

/-- `DLGraph<T>::getDLEdge`. -/
def getDLEdge (cfg : Config) (A : AtomStore) (g : DLGraph) (e : Enode) :
    Option (DLComplEdges × DLGraph) :=
  match findEdges g.edgeMap e with
  | some edges => some (edges, g)
  | none =>
    if hasPolarity A e then none
    else
      match classify e with
      | none => none
      | some (w, x, y) =>
        let g1 := { g with tmp_edge_weight := w }
        let posWeight := getPosWeight g1 * rescaleFactor cfg
        let negWeight := -posWeight - 1
        let (u, g2) := getDLVertex g1 x
        let (v, g3) := getDLVertex g2 y
        let pos : DLEdge := ⟨e, 2 * g3.edgeMap.length, u, v, posWeight⟩
        let neg : DLEdge := ⟨e, 2 * g3.edgeMap.length + 1, v, u, negWeight⟩
        let edges : DLComplEdges := ⟨pos, neg⟩
        some (edges, { g3 with edgeMap := g3.edgeMap ++ [(e, edges)] })

/-! ## The adjacency views -/

/-- `DLGraph<T>::insertInactive`.  (`updateHDegree` keeps degree statistics of
the missing header; no function of this file reads them.) -/
def insertInactive (g : DLGraph) (e : Enode) : Option DLGraph :=
  match findEdges g.edgeMap e with
  | none => none
  | some edges =>
    let pos := edges.pos
    let neg := edges.neg
    match modifyAt g.hAdj pos.u (fun l => l ++ [pos]) with
    | none => none
    | some h1 =>
    match modifyAt g.hAdjInc pos.v (fun l => l ++ [pos]) with
    | none => none
    | some hi1 =>
    match modifyAt h1 neg.u (fun l => l ++ [neg]) with
    | none => none
    | some h2 =>
    match modifyAt hi1 neg.v (fun l => l ++ [neg]) with
    | none => none
    | some hi2 => some { g with hAdj := h2, hAdjInc := hi2 }

/-- Modelled from the spec: `deleteFromAdjList` of the header `DLGraph.h`,
which is not among the sources.  It removes the edge from the adjacency list
(its first occurrence; a list without the edge is left as it is). -/
def deleteFromAdjList (l : AdjList) (e : DLEdge) : AdjList := l.erase e

/-- `DLGraph<T>::deleteInactive`. -/
def deleteInactive (g : DLGraph) (e : Enode) : Option DLGraph :=
  match findEdges g.edgeMap e with
  | none => none
  | some edges =>
    let pos := edges.pos
    let neg := edges.neg
    match modifyAt g.hAdj pos.u (fun l => deleteFromAdjList l pos) with
    | none => none
    | some h1 =>
    match modifyAt g.hAdjInc pos.v (fun l => deleteFromAdjList l pos) with
    | none => none
    | some hi1 =>
    match modifyAt h1 neg.u (fun l => deleteFromAdjList l neg) with
    | none => none
    | some h2 =>
    match modifyAt hi1 neg.v (fun l => deleteFromAdjList l neg) with
    | none => none
    | some hi2 =>
      if pos ∈ g.hEdges ∨ neg ∈ g.hEdges then none
      else some { g with hAdj := h2, hAdjInc := hi2 }

/-- `DLGraph<T>::insertStatic`.  (The tables `pq_dx_it` and `pq_dy_it` that are
resized along belong to the heaps of the shortest-path search.) -/
def insertStatic (cfg : Config) (A : AtomStore) (g : DLGraph) (c : Enode) : Option DLGraph :=
  match getDLEdge cfg A g c with
  | none => none
  | some (edges1, g1) =>
  match getDLEdge cfg A g1 c with
  | none => none
  | some (edges2, g2) =>
    let pos := edges1.pos
    let neg := edges2.neg
    let Vcnt := g2.vertexMap.length
    match modifyAt (resize g2.sAdj Vcnt []) pos.u (fun l => l ++ [pos]) with
    | none => none
    | some s1 =>
    match modifyAt s1 neg.u (fun l => l ++ [neg]) with
    | none => none
    | some s2 =>
      let g3 : DLGraph :=
        { g2 with
          Vcnt := Vcnt
          sAdj := s2
          dAdj := resize g2.dAdj Vcnt []
          dAdjInc := resize g2.dAdjInc Vcnt []
          hAdj := resize g2.hAdj Vcnt []
          hAdjInc := resize g2.hAdjInc Vcnt []
          iAdj := resize g2.iAdj Vcnt []
          sEdges := g2.sEdges ++ [pos, neg]
          Ecnt := g2.Ecnt + 2 }
      if g3.sEdges.length ≠ g3.Ecnt then none
      else if cfg.dlconfig.theory_propagation > 0 then insertInactive g3 c
      else some g3

/-- The edge of the pair that the polarity of `c` selects. -/
def selectEdge (A : AtomStore) (c : Enode) (edges : DLComplEdges) : DLEdge :=
  if getPolarity A c = lbool.l_True then edges.pos else edges.neg

/-- `DLGraph<T>::insertDynamic`.  (`updateDynDegree` keeps degree statistics of
the missing header; no function of this file reads them.) -/
def insertDynamic (cfg : Config) (A : AtomStore) (g : DLGraph) (c : Enode) (_reason : Bool) :
    Option (DLEdge × DLGraph) :=
  if !hasPolarity A c then none
  else
    match findEdges g.edgeMap c with
    | none => none
    | some edges =>
      let e := selectEdge A c edges
      match modifyAt g.dAdj e.u (fun l => l ++ [e]) with
      | none => none
      | some d1 =>
      match modifyAt g.dAdjInc e.v (fun l => l ++ [e]) with
      | none => none
      | some di1 =>
        let dEdges := g.dEdges ++ [e]
        let g1 : DLGraph :=
          { g with
            dAdj := d1
            dEdges := dEdges
            dAdjInc := di1
            max_dyn_edges :=
              if dEdges.length > g.max_dyn_edges then dEdges.length else g.max_dyn_edges }
        if cfg.dlconfig.theory_propagation > 0 then
          match deleteInactive g1 c with
          | none => none
          | some g2 => some (e, g2)
        else some (e, g1)

/-- `DLGraph<T>::insertImplied`. -/
def insertImplied (cfg : Config) (g : DLGraph) (c : Enode) : Option DLGraph :=
  if cfg.dlconfig.theory_propagation > 0 then deleteInactive g c else none

/-- `DLGraph<T>::deleteActive`. -/
def deleteActive (cfg : Config) (A : AtomStore) (g : DLGraph) (c : Enode) : Option DLGraph :=
  if !hasPolarity A c then none
  else
    match findEdges g.edgeMap c with
    | none => none
    | some edges =>
      let e := selectEdge A c edges
      match g.dAdj[e.u]? with
      | none => none
      | some du =>
      match du.getLast? with
      | none => none
      | some d =>
        if d ≠ e then none
        else
          match g.dEdges.getLast? with
          | none => none
          | some _ =>
          match g.dAdjInc[e.v]? with
          | none => none
          | some dv =>
          match dv.getLast? with
          | none => none
          | some i =>
            if i ≠ d then none
            else
              let g1 : DLGraph :=
                { g with
                  dAdj := g.dAdj.set e.u du.dropLast
                  dEdges := g.dEdges.dropLast
                  dAdjInc := g.dAdjInc.set e.v dv.dropLast
                  after_backtrack := true }
              if cfg.dlconfig.theory_propagation > 0 then insertInactive g1 c
              else some g1

/-! ## Epoch-stamped markers and the vertex heap -/

/-- Modelled from the spec: `initGamma` of the header `DLGraph.h`, which is not
among the sources.  A marker is valid iff its stamp matches the current token;
the reset is a bump of the token. -/
def initGamma (g : DLGraph) : DLGraph := { g with gamma_token := g.gamma_token + 1 }

/-- Modelled from the spec: `isGammaRead` of the missing header: the stamp of
the vertex matches the current token. -/
def isGammaRead (g : DLGraph) (v : Nat) : Bool := g.gamma_list v == g.gamma_token

/-- Modelled from the spec: `readGamma` of the missing header: stamp the vertex
with the current token. -/
def readGamma (g : DLGraph) (v : Nat) : DLGraph :=
  { g with gamma_list := Function.update g.gamma_list v g.gamma_token }

/-- Modelled from the spec: `doneGamma` of the missing header; the markers are
reset by the next `initGamma`, closing the epoch changes no field. -/
def doneGamma (g : DLGraph) : DLGraph := g

/-- Modelled from the spec: `initPiPrime` of the missing header: a bump of the
token of the `pi'` markers. -/
def initPiPrime (g : DLGraph) : DLGraph := { g with pi_prime_token := g.pi_prime_token + 1 }

/-- Modelled from the spec: `isPiPrime` of the missing header: the stamp of the
vertex matches the current token, i.e. `pi'` of the vertex has been set. -/
def isPiPrime (g : DLGraph) (v : Nat) : Bool := g.pi_prime_list v == g.pi_prime_token

/-- Modelled from the spec: `updatePiPrime` of the missing header: stamp the
vertex with the current token. -/
def updatePiPrime (g : DLGraph) (v : Nat) : DLGraph :=
  { g with pi_prime_list := Function.update g.pi_prime_list v g.pi_prime_token }

/-- Modelled from the spec: `donePiPrime` of the missing header; closing the
epoch changes no field. -/
def donePiPrime (g : DLGraph) : DLGraph := g

/-- Modelled from the spec: the comparator `DLVertex<T>::gammaGreaterThan` of
the missing header, which makes the standard heap a min-heap on `gamma`. -/
def gammaGreaterThan (g : DLGraph) (a b : Nat) : Bool := decide (g.gamma a > g.gamma b)

/-- `std::make_heap` with `gammaGreaterThan`.  The standard fixes the heap
property of the result, not the arrangement; the model takes the arrangement
that is sorted by ascending `gamma`, which is a heap whose front is a vertex of
least `gamma`; the assertions `is_heap( ... )` of the source hold for it. -/
def make_heap (g : DLGraph) : DLGraph :=
  { g with vertex_heap := g.vertex_heap.insertionSort (fun a b => g.gamma a ≤ g.gamma b) }

/-- The for loop of lines 551-552: every changed vertex gets its `old_pi` back. -/
def restorePi (old_pi : Nat → Int) : List Nat → (Nat → Int) → (Nat → Int)
  | [], pi => pi
  | x :: rest, pi => restorePi old_pi rest (Function.update pi x (old_pi x))

/-! ## The negative-cycle check -/

/-- The inner for loop of `checkNegCycle` (lines 530-592) over the remaining
edges of `adjList`, for the extracted vertex `s` and the source `u`.  The result
`(false, g)` is the `return false` of line 557, `(true, g)` the end of the loop. -/
def scanAdjList (u s : Nat) : AdjList → DLGraph → Option (Bool × DLGraph)
  | [], g => some (true, g)
  | it :: rest, g =>
    let t := it.v
    if isPiPrime g t then scanAdjList u s rest g
    else
      let g1 :=
        if isGammaRead g t then g
        else readGamma { g with gamma := Function.update g.gamma t 0 } t
      let value := g1.pi s + it.wt - g1.pi t
      if t = u then
        if value < g1.gamma t then
          match modifyAt g1.conflict_edges t (fun _ => some it) with
          | none => none
          | some ce =>
            some (false, donePiPrime (doneGamma
              { g1 with
                negCycleVertex := some u
                conflict_edges := ce
                pi := restorePi g1.old_pi g1.changed_vertices g1.pi
                changed_vertices := []
                vertex_heap := [] }))
        else scanAdjList u s rest g1
      else
        if value < g1.gamma t then
          if g1.gamma t = 0 then
            match modifyAt g1.conflict_edges t (fun _ => some it) with
            | none => none
            | some ce =>
              scanAdjList u s rest
                { g1 with
                  gamma := Function.update g1.gamma t value
                  vertex_heap := g1.vertex_heap ++ [t]
                  conflict_edges := ce }
          else if g1.gamma t < 0 then
            match modifyAt g1.conflict_edges t (fun _ => some it) with
            | none => none
            | some ce =>
              scanAdjList u s rest
                { g1 with
                  gamma := if t ∈ g1.vertex_heap then Function.update g1.gamma t value
                           else g1.gamma
                  conflict_edges := ce }
          else none
        else scanAdjList u s rest g1

/-- Lines 514-528 of `checkNegCycle`: the front `s` leaves the heap, whose other
elements are `rest`; on its first change `s` goes to the journal with its
potential; then `pi'(s) = pi(s) + gamma(s)` and `gamma(s) = 0`. -/
def extractVertex (g : DLGraph) (s : Nat) (rest : List Nat) : DLGraph :=
  let g1 := make_heap { g with vertex_heap := rest }
  let g2 :=
    if isPiPrime g1 s then g1
    else { g1 with
           old_pi := Function.update g1.old_pi s (g1.pi s)
           changed_vertices := g1.changed_vertices ++ [s] }
  let g3 := updatePiPrime { g2 with pi := Function.update g2.pi s (g2.pi s + g2.gamma s) } s
  readGamma { g3 with gamma := Function.update g3.gamma s 0 } s

/-- The while loop of `checkNegCycle` (lines 510-594) for the source `u`, with
a bound `fuel` on the number of iterations.  The result `(false, g)` is the
`return false` of line 557, `(true, g)` the exit with an empty heap, `none` a
failed assertion or the end of the fuel. -/
def negCycleLoop (u : Nat) : Nat → DLGraph → Option (Bool × DLGraph)
  | 0, g =>
    match g.vertex_heap with
    | [] => some (true, g)
    | _ :: _ => none
  | fuel + 1, g =>
    match g.vertex_heap with
    | [] => some (true, g)
    | s :: rest =>
      let g4 := extractVertex g s rest
      match g4.dAdj[s]? with
      | none => none
      | some adjList =>
        match scanAdjList u s adjList g4 with
        | none => none
        | some (false, g5) => some (false, g5)
        | some (true, g5) => negCycleLoop u fuel (make_heap g5)

/-- Lines 491-509 of `checkNegCycle` for the inserted edge `e`: the table of
conflict edges gets `Vcnt` rows, `gamma(v) = pi(u) + d - pi(v)`, the target `v`
goes on the heap when that is negative, and the markers are reset. -/
def startCheck (g1 : DLGraph) (e : DLEdge) : Option DLGraph :=
  let g2 : DLGraph := { g1 with conflict_edges := resize g1.conflict_edges g1.Vcnt none }
  let u := e.u
  let v := e.v
  let g3 : DLGraph := { g2 with gamma := Function.update g2.gamma v (g2.pi u + e.wt - g2.pi v) }
  let pushed : Option DLGraph :=
    if g3.gamma v < 0 then
      match modifyAt g3.conflict_edges v (fun _ => some e) with
      | none => none
      | some ce =>
        some { make_heap { g3 with vertex_heap := g3.vertex_heap ++ [v] } with
               conflict_edges := ce }
    else some g3
  match pushed with
  | none => none
  | some g4 => some (initPiPrime (initGamma g4))

/-- `DLGraph<T>::checkNegCycle`, with a bound `fuel` on the iterations of its
while loop.  (The block under `PRINT_CLUSTERS` is a diagnostic dump; the test
`e == NULL` never holds, `insertDynamic` asserts `e`.) -/
def checkNegCycle (cfg : Config) (A : AtomStore) (g : DLGraph) (c : Enode) (reason : Bool)
    (fuel : Nat) : Option (Bool × DLGraph) :=
  if g.changed_vertices ≠ [] then none
  else
    match insertDynamic cfg A g c reason with
    | none => none
    | some (e, g1) =>
      match startCheck g1 e with
      | none => none
      | some g5 =>
        match negCycleLoop e.u fuel g5 with
        | none => none
        | some (false, g6) => some (false, g6)
        | some (true, g6) =>
          some (true, { donePiPrime (doneGamma g6) with changed_vertices := [] })

/-! ## Runs of `getDLEdge` -/

/-- A run of the calls `getDLEdge( e )` for the atoms of a list, in order. -/
def getDLEdges (cfg : Config) (A : AtomStore) : List Enode → DLGraph → Option DLGraph
  | [], g => some g
  | e :: rest, g =>
    match getDLEdge cfg A g e with
    | none => none
    | some (_, g1) => getDLEdges cfg A rest g1

/-- The distinct atoms of a list in the order of their first mention, behind
the atoms `seen` that were mentioned before. -/
def distinctAtoms : List Enode → List Enode → List Enode
  | seen, [] => seen
  | seen, e :: rest =>
    if e ∈ seen then distinctAtoms seen rest else distinctAtoms (seen ++ [e]) rest

/-- The entries of `edgeMap` carry the identifiers of their position and their
own atom, and `find` on the atom of an entry gives that entry. -/
def EdgeIdsOk (m : List (Enode × DLComplEdges)) : Prop :=
  ∀ k a p, m[k]? = some (a, p) →
    p.pos.id = 2 * k ∧ p.neg.id = 2 * k + 1 ∧ p.pos.c = a ∧ p.neg.c = a ∧
      findEdges m a = some p

/-- The atom `c` is inactive: both edges of its pair are in the inactive views,
the out-list of their source and the in-list of their target. -/
def IsInactive (g : DLGraph) (c : Enode) : Prop :=
  ∃ p, findEdges g.edgeMap c = some p ∧
    p.pos ∈ g.hAdj.getD p.pos.u [] ∧ p.pos ∈ g.hAdjInc.getD p.pos.v [] ∧
    p.neg ∈ g.hAdj.getD p.neg.u [] ∧ p.neg ∈ g.hAdjInc.getD p.neg.v []

/-- The fields that the scan of an adjacency list leaves alone: potentials,
saved potentials, the journal of changed vertices, the `pi'` markers and the
active adjacency. -/
def SameCore (g g' : DLGraph) : Prop :=
  g'.pi = g.pi ∧ g'.old_pi = g.old_pi ∧ g'.changed_vertices = g.changed_vertices ∧
    g'.pi_prime_list = g.pi_prime_list ∧ g'.pi_prime_token = g.pi_prime_token ∧
    g'.dAdj = g.dAdj

/-- The journal invariant of `checkNegCycle` with respect to the potentials
`pi0` at the call: the changed vertices are the vertices with a valid `pi'`
marker, their `old_pi` is the potential at the call, and every other vertex
still has its potential. -/
def JournalInv (pi0 : Nat → Int) (g : DLGraph) : Prop :=
  (∀ x, x ∈ g.changed_vertices → g.old_pi x = pi0 x) ∧
    (∀ x, x ∉ g.changed_vertices → g.pi x = pi0 x) ∧
    (∀ x, isPiPrime g x = true ↔ x ∈ g.changed_vertices)

/-- The edge is feasible for the potentials: `pi[u] + w - pi[v] >= 0`. -/
abbrev Feasible (g : DLGraph) (e : DLEdge) : Prop := 0 ≤ g.pi e.u + e.wt - g.pi e.v

/-- Every edge of the active adjacency `dAdj` is feasible. -/
abbrev AllFeasible (g : DLGraph) : Prop := ∀ l ∈ g.dAdj, ∀ e ∈ l, Feasible g e

/-- The edges form a directed walk from the vertex `a` to the vertex `b`. -/
def IsWalk : List DLEdge → Nat → Nat → Prop
  | [], a, b => a = b
  | e :: rest, a, b => e.u = a ∧ IsWalk rest e.v b

/-- The active graph has a directed cycle of negative total weight: a closed
walk of at least one edge, every edge in the active list of its source. -/
def HasNegCycle (g : DLGraph) : Prop :=
  ∃ (es : List DLEdge) (a : Nat), es ≠ [] ∧ (∀ e ∈ es, e ∈ g.dAdj.getD e.u []) ∧
    IsWalk es a a ∧ (es.map (fun e => e.wt)).sum < 0

/-! ## Concrete inputs -/

/-- Integer difference logic with theory propagation switched on. -/
def exCfg : Config := ⟨Logic.QF_IDL, ⟨1⟩, false, 1⟩

/-- The atom store in which no atom has a polarity. -/
def exNoPol : AtomStore := fun _ => ⟨lbool.l_Undef, false, false⟩

/-- The atom store in which every atom is asserted with polarity `l_True`. -/
def exAllTrue : AtomStore := fun _ => ⟨lbool.l_True, true, false⟩

/-- The atom store in which every atom is asserted with polarity `l_False`. -/
def exAllFalse : AtomStore := fun _ => ⟨lbool.l_False, true, false⟩

/-- The atom `x0 - x1 <= 3`. -/
def exAtom1 : Enode := .leq (.minus (.var 0) (.var 1)) (.num 3)

/-- The atom `x1 - x2 <= -2`. -/
def exAtom2 : Enode := .leq (.minus (.var 1) (.var 2)) (.num (-2))

/-- The atom `x1 - x0 <= -4`, which closes a negative cycle with `exAtom1`. -/
def exAtom3 : Enode := .leq (.minus (.var 1) (.var 0)) (.num (-4))

/-- The atom `x0 <= x0`, whose two edges are loops at the vertex of `x0`: the
positive one of weight 0, the negative one of weight -1. -/
def exSelfAtom : Enode := .leq (.var 0) (.var 0)

/-- The graph after `insertStatic` of `exAtom1`. -/
def exGraph1 : DLGraph := (insertStatic exCfg exNoPol DLGraph.empty exAtom1).getD DLGraph.empty

/-- The graph after `insertStatic` of `exAtom1` and `exAtom3` and a successful
`checkNegCycle` of `exAtom1` with polarity `l_True`. -/
def exGraph13 : DLGraph :=
  match insertStatic exCfg exNoPol exGraph1 exAtom3 with
  | none => DLGraph.empty
  | some g =>
    match checkNegCycle exCfg exAllTrue g exAtom1 false 1 with
    | none => DLGraph.empty
    | some (_, g1) => g1

/-- The graph after `insertStatic` of `exAtom1` and `exAtom2` and a successful
`checkNegCycle` of `exAtom1` with polarity `l_True`. -/
def exGraph12 : DLGraph :=
  match insertStatic exCfg exNoPol exGraph1 exAtom2 with
  | none => DLGraph.empty
  | some g =>
    match checkNegCycle exCfg exAllTrue g exAtom1 false 1 with
    | none => DLGraph.empty
    | some (_, g1) => g1

/-- The graph after `insertStatic` of `exSelfAtom`. -/
def exSelfGraph : DLGraph :=
  (insertStatic exCfg exNoPol DLGraph.empty exSelfAtom).getD DLGraph.empty

/-! ## The potential repair seen through the fields it reads -/

/-- The fields of the graph that the repair loop of `checkNegCycle` reads: the
active adjacency, the potentials, `gamma`, the two markers and the heap. -/
structure RepairView where
  dAdj : List AdjList
  pi : Nat → Int
  gamma : Nat → Int
  read : Nat → Bool
  prime : Nat → Bool
  heap : List Nat

/-- The view of a graph. -/
def DLGraph.view (g : DLGraph) : RepairView :=
  ⟨g.dAdj, g.pi, g.gamma, isGammaRead g, isPiPrime g, g.vertex_heap⟩

/-- The slack that the repair still owes a vertex: its `gamma` while it waits
on the heap, 0 otherwise. -/
def RepairView.owed (v : RepairView) (x : Nat) : Int := if x ∈ v.heap then v.gamma x else 0

/-- The invariant of the repair for the potentials `pi0` at the call and the
activated edge `e`, while the adjacency list of the extracted vertex `s` still
has the edges `pending` to scan. -/
structure ScanInv (pi0 : Nat → Int) (e : DLEdge) (s : Nat) (pending : AdjList)
    (v : RepairView) : Prop where
  placed : ∀ (i : Nat) (l : AdjList), v.dAdj[i]? = some l → ∀ x ∈ l, x.u = i
  old : ∀ (i : Nat) (l : AdjList), v.dAdj[i]? = some l → ∀ x ∈ l, x = e ∨ 0 ≤ pi0 i + x.wt - pi0 x.v
  noloop : e.u ≠ e.v
  unprocessed : ∀ x, v.prime x = false → v.pi x = pi0 x
  lower : ∀ x, v.prime x = true → v.pi x ≤ pi0 x
  source : v.prime e.u = false ∧ e.u ∉ v.heap
  heap_ok : ∀ x ∈ v.heap, v.prime x = false ∧ v.gamma x < 0 ∧ v.read x = true
  nodup : v.heap.Nodup
  idle : ∀ x, v.prime x = false → x ∉ v.heap → v.read x = true → v.gamma x = 0
  relaxed : ∀ (i : Nat) (l : AdjList), v.dAdj[i]? = some l → ∀ x ∈ l, v.prime i = true → v.prime x.v = false →
    (i = s → x ∉ pending) → v.owed x.v ≤ v.pi i + x.wt - pi0 x.v
  relaxed_new : v.prime e.v = false → v.owed e.v ≤ pi0 e.u + e.wt - pi0 e.v
  finished : ∀ (i : Nat) (l : AdjList), v.dAdj[i]? = some l → ∀ x ∈ l, v.prime i = true → v.prime x.v = true →
    0 ≤ v.pi i + x.wt - v.pi x.v
  finished_new : v.prime e.v = true → 0 ≤ pi0 e.u + e.wt - v.pi e.v
  order : ∀ x, v.prime x = true → ∀ y ∈ v.heap, v.pi x - pi0 x ≤ v.gamma y

/-- What holds of the extracted vertex `s` during the scan of its list: it is
processed, no processed vertex was lowered by less, and the pending edges are
edges of its row. -/
structure ScanCur (pi0 : Nat → Int) (s : Nat) (pending : AdjList) (v : RepairView) : Prop where
  cur : v.prime s = true
  latest : ∀ x, v.prime x = true → v.pi x - pi0 x ≤ v.pi s - pi0 s
  pend : ∃ l, v.dAdj[s]? = some l ∧ ∀ x ∈ pending, x ∈ l

/-- The view at the first loop head when the target of the new edge was pushed:
nothing is processed or read, the heap holds the target alone with the
negative slack of the new edge. -/
structure InitView (pi0 : Nat → Int) (e : DLEdge) (v : RepairView) : Prop where
  placed : ∀ (i : Nat) (l : AdjList), v.dAdj[i]? = some l → ∀ x ∈ l, x.u = i
  old : ∀ (i : Nat) (l : AdjList), v.dAdj[i]? = some l → ∀ x ∈ l, x = e ∨ 0 ≤ pi0 i + x.wt - pi0 x.v
  noloop : e.u ≠ e.v
  pi_eq : v.pi = pi0
  no_prime : ∀ x, v.prime x = false
  no_read : ∀ x, v.read x = false
  heap_eq : v.heap = [e.v]
  gamma_eq : v.gamma e.v = pi0 e.u + e.wt - pi0 e.v
  gamma_neg : v.gamma e.v < 0

/-- Every edge stored in row `i` of the active adjacency leaves the vertex `i`. -/
def WellPlaced (g : DLGraph) : Prop :=
  ∀ (i : Nat) (l : AdjList), g.dAdj[i]? = some l → ∀ x ∈ l, x.u = i

/-- The invariant at the head of the while loop of `checkNegCycle`: the repair
invariant with a heap sorted by `gamma`, or the view of the first head. -/
def LoopHead (pi0 : Nat → Int) (e : DLEdge) (g : DLGraph) : Prop :=
  (ScanInv pi0 e 0 [] g.view ∧ g.vertex_heap.Sorted (fun a b => g.gamma a ≤ g.gamma b)) ∨
    InitView pi0 e g.view

/-! ## Rows of the inactive views -/

/-- Row `k` of a table of adjacency lists after the edge `a` was deleted from
row `i` and then the edge `b` from row `j`, as `deleteInactive` does with the
two edges of a pair. -/
def erasedRow (t : List AdjList) (i j : Nat) (a b : DLEdge) (k : Nat) : AdjList :=
  let r := t.getD k []
  let r1 := if k = i then deleteFromAdjList r a else r
  if k = j then deleteFromAdjList r1 b else r1

/-- The atom `c` is implied as far as the graph can tell: it has a pair, and
neither edge of the pair is in its row of an inactive view. -/
def IsImplied (g : DLGraph) (c : Enode) : Prop :=
  ∃ p, findEdges g.edgeMap c = some p ∧
    p.pos ∉ g.hAdj.getD p.pos.u [] ∧ p.pos ∉ g.hAdjInc.getD p.pos.v [] ∧
    p.neg ∉ g.hAdj.getD p.neg.u [] ∧ p.neg ∉ g.hAdjInc.getD p.neg.v []

/-- The atom store in which every atom is deduced and asserted with polarity
`l_True`. -/
def exDeducedTrue : AtomStore := fun _ => ⟨lbool.l_True, true, true⟩

/-- The graph after `insertStatic` of `exAtom1` and `insertImplied` of it. -/
def exImplied1 : DLGraph := (insertImplied exCfg exGraph1 exAtom1).getD DLGraph.empty

/-- The tables of the graph store, which `checkNegCycle` hands on as
`insertDynamic` left them: the maps, the counters and every adjacency view. -/
structure SameStore (g g' : DLGraph) : Prop where
  vertexMap : g'.vertexMap = g.vertexMap
  edgeMap : g'.edgeMap = g.edgeMap
  Vcnt : g'.Vcnt = g.Vcnt
  Ecnt : g'.Ecnt = g.Ecnt
  sAdj : g'.sAdj = g.sAdj
  dAdj : g'.dAdj = g.dAdj
  dAdjInc : g'.dAdjInc = g.dAdjInc
  hAdj : g'.hAdj = g.hAdj
  hAdjInc : g'.hAdjInc = g.hAdjInc
  iAdj : g'.iAdj = g.iAdj
  sEdges : g'.sEdges = g.sEdges
  dEdges : g'.dEdges = g.dEdges
  hEdges : g'.hEdges = g.hEdges

/-! ## The conflict walk and the scenarios -/

/-- Modelled from the spec: the reconstruction of the conflict cycle, whose code
is not among the sources: "the cycle is reconstructed by walking
`conflict_edges` back from `neg_cycle_vertex` until the source is revisited".
From the vertex `s` the walk takes the edge `conflict_edges[ s ]` and steps to
the source of that edge, until that source is the vertex `src` the walk began
at.  The result lists the edges in the order of the walk, so against their
direction; `fuel` bounds the number of steps, and `none` is a missing entry or
the end of the fuel. -/
def conflictWalk (ce : List (Option DLEdge)) (src : Nat) : Nat → Nat → Option (List DLEdge)
  | 0, _ => none
  | fuel + 1, s =>
    match ce[s]? with
    | some (some ed) =>
      if ed.u = src then some [ed]
      else (conflictWalk ce src fuel ed.u).map (fun l => ed :: l)
    | _ => none

/-- The atom `x2 - x0 <= -2`, which closes a negative cycle with `exAtom1` and
`exAtom2`. -/
def exAtom4 : Enode := .leq (.minus (.var 2) (.var 0)) (.num (-2))

/-- The atom `x0 - x1 <= 0`. -/
def exAtom5 : Enode := .leq (.minus (.var 0) (.var 1)) (.num 0)

/-- The atom `x1 - x0 <= -1`, the negation of `x1 - x0 <= 0` over the integers. -/
def exAtom6 : Enode := .leq (.minus (.var 1) (.var 0)) (.num (-1))

/-- A run of `insertStatic` over a list of atoms, none of which has a polarity
yet; a failed call leaves the empty graph. -/
def exStatic (atoms : List Enode) : DLGraph :=
  atoms.foldl (fun g a => (insertStatic exCfg exNoPol g a).getD DLGraph.empty) DLGraph.empty

/-- The state that a call of `checkNegCycle` with polarity `pol` for every atom
leaves, with bound 2 on the loop; a failed call leaves the empty graph. -/
def exCheck (A : AtomStore) (g : DLGraph) (c : Enode) : DLGraph :=
  match checkNegCycle exCfg A g c false 2 with
  | some (_, g1) => g1
  | none => DLGraph.empty

/-- The graph of scenario 2: the atoms `x0 - x1 <= 3`, `x1 - x2 <= -2` and
`x2 - x0 <= -2` registered, nothing active, every potential 0. -/
def exScen2 : DLGraph := exStatic [exAtom1, exAtom2, exAtom4]

/-- The graph of scenario 4: the atoms `x0 - x1 <= 0` and `x1 - x0 <= -1`
registered, nothing active, every potential 0. -/
def exScen4 : DLGraph := exStatic [exAtom5, exAtom6]

/-! ## The states that the operations reach -/

/-- The edge that an entry of the trail, an atom with the polarity it was
asserted with, selects from the pair of the atom: pos for `l_True`, neg
otherwise, as `insertDynamic` and `deleteActive` select it. -/
def trailEdge (m : List (Enode × DLComplEdges)) (cp : Enode × lbool) : Option DLEdge :=
  (findEdges m cp.1).map (fun p => if cp.2 = lbool.l_True then p.pos else p.neg)

/-- The states of the graph store that the operations reach from the empty
graph, each with its trail: the asserted atoms that are still active, the most
recent first, with the polarity of their assertion.  `insertStatic` registers
an atom once; an activation (`insertDynamic`, or `checkNegCycle` around it)
takes an atom that is not on the trail; `deleteActive` follows the LIFO
discipline, it retracts the atom on top of the trail, whose polarity is still
the asserted one; `insertImplied` takes any atom. -/
inductive Reach (cfg : Config) : List (Enode × lbool) → DLGraph → Prop
  | init : Reach cfg [] DLGraph.empty
  | static {st : List (Enode × lbool)} {g g' : DLGraph} (A : AtomStore) (c : Enode) :
      Reach cfg st g → findEdges g.edgeMap c = none → insertStatic cfg A g c = some g' →
      Reach cfg st g'
  | dynamic {st : List (Enode × lbool)} {g g' : DLGraph} (A : AtomStore) (c : Enode)
      (reason : Bool) (e : DLEdge) :
      Reach cfg st g → c ∉ st.map Prod.fst → insertDynamic cfg A g c reason = some (e, g') →
      Reach cfg ((c, getPolarity A c) :: st) g'
  | check {st : List (Enode × lbool)} {g g' : DLGraph} (A : AtomStore) (c : Enode)
      (reason : Bool) (fuel : Nat) (b : Bool) :
      Reach cfg st g → c ∉ st.map Prod.fst →
      checkNegCycle cfg A g c reason fuel = some (b, g') →
      Reach cfg ((c, getPolarity A c) :: st) g'
  | delete {st : List (Enode × lbool)} {g g' : DLGraph} (A : AtomStore) (c : Enode) :
      Reach cfg ((c, getPolarity A c) :: st) g → deleteActive cfg A g c = some g' →
      Reach cfg st g'
  | implied {st : List (Enode × lbool)} {g g' : DLGraph} (c : Enode) :
      Reach cfg st g → insertImplied cfg g c = some g' → Reach cfg st g'

/-- The number of times the edge `x` is in row `i` of a table. -/
def rowCount (t : List AdjList) (i : Nat) (x : DLEdge) : Nat := (t.getD i []).count x

/-- The edge `x` occurs exactly once in the table, in row `j`. -/
def OnceAt (t : List AdjList) (j : Nat) (x : DLEdge) : Prop :=
  ∀ i, rowCount t i x = if i = j then 1 else 0

/-- The edge `x` occurs in no row of the table. -/
def Nowhere (t : List AdjList) (x : DLEdge) : Prop := ∀ i, rowCount t i x = 0

/-- Both edges of the pair occur exactly once in each inactive view, in the
out-row of their source and the in-row of their target. -/
def HPresent (g : DLGraph) (p : DLComplEdges) : Prop :=
  OnceAt g.hAdj p.pos.u p.pos ∧ OnceAt g.hAdjInc p.pos.v p.pos ∧
    OnceAt g.hAdj p.neg.u p.neg ∧ OnceAt g.hAdjInc p.neg.v p.neg

/-- No edge of the pair occurs in an inactive view. -/
def HAbsent (g : DLGraph) (p : DLComplEdges) : Prop :=
  Nowhere g.hAdj p.pos ∧ Nowhere g.hAdjInc p.pos ∧
    Nowhere g.hAdj p.neg ∧ Nowhere g.hAdjInc p.neg

/-- No edge of the pair occurs in an active view. -/
def DAbsent (g : DLGraph) (p : DLComplEdges) : Prop :=
  Nowhere g.dAdj p.pos ∧ Nowhere g.dAdjInc p.pos ∧
    Nowhere g.dAdj p.neg ∧ Nowhere g.dAdjInc p.neg

/-- The edge `e` of a pair occurs exactly once in each active view, in the
out-row of its source and the in-row of its target, and the other edge `e'` of
the pair in none. -/
def DPresent (g : DLGraph) (e e' : DLEdge) : Prop :=
  OnceAt g.dAdj e.u e ∧ OnceAt g.dAdjInc e.v e ∧ Nowhere g.dAdj e' ∧ Nowhere g.dAdjInc e'

/-- The atom of the pair is inactive: both edges once in `hAdj` and `hAdjInc`,
none in `dAdj` and `dAdjInc`. -/
def AtomInactive (g : DLGraph) (p : DLComplEdges) : Prop := HPresent g p ∧ DAbsent g p

/-- The atom of the pair is active: one of its edges once in `dAdj` and
`dAdjInc` and the other not, and none in `hAdj` and `hAdjInc`. -/
def AtomActive (g : DLGraph) (p : DLComplEdges) : Prop :=
  HAbsent g p ∧ (DPresent g p.pos p.neg ∨ DPresent g p.neg p.pos)

/-- The atom of the pair is implied: its edges are in neither kind of view. -/
def AtomImplied (g : DLGraph) (p : DLComplEdges) : Prop := HAbsent g p ∧ DAbsent g p

/-- The invariant of the reached states for the trail `st`: the identifiers of
`edgeMap` are in order, every adjacency table has one row per vertex, the ends
of every edge are vertices, the trail has no atom twice, `dEdges` lists the
edges of the trail from the oldest to the most recent, their ends are vertices,
and the rows of `dAdj` and `dAdjInc` are `dEdges` sorted out by source and by
target. -/
structure StoreInv (st : List (Enode × lbool)) (g : DLGraph) : Prop where
  ids : EdgeIdsOk g.edgeMap
  len_d : g.dAdj.length = g.vertexMap.length
  len_di : g.dAdjInc.length = g.vertexMap.length
  len_h : g.hAdj.length = g.vertexMap.length
  len_hi : g.hAdjInc.length = g.vertexMap.length
  bounds : ∀ (a : Enode) (p : DLComplEdges), findEdges g.edgeMap a = some p →
    p.pos.u < g.vertexMap.length ∧ p.pos.v < g.vertexMap.length ∧
      p.neg.u = p.pos.v ∧ p.neg.v = p.pos.u
  nodup : (st.map Prod.fst).Nodup
  edges : st.reverse.map (trailEdge g.edgeMap) = g.dEdges.map some
  dbound : ∀ e ∈ g.dEdges, e.u < g.vertexMap.length ∧ e.v < g.vertexMap.length
  rows : ∀ (i : Nat), i < g.dAdj.length →
    g.dAdj[i]? = some (g.dEdges.filter (fun e => decide (e.u = i)))
  rows_in : ∀ (i : Nat), i < g.dAdjInc.length →
    g.dAdjInc[i]? = some (g.dEdges.filter (fun e => decide (e.v = i)))

/-- The invariant of the inactive views in the reached states, with theory
propagation on: the edges in the views are edges of known atoms, the pair of
every atom is in the views with both edges once or not at all, and the pair of
an atom on the trail is not in them. -/
structure InactiveInv (st : List (Enode × lbool)) (g : DLGraph) : Prop where
  known : ∀ (i : Nat) (x : DLEdge), x ∈ g.hAdj.getD i [] ∨ x ∈ g.hAdjInc.getD i [] →
    findEdges g.edgeMap x.c ≠ none
  state : ∀ (a : Enode) (p : DLComplEdges), findEdges g.edgeMap a = some p →
    HPresent g p ∨ HAbsent g p
  active : ∀ (a : Enode) (p : DLComplEdges), findEdges g.edgeMap a = some p →
    a ∈ st.map Prod.fst → HAbsent g p

/-- Row `k` of a table after the edge `a` was appended to row `i` and then the
edge `b` to row `j`, as `insertInactive` does with the two edges of a pair. -/
def appendedRow (t : List AdjList) (i j : Nat) (a b : DLEdge) (k : Nat) : AdjList :=
  let r := t.getD k []
  let r1 := if k = i then r ++ [a] else r
  if k = j then r1 ++ [b] else r1

/-- The graph after `insertStatic` of `exAtom1` and `insertDynamic` of it with
polarity `l_True`. -/
def exActive1 : DLGraph :=
  match insertDynamic exCfg exAllTrue exGraph1 exAtom1 false with
  | some (_, g) => g
  | none => DLGraph.empty

/-! ## The conflict edges during the repair -/

/-- The walk over `conflict_edges` from the vertex `x` back to the source `u`
visits the edges `es`, in this order: every visited vertex is processed, its
entry is an active edge that enters it, and the walk ends with the first edge
that leaves `u`. -/
def Chain (ce : List (Option DLEdge)) (dAdj : List AdjList) (prime : Nat → Bool) (u : Nat) :
    Nat → List DLEdge → Prop
  | _, [] => False
  | x, ed :: rest =>
    ce[x]? = some (some ed) ∧ ed.v = x ∧ prime x = true ∧ ed ∈ dAdj.getD ed.u [] ∧
      (if ed.u = u then rest = [] else Chain ce dAdj prime u ed.u rest)

/-- The invariant of the conflict edges for the potentials `pi0` at the call
and the activated edge `e`: from every processed vertex the walk over
`conflict_edges` leads back to the source along active edges whose weights add
up to the change of potential, and every vertex on the heap has the entry of
the edge that gave it its `gamma`. -/
structure WalkInv (pi0 : Nat → Int) (e : DLEdge) (v : RepairView)
    (ce : List (Option DLEdge)) : Prop where
  placed : ∀ (i : Nat) (l : AdjList), v.dAdj[i]? = some l → ∀ x ∈ l, x.u = i
  src_unprimed : v.prime e.u = false
  src_off : e.u ∉ v.heap
  unproc : ∀ x, v.prime x = false → v.pi x = pi0 x
  chains : ∀ x, v.prime x = true →
    ∃ es, Chain ce v.dAdj v.prime e.u x es ∧ v.pi x = pi0 e.u + (es.map (fun d => d.wt)).sum
  heap_ok : ∀ y ∈ v.heap, v.prime y = false ∧ v.read y = true ∧ v.gamma y < 0 ∧
    ∃ ed, ce[y]? = some (some ed) ∧ ed.v = y ∧ ed ∈ v.dAdj.getD ed.u [] ∧
      v.prime ed.u = true ∧ v.gamma y = v.pi ed.u + ed.wt - pi0 y
  nodup : v.heap.Nodup
  idle : ∀ x, v.prime x = false → x ∉ v.heap → v.read x = true → v.gamma x = 0

/-- The conflict edges at the first loop head when the target of the new edge
was pushed: nothing is processed or read, the heap holds the target alone, and
its entry is the new edge. -/
structure WalkInit (pi0 : Nat → Int) (e : DLEdge) (v : RepairView)
    (ce : List (Option DLEdge)) : Prop where
  placed : ∀ (i : Nat) (l : AdjList), v.dAdj[i]? = some l → ∀ x ∈ l, x.u = i
  noloop : e.u ≠ e.v
  pi_eq : v.pi = pi0
  no_prime : ∀ x, v.prime x = false
  no_read : ∀ x, v.read x = false
  heap_eq : v.heap = [e.v]
  gamma_eq : v.gamma e.v = pi0 e.u + e.wt - pi0 e.v
  entry : ce[e.v]? = some (some e)
  active : e ∈ v.dAdj.getD e.u []

/-- What the conflict walk shows after `checkNegCycle` returned `false` for the
source `src`: `negCycleVertex` is the source, the walk from it is back at the
source after finitely many steps, every edge it visits is active, the edges
form a directed cycle through the source, and their weights add up to less
than 0. -/
def ConflictCycle (g : DLGraph) (src : Nat) : Prop :=
  g.negCycleVertex = some src ∧
    ∃ es, conflictWalk g.conflict_edges src es.length src = some es ∧
      (∀ x ∈ es, x ∈ g.dAdj.getD x.u []) ∧ IsWalk es.reverse src src ∧
      (es.map (fun d => d.wt)).sum < 0

/-- No marker carries a stamp ahead of its token. -/
def Stamps (g : DLGraph) : Prop :=
  (∀ x, g.pi_prime_list x ≤ g.pi_prime_token) ∧ (∀ x, g.gamma_list x ≤ g.gamma_token)

/-- The state between two calls of the interface: the heap of the repair is
empty and no marker carries a stamp ahead of its token. -/
def Idle (g : DLGraph) : Prop := g.vertex_heap = [] ∧ Stamps g

/-- The heap and the markers of two states agree. -/
def SameMarks (g g' : DLGraph) : Prop :=
  g'.vertex_heap = g.vertex_heap ∧ g'.pi_prime_list = g.pi_prime_list ∧
    g'.pi_prime_token = g.pi_prime_token ∧ g'.gamma_list = g.gamma_list ∧
    g'.gamma_token = g.gamma_token

/-! ## The shortest-path passes -/

/-- `DL_sssp_direction`. -/
inductive DL_sssp_direction
  | DL_sssp_forward
  | DL_sssp_backward
deriving DecidableEq, Repr

/-- The members of `DLGraph<T>`, `DLVertex<T>` and `DLEdge<T>` that only the
shortest-path passes write; the passes read the tables and the potentials of
`DLGraph` and leave them alone.  Fields of a vertex are maps from the vertex
id, fields of an edge are maps from the edge. -/
structure SPState where
  /-- Field `dx` of the vertices, the distance of the forward pass. -/
  dx : Nat → Int
  /-- Field `dy` of the vertices, the distance of the backward pass. -/
  dy : Nat → Int
  /-- Epoch stamp of the distance per vertex and the current token. -/
  dist_list : Nat → Nat
  dist_token : Nat
  /-- Epoch stamp of the final distance per vertex and the current token. -/
  final_dist_list : Nat → Nat
  final_dist_token : Nat
  /-- Fields `dx_relevant` and `dy_relevant` of the vertices. -/
  dx_relevant : Nat → Bool
  dy_relevant : Nat → Bool
  /-- Epoch stamps of the two relevancy flags per vertex and the current tokens. -/
  dx_rel_list : Nat → Nat
  dx_rel_token : Nat
  dy_rel_list : Nat → Nat
  dy_rel_token : Nat
  /-- Field `rwt` of the edges, its epoch stamp per edge and the current token. -/
  rwt : DLEdge → Int
  rwt_list : DLEdge → Nat
  rwt_token : Nat
  /-- Fields `dist_from_src` and `dist_from_dst` of the vertices. -/
  dist_from_src : Nat → Nat
  dist_from_dst : Nat → Nat
  max_dist_from_src : Nat
  max_dist_from_dst : Nat
  pq_dx : List Nat
  pq_dy : List Nat
  dx_relevant_vertices : List Nat
  dy_relevant_vertices : List Nat
  total_in_deg_dx_rel : Nat
  total_out_deg_dy_rel : Nat
  fSPT : List (Option DLEdge)
  bSPT : List (Option DLEdge)
  /-- The explanation paths, one row per edge identifier. -/
  shortest_paths : List (List DLEdge)
  max_adj_list_size : Nat

/-- The scratch state right after construction. -/
def SPState.empty : SPState where
  dx := fun _ => 0
  dy := fun _ => 0
  dist_list := fun _ => 0
  dist_token := 0
  final_dist_list := fun _ => 0
  final_dist_token := 0
  dx_relevant := fun _ => false
  dy_relevant := fun _ => false
  dx_rel_list := fun _ => 0
  dx_rel_token := 0
  dy_rel_list := fun _ => 0
  dy_rel_token := 0
  rwt := fun _ => 0
  rwt_list := fun _ => 0
  rwt_token := 0
  dist_from_src := fun _ => 0
  dist_from_dst := fun _ => 0
  max_dist_from_src := 0
  max_dist_from_dst := 0
  pq_dx := []
  pq_dy := []
  dx_relevant_vertices := []
  dy_relevant_vertices := []
  total_in_deg_dx_rel := 0
  total_out_deg_dy_rel := 0
  fSPT := []
  bSPT := []
  shortest_paths := []
  max_adj_list_size := 0

/-- Modelled from the spec: `initDist` of the header `DLGraph.h`, which is not
among the sources: "a field is valid iff its stamp matches the current token.
Reset is an O(1) token bump". -/
def initDist (s : SPState) : SPState := { s with dist_token := s.dist_token + 1 }

/-- Modelled from the spec: `isDistRead` of the missing header: the stamp of
the vertex matches the current token. -/
def isDistRead (s : SPState) (v : Nat) : Bool := s.dist_list v == s.dist_token

/-- Modelled from the spec: `readDist` of the missing header: stamp the vertex
with the current token. -/
def readDist (s : SPState) (v : Nat) : SPState :=
  { s with dist_list := Function.update s.dist_list v s.dist_token }

/-- Modelled from the spec: `doneDist` of the missing header; the markers are
reset by the next `initDist`, closing the epoch changes no field. -/
def doneDist (s : SPState) : SPState := s

/-- Modelled from the spec: `initFinalDist` of the missing header: a bump of
the token of the final distances. -/
def initFinalDist (s : SPState) : SPState :=
  { s with final_dist_token := s.final_dist_token + 1 }

/-- Modelled from the spec: `isDistFinal` of the missing header. -/
def isDistFinal (s : SPState) (v : Nat) : Bool := s.final_dist_list v == s.final_dist_token

/-- Modelled from the spec: `finalDist` of the missing header. -/
def finalDist (s : SPState) (v : Nat) : SPState :=
  { s with final_dist_list := Function.update s.final_dist_list v s.final_dist_token }

/-- Modelled from the spec: `doneFinalDist` of the missing header. -/
def doneFinalDist (s : SPState) : SPState := s

/-- Modelled from the spec: `initDxRel` of the missing header. -/
def initDxRel (s : SPState) : SPState := { s with dx_rel_token := s.dx_rel_token + 1 }

/-- Modelled from the spec: `isDxRelValid` of the missing header. -/
def isDxRelValid (s : SPState) (v : Nat) : Bool := s.dx_rel_list v == s.dx_rel_token

/-- Modelled from the spec: `updateDxRel` of the missing header. -/
def updateDxRel (s : SPState) (v : Nat) : SPState :=
  { s with dx_rel_list := Function.update s.dx_rel_list v s.dx_rel_token }

/-- Modelled from the spec: `initDyRel` of the missing header. -/
def initDyRel (s : SPState) : SPState := { s with dy_rel_token := s.dy_rel_token + 1 }

/-- Modelled from the spec: `isDyRelValid` of the missing header. -/
def isDyRelValid (s : SPState) (v : Nat) : Bool := s.dy_rel_list v == s.dy_rel_token

/-- Modelled from the spec: `updateDyRel` of the missing header. -/
def updateDyRel (s : SPState) (v : Nat) : SPState :=
  { s with dy_rel_list := Function.update s.dy_rel_list v s.dy_rel_token }

/-- Modelled from the spec: `initRwt` of the missing header: "`rwt` is memoized
per-edge with an epoch stamp". -/
def initRwt (s : SPState) : SPState := { s with rwt_token := s.rwt_token + 1 }

/-- Modelled from the spec: `isRwtValid` of the missing header. -/
def isRwtValid (s : SPState) (e : DLEdge) : Bool := s.rwt_list e == s.rwt_token

/-- Modelled from the spec: `updateRwt` of the missing header: stamp the edge
with the current token. -/
def updateRwt (s : SPState) (e : DLEdge) : SPState :=
  { s with rwt_list := Function.update s.rwt_list e s.rwt_token }

/-- Modelled from the spec: `DLVertex<T>::getDist` of the missing header: `dx`
in the forward pass, `dy` in the backward pass, the fields that
`iterateInactive` reads. -/
def getDist (s : SPState) (direction : DL_sssp_direction) (v : Nat) : Int :=
  match direction with
  | .DL_sssp_forward => s.dx v
  | .DL_sssp_backward => s.dy v

/-- Modelled from the spec: `DLVertex<T>::setDist` of the missing header. -/
def setDist (s : SPState) (direction : DL_sssp_direction) (v : Nat) (x : Int) : SPState :=
  match direction with
  | .DL_sssp_forward => { s with dx := Function.update s.dx v x }
  | .DL_sssp_backward => { s with dy := Function.update s.dy v x }

/-- Modelled from the spec: `DLVertex<T>::getDistFrom` of the missing header:
`dist_from_src` in the forward pass, `dist_from_dst` in the backward pass, the
fields that `updateSPT` reads. -/
def getDistFrom (s : SPState) (direction : DL_sssp_direction) (v : Nat) : Nat :=
  match direction with
  | .DL_sssp_forward => s.dist_from_src v
  | .DL_sssp_backward => s.dist_from_dst v

/-- Modelled from the spec: `DLVertex<T>::setDistFrom` of the missing header. -/
def setDistFrom (s : SPState) (direction : DL_sssp_direction) (v : Nat) (k : Nat) : SPState :=
  match direction with
  | .DL_sssp_forward => { s with dist_from_src := Function.update s.dist_from_src v k }
  | .DL_sssp_backward => { s with dist_from_dst := Function.update s.dist_from_dst v k }

/-- Modelled from the spec: `DLVertex<T>::getRelevancy` of the missing header:
`dx_relevant` in the forward pass, `dy_relevant` in the backward pass. -/
def getRelevancy (s : SPState) (direction : DL_sssp_direction) (v : Nat) : Bool :=
  match direction with
  | .DL_sssp_forward => s.dx_relevant v
  | .DL_sssp_backward => s.dy_relevant v

/-- Modelled from the spec: `DLVertex<T>::setRelevancy` of the missing header. -/
def setRelevancy (s : SPState) (direction : DL_sssp_direction) (v : Nat) (b : Bool) : SPState :=
  match direction with
  | .DL_sssp_forward => { s with dx_relevant := Function.update s.dx_relevant v b }
  | .DL_sssp_backward => { s with dy_relevant := Function.update s.dy_relevant v b }

/-- The heap of a direction: `pq_dx` in the forward pass, `pq_dy` in the
backward pass. -/
def pqOf (s : SPState) (direction : DL_sssp_direction) : List Nat :=
  match direction with
  | .DL_sssp_forward => s.pq_dx
  | .DL_sssp_backward => s.pq_dy

/-- The assignment of a vector to the heap of a direction. -/
def setPq (s : SPState) (direction : DL_sssp_direction) (l : List Nat) : SPState :=
  match direction with
  | .DL_sssp_forward => { s with pq_dx := l }
  | .DL_sssp_backward => { s with pq_dy := l }

/-- The arrangement of a heap of the shortest-path passes in the model: sorted
by ascending distance of the direction, which is a heap whose front is a vertex
of least distance. -/
def heapOrder (s : SPState) (direction : DL_sssp_direction) (l : List Nat) : List Nat :=
  l.insertionSort (fun a b => getDist s direction a ≤ getDist s direction b)

/-- Modelled from the spec: `pushPBheap` of the missing header: the vertex goes
on the min-heap of the direction, ordered by the distance. -/
def pushPBheap (s : SPState) (direction : DL_sssp_direction) (v : Nat) : SPState :=
  setPq s direction (heapOrder s direction (pqOf s direction ++ [v]))

/-- Modelled from the spec: `popPBheap` of the missing header, for a heap whose
front is followed by `rest`: the front leaves the heap. -/
def popPBheap (s : SPState) (direction : DL_sssp_direction) (rest : List Nat) : SPState :=
  setPq s direction (heapOrder s direction rest)

/-- Modelled from the spec: `modifyPBheap` of the missing header: the heap is
put in order again after the distance of a member changed. -/
def modifyPBheap (s : SPState) (direction : DL_sssp_direction) (_v : Nat) : SPState :=
  setPq s direction (heapOrder s direction (pqOf s direction))

/-- Modelled from the spec: `clearPBheap` of the missing header. -/
def clearPBheap (s : SPState) (direction : DL_sssp_direction) : SPState :=
  setPq s direction []

/-- Modelled from the spec: `insertRelevantVertices` of the missing header: the
vertex joins the relevant vertices of the direction, and the total of the
direction, which `iterateInactive` compares, grows by one.  The spec has the
scanner "choose the smaller of `|dx_relevant|` and `|dy_relevant|`", so the
totals `total_in_deg_dx_rel` and `total_out_deg_dy_rel`, which
`findHeavyEdges` resets together with the two lists, count the vertices of the
lists. -/
def insertRelevantVertices (_g : DLGraph) (s : SPState) (u : Nat)
    (direction : DL_sssp_direction) : SPState :=
  match direction with
  | .DL_sssp_forward =>
    { s with
      dx_relevant_vertices := s.dx_relevant_vertices ++ [u]
      total_in_deg_dx_rel := s.total_in_deg_dx_rel + 1 }
  | .DL_sssp_backward =>
    { s with
      dy_relevant_vertices := s.dy_relevant_vertices ++ [u]
      total_out_deg_dy_rel := s.total_out_deg_dy_rel + 1 }

/-- `DLGraph<T>::updateSPT`; `none` is an assignment outside the bounds of the
tree. -/
def updateSPT (s : SPState) (e : DLEdge) (go : DL_sssp_direction) : Option SPState :=
  match go with
  | .DL_sssp_forward =>
    let s1 :=
      if s.dist_from_src e.v > s.max_dist_from_src then
        { s with max_dist_from_src := s.dist_from_src e.v }
      else s
    match modifyAt s1.fSPT e.v (fun _ => some e) with
    | none => none
    | some t => some { s1 with fSPT := t }
  | .DL_sssp_backward =>
    let s1 :=
      if s.dist_from_dst e.u > s.max_dist_from_dst then
        { s with max_dist_from_dst := s.dist_from_dst e.u }
      else s
    match modifyAt s1.bSPT e.u (fun _ => some e) with
    | none => none
    | some t => some { s1 with bSPT := t }

/-- The end of an edge that a pass steps to: `(*it)->v` in the forward pass,
`(*it)->u` in the backward pass (line 752). -/
def farEnd (direction : DL_sssp_direction) (it : DLEdge) : Nat :=
  match direction with
  | .DL_sssp_forward => it.v
  | .DL_sssp_backward => it.u

/-- The end of an edge that a pass steps from. -/
def nearEnd (direction : DL_sssp_direction) (it : DLEdge) : Nat :=
  match direction with
  | .DL_sssp_forward => it.u
  | .DL_sssp_backward => it.v

/-- The body of the for loop of `findSSSP` (lines 750-820) for the edge `it` of
the adjacency list of the extracted vertex `u`, with the value `LAZY_GENERATION`
of the switch of the missing header and the counter `no_relevant`, an
`unsigned`.  The local counter `no_of_adj_edges` is never read.  The result
`none` is a failed assertion or an assignment outside a tree. -/
def relaxEdge (LAZY_GENERATION : Int) (g : DLGraph) (direction : DL_sssp_direction) (u : Nat)
    (rel_u : Bool) (it : DLEdge) (s : SPState) (no_relevant : Nat) : Option (SPState × Nat) :=
  let v := farEnd direction it
  if isDistFinal s v then some (s, no_relevant)
  else
    let valid : Option SPState :=
      if isRwtValid s it then some s
      else
        let r := g.pi it.u + it.wt - g.pi it.v
        if r ≥ 0 then some (updateRwt { s with rwt := Function.update s.rwt it r } it)
        else none
    match valid with
    | none => none
    | some s1 =>
      let dist := getDist s1 direction u + s1.rwt it
      if dist < 0 then none
      else if !isDistRead s1 v then
        let s2 := setDist s1 direction v dist
        match (if LAZY_GENERATION = 0 then updateSPT s2 it direction else some s2) with
        | none => none
        | some s3 =>
          let valid_rel_v :=
            if direction = .DL_sssp_forward then isDxRelValid s3 v else isDyRelValid s3 v
          let s4 :=
            if !valid_rel_v then
              let s3r := setRelevancy s3 direction v rel_u
              if direction = .DL_sssp_forward then updateDxRel s3r v else updateDyRel s3r v
            else s3
          if v ∈ pqOf s4 direction then none
          else
            let s5 := pushPBheap s4 direction v
            if getRelevancy s5 direction v = true then
              some (readDist (setDistFrom s5 direction v (getDistFrom s5 direction u + 1)) v,
                (no_relevant + 1) % 4294967296)
            else some (readDist s5 v, no_relevant)
      else
        if v ∉ pqOf s1 direction then none
        else if getDist s1 direction v > dist then
          let s2 := setDist s1 direction v dist
          let nr :=
            if getRelevancy s2 direction v = false ∧ rel_u = true then
              (no_relevant + 1) % 4294967296
            else if getRelevancy s2 direction v = true ∧ rel_u = false then
              (no_relevant + 4294967295) % 4294967296
            else no_relevant
          let s2r := setRelevancy s2 direction v rel_u
          let s3 := if direction = .DL_sssp_forward then updateDxRel s2r v else updateDyRel s2r v
          let s4 := modifyPBheap s3 direction v
          match (if LAZY_GENERATION = 0 then updateSPT s4 it direction else some s4) with
          | none => none
          | some s5 =>
            let s6 :=
              if getRelevancy s5 direction v = true then
                setDistFrom s5 direction v (getDistFrom s5 direction u + 1)
              else s5
            some (readDist s6 v, nr)
        else some (readDist s1 v, no_relevant)

/-- The for loop of `findSSSP` (lines 749-820) over the remaining edges of the
adjacency list of the extracted vertex `u`. -/
def scanSSSP (LAZY_GENERATION : Int) (g : DLGraph) (direction : DL_sssp_direction) (u : Nat)
    (rel_u : Bool) : AdjList → SPState → Nat → Option (SPState × Nat)
  | [], s, no_relevant => some (s, no_relevant)
  | it :: rest, s, no_relevant =>
    match relaxEdge LAZY_GENERATION g direction u rel_u it s no_relevant with
    | none => none
    | some (s1, nr) => scanSSSP LAZY_GENERATION g direction u rel_u rest s1 nr

/-- The state in which the for loop of `findSSSP` starts for the front `u` of
the heap, whose other elements are `rest` (lines 733-747), with the relevancy
`rel_u` that the loop hands on and the counter; `none` is an adjacency table
without the row of `u`. -/
def extractSSSP (g : DLGraph) (direction : DL_sssp_direction) (u : Nat) (rest : List Nat)
    (s : SPState) (no_relevant : Nat) : Option (SPState × Nat × Bool × AdjList) :=
  let s1 := finalDist (popPBheap s direction rest) u
  let s2 :=
    if getRelevancy s1 direction u = true then insertRelevantVertices g s1 u direction else s1
  let nr :=
    if getRelevancy s1 direction u = true then (no_relevant + 4294967295) % 4294967296
    else no_relevant
  let valid_rel_u :=
    if direction = .DL_sssp_forward then isDxRelValid s2 u else isDyRelValid s2 u
  let rel_u := if valid_rel_u then getRelevancy s2 direction u else false
  let s3 := if direction = .DL_sssp_forward then updateDxRel s2 u else updateDyRel s2 u
  match (if direction = .DL_sssp_forward then g.dAdj else g.dAdjInc)[u]? with
  | none => none
  | some adj_list =>
    let s4 :=
      if adj_list.length > s3.max_adj_list_size then
        { s3 with max_adj_list_size := adj_list.length }
      else s3
    some (s4, nr, rel_u, adj_list)

/-- The while loop of `findSSSP` (lines 731-824), with a bound `fuel` on the
number of iterations; `none` is a failed assertion or the end of the fuel. -/
def ssspLoop (LAZY_GENERATION : Int) (g : DLGraph) (direction : DL_sssp_direction) :
    Nat → SPState → Nat → Option SPState
  | 0, s, _ =>
    match pqOf s direction with
    | [] => some s
    | _ :: _ => none
  | fuel + 1, s, no_relevant =>
    match pqOf s direction with
    | [] => some s
    | u :: rest =>
      match extractSSSP g direction u rest s no_relevant with
      | none => none
      | some (s4, nr, rel_u, adj_list) =>
        match scanSSSP LAZY_GENERATION g direction u rel_u adj_list s4 nr with
        | none => none
        | some (s5, nr1) =>
          if nr1 ≤ 0 then some s5
          else ssspLoop LAZY_GENERATION g direction fuel s5 nr1

/-- `DLGraph<T>::findSSSP`, with the value of the switch `LAZY_GENERATION` and
a bound `fuel` on the iterations of its while loop. -/
def findSSSP (LAZY_GENERATION : Int) (g : DLGraph) (s : SPState) (x : Nat)
    (direction : DL_sssp_direction) (fuel : Nat) : Option SPState :=
  let s1 := initFinalDist (initDist s)
  if pqOf s1 direction ≠ [] then none
  else
    let s2 := readDist (setDist s1 direction x 0) x
    let s3 := setDistFrom s2 direction x 0
    let s3r := setRelevancy s3 direction x false
    let s4 := if direction = .DL_sssp_forward then updateDxRel s3r x else updateDyRel s3r x
    let s5 := pushPBheap s4 direction x
    match ssspLoop LAZY_GENERATION g direction fuel s5 0 with
    | none => none
    | some s6 => some (clearPBheap (doneFinalDist (doneDist s6)) direction)

/-! ## Paths in a direction -/

/-- The reduced weight of an edge for the potentials of the graph:
`pi[u] + wt - pi[v]` (line 764). -/
def rwtOf (g : DLGraph) (e : DLEdge) : Int := g.pi e.u + e.wt - g.pi e.v

/-- The adjacency list that a pass scans at the vertex `i`: the row of `dAdj`
in the forward pass, of `dAdjInc` in the backward pass (line 745). -/
def adjOf (g : DLGraph) (direction : DL_sssp_direction) (i : Nat) : AdjList :=
  (if direction = .DL_sssp_forward then g.dAdj else g.dAdjInc).getD i []

/-- The edges `es` are a path of active edges from the vertex `a` to the
vertex `b` in the direction of a pass: every edge is in the adjacency list of
the vertex that the path has reached, and leads to the far end of the edge.  In
the forward pass that is a directed path from `a` to `b`, in the backward pass
a directed path from `b` to `a` read from its end. -/
def ActivePath (g : DLGraph) (direction : DL_sssp_direction) : List DLEdge → Nat → Nat → Prop
  | [], a, b => a = b
  | e :: rest, a, b => e ∈ adjOf g direction a ∧ ActivePath g direction rest (farEnd direction e) b

/-- The total reduced weight of a path. -/
def pathRwt (g : DLGraph) (es : List DLEdge) : Int := (es.map (rwtOf g)).sum

/-- The reduced weights that the edges carry are right: an edge with a valid
stamp has `rwt = pi[u] + wt - pi[v]`. -/
def RwtOk (g : DLGraph) (s : SPState) : Prop :=
  ∀ e, isRwtValid s e = true → s.rwt e = rwtOf g e

/-- No distance marker of the scratch state carries a stamp ahead of its
token. -/
def DistStamps (s : SPState) : Prop :=
  (∀ x, s.dist_list x ≤ s.dist_token) ∧ (∀ x, s.final_dist_list x ≤ s.final_dist_token)

/-! ## A pass that ends early -/

/-- The atom `x0 - x1 <= 5`. -/
def exAtomA : Enode := .leq (.minus (.var 0) (.var 1)) (.num 5)

/-- The atom `x0 - x2 <= 1`. -/
def exAtomB : Enode := .leq (.minus (.var 0) (.var 2)) (.num 1)

/-- The atom `x2 - x1 <= 1`. -/
def exAtomC : Enode := .leq (.minus (.var 2) (.var 1)) (.num 1)

/-- The atom `x0 - x3 <= 0`. -/
def exAtomE : Enode := .leq (.minus (.var 0) (.var 3)) (.num 0)

/-- The graph with the atoms `x0 - x1 <= 5`, `x0 - x2 <= 1`, `x2 - x1 <= 1` and
`x0 - x3 <= 0` registered and then asserted with polarity `l_True` in this
order, each by a call of `checkNegCycle` that returns `true`; every potential
is 0. -/
def exSsspGraph : DLGraph :=
  exCheck exAllTrue (exCheck exAllTrue (exCheck exAllTrue (exCheck exAllTrue
    (exStatic [exAtomA, exAtomB, exAtomC, exAtomE]) exAtomA) exAtomB) exAtomC) exAtomE

/-- The scratch state in which `findHeavyEdges` calls the forward pass for the
edge `x0 -> x3` of `exSsspGraph` (lines 614-638): the trees have a row per
vertex, no reduced weight is valid, and the target `x3` of the edge is the only
vertex with a valid relevancy, which is `true`. -/
def exSsspState : SPState :=
  updateDxRel (setRelevancy (initDxRel (initRwt
    { SPState.empty with fSPT := resize [] 4 none, bSPT := resize [] 4 none }))
    .DL_sssp_forward 3 true) 3

/-- The scratch state after the forward pass from `x0` on `exSsspGraph`. -/
def exSsspDone : SPState :=
  (findSSSP 0 exSsspGraph exSsspState 0 .DL_sssp_forward 4).getD SPState.empty

/-! ## A pass seen through the fields it decides by -/

/-- The fields of the scratch state that decide a pass in a direction: the
distances, the two markers and the heap. -/
structure DistView where
  dist : Nat → Int
  read : Nat → Bool
  final : Nat → Bool
  heap : List Nat

/-- The view of a scratch state in a direction. -/
def SPState.view (s : SPState) (direction : DL_sssp_direction) : DistView :=
  ⟨getDist s direction, isDistRead s, isDistFinal s, pqOf s direction⟩

/-- A list of vertices sorted by ascending value of `f`. -/
def sortBy (f : Nat → Int) (l : List Nat) : List Nat :=
  l.insertionSort (fun a b => f a ≤ f b)

/-- The view after the body of the for loop for an edge of weight `w` from the
extracted vertex `u` to `v`. -/
def DistView.relax (V : DistView) (u v : Nat) (w : Int) : DistView :=
  if V.final v then V
  else if !V.read v then
    { V with
      dist := Function.update V.dist v (V.dist u + w)
      read := Function.update V.read v true
      heap := sortBy (Function.update V.dist v (V.dist u + w)) (V.heap ++ [v]) }
  else if V.dist v > V.dist u + w then
    { V with
      dist := Function.update V.dist v (V.dist u + w)
      read := Function.update V.read v true
      heap := sortBy (Function.update V.dist v (V.dist u + w)) V.heap }
  else { V with read := Function.update V.read v true }

/-- The view after the front `u` left the heap, whose other elements are
`rest`, and got its final distance. -/
def DistView.extract (V : DistView) (u : Nat) (rest : List Nat) : DistView :=
  { V with final := Function.update V.final u true, heap := sortBy V.dist rest }

/-- The invariant of a pass from `root` in a direction, while the adjacency
list of the extracted vertex `u` still has the edges `pending` to scan: a
vertex with a distance has a path of that reduced weight, the edges of the
vertices with a final distance are relaxed, no vertex on the heap is nearer
than a vertex with a final distance, and no path to a vertex with a final
distance is shorter than its distance. -/
structure SpInv (g : DLGraph) (direction : DL_sssp_direction) (root u : Nat)
    (pending : AdjList) (V : DistView) : Prop where
  root_final : V.final root = true
  root_dist : V.dist root = 0
  final_read : ∀ a, V.final a = true → V.read a = true
  heap_iff : ∀ y, y ∈ V.heap ↔ (V.read y = true ∧ V.final y = false)
  nodup : V.heap.Nodup
  sorted : V.heap.Sorted (fun a b => V.dist a ≤ V.dist b)
  attained : ∀ t, V.read t = true →
    ∃ es, ActivePath g direction es root t ∧ V.dist t = pathRwt g es
  relaxed : ∀ a, V.final a = true → ∀ e ∈ adjOf g direction a, (a = u → e ∉ pending) →
    V.read (farEnd direction e) = true ∧ V.dist (farEnd direction e) ≤ V.dist a + rwtOf g e
  order : ∀ a, V.final a = true → ∀ y ∈ V.heap, V.dist a ≤ V.dist y
  lower : ∀ t, V.final t = true → ∀ es, ActivePath g direction es root t →
    V.dist t ≤ pathRwt g es
  cur_final : V.final u = true
  cur_max : ∀ a, V.final a = true → V.dist a ≤ V.dist u

/-- The view at the first head of the while loop: the root alone has a
distance, which is 0, and is alone on the heap; no distance is final. -/
structure SpInit (root : Nat) (V : DistView) : Prop where
  heap_eq : V.heap = [root]
  dist_root : V.dist root = 0
  read_iff : ∀ y, V.read y = true ↔ y = root
  no_final : ∀ y, V.final y = false

/-- The distances, their markers, the heaps and the reduced weights of two
scratch states agree. -/
structure SameDist (s s' : SPState) : Prop where
  dx : s'.dx = s.dx
  dy : s'.dy = s.dy
  dist_list : s'.dist_list = s.dist_list
  dist_token : s'.dist_token = s.dist_token
  final_dist_list : s'.final_dist_list = s.final_dist_list
  final_dist_token : s'.final_dist_token = s.final_dist_token
  pq_dx : s'.pq_dx = s.pq_dx
  pq_dy : s'.pq_dy = s.pq_dy
  rwt : s'.rwt = s.rwt
  rwt_list : s'.rwt_list = s.rwt_list
  rwt_token : s'.rwt_token = s.rwt_token

/-- Every active edge in the adjacency lists of a direction has a
non-negative reduced weight. -/
def RwtNonneg (g : DLGraph) (direction : DL_sssp_direction) : Prop :=
  ∀ (a : Nat) (e : DLEdge), e ∈ adjOf g direction a → 0 ≤ rwtOf g e

/-! ## The shapes of an atom -/

/-- A numeric constant or a negated numeric constant. -/
def isConstLike (t : Enode) : Bool := t.isConstant || t.isUminusConstant

/-- A difference of two variables. -/
def isVarDiff : Enode → Bool
  | .minus a b => a.isVar && b.isVar
  | _ => false

/-- The four shapes of a canonicalized atom in the words of the
specification: var-var, var-const, const-var and diff-const, the last with the
difference on either side. -/
def fourShapes : Enode → Bool
  | .leq lhs rhs =>
    (lhs.isVar && rhs.isVar) || (lhs.isVar && isConstLike rhs) ||
      (isConstLike lhs && rhs.isVar) || (isVarDiff lhs && isConstLike rhs) ||
      (isConstLike lhs && isVarDiff rhs)
  | _ => false

/-- The atom `3 <= 5`, of none of the four shapes. -/
def exConstAtom : Enode := .leq (.num 3) (.num 5)

/-- The atom `5 <= x0`, of the shape const-var. -/
def exConstVar : Enode := .leq (.num 5) (.var 0)

/-- The atom `-5 <= x0`, of the shape const-var with a negated constant. -/
def exNegConstVar : Enode := .leq (.uminus (.num 5)) (.var 0)

/-! ## True weights -/

/-- The total weight of a path: the sum of the weights `wt` of its edges. -/
def pathWt (es : List DLEdge) : Int := (es.map (fun e => e.wt)).sum

/-- The graph with the atom `x1 - x2 <= -2` registered and asserted with
polarity `l_True` by a call of `checkNegCycle`, which returns `true` and lowers
the potential of the vertex of `x2` to -2. -/
def exNegGraph : DLGraph := exCheck exAllTrue (exStatic [exAtom2]) exAtom2

/-- The scratch state in which `findHeavyEdges` calls the forward pass for the
edge of `exNegGraph` (lines 614-638). -/
def exNegState : SPState :=
  updateDxRel (setRelevancy (initDxRel (initRwt
    { SPState.empty with fSPT := resize [] 2 none, bSPT := resize [] 2 none }))
    .DL_sssp_forward 1 true) 1

/-- The scratch state after the forward pass from the vertex of `x1` on
`exNegGraph`. -/
def exNegDone : SPState :=
  (findSSSP 0 exNegGraph exNegState 0 .DL_sssp_forward 2).getD SPState.empty

/-- The true weight that belongs to a distance of a pass from `x`: the
distance less the reduced-weight shift of a path between `x` and `t`, which is
`pi[x] - pi[t]` in the forward pass and `pi[t] - pi[x]` in the backward pass. -/
def trueDist (g : DLGraph) (s : SPState) (direction : DL_sssp_direction) (x t : Nat) : Int :=
  match direction with
  | .DL_sssp_forward => getDist s direction t - g.pi x + g.pi t
  | .DL_sssp_backward => getDist s direction t + g.pi x - g.pi t

/-! ## The search for heavy edges -/

/-- Modelled from the spec: `isParallelAndHeavy` of the header `DLGraph.h`, which
is not among the sources: "there is already an active edge `u -> v` with weight
`<= e.w`", an edge other than `e` in the row of `e.u`. -/
def isParallelAndHeavy (g : DLGraph) (e : DLEdge) : Bool :=
  (g.dAdj.getD e.u []).any (fun x => decide (x ≠ e) && decide (x.v = e.v) && decide (x.wt ≤ e.wt))

/-- The statement `if ( n > vec.size( ) ) vec.resize( n )` of lines 616-618. -/
def growTo {α : Type} (l : List α) (n : Nat) (d : α) : List α :=
  if n > l.length then resize l n d else l

/-- Modelled from the spec: `clearSPTs` of the missing header, "clear the
shortest path tree": both trees lose their entries. -/
def clearSPTs (s : SPState) : SPState := { s with fSPT := [], bSPT := [] }

/-- Modelled from the spec: `doneRwt` of the missing header; closing the epoch
changes no field. -/
def doneRwt (s : SPState) : SPState := s

/-- Modelled from the spec: `doneDxRel` of the missing header. -/
def doneDxRel (s : SPState) : SPState := s

/-- Modelled from the spec: `doneDyRel` of the missing header. -/
def doneDyRel (s : SPState) : SPState := s

/-- The inner for loop of the first branch of `iterateInactive` (lines
662-672) for the relevant vertex `it`: the arguments `( rpath_wt, *aIt )` of
the calls of `addIfHeavy`, in order. -/
def scanInactiveOut (A : AtomStore) (s : SPState) (e : DLEdge) (it : Nat) (adj_list : AdjList) :
    List (Int × DLEdge) :=
  adj_list.filterMap (fun aIt =>
    if hasPolarity A aIt.c || isDeduced A aIt.c then none
    else if isDxRelValid s aIt.v && s.dx_relevant aIt.v then
      some (s.dy it + s.dx aIt.v - s.rwt e, aIt)
    else none)

/-- The inner for loop of the second branch of `iterateInactive` (lines
683-693) for the relevant vertex `it`. -/
def scanInactiveIn (A : AtomStore) (s : SPState) (e : DLEdge) (it : Nat) (adj_list : AdjList) :
    List (Int × DLEdge) :=
  adj_list.filterMap (fun aIt =>
    if hasPolarity A aIt.c || isDeduced A aIt.c then none
    else if isDyRelValid s aIt.u && s.dy_relevant aIt.u then
      some (s.dy aIt.u + s.dx it - s.rwt e, aIt)
    else none)

/-- The outer for loop of the first branch of `iterateInactive` (lines
658-673); `none` is a failed assertion or a vertex without a row in `hAdj`. -/
def iterateOut (A : AtomStore) (g : DLGraph) (s : SPState) (e : DLEdge) :
    List Nat → Option (List (Int × DLEdge))
  | [] => some []
  | it :: rest =>
    if isDyRelValid s it && s.dy_relevant it then
      match g.hAdj[it]? with
      | none => none
      | some adj_list =>
        (iterateOut A g s e rest).map (fun l => scanInactiveOut A s e it adj_list ++ l)
    else none

/-- The outer for loop of the second branch of `iterateInactive` (lines
677-694). -/
def iterateIn (A : AtomStore) (g : DLGraph) (s : SPState) (e : DLEdge) :
    List Nat → Option (List (Int × DLEdge))
  | [] => some []
  | it :: rest =>
    if isDxRelValid s it then
      if s.dx_relevant it then
        match g.hAdjInc[it]? with
        | none => none
        | some adj_list =>
          (iterateIn A g s e rest).map (fun l => scanInactiveIn A s e it adj_list ++ l)
      else none
    else none

/-- `DLGraph<T>::iterateInactive`.  The function `addIfHeavy` is of the missing
header; the result lists the arguments `( rpath_wt, *aIt )` of its calls in the
order of the calls (the third argument is `e` in every call), and `none` is a
failed assertion. -/
def iterateInactive (A : AtomStore) (g : DLGraph) (s : SPState) (e : DLEdge) :
    Option (List (Int × DLEdge)) :=
  if s.total_out_deg_dy_rel < s.total_in_deg_dx_rel then
    iterateOut A g s e s.dy_relevant_vertices
  else iterateIn A g s e s.dx_relevant_vertices

/-- Lines 614-619 of `findHeavyEdges`: with eager generation the two trees get
a row per vertex and `shortest_paths` a row per edge. -/
def growTrees (LAZY_GENERATION : Int) (g : DLGraph) (s : SPState) : SPState :=
  if LAZY_GENERATION = 0 then
    { s with
      bSPT := growTo s.bSPT g.Vcnt none
      fSPT := growTo s.fSPT g.Vcnt none
      shortest_paths := growTo s.shortest_paths g.Ecnt [] }
  else s

/-- Lines 631-636 of `findHeavyEdges`: the scratch state in which the forward
pass is called for the edge `e`. -/
def startForward (s : SPState) (e : DLEdge) : SPState :=
  let s1 := initDxRel (initRwt s)
  let s2 := { s1 with total_in_deg_dx_rel := 0, dx_relevant_vertices := [] }
  updateDxRel (setRelevancy s2 .DL_sssp_forward e.v true) e.v

/-- Lines 640-643 of `findHeavyEdges`: the scratch state in which the backward
pass is called for the edge `e`. -/
def startBackward (s : SPState) (e : DLEdge) : SPState :=
  let s1 := initDyRel s
  let s2 := { s1 with total_out_deg_dy_rel := 0, dy_relevant_vertices := [] }
  updateDyRel (setRelevancy s2 .DL_sssp_backward e.u true) e.u

/-- `DLGraph<T>::findHeavyEdges`, with the value of the switch
`LAZY_GENERATION` and a bound `fuel` on the iterations of each pass.  The
result has the graph after `getDLEdge`, the scratch state, and the arguments of
the calls of `addIfHeavy` that `iterateInactive` made. -/
def findHeavyEdges (LAZY_GENERATION : Int) (cfg : Config) (A : AtomStore) (g : DLGraph)
    (s : SPState) (c : Enode) (fuel : Nat) :
    Option (DLGraph × SPState × List (Int × DLEdge)) :=
  if !hasPolarity A c then none
  else
    match getDLEdge cfg A g c with
    | none => none
    | some (edges, g1) =>
      let e := selectEdge A c edges
      let s1 := growTrees LAZY_GENERATION g1 s
      if isParallelAndHeavy g1 e then some (g1, s1, [])
      else
        let trees : Option SPState :=
          if LAZY_GENERATION = 0 then
            match updateSPT s1 e .DL_sssp_forward with
            | none => none
            | some t => updateSPT t e .DL_sssp_backward
          else some s1
        match trees with
        | none => none
        | some s2 =>
          match findSSSP LAZY_GENERATION g1 (startForward s2 e) e.u .DL_sssp_forward fuel with
          | none => none
          | some s3 =>
            match findSSSP LAZY_GENERATION g1 (startBackward s3 e) e.v .DL_sssp_backward fuel with
            | none => none
            | some s4 =>
              match iterateInactive A g1 (doneRwt s4) e with
              | none => none
              | some calls => some (g1, doneDyRel (doneDxRel (clearSPTs (doneRwt s4))), calls)

/-- Two scratch states agree in every field but the two trees and
`shortest_paths`. -/
structure SameButTrees (s s' : SPState) : Prop where
  dx : s'.dx = s.dx
  dy : s'.dy = s.dy
  dist_list : s'.dist_list = s.dist_list
  dist_token : s'.dist_token = s.dist_token
  final_dist_list : s'.final_dist_list = s.final_dist_list
  final_dist_token : s'.final_dist_token = s.final_dist_token
  dx_relevant : s'.dx_relevant = s.dx_relevant
  dy_relevant : s'.dy_relevant = s.dy_relevant
  dx_rel_list : s'.dx_rel_list = s.dx_rel_list
  dx_rel_token : s'.dx_rel_token = s.dx_rel_token
  dy_rel_list : s'.dy_rel_list = s.dy_rel_list
  dy_rel_token : s'.dy_rel_token = s.dy_rel_token
  rwt : s'.rwt = s.rwt
  rwt_list : s'.rwt_list = s.rwt_list
  rwt_token : s'.rwt_token = s.rwt_token
  dist_from_src : s'.dist_from_src = s.dist_from_src
  dist_from_dst : s'.dist_from_dst = s.dist_from_dst
  max_dist_from_src : s'.max_dist_from_src = s.max_dist_from_src
  max_dist_from_dst : s'.max_dist_from_dst = s.max_dist_from_dst
  pq_dx : s'.pq_dx = s.pq_dx
  pq_dy : s'.pq_dy = s.pq_dy
  dx_relevant_vertices : s'.dx_relevant_vertices = s.dx_relevant_vertices
  dy_relevant_vertices : s'.dy_relevant_vertices = s.dy_relevant_vertices
  total_in_deg_dx_rel : s'.total_in_deg_dx_rel = s.total_in_deg_dx_rel
  total_out_deg_dy_rel : s'.total_out_deg_dy_rel = s.total_out_deg_dy_rel
  max_adj_list_size : s'.max_adj_list_size = s.max_adj_list_size

/-- The atom `x0 - x1 <= 5`. -/
def exAtom57a : Enode := .leq (.minus (.var 0) (.var 1)) (.num 5)

/-- The atom `x0 - x1 <= 7`. -/
def exAtom57b : Enode := .leq (.minus (.var 0) (.var 1)) (.num 7)

/-- The graph of scenario 6: the atoms `x0 - x1 <= 5` and `x0 - x1 <= 7`
registered and asserted with polarity `l_True` in this order. -/
def exParallel : DLGraph :=
  exCheck exAllTrue (exCheck exAllTrue (exStatic [exAtom57a, exAtom57b]) exAtom57a) exAtom57b

/-! ## Relations that every step of a pass keeps -/

/-- The validity of the relevancy of a vertex in a direction: the expression
`( direction == DL_sssp_forward ) ? isDxRelValid( v ) : isDyRelValid( v )`. -/
def relValid (s : SPState) (direction : DL_sssp_direction) (v : Nat) : Bool :=
  if direction = .DL_sssp_forward then isDxRelValid s v else isDyRelValid s v

/-- The tree that `updateSPT` writes in a direction. -/
def treeOf (s : SPState) (direction : DL_sssp_direction) : List (Option DLEdge) :=
  match direction with
  | .DL_sssp_forward => s.fSPT
  | .DL_sssp_backward => s.bSPT

/-- The other direction. -/
def otherDir : DL_sssp_direction → DL_sssp_direction
  | .DL_sssp_forward => .DL_sssp_backward
  | .DL_sssp_backward => .DL_sssp_forward

/-- A relation between scratch states that every step of a pass in the
direction keeps: it is reflexive and transitive and holds across every
assignment that `findSSSP` makes; the reduced weight that it stores has passed
the assertion of line 765. -/
structure Frame (g : DLGraph) (direction : DL_sssp_direction)
    (R : SPState → SPState → Prop) : Prop where
  same : ∀ s, R s s
  next : ∀ s1 s2 s3, R s1 s2 → R s2 s3 → R s1 s3
  setDist : ∀ s v x, R s (setDist s direction v x)
  readDist : ∀ s v, R s (readDist s v)
  finalDist : ∀ s v, R s (finalDist s v)
  setRelevancy : ∀ s v b, R s (setRelevancy s direction v b)
  updateRel : ∀ s v,
    R s (if direction = .DL_sssp_forward then updateDxRel s v else updateDyRel s v)
  setDistFrom : ∀ s v k, R s (setDistFrom s direction v k)
  setPq : ∀ s l, R s (setPq s direction l)
  newRwt : ∀ s e r, r ≥ 0 → R s (updateRwt { s with rwt := Function.update s.rwt e r } e)
  tree : ∀ s e s', updateSPT s e direction = some s' → R s s'
  relevant : ∀ s u, R s (insertRelevantVertices g s u direction)
  adjSize : ∀ s n, R s { s with max_adj_list_size := n }
  initDist : ∀ s, R s (initDist s)
  initFinalDist : ∀ s, R s (initFinalDist s)

/-- The list of the relevant vertices of a direction: `dx_relevant_vertices` in
the forward pass, `dy_relevant_vertices` in the backward pass. -/
def relVerticesOf (s : SPState) (direction : DL_sssp_direction) : List Nat :=
  match direction with
  | .DL_sssp_forward => s.dx_relevant_vertices
  | .DL_sssp_backward => s.dy_relevant_vertices

/-- The total of the relevant vertices of a direction:
`total_in_deg_dx_rel` in the forward pass, `total_out_deg_dy_rel` in the
backward pass. -/
def relTotalOf (s : SPState) (direction : DL_sssp_direction) : Nat :=
  match direction with
  | .DL_sssp_forward => s.total_in_deg_dx_rel
  | .DL_sssp_backward => s.total_out_deg_dy_rel

/-- The fields of a direction that a pass in the other direction leaves alone:
the distances, the relevancy flags with their stamps, the heap, the list of the
relevant vertices and their total. -/
structure SameSide (direction : DL_sssp_direction) (s s' : SPState) : Prop where
  dist : getDist s' direction = getDist s direction
  rel : getRelevancy s' direction = getRelevancy s direction
  valid : relValid s' direction = relValid s direction
  pq : pqOf s' direction = pqOf s direction
  vertices : relVerticesOf s' direction = relVerticesOf s direction
  total : relTotalOf s' direction = relTotalOf s direction

/-! ## The start of a pass -/

/-- The scratch state at the first test of the while loop of `findSSSP` for the
root `x` (lines 707-722 of the function): the tokens of the distances are new,
the root has the distance 0, is read, is not relevant, and is alone on the
heap. -/
def startSSSP (s : SPState) (x : Nat) (direction : DL_sssp_direction) : SPState :=
  let s1 := initFinalDist (initDist s)
  let s2 := readDist (setDist s1 direction x 0) x
  let s3 := setDistFrom s2 direction x 0
  let s3r := setRelevancy s3 direction x false
  let s4 := if direction = .DL_sssp_forward then updateDxRel s3r x else updateDyRel s3r x
  pushPBheap s4 direction x

/-! ## The roots of the two passes -/

/-- No reduced weight carries a stamp ahead of its token. -/
def RwtStamps (s : SPState) : Prop := ∀ e, s.rwt_list e ≤ s.rwt_token

/-- The graph with the atom `x0 - x1 <= 3` registered and asserted with
polarity `l_True` by a call of `checkNegCycle`, which returns `true`; every
potential is 0, and the active edge `x0 -> x1` has the reduced weight 3. -/
def exOneEdge : DLGraph := exCheck exAllTrue (exStatic [exAtom1]) exAtom1

/-- The scratch state after `findHeavyEdges` for the atom `x0 - x1 <= 3` on
`exOneEdge`. -/
def exOneDone : SPState :=
  match findHeavyEdges 0 exCfg exAllTrue exOneEdge SPState.empty exAtom1 2 with
  | some (_, s, _) => s
  | none => SPState.empty

/-! ## The length of a pass -/

/-- The number of the vertices below `n` that have no final distance. -/
def notFinal (s : SPState) (n : Nat) : Nat :=
  ((Finset.range n).filter (fun y => isDistFinal s y = false)).card

/-- The trees are large enough for a pass in the direction: with eager
generation (`LAZY_GENERATION` is 0) the tree of the direction has a row for
every vertex below `n`. -/
def TreeOk (LAZY_GENERATION : Int) (n : Nat) (direction : DL_sssp_direction) (s : SPState) :
    Prop :=
  LAZY_GENERATION = 0 → n ≤ (treeOf s direction).length

/-! ## The repair loop, point by point -/

/-- Between two calls of the interface the journal of the changed vertices is
empty and `Vcnt` is the number of the vertices. -/
def Ready (g : DLGraph) : Prop := g.changed_vertices = [] ∧ g.Vcnt = g.vertexMap.length

/-- Lines 536-540 of `checkNegCycle`: a target whose `gamma` was not read in
this call gets `gamma = 0` and is marked as read. -/
def refreshGamma (g : DLGraph) (t : Nat) : DLGraph :=
  if isGammaRead g t then g else readGamma { g with gamma := Function.update g.gamma t 0 } t

/-- The body of the for loop of `checkNegCycle` (lines 532-590) as a step: for
the extracted vertex `s`, the source `u` and the edge `it`, the body leads from
the state `g` to the state after it, unless it closes a cycle and returns
(line 557).  A processed target is skipped; a target whose `gamma` is not
above `value` is only refreshed; a target with `gamma == 0` gets the value, is
pushed on the heap and gets the edge as its entry of `conflict_edges`; a
target with `gamma < 0` gets the value in place, where the search of the heap
finds it, and the edge as its entry. -/
inductive ScanStep (u s : Nat) (it : DLEdge) (g : DLGraph) : DLGraph → Prop
  | skip : isPiPrime g it.v = true → ScanStep u s it g g
  | keep : isPiPrime g it.v = false →
      ¬ ((refreshGamma g it.v).pi s + it.wt - (refreshGamma g it.v).pi it.v <
        (refreshGamma g it.v).gamma it.v) →
      ScanStep u s it g (refreshGamma g it.v)
  | push {ce : List (Option DLEdge)} : isPiPrime g it.v = false → it.v ≠ u →
      (refreshGamma g it.v).pi s + it.wt - (refreshGamma g it.v).pi it.v <
        (refreshGamma g it.v).gamma it.v →
      (refreshGamma g it.v).gamma it.v = 0 →
      modifyAt (refreshGamma g it.v).conflict_edges it.v (fun _ => some it) = some ce →
      ScanStep u s it g
        { refreshGamma g it.v with
          gamma := Function.update (refreshGamma g it.v).gamma it.v
            ((refreshGamma g it.v).pi s + it.wt - (refreshGamma g it.v).pi it.v)
          vertex_heap := (refreshGamma g it.v).vertex_heap ++ [it.v]
          conflict_edges := ce }
  | lower {ce : List (Option DLEdge)} : isPiPrime g it.v = false → it.v ≠ u →
      (refreshGamma g it.v).pi s + it.wt - (refreshGamma g it.v).pi it.v <
        (refreshGamma g it.v).gamma it.v →
      (refreshGamma g it.v).gamma it.v ≠ 0 → (refreshGamma g it.v).gamma it.v < 0 →
      modifyAt (refreshGamma g it.v).conflict_edges it.v (fun _ => some it) = some ce →
      ScanStep u s it g
        { refreshGamma g it.v with
          gamma :=
            if it.v ∈ (refreshGamma g it.v).vertex_heap then
              Function.update (refreshGamma g it.v).gamma it.v
                ((refreshGamma g it.v).pi s + it.wt - (refreshGamma g it.v).pi it.v)
            else (refreshGamma g it.v).gamma
          conflict_edges := ce }

/-- The points of a run of the while loop of `checkNegCycle`: the head of the
while loop, and the head of the for loop for the extracted vertex `s` with the
edges of its adjacency list that are still to scan. -/
inductive RunPoint
  | head
  | scan (s : Nat) (pending : AdjList)

/-- The states that the while loop of `checkNegCycle` for the source `u` passes
from its first head `g0`: an extraction (lines 514-529) leads from a head with a
non-empty heap to the for loop over the adjacency list of the front, the body
of the for loop for an edge that does not close a cycle (lines 532-590) leads
on in the list, and `make_heap` (line 593) leads from the end of the list to
the next head. -/
inductive RunReach (u : Nat) (g0 : DLGraph) : RunPoint → DLGraph → Prop
  | start : RunReach u g0 RunPoint.head g0
  | extract {g : DLGraph} {s : Nat} {rest : List Nat} {adjList : AdjList} :
      RunReach u g0 RunPoint.head g → g.vertex_heap = s :: rest →
      (extractVertex g s rest).dAdj[s]? = some adjList →
      RunReach u g0 (RunPoint.scan s adjList) (extractVertex g s rest)
  | edge {g g1 : DLGraph} {s : Nat} {it : DLEdge} {rest : AdjList} :
      RunReach u g0 (RunPoint.scan s (it :: rest)) g → ScanStep u s it g g1 →
      RunReach u g0 (RunPoint.scan s rest) g1
  | next {g : DLGraph} {s : Nat} :
      RunReach u g0 (RunPoint.scan s []) g → RunReach u g0 RunPoint.head (make_heap g)

/-- The bookkeeping of the repair for the potentials `pi0` at the call and `n`
vertices: a vertex on the heap is not processed, its `gamma` is read and
negative and comes from the edge in its entry of `conflict_edges`, which leaves
a processed vertex; no vertex is on the heap twice; a vertex off the heap that
is read and not processed has `gamma = 0`; and the vertices in play are below
`n`, for which the tables have rows. -/
structure HeapInv (pi0 : Nat → Int) (n : Nat) (v : RepairView)
    (ce : List (Option DLEdge)) : Prop where
  placed : ∀ (i : Nat) (l : AdjList), v.dAdj[i]? = some l → ∀ x ∈ l, x.u = i
  unproc : ∀ x, v.prime x = false → v.pi x = pi0 x
  heap_ok : ∀ y ∈ v.heap, v.prime y = false ∧ v.read y = true ∧ v.gamma y < 0 ∧
    ∃ ed, ce[y]? = some (some ed) ∧ ed.v = y ∧ v.prime ed.u = true ∧
      v.gamma y = v.pi ed.u + ed.wt - pi0 y
  nodup : v.heap.Nodup
  idle : ∀ x, v.prime x = false → x ∉ v.heap → v.read x = true → v.gamma x = 0
  bound_heap : ∀ y ∈ v.heap, y < n
  bound_prime : ∀ x, v.prime x = true → x < n
  size_ce : n ≤ ce.length
  size_adj : n ≤ v.dAdj.length
  targets : ∀ l ∈ v.dAdj, ∀ x ∈ l, x.v < n

/-- The bookkeeping at the first head of the while loop when the target of the
new edge `e` was pushed: no vertex is processed or read, the target is alone on
the heap with the negative slack of the new edge, and its entry of
`conflict_edges` is the new edge. -/
structure HeapInit (pi0 : Nat → Int) (n : Nat) (e : DLEdge) (v : RepairView)
    (ce : List (Option DLEdge)) : Prop where
  placed : ∀ (i : Nat) (l : AdjList), v.dAdj[i]? = some l → ∀ x ∈ l, x.u = i
  pi_eq : v.pi = pi0
  no_prime : ∀ x, v.prime x = false
  no_read : ∀ x, v.read x = false
  heap_eq : v.heap = [e.v]
  gamma_eq : v.gamma e.v = pi0 e.u + e.wt - pi0 e.v
  gamma_neg : v.gamma e.v < 0
  entry : ce[e.v]? = some (some e)
  bound : e.v < n
  size_ce : n ≤ ce.length
  size_adj : n ≤ v.dAdj.length
  targets : ∀ l ∈ v.dAdj, ∀ x ∈ l, x.v < n

/-- The number of the vertices below `n` that the repair has not processed. -/
def unprimed (g : DLGraph) (n : Nat) : Nat :=
  ((Finset.range n).filter (fun y => isPiPrime g y = false)).card

/-- What holds at the points of a run of the while loop of `checkNegCycle` for
the potentials `pi0` at the call, `n` vertices and the new edge `e`: the
journal invariant and a journal without repetition at every point; at a head
of the while loop the bookkeeping, or that of the first head, and a heap
sorted by `gamma`; in the for loop the bookkeeping, the extracted vertex is
processed, and the pending edges are edges of its row. -/
def PointInv (pi0 : Nat → Int) (n : Nat) (e : DLEdge) (p : RunPoint) (g : DLGraph) : Prop :=
  JournalInv pi0 g ∧ g.changed_vertices.Nodup ∧
    match p with
    | RunPoint.head =>
      (HeapInit pi0 n e g.view g.conflict_edges ∨ HeapInv pi0 n g.view g.conflict_edges) ∧
        g.vertex_heap.Sorted (fun a b => g.gamma a ≤ g.gamma b)
    | RunPoint.scan s pending =>
      HeapInv pi0 n g.view g.conflict_edges ∧ isPiPrime g s = true ∧
        ∀ x ∈ pending, x ∈ g.dAdj.getD s []

/-- The graph with the atom `x1 - x2 <= -2` registered, right after
`insertDynamic` of the atom with polarity `l_True`. -/
def exNegInserted : DLGraph :=
  match insertDynamic exCfg exAllTrue (exStatic [exAtom2]) exAtom2 false with
  | some (_, g) => g
  | none => DLGraph.empty

/-- The state at the first head of the while loop of `checkNegCycle` for the
atom `x1 - x2 <= -2`. -/
def exNegStart : DLGraph :=
  (startCheck exNegInserted ⟨exAtom2, 0, 0, 1, -2⟩).getD DLGraph.empty

/-- The graph of scenario 2 with `x0 - x1 <= 3` and `x1 - x2 <= -2` asserted
with polarity `l_True`, each by a call of `checkNegCycle`. -/
def exScen2Active : DLGraph :=
  exCheck exAllTrue (exCheck exAllTrue exScen2 exAtom1) exAtom2

/-- The graph `exScen2Active` right after `insertDynamic` of the atom
`x2 - x0 <= -2` with polarity `l_True`. -/
def exScen2Inserted : DLGraph :=
  match insertDynamic exCfg exAllTrue exScen2Active exAtom4 false with
  | some (_, g) => g
  | none => DLGraph.empty

/-- The state at the first head of the while loop of `checkNegCycle` for the
atom `x2 - x0 <= -2` on `exScen2Active`. -/
def exScen2Start : DLGraph :=
  (startCheck exScen2Inserted ⟨exAtom4, 4, 2, 0, -2⟩).getD DLGraph.empty

/-! ## The relevancy flags of a pass -/

/-- The relevancy flags of a direction, as a pass reads and writes them: the
flag of a vertex and whether its stamp is valid. -/
structure RelView where
  rel : Nat → Bool
  valid : Nat → Bool

/-- The relevancy flags of a scratch state in a direction. -/
def SPState.relView (s : SPState) (direction : DL_sssp_direction) : RelView :=
  ⟨getRelevancy s direction, relValid s direction⟩

/-- The relevancy flags after the body of the for loop for an edge of weight
`w` from the extracted vertex `u`, whose relevancy is `rel_u`, to `v`: a vertex
that gets its first distance takes the relevancy of `u` unless it has a valid
one (lines 781-786), a vertex whose distance is lowered takes it in any case
(lines 810-811). -/
def RelView.relax (W : RelView) (V : DistView) (u v : Nat) (w : Int) (rel_u : Bool) : RelView :=
  if V.final v then W
  else if !V.read v then
    if W.valid v then W
    else ⟨Function.update W.rel v rel_u, Function.update W.valid v true⟩
  else if V.dist v > V.dist u + w then
    ⟨Function.update W.rel v rel_u, Function.update W.valid v true⟩
  else W

/-- No relevancy flag carries a stamp ahead of its token. -/
def RelStamps (s : SPState) : Prop :=
  (∀ x, s.dx_rel_list x ≤ s.dx_rel_token) ∧ (∀ x, s.dy_rel_list x ≤ s.dy_rel_token)

/-- The invariant of the relevancy flags in a pass from `root` for the edge
`e0` between `root` and `seed`, the vertex that `findHeavyEdges` marked as
relevant, while the adjacency list of the extracted vertex `u` with the
relevancy `rel_u` still has the edges `pending` to scan; `memo` tells whether
the reduced weight of `e0` is valid.  A vertex that is read has a valid flag;
a valid flag belongs to a vertex that is read or to `seed`; the root is not
relevant; and a vertex that is read and relevant has the distance of a path
that starts with `e0` and goes on from `seed` along active edges, except for
`seed` itself in the scan of the root as long as `e0` is pending, which may
have got its distance from a parallel edge that is not lighter. -/
structure RelInv (g : DLGraph) (direction : DL_sssp_direction) (root seed : Nat) (e0 : DLEdge)
    (u : Nat) (rel_u : Bool) (pending : AdjList) (V : DistView) (W : RelView) (memo : Bool) :
    Prop where
  read_valid : ∀ y, V.read y = true → W.valid y = true
  valid_read : ∀ y, W.valid y = true → V.read y = true ∨ y = seed
  root_rel : W.rel root = false
  tracked : ∀ y, W.valid y = true → W.rel y = true → V.read y = true →
    (seed ≠ root ∧
      ∃ es, ActivePath g direction es seed y ∧ V.dist y = rwtOf g e0 + pathRwt g es) ∨
    (u = root ∧ e0 ∈ pending ∧ y = seed ∧ rwtOf g e0 ≤ V.dist seed)
  seed_read : V.read seed = true ∨ (u = root ∧ e0 ∈ pending)
  memo_ok : memo = true ∨ (u = root ∧ e0 ∈ pending) ∨ seed = root
  cur : rel_u = true → seed ≠ root ∧ u ≠ root ∧
    ∃ es, ActivePath g direction es seed u ∧ V.dist u = rwtOf g e0 + pathRwt g es
  first : u = root → ∀ y, V.final y = true → y = root

/-- The relevancy flags at the first head of the while loop: the root has a
valid flag and is not relevant, and no vertex but the root and `seed` has a
valid flag. -/
structure RelInit (root seed : Nat) (W : RelView) : Prop where
  root_valid : W.valid root = true
  root_rel : W.rel root = false
  only : ∀ y, W.valid y = true → y = root ∨ y = seed

/-- Every edge of the inactive views is in the row of its own end: an edge in
row `i` of `hAdj` leaves the vertex `i`, and an edge in row `i` of `hAdjInc`
enters it. -/
def HPlaced (g : DLGraph) : Prop :=
  ∀ (i : Nat) (x : DLEdge),
    (x ∈ g.hAdj.getD i [] → x.u = i) ∧ (x ∈ g.hAdjInc.getD i [] → x.v = i)

/-- The total of a direction is the number of its relevant vertices. -/
def TotalOk (direction : DL_sssp_direction) (s : SPState) : Prop :=
  relTotalOf s direction = (relVerticesOf s direction).length

/-- The atom store in which the atoms `x0 - x1 <= 3` and `x1 - x2 <= -2` are
asserted with polarity `l_True` and no other atom has a polarity or is
deduced. -/
def exOnly12 : AtomStore :=
  fun a =>
    if a = exAtom1 ∨ a = exAtom2 then ⟨lbool.l_True, true, false⟩
    else ⟨lbool.l_Undef, false, false⟩

/-- The graph with the atoms `x0 - x1 <= 3`, `x1 - x2 <= -2`, `x0 - x2 <= 1`
and `x0 - x1 <= 5` registered in this order, and then `x1 - x2 <= -2` and
`x0 - x1 <= 3` asserted with polarity `l_True`, each by a call of
`checkNegCycle` that returns `true`; the edges of the other two atoms are in
the inactive views. -/
def exSideGraph : DLGraph :=
  exCheck exOnly12 (exCheck exOnly12 (exStatic [exAtom1, exAtom2, exAtomB, exAtomA]) exAtom2)
    exAtom1

/-- The scratch state after `findHeavyEdges` for the atom `x0 - x1 <= 3` on
`exSideGraph`. -/
def exSideDone : SPState :=
  match findHeavyEdges 0 exCfg exOnly12 exSideGraph SPState.empty exAtom1 4 with
  | some (_, s, _) => s
  | none => SPState.empty

/-- The two inactive views list every edge equally often: as often in the row
of `hAdj` of its source as in the row of `hAdjInc` of its target. -/
def HMirror (g : DLGraph) : Prop :=
  ∀ x : DLEdge, rowCount g.hAdj x.u x = rowCount g.hAdjInc x.v x

/-- The points of a run of the while loop of `findSSSP`: the head of the while
loop, and the head of the for loop for the extracted vertex `u`, with the
relevancy `rel_u` that the loop hands on and the edges of the adjacency list
that are still to scan.  The point `scan u rel_u []` is the end of an
iteration of the while loop, where `no_relevant <= 0` is tested (line 822). -/
inductive SsspPoint
  | head
  | scan (u : Nat) (rel_u : Bool) (pending : AdjList)

/-- The scratch states and the values of the counter `no_relevant` that the
while loop of `findSSSP` passes from its first head `s0`, where the counter is
0: an extraction (lines 733-747) leads from a head to the for loop over the
adjacency list of the front of the heap, the body of the for loop (lines
750-820) leads on in the list, and a counter above 0 at the end of the list
leads to the next head (lines 822-823). -/
inductive SsspRun (LAZY_GENERATION : Int) (g : DLGraph) (direction : DL_sssp_direction)
    (s0 : SPState) : SsspPoint → SPState → Nat → Prop
  | start : SsspRun LAZY_GENERATION g direction s0 SsspPoint.head s0 0
  | extract {s s4 : SPState} {nr nr1 u : Nat} {rest : List Nat} {rel_u : Bool} {adj : AdjList} :
      SsspRun LAZY_GENERATION g direction s0 SsspPoint.head s nr →
      pqOf s direction = u :: rest →
      extractSSSP g direction u rest s nr = some (s4, nr1, rel_u, adj) →
      SsspRun LAZY_GENERATION g direction s0 (SsspPoint.scan u rel_u adj) s4 nr1
  | edge {s s1 : SPState} {nr nr1 u : Nat} {rel_u : Bool} {it : DLEdge} {rest : AdjList} :
      SsspRun LAZY_GENERATION g direction s0 (SsspPoint.scan u rel_u (it :: rest)) s nr →
      relaxEdge LAZY_GENERATION g direction u rel_u it s nr = some (s1, nr1) →
      SsspRun LAZY_GENERATION g direction s0 (SsspPoint.scan u rel_u rest) s1 nr1
  | next {s : SPState} {nr u : Nat} {rel_u : Bool} :
      SsspRun LAZY_GENERATION g direction s0 (SsspPoint.scan u rel_u []) s nr → ¬ nr ≤ 0 →
      SsspRun LAZY_GENERATION g direction s0 SsspPoint.head s nr

/-- The number of vertices on the heap of a direction whose relevancy flag of
the direction is true. -/
def relevantOnHeap (s : SPState) (direction : DL_sssp_direction) : Nat :=
  (pqOf s direction).countP (fun v => getRelevancy s direction v)

/-- The counter `no_relevant` of `findSSSP` is the number of relevant vertices
on the heap, no vertex is on the heap twice, and the vertices on the heap are
below `n`. -/
structure CounterInv (n : Nat) (direction : DL_sssp_direction) (s : SPState) (nr : Nat) :
    Prop where
  nodup : (pqOf s direction).Nodup
  bound : ∀ y ∈ pqOf s direction, y < n
  count : nr = relevantOnHeap s direction

/-- One step of a run of the while loop of `checkNegCycle` for the source `u`:
an extraction (lines 514-529), the body of the for loop for an edge that does
not close a cycle (lines 532-590), or `make_heap` at the end of the adjacency
list (line 593). -/
inductive RunStep (u : Nat) : RunPoint → DLGraph → RunPoint → DLGraph → Prop
  | extract {g : DLGraph} {s : Nat} {rest : List Nat} {adjList : AdjList} :
      g.vertex_heap = s :: rest → (extractVertex g s rest).dAdj[s]? = some adjList →
      RunStep u RunPoint.head g (RunPoint.scan s adjList) (extractVertex g s rest)
  | edge {g g1 : DLGraph} {s : Nat} {it : DLEdge} {rest : AdjList} :
      ScanStep u s it g g1 → RunStep u (RunPoint.scan s (it :: rest)) g (RunPoint.scan s rest) g1
  | next {g : DLGraph} {s : Nat} :
      RunStep u (RunPoint.scan s []) g RunPoint.head (make_heap g)

/-- The point `q` with the state `g'` comes in a run of the while loop of
`checkNegCycle` at or after the point `p` with the state `g`. -/
inductive RunLater (u : Nat) (p : RunPoint) (g : DLGraph) : RunPoint → DLGraph → Prop
  | refl : RunLater u p g p g
  | step {q r : RunPoint} {g1 g2 : DLGraph} :
      RunLater u p g q g1 → RunStep u q g1 r g2 → RunLater u p g r g2

/-- What the repair of `checkNegCycle` has touched, for the potentials `pi0`
at the call, the state `g0` at the first head of the while loop and the new
edge `e`: no potential is above the one at the call, the active adjacency is
the one of `g0`, and every vertex that is processed or on the heap is reached
from the target of `e` by a path of active edges. -/
structure TouchInv (pi0 : Nat → Int) (g0 : DLGraph) (e : DLEdge) (g : DLGraph) : Prop where
  down : ∀ x, g.pi x ≤ pi0 x
  adj : g.dAdj = g0.dAdj
  touched : ∀ x, isPiPrime g x = true ∨ x ∈ g.vertex_heap →
    ∃ es, ActivePath g0 .DL_sssp_forward es e.v x

/-- The edges `es` are a chain of parent edges of the tree `T` of a direction
from the vertex `a` to the vertex `b`: every edge is an active edge in the
adjacency list of the vertex that the chain has reached, which is its near
end, it is the entry of the tree for its far end, and the chain goes on from
the far end.  Read from `b`, the entry of `b` is the last edge, the entry of
the near end of that edge is the edge before, and so on up to `a`. -/
def SptPath (g : DLGraph) (direction : DL_sssp_direction) (T : List (Option DLEdge)) :
    List DLEdge → Nat → Nat → Prop
  | [], a, b => a = b
  | x :: rest, a, b =>
    x ∈ adjOf g direction a ∧ nearEnd direction x = a ∧
      T[farEnd direction x]? = some (some x) ∧ SptPath g direction T rest (farEnd direction x) b

/-- A chain of parent edges whose vertices before the last one have final
distances. -/
def TreePath (g : DLGraph) (direction : DL_sssp_direction) (T : List (Option DLEdge))
    (fin : Nat → Bool) (es : List DLEdge) (a b : Nat) : Prop :=
  SptPath g direction T es a b ∧ ∀ x ∈ es, fin (nearEnd direction x) = true

/-- The tree of a direction after the body of the for loop of `findSSSP` with
eager generation for the edge `it` from the extracted vertex `u` to `v`: the
edge becomes the entry of `v` when `v` gets its first distance (line 776) or a
smaller one (line 814). -/
def treeRelax (T : List (Option DLEdge)) (V : DistView) (u v : Nat) (w : Int) (it : DLEdge) :
    List (Option DLEdge) :=
  if V.final v then T
  else if !V.read v then T.set v (some it)
  else if V.dist v > V.dist u + w then T.set v (some it)
  else T

/-- The invariant of the tree of a pass from `root` with eager generation:
every vertex with a distance has a chain of parent edges from the root, on
which no vertex comes twice. -/
def TreeInv (g : DLGraph) (direction : DL_sssp_direction) (root : Nat) (V : DistView)
    (T : List (Option DLEdge)) : Prop :=
  ∀ y, V.read y = true →
    ∃ es, TreePath g direction T V.final es root y ∧
      (root :: es.map (farEnd direction)).Nodup

/-- The parents of the relevant vertices in a pass from `root` for the edge
`e0` between `root` and `seed`, while the adjacency list of the extracted
vertex `u` with the relevancy `rel_u` still has the edges `pending` to scan:
the entry of the tree for a vertex that is read and relevant is an edge to
that vertex, which is `e0` or comes from a vertex with a final distance that
is relevant; except for `seed` in the scan of the root as long as `e0` is
pending, which may have got its distance from a heavier parallel edge.  The
relevancy that the loop hands on is the flag of the extracted vertex. -/
structure RelTree (g : DLGraph) (direction : DL_sssp_direction) (root seed : Nat) (e0 : DLEdge)
    (u : Nat) (rel_u : Bool) (pending : AdjList) (V : DistView) (W : RelView)
    (T : List (Option DLEdge)) : Prop where
  parent : ∀ y, W.valid y = true → W.rel y = true → V.read y = true →
    (∃ x, T[y]? = some (some x) ∧ farEnd direction x = y ∧
      (x = e0 ∨ (W.valid (nearEnd direction x) = true ∧ W.rel (nearEnd direction x) = true ∧
        V.final (nearEnd direction x) = true))) ∨
    (u = root ∧ e0 ∈ pending ∧ y = seed ∧ rwtOf g e0 < V.dist seed)
  cur : rel_u = true → W.valid u = true ∧ W.rel u = true

/-- The first while loop of `findShortestPath` (lines 866-871), with a bound
`fuel` on its iterations: as long as the source of `spt_edge` is not `x`, the
entry of `bSPT` for the target of `spt_edge` is the next `spt_edge` and goes to
the end of the path.  The result `none` is the end of the fuel, an entry outside
the bounds of the tree or the failed assertion `assert( spt_edge )`. -/
def walkBSPT (bSPT : List (Option DLEdge)) (x : Nat) :
    Nat → DLEdge → List DLEdge → Option (List DLEdge)
  | 0, spt_edge, path => if spt_edge.u = x then some path else none
  | fuel + 1, spt_edge, path =>
    if spt_edge.u = x then some path
    else
      match bSPT[spt_edge.v]? with
      | some (some next_edge) => walkBSPT bSPT x fuel next_edge (path ++ [next_edge])
      | _ => none

/-- The second while loop of `findShortestPath` (lines 880-885), with a bound
`fuel` on its iterations: as long as the source of `spt_edge` is not `y`, the
entry of `fSPT` for the source of `spt_edge` is the next `spt_edge` and goes to
the front of `backward_path`. -/
def walkFSPT (fSPT : List (Option DLEdge)) (y : Nat) :
    Nat → DLEdge → List DLEdge → Option (List DLEdge)
  | 0, spt_edge, backward_path => if spt_edge.u = y then some backward_path else none
  | fuel + 1, spt_edge, backward_path =>
    if spt_edge.u = y then some backward_path
    else
      match fSPT[spt_edge.u]? with
      | some (some next_edge) => walkFSPT fSPT y fuel next_edge (next_edge :: backward_path)
      | _ => none

/-- `DLGraph<T>::findShortestPath` for the edge `e`, with a bound `fuel` on the
iterations of each of its two while loops.  The reason `e->r` is a field of
`DLEdge` that the header declares and no function among the sources assigns;
it is the argument `r` here.  The result `none` is a failed assertion, an
entry outside the bounds of a tree or a `NULL` entry that the code
dereferences, or the end of the fuel; the third loop (lines 887-891) appends
`backward_path` to the path from its front. -/
def findShortestPath (s : SPState) (e r : DLEdge) (fuel : Nat) : Option (Bool × SPState) :=
  match s.shortest_paths[e.id]? with
  | none => none
  | some p =>
    if p ≠ [] then some (false, s)
    else
      let x := r.u
      let y := r.v
      match s.bSPT[e.u]? with
      | some (some spt_edge) =>
        match walkBSPT s.bSPT x fuel spt_edge (p ++ [spt_edge]) with
        | none => none
        | some path =>
          if path.getLast? ≠ some r then none
          else
            match s.fSPT[e.v]? with
            | some (some spt_edge2) =>
              if spt_edge2.u ≠ x then
                match walkFSPT s.fSPT y fuel spt_edge2 [spt_edge2] with
                | none => none
                | some backward_path =>
                  some (true,
                    { s with
                      shortest_paths := s.shortest_paths.set e.id (path ++ backward_path) })
              else some (true, { s with shortest_paths := s.shortest_paths.set e.id path })
            | _ => none
      | _ => none

/-- The identifiers of the inactive views are counted: `Ecnt` is at least twice
the number of pairs of `edgeMap`, and every edge in a row of `hAdj` or of
`hAdjInc` has an identifier below `Ecnt`. -/
def HCounted (g : DLGraph) : Prop :=
  2 * g.edgeMap.length ≤ g.Ecnt ∧
    ∀ (i : Nat) (x : DLEdge), x ∈ g.hAdj.getD i [] ∨ x ∈ g.hAdjInc.getD i [] → x.id < g.Ecnt

/-- The scratch state of `findHeavyEdges` for the atom `x0 - x1 <= 3` on
`exSideGraph` after the two passes, in which `iterateInactive` runs: the state
`exSideDone` before `clearSPTs`. -/
def exSideScan : SPState :=
  match updateSPT (growTrees 0 exSideGraph SPState.empty) ⟨exAtom1, 0, 0, 1, 3⟩
      .DL_sssp_forward with
  | none => SPState.empty
  | some t =>
    match updateSPT t ⟨exAtom1, 0, 0, 1, 3⟩ .DL_sssp_backward with
    | none => SPState.empty
    | some s2 =>
      match findSSSP 0 exSideGraph (startForward s2 ⟨exAtom1, 0, 0, 1, 3⟩) 0
          .DL_sssp_forward 4 with
      | none => SPState.empty
      | some s3 =>
        (findSSSP 0 exSideGraph (startBackward s3 ⟨exAtom1, 0, 0, 1, 3⟩) 1
          .DL_sssp_backward 4).getD SPState.empty

/-! ## The test of a candidate -/

/-- `std::is_heap` with the comparator `gammaGreaterThan` on the vector `l`: no
element compares greater than its child, the parent of the element at index
`i > 0` being the element at index `(i - 1) / 2`. -/
def is_heap (g : DLGraph) (l : List Nat) : Prop :=
  ∀ i, 0 < i → i < l.length →
    gammaGreaterThan g (l.getD ((i - 1) / 2) 0) (l.getD i 0) = false

/-- What the standard library fixes of the result `l'` of a heap operation on
the elements `l` (`make_heap`; `pop_heap` and `pop_back` for the elements other
than the front): the elements are the same and the result is a heap.  The
arrangement among the heaps of these elements is left to the library. -/
def HeapOf (g : DLGraph) (l l' : List Nat) : Prop := l'.Perm l ∧ is_heap g l'

/-- The states that the while loop of `checkNegCycle` for the source `u` passes
from its first head `g0`, for every arrangement that the heap operations of the
standard library may choose: the run of `RunReach`, in which the heap after
the extraction of the front (lines 514-516) and the heap after `make_heap`
(line 593) are any heaps of their elements. -/
inductive HeapRun (u : Nat) (g0 : DLGraph) : RunPoint → DLGraph → Prop
  | start : HeapRun u g0 RunPoint.head g0
  | extract {g : DLGraph} {s : Nat} {rest rest' : List Nat} {adjList : AdjList} :
      HeapRun u g0 RunPoint.head g → g.vertex_heap = s :: rest → HeapOf g rest rest' →
      (extractVertex g s rest).dAdj[s]? = some adjList →
      HeapRun u g0 (RunPoint.scan s adjList)
        { extractVertex g s rest with vertex_heap := rest' }
  | edge {g g1 : DLGraph} {s : Nat} {it : DLEdge} {rest : AdjList} :
      HeapRun u g0 (RunPoint.scan s (it :: rest)) g → ScanStep u s it g g1 →
      HeapRun u g0 (RunPoint.scan s rest) g1
  | next {g : DLGraph} {s : Nat} {l' : List Nat} :
      HeapRun u g0 (RunPoint.scan s []) g → HeapOf g g.vertex_heap l' →
      HeapRun u g0 RunPoint.head { g with vertex_heap := l' }

/-- The atom `x0 - x1 <= -5`. -/
def exOrdA : Enode := .leq (.minus (.var 0) (.var 1)) (.num (-5))

/-- The atom `x1 - x2 <= 0`. -/
def exOrdB : Enode := .leq (.minus (.var 1) (.var 2)) (.num 0)

/-- The atom `x1 - x3 <= 2`. -/
def exOrdC : Enode := .leq (.minus (.var 1) (.var 3)) (.num 2)

/-- The atom `x1 - x4 <= 1`. -/
def exOrdD : Enode := .leq (.minus (.var 1) (.var 4)) (.num 1)

/-- The atom `x2 - x3 <= 0`. -/
def exOrdE : Enode := .leq (.minus (.var 2) (.var 3)) (.num 0)

/-- The graph with the five atoms `x0 - x1 <= -5`, `x1 - x2 <= 0`,
`x1 - x3 <= 2`, `x1 - x4 <= 1` and `x2 - x3 <= 0` registered, and the last four
asserted with polarity `l_True`, each by a call of `checkNegCycle`; every
potential is 0. -/
def exOrdGraph : DLGraph :=
  exCheck exAllTrue (exCheck exAllTrue (exCheck exAllTrue (exCheck exAllTrue
    (exStatic [exOrdA, exOrdB, exOrdC, exOrdD, exOrdE]) exOrdB) exOrdC) exOrdD) exOrdE

/-- The graph `exOrdGraph` right after `insertDynamic` of the atom
`x0 - x1 <= -5` with polarity `l_True`. -/
def exOrdInserted : DLGraph :=
  match insertDynamic exCfg exAllTrue exOrdGraph exOrdA false with
  | some (_, g) => g
  | none => DLGraph.empty

/-- The state at the first head of the while loop of `checkNegCycle` for the
atom `x0 - x1 <= -5` on `exOrdGraph`: the vertex of `x1` is alone on the heap,
with `gamma = -5`. -/
def exOrdStart : DLGraph :=
  (startCheck exOrdInserted ⟨exOrdA, 0, 0, 1, -5⟩).getD DLGraph.empty

/-- The state of a result of the for loop; the empty graph for a failed
assertion. -/
def stateOf (r : Option (Bool × DLGraph)) : DLGraph :=
  match r with
  | some (_, g) => g
  | none => DLGraph.empty

/-- The state after the first extraction: the vertex of `x1` has left the
heap, which is empty. -/
def exOrdExt1 : DLGraph := { extractVertex exOrdStart 1 [] with vertex_heap := [] }

/-- The state at the end of the first iteration, before `make_heap`: the scan
of the three edges of the vertex of `x1` has appended the vertices of `x2`,
`x3` and `x4` with `gamma` -5, -3 and -4. -/
def exOrdPass1 : DLGraph :=
  stateOf (scanAdjList 0 1
    [⟨exOrdB, 2, 1, 2, 0⟩, ⟨exOrdC, 4, 1, 3, 2⟩, ⟨exOrdD, 6, 1, 4, 1⟩] exOrdExt1)

/-- The state at the second head of the while loop, with the heap of line 593
in the arrangement `[2, 3, 4]`, which is not sorted by `gamma`. -/
def exOrdHead2 : DLGraph := { exOrdPass1 with vertex_heap := [2, 3, 4] }

/-- The state after the second extraction: the vertex of `x2` has left the
heap, whose other elements are arranged as the heap `[4, 3]`. -/
def exOrdExt2 : DLGraph := { extractVertex exOrdHead2 2 [3, 4] with vertex_heap := [4, 3] }

/-- The state at the end of the second iteration, before `make_heap`: the scan
of the edge `x2 -> x3` has lowered `gamma` of the vertex of `x3` in place from
-3 to -5, below that of the vertex of `x4` in front of it. -/
def exOrdPass2 : DLGraph := stateOf (scanAdjList 0 2 [⟨exOrdE, 8, 2, 3, 0⟩] exOrdExt2)

/-- The state at the third head of the while loop: `make_heap` has put the
vertex of `x3` in front of the vertex of `x4`. -/
def exOrdHead : DLGraph := { exOrdPass2 with vertex_heap := [3, 4] }

/-! ## Edge pairs: identifiers and idempotence -/

theorem findEdges_append_of_none (m m' : List (Enode × DLComplEdges)) (e : Enode)
    (h : findEdges m e = none) : findEdges (m ++ m') e = findEdges m' e := by
  induction m with
  | nil => rfl
  | cons kp rest ih =>
    obtain ⟨k, p⟩ := kp
    simp only [findEdges, List.cons_append] at h ⊢
    split at h
    · cases h
    · rename_i hk
      rw [if_neg hk]
      exact ih h

theorem findEdges_append_of_some (m m' : List (Enode × DLComplEdges)) (e : Enode)
    (p : DLComplEdges) (h : findEdges m e = some p) : findEdges (m ++ m') e = some p := by
  induction m with
  | nil => cases h
  | cons kp rest ih =>
    obtain ⟨k, q⟩ := kp
    simp only [findEdges, List.cons_append] at h ⊢
    split at h
    · rename_i hk
      rw [if_pos hk]
      exact h
    · rename_i hk
      rw [if_neg hk]
      exact ih h
theorem getDLVertex_edgeMap (g : DLGraph) (x : Option Enode) :
    (getDLVertex g x).2.edgeMap = g.edgeMap := by
  unfold getDLVertex
  split <;> rfl

theorem findVertex_append_of_some (l l' : List (Option Enode)) (x : Option Enode) (i : Nat)
    (h : findVertex l x = some i) : findVertex (l ++ l') x = some i := by
  induction l generalizing i with
  | nil => cases h
  | cons k rest ih =>
    simp only [findVertex, List.cons_append, List.append_eq] at h ⊢
    split at h
    · rename_i hk
      rw [if_pos hk]
      exact h
    · rename_i hk
      rw [if_neg hk]
      cases hr : findVertex rest x with
      | none => rw [hr] at h; cases h
      | some j =>
        rw [hr] at h
        rw [ih j hr]
        exact h

theorem findVertex_append_self (l : List (Option Enode)) (x : Option Enode)
    (h : findVertex l x = none) : findVertex (l ++ [x]) x = some l.length := by
  induction l with
  | nil => simp [findVertex]
  | cons k rest ih =>
    simp only [findVertex, List.cons_append, List.append_eq] at h ⊢
    split at h
    · cases h
    · rename_i hk
      rw [if_neg hk]
      cases hr : findVertex rest x with
      | none =>
        rw [ih hr]
        rfl
      | some j => rw [hr] at h; cases h

/-- The vertex that `getDLVertex` returns is the vertex of the term in the new
map, which extends the old one. -/
theorem getDLVertex_spec (g : DLGraph) (x : Option Enode) :
    findVertex (getDLVertex g x).2.vertexMap x = some (getDLVertex g x).1 ∧
      (∃ l, (getDLVertex g x).2.vertexMap = g.vertexMap ++ l) := by
  unfold getDLVertex
  split
  · rename_i i h
    exact ⟨h, ⟨[], by simp⟩⟩
  · rename_i h
    exact ⟨findVertex_append_self _ _ h, ⟨[x], rfl⟩⟩

/-- What a call of `getDLEdge` on an atom without an entry does. -/
theorem getDLEdge_new (cfg : Config) (A : AtomStore) (g : DLGraph) (e : Enode)
    (p : DLComplEdges) (g1 : DLGraph) (hn : findEdges g.edgeMap e = none)
    (h : getDLEdge cfg A g e = some (p, g1)) :
    g1.edgeMap = g.edgeMap ++ [(e, p)] ∧ p.pos.id = 2 * g.edgeMap.length ∧
      p.neg.id = 2 * g.edgeMap.length + 1 ∧ p.pos.c = e ∧ p.neg.c = e ∧
      p.neg.u = p.pos.v ∧ p.neg.v = p.pos.u ∧ p.neg.wt = -p.pos.wt - 1 := by
  unfold getDLEdge at h
  rw [hn] at h
  simp only at h
  split at h
  · cases h
  · split at h
    · cases h
    · rename_i w x y hcl
      simp only [Option.some.injEq, Prod.mk.injEq] at h
      obtain ⟨hp, hg⟩ := h
      subst hp
      subst hg
      simp [getDLVertex_edgeMap]

theorem getDLEdge_found (cfg : Config) (A : AtomStore) (g : DLGraph) (e : Enode)
    (p : DLComplEdges) (hf : findEdges g.edgeMap e = some p) :
    getDLEdge cfg A g e = some (p, g) := by
  unfold getDLEdge
  rw [hf]
theorem findEdges_eq_none_iff (m : List (Enode × DLComplEdges)) (e : Enode) :
    findEdges m e = none ↔ e ∉ m.map Prod.fst := by
  induction m with
  | nil => simp [findEdges]
  | cons kp rest ih =>
    obtain ⟨k, p⟩ := kp
    simp only [findEdges, List.map_cons, List.mem_cons, not_or]
    by_cases hk : k = e
    · simp [hk]
    · rw [if_neg hk, ih]
      constructor
      · intro h
        exact ⟨fun h' => hk h'.symm, h⟩
      · intro h
        exact h.2

theorem findEdges_some_index (m : List (Enode × DLComplEdges)) (e : Enode) (p : DLComplEdges)
    (h : findEdges m e = some p) : ∃ j : Nat, m[j]? = some (e, p) := by
  induction m with
  | nil => cases h
  | cons kp rest ih =>
    obtain ⟨k, q⟩ := kp
    simp only [findEdges] at h
    split at h
    · rename_i hk
      cases h
      exact ⟨0, by simp [hk]⟩
    · obtain ⟨j, hj⟩ := ih h
      exact ⟨j + 1, by simpa using hj⟩

theorem getDLEdge_edgeIdsOk (cfg : Config) (A : AtomStore) (g g1 : DLGraph) (e : Enode)
    (p : DLComplEdges) (hok : EdgeIdsOk g.edgeMap) (h : getDLEdge cfg A g e = some (p, g1)) :
    EdgeIdsOk g1.edgeMap ∧
      g1.edgeMap.map Prod.fst =
        if e ∈ g.edgeMap.map Prod.fst then g.edgeMap.map Prod.fst
        else g.edgeMap.map Prod.fst ++ [e] := by
  cases hf : findEdges g.edgeMap e with
  | some q =>
    rw [getDLEdge_found cfg A g e q hf] at h
    cases h
    have hmem : e ∈ g.edgeMap.map Prod.fst := by
      by_contra hc
      rw [← findEdges_eq_none_iff] at hc
      rw [hc] at hf
      cases hf
    exact ⟨hok, by rw [if_pos hmem]⟩
  | none =>
    obtain ⟨hm, h1, h2, h3, h4, -⟩ := getDLEdge_new cfg A g e p g1 hf h
    have hnot : e ∉ g.edgeMap.map Prod.fst := (findEdges_eq_none_iff _ _).1 hf
    refine ⟨?_, by rw [if_neg hnot, hm]; simp⟩
    intro k a q hk
    rw [hm] at hk ⊢
    by_cases hlt : k < g.edgeMap.length
    · rw [List.getElem?_append_left hlt] at hk
      obtain ⟨a1, a2, a3, a4, a5⟩ := hok k a q hk
      exact ⟨a1, a2, a3, a4, findEdges_append_of_some _ _ _ _ a5⟩
    · rw [List.getElem?_append_right (Nat.le_of_not_lt hlt)] at hk
      have hk0 : k - g.edgeMap.length = 0 := by
        by_contra hne
        obtain ⟨n, hn⟩ := Nat.exists_eq_succ_of_ne_zero hne
        rw [hn] at hk
        simp at hk
      rw [hk0] at hk
      simp only [List.getElem?_cons_zero, Option.some.injEq, Prod.mk.injEq] at hk
      obtain ⟨rfl, rfl⟩ := hk
      have hkl : k = g.edgeMap.length := by omega
      subst hkl
      refine ⟨h1, h2, h3, h4, ?_⟩
      rw [findEdges_append_of_none _ _ _ hf]
      simp [findEdges]

theorem getDLEdges_edgeIdsOk (cfg : Config) (A : AtomStore) (as : List Enode) :
    ∀ g g1 : DLGraph, EdgeIdsOk g.edgeMap → getDLEdges cfg A as g = some g1 →
      EdgeIdsOk g1.edgeMap ∧
        g1.edgeMap.map Prod.fst = distinctAtoms (g.edgeMap.map Prod.fst) as := by
  induction as with
  | nil =>
    intro g g1 hok h
    simp only [getDLEdges, Option.some.injEq] at h
    subst h
    exact ⟨hok, rfl⟩
  | cons e rest ih =>
    intro g g1 hok h
    simp only [getDLEdges] at h
    split at h
    · cases h
    · rename_i p g2 hg
      obtain ⟨hok2, hkeys⟩ := getDLEdge_edgeIdsOk cfg A g g2 e p hok hg
      obtain ⟨hok3, hkeys3⟩ := ih g2 g1 hok2 h
      refine ⟨hok3, ?_⟩
      rw [hkeys3, hkeys]
      simp only [distinctAtoms]
      split <;> rfl

/-- C6: edge identifiers.  In a graph built from the empty graph by calls of
`getDLEdge`, the pair of the `k`-th distinct atom (counted from 0, in the order
of first mention) has `pos.id = 2k` and `neg.id = 2k + 1`; so `pos.id` is even,
`neg.id = pos.id + 1`, both edges point back to the atom, and no edge of another
atom has one of the two identifiers. -/
theorem getDLEdge_ids (cfg : Config) (A : AtomStore) (as : List Enode) (g : DLGraph)
    (h : getDLEdges cfg A as DLGraph.empty = some g) (k : Nat) (a : Enode)
    (hk : (distinctAtoms [] as)[k]? = some a) :
    ∃ p, findEdges g.edgeMap a = some p ∧ p.pos.id = 2 * k ∧ p.neg.id = 2 * k + 1 ∧
      p.pos.id % 2 = 0 ∧ p.neg.id = p.pos.id + 1 ∧ p.pos.c = a ∧ p.neg.c = a ∧
      ∀ b q, b ≠ a → findEdges g.edgeMap b = some q →
        q.pos.id ≠ p.pos.id ∧ q.pos.id ≠ p.neg.id ∧
          q.neg.id ≠ p.pos.id ∧ q.neg.id ≠ p.neg.id := by
  have hempty : EdgeIdsOk DLGraph.empty.edgeMap := by
    intro k a p hk
    simp [DLGraph.empty] at hk
  obtain ⟨hok, hkeys⟩ := getDLEdges_edgeIdsOk cfg A as DLGraph.empty g hempty h
  have hkeys2 : g.edgeMap.map Prod.fst = distinctAtoms [] as := by
    rw [hkeys]; rfl
  rw [← hkeys2, List.getElem?_map] at hk
  cases hm : g.edgeMap[k]? with
  | none => rw [hm] at hk; cases hk
  | some ap =>
    obtain ⟨a', p⟩ := ap
    rw [hm] at hk
    simp only [Option.map_some', Option.some.injEq] at hk
    subst hk
    obtain ⟨h1, h2, h3, h4, h5⟩ := hok k a' p hm
    refine ⟨p, h5, h1, h2, by omega, by omega, h3, h4, ?_⟩
    intro b q hne hq
    obtain ⟨j, hj⟩ := findEdges_some_index _ _ _ hq
    obtain ⟨j1, j2, -, -, -⟩ := hok j b q hj
    have hjk : j ≠ k := by
      intro hjk
      subst hjk
      rw [hm] at hj
      simp only [Option.some.injEq, Prod.mk.injEq] at hj
      exact hne hj.1.symm
    omega

theorem getDLEdge_ids_witness :
    (distinctAtoms [] [exAtom1, exAtom2, exAtom1])[1]? = some exAtom2 ∧
    ∃ g, getDLEdges exCfg exNoPol [exAtom1, exAtom2, exAtom1] DLGraph.empty = some g ∧
    ∃ p, findEdges g.edgeMap exAtom2 = some p ∧ p.pos.id = 2 * 1 ∧ p.neg.id = 2 * 1 + 1 ∧
      p.pos.id % 2 = 0 ∧ p.neg.id = p.pos.id + 1 ∧ p.pos.c = exAtom2 ∧ p.neg.c = exAtom2 ∧
      ∀ b q, b ≠ exAtom2 → findEdges g.edgeMap b = some q →
        q.pos.id ≠ p.pos.id ∧ q.pos.id ≠ p.neg.id ∧
          q.neg.id ≠ p.pos.id ∧ q.neg.id ≠ p.neg.id :=
  ⟨by decide, _, rfl,
    getDLEdge_ids exCfg exNoPol [exAtom1, exAtom2, exAtom1] _ rfl 1 exAtom2 (by decide)⟩

theorem findEdges_singleton (e : Enode) (p : DLComplEdges) : findEdges [(e, p)] e = some p := by
  simp [findEdges]

theorem getDLEdge_find (cfg : Config) (A : AtomStore) (g : DLGraph) (e : Enode)
    (p : DLComplEdges) (g1 : DLGraph) (h : getDLEdge cfg A g e = some (p, g1)) :
    findEdges g1.edgeMap e = some p := by
  cases hf : findEdges g.edgeMap e with
  | some q =>
    rw [getDLEdge_found cfg A g e q hf] at h
    cases h
    exact hf
  | none =>
    have := (getDLEdge_new cfg A g e p g1 hf h).1
    rw [this, findEdges_append_of_none _ _ _ hf]
    exact findEdges_singleton e p

/-- C8: `getDLEdge` is idempotent by atom identity.  After a call that returned
the pair `p` and left the graph `g1`, a second call for the same atom (whatever
the polarities are by then) returns `p` again and leaves `g1`, with its
`edgeMap`, as it is. -/
theorem getDLEdge_idempotent (cfg : Config) (A A' : AtomStore) (g g1 : DLGraph) (e : Enode)
    (p : DLComplEdges) (h : getDLEdge cfg A g e = some (p, g1)) :
    getDLEdge cfg A' g1 e = some (p, g1) :=
  getDLEdge_found cfg A' g1 e p (getDLEdge_find cfg A g e p g1 h)

theorem getDLEdge_idempotent_witness :
    ∃ p g1, getDLEdge exCfg exNoPol DLGraph.empty exAtom1 = some (p, g1) ∧
      getDLEdge exCfg exAllTrue g1 exAtom1 = some (p, g1) :=
  ⟨_, _, rfl, getDLEdge_idempotent exCfg exNoPol exAllTrue DLGraph.empty _ exAtom1 _ rfl⟩

theorem classify_diff (x y : Enode) (c : Int) :
    classify (.leq (.minus x y) (.num c)) = some (c, some x, some y) := by
  simp [classify, Enode.get1st, Enode.get2nd, Enode.isVar, Enode.isConstant,
    Enode.isUminusConstant, Enode.isUminus, Enode.isMinus, Enode.getValue]

/-- C7, as the code has it: for a new atom `x - y <= c` (the difference on the
left of a numeral) `getDLEdge` returns a pair whose pos edge goes from the
vertex of `x` to the vertex of `y` with weight `c` (times the rescale factor,
which is 1 outside rescaled `QF_RDL`), and whose neg edge has the endpoints of
pos swapped and the weight `-pos.wt - 1`. -/
theorem getDLEdge_diff_shape (cfg : Config) (A : AtomStore) (g : DLGraph) (x y : Enode)
    (c : Int) (hn : findEdges g.edgeMap (.leq (.minus x y) (.num c)) = none)
    (hp : hasPolarity A (.leq (.minus x y) (.num c)) = false) :
    ∃ p g1, getDLEdge cfg A g (.leq (.minus x y) (.num c)) = some (p, g1) ∧
      findVertex g1.vertexMap (some x) = some p.pos.u ∧
      findVertex g1.vertexMap (some y) = some p.pos.v ∧
      p.pos.wt = c * rescaleFactor cfg ∧
      p.neg.u = p.pos.v ∧ p.neg.v = p.pos.u ∧ p.neg.wt = -p.pos.wt - 1 := by
  unfold getDLEdge
  rw [hn]
  simp only [hp, classify_diff, Bool.false_eq_true, if_false]
  generalize hg0 : ({ g with tmp_edge_weight := c } : DLGraph) = g0
  have hw : getPosWeight g0 = c := by subst hg0; rfl
  obtain ⟨hu, -⟩ := getDLVertex_spec g0 (some x)
  obtain ⟨hv, ⟨l2, hl2⟩⟩ := getDLVertex_spec (getDLVertex g0 (some x)).2 (some y)
  refine ⟨_, _, rfl, ?_, hv, ?_, rfl, rfl, rfl⟩
  · simp only
    rw [hl2]
    exact findVertex_append_of_some _ _ _ _ hu
  · simp only [hw]

theorem getDLEdge_diff_shape_witness :
    findEdges DLGraph.empty.edgeMap (.leq (.minus (.var 0) (.var 1)) (.num 5)) = none ∧
    hasPolarity exNoPol (.leq (.minus (.var 0) (.var 1)) (.num 5)) = false ∧
    ∃ p g1, getDLEdge exCfg exNoPol DLGraph.empty (.leq (.minus (.var 0) (.var 1)) (.num 5))
        = some (p, g1) ∧
      findVertex g1.vertexMap (some (.var 0)) = some p.pos.u ∧
      findVertex g1.vertexMap (some (.var 1)) = some p.pos.v ∧
      p.pos.wt = 5 * rescaleFactor exCfg ∧
      p.neg.u = p.pos.v ∧ p.neg.v = p.pos.u ∧ p.neg.wt = -p.pos.wt - 1 :=
  ⟨by decide, by decide,
    getDLEdge_diff_shape exCfg exNoPol DLGraph.empty (.var 0) (.var 1) 5 (by decide)
      (by decide)⟩

/-- C7 as stated fails: for the atom `y - x <= 5` with `y = x0` and `x = x1` the
pos edge does not go from the vertex of `x` to the vertex of `y`, and the neg
edge does not go from the vertex of `y` to the vertex of `x`: the pos edge
leaves the vertex of `y`, the minuend. -/
theorem getDLEdge_shape_counterexample :
    ∃ p g1, getDLEdge exCfg exNoPol DLGraph.empty (.leq (.minus (.var 0) (.var 1)) (.num 5))
        = some (p, g1) ∧
      findVertex g1.vertexMap (some (.var 1)) ≠ some p.pos.u ∧
      findVertex g1.vertexMap (some (.var 0)) ≠ some p.pos.v ∧
      findVertex g1.vertexMap (some (.var 0)) ≠ some p.neg.u ∧
      findVertex g1.vertexMap (some (.var 1)) ≠ some p.neg.v :=
  ⟨_, _, rfl, by decide, by decide, by decide, by decide⟩

/-! ## Vectors -/

theorem modifyAt_eq_some {α : Type} (l l' : List α) (i : Nat) (f : α → α)
    (h : modifyAt l i f = some l') :
    ∃ a, l[i]? = some a ∧ l' = l.set i (f a) := by
  unfold modifyAt at h
  split at h
  · rename_i a ha
    cases h
    exact ⟨a, ha, rfl⟩
  · cases h

theorem modifyAt_of_getElem? {α : Type} (l : List α) (i : Nat) (f : α → α) (a : α)
    (h : l[i]? = some a) : modifyAt l i f = some (l.set i (f a)) := by
  unfold modifyAt
  rw [h]

theorem modifyAt_length {α : Type} (l l' : List α) (i : Nat) (f : α → α)
    (h : modifyAt l i f = some l') : l'.length = l.length ∧ i < l.length := by
  obtain ⟨a, ha, rfl⟩ := modifyAt_eq_some l l' i f h
  refine ⟨by simp, ?_⟩
  by_contra hc
  rw [List.getElem?_eq_none (Nat.le_of_not_lt hc)] at ha
  cases ha

theorem modifyAt_isSome {α : Type} (l : List α) (i : Nat) (f : α → α) (h : i < l.length) :
    ∃ l', modifyAt l i f = some l' := by
  unfold modifyAt
  rw [List.getElem?_eq_getElem h]
  exact ⟨_, rfl⟩

theorem modifyAt_getD (l l' : List AdjList) (i : Nat) (f : AdjList → AdjList)
    (h : modifyAt l i f = some l') (j : Nat) :
    l'.getD j [] = if j = i then f (l.getD i []) else l.getD j [] := by
  obtain ⟨a, ha, rfl⟩ := modifyAt_eq_some l l' i f h
  simp only [List.getD_eq_getElem?_getD]
  by_cases hj : j = i
  · subst hj
    rw [if_pos rfl, ha]
    have hlt : j < l.length := by
      by_contra hc
      rw [List.getElem?_eq_none (Nat.le_of_not_lt hc)] at ha
      cases ha
    rw [List.getElem?_set_self hlt]
    rfl
  · rw [if_neg hj, List.getElem?_set_ne (Ne.symm hj)]

theorem resize_of_length {α : Type} (l : List α) (n : Nat) (d : α) (h : l.length = n) :
    resize l n d = l := by
  unfold resize
  subst h
  simp

theorem resize_length {α : Type} (l : List α) (n : Nat) (d : α) :
    (resize l n d).length = n := by
  unfold resize
  simp
  omega

/-! ## The inactive views -/

theorem deleteInactive_spec (g g' : DLGraph) (e : Enode) (h : deleteInactive g e = some g') :
    ∃ p h1 hi1, findEdges g.edgeMap e = some p ∧
      modifyAt g.hAdj p.pos.u (fun l => deleteFromAdjList l p.pos) = some h1 ∧
      modifyAt g.hAdjInc p.pos.v (fun l => deleteFromAdjList l p.pos) = some hi1 ∧
      modifyAt h1 p.neg.u (fun l => deleteFromAdjList l p.neg) = some g'.hAdj ∧
      modifyAt hi1 p.neg.v (fun l => deleteFromAdjList l p.neg) = some g'.hAdjInc ∧
      g' = { g with hAdj := g'.hAdj, hAdjInc := g'.hAdjInc } := by
  unfold deleteInactive at h
  split at h
  · cases h
  · rename_i p hp
    simp only at h
    split at h
    · cases h
    · rename_i h1 hh1
      split at h
      · cases h
      · rename_i hi1 hhi1
        split at h
        · cases h
        · rename_i h2 hh2
          split at h
          · cases h
          · rename_i hi2 hhi2
            split at h
            · cases h
            · cases h
              exact ⟨p, h1, hi1, hp, hh1, hhi1, hh2, hhi2, rfl⟩

theorem insertInactive_spec (g g' : DLGraph) (e : Enode) (h : insertInactive g e = some g') :
    ∃ p h1 hi1, findEdges g.edgeMap e = some p ∧
      modifyAt g.hAdj p.pos.u (fun l => l ++ [p.pos]) = some h1 ∧
      modifyAt g.hAdjInc p.pos.v (fun l => l ++ [p.pos]) = some hi1 ∧
      modifyAt h1 p.neg.u (fun l => l ++ [p.neg]) = some g'.hAdj ∧
      modifyAt hi1 p.neg.v (fun l => l ++ [p.neg]) = some g'.hAdjInc ∧
      g' = { g with hAdj := g'.hAdj, hAdjInc := g'.hAdjInc } := by
  unfold insertInactive at h
  split at h
  · cases h
  · rename_i p hp
    simp only at h
    split at h
    · cases h
    · rename_i h1 hh1
      split at h
      · cases h
      · rename_i hi1 hhi1
        split at h
        · cases h
        · rename_i h2 hh2
          split at h
          · cases h
          · rename_i hi2 hhi2
            cases h
            exact ⟨p, h1, hi1, hp, hh1, hhi1, hh2, hhi2, rfl⟩

theorem insertInactive_isSome (g : DLGraph) (e : Enode) (p : DLComplEdges)
    (hp : findEdges g.edgeMap e = some p)
    (h1 : p.pos.u < g.hAdj.length) (h2 : p.pos.v < g.hAdjInc.length)
    (h3 : p.neg.u < g.hAdj.length) (h4 : p.neg.v < g.hAdjInc.length) :
    ∃ g', insertInactive g e = some g' := by
  unfold insertInactive
  rw [hp]
  simp only
  obtain ⟨a1, ha1⟩ := modifyAt_isSome g.hAdj p.pos.u (fun l => l ++ [p.pos]) h1
  obtain ⟨b1, hb1⟩ := modifyAt_isSome g.hAdjInc p.pos.v (fun l => l ++ [p.pos]) h2
  have h3' : p.neg.u < a1.length := by rw [(modifyAt_length _ _ _ _ ha1).1]; exact h3
  have h4' : p.neg.v < b1.length := by rw [(modifyAt_length _ _ _ _ hb1).1]; exact h4
  obtain ⟨a2, ha2⟩ := modifyAt_isSome a1 p.neg.u (fun l => l ++ [p.neg]) h3'
  obtain ⟨b2, hb2⟩ := modifyAt_isSome b1 p.neg.v (fun l => l ++ [p.neg]) h4'
  rw [ha1, hb1]
  simp only
  rw [ha2, hb2]
  exact ⟨_, rfl⟩

/-- Erasing an edge from a list and appending it again keeps the members, when
the edge was in the list. -/
theorem mem_erase_append (l : AdjList) (a x : DLEdge) (h : a ∈ l) :
    x ∈ deleteFromAdjList l a ++ [a] ↔ x ∈ l := by
  unfold deleteFromAdjList
  by_cases hx : x = a
  · subst hx
    simp [h]
  · simp [List.mem_erase_of_ne hx, hx]

/-- The round trip on one inactive table: erase `a` at `i`, erase `b` at `j`,
append `a` at `i`, append `b` at `j`. -/
theorem roundtrip_members (t t1 t2 t3 t4 : List AdjList) (a b : DLEdge) (i j : Nat)
    (h1 : modifyAt t i (fun l => deleteFromAdjList l a) = some t1)
    (h2 : modifyAt t1 j (fun l => deleteFromAdjList l b) = some t2)
    (h3 : modifyAt t2 i (fun l => l ++ [a]) = some t3)
    (h4 : modifyAt t3 j (fun l => l ++ [b]) = some t4)
    (ha : a ∈ t.getD i []) (hb : b ∈ t.getD j []) (k : Nat) (x : DLEdge) :
    x ∈ t4.getD k [] ↔ x ∈ t.getD k [] := by
  rw [modifyAt_getD _ _ _ _ h4 k, modifyAt_getD _ _ _ _ h3 j, modifyAt_getD _ _ _ _ h3 k,
    modifyAt_getD _ _ _ _ h2 i, modifyAt_getD _ _ _ _ h2 j, modifyAt_getD _ _ _ _ h2 k,
    modifyAt_getD _ _ _ _ h1 i, modifyAt_getD _ _ _ _ h1 j, modifyAt_getD _ _ _ _ h1 k]
  simp only [if_true]
  unfold deleteFromAdjList
  simp only [List.getD_eq_getElem?_getD] at ha hb ⊢
  by_cases hij : i = j
  · subst hij
    by_cases hk : k = i
    · subst hk
      simp only [if_true]
      by_cases hxa : x = a
      · subst hxa; simp [ha]
      · by_cases hxb : x = b
        · subst hxb; simp [hb]
        · simp [List.mem_erase_of_ne hxa, List.mem_erase_of_ne hxb, hxa, hxb]
    · simp [hk]
  · have hji : ¬ j = i := fun h => hij h.symm
    by_cases hk : k = i
    · subst hk
      simp only [if_true, if_neg hij, if_neg hji]
      by_cases hxa : x = a
      · subst hxa; simp [ha]
      · simp [List.mem_erase_of_ne hxa, hxa]
    · by_cases hkj : k = j
      · subst hkj
        simp only [if_true, if_neg hk, if_neg hji]
        by_cases hxb : x = b
        · subst hxb; simp [hb]
        · simp [List.mem_erase_of_ne hxb, hxb]
      · simp [hk, hkj]

/-! ## Activation and its inverse -/

theorem set_set_of_getElem? {α : Type} (l : List α) (i : Nat) (a b : α)
    (h : l[i]? = some a) : (l.set i b).set i a = l := by
  rw [List.set_set]
  apply List.ext_getElem?
  intro j
  by_cases hj : i = j
  · subst hj
    have hlt : i < l.length := by
      by_contra hc
      rw [List.getElem?_eq_none (Nat.le_of_not_lt hc)] at h
      cases h
    rw [List.getElem?_set_self hlt, h]
  · rw [List.getElem?_set_ne hj]

theorem getElem?_set_self_of_some {α : Type} (l : List α) (i : Nat) (a b : α)
    (h : l[i]? = some a) : (l.set i b)[i]? = some b := by
  have hlt : i < l.length := by
    by_contra hc
    rw [List.getElem?_eq_none (Nat.le_of_not_lt hc)] at h
    cases h
  exact List.getElem?_set_self hlt

/-- What a successful `insertDynamic` did. -/
theorem insertDynamic_spec (cfg : Config) (A : AtomStore) (g g1 : DLGraph) (c : Enode)
    (reason : Bool) (e : DLEdge) (h : insertDynamic cfg A g c reason = some (e, g1)) :
    ∃ p a b gm, hasPolarity A c = true ∧ findEdges g.edgeMap c = some p ∧
      e = selectEdge A c p ∧ g.dAdj[e.u]? = some a ∧ g.dAdjInc[e.v]? = some b ∧
      gm = { g with
             dAdj := g.dAdj.set e.u (a ++ [e])
             dEdges := g.dEdges ++ [e]
             dAdjInc := g.dAdjInc.set e.v (b ++ [e])
             max_dyn_edges :=
               if (g.dEdges ++ [e]).length > g.max_dyn_edges then (g.dEdges ++ [e]).length
               else g.max_dyn_edges } ∧
      ((cfg.dlconfig.theory_propagation > 0 ∧ deleteInactive gm c = some g1) ∨
        (¬ cfg.dlconfig.theory_propagation > 0 ∧ g1 = gm)) := by
  unfold insertDynamic at h
  split at h
  · cases h
  · rename_i hpol
    split at h
    · cases h
    · rename_i p hp
      simp only at h
      split at h
      · cases h
      · rename_i d1 hd1
        split at h
        · cases h
        · rename_i di1 hdi1
          obtain ⟨a, ha, rfl⟩ := modifyAt_eq_some _ _ _ _ hd1
          obtain ⟨b, hb, rfl⟩ := modifyAt_eq_some _ _ _ _ hdi1
          have hpol' : hasPolarity A c = true := by
            cases hh : hasPolarity A c
            · simp [hh] at hpol
            · rfl
          split at h
          · rename_i htp
            split at h
            · cases h
            · rename_i g2 hg2
              simp only [Option.some.injEq, Prod.mk.injEq] at h
              obtain ⟨he, hg⟩ := h
              subst hg
              refine ⟨p, a, b, _, hpol', hp, he.symm, ?_, ?_, rfl, Or.inl ⟨htp, ?_⟩⟩
              · rw [← he]; exact ha
              · rw [← he]; exact hb
              · rw [← he]; exact hg2
          · rename_i htp
            simp only [Option.some.injEq, Prod.mk.injEq] at h
            obtain ⟨he, hg⟩ := h
            refine ⟨p, a, b, _, hpol', hp, he.symm, ?_, ?_, rfl, Or.inr ⟨htp, ?_⟩⟩
            · rw [← he]; exact ha
            · rw [← he]; exact hb
            · rw [← he]; exact hg.symm

/-- `deleteActive` on a graph whose active tables end in the selected edge. -/
theorem deleteActive_after (cfg : Config) (A : AtomStore) (g g1 : DLGraph) (c : Enode)
    (p : DLComplEdges) (a b : AdjList) (e : DLEdge)
    (hpol : hasPolarity A c = true) (hp : findEdges g1.edgeMap c = some p)
    (he : e = selectEdge A c p) (ha : g.dAdj[e.u]? = some a) (hb : g.dAdjInc[e.v]? = some b)
    (h1 : g1.dAdj = g.dAdj.set e.u (a ++ [e])) (h2 : g1.dEdges = g.dEdges ++ [e])
    (h3 : g1.dAdjInc = g.dAdjInc.set e.v (b ++ [e])) :
    deleteActive cfg A g1 c =
      if cfg.dlconfig.theory_propagation > 0 then
        insertInactive { g1 with dAdj := g.dAdj, dEdges := g.dEdges, dAdjInc := g.dAdjInc,
                                 after_backtrack := true } c
      else some { g1 with dAdj := g.dAdj, dEdges := g.dEdges, dAdjInc := g.dAdjInc,
                          after_backtrack := true } := by
  unfold deleteActive
  simp only [hpol, hp, Bool.not_true, Bool.false_eq_true, if_false]
  rw [← he, h1, h3, h2, getElem?_set_self_of_some _ _ _ _ ha,
    getElem?_set_self_of_some _ _ _ _ hb]
  simp only [List.getLast?_concat, List.dropLast_concat, ne_eq, not_true_eq_false, if_false,
    set_set_of_getElem? _ _ _ _ ha, set_set_of_getElem? _ _ _ _ hb]

/-- C10: the activation round trip on the adjacency.  After a successful
`insertDynamic( c )` the call `deleteActive( c )` succeeds and leaves `dAdj`,
`dAdjInc` and `dEdges` as they were before `insertDynamic`; with theory
propagation on and `c` inactive before, every inactive list `hAdj[i]` and
`hAdjInc[i]` has the same set of edges as before. -/
theorem insertDynamic_deleteActive (cfg : Config) (A : AtomStore) (g g1 : DLGraph) (c : Enode)
    (reason : Bool) (e : DLEdge) (h : insertDynamic cfg A g c reason = some (e, g1)) :
    ∃ g2, deleteActive cfg A g1 c = some g2 ∧
      g2.dAdj = g.dAdj ∧ g2.dAdjInc = g.dAdjInc ∧ g2.dEdges = g.dEdges ∧
      (cfg.dlconfig.theory_propagation > 0 → IsInactive g c →
        g2.hAdj.length = g.hAdj.length ∧ g2.hAdjInc.length = g.hAdjInc.length ∧
        ∀ i x, (x ∈ g2.hAdj.getD i [] ↔ x ∈ g.hAdj.getD i []) ∧
          (x ∈ g2.hAdjInc.getD i [] ↔ x ∈ g.hAdjInc.getD i [])) := by
  obtain ⟨p, a, b, gm, hpol, hp, he, ha, hb, hgm, hcase⟩ :=
    insertDynamic_spec cfg A g g1 c reason e h
  rcases hcase with ⟨htp, hdel⟩ | ⟨htp, hg1⟩
  · obtain ⟨p', t1, ti1, hp', c1, c2, c3, c4, hg1⟩ := deleteInactive_spec gm g1 c hdel
    have hpp : p' = p := by
      rw [hgm] at hp'
      simp only at hp'
      rw [hp] at hp'
      cases hp'
      rfl
    subst hpp
    have e1 : g1.edgeMap = g.edgeMap := by rw [hg1, hgm]
    have e2 : g1.dAdj = g.dAdj.set e.u (a ++ [e]) := by rw [hg1, hgm]
    have e3 : g1.dEdges = g.dEdges ++ [e] := by rw [hg1, hgm]
    have e4 : g1.dAdjInc = g.dAdjInc.set e.v (b ++ [e]) := by rw [hg1, hgm]
    have e5 : gm.hAdj = g.hAdj := by rw [hgm]
    have e6 : gm.hAdjInc = g.hAdjInc := by rw [hgm]
    rw [e5] at c1
    rw [e6] at c2
    have hact := deleteActive_after cfg A g g1 c p' a b e hpol (by rw [e1]; exact hp) he ha hb
      e2 e3 e4
    rw [if_pos htp] at hact
    obtain ⟨l1, b1⟩ := modifyAt_length _ _ _ _ c1
    obtain ⟨l2, b2⟩ := modifyAt_length _ _ _ _ c2
    obtain ⟨l3, b3⟩ := modifyAt_length _ _ _ _ c3
    obtain ⟨l4, b4⟩ := modifyAt_length _ _ _ _ c4
    obtain ⟨g2, hg2⟩ := insertInactive_isSome
      { g1 with dAdj := g.dAdj, dEdges := g.dEdges, dAdjInc := g.dAdjInc,
                after_backtrack := true } c p' (by rw [← e1] at hp; exact hp)
      (by simp only; omega) (by simp only; omega) (by simp only; omega) (by simp only; omega)
    obtain ⟨p'', t3, ti3, hp'', d1, d2, d3, d4, hg2eq⟩ := insertInactive_spec _ g2 c hg2
    have hpp : p'' = p' := by
      simp only at hp''
      rw [e1, hp] at hp''
      cases hp''
      rfl
    subst hpp
    simp only at d1 d2
    refine ⟨g2, by rw [hact]; exact hg2, by rw [hg2eq], by rw [hg2eq], by rw [hg2eq], ?_⟩
    intro _ hin
    obtain ⟨q, hq, m1, m2, m3, m4⟩ := hin
    rw [hp] at hq
    cases hq
    obtain ⟨k1, -⟩ := modifyAt_length _ _ _ _ d1
    obtain ⟨k2, -⟩ := modifyAt_length _ _ _ _ d2
    obtain ⟨k3, -⟩ := modifyAt_length _ _ _ _ d3
    obtain ⟨k4, -⟩ := modifyAt_length _ _ _ _ d4
    refine ⟨by omega, by omega, ?_⟩
    intro i x
    exact ⟨roundtrip_members _ _ _ _ _ _ _ _ _ c1 c3 d1 d3 m1 m3 i x,
      roundtrip_members _ _ _ _ _ _ _ _ _ c2 c4 d2 d4 m2 m4 i x⟩
  · subst hg1
    have hact := deleteActive_after cfg A g g1 c p a b e hpol (by rw [hgm]; exact hp) he ha hb
      (by rw [hgm]) (by rw [hgm]) (by rw [hgm])
    rw [if_neg htp] at hact
    exact ⟨_, hact, rfl, rfl, rfl, fun h' => absurd h' htp⟩

theorem insertDynamic_deleteActive_witness :
    exCfg.dlconfig.theory_propagation > 0 ∧
    IsInactive exGraph1 exAtom1 ∧
    ∃ e g1, insertDynamic exCfg exAllTrue exGraph1 exAtom1 false = some (e, g1) ∧
    ∃ g2, deleteActive exCfg exAllTrue g1 exAtom1 = some g2 ∧
      g2.dAdj = exGraph1.dAdj ∧ g2.dAdjInc = exGraph1.dAdjInc ∧ g2.dEdges = exGraph1.dEdges ∧
      (exCfg.dlconfig.theory_propagation > 0 → IsInactive exGraph1 exAtom1 →
        g2.hAdj.length = exGraph1.hAdj.length ∧ g2.hAdjInc.length = exGraph1.hAdjInc.length ∧
        ∀ i x, (x ∈ g2.hAdj.getD i [] ↔ x ∈ exGraph1.hAdj.getD i []) ∧
          (x ∈ g2.hAdjInc.getD i [] ↔ x ∈ exGraph1.hAdjInc.getD i [])) :=
  ⟨by decide, ⟨_, rfl, by decide, by decide, by decide, by decide⟩, _, _, rfl,
    insertDynamic_deleteActive exCfg exAllTrue exGraph1 _ exAtom1 false _ rfl⟩

/-! ## Static insertion -/

/-- What a successful `insertStatic` did. -/
theorem insertStatic_spec (cfg : Config) (A : AtomStore) (g g' : DLGraph) (c : Enode)
    (h : insertStatic cfg A g c = some g') :
    ∃ p g1 s1 s2 g3, getDLEdge cfg A g c = some (p, g1) ∧
      modifyAt (resize g1.sAdj g1.vertexMap.length []) p.pos.u (fun l => l ++ [p.pos]) = some s1 ∧
      modifyAt s1 p.neg.u (fun l => l ++ [p.neg]) = some s2 ∧
      g3 = { g1 with
             Vcnt := g1.vertexMap.length
             sAdj := s2
             dAdj := resize g1.dAdj g1.vertexMap.length []
             dAdjInc := resize g1.dAdjInc g1.vertexMap.length []
             hAdj := resize g1.hAdj g1.vertexMap.length []
             hAdjInc := resize g1.hAdjInc g1.vertexMap.length []
             iAdj := resize g1.iAdj g1.vertexMap.length []
             sEdges := g1.sEdges ++ [p.pos, p.neg]
             Ecnt := g1.Ecnt + 2 } ∧
      g3.sEdges.length = g3.Ecnt ∧
      ((cfg.dlconfig.theory_propagation > 0 ∧ insertInactive g3 c = some g') ∨
        (¬ cfg.dlconfig.theory_propagation > 0 ∧ g' = g3)) := by
  unfold insertStatic at h
  split at h
  · cases h
  · rename_i p g1 hg1
    rw [getDLEdge_found cfg A g1 c p (getDLEdge_find cfg A g c p g1 hg1)] at h
    simp only at h
    split at h
    · cases h
    · rename_i s1 hs1
      split at h
      · cases h
      · rename_i s2 hs2
        split at h
        · cases h
        · rename_i hlen
          simp only [ne_eq, not_not] at hlen
          split at h
          · rename_i htp
            exact ⟨p, g1, s1, s2, _, hg1, hs1, hs2, rfl, hlen, Or.inl ⟨htp, h⟩⟩
          · rename_i htp
            simp only [Option.some.injEq] at h
            exact ⟨p, g1, s1, s2, _, hg1, hs1, hs2, rfl, hlen, Or.inr ⟨htp, h.symm⟩⟩

/-- The state that `insertStatic` leaves: the pair of the atom is in `edgeMap`,
every table has `Vcnt` rows, the ends of both edges are rows of the tables it
touched, and `sEdges` has `Ecnt` elements. -/
theorem insertStatic_state (cfg : Config) (A : AtomStore) (g g' : DLGraph) (c : Enode)
    (h : insertStatic cfg A g c = some g') :
    ∃ p, findEdges g'.edgeMap c = some p ∧ g'.vertexMap.length = g'.Vcnt ∧
      g'.sAdj.length = g'.Vcnt ∧ g'.dAdj.length = g'.Vcnt ∧ g'.dAdjInc.length = g'.Vcnt ∧
      g'.hAdj.length = g'.Vcnt ∧ g'.hAdjInc.length = g'.Vcnt ∧ g'.iAdj.length = g'.Vcnt ∧
      p.pos.u < g'.Vcnt ∧ p.neg.u < g'.Vcnt ∧ g'.sEdges.length = g'.Ecnt ∧
      (cfg.dlconfig.theory_propagation > 0 → p.pos.v < g'.Vcnt ∧ p.neg.v < g'.Vcnt) := by
  obtain ⟨p, g1, s1, s2, g3, hg1, hs1, hs2, hg3, hlen, hcase⟩ := insertStatic_spec cfg A g g' c h
  have hfind := getDLEdge_find cfg A g c p g1 hg1
  obtain ⟨l1, b1⟩ := modifyAt_length _ _ _ _ hs1
  obtain ⟨l2, b2⟩ := modifyAt_length _ _ _ _ hs2
  rw [resize_length] at l1 b1
  have f3 : findEdges g3.edgeMap c = some p := by
    have : g3.edgeMap = g1.edgeMap := by
      have hh := congrArg DLGraph.edgeMap hg3
      exact hh
    rw [this]; exact hfind
  have v3 : g3.vertexMap.length = g3.Vcnt := by
    have e1 : g3.vertexMap = g1.vertexMap := by
      have hh := congrArg DLGraph.vertexMap hg3
      exact hh
    have e2 : g3.Vcnt = g1.vertexMap.length := by
      have hh := congrArg DLGraph.Vcnt hg3
      exact hh
    rw [e1, e2]
  have hV : g3.Vcnt = g1.vertexMap.length := by
      have hh := congrArg DLGraph.Vcnt hg3
      exact hh
  have a1 : g3.sAdj.length = g3.Vcnt := by
    have e1 : g3.sAdj = s2 := by
      have hh := congrArg DLGraph.sAdj hg3
      exact hh
    rw [e1, hV]; omega
  have a2 : g3.dAdj.length = g3.Vcnt := by
    have e1 : g3.dAdj = resize g1.dAdj g1.vertexMap.length [] := by
      have hh := congrArg DLGraph.dAdj hg3
      exact hh
    rw [e1, hV]; exact resize_length _ _ _
  have a3 : g3.dAdjInc.length = g3.Vcnt := by
    have e1 : g3.dAdjInc = resize g1.dAdjInc g1.vertexMap.length [] := by
      have hh := congrArg DLGraph.dAdjInc hg3
      exact hh
    rw [e1, hV]; exact resize_length _ _ _
  have a4 : g3.hAdj.length = g3.Vcnt := by
    have e1 : g3.hAdj = resize g1.hAdj g1.vertexMap.length [] := by
      have hh := congrArg DLGraph.hAdj hg3
      exact hh
    rw [e1, hV]; exact resize_length _ _ _
  have a5 : g3.hAdjInc.length = g3.Vcnt := by
    have e1 : g3.hAdjInc = resize g1.hAdjInc g1.vertexMap.length [] := by
      have hh := congrArg DLGraph.hAdjInc hg3
      exact hh
    rw [e1, hV]; exact resize_length _ _ _
  have a6 : g3.iAdj.length = g3.Vcnt := by
    have e1 : g3.iAdj = resize g1.iAdj g1.vertexMap.length [] := by
      have hh := congrArg DLGraph.iAdj hg3
      exact hh
    rw [e1, hV]; exact resize_length _ _ _
  have u1 : p.pos.u < g3.Vcnt := by rw [hV]; exact b1
  have u2 : p.neg.u < g3.Vcnt := by rw [hV]; omega
  rcases hcase with ⟨htp, hin⟩ | ⟨htp, heq⟩
  · obtain ⟨q, t1, ti1, hq, c1, c2, c3, c4, hg'⟩ := insertInactive_spec g3 g' c hin
    rw [f3] at hq
    cases hq
    obtain ⟨k1, m1⟩ := modifyAt_length _ _ _ _ c1
    obtain ⟨k2, m2⟩ := modifyAt_length _ _ _ _ c2
    obtain ⟨k3, m3⟩ := modifyAt_length _ _ _ _ c3
    obtain ⟨k4, m4⟩ := modifyAt_length _ _ _ _ c4
    have w1 : g'.edgeMap = g3.edgeMap := by
      have hh := congrArg DLGraph.edgeMap hg'
      exact hh
    have w2 : g'.Vcnt = g3.Vcnt := by
      have hh := congrArg DLGraph.Vcnt hg'
      exact hh
    have w3 : g'.vertexMap = g3.vertexMap := by
      have hh := congrArg DLGraph.vertexMap hg'
      exact hh
    have w4 : g'.sAdj = g3.sAdj := by
      have hh := congrArg DLGraph.sAdj hg'
      exact hh
    have w5 : g'.dAdj = g3.dAdj := by
      have hh := congrArg DLGraph.dAdj hg'
      exact hh
    have w6 : g'.dAdjInc = g3.dAdjInc := by
      have hh := congrArg DLGraph.dAdjInc hg'
      exact hh
    have w7 : g'.iAdj = g3.iAdj := by
      have hh := congrArg DLGraph.iAdj hg'
      exact hh
    have w8 : g'.sEdges = g3.sEdges := by
      have hh := congrArg DLGraph.sEdges hg'
      exact hh
    have w9 : g'.Ecnt = g3.Ecnt := by
      have hh := congrArg DLGraph.Ecnt hg'
      exact hh
    clear hg' hg3 h hin hs1 hs2 c1 c2 c3 c4 hg1
    have r1 : findEdges g'.edgeMap c = some p := by rw [w1]; exact f3
    have r2 : g'.vertexMap.length = g'.Vcnt := by rw [w3, w2]; exact v3
    have r3 : g'.sAdj.length = g'.Vcnt := by rw [w4, w2]; exact a1
    have r4 : g'.dAdj.length = g'.Vcnt := by rw [w5, w2]; exact a2
    have r5 : g'.dAdjInc.length = g'.Vcnt := by rw [w6, w2]; exact a3
    have r6 : g'.hAdj.length = g'.Vcnt := by rw [k3, k1, w2]; exact a4
    have r7 : g'.hAdjInc.length = g'.Vcnt := by rw [k4, k2, w2]; exact a5
    have r8 : g'.iAdj.length = g'.Vcnt := by rw [w7, w2]; exact a6
    have r9 : p.pos.u < g'.Vcnt := by rw [w2]; exact u1
    have r10 : p.neg.u < g'.Vcnt := by rw [w2]; exact u2
    have r11 : g'.sEdges.length = g'.Ecnt := by rw [w8, w9]; exact hlen
    have r12 : p.pos.v < g'.Vcnt := by rw [w2, ← a5]; exact m2
    have r13 : p.neg.v < g'.Vcnt := by rw [w2, ← a5, ← k2]; exact m4
    exact ⟨p, r1, r2, r3, r4, r5, r6, r7, r8, r9, r10, r11, fun _ => ⟨r12, r13⟩⟩
  · subst heq
    exact ⟨p, f3, v3, a1, a2, a3, a4, a5, a6, u1, u2, hlen, fun h' => absurd h' htp⟩

/-- C9, as the code has it: `insertStatic` is idempotent on the edge pair only.
After a successful `insertStatic( c )` a second call succeeds and leaves
`edgeMap`, `vertexMap` and `Vcnt` as they are, but it appends pos and neg once
more to `sEdges` and to their rows of `sAdj`, adds 2 to `Ecnt` again, and with
theory propagation on appends both edges once more to the inactive views (as
`insertInactive` does); with theory propagation off the inactive views stay. -/
theorem insertStatic_twice (cfg : Config) (A A' : AtomStore) (g g1 : DLGraph) (c : Enode)
    (h : insertStatic cfg A g c = some g1) :
    ∃ p g2, findEdges g1.edgeMap c = some p ∧ insertStatic cfg A' g1 c = some g2 ∧
      g2.edgeMap = g1.edgeMap ∧ g2.vertexMap = g1.vertexMap ∧ g2.Vcnt = g1.Vcnt ∧
      g2.Ecnt = g1.Ecnt + 2 ∧ g2.sEdges = g1.sEdges ++ [p.pos, p.neg] ∧
      (modifyAt g1.sAdj p.pos.u (fun l => l ++ [p.pos])).bind
          (fun s => modifyAt s p.neg.u (fun l => l ++ [p.neg])) = some g2.sAdj ∧
      (cfg.dlconfig.theory_propagation > 0 →
        (insertInactive g1 c).map (fun r => (r.hAdj, r.hAdjInc)) = some (g2.hAdj, g2.hAdjInc)) ∧
      (¬ cfg.dlconfig.theory_propagation > 0 →
        g2.hAdj = g1.hAdj ∧ g2.hAdjInc = g1.hAdjInc) := by
  obtain ⟨p, hf, hv, a1, a2, a3, a4, a5, a6, u1, u2, hlen, hvv⟩ :=
    insertStatic_state cfg A g g1 c h
  have hget : getDLEdge cfg A' g1 c = some (p, g1) := getDLEdge_found cfg A' g1 c p hf
  obtain ⟨s1, hs1⟩ := modifyAt_isSome g1.sAdj p.pos.u (fun l => l ++ [p.pos]) (by rw [a1]; exact u1)
  obtain ⟨s2, hs2⟩ := modifyAt_isSome s1 p.neg.u (fun l => l ++ [p.neg])
    (by rw [(modifyAt_length _ _ _ _ hs1).1, a1]; exact u2)
  have hstep : insertStatic cfg A' g1 c =
      if cfg.dlconfig.theory_propagation > 0 then
        insertInactive { g1 with sAdj := s2, sEdges := g1.sEdges ++ [p.pos, p.neg],
                                 Ecnt := g1.Ecnt + 2 } c
      else some { g1 with sAdj := s2, sEdges := g1.sEdges ++ [p.pos, p.neg],
                          Ecnt := g1.Ecnt + 2 } := by
    unfold insertStatic
    rw [hget]
    simp only [hget, hv, resize_of_length _ _ _ a1, resize_of_length _ _ _ a2,
      resize_of_length _ _ _ a3, resize_of_length _ _ _ a4, resize_of_length _ _ _ a5,
      resize_of_length _ _ _ a6, hs1, hs2, List.length_append, hlen, List.length_cons,
      List.length_nil, ne_eq, not_true_eq_false, if_false]
  by_cases htp : cfg.dlconfig.theory_propagation > 0
  · rw [if_pos htp] at hstep
    obtain ⟨v1, v2⟩ := hvv htp
    obtain ⟨g2, hg2⟩ := insertInactive_isSome
      { g1 with sAdj := s2, sEdges := g1.sEdges ++ [p.pos, p.neg], Ecnt := g1.Ecnt + 2 } c p hf
      (by rw [← a4] at u1; exact u1) (by rw [← a5] at v1; exact v1)
      (by rw [← a4] at u2; exact u2) (by rw [← a5] at v2; exact v2)
    obtain ⟨q, t1, ti1, hq, c1, c2, c3, c4, hg2eq⟩ := insertInactive_spec _ g2 c hg2
    have hq' : findEdges g1.edgeMap c = some q := hq
    rw [hf] at hq'
    cases hq'
    have c1' : modifyAt g1.hAdj p.pos.u (fun l => l ++ [p.pos]) = some t1 := c1
    have c2' : modifyAt g1.hAdjInc p.pos.v (fun l => l ++ [p.pos]) = some ti1 := c2
    have w1 : g2.edgeMap = g1.edgeMap := by
      have hh := congrArg DLGraph.edgeMap hg2eq
      exact hh
    have w2 : g2.vertexMap = g1.vertexMap := by
      have hh := congrArg DLGraph.vertexMap hg2eq
      exact hh
    have w3 : g2.Vcnt = g1.Vcnt := by
      have hh := congrArg DLGraph.Vcnt hg2eq
      exact hh
    have w4 : g2.Ecnt = g1.Ecnt + 2 := by
      have hh := congrArg DLGraph.Ecnt hg2eq
      exact hh
    have w5 : g2.sEdges = g1.sEdges ++ [p.pos, p.neg] := by
      have hh := congrArg DLGraph.sEdges hg2eq
      exact hh
    have w6 : g2.sAdj = s2 := by
      have hh := congrArg DLGraph.sAdj hg2eq
      exact hh
    refine ⟨p, g2, hf, by rw [hstep]; exact hg2, w1, w2, w3, w4, w5, ?_, ?_,
      fun h' => absurd htp h'⟩
    · rw [hs1, w6]
      exact hs2
    · intro _
      unfold insertInactive
      rw [hf]
      simp only [c1', c2', c3, c4, Option.map_some']
  · rw [if_neg htp] at hstep
    refine ⟨p, _, hf, hstep, rfl, rfl, rfl, rfl, rfl, ?_, fun h' => absurd h' htp,
      fun _ => ⟨rfl, rfl⟩⟩
    rw [hs1]
    exact hs2

theorem insertStatic_twice_witness :
    insertStatic exCfg exNoPol DLGraph.empty exAtom1 = some exGraph1 ∧
    ∃ p g2, findEdges exGraph1.edgeMap exAtom1 = some p ∧
      insertStatic exCfg exAllTrue exGraph1 exAtom1 = some g2 ∧
      g2.edgeMap = exGraph1.edgeMap ∧ g2.vertexMap = exGraph1.vertexMap ∧
      g2.Vcnt = exGraph1.Vcnt ∧
      g2.Ecnt = exGraph1.Ecnt + 2 ∧ g2.sEdges = exGraph1.sEdges ++ [p.pos, p.neg] ∧
      (modifyAt exGraph1.sAdj p.pos.u (fun l => l ++ [p.pos])).bind
          (fun s => modifyAt s p.neg.u (fun l => l ++ [p.neg])) = some g2.sAdj ∧
      (exCfg.dlconfig.theory_propagation > 0 →
        (insertInactive exGraph1 exAtom1).map (fun r => (r.hAdj, r.hAdjInc)) =
          some (g2.hAdj, g2.hAdjInc)) ∧
      (¬ exCfg.dlconfig.theory_propagation > 0 →
        g2.hAdj = exGraph1.hAdj ∧ g2.hAdjInc = exGraph1.hAdjInc) :=
  ⟨rfl, insertStatic_twice exCfg exNoPol exAllTrue DLGraph.empty exGraph1 exAtom1 rfl⟩

/-- C9 as stated fails: a second `insertStatic` of the atom `x0 - x1 <= 3`
changes `Ecnt`, `sEdges`, `sAdj` and the inactive views `hAdj` and `hAdjInc`. -/
theorem insertStatic_twice_counterexample :
    ∃ g1 g2, insertStatic exCfg exNoPol DLGraph.empty exAtom1 = some g1 ∧
      insertStatic exCfg exNoPol g1 exAtom1 = some g2 ∧
      g1.Ecnt = 2 ∧ g2.Ecnt = 4 ∧ g2.sEdges ≠ g1.sEdges ∧ g2.sAdj ≠ g1.sAdj ∧
      g2.hAdj ≠ g1.hAdj ∧ g2.hAdjInc ≠ g1.hAdjInc :=
  ⟨_, _, rfl, rfl, rfl, rfl, by decide, by decide, by decide, by decide⟩

/-! ## The negative-cycle check: rollback -/

theorem SameCore.refl (g : DLGraph) : SameCore g g := ⟨rfl, rfl, rfl, rfl, rfl, rfl⟩

theorem SameCore.trans {g g' g'' : DLGraph} (h1 : SameCore g g') (h2 : SameCore g' g'') :
    SameCore g g'' :=
  ⟨h2.1.trans h1.1, h2.2.1.trans h1.2.1, h2.2.2.1.trans h1.2.2.1,
    h2.2.2.2.1.trans h1.2.2.2.1, h2.2.2.2.2.1.trans h1.2.2.2.2.1,
    h2.2.2.2.2.2.trans h1.2.2.2.2.2⟩

theorem restorePi_apply (old_pi : Nat → Int) (l : List Nat) (pi : Nat → Int) (x : Nat) :
    restorePi old_pi l pi x = if x ∈ l then old_pi x else pi x := by
  induction l generalizing pi with
  | nil => simp [restorePi]
  | cons y rest ih =>
    simp only [restorePi, ih, List.mem_cons]
    by_cases hr : x ∈ rest
    · simp [hr]
    · by_cases hy : x = y
      · subst hy
        simp [hr]
      · simp [hr, hy, Function.update_noteq hy]

/-- The state in which a marker of `gamma` was refreshed has the same core. -/
theorem sameCore_gammaRefresh (g : DLGraph) (t : Nat) :
    SameCore g (if isGammaRead g t then g
      else readGamma { g with gamma := Function.update g.gamma t 0 } t) := by
  split
  · exact SameCore.refl g
  · exact ⟨rfl, rfl, rfl, rfl, rfl, rfl⟩

/-- The scan of an adjacency list either ends and leaves the core of the state
alone, or returns `false` after the rollback of line 551-556. -/
theorem scanAdjList_core (u s : Nat) (l : AdjList) :
    ∀ (g g' : DLGraph) (b : Bool), scanAdjList u s l g = some (b, g') →
      (b = true → SameCore g g') ∧
      (b = false → g'.pi = restorePi g.old_pi g.changed_vertices g.pi ∧
        g'.changed_vertices = [] ∧ g'.vertex_heap = [] ∧ g'.negCycleVertex = some u) := by
  induction l with
  | nil =>
    intro g g' b h
    simp only [scanAdjList, Option.some.injEq, Prod.mk.injEq] at h
    obtain ⟨rfl, rfl⟩ := h
    exact ⟨fun _ => SameCore.refl g, fun h => by cases h⟩
  | cons it rest ih =>
    intro g g' b h
    unfold scanAdjList at h
    simp only at h
    split at h
    · exact ih g g' b h
    · have hc := sameCore_gammaRefresh g it.v
      generalize (if isGammaRead g it.v then g
        else readGamma { g with gamma := Function.update g.gamma it.v 0 } it.v) = g1 at h hc
      obtain ⟨c1, c2, c3, c4, c5, c6⟩ := hc
      split at h
      · split at h
        · split at h
          · cases h
          · rename_i ce hce
            simp only [Option.some.injEq, Prod.mk.injEq] at h
            obtain ⟨rfl, rfl⟩ := h
            refine ⟨fun h => (by cases h), fun _ => ⟨?_, rfl, rfl, rfl⟩⟩
            simp only [donePiPrime, doneGamma]
            rw [c1, c2, c3]
        · obtain ⟨r1, r2⟩ := ih g1 g' b h
          refine ⟨fun hb => SameCore.trans ⟨c1, c2, c3, c4, c5, c6⟩ (r1 hb), fun hb => ?_⟩
          rw [← c1, ← c2, ← c3]
          exact r2 hb
      · split at h
        · split at h
          · split at h
            · cases h
            · rename_i ce hce
              obtain ⟨r1, r2⟩ := ih _ g' b h
              refine ⟨fun hb => SameCore.trans ⟨c1, c2, c3, c4, c5, c6⟩ (r1 hb), fun hb => ?_⟩
              rw [← c1, ← c2, ← c3]
              exact r2 hb
          · split at h
            · split at h
              · cases h
              · rename_i ce hce
                obtain ⟨r1, r2⟩ := ih _ g' b h
                refine ⟨fun hb => SameCore.trans ⟨c1, c2, c3, c4, c5, c6⟩ (r1 hb), fun hb => ?_⟩
                rw [← c1, ← c2, ← c3]
                exact r2 hb
            · cases h
        · obtain ⟨r1, r2⟩ := ih g1 g' b h
          refine ⟨fun hb => SameCore.trans ⟨c1, c2, c3, c4, c5, c6⟩ (r1 hb), fun hb => ?_⟩
          rw [← c1, ← c2, ← c3]
          exact r2 hb

theorem JournalInv.of_sameCore {pi0 : Nat → Int} {g g' : DLGraph} (h : JournalInv pi0 g)
    (hc : SameCore g g') : JournalInv pi0 g' := by
  obtain ⟨c1, c2, c3, c4, c5, c6⟩ := hc
  obtain ⟨i1, i2, i3⟩ := h
  unfold JournalInv isPiPrime at *
  rw [c1, c2, c3, c4, c5]
  exact ⟨i1, i2, i3⟩

theorem beq_nat_update (f : Nat → Nat) (s x k : Nat) :
    (Function.update f s k x == k) = if x = s then true else (f x == k) := by
  by_cases hx : x = s
  · subst hx
    simp
  · simp [Function.update_noteq hx, hx]

/-- The extraction of a vertex keeps the journal invariant. -/
theorem JournalInv.extract {pi0 : Nat → Int} {g : DLGraph} (h : JournalInv pi0 g) (s : Nat)
    (rest : List Nat) : JournalInv pi0 (extractVertex g s rest) := by
  obtain ⟨i1, i2, i3⟩ := h
  unfold isPiPrime at i3
  unfold extractVertex
  by_cases hs : isPiPrime (make_heap { g with vertex_heap := rest }) s = true
  · have hs' : s ∈ g.changed_vertices := (i3 s).1 hs
    simp only [hs, if_true]
    refine ⟨?_, ?_, ?_⟩
    · intro x hx
      exact i1 x hx
    · intro x hx
      have hxs : x ≠ s := fun hh => hx (hh ▸ hs')
      simp only [readGamma, updatePiPrime, make_heap]
      rw [Function.update_noteq hxs]
      exact i2 x hx
    · intro x
      simp only [isPiPrime, readGamma, updatePiPrime, make_heap]
      rw [beq_nat_update]
      by_cases hxs : x = s
      · subst hxs
        simp [hs']
      · simp only [if_neg hxs]
        exact i3 x
  · have hs' : s ∉ g.changed_vertices := fun hh => hs ((i3 s).2 hh)
    simp only [hs, if_false, Bool.false_eq_true]
    refine ⟨?_, ?_, ?_⟩
    · intro x hx
      simp only [readGamma, updatePiPrime, make_heap, List.mem_append, List.mem_singleton] at hx ⊢
      by_cases hxs : x = s
      · subst hxs
        rw [Function.update_same]
        exact i2 x hs'
      · rw [Function.update_noteq hxs]
        rcases hx with hx | hx
        · exact i1 x hx
        · exact absurd hx hxs
    · intro x hx
      simp only [readGamma, updatePiPrime, make_heap, List.mem_append, List.mem_singleton,
        not_or] at hx ⊢
      rw [Function.update_noteq hx.2]
      exact i2 x hx.1
    · intro x
      simp only [isPiPrime, readGamma, updatePiPrime, make_heap, List.mem_append,
        List.mem_singleton]
      rw [beq_nat_update]
      by_cases hxs : x = s
      · subst hxs
        simp
      · simp only [if_neg hxs, hxs, or_false]
        exact i3 x

theorem JournalInv.make_heap {pi0 : Nat → Int} {g : DLGraph} (h : JournalInv pi0 g) :
    JournalInv pi0 (make_heap g) :=
  h.of_sameCore ⟨rfl, rfl, rfl, rfl, rfl, rfl⟩

/-- When the while loop returns `false`, every potential is the one at the call,
the journal and the heap are empty and `negCycleVertex` is the source. -/
theorem negCycleLoop_rollback (pi0 : Nat → Int) (u : Nat) (fuel : Nat) :
    ∀ (g g' : DLGraph), JournalInv pi0 g → negCycleLoop u fuel g = some (false, g') →
      (∀ x, g'.pi x = pi0 x) ∧ g'.changed_vertices = [] ∧ g'.vertex_heap = [] ∧
        g'.negCycleVertex = some u := by
  induction fuel with
  | zero =>
    intro g g' _ h
    unfold negCycleLoop at h
    split at h
    · cases h
    · cases h
  | succ n ih =>
    intro g g' hinv h
    unfold negCycleLoop at h
    split at h
    · cases h
    · rename_i s rest hheap
      simp only at h
      have hinv4 := hinv.extract s rest
      generalize extractVertex g s rest = g4 at h hinv4
      split at h
      · cases h
      · rename_i adjList hadj
        split at h
        · cases h
        · rename_i g5 hscan
          simp only [Option.some.injEq, Prod.mk.injEq, true_and] at h
          subst h
          obtain ⟨-, r⟩ := scanAdjList_core u s adjList g4 g5 false hscan
          obtain ⟨r1, r2, r3, r4⟩ := r rfl
          refine ⟨?_, r2, r3, r4⟩
          intro x
          rw [r1, restorePi_apply]
          obtain ⟨i1, i2, i3⟩ := hinv4
          split
          · rename_i hx
            exact i1 x hx
          · rename_i hx
            exact i2 x hx
        · rename_i g5 hscan
          obtain ⟨r, -⟩ := scanAdjList_core u s adjList g4 g5 true hscan
          exact ih _ g' (hinv4.of_sameCore (r rfl)).make_heap h

/-- `insertDynamic` changes adjacency tables only. -/
theorem insertDynamic_frame (cfg : Config) (A : AtomStore) (g g1 : DLGraph) (c : Enode)
    (reason : Bool) (e : DLEdge) (h : insertDynamic cfg A g c reason = some (e, g1)) :
    g1.pi = g.pi ∧ g1.old_pi = g.old_pi ∧ g1.changed_vertices = g.changed_vertices ∧
      g1.vertex_heap = g.vertex_heap ∧ g1.pi_prime_list = g.pi_prime_list ∧
      g1.pi_prime_token = g.pi_prime_token ∧
      ∃ p, findEdges g.edgeMap c = some p ∧ e = selectEdge A c p := by
  obtain ⟨p, a, b, gm, -, hp, he, -, -, hgm, hcase⟩ := insertDynamic_spec cfg A g g1 c reason e h
  have m1 : gm.pi = g.pi := by
    have hh := congrArg DLGraph.pi hgm
    exact hh
  have m2 : gm.old_pi = g.old_pi := by
    have hh := congrArg DLGraph.old_pi hgm
    exact hh
  have m3 : gm.changed_vertices = g.changed_vertices := by
    have hh := congrArg DLGraph.changed_vertices hgm
    exact hh
  have m4 : gm.vertex_heap = g.vertex_heap := by
    have hh := congrArg DLGraph.vertex_heap hgm
    exact hh
  have m5 : gm.pi_prime_list = g.pi_prime_list := by
    have hh := congrArg DLGraph.pi_prime_list hgm
    exact hh
  have m6 : gm.pi_prime_token = g.pi_prime_token := by
    have hh := congrArg DLGraph.pi_prime_token hgm
    exact hh
  rcases hcase with ⟨-, hdel⟩ | ⟨-, hg1⟩
  · obtain ⟨-, -, -, -, -, -, -, -, hg1⟩ := deleteInactive_spec gm g1 c hdel
    have n1 : g1.pi = gm.pi := by
      have hh := congrArg DLGraph.pi hg1
      exact hh
    have n2 : g1.old_pi = gm.old_pi := by
      have hh := congrArg DLGraph.old_pi hg1
      exact hh
    have n3 : g1.changed_vertices = gm.changed_vertices := by
      have hh := congrArg DLGraph.changed_vertices hg1
      exact hh
    have n4 : g1.vertex_heap = gm.vertex_heap := by
      have hh := congrArg DLGraph.vertex_heap hg1
      exact hh
    have n5 : g1.pi_prime_list = gm.pi_prime_list := by
      have hh := congrArg DLGraph.pi_prime_list hg1
      exact hh
    have n6 : g1.pi_prime_token = gm.pi_prime_token := by
      have hh := congrArg DLGraph.pi_prime_token hg1
      exact hh
    exact ⟨n1.trans m1, n2.trans m2, n3.trans m3, n4.trans m4, n5.trans m5, n6.trans m6,
      p, hp, he⟩
  · rw [hg1]
    exact ⟨m1, m2, m3, m4, m5, m6, p, hp, he⟩

/-- What `startCheck` leaves alone, and the bump of the `pi'` token. -/
theorem startCheck_frame (g1 g5 : DLGraph) (e : DLEdge) (h : startCheck g1 e = some g5) :
    g5.pi = g1.pi ∧ g5.old_pi = g1.old_pi ∧ g5.changed_vertices = g1.changed_vertices ∧
      g5.pi_prime_list = g1.pi_prime_list ∧ g5.pi_prime_token = g1.pi_prime_token + 1 := by
  unfold startCheck at h
  simp only at h
  split at h
  · cases h
  · rename_i g4 hg4
    simp only [Option.some.injEq] at h
    subst h
    split at hg4
    · split at hg4
      · cases hg4
      · simp only [Option.some.injEq] at hg4
        subst hg4
        simp only [initPiPrime, initGamma, make_heap, and_self]
    · simp only [Option.some.injEq] at hg4
      subst hg4
      simp only [initPiPrime, initGamma, and_self]

/-- On a feasible edge `startCheck` succeeds and puts nothing on the heap. -/
theorem startCheck_feasible (g1 : DLGraph) (e : DLEdge)
    (hf : 0 ≤ g1.pi e.u + e.wt - g1.pi e.v) :
    ∃ g5, startCheck g1 e = some g5 ∧ g5.vertex_heap = g1.vertex_heap ∧ g5.pi = g1.pi := by
  unfold startCheck
  simp only [Function.update_same]
  rw [if_neg (not_lt.mpr hf)]
  exact ⟨_, rfl, rfl, rfl⟩

/-- The while loop on an empty heap ends at once, whatever the fuel. -/
theorem negCycleLoop_empty (u fuel : Nat) (g : DLGraph) (h : g.vertex_heap = []) :
    negCycleLoop u fuel g = some (true, g) := by
  cases fuel <;> (unfold negCycleLoop; rw [h])

/-- C3: rollback on conflict.  Whenever `checkNegCycle( c )` returns `false`
(whatever the bound on the loop), the potential of every vertex is the one
right before the call, `changed_vertices` and `vertex_heap` are empty, and
`negCycleVertex` is the source `u` of the activated edge.  The state at the
call has no `pi'` stamp ahead of the token, as in every state the token bumps
can reach. -/
theorem checkNegCycle_rollback (cfg : Config) (A : AtomStore) (g g' : DLGraph) (c : Enode)
    (reason : Bool) (fuel : Nat) (hst : ∀ x, g.pi_prime_list x ≤ g.pi_prime_token)
    (h : checkNegCycle cfg A g c reason fuel = some (false, g')) :
    (∀ x, g'.pi x = g.pi x) ∧ g'.changed_vertices = [] ∧ g'.vertex_heap = [] ∧
      ∃ p, findEdges g.edgeMap c = some p ∧
        g'.negCycleVertex = some (selectEdge A c p).u := by
  unfold checkNegCycle at h
  split at h
  · cases h
  · rename_i hch
    simp only [ne_eq, not_not] at hch
    split at h
    · cases h
    · rename_i e g1 hins
      obtain ⟨f1, f2, f3, f4, f5, f6, p, hp, he⟩ := insertDynamic_frame cfg A g g1 c reason e hins
      split at h
      · cases h
      · rename_i g5 hstart
        obtain ⟨s1, s2, s3, s4, s5⟩ := startCheck_frame g1 g5 e hstart
        have hinv : JournalInv g.pi g5 := by
          unfold JournalInv isPiPrime
          rw [s1, s3, s4, s5, f1, f3, f5, f6, hch]
          refine ⟨fun x hx => (by cases hx), fun x _ => rfl, fun x => ?_⟩
          have := hst x
          simp only [List.not_mem_nil, iff_false, beq_iff_eq]
          omega
        split at h
        · cases h
        · rename_i g6 hloop
          simp only [Option.some.injEq, Prod.mk.injEq, true_and] at h
          subst h
          obtain ⟨r1, r2, r3, r4⟩ := negCycleLoop_rollback g.pi e.u fuel g5 g6 hinv hloop
          exact ⟨r1, r2, r3, p, hp, by rw [r4, he]⟩
        · cases h

theorem checkNegCycle_rollback_witness :
    (∀ x, exGraph13.pi_prime_list x ≤ exGraph13.pi_prime_token) ∧
    ∃ g', checkNegCycle exCfg exAllTrue exGraph13 exAtom3 false 2 = some (false, g') ∧
      (∀ x, g'.pi x = exGraph13.pi x) ∧ g'.changed_vertices = [] ∧ g'.vertex_heap = [] ∧
      ∃ p, findEdges exGraph13.edgeMap exAtom3 = some p ∧
        g'.negCycleVertex = some (selectEdge exAllTrue exAtom3 p).u :=
  ⟨fun _ => Nat.zero_le _, _, rfl,
    checkNegCycle_rollback exCfg exAllTrue exGraph13 _ exAtom3 false 2
      (fun _ => Nat.zero_le _) rfl⟩

/-- C4: the feasible fast path.  When the activated edge `e: u -> v` of weight
`w` has `pi[u] + w - pi[v] >= 0`, `checkNegCycle` returns `true`, whatever the
bound on the loop, and leaves the potential of every vertex unchanged.  The
call starts, as every call does, with an empty journal and an empty heap, and
`insertDynamic` accepts the atom. -/
theorem checkNegCycle_feasible_edge (cfg : Config) (A : AtomStore) (g g1 : DLGraph) (c : Enode)
    (reason : Bool) (e : DLEdge) (fuel : Nat) (hc : g.changed_vertices = [])
    (hh : g.vertex_heap = []) (hi : insertDynamic cfg A g c reason = some (e, g1))
    (hf : 0 ≤ g.pi e.u + e.wt - g.pi e.v) :
    ∃ g', checkNegCycle cfg A g c reason fuel = some (true, g') ∧ ∀ x, g'.pi x = g.pi x := by
  obtain ⟨f1, -, -, f4, -, -, -⟩ := insertDynamic_frame cfg A g g1 c reason e hi
  rw [← f1] at hf
  obtain ⟨g5, hs, h5, p5⟩ := startCheck_feasible g1 e hf
  have hloop := negCycleLoop_empty e.u fuel g5 (by rw [h5, f4, hh])
  unfold checkNegCycle
  rw [if_neg (by simp [hc]), hi]
  simp only [hs, hloop]
  refine ⟨_, rfl, ?_⟩
  intro x
  simp only [donePiPrime, doneGamma]
  rw [p5, f1]

theorem checkNegCycle_feasible_edge_witness :
    exGraph1.changed_vertices = [] ∧ exGraph1.vertex_heap = [] ∧
    ∃ e g1, insertDynamic exCfg exAllTrue exGraph1 exAtom1 false = some (e, g1) ∧
      0 ≤ exGraph1.pi e.u + e.wt - exGraph1.pi e.v ∧
      ∃ g', checkNegCycle exCfg exAllTrue exGraph1 exAtom1 false 0 = some (true, g') ∧
        ∀ x, g'.pi x = exGraph1.pi x :=
  ⟨rfl, rfl, _, _, rfl, by decide,
    checkNegCycle_feasible_edge exCfg exAllTrue exGraph1 _ exAtom1 false _ 0 rfl rfl rfl
      (by decide)⟩

/-! ## The negative-cycle check on a loop edge -/

/-- C5, the code at the failing input: the negative edge of the atom `x0 <= x0`
is a loop `u -> u` of weight -1, and `checkNegCycle` returns `true` on it for
every bound of at least one iteration: the extracted vertex `u` has its `pi'`
marker set before its own adjacency list is scanned, so the loop edge is
skipped. -/
theorem checkNegCycle_negative_loop_returns_true (fuel : Nat) :
    ∃ p g', findEdges exSelfGraph.edgeMap exSelfAtom = some p ∧
      (selectEdge exAllFalse exSelfAtom p).u = (selectEdge exAllFalse exSelfAtom p).v ∧
      (selectEdge exAllFalse exSelfAtom p).wt = -1 ∧
      checkNegCycle exCfg exAllFalse exSelfGraph exSelfAtom false (fuel + 1) = some (true, g') := by
  cases fuel <;> exact ⟨_, _, rfl, rfl, rfl, rfl⟩

/-- C1, the code at the failing input: every active edge is feasible before
the call (there is none), `checkNegCycle` returns `true` on the loop edge of
weight -1, and afterwards the active adjacency holds an infeasible edge. -/
theorem checkNegCycle_true_infeasible :
    AllFeasible exSelfGraph ∧
    ∃ g', checkNegCycle exCfg exAllFalse exSelfGraph exSelfAtom false 1 = some (true, g') ∧
      ¬ AllFeasible g' :=
  ⟨by decide, _, rfl, by decide⟩

/-- C2, the code at the failing input: every active edge is feasible before
the call, `checkNegCycle` returns `true` on the loop edge of weight -1, and the
active graph with the new edge has a directed cycle of negative weight, the
loop itself. -/
theorem checkNegCycle_true_with_negative_cycle :
    AllFeasible exSelfGraph ∧
    ∃ g', checkNegCycle exCfg exAllFalse exSelfGraph exSelfAtom false 1 = some (true, g') ∧
      HasNegCycle g' :=
  ⟨by decide, _, rfl,
    ⟨[⟨exSelfAtom, 1, 0, 0, -1⟩], 0, by decide, by decide, ⟨rfl, rfl⟩, by decide⟩⟩

/-! ## The repair invariant on views -/

theorem ScanCur.tail {pi0 : Nat → Int} {s : Nat} {it : DLEdge} {rest : AdjList}
    {v : RepairView} (h : ScanCur pi0 s (it :: rest) v) : ScanCur pi0 s rest v :=
  { cur := h.cur
    latest := h.latest
    pend := by
      obtain ⟨l, hl, hsub⟩ := h.pend
      exact ⟨l, hl, fun x hx => hsub x (List.mem_cons_of_mem _ hx)⟩ }

/-- The value that line 541 computes bounds the slack owed to the target from
below once the target's `gamma` is not above it. -/
theorem ScanInv.owed_le_gamma {pi0 : Nat → Int} {e : DLEdge} {s : Nat} {p : AdjList}
    {v : RepairView} (h : ScanInv pi0 e s p v) (t : Nat) (hp : v.prime t = false)
    (hr : v.read t = true) : v.owed t = v.gamma t := by
  unfold RepairView.owed
  split
  · rfl
  · rename_i hm
    exact (h.idle t hp hm hr).symm

/-- An edge into a processed vertex is skipped (line 534). -/
theorem ScanInv.skip {pi0 : Nat → Int} {e : DLEdge} {s : Nat} {it : DLEdge} {rest : AdjList}
    {v : RepairView} (h : ScanInv pi0 e s (it :: rest) v) (ht : v.prime it.v = true) :
    ScanInv pi0 e s rest v :=
  { h with
    relaxed := by
      intro i l hl x hx hpi hpx hpend
      refine h.relaxed i l hl x hx hpi hpx ?_
      intro his hmem
      rcases List.mem_cons.1 hmem with hxi | hxr
      · rw [hxi, ht] at hpx
        cases hpx
      · exact hpend his hxr }

/-- An edge whose value is not below the `gamma` of its target changes nothing
(lines 546 and 564 fail). -/
theorem ScanInv.keep {pi0 : Nat → Int} {e : DLEdge} {s : Nat} {it : DLEdge} {rest : AdjList}
    {v : RepairView} (h : ScanInv pi0 e s (it :: rest) v) (hc : ScanCur pi0 s (it :: rest) v)
    (hp : v.prime it.v = false) (hr : v.read it.v = true)
    (hv : ¬ v.pi s + it.wt - v.pi it.v < v.gamma it.v) :
    ScanInv pi0 e s rest v :=
  { h with
    relaxed := by
      intro i l hl x hx hpi hpx hpend
      by_cases hcase : i = s ∧ x = it
      · obtain ⟨rfl, rfl⟩ := hcase
        rw [h.owed_le_gamma x.v hp hr, ← h.unprocessed x.v hp]
        exact not_lt.1 hv
      · refine h.relaxed i l hl x hx hpi hpx ?_
        intro his hmem
        rcases List.mem_cons.1 hmem with hxi | hxr
        · exact hcase ⟨his, hxi⟩
        · exact hpend his hxr }

/-- The first visit of a target in this call resets its `gamma` (lines 536-540). -/
theorem ScanInv.refresh {pi0 : Nat → Int} {e : DLEdge} {s : Nat} {p : AdjList}
    {v : RepairView} (h : ScanInv pi0 e s p v) (t : Nat) (hr : v.read t = false) :
    ScanInv pi0 e s p
      { v with gamma := Function.update v.gamma t 0, read := Function.update v.read t true } := by
  have hth : t ∉ v.heap := fun hm => by
    have := (h.heap_ok t hm).2.2
    rw [hr] at this
    cases this
  have hg : ∀ y, y ∈ v.heap → Function.update v.gamma t 0 y = v.gamma y := by
    intro y hy
    have hyt : y ≠ t := fun hyt => hth (by rw [← hyt]; exact hy)
    exact Function.update_noteq hyt _ _
  have how : ∀ y,
      ({ v with gamma := Function.update v.gamma t 0,
                read := Function.update v.read t true } : RepairView).owed y = v.owed y := by
    intro y
    unfold RepairView.owed
    simp only
    split
    · rename_i hy
      exact hg y hy
    · rfl
  exact
    { placed := h.placed
      old := h.old
      noloop := h.noloop
      unprocessed := h.unprocessed
      lower := h.lower
      source := h.source
      heap_ok := by
        intro x hx
        obtain ⟨a, b, c⟩ := h.heap_ok x hx
        refine ⟨a, ?_, ?_⟩
        · simp only
          rw [hg x hx]
          exact b
        · simp only
          by_cases hxt : x = t
          · rw [hxt]
            simp
          · rw [Function.update_noteq hxt]
            exact c
      nodup := h.nodup
      idle := by
        intro x hx hxh hxr
        simp only at hxr ⊢
        by_cases hxt : x = t
        · rw [hxt]
          simp
        · rw [Function.update_noteq hxt] at hxr ⊢
          exact h.idle x hx hxh hxr
      relaxed := by
        intro i l hl x hx hpi hpx hpend
        rw [how]
        exact h.relaxed i l hl x hx hpi hpx hpend
      relaxed_new := by
        intro hp
        rw [how]
        exact h.relaxed_new hp
      finished := h.finished
      finished_new := h.finished_new
      order := by
        intro x hx y hy
        simp only
        rw [hg y hy]
        exact h.order x hx y hy }

theorem ScanCur.refresh_cur {pi0 : Nat → Int} {s : Nat} {p : AdjList}
    {v : RepairView} (h : ScanCur pi0 s p v) (t : Nat) :
    ScanCur pi0 s p
      { v with gamma := Function.update v.gamma t 0, read := Function.update v.read t true } :=
  { cur := h.cur, latest := h.latest, pend := h.pend }

/-- The slack of a target is lowered to the value of the scanned edge, and the
target waits on the heap afterwards (lines 564-589). -/
theorem ScanInv.lowered {pi0 : Nat → Int} {e : DLEdge} {s : Nat} {it : DLEdge}
    {rest : AdjList} {v : RepairView} (h : ScanInv pi0 e s (it :: rest) v)
    (hc : ScanCur pi0 s (it :: rest) v) (hp : v.prime it.v = false)
    (hr : v.read it.v = true) (hu : it.v ≠ e.u)
    (hv : v.pi s + it.wt - v.pi it.v < v.gamma it.v) :
    ScanInv pi0 e s rest
      { v with
        gamma := Function.update v.gamma it.v (v.pi s + it.wt - v.pi it.v)
        heap := if it.v ∈ v.heap then v.heap else v.heap ++ [it.v] } := by
  obtain ⟨l, hl, hsub⟩ := hc.pend
  have hitl : it ∈ l := hsub it (List.mem_cons_self _ _)
  have hitu : it.u = s := h.placed s l hl it hitl
  have hite : it ≠ e := by
    intro hh
    have h1 := h.source.1
    rw [← hh, hitu, hc.cur] at h1
    cases h1
  have hold : 0 ≤ pi0 s + it.wt - pi0 it.v := by
    rcases h.old s l hl it hitl with h1 | h1
    · exact absurd h1 hite
    · exact h1
  have hpt : v.pi it.v = pi0 it.v := h.unprocessed it.v hp
  have hgle : v.gamma it.v ≤ 0 := by
    by_cases hm : it.v ∈ v.heap
    · exact le_of_lt (h.heap_ok it.v hm).2.1
    · rw [h.idle it.v hp hm hr]
  have hmem : ∀ y, y ∈ (if it.v ∈ v.heap then v.heap else v.heap ++ [it.v]) ↔
      y ∈ v.heap ∨ y = it.v := by
    intro y
    split
    · rename_i hm
      constructor
      · exact fun hy => Or.inl hy
      · rintro (hy | hy)
        · exact hy
        · rw [hy]; exact hm
    · simp
  have howt : ({ v with
        gamma := Function.update v.gamma it.v (v.pi s + it.wt - v.pi it.v)
        heap := if it.v ∈ v.heap then v.heap else v.heap ++ [it.v] } : RepairView).owed it.v =
      v.pi s + it.wt - v.pi it.v := by
    unfold RepairView.owed
    simp only
    rw [if_pos ((hmem it.v).2 (Or.inr rfl)), Function.update_same]
  have howo : ∀ y, y ≠ it.v → ({ v with
        gamma := Function.update v.gamma it.v (v.pi s + it.wt - v.pi it.v)
        heap := if it.v ∈ v.heap then v.heap else v.heap ++ [it.v] } : RepairView).owed y =
      v.owed y := by
    intro y hy
    unfold RepairView.owed
    simp only
    rw [Function.update_noteq hy]
    by_cases hm : y ∈ v.heap
    · rw [if_pos hm, if_pos ((hmem y).2 (Or.inl hm))]
    · rw [if_neg hm, if_neg]
      intro hh
      rcases (hmem y).1 hh with h1 | h1
      · exact hm h1
      · exact hy h1
  have hlow : v.pi s + it.wt - v.pi it.v < v.owed it.v := by
    rw [h.owed_le_gamma it.v hp hr]
    exact hv
  exact
    { placed := h.placed
      old := h.old
      noloop := h.noloop
      unprocessed := h.unprocessed
      lower := h.lower
      source := by
        refine ⟨h.source.1, ?_⟩
        intro hh
        rcases (hmem e.u).1 hh with h1 | h1
        · exact h.source.2 h1
        · exact hu h1.symm
      heap_ok := by
        intro x hx
        simp only
        by_cases hxt : x = it.v
        · rw [hxt, Function.update_same]
          exact ⟨hp, by omega, hr⟩
        · rw [Function.update_noteq hxt]
          rcases (hmem x).1 hx with h1 | h1
          · exact h.heap_ok x h1
          · exact absurd h1 hxt
      nodup := by
        simp only
        split
        · exact h.nodup
        · rename_i hm
          rw [List.nodup_append]
          refine ⟨h.nodup, List.nodup_singleton _, ?_⟩
          intro a ha hb
          rw [List.mem_singleton] at hb
          rw [hb] at ha
          exact hm ha
      idle := by
        intro x hx hxh hxr
        simp only at hxh ⊢
        have hxt : x ≠ it.v := fun hh => hxh ((hmem x).2 (Or.inr hh))
        rw [Function.update_noteq hxt]
        exact h.idle x hx (fun hh => hxh ((hmem x).2 (Or.inl hh))) hxr
      relaxed := by
        intro i l' hl' x hx hpi hpx hpend
        by_cases hcase : i = s ∧ x = it
        · obtain ⟨rfl, rfl⟩ := hcase
          rw [howt, hpt]
        · have hrel := h.relaxed i l' hl' x hx hpi hpx (by
            intro his hmem'
            rcases List.mem_cons.1 hmem' with hxi | hxr
            · exact hcase ⟨his, hxi⟩
            · exact hpend his hxr)
          by_cases hxt : x.v = it.v
          · rw [hxt, howt]
            rw [hxt] at hrel
            dsimp only
            omega
          · rw [howo x.v hxt]
            exact hrel
      relaxed_new := by
        intro hpe
        have hrel := h.relaxed_new hpe
        by_cases hxt : e.v = it.v
        · rw [hxt, howt]
          rw [hxt] at hrel
          omega
        · rw [howo e.v hxt]
          exact hrel
      finished := h.finished
      finished_new := h.finished_new
      order := by
        intro x hx y hy
        simp only
        by_cases hyt : y = it.v
        · rw [hyt, Function.update_same]
          have := hc.latest x hx
          omega
        · rw [Function.update_noteq hyt]
          rcases (hmem y).1 hy with h1 | h1
          · exact h.order x hx y h1
          · exact absurd h1 hyt }

theorem ScanCur.lowered_cur {pi0 : Nat → Int} {s : Nat} {p : AdjList} {v : RepairView}
    (h : ScanCur pi0 s p v) (t : Nat) (value : Int) (hp : List Nat) :
    ScanCur pi0 s p { v with gamma := Function.update v.gamma t value, heap := hp } :=
  { cur := h.cur, latest := h.latest, pend := h.pend }

/-- With no edge pending the invariant does not depend on the vertex, and the
heap may be rearranged. -/
theorem ScanInv.rearrange {pi0 : Nat → Int} {e : DLEdge} {s : Nat} {v : RepairView}
    (h : ScanInv pi0 e s [] v) (s' : Nat) (hp : List Nat) (hmem : ∀ y, y ∈ hp ↔ y ∈ v.heap)
    (hnd : hp.Nodup) : ScanInv pi0 e s' [] { v with heap := hp } := by
  have how : ∀ y, ({ v with heap := hp } : RepairView).owed y = v.owed y := by
    intro y
    unfold RepairView.owed
    simp only [hmem y]
  exact
    { placed := h.placed
      old := h.old
      noloop := h.noloop
      unprocessed := h.unprocessed
      lower := h.lower
      source := ⟨h.source.1, fun hh => h.source.2 ((hmem _).1 hh)⟩
      heap_ok := fun x hx => h.heap_ok x ((hmem x).1 hx)
      nodup := hnd
      idle := fun x hx hxh hxr => h.idle x hx (fun hh => hxh ((hmem x).2 hh)) hxr
      relaxed := by
        intro i l hl x hx hpi hpx _
        rw [how]
        exact h.relaxed i l hl x hx hpi hpx (fun _ hh => by cases hh)
      relaxed_new := by
        intro hpe
        rw [how]
        exact h.relaxed_new hpe
      finished := h.finished
      finished_new := h.finished_new
      order := fun x hx y hy => h.order x hx y ((hmem y).1 hy) }

/-- At the exit of the loop, with nothing left on the heap, every active edge
is feasible for the repaired potentials. -/
theorem ScanInv.feasible {pi0 : Nat → Int} {e : DLEdge} {s : Nat} {v : RepairView}
    (h : ScanInv pi0 e s [] v) (hh : v.heap = []) (i : Nat) (l : AdjList)
    (hl : v.dAdj[i]? = some l) (x : DLEdge) (hx : x ∈ l) :
    0 ≤ v.pi x.u + x.wt - v.pi x.v := by
  have hxu : x.u = i := h.placed i l hl x hx
  rw [hxu]
  have how : ∀ y, v.owed y = 0 := by
    intro y
    unfold RepairView.owed
    rw [hh]
    simp
  cases hpi : v.prime i with
  | true =>
    cases hpx : v.prime x.v with
    | true => exact h.finished i l hl x hx hpi hpx
    | false =>
      have := h.relaxed i l hl x hx hpi hpx (fun _ hm => by cases hm)
      rw [how] at this
      rw [h.unprocessed x.v hpx]
      exact this
  | false =>
    rw [h.unprocessed i hpi]
    cases hpx : v.prime x.v with
    | true =>
      rcases h.old i l hl x hx with h1 | h1
      · have := h.finished_new (by rw [← h1]; exact hpx)
        rw [← h1, hxu] at this
        exact this
      · have := h.lower x.v hpx
        omega
    | false =>
      rw [h.unprocessed x.v hpx]
      rcases h.old i l hl x hx with h1 | h1
      · have := h.relaxed_new (by rw [← h1]; exact hpx)
        rw [how, ← h1, hxu] at this
        exact this
      · exact h1

/-- The extraction of the front `s` of the heap (lines 514-528) starts the scan
of the adjacency list `l` of `s`. -/
theorem ScanInv.extract_min {pi0 : Nat → Int} {e : DLEdge} {s0 : Nat} {v : RepairView}
    (h : ScanInv pi0 e s0 [] v) (s : Nat) (rest hp : List Nat) (l : AdjList)
    (hh : v.heap = s :: rest) (hmin : ∀ y ∈ rest, v.gamma s ≤ v.gamma y)
    (hl : v.dAdj[s]? = some l) (hmem : ∀ y, y ∈ hp ↔ y ∈ rest) (hnd : hp.Nodup) :
    ScanInv pi0 e s l
        { v with
          pi := Function.update v.pi s (v.pi s + v.gamma s)
          prime := Function.update v.prime s true
          gamma := Function.update v.gamma s 0
          read := Function.update v.read s true
          heap := hp } ∧
      ScanCur pi0 s l
        { v with
          pi := Function.update v.pi s (v.pi s + v.gamma s)
          prime := Function.update v.prime s true
          gamma := Function.update v.gamma s 0
          read := Function.update v.read s true
          heap := hp } := by
  have hsh : s ∈ v.heap := by rw [hh]; exact List.mem_cons_self _ _
  obtain ⟨hsp, hsg, hsr⟩ := h.heap_ok s hsh
  have hnd0 := h.nodup
  rw [hh, List.nodup_cons] at hnd0
  have hsrest : s ∉ rest := hnd0.1
  have hsu : s ≠ e.u := fun hh' => h.source.2 (hh' ▸ hsh)
  have hps : v.pi s = pi0 s := h.unprocessed s hsp
  have hheap : ∀ y, y ∈ v.heap ↔ y = s ∨ y ∈ rest := by
    intro y
    rw [hh, List.mem_cons]
  have hne : ∀ y, y ∈ hp → y ≠ s := by
    intro y hy hys
    rw [hys] at hy
    exact hsrest ((hmem s).1 hy)
  have hprime : ∀ x, Function.update v.prime s true x = false → x ≠ s ∧ v.prime x = false := by
    intro x hx
    by_cases hxs : x = s
    · rw [hxs, Function.update_same] at hx
      cases hx
    · rw [Function.update_noteq hxs] at hx
      exact ⟨hxs, hx⟩
  have how : ∀ y, y ≠ s → ({ v with
          pi := Function.update v.pi s (v.pi s + v.gamma s)
          prime := Function.update v.prime s true
          gamma := Function.update v.gamma s 0
          read := Function.update v.read s true
          heap := hp } : RepairView).owed y = v.owed y := by
    intro y hy
    unfold RepairView.owed
    simp only
    rw [Function.update_noteq hy]
    by_cases hm : y ∈ hp
    · rw [if_pos hm, if_pos ((hheap y).2 (Or.inr ((hmem y).1 hm)))]
    · rw [if_neg hm, if_neg]
      intro hh'
      rcases (hheap y).1 hh' with h1 | h1
      · exact hy h1
      · exact hm ((hmem y).2 h1)
  refine ⟨?_, ?_⟩
  · exact
      { placed := h.placed
        old := h.old
        noloop := h.noloop
        unprocessed := by
          intro x hx
          obtain ⟨hxs, hxp⟩ := hprime x hx
          simp only
          rw [Function.update_noteq hxs]
          exact h.unprocessed x hxp
        lower := by
          intro x hx
          simp only at hx ⊢
          by_cases hxs : x = s
          · rw [hxs, Function.update_same]
            omega
          · rw [Function.update_noteq hxs] at hx ⊢
            exact h.lower x hx
        source := by
          refine ⟨?_, ?_⟩
          · simp only
            rw [Function.update_noteq (Ne.symm hsu)]
            exact h.source.1
          · intro hh'
            exact h.source.2 ((hheap _).2 (Or.inr ((hmem _).1 hh')))
        heap_ok := by
          intro x hx
          have hxs := hne x hx
          obtain ⟨a, b, c⟩ := h.heap_ok x ((hheap x).2 (Or.inr ((hmem x).1 hx)))
          simp only
          rw [Function.update_noteq hxs, Function.update_noteq hxs, Function.update_noteq hxs]
          exact ⟨a, b, c⟩
        nodup := hnd
        idle := by
          intro x hx hxh hxr
          obtain ⟨hxs, hxp⟩ := hprime x hx
          simp only at hxh hxr ⊢
          rw [Function.update_noteq hxs] at hxr ⊢
          refine h.idle x hxp ?_ hxr
          intro hh'
          rcases (hheap x).1 hh' with h1 | h1
          · exact hxs h1
          · exact hxh ((hmem x).2 h1)
        relaxed := by
          intro i l' hl' x hx hpi hpx hpend
          obtain ⟨hxs, hxp⟩ := hprime x.v hpx
          by_cases his : i = s
          · subst his
            have hll : l' = l := by
              have h1 : v.dAdj[i]? = some l' := hl'
              rw [hl] at h1
              cases h1
              rfl
            rw [hll] at hx
            exact absurd hx (hpend rfl)
          · simp only at hpi ⊢
            rw [Function.update_noteq his] at hpi ⊢
            rw [how x.v hxs]
            exact h.relaxed i l' hl' x hx hpi hxp (fun _ hm => by cases hm)
        relaxed_new := by
          intro hpe
          obtain ⟨hxs, hxp⟩ := hprime e.v hpe
          rw [how e.v hxs]
          exact h.relaxed_new hxp
        finished := by
          intro i l' hl' x hx hpi hpx
          simp only at hpi hpx ⊢
          have hxu : x.u = i := h.placed i l' hl' x hx
          by_cases his : i = s
          · have hxe : x ≠ e := by
              intro hxe
              rw [hxe] at hxu
              exact hsu (his ▸ hxu.symm)
            have hold : 0 ≤ pi0 i + x.wt - pi0 x.v := by
              rcases h.old i l' hl' x hx with h1 | h1
              · exact absurd h1 hxe
              · exact h1
            by_cases hxs : x.v = s
            · rw [his, hxs, Function.update_same]
              rw [his, hxs] at hold
              omega
            · rw [Function.update_noteq hxs] at hpx ⊢
              rw [his, Function.update_same]
              have hord := h.order x.v hpx s hsh
              rw [his] at hold
              omega
          · rw [Function.update_noteq his] at hpi ⊢
            by_cases hxs : x.v = s
            · rw [hxs, Function.update_same]
              have hrel := h.relaxed i l' hl' x hx hpi (by rw [hxs]; exact hsp)
                (fun _ hm => by cases hm)
              rw [hxs] at hrel
              unfold RepairView.owed at hrel
              rw [if_pos hsh] at hrel
              omega
            · rw [Function.update_noteq hxs] at hpx ⊢
              exact h.finished i l' hl' x hx hpi hpx
        finished_new := by
          intro hpe
          simp only at hpe ⊢
          by_cases hxs : e.v = s
          · rw [hxs, Function.update_same]
            have hrel := h.relaxed_new (by rw [hxs]; exact hsp)
            rw [hxs] at hrel
            unfold RepairView.owed at hrel
            rw [if_pos hsh] at hrel
            omega
          · rw [Function.update_noteq hxs] at hpe ⊢
            exact h.finished_new hpe
        order := by
          intro x hx y hy
          have hys := hne y hy
          simp only at hx ⊢
          rw [Function.update_noteq hys]
          by_cases hxs : x = s
          · rw [hxs, Function.update_same]
            have := hmin y ((hmem y).1 hy)
            omega
          · rw [Function.update_noteq hxs] at hx ⊢
            exact h.order x hx y ((hheap y).2 (Or.inr ((hmem y).1 hy))) }
  · exact
      { cur := by simp
        latest := by
          intro x hx
          simp only at hx ⊢
          rw [Function.update_same]
          by_cases hxs : x = s
          · rw [hxs, Function.update_same]
          · rw [Function.update_noteq hxs] at hx ⊢
            have := h.order x hx s hsh
            omega
        pend := ⟨l, hl, fun _ hx => hx⟩ }

/-- The first extraction, of the target of the new edge, starts the scan of its
adjacency list. -/
theorem InitView.extract_first {pi0 : Nat → Int} {e : DLEdge} {v : RepairView}
    (h : InitView pi0 e v) (l : AdjList) (hl : v.dAdj[e.v]? = some l) :
    ScanInv pi0 e e.v l
        { v with
          pi := Function.update v.pi e.v (v.pi e.v + v.gamma e.v)
          prime := Function.update v.prime e.v true
          gamma := Function.update v.gamma e.v 0
          read := Function.update v.read e.v true
          heap := [] } ∧
      ScanCur pi0 e.v l
        { v with
          pi := Function.update v.pi e.v (v.pi e.v + v.gamma e.v)
          prime := Function.update v.prime e.v true
          gamma := Function.update v.gamma e.v 0
          read := Function.update v.read e.v true
          heap := [] } := by
  have hpi : ∀ x, v.pi x = pi0 x := fun x => by rw [h.pi_eq]
  have hprime : ∀ x, Function.update v.prime e.v true x = false → x ≠ e.v := by
    intro x hx hxs
    rw [hxs, Function.update_same] at hx
    cases hx
  have hprime' : ∀ x, Function.update v.prime e.v true x = true → x = e.v := by
    intro x hx
    by_contra hxs
    rw [Function.update_noteq hxs, h.no_prime x] at hx
    cases hx
  have hgn := h.gamma_neg
  have hge := h.gamma_eq
  refine ⟨?_, ?_⟩
  · exact
      { placed := h.placed
        old := h.old
        noloop := h.noloop
        unprocessed := by
          intro x hx
          simp only
          rw [Function.update_noteq (hprime x hx)]
          exact hpi x
        lower := by
          intro x hx
          have hxs := hprime' x hx
          simp only
          rw [hxs, Function.update_same, hpi]
          omega
        source := by
          refine ⟨?_, by simp⟩
          simp only
          rw [Function.update_noteq h.noloop]
          exact h.no_prime _
        heap_ok := by
          intro x hx
          cases hx
        nodup := List.nodup_nil
        idle := by
          intro x hx _ hxr
          have hxs := hprime x hx
          simp only at hxr
          rw [Function.update_noteq hxs, h.no_read x] at hxr
          cases hxr
        relaxed := by
          intro i l' hl' x hx hpi' _ hpend
          have his := hprime' i hpi'
          have hll : l' = l := by
            rw [his, hl] at hl'
            cases hl'
            rfl
          rw [hll] at hx
          exact absurd hx (hpend his)
        relaxed_new := by
          intro hpe
          exact absurd rfl (hprime e.v hpe)
        finished := by
          intro i l' hl' x hx hpi' hpx
          have his := hprime' i hpi'
          have hxs := hprime' x.v hpx
          have hxu : x.u = i := h.placed i l' hl' x hx
          have hxe : x ≠ e := by
            intro hxe
            rw [hxe, his] at hxu
            exact h.noloop hxu
          simp only
          rw [his, hxs]
          rcases h.old i l' hl' x hx with h1 | h1
          · exact absurd h1 hxe
          · rw [his, hxs] at h1
            omega
        finished_new := by
          intro _
          simp only
          rw [Function.update_same, hpi]
          omega
        order := by
          intro x _ y hy
          cases hy }
  · exact
      { cur := by simp
        latest := by
          intro x hx
          rw [hprime' x hx]
        pend := ⟨l, hl, fun _ hx => hx⟩ }

/-! ## The repair invariant on the code -/

theorem isGammaRead_readGamma (g : DLGraph) (t : Nat) :
    isGammaRead (readGamma g t) = Function.update (isGammaRead g) t true := by
  funext x
  unfold isGammaRead readGamma
  simp only
  by_cases hx : x = t
  · rw [hx]
    simp
  · rw [Function.update_noteq hx, Function.update_noteq hx]

theorem isPiPrime_updatePiPrime (g : DLGraph) (t : Nat) :
    isPiPrime (updatePiPrime g t) = Function.update (isPiPrime g) t true := by
  funext x
  unfold isPiPrime updatePiPrime
  simp only
  by_cases hx : x = t
  · rw [hx]
    simp
  · rw [Function.update_noteq hx, Function.update_noteq hx]

/-- The view after the refresh of lines 536-540. -/
theorem view_refresh (g : DLGraph) (t : Nat) (_hr : isGammaRead g t = false) :
    (readGamma { g with gamma := Function.update g.gamma t 0 } t).view =
      { g.view with gamma := Function.update g.view.gamma t 0,
                    read := Function.update g.view.read t true } := by
  unfold DLGraph.view
  rw [isGammaRead_readGamma]
  rfl

/-- The state after the refresh of lines 536-540 keeps the invariant, and the
target is read in it. -/
theorem refresh_inv (pi0 : Nat → Int) (e : DLEdge) (s : Nat) (p : AdjList) (g : DLGraph)
    (t : Nat) (hinv : ScanInv pi0 e s p g.view) (hcur : ScanCur pi0 s p g.view)
    (hprime : g.view.prime t = false) :
    ScanInv pi0 e s p
        (if isGammaRead g t then g
          else readGamma { g with gamma := Function.update g.gamma t 0 } t).view ∧
      ScanCur pi0 s p
        (if isGammaRead g t then g
          else readGamma { g with gamma := Function.update g.gamma t 0 } t).view ∧
      (if isGammaRead g t then g
          else readGamma { g with gamma := Function.update g.gamma t 0 } t).view.read t = true ∧
      (if isGammaRead g t then g
          else readGamma { g with gamma := Function.update g.gamma t 0 } t).view.prime t = false := by
  cases hr : isGammaRead g t with
  | true =>
    simp only [if_true]
    exact ⟨hinv, hcur, hr, hprime⟩
  | false =>
    simp only [Bool.false_eq_true, if_false]
    rw [view_refresh g t hr]
    exact ⟨hinv.refresh t hr, hcur.refresh_cur t, by simp, hprime⟩

/-- The scan of an adjacency list that ends without a conflict keeps the
invariant and leaves no edge pending. -/
theorem scanAdjList_inv (pi0 : Nat → Int) (e : DLEdge) (s : Nat) (l : AdjList) :
    ∀ (g g' : DLGraph), ScanInv pi0 e s l g.view → ScanCur pi0 s l g.view →
      scanAdjList e.u s l g = some (true, g') → ScanInv pi0 e s [] g'.view := by
  induction l with
  | nil =>
    intro g g' hinv _ h
    simp only [scanAdjList, Option.some.injEq, Prod.mk.injEq, true_and] at h
    rw [← h]
    exact hinv
  | cons it rest ih =>
    intro g g' hinv hcur h
    unfold scanAdjList at h
    simp only at h
    split at h
    · rename_i hprime
      exact ih g g' (hinv.skip hprime) hcur.tail h
    · rename_i hprime
      have hprime' : g.view.prime it.v = false := by
        cases hh : g.view.prime it.v
        · rfl
        · exact absurd hh hprime
      have hstep := refresh_inv pi0 e s (it :: rest) g it.v hinv hcur hprime'
      generalize (if isGammaRead g it.v then g
        else readGamma { g with gamma := Function.update g.gamma it.v 0 } it.v) = g1 at h hstep
      obtain ⟨hinv1, hcur1, hread1, hprime1⟩ := hstep
      split at h
      · rename_i htu
        split at h
        · split at h
          · cases h
          · simp only [Option.some.injEq, Prod.mk.injEq, Bool.false_eq_true, false_and] at h
        · rename_i hval
          exact ih g1 g' (hinv1.keep hcur1 hprime1 hread1 hval) hcur1.tail h
      · rename_i htu
        split at h
        · rename_i hval
          split at h
          · rename_i hzero
            split at h
            · cases h
            · rename_i ce hce
              have hnm : it.v ∉ g1.vertex_heap := by
                intro hm
                have := (hinv1.heap_ok it.v hm).2.1
                have hz : g1.view.gamma it.v = 0 := hzero
                omega
              have hlow := hinv1.lowered hcur1 hprime1 hread1 htu hval
              have hc2 := hcur1.lowered_cur it.v (g1.pi s + it.wt - g1.pi it.v)
                (g1.vertex_heap ++ [it.v])
              have hview : ({ g1 with
                    gamma := Function.update g1.gamma it.v (g1.pi s + it.wt - g1.pi it.v)
                    vertex_heap := g1.vertex_heap ++ [it.v]
                    conflict_edges := ce } : DLGraph).view =
                  { g1.view with
                    gamma := Function.update g1.view.gamma it.v
                      (g1.view.pi s + it.wt - g1.view.pi it.v)
                    heap := if it.v ∈ g1.view.heap then g1.view.heap
                            else g1.view.heap ++ [it.v] } := by
                have : (if it.v ∈ g1.view.heap then g1.view.heap
                    else g1.view.heap ++ [it.v]) = g1.vertex_heap ++ [it.v] := if_neg hnm
                rw [this]
                rfl
              refine ih _ g' ?_ ?_ h
              · rw [hview]
                exact hlow
              · rw [hview]
                exact (hcur1.lowered_cur _ _ _).tail
          · rename_i hzero
            split at h
            · rename_i hneg
              split at h
              · cases h
              · rename_i ce hce
                have hm : it.v ∈ g1.vertex_heap := by
                  by_contra hnm
                  exact hzero (hinv1.idle it.v hprime1 hnm hread1)
                have hlow := hinv1.lowered hcur1 hprime1 hread1 htu hval
                have hview : ({ g1 with
                      gamma := if it.v ∈ g1.vertex_heap then
                          Function.update g1.gamma it.v (g1.pi s + it.wt - g1.pi it.v)
                        else g1.gamma
                      conflict_edges := ce } : DLGraph).view =
                    { g1.view with
                      gamma := Function.update g1.view.gamma it.v
                        (g1.view.pi s + it.wt - g1.view.pi it.v)
                      heap := if it.v ∈ g1.view.heap then g1.view.heap
                              else g1.view.heap ++ [it.v] } := by
                  have h1 : (if it.v ∈ g1.view.heap then g1.view.heap
                      else g1.view.heap ++ [it.v]) = g1.vertex_heap := if_pos hm
                  have h2 : (if it.v ∈ g1.vertex_heap then
                          Function.update g1.gamma it.v (g1.pi s + it.wt - g1.pi it.v)
                        else g1.gamma) =
                      Function.update g1.gamma it.v (g1.pi s + it.wt - g1.pi it.v) := if_pos hm
                  rw [h1, h2]
                  rfl
                refine ih _ g' ?_ ?_ h
                · rw [hview]
                  exact hlow
                · rw [hview]
                  exact (hcur1.lowered_cur _ _ _).tail
            · cases h
        · rename_i hval
          exact ih g1 g' (hinv1.keep hcur1 hprime1 hread1 hval) hcur1.tail h

theorem isPiPrime_extractVertex (g : DLGraph) (s : Nat) (rest : List Nat) :
    isPiPrime (extractVertex g s rest) = Function.update (isPiPrime g) s true := by
  unfold extractVertex
  simp only
  split <;> exact isPiPrime_updatePiPrime _ s

theorem isGammaRead_extractVertex (g : DLGraph) (s : Nat) (rest : List Nat) :
    isGammaRead (extractVertex g s rest) = Function.update (isGammaRead g) s true := by
  unfold extractVertex
  simp only
  rw [isGammaRead_readGamma]
  split <;> rfl

/-- The view after the extraction of `s`. -/
theorem view_extractVertex (g : DLGraph) (s : Nat) (rest : List Nat) :
    (extractVertex g s rest).view =
      { g.view with
        pi := Function.update g.view.pi s (g.view.pi s + g.view.gamma s)
        prime := Function.update g.view.prime s true
        gamma := Function.update g.view.gamma s 0
        read := Function.update g.view.read s true
        heap := rest.insertionSort (fun a b => g.gamma a ≤ g.gamma b) } := by
  unfold DLGraph.view
  rw [isPiPrime_extractVertex, isGammaRead_extractVertex]
  unfold extractVertex
  simp only
  split <;> rfl

theorem sorted_head_le (gamma : Nat → Int) (s : Nat) (rest : List Nat)
    (h : (s :: rest).Sorted (fun a b => gamma a ≤ gamma b)) :
    ∀ y ∈ rest, gamma s ≤ gamma y :=
  fun y hy => List.rel_of_sorted_cons h y hy

theorem sorted_insertionSort_gamma (gamma : Nat → Int) (l : List Nat) :
    (l.insertionSort (fun a b => gamma a ≤ gamma b)).Sorted (fun a b => gamma a ≤ gamma b) := by
  haveI : IsTotal Nat (fun a b => gamma a ≤ gamma b) := ⟨fun a b => le_total _ _⟩
  haveI : IsTrans Nat (fun a b => gamma a ≤ gamma b) := ⟨fun a b c h1 h2 => le_trans h1 h2⟩
  exact List.sorted_insertionSort _ l

theorem mem_insertionSort_gamma (gamma : Nat → Int) (l : List Nat) (y : Nat) :
    y ∈ l.insertionSort (fun a b => gamma a ≤ gamma b) ↔ y ∈ l :=
  (List.perm_insertionSort _ l).mem_iff

theorem nodup_insertionSort_gamma (gamma : Nat → Int) (l : List Nat) (h : l.Nodup) :
    (l.insertionSort (fun a b => gamma a ≤ gamma b)).Nodup :=
  (List.perm_insertionSort _ l).nodup_iff.2 h

/-- The state after `make_heap` at the end of an iteration is a loop head. -/
theorem LoopHead.of_scan {pi0 : Nat → Int} {e : DLEdge} {s : Nat} {g : DLGraph}
    (h : ScanInv pi0 e s [] g.view) : LoopHead pi0 e (make_heap g) := by
  refine Or.inl ⟨?_, sorted_insertionSort_gamma g.gamma g.vertex_heap⟩
  exact h.rearrange 0 _ (mem_insertionSort_gamma g.gamma g.vertex_heap)
    (nodup_insertionSort_gamma g.gamma g.vertex_heap h.nodup)

/-- When the while loop ends with `true`, the repair invariant holds with an
empty heap. -/
theorem negCycleLoop_inv (pi0 : Nat → Int) (e : DLEdge) (fuel : Nat) :
    ∀ (g g' : DLGraph), LoopHead pi0 e g → negCycleLoop e.u fuel g = some (true, g') →
      ScanInv pi0 e 0 [] g'.view ∧ g'.vertex_heap = [] := by
  have hbase : ∀ (g g' : DLGraph), LoopHead pi0 e g → g.vertex_heap = [] →
      some (true, g) = some (true, g') → ScanInv pi0 e 0 [] g'.view ∧ g'.vertex_heap = [] := by
    intro g g' hh hheap h
    simp only [Option.some.injEq, Prod.mk.injEq, true_and] at h
    rw [← h]
    rcases hh with ⟨h1, -⟩ | h1
    · exact ⟨h1, hheap⟩
    · have := h1.heap_eq
      have h2 : g.view.heap = [] := hheap
      rw [h2] at this
      cases this
  induction fuel with
  | zero =>
    intro g g' hh h
    unfold negCycleLoop at h
    split at h
    · rename_i hheap
      exact hbase g g' hh hheap h
    · cases h
  | succ n ih =>
    intro g g' hh h
    unfold negCycleLoop at h
    split at h
    · rename_i hheap
      exact hbase g g' hh hheap h
    · rename_i s rest hheap
      simp only at h
      split at h
      · cases h
      · rename_i adjList hadj
        have hadj' : g.view.dAdj[s]? = some adjList := by
          have : (extractVertex g s rest).view.dAdj[s]? = some adjList := hadj
          rw [view_extractVertex] at this
          exact this
        have hstart : ScanInv pi0 e s adjList (extractVertex g s rest).view ∧
            ScanCur pi0 s adjList (extractVertex g s rest).view := by
          rw [view_extractVertex]
          rcases hh with ⟨h1, hsorted⟩ | h1
          · rw [hheap] at hsorted
            have hnd := h1.nodup
            have hheap' : g.view.heap = s :: rest := hheap
            rw [hheap', List.nodup_cons] at hnd
            exact h1.extract_min s rest _ adjList hheap (sorted_head_le g.gamma s rest hsorted)
              hadj' (mem_insertionSort_gamma g.gamma rest)
              (nodup_insertionSort_gamma g.gamma rest hnd.2)
          · have hhe := h1.heap_eq
            have hheap' : g.view.heap = s :: rest := hheap
            rw [hheap'] at hhe
            simp only [List.cons.injEq] at hhe
            obtain ⟨hs, hr⟩ := hhe
            subst hr
            subst hs
            exact h1.extract_first adjList hadj'
        split at h
        · cases h
        · simp only [Option.some.injEq, Prod.mk.injEq, Bool.false_eq_true, false_and] at h
        · rename_i g5 hscan
          have h5 := scanAdjList_inv pi0 e s adjList _ g5 hstart.1 hstart.2 hscan
          exact ih _ g' (LoopHead.of_scan h5) h

/-- The invariant in a view in which nothing is processed, read or waiting, and
the new edge is feasible. -/
theorem ScanInv.start {pi0 : Nat → Int} {e : DLEdge} {v : RepairView}
    (hplaced : ∀ (i : Nat) (l : AdjList), v.dAdj[i]? = some l → ∀ x ∈ l, x.u = i)
    (hold : ∀ (i : Nat) (l : AdjList), v.dAdj[i]? = some l → ∀ x ∈ l,
      x = e ∨ 0 ≤ pi0 i + x.wt - pi0 x.v)
    (hnl : e.u ≠ e.v) (hpi : v.pi = pi0) (hprime : ∀ x, v.prime x = false)
    (hread : ∀ x, v.read x = false) (hheap : v.heap = [])
    (hfeas : 0 ≤ pi0 e.u + e.wt - pi0 e.v) : ScanInv pi0 e 0 [] v :=
  { placed := hplaced
    old := hold
    noloop := hnl
    unprocessed := fun x _ => by rw [hpi]
    lower := fun x hx => by rw [hprime x] at hx; cases hx
    source := ⟨hprime _, by rw [hheap]; exact List.not_mem_nil _⟩
    heap_ok := fun x hx => by rw [hheap] at hx; cases hx
    nodup := by rw [hheap]; exact List.nodup_nil
    idle := fun x _ _ hx => by rw [hread x] at hx; cases hx
    relaxed := fun i _ _ _ _ hi => by rw [hprime i] at hi; cases hi
    relaxed_new := fun _ => by
      unfold RepairView.owed
      rw [hheap]
      simpa using hfeas
    finished := fun i _ _ _ _ hi => by rw [hprime i] at hi; cases hi
    finished_new := fun hx => by rw [hprime _] at hx; cases hx
    order := fun x hx => by rw [hprime x] at hx; cases hx }

theorem stamp_ne_of_le (list : Nat → Nat) (token : Nat) (h : ∀ x, list x ≤ token) (x : Nat) :
    (list x == token + 1) = false := by
  have := h x
  simp only [beq_eq_false_iff_ne, ne_eq]
  omega

/-- The state that `startCheck` hands to the while loop is a loop head. -/
theorem startCheck_loopHead (g1 g5 : DLGraph) (e : DLEdge) (h : startCheck g1 e = some g5)
    (hheap : g1.vertex_heap = [])
    (hst1 : ∀ x, g1.pi_prime_list x ≤ g1.pi_prime_token)
    (hst2 : ∀ x, g1.gamma_list x ≤ g1.gamma_token)
    (hplaced : WellPlaced g1)
    (hold : ∀ (i : Nat) (l : AdjList), g1.dAdj[i]? = some l → ∀ x ∈ l,
      x = e ∨ 0 ≤ g1.pi i + x.wt - g1.pi x.v)
    (hnl : e.u ≠ e.v) : LoopHead g1.pi e g5 := by
  unfold startCheck at h
  simp only [Function.update_same] at h
  split at h
  · cases h
  · rename_i g4 hg4
    simp only [Option.some.injEq] at h
    subst h
    split at hg4
    · rename_i hneg
      split at hg4
      · cases hg4
      · rename_i ce hce
        simp only [Option.some.injEq] at hg4
        subst hg4
        refine Or.inr ?_
        exact
          { placed := hplaced
            old := hold
            noloop := hnl
            pi_eq := rfl
            no_prime := fun x => stamp_ne_of_le _ _ hst1 x
            no_read := fun x => stamp_ne_of_le _ _ hst2 x
            heap_eq := by
              show List.insertionSort _ (g1.vertex_heap ++ [e.v]) = [e.v]
              rw [hheap]
              rfl
            gamma_eq := by
              show Function.update g1.gamma e.v _ e.v = _
              rw [Function.update_same]
            gamma_neg := by
              show Function.update g1.gamma e.v _ e.v < 0
              rw [Function.update_same]
              exact hneg }
    · rename_i hneg
      simp only [Option.some.injEq] at hg4
      subst hg4
      refine Or.inl ⟨?_, ?_⟩
      · exact ScanInv.start hplaced hold hnl rfl (fun x => stamp_ne_of_le _ _ hst1 x)
          (fun x => stamp_ne_of_le _ _ hst2 x) hheap (not_lt.1 hneg)
      · show List.Sorted _ g1.vertex_heap
        rw [hheap]
        exact List.sorted_nil

/-- The active adjacency after `insertDynamic`, and the `gamma` markers. -/
theorem insertDynamic_active (cfg : Config) (A : AtomStore) (g g1 : DLGraph) (c : Enode)
    (reason : Bool) (e : DLEdge) (h : insertDynamic cfg A g c reason = some (e, g1)) :
    ∃ a, g.dAdj[e.u]? = some a ∧ g1.dAdj = g.dAdj.set e.u (a ++ [e]) ∧
      g1.gamma_list = g.gamma_list ∧ g1.gamma_token = g.gamma_token := by
  obtain ⟨p, a, b, gm, -, -, -, ha, -, hgm, hcase⟩ := insertDynamic_spec cfg A g g1 c reason e h
  have m1 : gm.dAdj = g.dAdj.set e.u (a ++ [e]) := by
    have hh := congrArg DLGraph.dAdj hgm
    exact hh
  have m2 : gm.gamma_list = g.gamma_list := by
    have hh := congrArg DLGraph.gamma_list hgm
    exact hh
  have m3 : gm.gamma_token = g.gamma_token := by
    have hh := congrArg DLGraph.gamma_token hgm
    exact hh
  rcases hcase with ⟨-, hdel⟩ | ⟨-, hg1⟩
  · obtain ⟨-, -, -, -, -, -, -, -, hg1⟩ := deleteInactive_spec gm g1 c hdel
    have n1 : g1.dAdj = gm.dAdj := by
      have hh := congrArg DLGraph.dAdj hg1
      exact hh
    have n2 : g1.gamma_list = gm.gamma_list := by
      have hh := congrArg DLGraph.gamma_list hg1
      exact hh
    have n3 : g1.gamma_token = gm.gamma_token := by
      have hh := congrArg DLGraph.gamma_token hg1
      exact hh
    exact ⟨a, ha, n1.trans m1, n2.trans m2, n3.trans m3⟩
  · rw [hg1]
    exact ⟨a, ha, m1, m2, m3⟩

/-- The rows of the active adjacency after the new edge `e` was appended to the
row of its source. -/
theorem row_of_set (d : List AdjList) (a : AdjList) (e : DLEdge) (ha : d[e.u]? = some a)
    (i : Nat) (l : AdjList) (hl : (d.set e.u (a ++ [e]))[i]? = some l) :
    (i = e.u ∧ l = a ++ [e]) ∨ (i ≠ e.u ∧ d[i]? = some l) := by
  by_cases hi : i = e.u
  · refine Or.inl ⟨hi, ?_⟩
    rw [hi, getElem?_set_self_of_some d e.u a (a ++ [e]) ha] at hl
    cases hl
    rfl
  · refine Or.inr ⟨hi, ?_⟩
    rw [List.getElem?_set_ne (Ne.symm hi)] at hl
    exact hl

/-- Feasibility outside loop edges: in a state whose active edges are stored in
the rows of their sources and are all feasible, with an empty heap and no stamp
ahead of its token, a call `checkNegCycle( c )` that activates an edge
`u -> v` with `u != v` and returns `true` leaves every edge of the active
adjacency feasible, the new one included. -/
theorem checkNegCycle_feasible_of_noloop (cfg : Config) (A : AtomStore) (g g' : DLGraph)
    (c : Enode) (reason : Bool) (fuel : Nat) (hplaced : WellPlaced g) (hfeas : AllFeasible g)
    (hheap : g.vertex_heap = [])
    (hst1 : ∀ x, g.pi_prime_list x ≤ g.pi_prime_token)
    (hst2 : ∀ x, g.gamma_list x ≤ g.gamma_token)
    (hnl : ∀ p, findEdges g.edgeMap c = some p →
      (selectEdge A c p).u ≠ (selectEdge A c p).v)
    (h : checkNegCycle cfg A g c reason fuel = some (true, g')) :
    AllFeasible g' ∧ WellPlaced g' := by
  unfold checkNegCycle at h
  split at h
  · cases h
  · split at h
    · cases h
    · rename_i e g1 hins
      obtain ⟨f1, -, -, f4, f5, f6, p, hp, he⟩ := insertDynamic_frame cfg A g g1 c reason e hins
      obtain ⟨a, ha, hd, f7, f8⟩ := insertDynamic_active cfg A g g1 c reason e hins
      have hne : e.u ≠ e.v := by
        rw [he]
        exact hnl p hp
      have ha_mem : a ∈ g.dAdj := List.getElem?_mem ha
      have hplaced1 : WellPlaced g1 := by
        intro i l hl x hx
        rw [hd] at hl
        rcases row_of_set g.dAdj a e ha i l hl with ⟨hi, hla⟩ | ⟨-, hli⟩
        · rw [hla, List.mem_append, List.mem_singleton] at hx
          rcases hx with hx | hx
          · rw [hi]
            exact hplaced e.u a ha x hx
          · rw [hx, hi]
        · exact hplaced i l hli x hx
      have hold1 : ∀ (i : Nat) (l : AdjList), g1.dAdj[i]? = some l → ∀ x ∈ l,
          x = e ∨ 0 ≤ g1.pi i + x.wt - g1.pi x.v := by
        intro i l hl x hx
        rw [hd] at hl
        rw [f1]
        rcases row_of_set g.dAdj a e ha i l hl with ⟨hi, hla⟩ | ⟨-, hli⟩
        · rw [hla, List.mem_append, List.mem_singleton] at hx
          rcases hx with hx | hx
          · refine Or.inr ?_
            have : 0 ≤ g.pi x.u + x.wt - g.pi x.v := hfeas a ha_mem x hx
            rw [hplaced e.u a ha x hx] at this
            rw [hi]
            exact this
          · exact Or.inl hx
        · refine Or.inr ?_
          have : 0 ≤ g.pi x.u + x.wt - g.pi x.v := hfeas l (List.getElem?_mem hli) x hx
          rw [hplaced i l hli x hx] at this
          exact this
      split at h
      · cases h
      · rename_i g5 hstart
        have hhead := startCheck_loopHead g1 g5 e hstart (by rw [f4]; exact hheap)
          (by rw [f5, f6]; exact hst1) (by rw [f7, f8]; exact hst2) hplaced1 hold1 hne
        split at h
        · cases h
        · simp only [Option.some.injEq, Prod.mk.injEq, Bool.false_eq_true, false_and] at h
        · rename_i g6 hloop
          simp only [Option.some.injEq, Prod.mk.injEq, true_and] at h
          obtain ⟨hinv, hempty⟩ := negCycleLoop_inv g1.pi e fuel g5 g6 hhead hloop
          rw [← h]
          refine ⟨?_, ?_⟩
          · intro l hl x hx
            obtain ⟨i, hi⟩ := List.getElem?_of_mem hl
            exact hinv.feasible hempty i l hi x hx
          · exact hinv.placed

/-- Along a walk of feasible edges the potential rises by at most the weight of
the walk. -/
theorem walk_weight_ge (pi : Nat → Int) (es : List DLEdge) :
    ∀ a b, IsWalk es a b → (∀ x ∈ es, 0 ≤ pi x.u + x.wt - pi x.v) →
      pi b - pi a ≤ (es.map (fun x => x.wt)).sum := by
  induction es with
  | nil =>
    intro a b hw _
    have hab : a = b := hw
    rw [hab]
    simp
  | cons x rest ih =>
    intro a b hw hf
    obtain ⟨hxa, hrest⟩ := hw
    have h1 := ih x.v b hrest (fun y hy => hf y (List.mem_cons_of_mem _ hy))
    have h2 := hf x (List.mem_cons_self _ _)
    rw [hxa] at h2
    simp only [List.map_cons, List.sum_cons]
    omega

/-- A graph whose active edges are all feasible has no directed cycle of
negative weight. -/
theorem no_neg_cycle_of_feasible (g : DLGraph) (h : AllFeasible g) : ¬ HasNegCycle g := by
  rintro ⟨es, a, -, hact, hwalk, hsum⟩
  have hf : ∀ x ∈ es, 0 ≤ g.pi x.u + x.wt - g.pi x.v := by
    intro x hx
    have hm := hact x hx
    rw [List.getD_eq_getElem?_getD] at hm
    cases hr : g.dAdj[x.u]? with
    | none =>
      rw [hr] at hm
      simp at hm
    | some l =>
      rw [hr] at hm
      exact h l (List.getElem?_mem hr) x hm
  have := walk_weight_ge g.pi es a a hwalk hf
  omega

/-- A check of `WellPlaced` that can be evaluated. -/
theorem wellPlaced_of_enum (g : DLGraph)
    (h : ∀ p ∈ g.dAdj.enum, ∀ x ∈ p.2, x.u = p.1) : WellPlaced g := by
  intro i l hl x hx
  exact h (i, l) (List.mk_mem_enum_iff_getElem?.2 hl) x hx

/-- The repair at work: on the graph with the active edge `x0 -> x1` of weight 3
the activation of `x1 -> x2` with weight -2 returns `true`, lowers the potential
of `x2` to -2 and leaves every active edge feasible. -/
theorem checkNegCycle_feasible_of_noloop_example :
    ∃ g', checkNegCycle exCfg exAllTrue exGraph12 exAtom2 false 1 = some (true, g') ∧
      g'.pi 2 = -2 ∧ AllFeasible g' ∧ WellPlaced g' :=
  ⟨_, rfl, rfl,
    checkNegCycle_feasible_of_noloop exCfg exAllTrue exGraph12 _ exAtom2 false 1
      (wellPlaced_of_enum _ (by decide)) (by decide) rfl
      (fun _ => Nat.zero_le _) (fun _ => Nat.zero_le _)
      (fun p hp => by
        have h0 : findEdges exGraph12.edgeMap exAtom2 =
            some ⟨⟨exAtom2, 2, 1, 2, -2⟩, ⟨exAtom2, 3, 2, 1, 1⟩⟩ := rfl
        rw [h0] at hp
        cases hp
        decide)
      rfl⟩

/-- Once the source is processed, no scan returns `false`: the source test of
line 543 sits behind the test `!isPiPrime( t )`. -/
theorem scanAdjList_never_false (u s : Nat) (l : AdjList) :
    ∀ (g g' : DLGraph), isPiPrime g u = true → scanAdjList u s l g ≠ some (false, g') := by
  induction l with
  | nil =>
    intro g g' _ h
    simp [scanAdjList] at h
  | cons it rest ih =>
    intro g g' hu h
    unfold scanAdjList at h
    simp only at h
    split at h
    · exact ih g g' hu h
    · rename_i hprime
      have hc := sameCore_gammaRefresh g it.v
      generalize (if isGammaRead g it.v then g
        else readGamma { g with gamma := Function.update g.gamma it.v 0 } it.v) = g1 at h hc
      have hu1 : isPiPrime g1 u = true := by
        unfold isPiPrime at hu ⊢
        rw [hc.2.2.2.1, hc.2.2.2.2.1]
        exact hu
      split at h
      · rename_i htu
        rw [htu] at hprime
        exact hprime hu
      · split at h
        · split at h
          · split at h
            · cases h
            · refine ih _ g' ?_ h
              exact hu1
          · split at h
            · split at h
              · cases h
              · refine ih _ g' ?_ h
                exact hu1
            · cases h
        · exact ih g1 g' hu1 h

/-- The while loop never returns `false` when the source is processed or is
the only vertex on the heap. -/
theorem negCycleLoop_never_false (u : Nat) (fuel : Nat) :
    ∀ (g g' : DLGraph), isPiPrime g u = true ∨ g.vertex_heap = [u] →
      negCycleLoop u fuel g ≠ some (false, g') := by
  induction fuel with
  | zero =>
    intro g g' _ h
    unfold negCycleLoop at h
    split at h <;> cases h
  | succ n ih =>
    intro g g' hu h
    unfold negCycleLoop at h
    split at h
    · cases h
    · rename_i s rest hheap
      simp only at h
      have hu4 : isPiPrime (extractVertex g s rest) u = true := by
        rw [isPiPrime_extractVertex]
        rcases hu with hu | hu
        · by_cases hus : u = s
          · rw [hus, Function.update_same]
          · rw [Function.update_noteq hus]
            exact hu
        · rw [hheap] at hu
          simp only [List.cons.injEq] at hu
          rw [hu.1, Function.update_same]
      split at h
      · cases h
      · rename_i adjList hadj
        split at h
        · cases h
        · rename_i g5 hscan
          exact scanAdjList_never_false u s adjList _ g5 hu4 hscan
        · rename_i g5 hscan
          obtain ⟨r, -⟩ := scanAdjList_core u s adjList _ g5 true hscan
          have hu5 : isPiPrime (make_heap g5) u = true := by
            have hc := r rfl
            unfold isPiPrime at hu4 ⊢
            show (g5.pi_prime_list u == g5.pi_prime_token) = true
            rw [hc.2.2.2.1, hc.2.2.2.2.1]
            exact hu4
          exact ih _ g' (Or.inl hu5) h

/-- On a loop edge the check never returns `false`: from a state with an empty
heap, a call `checkNegCycle( c )` that activates an edge `u -> u`, whatever its
weight, does not report a conflict. -/
theorem checkNegCycle_loop_never_false (cfg : Config) (A : AtomStore) (g g' : DLGraph)
    (c : Enode) (reason : Bool) (fuel : Nat) (hheap : g.vertex_heap = [])
    (hloop : ∀ p, findEdges g.edgeMap c = some p →
      (selectEdge A c p).u = (selectEdge A c p).v) :
    checkNegCycle cfg A g c reason fuel ≠ some (false, g') := by
  intro h
  unfold checkNegCycle at h
  split at h
  · cases h
  · split at h
    · cases h
    · rename_i e g1 hins
      obtain ⟨-, -, -, f4, -, -, p, hp, he⟩ := insertDynamic_frame cfg A g g1 c reason e hins
      have huv : e.u = e.v := by
        rw [he]
        exact hloop p hp
      split at h
      · cases h
      · rename_i g5 hstart
        have hh5 : g5.vertex_heap = [e.u] ∨ g5.vertex_heap = [] := by
          unfold startCheck at hstart
          simp only at hstart
          split at hstart
          · cases hstart
          · rename_i g4 hg4
            simp only [Option.some.injEq] at hstart
            subst hstart
            split at hg4
            · split at hg4
              · cases hg4
              · simp only [Option.some.injEq] at hg4
                subst hg4
                refine Or.inl ?_
                show List.insertionSort _ (g1.vertex_heap ++ [e.v]) = [e.u]
                rw [f4, hheap, huv]
                rfl
            · simp only [Option.some.injEq] at hg4
              subst hg4
              exact Or.inr (f4.trans hheap)
        split at h
        · cases h
        · rename_i g6 hloop6
          rcases hh5 with h5 | h5
          · exact negCycleLoop_never_false e.u fuel g5 g6 (Or.inr h5) hloop6
          · rw [negCycleLoop_empty e.u fuel g5 h5] at hloop6
            cases hloop6
        · cases h

/-- Outside loop edges a `true` verdict is right: under the hypotheses of
`checkNegCycle_feasible_of_noloop` the active graph with the new edge has no
directed cycle of negative weight. -/
theorem checkNegCycle_true_no_neg_cycle_of_noloop (cfg : Config) (A : AtomStore)
    (g g' : DLGraph) (c : Enode) (reason : Bool) (fuel : Nat) (hplaced : WellPlaced g)
    (hfeas : AllFeasible g) (hheap : g.vertex_heap = [])
    (hst1 : ∀ x, g.pi_prime_list x ≤ g.pi_prime_token)
    (hst2 : ∀ x, g.gamma_list x ≤ g.gamma_token)
    (hnl : ∀ p, findEdges g.edgeMap c = some p →
      (selectEdge A c p).u ≠ (selectEdge A c p).v)
    (h : checkNegCycle cfg A g c reason fuel = some (true, g')) : ¬ HasNegCycle g' :=
  no_neg_cycle_of_feasible g'
    (checkNegCycle_feasible_of_noloop cfg A g g' c reason fuel hplaced hfeas hheap hst1 hst2
      hnl h).1

/-! ## The effect of the view operations -/

/-- Row `k` of a table after two assignments in a row. -/
theorem modifyAt_twice_getD (t t1 t2 : List AdjList) (i j : Nat) (f f' : AdjList → AdjList)
    (h1 : modifyAt t i f = some t1) (h2 : modifyAt t1 j f' = some t2) (k : Nat) :
    t2.getD k [] =
      if k = j then f' (if k = i then f (t.getD k []) else t.getD k [])
      else if k = i then f (t.getD k []) else t.getD k [] := by
  rw [modifyAt_getD _ _ _ _ h2 k, modifyAt_getD _ _ _ _ h1 k, modifyAt_getD _ _ _ _ h1 j]
  by_cases hj : k = j
  · subst hj
    simp only [if_true]
    by_cases hi : k = i
    · subst hi
      simp only [if_true]
    · simp only [if_neg hi]
  · simp only [if_neg hj]
    by_cases hi : k = i
    · subst hi
      simp only [if_true]
    · simp only [if_neg hi]

/-- The rows of the inactive views after `deleteInactive`. -/
theorem deleteInactive_rows (g g' : DLGraph) (c : Enode) (h : deleteInactive g c = some g') :
    ∃ p, findEdges g.edgeMap c = some p ∧
      g'.hAdj.length = g.hAdj.length ∧ g'.hAdjInc.length = g.hAdjInc.length ∧
      (∀ k, g'.hAdj.getD k [] = erasedRow g.hAdj p.pos.u p.neg.u p.pos p.neg k) ∧
      (∀ k, g'.hAdjInc.getD k [] = erasedRow g.hAdjInc p.pos.v p.neg.v p.pos p.neg k) ∧
      g' = { g with hAdj := g'.hAdj, hAdjInc := g'.hAdjInc } := by
  obtain ⟨p, t1, ti1, hp, c1, c2, c3, c4, hg⟩ := deleteInactive_spec g g' c h
  obtain ⟨l1, -⟩ := modifyAt_length _ _ _ _ c1
  obtain ⟨l2, -⟩ := modifyAt_length _ _ _ _ c2
  obtain ⟨l3, -⟩ := modifyAt_length _ _ _ _ c3
  obtain ⟨l4, -⟩ := modifyAt_length _ _ _ _ c4
  refine ⟨p, hp, by omega, by omega, ?_, ?_, hg⟩
  · intro k
    rw [modifyAt_twice_getD _ _ _ _ _ _ _ c1 c3 k]
    unfold erasedRow
    by_cases hj : k = p.neg.u <;> by_cases hi : k = p.pos.u <;> simp only [hj, hi, if_true, if_false]
  · intro k
    rw [modifyAt_twice_getD _ _ _ _ _ _ _ c2 c4 k]
    unfold erasedRow
    by_cases hj : k = p.neg.v <;> by_cases hi : k = p.pos.v <;> simp only [hj, hi, if_true, if_false]

/-- The row of `erasedRow`, written out: the first occurrence of `a` leaves row
`i`, then the first occurrence of `b` leaves row `j`. -/
theorem erasedRow_eq (t : List AdjList) (i j : Nat) (a b : DLEdge) (k : Nat) :
    erasedRow t i j a b k =
      if k = j then (if k = i then (t.getD k []).erase a else t.getD k []).erase b
      else if k = i then (t.getD k []).erase a else t.getD k [] := by
  unfold erasedRow deleteFromAdjList
  rfl

/-- C13: the effect of an activation.  A successful `insertDynamic( c )` returns
the edge `e` that the polarity of `c` selects (pos when `l_True`, neg otherwise),
appends it to the row `dAdj[ e.u ]`, to the row `dAdjInc[ e.v ]` and to `dEdges`,
and, when theory propagation is on, removes pos and neg of `c` from the
inactive views: the row `hAdj[ pos.u ]` loses its first occurrence of pos and
the row `hAdj[ neg.u ]` its first occurrence of neg, the row `hAdjInc[ pos.v ]`
loses its first occurrence of pos and the row `hAdjInc[ neg.v ]` its first
occurrence of neg; every other row of these four tables, and the tables
`sAdj`, `iAdj`, `sEdges` and `hEdges`, stay as they are, and without theory
propagation so do `hAdj` and `hAdjInc`. -/
theorem insertDynamic_effect (cfg : Config) (A : AtomStore) (g g1 : DLGraph) (c : Enode)
    (reason : Bool) (e : DLEdge) (h : insertDynamic cfg A g c reason = some (e, g1)) :
    ∃ p a b, findEdges g.edgeMap c = some p ∧
      e = (if getPolarity A c = lbool.l_True then p.pos else p.neg) ∧
      g.dAdj[e.u]? = some a ∧ g1.dAdj = g.dAdj.set e.u (a ++ [e]) ∧
      g.dAdjInc[e.v]? = some b ∧ g1.dAdjInc = g.dAdjInc.set e.v (b ++ [e]) ∧
      g1.dEdges = g.dEdges ++ [e] ∧
      g1.sAdj = g.sAdj ∧ g1.iAdj = g.iAdj ∧ g1.sEdges = g.sEdges ∧ g1.hEdges = g.hEdges ∧
      g1.hAdj.length = g.hAdj.length ∧ g1.hAdjInc.length = g.hAdjInc.length ∧
      (∀ k, g1.hAdj.getD k [] =
        if cfg.dlconfig.theory_propagation > 0 then
          if k = p.neg.u then
            (if k = p.pos.u then (g.hAdj.getD k []).erase p.pos
              else g.hAdj.getD k []).erase p.neg
          else if k = p.pos.u then (g.hAdj.getD k []).erase p.pos else g.hAdj.getD k []
        else g.hAdj.getD k []) ∧
      (∀ k, g1.hAdjInc.getD k [] =
        if cfg.dlconfig.theory_propagation > 0 then
          if k = p.neg.v then
            (if k = p.pos.v then (g.hAdjInc.getD k []).erase p.pos
              else g.hAdjInc.getD k []).erase p.neg
          else if k = p.pos.v then (g.hAdjInc.getD k []).erase p.pos
          else g.hAdjInc.getD k []
        else g.hAdjInc.getD k []) := by
  obtain ⟨p, a, b, gm, -, hp, he, ha, hb, hgm, hcase⟩ :=
    insertDynamic_spec cfg A g g1 c reason e h
  have f1 : gm.edgeMap = g.edgeMap := by rw [hgm]
  have f2 : gm.dAdj = g.dAdj.set e.u (a ++ [e]) := by rw [hgm]
  have f3 : gm.dAdjInc = g.dAdjInc.set e.v (b ++ [e]) := by rw [hgm]
  have f4 : gm.dEdges = g.dEdges ++ [e] := by rw [hgm]
  have f5 : gm.sAdj = g.sAdj := by rw [hgm]
  have f6 : gm.iAdj = g.iAdj := by rw [hgm]
  have f7 : gm.sEdges = g.sEdges := by rw [hgm]
  have f8 : gm.hEdges = g.hEdges := by rw [hgm]
  have f9 : gm.hAdj = g.hAdj := by rw [hgm]
  have f10 : gm.hAdjInc = g.hAdjInc := by rw [hgm]
  clear hgm
  rcases hcase with ⟨htp, hdel⟩ | ⟨htp, hg1⟩
  · obtain ⟨p', hp', l1, l2, r1, r2, hg1⟩ := deleteInactive_rows gm g1 c hdel
    rw [f1, hp] at hp'
    cases hp'
    have k1 : g1.dAdj = gm.dAdj := by
      have hh := congrArg DLGraph.dAdj hg1
      exact hh
    have k2 : g1.dAdjInc = gm.dAdjInc := by
      have hh := congrArg DLGraph.dAdjInc hg1
      exact hh
    have k3 : g1.dEdges = gm.dEdges := by
      have hh := congrArg DLGraph.dEdges hg1
      exact hh
    have k4 : g1.sAdj = gm.sAdj := by
      have hh := congrArg DLGraph.sAdj hg1
      exact hh
    have k5 : g1.iAdj = gm.iAdj := by
      have hh := congrArg DLGraph.iAdj hg1
      exact hh
    have k6 : g1.sEdges = gm.sEdges := by
      have hh := congrArg DLGraph.sEdges hg1
      exact hh
    have k7 : g1.hEdges = gm.hEdges := by
      have hh := congrArg DLGraph.hEdges hg1
      exact hh
    clear hg1
    refine ⟨p, a, b, hp, he, ha, k1.trans f2, hb, k2.trans f3, k3.trans f4, k4.trans f5,
      k5.trans f6, k6.trans f7, k7.trans f8, l1.trans (congrArg List.length f9),
      l2.trans (congrArg List.length f10), ?_, ?_⟩
    · intro k
      rw [if_pos htp, r1 k, f9]
      exact erasedRow_eq _ _ _ _ _ k
    · intro k
      rw [if_pos htp, r2 k, f10]
      exact erasedRow_eq _ _ _ _ _ k
  · subst hg1
    refine ⟨p, a, b, hp, he, ha, f2, hb, f3, f4, f5, f6, f7, f8, congrArg List.length f9,
      congrArg List.length f10, ?_, ?_⟩
    · intro k
      rw [if_neg htp, f9]
    · intro k
      rw [if_neg htp, f10]

theorem insertDynamic_effect_witness :
    insertDynamic exCfg exAllTrue exGraph1 exAtom1 false =
      some (⟨exAtom1, 0, 0, 1, 3⟩, exActive1) ∧
    exCfg.dlconfig.theory_propagation > 0 ∧
    exGraph1.hAdj = [[⟨exAtom1, 0, 0, 1, 3⟩], [⟨exAtom1, 1, 1, 0, -4⟩]] ∧
    exGraph1.hAdjInc = [[⟨exAtom1, 1, 1, 0, -4⟩], [⟨exAtom1, 0, 0, 1, 3⟩]] ∧
    exActive1.hAdj = [[], []] ∧ exActive1.hAdjInc = [[], []] ∧
    exGraph1.dAdj = [[], []] ∧ exActive1.dAdj = [[⟨exAtom1, 0, 0, 1, 3⟩], []] ∧
    exActive1.dAdjInc = [[], [⟨exAtom1, 0, 0, 1, 3⟩]] ∧
    exActive1.dEdges = [⟨exAtom1, 0, 0, 1, 3⟩] ∧
    ∃ p a b, findEdges exGraph1.edgeMap exAtom1 = some p ∧
      (⟨exAtom1, 0, 0, 1, 3⟩ : DLEdge) =
        (if getPolarity exAllTrue exAtom1 = lbool.l_True then p.pos else p.neg) ∧
      exGraph1.dAdj[(⟨exAtom1, 0, 0, 1, 3⟩ : DLEdge).u]? = some a ∧
      exActive1.dAdj =
        exGraph1.dAdj.set (⟨exAtom1, 0, 0, 1, 3⟩ : DLEdge).u (a ++ [⟨exAtom1, 0, 0, 1, 3⟩]) ∧
      exGraph1.dAdjInc[(⟨exAtom1, 0, 0, 1, 3⟩ : DLEdge).v]? = some b ∧
      exActive1.dAdjInc =
        exGraph1.dAdjInc.set (⟨exAtom1, 0, 0, 1, 3⟩ : DLEdge).v (b ++ [⟨exAtom1, 0, 0, 1, 3⟩]) ∧
      exActive1.dEdges = exGraph1.dEdges ++ [⟨exAtom1, 0, 0, 1, 3⟩] ∧
      exActive1.sAdj = exGraph1.sAdj ∧ exActive1.iAdj = exGraph1.iAdj ∧
      exActive1.sEdges = exGraph1.sEdges ∧ exActive1.hEdges = exGraph1.hEdges ∧
      exActive1.hAdj.length = exGraph1.hAdj.length ∧
      exActive1.hAdjInc.length = exGraph1.hAdjInc.length ∧
      (∀ k, exActive1.hAdj.getD k [] =
        if exCfg.dlconfig.theory_propagation > 0 then
          if k = p.neg.u then
            (if k = p.pos.u then (exGraph1.hAdj.getD k []).erase p.pos
              else exGraph1.hAdj.getD k []).erase p.neg
          else if k = p.pos.u then (exGraph1.hAdj.getD k []).erase p.pos
          else exGraph1.hAdj.getD k []
        else exGraph1.hAdj.getD k []) ∧
      (∀ k, exActive1.hAdjInc.getD k [] =
        if exCfg.dlconfig.theory_propagation > 0 then
          if k = p.neg.v then
            (if k = p.pos.v then (exGraph1.hAdjInc.getD k []).erase p.pos
              else exGraph1.hAdjInc.getD k []).erase p.neg
          else if k = p.pos.v then (exGraph1.hAdjInc.getD k []).erase p.pos
          else exGraph1.hAdjInc.getD k []
        else exGraph1.hAdjInc.getD k []) :=
  ⟨by rfl, by decide, by rfl, by rfl, by rfl, by rfl, by rfl, by rfl, by rfl, by rfl,
    insertDynamic_effect exCfg exAllTrue exGraph1 exActive1 exAtom1 false _ (by rfl)⟩

/-- C14: `insertImplied( c )` leaves the active views alone.  After a successful
call `dAdj`, `dAdjInc` and `dEdges` are as before, and so is every other field
of the graph but `hAdj` and `hAdjInc`, which lose the two edges of `c`: the row
`hAdj[ pos.u ]` loses its first occurrence of pos and the row `hAdj[ neg.u ]`
its first occurrence of neg, the row `hAdjInc[ pos.v ]` loses its first
occurrence of pos and the row `hAdjInc[ neg.v ]` its first occurrence of neg,
and every other row stays as it is. -/
theorem insertImplied_frame (cfg : Config) (g g' : DLGraph) (c : Enode)
    (h : insertImplied cfg g c = some g') :
    g'.dAdj = g.dAdj ∧ g'.dAdjInc = g.dAdjInc ∧ g'.dEdges = g.dEdges ∧
      g' = { g with hAdj := g'.hAdj, hAdjInc := g'.hAdjInc } ∧
      ∃ p, findEdges g.edgeMap c = some p ∧
        g'.hAdj.length = g.hAdj.length ∧ g'.hAdjInc.length = g.hAdjInc.length ∧
        (∀ k, g'.hAdj.getD k [] =
          if k = p.neg.u then
            (if k = p.pos.u then (g.hAdj.getD k []).erase p.pos
              else g.hAdj.getD k []).erase p.neg
          else if k = p.pos.u then (g.hAdj.getD k []).erase p.pos else g.hAdj.getD k []) ∧
        (∀ k, g'.hAdjInc.getD k [] =
          if k = p.neg.v then
            (if k = p.pos.v then (g.hAdjInc.getD k []).erase p.pos
              else g.hAdjInc.getD k []).erase p.neg
          else if k = p.pos.v then (g.hAdjInc.getD k []).erase p.pos
          else g.hAdjInc.getD k []) := by
  unfold insertImplied at h
  split at h
  · obtain ⟨p, hp, l1, l2, r1, r2, hg⟩ := deleteInactive_rows g g' c h
    have k1 : g'.dAdj = g.dAdj := by
      have hh := congrArg DLGraph.dAdj hg
      exact hh
    have k2 : g'.dAdjInc = g.dAdjInc := by
      have hh := congrArg DLGraph.dAdjInc hg
      exact hh
    have k3 : g'.dEdges = g.dEdges := by
      have hh := congrArg DLGraph.dEdges hg
      exact hh
    refine ⟨k1, k2, k3, hg, p, hp, l1, l2, ?_, ?_⟩
    · intro k
      rw [r1 k]
      exact erasedRow_eq _ _ _ _ _ k
    · intro k
      rw [r2 k]
      exact erasedRow_eq _ _ _ _ _ k
  · cases h

theorem insertImplied_frame_witness :
    insertImplied exCfg exGraph1 exAtom1 = some exImplied1 ∧
    exGraph1.hAdj = [[⟨exAtom1, 0, 0, 1, 3⟩], [⟨exAtom1, 1, 1, 0, -4⟩]] ∧
    exGraph1.hAdjInc = [[⟨exAtom1, 1, 1, 0, -4⟩], [⟨exAtom1, 0, 0, 1, 3⟩]] ∧
    exImplied1.hAdj = [[], []] ∧ exImplied1.hAdjInc = [[], []] ∧
    exImplied1.dAdj = exGraph1.dAdj ∧ exImplied1.dAdjInc = exGraph1.dAdjInc ∧
    exImplied1.dEdges = exGraph1.dEdges ∧
      exImplied1 = { exGraph1 with hAdj := exImplied1.hAdj, hAdjInc := exImplied1.hAdjInc } ∧
      ∃ p, findEdges exGraph1.edgeMap exAtom1 = some p ∧
        exImplied1.hAdj.length = exGraph1.hAdj.length ∧
        exImplied1.hAdjInc.length = exGraph1.hAdjInc.length ∧
        (∀ k, exImplied1.hAdj.getD k [] =
          if k = p.neg.u then
            (if k = p.pos.u then (exGraph1.hAdj.getD k []).erase p.pos
              else exGraph1.hAdj.getD k []).erase p.neg
          else if k = p.pos.u then (exGraph1.hAdj.getD k []).erase p.pos
          else exGraph1.hAdj.getD k []) ∧
        (∀ k, exImplied1.hAdjInc.getD k [] =
          if k = p.neg.v then
            (if k = p.pos.v then (exGraph1.hAdjInc.getD k []).erase p.pos
              else exGraph1.hAdjInc.getD k []).erase p.neg
          else if k = p.pos.v then (exGraph1.hAdjInc.getD k []).erase p.pos
          else exGraph1.hAdjInc.getD k []) :=
  ⟨by rfl, by rfl, by rfl, by rfl, by rfl,
    insertImplied_frame exCfg exGraph1 exImplied1 exAtom1 (by rfl)⟩

/-- Deleting an edge from a list that does not hold it leaves the list. -/
theorem erasedRow_of_not_mem (t : List AdjList) (i j : Nat) (a b : DLEdge)
    (ha : a ∉ t.getD i []) (hb : b ∉ t.getD j []) (k : Nat) :
    erasedRow t i j a b k = t.getD k [] := by
  unfold erasedRow deleteFromAdjList
  by_cases hi : k = i
  · subst hi
    by_cases hj : k = j
    · subst hj
      simp only [if_true, List.erase_of_not_mem ha, List.erase_of_not_mem hb]
    · simp only [if_true, if_neg hj, List.erase_of_not_mem ha]
  · by_cases hj : k = j
    · subst hj
      simp only [if_true, if_neg hi, List.erase_of_not_mem hb]
    · simp only [if_neg hi, if_neg hj]

/-- Two tables with the same length and the same rows are equal. -/
theorem table_ext (t t' : List AdjList) (hl : t'.length = t.length)
    (hr : ∀ k, t'.getD k [] = t.getD k []) : t' = t := by
  apply List.ext_getElem hl
  intro k h1 h2
  have h := hr k
  simp only [List.getD_eq_getElem?_getD, List.getElem?_eq_getElem h1,
    List.getElem?_eq_getElem h2, Option.getD_some] at h
  exact h

/-- C16, as the code has it: asserting an implied atom is an activation like any
other.  When neither edge of `c` is in the inactive views, a successful
`insertDynamic( c )` leaves `hAdj` and `hAdjInc` as they are, but it appends
the edge that the polarity selects to `dAdj[ e.u ]`, `dAdjInc[ e.v ]` and
`dEdges`, so these three change. -/
theorem insertDynamic_implied (cfg : Config) (A : AtomStore) (g g1 : DLGraph) (c : Enode)
    (reason : Bool) (e : DLEdge) (himp : IsImplied g c)
    (h : insertDynamic cfg A g c reason = some (e, g1)) :
    g1.hAdj = g.hAdj ∧ g1.hAdjInc = g.hAdjInc ∧
      ∃ a b, g.dAdj[e.u]? = some a ∧ g1.dAdj = g.dAdj.set e.u (a ++ [e]) ∧
        g.dAdjInc[e.v]? = some b ∧ g1.dAdjInc = g.dAdjInc.set e.v (b ++ [e]) ∧
        g1.dEdges = g.dEdges ++ [e] ∧
        g1.dAdj ≠ g.dAdj ∧ g1.dAdjInc ≠ g.dAdjInc ∧ g1.dEdges ≠ g.dEdges := by
  obtain ⟨p, a, b, gm, -, hp, he, ha, hb, hgm, hcase⟩ :=
    insertDynamic_spec cfg A g g1 c reason e h
  obtain ⟨q, hq, m1, m2, m3, m4⟩ := himp
  rw [hp] at hq
  cases hq
  have f1 : gm.edgeMap = g.edgeMap := by rw [hgm]
  have f2 : gm.dAdj = g.dAdj.set e.u (a ++ [e]) := by rw [hgm]
  have f3 : gm.dAdjInc = g.dAdjInc.set e.v (b ++ [e]) := by rw [hgm]
  have f4 : gm.dEdges = g.dEdges ++ [e] := by rw [hgm]
  have f9 : gm.hAdj = g.hAdj := by rw [hgm]
  have f10 : gm.hAdjInc = g.hAdjInc := by rw [hgm]
  clear hgm
  have n1 : g.dAdj.set e.u (a ++ [e]) ≠ g.dAdj := by
    intro hc
    have h1 := getElem?_set_self_of_some _ _ _ (a ++ [e]) ha
    rw [hc, ha] at h1
    have h2 := congrArg List.length (Option.some.inj h1)
    simp at h2
  have n2 : g.dAdjInc.set e.v (b ++ [e]) ≠ g.dAdjInc := by
    intro hc
    have h1 := getElem?_set_self_of_some _ _ _ (b ++ [e]) hb
    rw [hc, hb] at h1
    have h2 := congrArg List.length (Option.some.inj h1)
    simp at h2
  have n3 : g.dEdges ++ [e] ≠ g.dEdges := by
    intro hc
    have h2 := congrArg List.length hc
    simp at h2
  rcases hcase with ⟨-, hdel⟩ | ⟨-, hg1⟩
  · obtain ⟨p', hp', l1, l2, r1, r2, hg1⟩ := deleteInactive_rows gm g1 c hdel
    rw [f1, hp] at hp'
    cases hp'
    have k1 : g1.dAdj = gm.dAdj := by
      have hh := congrArg DLGraph.dAdj hg1
      exact hh
    have k2 : g1.dAdjInc = gm.dAdjInc := by
      have hh := congrArg DLGraph.dAdjInc hg1
      exact hh
    have k3 : g1.dEdges = gm.dEdges := by
      have hh := congrArg DLGraph.dEdges hg1
      exact hh
    clear hg1
    rw [f9] at l1 r1
    rw [f10] at l2 r2
    have e1 : g1.hAdj = g.hAdj :=
      table_ext _ _ l1 (fun k => (r1 k).trans (erasedRow_of_not_mem _ _ _ _ _ m1 m3 k))
    have e2 : g1.hAdjInc = g.hAdjInc :=
      table_ext _ _ l2 (fun k => (r2 k).trans (erasedRow_of_not_mem _ _ _ _ _ m2 m4 k))
    refine ⟨e1, e2, a, b, ha, k1.trans f2, hb, k2.trans f3, k3.trans f4, ?_, ?_, ?_⟩
    · rw [k1, f2]; exact n1
    · rw [k2, f3]; exact n2
    · rw [k3, f4]; exact n3
  · subst hg1
    refine ⟨f9, f10, a, b, ha, f2, hb, f3, f4, ?_, ?_, ?_⟩
    · rw [f2]; exact n1
    · rw [f3]; exact n2
    · rw [f4]; exact n3

theorem insertDynamic_implied_witness :
    IsImplied exImplied1 exAtom1 ∧
    ∃ e g1, insertDynamic exCfg exDeducedTrue exImplied1 exAtom1 false = some (e, g1) ∧
    g1.hAdj = exImplied1.hAdj ∧ g1.hAdjInc = exImplied1.hAdjInc ∧
      ∃ a b, exImplied1.dAdj[e.u]? = some a ∧ g1.dAdj = exImplied1.dAdj.set e.u (a ++ [e]) ∧
        exImplied1.dAdjInc[e.v]? = some b ∧
        g1.dAdjInc = exImplied1.dAdjInc.set e.v (b ++ [e]) ∧
        g1.dEdges = exImplied1.dEdges ++ [e] ∧
        g1.dAdj ≠ exImplied1.dAdj ∧ g1.dAdjInc ≠ exImplied1.dAdjInc ∧
        g1.dEdges ≠ exImplied1.dEdges :=
  ⟨⟨_, rfl, by decide, by decide, by decide, by decide⟩, _, _, rfl,
    insertDynamic_implied exCfg exDeducedTrue exImplied1 _ exAtom1 false _
      ⟨_, rfl, by decide, by decide, by decide, by decide⟩ rfl⟩

/-- C16 as stated fails: the atom `x0 - x1 <= 3` is implied (`insertImplied` took
its edges out of the inactive views), and asserting it with polarity `l_True`
changes `dAdj`, `dAdjInc` and `dEdges`: the pos edge is appended to all three. -/
theorem insertDynamic_implied_counterexample :
    ∃ g e g1, insertImplied exCfg exGraph1 exAtom1 = some g ∧
      insertDynamic exCfg exDeducedTrue g exAtom1 false = some (e, g1) ∧
      g.dAdj = [[], []] ∧ g1.dAdj = [[e], []] ∧
      g.dAdjInc = [[], []] ∧ g1.dAdjInc = [[], [e]] ∧
      g.dEdges = [] ∧ g1.dEdges = [e] :=
  ⟨_, _, _, rfl, rfl, rfl, rfl, rfl, rfl, rfl, rfl⟩

/-! ## The negative-cycle check: the tables of the store -/

theorem SameStore.of_self (g : DLGraph) : SameStore g g := by
  constructor <;> rfl

theorem SameStore.chain {g g' g'' : DLGraph} (h1 : SameStore g g') (h2 : SameStore g' g'') :
    SameStore g g'' where
  vertexMap := h2.vertexMap.trans h1.vertexMap
  edgeMap := h2.edgeMap.trans h1.edgeMap
  Vcnt := h2.Vcnt.trans h1.Vcnt
  Ecnt := h2.Ecnt.trans h1.Ecnt
  sAdj := h2.sAdj.trans h1.sAdj
  dAdj := h2.dAdj.trans h1.dAdj
  dAdjInc := h2.dAdjInc.trans h1.dAdjInc
  hAdj := h2.hAdj.trans h1.hAdj
  hAdjInc := h2.hAdjInc.trans h1.hAdjInc
  iAdj := h2.iAdj.trans h1.iAdj
  sEdges := h2.sEdges.trans h1.sEdges
  dEdges := h2.dEdges.trans h1.dEdges
  hEdges := h2.hEdges.trans h1.hEdges

theorem sameStore_gammaRefresh (g : DLGraph) (t : Nat) :
    SameStore g (if isGammaRead g t then g
      else readGamma { g with gamma := Function.update g.gamma t 0 } t) := by
  split
  · exact SameStore.of_self g
  · constructor <;> rfl

/-- The scan of an adjacency list leaves the tables of the store alone. -/
theorem scanAdjList_store (u s : Nat) (l : AdjList) :
    ∀ (g g' : DLGraph) (b : Bool), scanAdjList u s l g = some (b, g') → SameStore g g' := by
  induction l with
  | nil =>
    intro g g' b h
    simp only [scanAdjList, Option.some.injEq, Prod.mk.injEq] at h
    obtain ⟨rfl, rfl⟩ := h
    exact SameStore.of_self g
  | cons it rest ih =>
    intro g g' b h
    unfold scanAdjList at h
    simp only at h
    split at h
    · exact ih g g' b h
    · have hc := sameStore_gammaRefresh g it.v
      generalize (if isGammaRead g it.v then g
        else readGamma { g with gamma := Function.update g.gamma it.v 0 } it.v) = g1 at h hc
      split at h
      · split at h
        · split at h
          · cases h
          · rename_i ce hce
            simp only [Option.some.injEq, Prod.mk.injEq] at h
            obtain ⟨rfl, rfl⟩ := h
            refine hc.chain ?_
            constructor <;> rfl
        · exact hc.chain (ih g1 g' b h)
      · split at h
        · split at h
          · split at h
            · cases h
            · refine hc.chain (SameStore.chain ?_ (ih _ g' b h))
              constructor <;> rfl
          · split at h
            · split at h
              · cases h
              · refine hc.chain (SameStore.chain ?_ (ih _ g' b h))
                constructor <;> rfl
            · cases h
        · exact hc.chain (ih g1 g' b h)

theorem sameStore_pi (g : DLGraph) (f : Nat → Int) : SameStore g { g with pi := f } := by
  constructor <;> rfl

theorem sameStore_gamma (g : DLGraph) (f : Nat → Int) : SameStore g { g with gamma := f } := by
  constructor <;> rfl

theorem sameStore_heap (g : DLGraph) (l : List Nat) : SameStore g { g with vertex_heap := l } := by
  constructor <;> rfl

theorem sameStore_journal (g : DLGraph) (f : Nat → Int) (l : List Nat) :
    SameStore g { g with old_pi := f, changed_vertices := l } := by
  constructor <;> rfl

theorem readGamma_store (g : DLGraph) (v : Nat) : SameStore g (readGamma g v) := by
  constructor <;> rfl

theorem updatePiPrime_store (g : DLGraph) (v : Nat) : SameStore g (updatePiPrime g v) := by
  constructor <;> rfl

theorem make_heap_store (g : DLGraph) : SameStore g (make_heap g) := by
  constructor <;> rfl

theorem extractVertex_store (g : DLGraph) (s : Nat) (rest : List Nat) :
    SameStore g (extractVertex g s rest) := by
  unfold extractVertex
  have h1 := (sameStore_heap g rest).chain (make_heap_store _)
  generalize make_heap { g with vertex_heap := rest } = g1 at h1 ⊢
  simp only
  have h2 : SameStore g1 (if isPiPrime g1 s then g1
      else { g1 with
             old_pi := Function.update g1.old_pi s (g1.pi s)
             changed_vertices := g1.changed_vertices ++ [s] }) := by
    split
    · exact SameStore.of_self g1
    · exact sameStore_journal g1 _ _
  generalize (if isPiPrime g1 s then g1
      else { g1 with
             old_pi := Function.update g1.old_pi s (g1.pi s)
             changed_vertices := g1.changed_vertices ++ [s] }) = g2 at h2 ⊢
  exact h1.chain (h2.chain (((sameStore_pi g2 _).chain (updatePiPrime_store _ s)).chain
    ((sameStore_gamma _ _).chain (readGamma_store _ s))))

theorem sameStore_conflict (g : DLGraph) (ce : List (Option DLEdge)) :
    SameStore g { g with conflict_edges := ce } := by
  constructor <;> rfl

theorem initGamma_store (g : DLGraph) : SameStore g (initGamma g) := by
  constructor <;> rfl

theorem initPiPrime_store (g : DLGraph) : SameStore g (initPiPrime g) := by
  constructor <;> rfl

/-- The while loop leaves the tables of the store alone. -/
theorem negCycleLoop_store (u : Nat) (fuel : Nat) :
    ∀ (g g' : DLGraph) (b : Bool), negCycleLoop u fuel g = some (b, g') → SameStore g g' := by
  induction fuel with
  | zero =>
    intro g g' b h
    unfold negCycleLoop at h
    split at h
    · simp only [Option.some.injEq, Prod.mk.injEq] at h
      obtain ⟨-, rfl⟩ := h
      exact SameStore.of_self g
    · cases h
  | succ n ih =>
    intro g g' b h
    unfold negCycleLoop at h
    split at h
    · simp only [Option.some.injEq, Prod.mk.injEq] at h
      obtain ⟨-, rfl⟩ := h
      exact SameStore.of_self g
    · rename_i s rest hheap
      simp only at h
      have h4 := extractVertex_store g s rest
      generalize extractVertex g s rest = g4 at h h4
      split at h
      · cases h
      · rename_i adjList hadj
        split at h
        · cases h
        · rename_i g5 hscan
          simp only [Option.some.injEq, Prod.mk.injEq] at h
          obtain ⟨-, rfl⟩ := h
          exact h4.chain (scanAdjList_store u s adjList g4 _ false hscan)
        · rename_i g5 hscan
          exact h4.chain ((scanAdjList_store u s adjList g4 g5 true hscan).chain
            ((make_heap_store g5).chain (ih _ g' b h)))

theorem startCheck_store (g1 g5 : DLGraph) (e : DLEdge) (h : startCheck g1 e = some g5) :
    SameStore g1 g5 := by
  unfold startCheck at h
  have h2 := sameStore_conflict g1 (resize g1.conflict_edges g1.Vcnt none)
  generalize ({ g1 with conflict_edges := resize g1.conflict_edges g1.Vcnt none } : DLGraph) = g2
    at h h2
  simp only at h
  split at h
  · cases h
  · rename_i g4 hg4
    simp only [Option.some.injEq] at h
    subst h
    refine h2.chain (SameStore.chain ?_ ((initGamma_store _).chain (initPiPrime_store _)))
    split at hg4
    · split at hg4
      · cases hg4
      · rename_i ce hce
        simp only [Option.some.injEq] at hg4
        subst hg4
        constructor <;> rfl
    · simp only [Option.some.injEq] at hg4
      subst hg4
      constructor <;> rfl

/-- A call of `checkNegCycle` that returns is an `insertDynamic` as far as the
tables of the store go. -/
theorem checkNegCycle_store (cfg : Config) (A : AtomStore) (g g' : DLGraph) (c : Enode)
    (reason : Bool) (fuel : Nat) (b : Bool)
    (h : checkNegCycle cfg A g c reason fuel = some (b, g')) :
    ∃ e g1, insertDynamic cfg A g c reason = some (e, g1) ∧ SameStore g1 g' := by
  unfold checkNegCycle at h
  split at h
  · cases h
  · split at h
    · cases h
    · rename_i e g1 hins
      split at h
      · cases h
      · rename_i g5 hstart
        have h5 := startCheck_store g1 g5 e hstart
        split at h
        · cases h
        · rename_i g6 hloop
          simp only [Option.some.injEq, Prod.mk.injEq] at h
          obtain ⟨-, rfl⟩ := h
          exact ⟨e, g1, hins, h5.chain (negCycleLoop_store e.u fuel g5 _ false hloop)⟩
        · rename_i g6 hloop
          simp only [Option.some.injEq, Prod.mk.injEq] at h
          obtain ⟨-, rfl⟩ := h
          refine ⟨e, g1, hins, h5.chain ((negCycleLoop_store e.u fuel g5 g6 true hloop).chain ?_)⟩
          constructor <;> rfl

/-- C11, as the code has it: `deleteActive` leaves the potentials alone, so the
round trip keeps what the check repaired.  After a `checkNegCycle( c )` that
returned `true`, `deleteActive( c )` succeeds, restores `dAdj`, `dAdjInc` and
`dEdges` to their state before the check, and leaves every vertex with the
potential that `checkNegCycle` gave it; that is the potential before the check
when the activated edge was feasible for the potentials before the check (and
the heap was empty, as at every call). -/
theorem checkNegCycle_deleteActive (cfg : Config) (A : AtomStore) (g g1 : DLGraph) (c : Enode)
    (reason : Bool) (fuel : Nat) (h : checkNegCycle cfg A g c reason fuel = some (true, g1)) :
    ∃ g2, deleteActive cfg A g1 c = some g2 ∧ (∀ x, g2.pi x = g1.pi x) ∧
      g2.dAdj = g.dAdj ∧ g2.dAdjInc = g.dAdjInc ∧ g2.dEdges = g.dEdges ∧
      (g.vertex_heap = [] →
        (∀ p, findEdges g.edgeMap c = some p →
          0 ≤ g.pi (selectEdge A c p).u + (selectEdge A c p).wt - g.pi (selectEdge A c p).v) →
        ∀ x, g2.pi x = g.pi x) := by
  obtain ⟨e, gi, hins, hst⟩ := checkNegCycle_store cfg A g g1 c reason fuel true h
  obtain ⟨p, a, b, gm, hpol, hp, he, ha, hb, hgm, hcase⟩ :=
    insertDynamic_spec cfg A g gi c reason e hins
  have f1 : gm.edgeMap = g.edgeMap := by rw [hgm]
  have f2 : gm.dAdj = g.dAdj.set e.u (a ++ [e]) := by rw [hgm]
  have f3 : gm.dAdjInc = g.dAdjInc.set e.v (b ++ [e]) := by rw [hgm]
  have f4 : gm.dEdges = g.dEdges ++ [e] := by rw [hgm]
  have f9 : gm.hAdj = g.hAdj := by rw [hgm]
  have f10 : gm.hAdjInc = g.hAdjInc := by rw [hgm]
  clear hgm
  -- the tables of `g1` are those that `insertDynamic` left
  have t1 : g1.edgeMap = g.edgeMap ∧ g1.dAdj = g.dAdj.set e.u (a ++ [e]) ∧
      g1.dAdjInc = g.dAdjInc.set e.v (b ++ [e]) ∧ g1.dEdges = g.dEdges ++ [e] ∧
      (cfg.dlconfig.theory_propagation > 0 →
        p.pos.u < g1.hAdj.length ∧ p.pos.v < g1.hAdjInc.length ∧
        p.neg.u < g1.hAdj.length ∧ p.neg.v < g1.hAdjInc.length) := by
    rcases hcase with ⟨-, hdel⟩ | ⟨htp, hgi⟩
    · obtain ⟨p', t1, ti1, hp', c1, c2, c3, c4, hgi⟩ := deleteInactive_spec gm gi c hdel
      rw [f1, hp] at hp'
      cases hp'
      have k0 : gi.edgeMap = gm.edgeMap := by
        have hh := congrArg DLGraph.edgeMap hgi
        exact hh
      have k1 : gi.dAdj = gm.dAdj := by
        have hh := congrArg DLGraph.dAdj hgi
        exact hh
      have k2 : gi.dAdjInc = gm.dAdjInc := by
        have hh := congrArg DLGraph.dAdjInc hgi
        exact hh
      have k3 : gi.dEdges = gm.dEdges := by
        have hh := congrArg DLGraph.dEdges hgi
        exact hh
      clear hgi
      obtain ⟨l1, b1⟩ := modifyAt_length _ _ _ _ c1
      obtain ⟨l2, b2⟩ := modifyAt_length _ _ _ _ c2
      obtain ⟨l3, b3⟩ := modifyAt_length _ _ _ _ c3
      obtain ⟨l4, b4⟩ := modifyAt_length _ _ _ _ c4
      refine ⟨hst.edgeMap.trans (k0.trans f1), hst.dAdj.trans (k1.trans f2),
        hst.dAdjInc.trans (k2.trans f3), hst.dEdges.trans (k3.trans f4), fun _ => ?_⟩
      rw [hst.hAdj, hst.hAdjInc]
      omega
    · subst hgi
      exact ⟨hst.edgeMap.trans f1, hst.dAdj.trans f2, hst.dAdjInc.trans f3,
        hst.dEdges.trans f4, fun h' => absurd h' htp⟩
  obtain ⟨e1, e2, e4, e3, hb4⟩ := t1
  have hact := deleteActive_after cfg A g g1 c p a b e hpol (by rw [e1]; exact hp) he ha hb
    e2 e3 e4
  -- the potentials of the fast path
  have hfast : g.vertex_heap = [] →
      (∀ p, findEdges g.edgeMap c = some p →
        0 ≤ g.pi (selectEdge A c p).u + (selectEdge A c p).wt - g.pi (selectEdge A c p).v) →
      g1.pi = g.pi := by
    intro hh hf
    have hf' := hf p hp
    rw [← he] at hf'
    obtain ⟨q1, -, -, q4, -, -, -⟩ := insertDynamic_frame cfg A g gi c reason e hins
    rw [← q1] at hf'
    obtain ⟨g5, hs, h5, p5⟩ := startCheck_feasible gi e hf'
    have hloop := negCycleLoop_empty e.u fuel g5 (by rw [h5, q4, hh])
    unfold checkNegCycle at h
    split at h
    · cases h
    · rw [hins] at h
      simp only [hs, hloop, Option.some.injEq, Prod.mk.injEq, true_and] at h
      rw [← h]
      simp only [donePiPrime, doneGamma]
      rw [p5, q1]
  by_cases htp : cfg.dlconfig.theory_propagation > 0
  · rw [if_pos htp] at hact
    obtain ⟨c1, c2, c3, c4⟩ := hb4 htp
    obtain ⟨g2, hg2⟩ := insertInactive_isSome
      { g1 with dAdj := g.dAdj, dEdges := g.dEdges, dAdjInc := g.dAdjInc,
                after_backtrack := true } c p (by rw [← e1] at hp; exact hp) c1 c2 c3 c4
    obtain ⟨-, -, -, -, -, -, -, -, hg2eq⟩ := insertInactive_spec _ g2 c hg2
    have r0 : g2.pi = g1.pi := by
      have hh := congrArg DLGraph.pi hg2eq
      exact hh
    have r1 : g2.dAdj = g.dAdj := by
      have hh := congrArg DLGraph.dAdj hg2eq
      exact hh
    have r2 : g2.dAdjInc = g.dAdjInc := by
      have hh := congrArg DLGraph.dAdjInc hg2eq
      exact hh
    have r3 : g2.dEdges = g.dEdges := by
      have hh := congrArg DLGraph.dEdges hg2eq
      exact hh
    clear hg2eq
    refine ⟨g2, hact.trans hg2, fun x => by rw [r0], r1, r2, r3, fun hh hf x => ?_⟩
    rw [r0, hfast hh hf]
  · rw [if_neg htp] at hact
    refine ⟨_, hact, fun x => rfl, rfl, rfl, rfl, fun hh hf x => ?_⟩
    exact congrFun (hfast hh hf) x

theorem checkNegCycle_deleteActive_witness :
    ∃ g1, checkNegCycle exCfg exAllTrue exGraph12 exAtom2 false 1 = some (true, g1) ∧
    ∃ g2, deleteActive exCfg exAllTrue g1 exAtom2 = some g2 ∧ (∀ x, g2.pi x = g1.pi x) ∧
      g2.dAdj = exGraph12.dAdj ∧ g2.dAdjInc = exGraph12.dAdjInc ∧
      g2.dEdges = exGraph12.dEdges ∧
      (exGraph12.vertex_heap = [] →
        (∀ p, findEdges exGraph12.edgeMap exAtom2 = some p →
          0 ≤ exGraph12.pi (selectEdge exAllTrue exAtom2 p).u +
            (selectEdge exAllTrue exAtom2 p).wt -
            exGraph12.pi (selectEdge exAllTrue exAtom2 p).v) →
        ∀ x, g2.pi x = exGraph12.pi x) :=
  ⟨_, rfl, checkNegCycle_deleteActive exCfg exAllTrue exGraph12 _ exAtom2 false 1 rfl⟩

/-- C11 as stated fails: on the graph with the active edge `x0 -> x1` of weight
3 and all potentials 0, `checkNegCycle` of `x1 - x2 <= -2` returns `true` and
lowers the potential of `x2` to -2; after `deleteActive` of the same atom the
potential of `x2` is still -2, not the 0 from before the check. -/
theorem checkNegCycle_deleteActive_counterexample :
    ∃ g1 g2, checkNegCycle exCfg exAllTrue exGraph12 exAtom2 false 1 = some (true, g1) ∧
      deleteActive exCfg exAllTrue g1 exAtom2 = some g2 ∧
      exGraph12.pi 2 = 0 ∧ g2.pi 2 = -2 :=
  ⟨_, _, rfl, rfl, rfl, rfl⟩

/-! ## The bound on the loop -/

/-- A larger bound does not change what the while loop returns. -/
theorem negCycleLoop_fuel_mono (u : Nat) (fuel : Nat) :
    ∀ (g : DLGraph) (r : Bool × DLGraph), negCycleLoop u fuel g = some r →
      ∀ k, negCycleLoop u (fuel + k) g = some r := by
  induction fuel with
  | zero =>
    intro g r h k
    unfold negCycleLoop at h
    split at h
    · rename_i hheap
      rw [negCycleLoop_empty u (0 + k) g hheap]
      exact h
    · cases h
  | succ n ih =>
    intro g r h k
    rw [show n + 1 + k = (n + k) + 1 by omega]
    unfold negCycleLoop at h ⊢
    split at h
    · exact h
    · rename_i s rest hheap
      simp only at h ⊢
      generalize extractVertex g s rest = g4 at h ⊢
      split at h
      · cases h
      · rename_i adjList hadj
        split at h
        · cases h
        · exact h
        · rename_i g5 hscan
          exact ih _ r h k

/-- A larger bound does not change what `checkNegCycle` returns. -/
theorem checkNegCycle_fuel_mono (cfg : Config) (A : AtomStore) (g : DLGraph) (c : Enode)
    (reason : Bool) (fuel : Nat) (r : Bool × DLGraph)
    (h : checkNegCycle cfg A g c reason fuel = some r) (k : Nat) :
    checkNegCycle cfg A g c reason (fuel + k) = some r := by
  unfold checkNegCycle at h ⊢
  split at h
  · cases h
  · rename_i hch
    rw [if_neg hch]
    split at h
    · cases h
    · rename_i e g1 hins
      split at h
      · cases h
      · rename_i g5 hstart
        split at h
        · cases h
        · rename_i g6 hloop
          rw [negCycleLoop_fuel_mono e.u fuel g5 _ hloop k]
          exact h
        · rename_i g6 hloop
          rw [negCycleLoop_fuel_mono e.u fuel g5 _ hloop k]
          exact h

/-- More steps do not change what the conflict walk returns. -/
theorem conflictWalk_fuel_mono (ce : List (Option DLEdge)) (src : Nat) (fuel : Nat) :
    ∀ (s : Nat) (es : List DLEdge), conflictWalk ce src fuel s = some es →
      ∀ k, conflictWalk ce src (fuel + k) s = some es := by
  induction fuel with
  | zero =>
    intro s es h
    cases h
  | succ n ih =>
    intro s es h k
    rw [show n + 1 + k = (n + k) + 1 by omega]
    unfold conflictWalk at h ⊢
    split at h
    · rename_i ed hed
      split at h
      · rename_i hc
        rw [if_pos hc]
        exact h
      · rename_i hc
        rw [if_neg hc]
        cases hw : conflictWalk ce src n ed.u with
        | none =>
          rw [hw] at h
          cases h
        | some l =>
          rw [hw] at h
          rw [ih _ l hw k]
          exact h
    · cases h

/-! ## The scenarios -/

/-- C18: scenario 2, the negative cycle of three edges.  On the graph with the
atoms `x0 - x1 <= 3`, `x1 - x2 <= -2` and `x2 - x0 <= -2` registered and every
potential 0, `checkNegCycle` returns `true` for the first and for the second
atom and `false` for the third, for every bound of at least 2 on its loop;
after that `negCycleVertex` is the vertex of `x2`, the source of the third
edge, and the walk over `conflict_edges` from it visits the pos edges of the
three atoms and no other, and is back at the source after three steps. -/
theorem scenario_three_edge_cycle (k j : Nat) :
    (∀ x, exScen2.pi x = 0) ∧
    ∃ g1 g2 g3 p1 p2 p3,
      checkNegCycle exCfg exAllTrue exScen2 exAtom1 false (2 + k) = some (true, g1) ∧
      checkNegCycle exCfg exAllTrue g1 exAtom2 false (2 + k) = some (true, g2) ∧
      checkNegCycle exCfg exAllTrue g2 exAtom4 false (2 + k) = some (false, g3) ∧
      findEdges g3.edgeMap exAtom1 = some p1 ∧ findEdges g3.edgeMap exAtom2 = some p2 ∧
      findEdges g3.edgeMap exAtom4 = some p3 ∧
      g3.negCycleVertex = some p3.pos.u ∧
      conflictWalk g3.conflict_edges p3.pos.u (3 + j) p3.pos.u =
        some [p2.pos, p1.pos, p3.pos] := by
  refine ⟨fun _ => rfl, exCheck exAllTrue exScen2 exAtom1,
    exCheck exAllTrue (exCheck exAllTrue exScen2 exAtom1) exAtom2,
    exCheck exAllTrue (exCheck exAllTrue (exCheck exAllTrue exScen2 exAtom1) exAtom2) exAtom4,
    ⟨⟨exAtom1, 0, 0, 1, 3⟩, ⟨exAtom1, 1, 1, 0, -4⟩⟩,
    ⟨⟨exAtom2, 2, 1, 2, -2⟩, ⟨exAtom2, 3, 2, 1, 1⟩⟩,
    ⟨⟨exAtom4, 4, 2, 0, -2⟩, ⟨exAtom4, 5, 0, 2, 1⟩⟩, ?_, ?_, ?_, by decide, by decide, by decide, by rfl, ?_⟩
  · exact checkNegCycle_fuel_mono exCfg exAllTrue _ exAtom1 false 2 _ (by rfl) k
  · exact checkNegCycle_fuel_mono exCfg exAllTrue _ exAtom2 false 2 _ (by rfl) k
  · exact checkNegCycle_fuel_mono exCfg exAllTrue _ exAtom4 false 2 _ (by rfl) k
  · exact conflictWalk_fuel_mono _ _ 3 _ _ (by rfl) j

/-- Scenario 4 on the code: with `x0 - x1 <= 0` active, the activation of
`x1 - x0 <= -1` returns `false`, and so does the activation of the neg edge of
`x0 - x1 <= 0` itself, which has the same endpoints and the same weight -1. -/
theorem scenario_integer_strictness (k : Nat) :
    ∃ g1 g2 g3 p,
      checkNegCycle exCfg exAllTrue exScen4 exAtom5 false (1 + k) = some (true, g1) ∧
      checkNegCycle exCfg exAllTrue g1 exAtom6 false (1 + k) = some (false, g2) ∧
      findEdges g1.edgeMap exAtom5 = some p ∧ p.neg.wt = -1 ∧
      p.neg.u = p.pos.v ∧ p.neg.v = p.pos.u ∧
      checkNegCycle exCfg exAllFalse g1 exAtom5 false (1 + k) = some (false, g3) := by
  refine ⟨exCheck exAllTrue exScen4 exAtom5, exCheck exAllTrue (exCheck exAllTrue exScen4 exAtom5)
    exAtom6, exCheck exAllFalse (exCheck exAllTrue exScen4 exAtom5) exAtom5,
    ⟨⟨exAtom5, 0, 0, 1, 0⟩, ⟨exAtom5, 1, 1, 0, -1⟩⟩, ?_, ?_, by decide, by decide, by decide,
    by decide, ?_⟩
  · exact checkNegCycle_fuel_mono exCfg exAllTrue _ exAtom5 false 1 _ (by rfl) k
  · exact checkNegCycle_fuel_mono exCfg exAllTrue _ exAtom6 false 1 _ (by rfl) k
  · exact checkNegCycle_fuel_mono exCfg exAllFalse _ exAtom5 false 1 _ (by rfl) k

/-- C19, the code at the failing input: the atom `x0 <= x0` has the pos edge
`u -> u` of weight 0 and the neg edge `u -> u` of weight -1.  The activation of
the pos edge returns `true`, and the activation of the neg edge after it
returns `true` as well, for every bound of at least one iteration: the loop
edge of negative weight is skipped by the scan. -/
theorem checkNegCycle_pos_then_neg_loop (k : Nat) :
    ∃ p g1 g2, findEdges exSelfGraph.edgeMap exSelfAtom = some p ∧
      p.pos.wt = 0 ∧ p.neg.wt = -p.pos.wt - 1 ∧ p.neg.u = p.pos.v ∧ p.neg.v = p.pos.u ∧
      checkNegCycle exCfg exAllTrue exSelfGraph exSelfAtom false (1 + k) = some (true, g1) ∧
      checkNegCycle exCfg exAllFalse g1 exSelfAtom false (1 + k) = some (true, g2) := by
  refine ⟨⟨⟨exSelfAtom, 0, 0, 0, 0⟩, ⟨exSelfAtom, 1, 0, 0, -1⟩⟩,
    exCheck exAllTrue exSelfGraph exSelfAtom,
    exCheck exAllFalse (exCheck exAllTrue exSelfGraph exSelfAtom) exSelfAtom,
    by decide, by decide, by decide, by decide, by decide, ?_, ?_⟩
  · exact checkNegCycle_fuel_mono exCfg exAllTrue _ exSelfAtom false 1 _ (by rfl) k
  · exact checkNegCycle_fuel_mono exCfg exAllFalse _ exSelfAtom false 1 _ (by rfl) k

/-! ## Pairs, vertices and rows -/

/-- The edges of a pair point back to their atom and differ from each other. -/
theorem pair_facts (m : List (Enode × DLComplEdges)) (hids : EdgeIdsOk m) (a : Enode)
    (p : DLComplEdges) (hp : findEdges m a = some p) :
    p.pos.c = a ∧ p.neg.c = a ∧ p.pos ≠ p.neg := by
  obtain ⟨j, hj⟩ := findEdges_some_index m a p hp
  obtain ⟨i1, i2, c1, c2, -⟩ := hids j a p hj
  refine ⟨c1, c2, fun h => ?_⟩
  have := congrArg DLEdge.id h
  omega

theorem findEdges_append_single (m : List (Enode × DLComplEdges)) (c a : Enode)
    (p q : DLComplEdges) (hn : findEdges m c = none)
    (h : findEdges (m ++ [(c, p)]) a = some q) :
    (a = c ∧ q = p) ∨ (a ≠ c ∧ findEdges m a = some q) := by
  by_cases hac : a = c
  · subst hac
    rw [findEdges_append_of_none m _ a hn, findEdges_singleton] at h
    exact Or.inl ⟨rfl, (Option.some.inj h).symm⟩
  · right
    refine ⟨hac, ?_⟩
    cases hm : findEdges m a with
    | some q' =>
      rw [findEdges_append_of_some m _ a q' hm] at h
      rw [← h]
    | none =>
      rw [findEdges_append_of_none m _ a hm] at h
      simp only [findEdges] at h
      split at h
      · rename_i hca
        exact absurd hca.symm hac
      · cases h

theorem findVertex_lt (l : List (Option Enode)) (x : Option Enode) :
    ∀ i, findVertex l x = some i → i < l.length := by
  induction l with
  | nil =>
    intro i h
    cases h
  | cons k rest ih =>
    intro i h
    simp only [findVertex] at h
    split at h
    · simp only [Option.some.injEq] at h
      subst h
      simp
    · cases hr : findVertex rest x with
      | none =>
        rw [hr] at h
        cases h
      | some j =>
        rw [hr] at h
        simp only [Option.map_some', Option.some.injEq] at h
        subst h
        have := ih j hr
        simp only [List.length_cons]
        omega

/-- The vertex that `getDLVertex` returns is a position of the new map. -/
theorem getDLVertex_lt (g : DLGraph) (x : Option Enode) :
    (getDLVertex g x).1 < (getDLVertex g x).2.vertexMap.length :=
  findVertex_lt _ x _ (getDLVertex_spec g x).1

/-- Row `i` of a table that `resize` made longer. -/
theorem resize_getD (t : List AdjList) (n : Nat) (h : t.length ≤ n) (i : Nat) :
    (resize t n []).getD i [] = t.getD i [] := by
  unfold resize
  rw [List.take_of_length_le h]
  simp only [List.getD_eq_getElem?_getD]
  by_cases hi : i < t.length
  · rw [List.getElem?_append_left hi]
  · rw [List.getElem?_append_right (Nat.le_of_not_lt hi),
      List.getElem?_eq_none (Nat.le_of_not_lt hi)]
    by_cases hi2 : i - t.length < n - t.length
    · rw [List.getElem?_replicate_of_lt hi2]
      rfl
    · rw [List.getElem?_eq_none (by simp; omega)]

/-- `getDLVertex` leaves the adjacency views alone. -/
theorem getDLVertex_tables (g : DLGraph) (x : Option Enode) :
    (getDLVertex g x).2.dAdj = g.dAdj ∧ (getDLVertex g x).2.dAdjInc = g.dAdjInc ∧
      (getDLVertex g x).2.hAdj = g.hAdj ∧ (getDLVertex g x).2.hAdjInc = g.hAdjInc ∧
      (getDLVertex g x).2.dEdges = g.dEdges := by
  unfold getDLVertex
  split <;> exact ⟨rfl, rfl, rfl, rfl, rfl⟩

/-- A call of `getDLEdge` on an atom without an entry leaves the adjacency
views alone, extends `vertexMap`, and the ends of the new pos edge are vertices
of the new map. -/
theorem getDLEdge_new_tables (cfg : Config) (A : AtomStore) (g : DLGraph) (e : Enode)
    (p : DLComplEdges) (g1 : DLGraph) (hn : findEdges g.edgeMap e = none)
    (h : getDLEdge cfg A g e = some (p, g1)) :
    g1.dAdj = g.dAdj ∧ g1.dAdjInc = g.dAdjInc ∧ g1.hAdj = g.hAdj ∧ g1.hAdjInc = g.hAdjInc ∧
      g1.dEdges = g.dEdges ∧ (∃ l, g1.vertexMap = g.vertexMap ++ l) ∧
      p.pos.u < g1.vertexMap.length ∧ p.pos.v < g1.vertexMap.length := by
  unfold getDLEdge at h
  rw [hn] at h
  simp only at h
  split at h
  · cases h
  · split at h
    · cases h
    · rename_i w x y hcl
      simp only [Option.some.injEq, Prod.mk.injEq] at h
      obtain ⟨hp, hg⟩ := h
      subst hp
      subst hg
      simp only
      generalize hg0 : ({ g with tmp_edge_weight := w } : DLGraph) = g0
      have t0 : g0.dAdj = g.dAdj ∧ g0.dAdjInc = g.dAdjInc ∧ g0.hAdj = g.hAdj ∧
          g0.hAdjInc = g.hAdjInc ∧ g0.dEdges = g.dEdges ∧ g0.vertexMap = g.vertexMap := by
        subst hg0
        exact ⟨rfl, rfl, rfl, rfl, rfl, rfl⟩
      obtain ⟨a1, a2, a3, a4, a5, a6⟩ := t0
      obtain ⟨b1, b2, b3, b4, b5⟩ := getDLVertex_tables g0 x
      obtain ⟨-, l1, hl1⟩ := getDLVertex_spec g0 x
      have hlt1 := getDLVertex_lt g0 x
      generalize getDLVertex g0 x = r1 at b1 b2 b3 b4 b5 hl1 hlt1 ⊢
      obtain ⟨c1, c2, c3, c4, c5⟩ := getDLVertex_tables r1.2 y
      obtain ⟨-, l2, hl2⟩ := getDLVertex_spec r1.2 y
      have hlt2 := getDLVertex_lt r1.2 y
      generalize getDLVertex r1.2 y = r2 at c1 c2 c3 c4 c5 hl2 hlt2 ⊢
      refine ⟨c1.trans (b1.trans a1), c2.trans (b2.trans a2), c3.trans (b3.trans a3),
        c4.trans (b4.trans a4), c5.trans (b5.trans a5), ⟨l1 ++ l2, ?_⟩, ?_, hlt2⟩
      · show r2.2.vertexMap = _
        rw [hl2, hl1, a6, List.append_assoc]
      · show r1.1 < r2.2.vertexMap.length
        rw [hl2, List.length_append]
        omega

/-! ## Counting edges in rows -/

theorem count_erase_ite (l : AdjList) (a x : DLEdge) :
    (l.erase a).count x = l.count x - (if x = a then 1 else 0) := by
  rw [List.count_erase]
  by_cases h : x = a
  · subst h
    simp
  · have h' : ¬ a = x := fun hc => h hc.symm
    simp [h, h']

theorem count_erasedRow (t : List AdjList) (i j : Nat) (a b : DLEdge) (k : Nat) (x : DLEdge) :
    (erasedRow t i j a b k).count x =
      (t.getD k []).count x - (if k = i ∧ x = a then 1 else 0)
        - (if k = j ∧ x = b then 1 else 0) := by
  unfold erasedRow deleteFromAdjList
  simp only
  by_cases hi : k = i
  · subst hi
    by_cases hj : k = j
    · subst hj
      simp [count_erase_ite]
    · simp [hj, count_erase_ite]
  · by_cases hj : k = j
    · subst hj
      simp [hi, count_erase_ite]
    · simp [hi, hj]

theorem count_concat_ite (l : AdjList) (a x : DLEdge) :
    (l ++ [a]).count x = l.count x + (if x = a then 1 else 0) := by
  rw [List.count_append, List.count_singleton]
  by_cases h : x = a
  · subst h
    simp
  · have h' : ¬ a = x := fun hc => h hc.symm
    simp [h, h']

theorem count_appendedRow (t : List AdjList) (i j : Nat) (a b : DLEdge) (k : Nat) (x : DLEdge) :
    (appendedRow t i j a b k).count x =
      (t.getD k []).count x + (if k = i ∧ x = a then 1 else 0)
        + (if k = j ∧ x = b then 1 else 0) := by
  unfold appendedRow
  simp only
  by_cases hi : k = i
  · subst hi
    by_cases hj : k = j
    · subst hj
      simp only [eq_self_iff_true, if_true, true_and, count_concat_ite]
    · simp only [eq_self_iff_true, if_true, true_and, hj, if_false, false_and,
        count_concat_ite, Nat.add_zero]
  · by_cases hj : k = j
    · subst hj
      simp only [eq_self_iff_true, if_true, true_and, hi, if_false, false_and,
        count_concat_ite, Nat.add_zero]
    · simp only [hi, hj, if_false, false_and, Nat.add_zero]

/-- The rows of the inactive views after `insertInactive`. -/
theorem insertInactive_rows (g g' : DLGraph) (c : Enode) (h : insertInactive g c = some g') :
    ∃ p, findEdges g.edgeMap c = some p ∧
      g'.hAdj.length = g.hAdj.length ∧ g'.hAdjInc.length = g.hAdjInc.length ∧
      (∀ k, g'.hAdj.getD k [] = appendedRow g.hAdj p.pos.u p.neg.u p.pos p.neg k) ∧
      (∀ k, g'.hAdjInc.getD k [] = appendedRow g.hAdjInc p.pos.v p.neg.v p.pos p.neg k) ∧
      g' = { g with hAdj := g'.hAdj, hAdjInc := g'.hAdjInc } := by
  obtain ⟨p, t1, ti1, hp, c1, c2, c3, c4, hg⟩ := insertInactive_spec g g' c h
  obtain ⟨l1, -⟩ := modifyAt_length _ _ _ _ c1
  obtain ⟨l2, -⟩ := modifyAt_length _ _ _ _ c2
  obtain ⟨l3, -⟩ := modifyAt_length _ _ _ _ c3
  obtain ⟨l4, -⟩ := modifyAt_length _ _ _ _ c4
  refine ⟨p, hp, by omega, by omega, ?_, ?_, hg⟩
  · intro k
    rw [modifyAt_twice_getD _ _ _ _ _ _ _ c1 c3 k]
    unfold appendedRow
    by_cases hj : k = p.neg.u <;> by_cases hi : k = p.pos.u <;> simp only [hj, hi, if_true, if_false]
  · intro k
    rw [modifyAt_twice_getD _ _ _ _ _ _ _ c2 c4 k]
    unfold appendedRow
    by_cases hj : k = p.neg.v <;> by_cases hi : k = p.pos.v <;> simp only [hj, hi, if_true, if_false]

/-! ## What the operations do to the store -/

/-- The tables after a successful `insertDynamic`. -/
theorem insertDynamic_store (cfg : Config) (A : AtomStore) (g g1 : DLGraph) (c : Enode)
    (reason : Bool) (e : DLEdge) (h : insertDynamic cfg A g c reason = some (e, g1)) :
    ∃ p a b, findEdges g.edgeMap c = some p ∧ e = selectEdge A c p ∧
      g.dAdj[e.u]? = some a ∧ g.dAdjInc[e.v]? = some b ∧
      g1.edgeMap = g.edgeMap ∧ g1.vertexMap = g.vertexMap ∧
      g1.dAdj = g.dAdj.set e.u (a ++ [e]) ∧ g1.dAdjInc = g.dAdjInc.set e.v (b ++ [e]) ∧
      g1.dEdges = g.dEdges ++ [e] ∧
      g1.hAdj.length = g.hAdj.length ∧ g1.hAdjInc.length = g.hAdjInc.length ∧
      (∀ k, g1.hAdj.getD k [] =
        if cfg.dlconfig.theory_propagation > 0 then
          erasedRow g.hAdj p.pos.u p.neg.u p.pos p.neg k
        else g.hAdj.getD k []) ∧
      (∀ k, g1.hAdjInc.getD k [] =
        if cfg.dlconfig.theory_propagation > 0 then
          erasedRow g.hAdjInc p.pos.v p.neg.v p.pos p.neg k
        else g.hAdjInc.getD k []) := by
  obtain ⟨p, a, b, gm, -, hp, he, ha, hb, hgm, hcase⟩ :=
    insertDynamic_spec cfg A g g1 c reason e h
  have f1 : gm.edgeMap = g.edgeMap := by rw [hgm]
  have f0 : gm.vertexMap = g.vertexMap := by rw [hgm]
  have f2 : gm.dAdj = g.dAdj.set e.u (a ++ [e]) := by rw [hgm]
  have f3 : gm.dAdjInc = g.dAdjInc.set e.v (b ++ [e]) := by rw [hgm]
  have f4 : gm.dEdges = g.dEdges ++ [e] := by rw [hgm]
  have f9 : gm.hAdj = g.hAdj := by rw [hgm]
  have f10 : gm.hAdjInc = g.hAdjInc := by rw [hgm]
  clear hgm
  rcases hcase with ⟨htp, hdel⟩ | ⟨htp, hg1⟩
  · obtain ⟨p', hp', l1, l2, r1, r2, hg1⟩ := deleteInactive_rows gm g1 c hdel
    rw [f1, hp] at hp'
    cases hp'
    have k0 : g1.edgeMap = gm.edgeMap := by
      have hh := congrArg DLGraph.edgeMap hg1
      exact hh
    have k00 : g1.vertexMap = gm.vertexMap := by
      have hh := congrArg DLGraph.vertexMap hg1
      exact hh
    have k1 : g1.dAdj = gm.dAdj := by
      have hh := congrArg DLGraph.dAdj hg1
      exact hh
    have k2 : g1.dAdjInc = gm.dAdjInc := by
      have hh := congrArg DLGraph.dAdjInc hg1
      exact hh
    have k3 : g1.dEdges = gm.dEdges := by
      have hh := congrArg DLGraph.dEdges hg1
      exact hh
    clear hg1
    refine ⟨p, a, b, hp, he, ha, hb, k0.trans f1, k00.trans f0, k1.trans f2, k2.trans f3,
      k3.trans f4, l1.trans (congrArg List.length f9), l2.trans (congrArg List.length f10),
      ?_, ?_⟩
    · intro k
      rw [if_pos htp, r1 k, f9]
    · intro k
      rw [if_pos htp, r2 k, f10]
  · subst hg1
    refine ⟨p, a, b, hp, he, ha, hb, f1, f0, f2, f3, f4, congrArg List.length f9,
      congrArg List.length f10, ?_, ?_⟩
    · intro k
      rw [if_neg htp, f9]
    · intro k
      rw [if_neg htp, f10]

/-- What a successful `deleteActive` did. -/
theorem deleteActive_spec (cfg : Config) (A : AtomStore) (g g' : DLGraph) (c : Enode)
    (h : deleteActive cfg A g c = some g') :
    ∃ p du dv gm, hasPolarity A c = true ∧ findEdges g.edgeMap c = some p ∧
      g.dAdj[(selectEdge A c p).u]? = some du ∧ du.getLast? = some (selectEdge A c p) ∧
      g.dAdjInc[(selectEdge A c p).v]? = some dv ∧ dv.getLast? = some (selectEdge A c p) ∧
      g.dEdges ≠ [] ∧
      gm = { g with
             dAdj := g.dAdj.set (selectEdge A c p).u du.dropLast
             dEdges := g.dEdges.dropLast
             dAdjInc := g.dAdjInc.set (selectEdge A c p).v dv.dropLast
             after_backtrack := true } ∧
      ((cfg.dlconfig.theory_propagation > 0 ∧ insertInactive gm c = some g') ∨
        (¬ cfg.dlconfig.theory_propagation > 0 ∧ g' = gm)) := by
  unfold deleteActive at h
  split at h
  · cases h
  · rename_i hpol
    have hpol' : hasPolarity A c = true := by
      cases hh : hasPolarity A c
      · simp [hh] at hpol
      · rfl
    split at h
    · cases h
    · rename_i p hp
      simp only at h
      split at h
      · cases h
      · rename_i du hdu
        split at h
        · cases h
        · rename_i d hd
          split at h
          · cases h
          · rename_i hde
            simp only [ne_eq, not_not] at hde
            subst hde
            split at h
            · cases h
            · rename_i x hx
              split at h
              · cases h
              · rename_i dv hdv
                split at h
                · cases h
                · rename_i i hi
                  split at h
                  · cases h
                  · rename_i hid
                    simp only [ne_eq, not_not] at hid
                    subst hid
                    have hne : g.dEdges ≠ [] := by
                      intro hc
                      rw [hc] at hx
                      cases hx
                    split at h
                    · rename_i htp
                      exact ⟨p, du, dv, _, hpol', hp, hdu, hd, hdv, hi, hne, rfl,
                        Or.inl ⟨htp, h⟩⟩
                    · rename_i htp
                      simp only [Option.some.injEq] at h
                      exact ⟨p, du, dv, _, hpol', hp, hdu, hd, hdv, hi, hne, rfl,
                        Or.inr ⟨htp, h.symm⟩⟩

/-! ## The invariant of the store -/

theorem storeInv_empty : StoreInv [] DLGraph.empty where
  ids := by
    intro k a p h
    cases h
  len_d := rfl
  len_di := rfl
  len_h := rfl
  len_hi := rfl
  bounds := by
    intro a p h
    cases h
  nodup := List.nodup_nil
  edges := rfl
  dbound := by
    intro e h
    cases h
  rows := by
    intro i h
    cases h
  rows_in := by
    intro i h
    cases h

/-- The invariant reads the tables of the store only. -/
theorem StoreInv.of_sameStore {st : List (Enode × lbool)} {g g' : DLGraph}
    (h : StoreInv st g) (hs : SameStore g g') : StoreInv st g' where
  ids := by rw [hs.edgeMap]; exact h.ids
  len_d := by rw [hs.dAdj, hs.vertexMap]; exact h.len_d
  len_di := by rw [hs.dAdjInc, hs.vertexMap]; exact h.len_di
  len_h := by rw [hs.hAdj, hs.vertexMap]; exact h.len_h
  len_hi := by rw [hs.hAdjInc, hs.vertexMap]; exact h.len_hi
  bounds := by rw [hs.edgeMap, hs.vertexMap]; exact h.bounds
  nodup := h.nodup
  edges := by rw [hs.edgeMap, hs.dEdges]; exact h.edges
  dbound := by rw [hs.dEdges, hs.vertexMap]; exact h.dbound
  rows := by rw [hs.dAdj, hs.dEdges]; exact h.rows
  rows_in := by rw [hs.dAdjInc, hs.dEdges]; exact h.rows_in

/-- The edge that the entry `(c, polarity of c)` selects is the edge that
`insertDynamic` and `deleteActive` select. -/
theorem trailEdge_select (m : List (Enode × DLComplEdges)) (A : AtomStore) (c : Enode)
    (p : DLComplEdges) (hp : findEdges m c = some p) :
    trailEdge m (c, getPolarity A c) = some (selectEdge A c p) := by
  unfold trailEdge selectEdge
  rw [hp]
  rfl

/-- The ends of the selected edge are vertices. -/
theorem selectEdge_bounds {st : List (Enode × lbool)} {g : DLGraph} (h : StoreInv st g)
    (A : AtomStore) (c : Enode) (p : DLComplEdges) (hp : findEdges g.edgeMap c = some p) :
    (selectEdge A c p).u < g.vertexMap.length ∧ (selectEdge A c p).v < g.vertexMap.length := by
  obtain ⟨b1, b2, b3, b4⟩ := h.bounds c p hp
  unfold selectEdge
  split
  · exact ⟨b1, b2⟩
  · rw [b3, b4]
    exact ⟨b2, b1⟩

/-- A row of a table after one row was set. -/
theorem getElem?_set_row (t : List AdjList) (i k : Nat) (r : AdjList) (hk : k < t.length) :
    (t.set i r)[k]? = if k = i then some r else t[k]? := by
  by_cases h : k = i
  · subst h
    rw [if_pos rfl, List.getElem?_set_self hk]
  · rw [if_neg h, List.getElem?_set_ne (Ne.symm h)]

/-- An activation keeps the invariant, with the atom on top of the trail. -/
theorem StoreInv.dynamic_step {cfg : Config} {st : List (Enode × lbool)} {g g1 : DLGraph}
    (h : StoreInv st g) (A : AtomStore) (c : Enode) (reason : Bool) (e : DLEdge)
    (hc : c ∉ st.map Prod.fst) (hi : insertDynamic cfg A g c reason = some (e, g1)) :
    StoreInv ((c, getPolarity A c) :: st) g1 := by
  obtain ⟨p, a, b, hp, he, ha, hb, e1, e0, e2, e3, e4, l1, l2, -, -⟩ :=
    insertDynamic_store cfg A g g1 c reason e hi
  obtain ⟨bu, bv⟩ := selectEdge_bounds h A c p hp
  rw [← he] at bu bv
  have hau : e.u < g.dAdj.length := by rw [h.len_d]; exact bu
  have hav : e.v < g.dAdjInc.length := by rw [h.len_di]; exact bv
  have ra := h.rows e.u hau
  have rb := h.rows_in e.v hav
  rw [ha] at ra
  rw [hb] at rb
  have ra' := Option.some.inj ra
  have rb' := Option.some.inj rb
  constructor
  · rw [e1]; exact h.ids
  · rw [e2, e0, List.length_set]; exact h.len_d
  · rw [e3, e0, List.length_set]; exact h.len_di
  · rw [l1, e0]; exact h.len_h
  · rw [l2, e0]; exact h.len_hi
  · rw [e1, e0]; exact h.bounds
  · simp only [List.map_cons, List.nodup_cons]
    exact ⟨hc, h.nodup⟩
  · rw [e1, e4, List.reverse_cons, List.map_append, List.map_append, h.edges]
    simp only [List.map_cons, List.map_nil]
    rw [trailEdge_select g.edgeMap A c p hp, ← he]
  · rw [e4, e0]
    intro x hx
    rw [List.mem_append, List.mem_singleton] at hx
    rcases hx with hx | hx
    · exact h.dbound x hx
    · subst hx
      exact ⟨bu, bv⟩
  · intro i hi'
    rw [e2, List.length_set] at hi'
    rw [e2, e4, getElem?_set_row _ _ _ _ hi', List.filter_append]
    by_cases hie : i = e.u
    · subst hie
      rw [if_pos rfl, ra']
      simp
    · rw [if_neg hie, h.rows i hi']
      have : ¬ e.u = i := fun hh => hie hh.symm
      simp [this]
  · intro i hi'
    rw [e3, List.length_set] at hi'
    rw [e3, e4, getElem?_set_row _ _ _ _ hi', List.filter_append]
    by_cases hie : i = e.v
    · subst hie
      rw [if_pos rfl, rb']
      simp
    · rw [if_neg hie, h.rows_in i hi']
      have : ¬ e.v = i := fun hh => hie hh.symm
      simp [this]

/-- The trail edge on top of the trail is the last element of `dEdges`. -/
theorem StoreInv.top {st : List (Enode × lbool)} {g : DLGraph} (A : AtomStore) (c : Enode)
    (h : StoreInv ((c, getPolarity A c) :: st) g) :
    ∃ p de, findEdges g.edgeMap c = some p ∧ g.dEdges = de ++ [selectEdge A c p] ∧
      st.reverse.map (trailEdge g.edgeMap) = de.map some := by
  have hed := h.edges
  rw [List.reverse_cons, List.map_append] at hed
  simp only [List.map_cons, List.map_nil] at hed
  rcases List.eq_nil_or_concat g.dEdges with hnil | ⟨de, last, hde⟩
  · rw [hnil] at hed
    have := congrArg List.length hed
    simp at this
  · rw [List.concat_eq_append] at hde
    rw [hde, List.map_append] at hed
    simp only [List.map_cons, List.map_nil] at hed
    obtain ⟨h1, h2⟩ := List.append_inj' hed rfl
    simp only [List.cons.injEq, and_true] at h2
    cases hp : findEdges g.edgeMap c with
    | none =>
      unfold trailEdge at h2
      rw [hp] at h2
      cases h2
    | some p =>
      rw [trailEdge_select g.edgeMap A c p hp] at h2
      refine ⟨p, de, rfl, ?_, h1⟩
      rw [hde, Option.some.inj h2]

theorem set_of_getElem? {α : Type} (l : List α) (i : Nat) (a : α) (h : l[i]? = some a) :
    l.set i a = l := by
  apply List.ext_getElem?
  intro j
  by_cases hj : i = j
  · subst hj
    rw [getElem?_set_self_of_some l i a a h, h]
  · rw [List.getElem?_set_ne hj]

/-- The LIFO step: in a state whose trail has the atom `c` on top, with the
polarity it still has, the selected edge of `c` is the last element of
`dAdj[ e.u ]`, of `dAdjInc[ e.v ]` and of `dEdges`, `deleteActive( c )` succeeds
and drops exactly these three last elements, and the state it leaves has the
invariant for the rest of the trail. -/
theorem StoreInv.delete_step {st : List (Enode × lbool)} {g : DLGraph} (cfg : Config)
    (A : AtomStore) (c : Enode) (h : StoreInv ((c, getPolarity A c) :: st) g)
    (hpol : hasPolarity A c = true) :
    ∃ p de g', findEdges g.edgeMap c = some p ∧
      g.dEdges = de ++ [selectEdge A c p] ∧
      g.dAdj[(selectEdge A c p).u]? =
        some (de.filter (fun x => decide (x.u = (selectEdge A c p).u)) ++ [selectEdge A c p]) ∧
      g.dAdjInc[(selectEdge A c p).v]? =
        some (de.filter (fun x => decide (x.v = (selectEdge A c p).v)) ++ [selectEdge A c p]) ∧
      deleteActive cfg A g c = some g' ∧
      g'.dAdj = g.dAdj.set (selectEdge A c p).u
        (de.filter (fun x => decide (x.u = (selectEdge A c p).u))) ∧
      g'.dAdjInc = g.dAdjInc.set (selectEdge A c p).v
        (de.filter (fun x => decide (x.v = (selectEdge A c p).v))) ∧
      g'.dEdges = de ∧ g'.edgeMap = g.edgeMap ∧ StoreInv st g' ∧
      (∀ k, g'.hAdj.getD k [] =
        if cfg.dlconfig.theory_propagation > 0 then
          appendedRow g.hAdj p.pos.u p.neg.u p.pos p.neg k
        else g.hAdj.getD k []) ∧
      (∀ k, g'.hAdjInc.getD k [] =
        if cfg.dlconfig.theory_propagation > 0 then
          appendedRow g.hAdjInc p.pos.v p.neg.v p.pos p.neg k
        else g.hAdjInc.getD k []) := by
  obtain ⟨p, de, hp, hde, htl⟩ := h.top A c
  obtain ⟨bu, bv⟩ := selectEdge_bounds h A c p hp
  obtain ⟨q1, q2, q3, q4⟩ := h.bounds c p hp
  refine ⟨p, de, ?_⟩
  generalize hsel : selectEdge A c p = e at hde bu bv ⊢
  have hau : e.u < g.dAdj.length := by rw [h.len_d]; exact bu
  have hav : e.v < g.dAdjInc.length := by rw [h.len_di]; exact bv
  have ra := h.rows e.u hau
  have rb := h.rows_in e.v hav
  rw [hde, List.filter_append] at ra rb
  simp only [List.filter_cons, List.filter_nil, decide_True, if_true] at ra rb
  generalize ha : de.filter (fun x => decide (x.u = e.u)) = a at ra ⊢
  generalize hb : de.filter (fun x => decide (x.v = e.v)) = b at rb ⊢
  -- the state the pops leave
  have hact := deleteActive_after cfg A
    { g with dAdj := g.dAdj.set e.u a, dEdges := de, dAdjInc := g.dAdjInc.set e.v b }
    g c p a b e hpol hp hsel.symm
    (getElem?_set_self_of_some _ _ _ _ ra) (getElem?_set_self_of_some _ _ _ _ rb)
    (set_set_of_getElem? _ _ _ _ ra).symm hde (set_set_of_getElem? _ _ _ _ rb).symm
  simp only at hact
  -- the invariant of a state with these tables
  have hinv : ∀ g' : DLGraph, g'.edgeMap = g.edgeMap → g'.vertexMap = g.vertexMap →
      g'.dAdj = g.dAdj.set e.u a → g'.dAdjInc = g.dAdjInc.set e.v b → g'.dEdges = de →
      g'.hAdj.length = g.hAdj.length → g'.hAdjInc.length = g.hAdjInc.length →
      StoreInv st g' := by
    intro g' e1 e0 e2 e3 e4 l1 l2
    constructor
    · rw [e1]; exact h.ids
    · rw [e2, e0, List.length_set]; exact h.len_d
    · rw [e3, e0, List.length_set]; exact h.len_di
    · rw [l1, e0]; exact h.len_h
    · rw [l2, e0]; exact h.len_hi
    · rw [e1, e0]; exact h.bounds
    · have := h.nodup
      simp only [List.map_cons, List.nodup_cons] at this
      exact this.2
    · rw [e1, e4]; exact htl
    · rw [e4, e0]
      intro x hx
      exact h.dbound x (by rw [hde]; exact List.mem_append_left _ hx)
    · intro i hi'
      rw [e2, List.length_set] at hi'
      rw [e2, e4, getElem?_set_row _ _ _ _ hi']
      by_cases hie : i = e.u
      · subst hie
        rw [if_pos rfl, ha]
      · rw [if_neg hie, h.rows i hi', hde, List.filter_append]
        have : ¬ e.u = i := fun hh => hie hh.symm
        simp [this]
    · intro i hi'
      rw [e3, List.length_set] at hi'
      rw [e3, e4, getElem?_set_row _ _ _ _ hi']
      by_cases hie : i = e.v
      · subst hie
        rw [if_pos rfl, hb]
      · rw [if_neg hie, h.rows_in i hi', hde, List.filter_append]
        have : ¬ e.v = i := fun hh => hie hh.symm
        simp [this]
  by_cases htp : cfg.dlconfig.theory_propagation > 0
  · rw [if_pos htp] at hact
    obtain ⟨g2, hg2⟩ := insertInactive_isSome
      { g with dAdj := g.dAdj.set e.u a, dEdges := de, dAdjInc := g.dAdjInc.set e.v b,
               after_backtrack := true } c p hp
      (by rw [h.len_h]; exact q1) (by rw [h.len_hi]; exact q2)
      (by rw [h.len_h, q3]; exact q2) (by rw [h.len_hi, q4]; exact q1)
    obtain ⟨p', hp', l1, l2, r1, r2, hg2eq⟩ := insertInactive_rows _ g2 c hg2
    simp only at hp' l1 l2 r1 r2
    rw [hp] at hp'
    cases hp'
    have k0 : g2.edgeMap = g.edgeMap := by
      have hh := congrArg DLGraph.edgeMap hg2eq
      exact hh
    have k00 : g2.vertexMap = g.vertexMap := by
      have hh := congrArg DLGraph.vertexMap hg2eq
      exact hh
    have k1 : g2.dAdj = g.dAdj.set e.u a := by
      have hh := congrArg DLGraph.dAdj hg2eq
      exact hh
    have k2 : g2.dAdjInc = g.dAdjInc.set e.v b := by
      have hh := congrArg DLGraph.dAdjInc hg2eq
      exact hh
    have k3 : g2.dEdges = de := by
      have hh := congrArg DLGraph.dEdges hg2eq
      exact hh
    clear hg2eq
    refine ⟨g2, hp, hde, ra, rb, hact.trans hg2, k1, k2, k3, k0,
      hinv g2 k0 k00 k1 k2 k3 l1 l2, ?_, ?_⟩
    · intro k
      rw [if_pos htp]
      exact r1 k
    · intro k
      rw [if_pos htp]
      exact r2 k
  · rw [if_neg htp] at hact
    refine ⟨_, hp, hde, ra, rb, hact, rfl, rfl, rfl, rfl,
      hinv _ rfl rfl rfl rfl rfl rfl rfl, ?_, ?_⟩
    · intro k
      rw [if_neg htp]
    · intro k
      rw [if_neg htp]

/-- The invariant reads the maps, the active views and the lengths of the
inactive views only. -/
theorem StoreInv.of_tables {st : List (Enode × lbool)} {g g' : DLGraph} (h : StoreInv st g)
    (e1 : g'.edgeMap = g.edgeMap) (e0 : g'.vertexMap = g.vertexMap) (e2 : g'.dAdj = g.dAdj)
    (e3 : g'.dAdjInc = g.dAdjInc) (e4 : g'.dEdges = g.dEdges)
    (l1 : g'.hAdj.length = g.hAdj.length) (l2 : g'.hAdjInc.length = g.hAdjInc.length) :
    StoreInv st g' where
  ids := by rw [e1]; exact h.ids
  len_d := by rw [e2, e0]; exact h.len_d
  len_di := by rw [e3, e0]; exact h.len_di
  len_h := by rw [l1, e0]; exact h.len_h
  len_hi := by rw [l2, e0]; exact h.len_hi
  bounds := by rw [e1, e0]; exact h.bounds
  nodup := h.nodup
  edges := by rw [e1, e4]; exact h.edges
  dbound := by rw [e4, e0]; exact h.dbound
  rows := by rw [e2, e4]; exact h.rows
  rows_in := by rw [e3, e4]; exact h.rows_in

/-- `deleteInactive` changes the rows of the inactive views only. -/
theorem deleteInactive_store (g g' : DLGraph) (c : Enode) (h : deleteInactive g c = some g') :
    g'.edgeMap = g.edgeMap ∧ g'.vertexMap = g.vertexMap ∧ g'.dAdj = g.dAdj ∧
      g'.dAdjInc = g.dAdjInc ∧ g'.dEdges = g.dEdges := by
  obtain ⟨p, -, -, -, -, -, hg⟩ := deleteInactive_rows g g' c h
  have k0 : g'.edgeMap = g.edgeMap := by
    have hh := congrArg DLGraph.edgeMap hg
    exact hh
  have k00 : g'.vertexMap = g.vertexMap := by
    have hh := congrArg DLGraph.vertexMap hg
    exact hh
  have k1 : g'.dAdj = g.dAdj := by
    have hh := congrArg DLGraph.dAdj hg
    exact hh
  have k2 : g'.dAdjInc = g.dAdjInc := by
    have hh := congrArg DLGraph.dAdjInc hg
    exact hh
  have k3 : g'.dEdges = g.dEdges := by
    have hh := congrArg DLGraph.dEdges hg
    exact hh
  exact ⟨k0, k00, k1, k2, k3⟩

/-- `insertImplied` keeps the invariant. -/
theorem StoreInv.implied_step {cfg : Config} {st : List (Enode × lbool)} {g g' : DLGraph}
    (h : StoreInv st g) (c : Enode) (hi : insertImplied cfg g c = some g') :
    StoreInv st g' := by
  unfold insertImplied at hi
  split at hi
  · obtain ⟨e1, e0, e2, e3, e4⟩ := deleteInactive_store g g' c hi
    obtain ⟨p, -, l1, l2, -, -, -⟩ := deleteInactive_rows g g' c hi
    exact h.of_tables e1 e0 e2 e3 e4 l1 l2
  · cases hi

/-- Every atom on the trail has a pair. -/
theorem StoreInv.trail_known {st : List (Enode × lbool)} {g : DLGraph} (h : StoreInv st g)
    (cp : Enode × lbool) (hcp : cp ∈ st) : ∃ q, findEdges g.edgeMap cp.1 = some q := by
  have hm : trailEdge g.edgeMap cp ∈ st.reverse.map (trailEdge g.edgeMap) :=
    List.mem_map_of_mem _ (List.mem_reverse.mpr hcp)
  rw [h.edges, List.mem_map] at hm
  obtain ⟨e, -, he⟩ := hm
  cases hq : findEdges g.edgeMap cp.1 with
  | none =>
    unfold trailEdge at he
    rw [hq] at he
    cases he
  | some q => exact ⟨q, rfl⟩

theorem getElem?_eq_some_getD (t : List AdjList) (i : Nat) (h : i < t.length) :
    t[i]? = some (t.getD i []) := by
  rw [List.getD_eq_getElem?_getD, List.getElem?_eq_getElem h]
  rfl

theorem getD_of_length_le (t : List AdjList) (i : Nat) (h : t.length ≤ i) :
    t.getD i [] = [] := by
  rw [List.getD_eq_getElem?_getD, List.getElem?_eq_none h]
  rfl

/-- The tables after a successful `insertStatic` of an atom without a pair. -/
theorem insertStatic_store (cfg : Config) (A : AtomStore) (g g' : DLGraph) (c : Enode)
    (hn : findEdges g.edgeMap c = none) (h : insertStatic cfg A g c = some g') :
    ∃ p l g1, getDLEdge cfg A g c = some (p, g1) ∧ g'.edgeMap = g1.edgeMap ∧
      g'.edgeMap = g.edgeMap ++ [(c, p)] ∧ g'.vertexMap = g.vertexMap ++ l ∧
      p.pos.c = c ∧ p.neg.c = c ∧ p.neg.u = p.pos.v ∧ p.neg.v = p.pos.u ∧
      p.pos.u < g'.vertexMap.length ∧ p.pos.v < g'.vertexMap.length ∧
      g'.dAdj = resize g.dAdj g'.vertexMap.length [] ∧
      g'.dAdjInc = resize g.dAdjInc g'.vertexMap.length [] ∧
      g'.dEdges = g.dEdges ∧
      g'.hAdj.length = g'.vertexMap.length ∧ g'.hAdjInc.length = g'.vertexMap.length ∧
      (∀ k, g'.hAdj.getD k [] =
        if cfg.dlconfig.theory_propagation > 0 then
          appendedRow (resize g.hAdj g'.vertexMap.length []) p.pos.u p.neg.u p.pos p.neg k
        else (resize g.hAdj g'.vertexMap.length []).getD k []) ∧
      (∀ k, g'.hAdjInc.getD k [] =
        if cfg.dlconfig.theory_propagation > 0 then
          appendedRow (resize g.hAdjInc g'.vertexMap.length []) p.pos.v p.neg.v p.pos p.neg k
        else (resize g.hAdjInc g'.vertexMap.length []).getD k []) := by
  obtain ⟨p, g1, s1, s2, g3, hg1, -, -, hg3, -, hcase⟩ := insertStatic_spec cfg A g g' c h
  obtain ⟨n1, -, -, n4, n5, n6, n7, -⟩ := getDLEdge_new cfg A g c p g1 hn hg1
  obtain ⟨t1, t2, t3, t4, t5, ⟨l, hl⟩, t7, t8⟩ := getDLEdge_new_tables cfg A g c p g1 hn hg1
  have f1 : g3.edgeMap = g1.edgeMap := by rw [hg3]
  have f0 : g3.vertexMap = g1.vertexMap := by rw [hg3]
  have f2 : g3.dAdj = resize g1.dAdj g1.vertexMap.length [] := by rw [hg3]
  have f3 : g3.dAdjInc = resize g1.dAdjInc g1.vertexMap.length [] := by rw [hg3]
  have f4 : g3.dEdges = g1.dEdges := by rw [hg3]
  have f9 : g3.hAdj = resize g1.hAdj g1.vertexMap.length [] := by rw [hg3]
  have f10 : g3.hAdjInc = resize g1.hAdjInc g1.vertexMap.length [] := by rw [hg3]
  clear hg3
  rcases hcase with ⟨htp, hins⟩ | ⟨htp, hg'⟩
  · obtain ⟨p', hp', l1, l2, r1, r2, hgeq⟩ := insertInactive_rows g3 g' c hins
    rw [f1, getDLEdge_find cfg A g c p g1 hg1] at hp'
    cases hp'
    have k0 : g'.edgeMap = g3.edgeMap := by
      have hh := congrArg DLGraph.edgeMap hgeq
      exact hh
    have k00 : g'.vertexMap = g3.vertexMap := by
      have hh := congrArg DLGraph.vertexMap hgeq
      exact hh
    have k1 : g'.dAdj = g3.dAdj := by
      have hh := congrArg DLGraph.dAdj hgeq
      exact hh
    have k2 : g'.dAdjInc = g3.dAdjInc := by
      have hh := congrArg DLGraph.dAdjInc hgeq
      exact hh
    have k3 : g'.dEdges = g3.dEdges := by
      have hh := congrArg DLGraph.dEdges hgeq
      exact hh
    clear hgeq
    have hv : g'.vertexMap = g1.vertexMap := k00.trans f0
    refine ⟨p, l, g1, hg1, k0.trans f1, (k0.trans f1).trans n1, hv.trans hl, n4, n5, n6, n7,
      ?_, ?_, ?_, ?_,
      (k3.trans f4).trans t5, ?_, ?_, ?_, ?_⟩
    · rw [hv]; exact t7
    · rw [hv]; exact t8
    · rw [k1, f2, t1, hv]
    · rw [k2, f3, t2, hv]
    · rw [l1, f9, resize_length, hv]
    · rw [l2, f10, resize_length, hv]
    · intro k
      rw [if_pos htp, r1 k, f9, t3, hv]
    · intro k
      rw [if_pos htp, r2 k, f10, t4, hv]
  · subst hg'
    refine ⟨p, l, g1, hg1, f1, f1.trans n1, f0.trans hl, n4, n5, n6, n7, ?_, ?_, ?_, ?_,
      f4.trans t5,
      ?_, ?_, ?_, ?_⟩
    · rw [f0]; exact t7
    · rw [f0]; exact t8
    · rw [f2, t1, f0]
    · rw [f3, t2, f0]
    · rw [f9, resize_length, f0]
    · rw [f10, resize_length, f0]
    · intro k
      rw [if_neg htp, f9, t3, f0]
    · intro k
      rw [if_neg htp, f10, t4, f0]

/-- The registration of a new atom keeps the invariant. -/
theorem StoreInv.static_step {cfg : Config} {st : List (Enode × lbool)} {g g' : DLGraph}
    (h : StoreInv st g) (A : AtomStore) (c : Enode) (hn : findEdges g.edgeMap c = none)
    (hi : insertStatic cfg A g c = some g') : StoreInv st g' := by
  obtain ⟨p, l, g1, hg1, e1', e1, e0, c1, c2, n6, n7, bu, bv, e2, e3, e4, l1, l2, -, -⟩ :=
    insertStatic_store cfg A g g' c hn hi
  have hids := (getDLEdge_edgeIdsOk cfg A g g1 c p h.ids hg1).1
  have hlen : g.vertexMap.length ≤ g'.vertexMap.length := by
    rw [e0, List.length_append]
    omega
  constructor
  · rw [e1']; exact hids
  · rw [e2, resize_length]
  · rw [e3, resize_length]
  · exact l1
  · exact l2
  · intro a q hq
    rw [e1] at hq
    rcases findEdges_append_single _ _ _ _ _ hn hq with ⟨-, rfl⟩ | ⟨-, hq'⟩
    · exact ⟨bu, bv, n6, n7⟩
    · obtain ⟨b1, b2, b3, b4⟩ := h.bounds a q hq'
      exact ⟨by omega, by omega, b3, b4⟩
  · exact h.nodup
  · rw [e4, ← h.edges]
    apply List.map_congr_left
    intro cp hcp
    obtain ⟨q, hq⟩ := h.trail_known cp (List.mem_reverse.mp hcp)
    unfold trailEdge
    rw [e1, findEdges_append_of_some _ _ _ q hq, hq]
  · rw [e4]
    intro x hx
    obtain ⟨b1, b2⟩ := h.dbound x hx
    exact ⟨by omega, by omega⟩
  · intro i hi'
    rw [getElem?_eq_some_getD _ _ hi', e2, resize_getD _ _ (by rw [h.len_d]; exact hlen), e4]
    by_cases hio : i < g.dAdj.length
    · have := h.rows i hio
      rw [getElem?_eq_some_getD _ _ hio] at this
      exact this
    · rw [getD_of_length_le _ _ (Nat.le_of_not_lt hio)]
      congr 1
      symm
      rw [List.filter_eq_nil_iff]
      intro x hx
      have := (h.dbound x hx).1
      rw [h.len_d] at hio
      simp only [decide_eq_true_eq]
      omega
  · intro i hi'
    rw [getElem?_eq_some_getD _ _ hi', e3, resize_getD _ _ (by rw [h.len_di]; exact hlen), e4]
    by_cases hio : i < g.dAdjInc.length
    · have := h.rows_in i hio
      rw [getElem?_eq_some_getD _ _ hio] at this
      exact this
    · rw [getD_of_length_le _ _ (Nat.le_of_not_lt hio)]
      congr 1
      symm
      rw [List.filter_eq_nil_iff]
      intro x hx
      have := (h.dbound x hx).2
      rw [h.len_di] at hio
      simp only [decide_eq_true_eq]
      omega

/-- The reached states have the invariant of the store. -/
theorem reach_storeInv (cfg : Config) (st : List (Enode × lbool)) (g : DLGraph)
    (hr : Reach cfg st g) : StoreInv st g := by
  induction hr with
  | init => exact storeInv_empty
  | static A c _ hn hi ih => exact ih.static_step A c hn hi
  | dynamic A c reason e _ hc hi ih => exact ih.dynamic_step A c reason e hc hi
  | check A c reason fuel b _ hc hi ih =>
    obtain ⟨e, g1, hins, hst⟩ := checkNegCycle_store cfg A _ _ c reason fuel b hi
    exact (ih.dynamic_step A c reason e hc hins).of_sameStore hst
  | delete A c _ hi ih =>
    obtain ⟨-, -, -, -, hpol, -⟩ := deleteActive_spec cfg A _ _ c hi
    obtain ⟨-, -, g2, -, -, -, -, hd, -, -, -, -, hinv, -, -⟩ := ih.delete_step cfg A c hpol
    rw [hi] at hd
    cases hd
    exact hinv
  | implied c _ hi ih => exact ih.implied_step c hi

/-! ## Counting in the tables -/

/-- Erasing the two edges of a pair leaves the count of any other edge. -/
theorem rowCount_erased_other (t t' : List AdjList) (i j : Nat) (a b x : DLEdge)
    (hr : ∀ k, t'.getD k [] = erasedRow t i j a b k) (ha : x ≠ a) (hb : x ≠ b) (k : Nat) :
    rowCount t' k x = rowCount t k x := by
  unfold rowCount
  rw [hr k, count_erasedRow]
  simp [ha, hb]

/-- Erasing the two edges of a pair takes the first of them out of a table
that holds it once, in its row, or not at all. -/
theorem nowhere_erased_fst (t t' : List AdjList) (i j : Nat) (a b : DLEdge)
    (hr : ∀ k, t'.getD k [] = erasedRow t i j a b k) (h : OnceAt t i a ∨ Nowhere t a) :
    Nowhere t' a := by
  intro k
  unfold rowCount
  rw [hr k, count_erasedRow]
  rcases h with h | h
  · have := h k
    unfold rowCount at this
    rw [this]
    by_cases hk : k = i
    · simp [hk]
    · simp [hk]
  · have := h k
    unfold rowCount at this
    rw [this]
    simp

/-- Erasing the two edges of a pair takes the second of them out of a table
that holds it once, in its row, or not at all. -/
theorem nowhere_erased_snd (t t' : List AdjList) (i j : Nat) (a b : DLEdge)
    (hr : ∀ k, t'.getD k [] = erasedRow t i j a b k) (h : OnceAt t j b ∨ Nowhere t b) :
    Nowhere t' b := by
  intro k
  unfold rowCount
  rw [hr k, count_erasedRow]
  rcases h with h | h
  · have := h k
    unfold rowCount at this
    rw [this]
    by_cases hk : k = j
    · simp [hk]
    · simp [hk]
  · have := h k
    unfold rowCount at this
    rw [this]
    simp

/-- Appending the two edges of a pair leaves the count of any other edge. -/
theorem rowCount_appended_other (t t' : List AdjList) (i j : Nat) (a b x : DLEdge)
    (hr : ∀ k, t'.getD k [] = appendedRow t i j a b k) (ha : x ≠ a) (hb : x ≠ b) (k : Nat) :
    rowCount t' k x = rowCount t k x := by
  unfold rowCount
  rw [hr k, count_appendedRow]
  simp [ha, hb]

/-- Appending the two edges of a pair puts the first of them once into a table
that did not hold it. -/
theorem onceAt_appended_fst (t t' : List AdjList) (i j : Nat) (a b : DLEdge) (hab : a ≠ b)
    (hr : ∀ k, t'.getD k [] = appendedRow t i j a b k) (h : Nowhere t a) :
    OnceAt t' i a := by
  intro k
  unfold rowCount
  rw [hr k, count_appendedRow]
  have := h k
  unfold rowCount at this
  rw [this]
  simp [hab]

/-- Appending the two edges of a pair puts the second of them once into a
table that did not hold it. -/
theorem onceAt_appended_snd (t t' : List AdjList) (i j : Nat) (a b : DLEdge) (hab : a ≠ b)
    (hr : ∀ k, t'.getD k [] = appendedRow t i j a b k) (h : Nowhere t b) :
    OnceAt t' j b := by
  intro k
  unfold rowCount
  rw [hr k, count_appendedRow]
  have := h k
  unfold rowCount at this
  rw [this]
  have hba : b ≠ a := fun hc => hab hc.symm
  simp [hba]

/-! ## The invariant of the inactive views -/

/-- The edges of the pairs of two different atoms are different. -/
theorem other_edges (m : List (Enode × DLComplEdges)) (hids : EdgeIdsOk m) (a c : Enode)
    (q p : DLComplEdges) (hq : findEdges m a = some q) (hp : findEdges m c = some p)
    (hac : a ≠ c) :
    q.pos ≠ p.pos ∧ q.pos ≠ p.neg ∧ q.neg ≠ p.pos ∧ q.neg ≠ p.neg := by
  obtain ⟨q1, q2, -⟩ := pair_facts m hids a q hq
  obtain ⟨p1, p2, -⟩ := pair_facts m hids c p hp
  refine ⟨fun h => hac ?_, fun h => hac ?_, fun h => hac ?_, fun h => hac ?_⟩
  · rw [← q1, ← p1, h]
  · rw [← q1, ← p2, h]
  · rw [← q2, ← p1, h]
  · rw [← q2, ← p2, h]

/-- A pair whose edges have the same counts in the rows of the inactive views
of two states is present in both or in none, and absent in both or in none. -/
theorem hstate_of_counts (g g' : DLGraph) (q : DLComplEdges)
    (h1 : ∀ k, rowCount g'.hAdj k q.pos = rowCount g.hAdj k q.pos)
    (h2 : ∀ k, rowCount g'.hAdjInc k q.pos = rowCount g.hAdjInc k q.pos)
    (h3 : ∀ k, rowCount g'.hAdj k q.neg = rowCount g.hAdj k q.neg)
    (h4 : ∀ k, rowCount g'.hAdjInc k q.neg = rowCount g.hAdjInc k q.neg) :
    (HPresent g q → HPresent g' q) ∧ (HAbsent g q → HAbsent g' q) := by
  constructor
  · rintro ⟨a1, a2, a3, a4⟩
    exact ⟨fun k => (h1 k).trans (a1 k), fun k => (h2 k).trans (a2 k),
      fun k => (h3 k).trans (a3 k), fun k => (h4 k).trans (a4 k)⟩
  · rintro ⟨a1, a2, a3, a4⟩
    exact ⟨fun k => (h1 k).trans (a1 k), fun k => (h2 k).trans (a2 k),
      fun k => (h3 k).trans (a3 k), fun k => (h4 k).trans (a4 k)⟩

theorem mem_erasedRow (t : List AdjList) (i j : Nat) (a b x : DLEdge) (k : Nat)
    (h : x ∈ erasedRow t i j a b k) : x ∈ t.getD k [] := by
  unfold erasedRow deleteFromAdjList at h
  simp only at h
  split at h
  · split at h
    · exact List.mem_of_mem_erase (List.mem_of_mem_erase h)
    · exact List.mem_of_mem_erase h
  · split at h
    · exact List.mem_of_mem_erase h
    · exact h

theorem mem_appendedRow (t : List AdjList) (i j : Nat) (a b x : DLEdge) (k : Nat)
    (h : x ∈ appendedRow t i j a b k) : x ∈ t.getD k [] ∨ x = a ∨ x = b := by
  unfold appendedRow at h
  simp only at h
  split at h
  · split at h
    · simp only [List.mem_append, List.mem_singleton] at h
      rcases h with (h | h) | h
      · exact Or.inl h
      · exact Or.inr (Or.inl h)
      · exact Or.inr (Or.inr h)
    · simp only [List.mem_append, List.mem_singleton] at h
      rcases h with h | h
      · exact Or.inl h
      · exact Or.inr (Or.inr h)
  · split at h
    · simp only [List.mem_append, List.mem_singleton] at h
      rcases h with h | h
      · exact Or.inl h
      · exact Or.inr (Or.inl h)
    · exact Or.inl h

/-- Taking the pair of an atom out of the inactive views keeps their invariant,
for a trail that has gained at most this atom. -/
theorem InactiveInv.erase_step {st st' : List (Enode × lbool)} {g g' : DLGraph}
    (h : InactiveInv st g) (hids : EdgeIdsOk g.edgeMap) (c : Enode) (p : DLComplEdges)
    (hp : findEdges g.edgeMap c = some p) (e1 : g'.edgeMap = g.edgeMap)
    (r1 : ∀ k, g'.hAdj.getD k [] = erasedRow g.hAdj p.pos.u p.neg.u p.pos p.neg k)
    (r2 : ∀ k, g'.hAdjInc.getD k [] = erasedRow g.hAdjInc p.pos.v p.neg.v p.pos p.neg k)
    (hst : ∀ a, a ∈ st'.map Prod.fst → a = c ∨ a ∈ st.map Prod.fst) :
    InactiveInv st' g' := by
  have habs : HAbsent g' p := by
    have hs := h.state c p hp
    refine ⟨nowhere_erased_fst _ _ _ _ _ _ r1 ?_, nowhere_erased_fst _ _ _ _ _ _ r2 ?_,
      nowhere_erased_snd _ _ _ _ _ _ r1 ?_, nowhere_erased_snd _ _ _ _ _ _ r2 ?_⟩
    · rcases hs with hs | hs
      · exact Or.inl hs.1
      · exact Or.inr hs.1
    · rcases hs with hs | hs
      · exact Or.inl hs.2.1
      · exact Or.inr hs.2.1
    · rcases hs with hs | hs
      · exact Or.inl hs.2.2.1
      · exact Or.inr hs.2.2.1
    · rcases hs with hs | hs
      · exact Or.inl hs.2.2.2
      · exact Or.inr hs.2.2.2
  have hother : ∀ a q, findEdges g.edgeMap a = some q → a ≠ c →
      (HPresent g q → HPresent g' q) ∧ (HAbsent g q → HAbsent g' q) := by
    intro a q hq hac
    obtain ⟨n1, n2, n3, n4⟩ := other_edges _ hids a c q p hq hp hac
    exact hstate_of_counts g g' q
      (rowCount_erased_other _ _ _ _ _ _ _ r1 n1 n2)
      (rowCount_erased_other _ _ _ _ _ _ _ r2 n1 n2)
      (rowCount_erased_other _ _ _ _ _ _ _ r1 n3 n4)
      (rowCount_erased_other _ _ _ _ _ _ _ r2 n3 n4)
  constructor
  · intro i x hx
    rw [e1]
    rcases hx with hx | hx
    · rw [r1 i] at hx
      exact h.known i x (Or.inl (mem_erasedRow _ _ _ _ _ _ _ hx))
    · rw [r2 i] at hx
      exact h.known i x (Or.inr (mem_erasedRow _ _ _ _ _ _ _ hx))
  · intro a q hq
    rw [e1] at hq
    by_cases hac : a = c
    · subst hac
      rw [hp] at hq
      cases hq
      exact Or.inr habs
    · rcases h.state a q hq with hs | hs
      · exact Or.inl ((hother a q hq hac).1 hs)
      · exact Or.inr ((hother a q hq hac).2 hs)
  · intro a q hq ha
    rw [e1] at hq
    by_cases hac : a = c
    · subst hac
      rw [hp] at hq
      cases hq
      exact habs
    · rcases hst a ha with hc | hin
      · exact absurd hc hac
      · exact (hother a q hq hac).2 (h.active a q hq hin)

/-- Putting the pair of the retracted atom back into the inactive views keeps
their invariant, for the trail without this atom. -/
theorem InactiveInv.append_step {st st' : List (Enode × lbool)} {g g' : DLGraph}
    (h : InactiveInv st g) (hids : EdgeIdsOk g.edgeMap) (c : Enode) (p : DLComplEdges)
    (hp : findEdges g.edgeMap c = some p) (e1 : g'.edgeMap = g.edgeMap)
    (r1 : ∀ k, g'.hAdj.getD k [] = appendedRow g.hAdj p.pos.u p.neg.u p.pos p.neg k)
    (r2 : ∀ k, g'.hAdjInc.getD k [] = appendedRow g.hAdjInc p.pos.v p.neg.v p.pos p.neg k)
    (hc : c ∈ st.map Prod.fst) (hc' : c ∉ st'.map Prod.fst)
    (hst : ∀ a, a ∈ st'.map Prod.fst → a ∈ st.map Prod.fst) :
    InactiveInv st' g' := by
  obtain ⟨pc1, pc2, hne⟩ := pair_facts _ hids c p hp
  have hpres : HPresent g' p := by
    obtain ⟨a1, a2, a3, a4⟩ := h.active c p hp hc
    exact ⟨onceAt_appended_fst _ _ _ _ _ _ hne r1 a1, onceAt_appended_fst _ _ _ _ _ _ hne r2 a2,
      onceAt_appended_snd _ _ _ _ _ _ hne r1 a3, onceAt_appended_snd _ _ _ _ _ _ hne r2 a4⟩
  have hother : ∀ a q, findEdges g.edgeMap a = some q → a ≠ c →
      (HPresent g q → HPresent g' q) ∧ (HAbsent g q → HAbsent g' q) := by
    intro a q hq hac
    obtain ⟨n1, n2, n3, n4⟩ := other_edges _ hids a c q p hq hp hac
    exact hstate_of_counts g g' q
      (rowCount_appended_other _ _ _ _ _ _ _ r1 n1 n2)
      (rowCount_appended_other _ _ _ _ _ _ _ r2 n1 n2)
      (rowCount_appended_other _ _ _ _ _ _ _ r1 n3 n4)
      (rowCount_appended_other _ _ _ _ _ _ _ r2 n3 n4)
  have hknown : ∀ x : DLEdge, x = p.pos ∨ x = p.neg → findEdges g.edgeMap x.c ≠ none := by
    intro x hx
    rcases hx with hx | hx
    · rw [hx, pc1, hp]
      exact fun hh => by cases hh
    · rw [hx, pc2, hp]
      exact fun hh => by cases hh
  constructor
  · intro i x hx
    rw [e1]
    rcases hx with hx | hx
    · rw [r1 i] at hx
      rcases mem_appendedRow _ _ _ _ _ _ _ hx with hx | hx
      · exact h.known i x (Or.inl hx)
      · exact hknown x hx
    · rw [r2 i] at hx
      rcases mem_appendedRow _ _ _ _ _ _ _ hx with hx | hx
      · exact h.known i x (Or.inr hx)
      · exact hknown x hx
  · intro a q hq
    rw [e1] at hq
    by_cases hac : a = c
    · subst hac
      rw [hp] at hq
      cases hq
      exact Or.inl hpres
    · rcases h.state a q hq with hs | hs
      · exact Or.inl ((hother a q hq hac).1 hs)
      · exact Or.inr ((hother a q hq hac).2 hs)
  · intro a q hq ha
    rw [e1] at hq
    by_cases hac : a = c
    · subst hac
      exact absurd ha hc'
    · exact (hother a q hq hac).2 (h.active a q hq (hst a ha))

theorem rowCount_resize (t : List AdjList) (n : Nat) (h : t.length ≤ n) (k : Nat) (x : DLEdge) :
    rowCount (resize t n []) k x = rowCount t k x := by
  unfold rowCount
  rw [resize_getD t n h k]

theorem inactiveInv_empty : InactiveInv [] DLGraph.empty where
  known := by
    intro i x hx
    rcases hx with hx | hx <;> simp [DLGraph.empty] at hx
  state := by
    intro a p h
    cases h
  active := by
    intro a p h
    cases h

/-- The invariant of the inactive views reads the tables of the store only. -/
theorem InactiveInv.of_store {st : List (Enode × lbool)} {g g' : DLGraph}
    (h : InactiveInv st g) (hs : SameStore g g') : InactiveInv st g' where
  known := by rw [hs.hAdj, hs.hAdjInc, hs.edgeMap]; exact h.known
  state := by
    unfold HPresent HAbsent
    rw [hs.hAdj, hs.hAdjInc, hs.edgeMap]
    exact h.state
  active := by
    unfold HAbsent
    rw [hs.hAdj, hs.hAdjInc, hs.edgeMap]
    exact h.active

/-- The registration of a new atom, with theory propagation on, puts its pair
into the inactive views and keeps their invariant. -/
theorem InactiveInv.static_views {cfg : Config} {st : List (Enode × lbool)} {g g' : DLGraph}
    (h : InactiveInv st g) (hs : StoreInv st g) (hs' : StoreInv st g')
    (htp : cfg.dlconfig.theory_propagation > 0) (A : AtomStore) (c : Enode)
    (hn : findEdges g.edgeMap c = none) (hi : insertStatic cfg A g c = some g') :
    InactiveInv st g' := by
  obtain ⟨p, l, g1, -, -, e1, e0, c1, c2, -, -, -, -, -, -, -, -, -, r1, r2⟩ :=
    insertStatic_store cfg A g g' c hn hi
  simp only [if_pos htp] at r1 r2
  have hlen : g.vertexMap.length ≤ g'.vertexMap.length := by
    rw [e0, List.length_append]
    omega
  have hl1 : g.hAdj.length ≤ g'.vertexMap.length := by rw [hs.len_h]; exact hlen
  have hl2 : g.hAdjInc.length ≤ g'.vertexMap.length := by rw [hs.len_hi]; exact hlen
  have hp' : findEdges g'.edgeMap c = some p := by
    rw [e1, findEdges_append_of_none _ _ _ hn, findEdges_singleton]
  obtain ⟨-, -, hne⟩ := pair_facts _ hs'.ids c p hp'
  -- the new edges are in no row of the old views
  have hnew : ∀ x : DLEdge, x.c = c → Nowhere (resize g.hAdj g'.vertexMap.length []) x ∧
      Nowhere (resize g.hAdjInc g'.vertexMap.length []) x := by
    intro x hx
    constructor
    · intro k
      rw [rowCount_resize _ _ hl1]
      unfold rowCount
      rw [List.count_eq_zero]
      intro hmem
      exact h.known k x (Or.inl hmem) (by rw [hx]; exact hn)
    · intro k
      rw [rowCount_resize _ _ hl2]
      unfold rowCount
      rw [List.count_eq_zero]
      intro hmem
      exact h.known k x (Or.inr hmem) (by rw [hx]; exact hn)
  have hpres : HPresent g' p :=
    ⟨onceAt_appended_fst _ _ _ _ _ _ hne r1 (hnew p.pos c1).1,
      onceAt_appended_fst _ _ _ _ _ _ hne r2 (hnew p.pos c1).2,
      onceAt_appended_snd _ _ _ _ _ _ hne r1 (hnew p.neg c2).1,
      onceAt_appended_snd _ _ _ _ _ _ hne r2 (hnew p.neg c2).2⟩
  have hother : ∀ a q, findEdges g.edgeMap a = some q →
      (HPresent g q → HPresent g' q) ∧ (HAbsent g q → HAbsent g' q) := by
    intro a q hq
    have hac : a ≠ c := by
      intro hh
      rw [hh, hn] at hq
      cases hq
    have hq' : findEdges g'.edgeMap a = some q := by
      rw [e1]
      exact findEdges_append_of_some _ _ _ q hq
    obtain ⟨n1, n2, n3, n4⟩ := other_edges _ hs'.ids a c q p hq' hp' hac
    exact hstate_of_counts g g' q
      (fun k => (rowCount_appended_other _ _ _ _ _ _ _ r1 n1 n2 k).trans
        (rowCount_resize _ _ hl1 k _))
      (fun k => (rowCount_appended_other _ _ _ _ _ _ _ r2 n1 n2 k).trans
        (rowCount_resize _ _ hl2 k _))
      (fun k => (rowCount_appended_other _ _ _ _ _ _ _ r1 n3 n4 k).trans
        (rowCount_resize _ _ hl1 k _))
      (fun k => (rowCount_appended_other _ _ _ _ _ _ _ r2 n3 n4 k).trans
        (rowCount_resize _ _ hl2 k _))
  have hknown : ∀ x : DLEdge, x = p.pos ∨ x = p.neg → findEdges g'.edgeMap x.c ≠ none := by
    intro x hx
    rcases hx with hx | hx
    · rw [hx, c1, hp']
      exact fun hh => by cases hh
    · rw [hx, c2, hp']
      exact fun hh => by cases hh
  have hold : ∀ x : DLEdge, findEdges g.edgeMap x.c ≠ none →
      findEdges g'.edgeMap x.c ≠ none := by
    intro x hx
    cases hq : findEdges g.edgeMap x.c with
    | none => exact absurd hq hx
    | some q =>
      rw [e1, findEdges_append_of_some _ _ _ q hq]
      exact fun hh => by cases hh
  constructor
  · intro i x hx
    rcases hx with hx | hx
    · rw [r1 i] at hx
      rcases mem_appendedRow _ _ _ _ _ _ _ hx with hx | hx
      · rw [resize_getD _ _ hl1] at hx
        exact hold x (h.known i x (Or.inl hx))
      · exact hknown x hx
    · rw [r2 i] at hx
      rcases mem_appendedRow _ _ _ _ _ _ _ hx with hx | hx
      · rw [resize_getD _ _ hl2] at hx
        exact hold x (h.known i x (Or.inr hx))
      · exact hknown x hx
  · intro a q hq
    rw [e1] at hq
    rcases findEdges_append_single _ _ _ _ _ hn hq with ⟨-, rfl⟩ | ⟨-, hq'⟩
    · exact Or.inl hpres
    · rcases h.state a q hq' with hs | hs
      · exact Or.inl ((hother a q hq').1 hs)
      · exact Or.inr ((hother a q hq').2 hs)
  · intro a q hq ha
    rw [e1] at hq
    rcases findEdges_append_single _ _ _ _ _ hn hq with ⟨hac, -⟩ | ⟨-, hq'⟩
    · exfalso
      rw [List.mem_map] at ha
      obtain ⟨cp, hcp, hcpa⟩ := ha
      obtain ⟨q', hq'⟩ := hs.trail_known cp hcp
      rw [hcpa, hac, hn] at hq'
      cases hq'
    · exact (hother a q hq').2 (h.active a q hq' ha)

/-- With theory propagation on, the reached states have the invariant of the
inactive views. -/
theorem reach_inactiveInv (cfg : Config) (htp : cfg.dlconfig.theory_propagation > 0)
    (st : List (Enode × lbool)) (g : DLGraph) (hr : Reach cfg st g) : InactiveInv st g := by
  induction hr with
  | init => exact inactiveInv_empty
  | static A c hr hn hi ih =>
    have hs := reach_storeInv cfg _ _ hr
    exact ih.static_views hs (hs.static_step A c hn hi) htp A c hn hi
  | dynamic A c reason e hr hc hi ih =>
    have hs := reach_storeInv cfg _ _ hr
    obtain ⟨p, a, b, hp, -, -, -, e1, -, -, -, -, -, -, r1, r2⟩ :=
      insertDynamic_store cfg A _ _ c reason e hi
    simp only [if_pos htp] at r1 r2
    refine ih.erase_step hs.ids c p hp e1 r1 r2 ?_
    intro a ha
    simp only [List.map_cons, List.mem_cons] at ha
    exact ha
  | check A c reason fuel b hr hc hi ih =>
    have hs := reach_storeInv cfg _ _ hr
    obtain ⟨e, g1, hins, hst⟩ := checkNegCycle_store cfg A _ _ c reason fuel b hi
    obtain ⟨p, a, b, hp, -, -, -, e1, -, -, -, -, -, -, r1, r2⟩ :=
      insertDynamic_store cfg A _ _ c reason e hins
    simp only [if_pos htp] at r1 r2
    refine InactiveInv.of_store (ih.erase_step hs.ids c p hp e1 r1 r2 ?_) hst
    intro a ha
    simp only [List.map_cons, List.mem_cons] at ha
    exact ha
  | delete A c hr hi ih =>
    have hs := reach_storeInv cfg _ _ hr
    obtain ⟨-, -, -, -, hpol, -⟩ := deleteActive_spec cfg A _ _ c hi
    obtain ⟨p, -, g2, hp, -, -, -, hd, -, -, -, e1, -, r1, r2⟩ := hs.delete_step cfg A c hpol
    rw [hi] at hd
    cases hd
    simp only [if_pos htp] at r1 r2
    have hnd := hs.nodup
    simp only [List.map_cons, List.nodup_cons] at hnd
    refine ih.append_step hs.ids c p hp e1 r1 r2 ?_ hnd.1 ?_
    · simp
    · intro a ha
      simp only [List.map_cons, List.mem_cons]
      exact Or.inr ha
  | implied c hr hi ih =>
    have hs := reach_storeInv cfg _ _ hr
    unfold insertImplied at hi
    rw [if_pos htp] at hi
    obtain ⟨e1, -⟩ := deleteInactive_store _ _ c hi
    obtain ⟨p, hp, -, -, r1, r2, -⟩ := deleteInactive_rows _ _ c hi
    exact ih.erase_step hs.ids c p hp e1 r1 r2 (fun a ha => Or.inr ha)

/-! ## The trail and the active views -/

/-- The edge of a trail entry points back to the atom of the entry. -/
theorem trailEdge_atom (m : List (Enode × DLComplEdges)) (hids : EdgeIdsOk m)
    (cp : Enode × lbool) (x : DLEdge) (h : trailEdge m cp = some x) : x.c = cp.1 := by
  unfold trailEdge at h
  cases hq : findEdges m cp.1 with
  | none =>
    rw [hq] at h
    cases h
  | some q =>
    rw [hq] at h
    simp only [Option.map_some', Option.some.injEq] at h
    obtain ⟨q1, q2, -⟩ := pair_facts m hids cp.1 q hq
    rw [← h]
    split
    · exact q1
    · exact q2

/-- An edge of an atom that is not on the trail is not a trail edge. -/
theorem count_trail_absent (m : List (Enode × DLComplEdges)) (hids : EdgeIdsOk m) (a : Enode)
    (x : DLEdge) (hx : x.c = a) :
    ∀ st : List (Enode × lbool), a ∉ st.map Prod.fst →
      (st.map (trailEdge m)).count (some x) = 0 := by
  intro st hst
  rw [List.count_eq_zero]
  intro hmem
  rw [List.mem_map] at hmem
  obtain ⟨cp, hcp, hcpx⟩ := hmem
  have := trailEdge_atom m hids cp x hcpx
  apply hst
  rw [List.mem_map]
  exact ⟨cp, hcp, by rw [← this, hx]⟩

/-- The edge that a trail entry selects is a trail edge once, and the other
edge of its pair never. -/
theorem count_trail_present (m : List (Enode × DLComplEdges)) (hids : EdgeIdsOk m) (a : Enode)
    (p : DLComplEdges) (hp : findEdges m a = some p) (pol : lbool) :
    ∀ st : List (Enode × lbool), (st.map Prod.fst).Nodup → (a, pol) ∈ st →
      (st.map (trailEdge m)).count (some (if pol = lbool.l_True then p.pos else p.neg)) = 1 ∧
      (st.map (trailEdge m)).count (some (if pol = lbool.l_True then p.neg else p.pos)) = 0 := by
  obtain ⟨q1, q2, hne⟩ := pair_facts m hids a p hp
  have hsel : trailEdge m (a, pol) = some (if pol = lbool.l_True then p.pos else p.neg) := by
    unfold trailEdge
    rw [hp]
    rfl
  have hc1 : (if pol = lbool.l_True then p.pos else p.neg).c = a := by
    split
    · exact q1
    · exact q2
  have hc2 : (if pol = lbool.l_True then p.neg else p.pos).c = a := by
    split
    · exact q2
    · exact q1
  have hdiff : (if pol = lbool.l_True then p.pos else p.neg) ≠
      (if pol = lbool.l_True then p.neg else p.pos) := by
    split
    · exact hne
    · exact fun h => hne h.symm
  intro st
  induction st with
  | nil =>
    intro _ h
    cases h
  | cons cp rest ih =>
    intro hnd hmem
    simp only [List.map_cons, List.nodup_cons] at hnd
    obtain ⟨hnot, hnd'⟩ := hnd
    simp only [List.map_cons, List.count_cons]
    rcases List.mem_cons.mp hmem with hcp | hin
    · subst hcp
      rw [count_trail_absent m hids a _ hc1 rest hnot,
        count_trail_absent m hids a _ hc2 rest hnot, hsel]
      simp only [beq_self_eq_true, if_true, Nat.zero_add, true_and]
      rw [if_neg]
      simp only [beq_iff_eq, Option.some.injEq]
      exact hdiff
    · obtain ⟨i1, i2⟩ := ih hnd' hin
      have hne' : cp.1 ≠ a := by
        intro h
        apply hnot
        rw [h, List.mem_map]
        exact ⟨(a, pol), hin, rfl⟩
      have hno : ∀ x : DLEdge, x.c = a → ¬ (trailEdge m cp == some x) = true := by
        intro x hx h
        rw [beq_iff_eq] at h
        have := trailEdge_atom m hids cp x h
        exact hne' (by rw [← this, hx])
      rw [i1, i2, if_neg (hno _ hc1), if_neg (hno _ hc2)]
      exact ⟨rfl, rfl⟩

theorem count_map_some (l : List DLEdge) (x : DLEdge) :
    (l.map some).count (some x) = l.count x := by
  induction l with
  | nil => rfl
  | cons y rest ih =>
    simp only [List.map_cons, List.count_cons, ih]
    by_cases hy : y = x
    · subst hy
      simp
    · have : ¬ (some y == some x) = true := by
        rw [beq_iff_eq]
        exact fun h => hy (Option.some.inj h)
      simp [hy, this]

/-- The count of an edge in `dEdges` is its count among the trail edges. -/
theorem StoreInv.count_dEdges {st : List (Enode × lbool)} {g : DLGraph} (h : StoreInv st g)
    (x : DLEdge) : g.dEdges.count x = (st.map (trailEdge g.edgeMap)).count (some x) := by
  rw [← count_map_some g.dEdges x, ← h.edges, List.map_reverse, List.count_reverse]

/-- The count of an edge in a row of `dAdj`. -/
theorem StoreInv.rowCount_dAdj {st : List (Enode × lbool)} {g : DLGraph} (h : StoreInv st g)
    (x : DLEdge) (k : Nat) :
    rowCount g.dAdj k x = if k = x.u then g.dEdges.count x else 0 := by
  unfold rowCount
  by_cases hk : k < g.dAdj.length
  · have hrow := h.rows k hk
    rw [getElem?_eq_some_getD _ _ hk] at hrow
    rw [Option.some.inj hrow]
    by_cases hxu : k = x.u
    · rw [if_pos hxu, List.count_filter]
      simp [hxu]
    · rw [if_neg hxu, List.count_eq_zero, List.mem_filter]
      rintro ⟨-, hd⟩
      simp only [decide_eq_true_eq] at hd
      exact hxu hd.symm
  · rw [getD_of_length_le _ _ (Nat.le_of_not_lt hk), List.count_nil]
    split
    · rename_i hxu
      symm
      rw [List.count_eq_zero]
      intro hmem
      have := (h.dbound x hmem).1
      rw [h.len_d] at hk
      omega
    · rfl

/-- The count of an edge in a row of `dAdjInc`. -/
theorem StoreInv.rowCount_dAdjInc {st : List (Enode × lbool)} {g : DLGraph}
    (h : StoreInv st g) (x : DLEdge) (k : Nat) :
    rowCount g.dAdjInc k x = if k = x.v then g.dEdges.count x else 0 := by
  unfold rowCount
  by_cases hk : k < g.dAdjInc.length
  · have hrow := h.rows_in k hk
    rw [getElem?_eq_some_getD _ _ hk] at hrow
    rw [Option.some.inj hrow]
    by_cases hxu : k = x.v
    · rw [if_pos hxu, List.count_filter]
      simp [hxu]
    · rw [if_neg hxu, List.count_eq_zero, List.mem_filter]
      rintro ⟨-, hd⟩
      simp only [decide_eq_true_eq] at hd
      exact hxu hd.symm
  · rw [getD_of_length_le _ _ (Nat.le_of_not_lt hk), List.count_nil]
    split
    · rename_i hxu
      symm
      rw [List.count_eq_zero]
      intro hmem
      have := (h.dbound x hmem).2
      rw [h.len_di] at hk
      omega
    · rfl

/-! ## The LIFO discipline and the three states of an atom -/

/-- C12: LIFO deactivation.  In every state that the operations reach under the
LIFO discipline, with the atom `c` on top of the trail and still with its
polarity, the edge `e` of `c` that the polarity selects is the last element of
`dAdj[ e.u ]`, of `dAdjInc[ e.v ]` and of `dEdges` (the assertions `d == e` and
`i == d` hold), it occurs nowhere else in these lists, and `deleteActive( c )`
succeeds, removes exactly these last elements and leaves a state reached with
the rest of the trail. -/
theorem deleteActive_lifo (cfg : Config) (A : AtomStore) (st : List (Enode × lbool))
    (g : DLGraph) (c : Enode) (hr : Reach cfg ((c, getPolarity A c) :: st) g)
    (hpol : hasPolarity A c = true) :
    ∃ p du dv de g', findEdges g.edgeMap c = some p ∧
      g.dAdj[(selectEdge A c p).u]? = some (du ++ [selectEdge A c p]) ∧
      g.dAdjInc[(selectEdge A c p).v]? = some (dv ++ [selectEdge A c p]) ∧
      g.dEdges = de ++ [selectEdge A c p] ∧
      selectEdge A c p ∉ du ∧ selectEdge A c p ∉ dv ∧ selectEdge A c p ∉ de ∧
      deleteActive cfg A g c = some g' ∧
      g'.dAdj = g.dAdj.set (selectEdge A c p).u du ∧
      g'.dAdjInc = g.dAdjInc.set (selectEdge A c p).v dv ∧
      g'.dEdges = de ∧ Reach cfg st g' := by
  have hs := reach_storeInv cfg _ _ hr
  obtain ⟨p, de, g', hp, hde, ra, rb, hd, k1, k2, k3, -, -, -, -⟩ := hs.delete_step cfg A c hpol
  have hcnt := hs.count_dEdges (selectEdge A c p)
  have hone := (count_trail_present g.edgeMap hs.ids c p hp (getPolarity A c) _ hs.nodup
    (List.mem_cons_self _ _)).1
  have hsel : (if getPolarity A c = lbool.l_True then p.pos else p.neg) = selectEdge A c p := rfl
  rw [hsel] at hone
  rw [hone, hde, List.count_append, List.count_singleton, beq_self_eq_true, if_pos rfl] at hcnt
  have hnot : selectEdge A c p ∉ de := by
    rw [← List.count_eq_zero]
    omega
  refine ⟨p, _, _, de, g', hp, ra, rb, hde, ?_, ?_, hnot, hd, k1, k2, k3, Reach.delete A c hr hd⟩
  · exact fun h => hnot (List.mem_of_mem_filter h)
  · exact fun h => hnot (List.mem_of_mem_filter h)

theorem deleteActive_lifo_witness :
    Reach exCfg [(exAtom1, getPolarity exAllTrue exAtom1)] exActive1 ∧
    hasPolarity exAllTrue exAtom1 = true ∧
    ∃ p du dv de g', findEdges exActive1.edgeMap exAtom1 = some p ∧
      exActive1.dAdj[(selectEdge exAllTrue exAtom1 p).u]? =
        some (du ++ [selectEdge exAllTrue exAtom1 p]) ∧
      exActive1.dAdjInc[(selectEdge exAllTrue exAtom1 p).v]? =
        some (dv ++ [selectEdge exAllTrue exAtom1 p]) ∧
      exActive1.dEdges = de ++ [selectEdge exAllTrue exAtom1 p] ∧
      selectEdge exAllTrue exAtom1 p ∉ du ∧ selectEdge exAllTrue exAtom1 p ∉ dv ∧
      selectEdge exAllTrue exAtom1 p ∉ de ∧
      deleteActive exCfg exAllTrue exActive1 exAtom1 = some g' ∧
      g'.dAdj = exActive1.dAdj.set (selectEdge exAllTrue exAtom1 p).u du ∧
      g'.dAdjInc = exActive1.dAdjInc.set (selectEdge exAllTrue exAtom1 p).v dv ∧
      g'.dEdges = de ∧ Reach exCfg [] g' :=
  have hr : Reach exCfg [(exAtom1, getPolarity exAllTrue exAtom1)] exActive1 :=
    Reach.dynamic exAllTrue exAtom1 false ⟨exAtom1, 0, 0, 1, 3⟩
      (Reach.static exNoPol exAtom1 Reach.init rfl (by rfl : _ = some exGraph1))
      (by decide) (by rfl)
  ⟨hr, rfl, deleteActive_lifo exCfg exAllTrue [] exActive1 exAtom1 hr rfl⟩

/-- A pair cannot be present in the inactive views and absent from them. -/
theorem hpresent_not_habsent (g : DLGraph) (p : DLComplEdges) (h1 : HPresent g p)
    (h2 : HAbsent g p) : False := by
  have a := h1.1 p.pos.u
  have b := h2.1 p.pos.u
  rw [if_pos rfl] at a
  omega

/-- An edge cannot be present in the active views and absent from them. -/
theorem dpresent_not_nowhere (g : DLGraph) (e e' : DLEdge) (h1 : DPresent g e e')
    (h2 : Nowhere g.dAdj e) : False := by
  have a := h1.1 e.u
  have b := h2 e.u
  rw [if_pos rfl] at a
  omega

/-- The active views hold the selected edge of a trail entry once, in its rows,
and the other edge of the pair not at all. -/
theorem StoreInv.dpresent {st : List (Enode × lbool)} {g : DLGraph} (h : StoreInv st g)
    (a : Enode) (p : DLComplEdges) (hp : findEdges g.edgeMap a = some p) (pol : lbool)
    (hmem : (a, pol) ∈ st) :
    DPresent g (if pol = lbool.l_True then p.pos else p.neg)
      (if pol = lbool.l_True then p.neg else p.pos) := by
  obtain ⟨c1, c0⟩ := count_trail_present g.edgeMap h.ids a p hp pol st h.nodup hmem
  rw [← h.count_dEdges] at c1 c0
  refine ⟨fun k => ?_, fun k => ?_, fun k => ?_, fun k => ?_⟩
  · rw [h.rowCount_dAdj, c1]
  · rw [h.rowCount_dAdjInc, c1]
  · rw [h.rowCount_dAdj, c0, ite_self]
  · rw [h.rowCount_dAdjInc, c0, ite_self]

/-- The active views hold no edge of an atom that is not on the trail. -/
theorem StoreInv.dabsent {st : List (Enode × lbool)} {g : DLGraph} (h : StoreInv st g)
    (a : Enode) (p : DLComplEdges) (hp : findEdges g.edgeMap a = some p)
    (hmem : a ∉ st.map Prod.fst) : DAbsent g p := by
  obtain ⟨q1, q2, -⟩ := pair_facts _ h.ids a p hp
  have c1 := count_trail_absent g.edgeMap h.ids a p.pos q1 st hmem
  have c2 := count_trail_absent g.edgeMap h.ids a p.neg q2 st hmem
  rw [← h.count_dEdges] at c1 c2
  refine ⟨fun k => ?_, fun k => ?_, fun k => ?_, fun k => ?_⟩
  · rw [h.rowCount_dAdj, c1, ite_self]
  · rw [h.rowCount_dAdjInc, c1, ite_self]
  · rw [h.rowCount_dAdj, c2, ite_self]
  · rw [h.rowCount_dAdjInc, c2, ite_self]

/-- C15: exclusive atom state.  With theory propagation on, in every state that
`insertStatic` (once per atom), `insertDynamic` or `checkNegCycle` (of an atom
that is not active), `deleteActive` (under the LIFO discipline) and
`insertImplied` reach from the empty graph, every atom with a pair is in
exactly one of three states: inactive (both edges once in `hAdj` and `hAdjInc`,
none in `dAdj` and `dAdjInc`), active (one edge once in `dAdj` and `dAdjInc`,
the other not, none in `hAdj` and `hAdjInc`) or implied (its edges in neither);
and it is active exactly when it is on the trail. -/
theorem exclusive_atom_state (cfg : Config) (htp : cfg.dlconfig.theory_propagation > 0)
    (st : List (Enode × lbool)) (g : DLGraph) (hr : Reach cfg st g) (a : Enode)
    (p : DLComplEdges) (hp : findEdges g.edgeMap a = some p) :
    ((AtomInactive g p ∧ ¬ AtomActive g p ∧ ¬ AtomImplied g p) ∨
      (¬ AtomInactive g p ∧ AtomActive g p ∧ ¬ AtomImplied g p) ∨
      (¬ AtomInactive g p ∧ ¬ AtomActive g p ∧ AtomImplied g p)) ∧
    (AtomActive g p ↔ a ∈ st.map Prod.fst) := by
  have hs := reach_storeInv cfg st g hr
  have hi := reach_inactiveInv cfg htp st g hr
  by_cases hmem : a ∈ st.map Prod.fst
  · have habs := hi.active a p hp hmem
    rw [List.mem_map] at hmem
    obtain ⟨⟨a', pol⟩, hcp, ha'⟩ := hmem
    simp only at ha'
    subst ha'
    have hd := hs.dpresent a' p hp pol hcp
    have hact : AtomActive g p := by
      refine ⟨habs, ?_⟩
      by_cases hpol : pol = lbool.l_True
      · rw [if_pos hpol, if_pos hpol] at hd
        exact Or.inl hd
      · rw [if_neg hpol, if_neg hpol] at hd
        exact Or.inr hd
    have hnd : ¬ DAbsent g p := by
      intro hda
      by_cases hpol : pol = lbool.l_True
      · rw [if_pos hpol, if_pos hpol] at hd
        exact dpresent_not_nowhere g _ _ hd hda.1
      · rw [if_neg hpol, if_neg hpol] at hd
        exact dpresent_not_nowhere g _ _ hd hda.2.2.1
    refine ⟨Or.inr (Or.inl ⟨fun h => hpresent_not_habsent g p h.1 habs, hact,
      fun h => hnd h.2⟩), fun _ => ?_, fun _ => hact⟩
    rw [List.mem_map]
    exact ⟨(a', pol), hcp, rfl⟩
  · have hda := hs.dabsent a p hp hmem
    have hna : ¬ AtomActive g p := by
      rintro ⟨-, hd | hd⟩
      · exact dpresent_not_nowhere g _ _ hd hda.1
      · exact dpresent_not_nowhere g _ _ hd hda.2.2.1
    refine ⟨?_, fun h => absurd h hna, fun h => absurd h hmem⟩
    rcases hi.state a p hp with hh | hh
    · exact Or.inl ⟨⟨hh, hda⟩, hna, fun h => hpresent_not_habsent g p hh h.1⟩
    · exact Or.inr (Or.inr ⟨fun h => hpresent_not_habsent g p h.1 hh, hna, ⟨hh, hda⟩⟩)

theorem exclusive_atom_state_witness :
    exCfg.dlconfig.theory_propagation > 0 ∧
    Reach exCfg [(exAtom1, getPolarity exAllTrue exAtom1)] exActive1 ∧
    findEdges exActive1.edgeMap exAtom1 =
      some ⟨⟨exAtom1, 0, 0, 1, 3⟩, ⟨exAtom1, 1, 1, 0, -4⟩⟩ ∧
    ((AtomInactive exActive1 ⟨⟨exAtom1, 0, 0, 1, 3⟩, ⟨exAtom1, 1, 1, 0, -4⟩⟩ ∧
        ¬ AtomActive exActive1 ⟨⟨exAtom1, 0, 0, 1, 3⟩, ⟨exAtom1, 1, 1, 0, -4⟩⟩ ∧
        ¬ AtomImplied exActive1 ⟨⟨exAtom1, 0, 0, 1, 3⟩, ⟨exAtom1, 1, 1, 0, -4⟩⟩) ∨
      (¬ AtomInactive exActive1 ⟨⟨exAtom1, 0, 0, 1, 3⟩, ⟨exAtom1, 1, 1, 0, -4⟩⟩ ∧
        AtomActive exActive1 ⟨⟨exAtom1, 0, 0, 1, 3⟩, ⟨exAtom1, 1, 1, 0, -4⟩⟩ ∧
        ¬ AtomImplied exActive1 ⟨⟨exAtom1, 0, 0, 1, 3⟩, ⟨exAtom1, 1, 1, 0, -4⟩⟩) ∨
      (¬ AtomInactive exActive1 ⟨⟨exAtom1, 0, 0, 1, 3⟩, ⟨exAtom1, 1, 1, 0, -4⟩⟩ ∧
        ¬ AtomActive exActive1 ⟨⟨exAtom1, 0, 0, 1, 3⟩, ⟨exAtom1, 1, 1, 0, -4⟩⟩ ∧
        AtomImplied exActive1 ⟨⟨exAtom1, 0, 0, 1, 3⟩, ⟨exAtom1, 1, 1, 0, -4⟩⟩)) ∧
    (AtomActive exActive1 ⟨⟨exAtom1, 0, 0, 1, 3⟩, ⟨exAtom1, 1, 1, 0, -4⟩⟩ ↔
      exAtom1 ∈ [(exAtom1, getPolarity exAllTrue exAtom1)].map Prod.fst) :=
  have hr : Reach exCfg [(exAtom1, getPolarity exAllTrue exAtom1)] exActive1 :=
    Reach.dynamic exAllTrue exAtom1 false ⟨exAtom1, 0, 0, 1, 3⟩
      (Reach.static exNoPol exAtom1 Reach.init rfl (by rfl : _ = some exGraph1))
      (by decide) (by rfl)
  ⟨by decide, hr, by decide,
    exclusive_atom_state exCfg (by decide) _ exActive1 hr exAtom1 _ (by decide)⟩

/-! ## Chains of conflict edges -/

theorem Chain.frame {ce ce' : List (Option DLEdge)} {dAdj : List AdjList}
    {prime prime' : Nat → Bool} {u : Nat}
    (hce : ∀ y, prime y = true → ce'[y]? = ce[y]?)
    (hpr : ∀ y, prime y = true → prime' y = true) :
    ∀ (es : List DLEdge) (x : Nat), Chain ce dAdj prime u x es → Chain ce' dAdj prime' u x es := by
  intro es
  induction es with
  | nil =>
    intro x h
    exact h
  | cons ed rest ih =>
    intro x h
    obtain ⟨h1, h2, h3, h4, h5⟩ := h
    refine ⟨by rw [hce x h3]; exact h1, h2, hpr x h3, h4, ?_⟩
    split
    · rename_i hu
      rw [if_pos hu] at h5
      exact h5
    · rename_i hu
      rw [if_neg hu] at h5
      exact ih _ h5

theorem Chain.walk {ce : List (Option DLEdge)} {dAdj : List AdjList} {prime : Nat → Bool}
    {u : Nat} : ∀ (es : List DLEdge) (x : Nat), Chain ce dAdj prime u x es →
      conflictWalk ce u es.length x = some es := by
  intro es
  induction es with
  | nil =>
    intro x h
    exact absurd h (by simp [Chain])
  | cons ed rest ih =>
    intro x h
    obtain ⟨h1, -, -, -, h5⟩ := h
    simp only [List.length_cons, conflictWalk, h1]
    split
    · rename_i hu
      rw [if_pos hu] at h5
      rw [h5]
    · rename_i hu
      rw [if_neg hu] at h5
      rw [ih _ h5]
      rfl

theorem isWalk_concat (l : List DLEdge) (ed : DLEdge) :
    ∀ a, IsWalk l a ed.u → IsWalk (l ++ [ed]) a ed.v := by
  induction l with
  | nil =>
    intro a h
    have : a = ed.u := h
    exact ⟨this.symm, rfl⟩
  | cons y rest ih =>
    intro a h
    exact ⟨h.1, ih _ h.2⟩

theorem Chain.isWalk {ce : List (Option DLEdge)} {dAdj : List AdjList} {prime : Nat → Bool}
    {u : Nat} : ∀ (es : List DLEdge) (x : Nat), Chain ce dAdj prime u x es →
      IsWalk es.reverse u x := by
  intro es
  induction es with
  | nil =>
    intro x h
    exact absurd h (by simp [Chain])
  | cons ed rest ih =>
    intro x h
    obtain ⟨-, h2, -, -, h5⟩ := h
    rw [List.reverse_cons, ← h2]
    apply isWalk_concat
    by_cases hu : ed.u = u
    · rw [if_pos hu] at h5
      rw [h5]
      exact hu.symm
    · rw [if_neg hu] at h5
      exact ih _ h5

theorem Chain.active {ce : List (Option DLEdge)} {dAdj : List AdjList} {prime : Nat → Bool}
    {u : Nat} : ∀ (es : List DLEdge) (x : Nat), Chain ce dAdj prime u x es →
      ∀ d ∈ es, d ∈ dAdj.getD d.u [] := by
  intro es
  induction es with
  | nil =>
    intro x _ d hd
    cases hd
  | cons ed rest ih =>
    intro x h d hd
    obtain ⟨-, -, -, h4, h5⟩ := h
    rcases List.mem_cons.mp hd with hd | hd
    · rw [hd]
      exact h4
    · by_cases hu : ed.u = u
      · rw [if_pos hu] at h5
        rw [h5] at hd
        cases hd
      · rw [if_neg hu] at h5
        exact ih _ h5 d hd

theorem Chain.ne_nil {ce : List (Option DLEdge)} {dAdj : List AdjList} {prime : Nat → Bool}
    {u x : Nat} {es : List DLEdge} (h : Chain ce dAdj prime u x es) : es ≠ [] := by
  intro hn
  rw [hn] at h
  exact h

theorem modifyAt_getElem? {α : Type} (l l' : List α) (i : Nat) (f : α → α)
    (h : modifyAt l i f = some l') (y : Nat) :
    l'[y]? = if y = i then (l[i]?).map f else l[y]? := by
  obtain ⟨a, ha, rfl⟩ := modifyAt_eq_some l l' i f h
  by_cases hy : y = i
  · rw [if_pos hy, hy, ha, getElem?_set_self_of_some l i a (f a) ha]
    rfl
  · rw [if_neg hy, List.getElem?_set_ne (Ne.symm hy)]

theorem mem_getD_row (d : List AdjList) (i : Nat) (x : DLEdge) (h : x ∈ d.getD i []) :
    ∃ l, d[i]? = some l ∧ x ∈ l := by
  rw [List.getD_eq_getElem?_getD] at h
  cases hr : d[i]? with
  | none =>
    rw [hr] at h
    simp at h
  | some l =>
    rw [hr] at h
    exact ⟨l, rfl, h⟩

/-! ## The invariant of the conflict edges on views -/

/-- The refresh of lines 536-540 keeps the invariant of the conflict edges. -/
theorem WalkInv.walk_refresh {pi0 : Nat → Int} {e : DLEdge} {v : RepairView}
    {ce : List (Option DLEdge)} (h : WalkInv pi0 e v ce) (t : Nat) (hr : v.read t = false) :
    WalkInv pi0 e
      { v with gamma := Function.update v.gamma t 0, read := Function.update v.read t true }
      ce := by
  have hne : ∀ y ∈ v.heap, y ≠ t := by
    intro y hy hyt
    have := (h.heap_ok y hy).2.1
    rw [hyt, hr] at this
    cases this
  refine
    { placed := h.placed
      src_unprimed := h.src_unprimed
      src_off := h.src_off
      unproc := h.unproc
      chains := h.chains
      heap_ok := ?_
      nodup := h.nodup
      idle := ?_ }
  · intro y hy
    obtain ⟨h1, h2, h3, ed, h4, h5, h6, h7, h8⟩ := h.heap_ok y hy
    have hyt := hne y hy
    refine ⟨h1, ?_, ?_, ed, h4, h5, h6, h7, ?_⟩
    · show Function.update v.read t true y = true
      rw [Function.update_noteq hyt]
      exact h2
    · show Function.update v.gamma t 0 y < 0
      rw [Function.update_noteq hyt]
      exact h3
    · show Function.update v.gamma t 0 y = _
      rw [Function.update_noteq hyt]
      exact h8
  · intro x hx hxh hxr
    show Function.update v.gamma t 0 x = 0
    by_cases hxt : x = t
    · rw [hxt, Function.update_same]
    · rw [Function.update_noteq hxt]
      have hxr' : Function.update v.read t true x = true := hxr
      rw [Function.update_noteq hxt] at hxr'
      exact h.idle x hx hxh hxr'

/-- The relaxation of lines 562-588 keeps the invariant of the conflict edges:
the target gets the smaller `gamma`, is on the heap afterwards, and its entry
is the scanned edge. -/
theorem WalkInv.walk_relax {pi0 : Nat → Int} {e : DLEdge} {v : RepairView}
    {ce ce' : List (Option DLEdge)} (h : WalkInv pi0 e v ce) (s : Nat) (it : DLEdge)
    (hs : v.prime s = true) (hit : it ∈ v.dAdj.getD s []) (hprime : v.prime it.v = false)
    (hread : v.read it.v = true) (htu : it.v ≠ e.u)
    (hval : v.pi s + it.wt - v.pi it.v < v.gamma it.v)
    (hce : ∀ y, ce'[y]? = if y = it.v then some (some it) else ce[y]?) :
    WalkInv pi0 e
      { v with
        gamma := Function.update v.gamma it.v (v.pi s + it.wt - v.pi it.v)
        heap := if it.v ∈ v.heap then v.heap else v.heap ++ [it.v] }
      ce' := by
  obtain ⟨l, hl, hitl⟩ := mem_getD_row v.dAdj s it hit
  have hu : it.u = s := h.placed s l hl it hitl
  have hg0 : v.gamma it.v ≤ 0 := by
    by_cases hm : it.v ∈ v.heap
    · exact le_of_lt (h.heap_ok it.v hm).2.2.1
    · exact le_of_eq (h.idle it.v hprime hm hread)
  have hmem : ∀ y, y ∈ (if it.v ∈ v.heap then v.heap else v.heap ++ [it.v]) ↔
      y ∈ v.heap ∨ y = it.v := by
    intro y
    by_cases hm : it.v ∈ v.heap
    · rw [if_pos hm]
      constructor
      · exact Or.inl
      · rintro (hy | hy)
        · exact hy
        · rw [hy]
          exact hm
    · rw [if_neg hm, List.mem_append, List.mem_singleton]
  have hcp : ∀ y, v.prime y = true → ce'[y]? = ce[y]? := by
    intro y hy
    rw [hce y, if_neg]
    intro hyt
    rw [hyt, hprime] at hy
    cases hy
  refine
    { placed := h.placed
      src_unprimed := h.src_unprimed
      src_off := ?_
      unproc := h.unproc
      chains := ?_
      heap_ok := ?_
      nodup := ?_
      idle := ?_ }
  · intro hm
    rcases (hmem e.u).1 hm with hm | hm
    · exact h.src_off hm
    · exact htu hm.symm
  · intro x hx
    obtain ⟨es, hes, hpi⟩ := h.chains x hx
    exact ⟨es, Chain.frame hcp (fun _ hy => hy) es x hes, hpi⟩
  · intro y hy
    by_cases hyt : y = it.v
    · subst hyt
      refine ⟨hprime, hread, ?_, it, ?_, rfl, ?_, ?_, ?_⟩
      · show Function.update v.gamma it.v _ it.v < 0
        rw [Function.update_same]
        omega
      · rw [hce it.v, if_pos rfl]
      · rw [hu]
        exact hit
      · rw [hu]
        exact hs
      · show Function.update v.gamma it.v _ it.v = _
        rw [Function.update_same, hu, h.unproc it.v hprime]
    · have hy' : y ∈ v.heap := by
        rcases (hmem y).1 hy with hy | hy
        · exact hy
        · exact absurd hy hyt
      obtain ⟨h1, h2, h3, ed, h4, h5, h6, h7, h8⟩ := h.heap_ok y hy'
      refine ⟨h1, h2, ?_, ed, ?_, h5, h6, h7, ?_⟩
      · show Function.update v.gamma it.v _ y < 0
        rw [Function.update_noteq hyt]
        exact h3
      · rw [hce y, if_neg hyt]
        exact h4
      · show Function.update v.gamma it.v _ y = _
        rw [Function.update_noteq hyt]
        exact h8
  · show (if it.v ∈ v.heap then v.heap else v.heap ++ [it.v]).Nodup
    by_cases hm : it.v ∈ v.heap
    · rw [if_pos hm]
      exact h.nodup
    · rw [if_neg hm]
      exact List.Nodup.append h.nodup (List.nodup_singleton _)
        (by
          intro a ha hb
          rw [List.mem_singleton] at hb
          rw [hb] at ha
          exact hm ha)
  · intro x hx hxh hxr
    have hxt : x ≠ it.v := fun hh => hxh ((hmem x).2 (Or.inr hh))
    show Function.update v.gamma it.v _ x = 0
    rw [Function.update_noteq hxt]
    exact h.idle x hx (fun hh => hxh ((hmem x).2 (Or.inl hh))) hxr

/-- A rearrangement of the heap keeps the invariant of the conflict edges. -/
theorem WalkInv.walk_rearrange {pi0 : Nat → Int} {e : DLEdge} {v : RepairView}
    {ce : List (Option DLEdge)} (h : WalkInv pi0 e v ce) (heap' : List Nat)
    (hmem : ∀ y, y ∈ heap' ↔ y ∈ v.heap) (hnd : heap'.Nodup) :
    WalkInv pi0 e { v with heap := heap' } ce :=
  { placed := h.placed
    src_unprimed := h.src_unprimed
    src_off := fun hm => h.src_off ((hmem _).1 hm)
    unproc := h.unproc
    chains := h.chains
    heap_ok := fun y hy => h.heap_ok y ((hmem y).1 hy)
    nodup := hnd
    idle := fun x hx hxh hxr => h.idle x hx (fun hh => hxh ((hmem x).2 hh)) hxr }

/-- The extraction of the front `s` of the heap (lines 514-528) keeps the
invariant of the conflict edges: the walk from `s` starts with its entry and
goes on from the source of that edge. -/
theorem WalkInv.walk_extract {pi0 : Nat → Int} {e : DLEdge} {v : RepairView}
    {ce : List (Option DLEdge)} (h : WalkInv pi0 e v ce) (s : Nat) (rest heap' : List Nat)
    (hheap : v.heap = s :: rest) (hmem : ∀ y, y ∈ heap' ↔ y ∈ rest) (hnd : heap'.Nodup) :
    WalkInv pi0 e
      { v with
        pi := Function.update v.pi s (v.pi s + v.gamma s)
        prime := Function.update v.prime s true
        gamma := Function.update v.gamma s 0
        read := Function.update v.read s true
        heap := heap' }
      ce := by
  have hs : s ∈ v.heap := by
    rw [hheap]
    exact List.mem_cons_self _ _
  have hnd0 := h.nodup
  rw [hheap, List.nodup_cons] at hnd0
  obtain ⟨hs1, hs2, hs3, ed, hs4, hs5, hs6, hs7, hs8⟩ := h.heap_ok s hs
  have hmono : ∀ y, v.prime y = true → Function.update v.prime s true y = true := by
    intro y hy
    by_cases hys : y = s
    · rw [hys, Function.update_same]
    · rw [Function.update_noteq hys]
      exact hy
  have hsu : s ≠ e.u := by
    intro hh
    rw [hh] at hs
    exact h.src_off hs
  have hrest : ∀ y, y ∈ heap' → y ∈ v.heap ∧ y ≠ s := by
    intro y hy
    have hy' := (hmem y).1 hy
    refine ⟨by rw [hheap]; exact List.mem_cons_of_mem _ hy', ?_⟩
    intro hh
    rw [hh] at hy'
    exact hnd0.1 hy'
  refine
    { placed := h.placed
      src_unprimed := ?_
      src_off := fun hm => h.src_off (hrest _ hm).1
      unproc := ?_
      chains := ?_
      heap_ok := ?_
      nodup := hnd
      idle := ?_ }
  · show Function.update v.prime s true e.u = false
    rw [Function.update_noteq (Ne.symm hsu)]
    exact h.src_unprimed
  · intro x hx
    have hx' : Function.update v.prime s true x = false := hx
    have hxs : x ≠ s := by
      intro hh
      rw [hh, Function.update_same] at hx'
      cases hx'
    rw [Function.update_noteq hxs] at hx'
    show Function.update v.pi s _ x = pi0 x
    rw [Function.update_noteq hxs]
    exact h.unproc x hx'
  · intro x hx
    have hx' : Function.update v.prime s true x = true := hx
    by_cases hxs : x = s
    · subst hxs
      have hne : ed.u ≠ e.u := by
        intro hh
        rw [hh, h.src_unprimed] at hs7
        cases hs7
      have hne2 : ed.u ≠ x := by
        intro hh
        rw [hh, hs1] at hs7
        cases hs7
      obtain ⟨es, hes, hpi⟩ := h.chains ed.u hs7
      refine ⟨ed :: es, ⟨hs4, hs5, hx, hs6, ?_⟩, ?_⟩
      · rw [if_neg hne]
        exact Chain.frame (fun _ _ => rfl) hmono es ed.u hes
      · show Function.update v.pi x _ x = _
        rw [Function.update_same, hs8, h.unproc x hs1, hpi]
        simp only [List.map_cons, List.sum_cons]
        omega
    · rw [Function.update_noteq hxs] at hx'
      obtain ⟨es, hes, hpi⟩ := h.chains x hx'
      refine ⟨es, Chain.frame (fun _ _ => rfl) hmono es x hes, ?_⟩
      show Function.update v.pi s _ x = _
      rw [Function.update_noteq hxs]
      exact hpi
  · intro y hy
    obtain ⟨hyh, hys⟩ := hrest y hy
    obtain ⟨h1, h2, h3, d, h4, h5, h6, h7, h8⟩ := h.heap_ok y hyh
    have hds : d.u ≠ s := by
      intro hh
      rw [hh, hs1] at h7
      cases h7
    refine ⟨?_, ?_, ?_, d, h4, h5, h6, hmono _ h7, ?_⟩
    · show Function.update v.prime s true y = false
      rw [Function.update_noteq hys]
      exact h1
    · show Function.update v.read s true y = true
      rw [Function.update_noteq hys]
      exact h2
    · show Function.update v.gamma s 0 y < 0
      rw [Function.update_noteq hys]
      exact h3
    · show Function.update v.gamma s 0 y = Function.update v.pi s _ d.u + d.wt - pi0 y
      rw [Function.update_noteq hys, Function.update_noteq hds]
      exact h8
  · intro x hx hxh hxr
    have hx' : Function.update v.prime s true x = false := hx
    have hxs : x ≠ s := by
      intro hh
      rw [hh, Function.update_same] at hx'
      cases hx'
    rw [Function.update_noteq hxs] at hx'
    have hxr' : Function.update v.read s true x = true := hxr
    rw [Function.update_noteq hxs] at hxr'
    show Function.update v.gamma s 0 x = 0
    rw [Function.update_noteq hxs]
    refine h.idle x hx' ?_ hxr'
    intro hh
    rw [hheap] at hh
    rcases List.mem_cons.1 hh with hh | hh
    · exact hxs hh
    · exact hxh ((hmem x).2 hh)

/-- The first extraction, of the target of the new edge, gives the invariant of
the conflict edges: the walk from the target is the new edge alone. -/
theorem WalkInit.walk_first {pi0 : Nat → Int} {e : DLEdge} {v : RepairView}
    {ce : List (Option DLEdge)} (h : WalkInit pi0 e v ce) :
    WalkInv pi0 e
      { v with
        pi := Function.update v.pi e.v (v.pi e.v + v.gamma e.v)
        prime := Function.update v.prime e.v true
        gamma := Function.update v.gamma e.v 0
        read := Function.update v.read e.v true
        heap := [] }
      ce := by
  refine
    { placed := h.placed
      src_unprimed := ?_
      src_off := List.not_mem_nil _
      unproc := ?_
      chains := ?_
      heap_ok := fun y hy => absurd hy (List.not_mem_nil _)
      nodup := List.nodup_nil
      idle := ?_ }
  · show Function.update v.prime e.v true e.u = false
    rw [Function.update_noteq h.noloop]
    exact h.no_prime _
  · intro x hx
    have hx' : Function.update v.prime e.v true x = false := hx
    have hxs : x ≠ e.v := by
      intro hh
      rw [hh, Function.update_same] at hx'
      cases hx'
    show Function.update v.pi e.v _ x = pi0 x
    rw [Function.update_noteq hxs, h.pi_eq]
  · intro x hx
    have hx' : Function.update v.prime e.v true x = true := hx
    by_cases hxs : x = e.v
    · subst hxs
      refine ⟨[e], ⟨h.entry, rfl, hx, h.active, ?_⟩, ?_⟩
      · rw [if_pos rfl]
      · show Function.update v.pi e.v _ e.v = _
        rw [Function.update_same, h.gamma_eq, h.pi_eq]
        simp only [List.map_cons, List.map_nil, List.sum_cons, List.sum_nil]
        omega
    · rw [Function.update_noteq hxs, h.no_prime x] at hx'
      cases hx'
  · intro x hx hxh hxr
    have hxr' : Function.update v.read e.v true x = true := hxr
    have hx' : Function.update v.prime e.v true x = false := hx
    have hxs : x ≠ e.v := by
      intro hh
      rw [hh, Function.update_same] at hx'
      cases hx'
    rw [Function.update_noteq hxs, h.no_read x] at hxr'
    cases hxr'

/-- The conflict of lines 548-557: an edge from the extracted vertex `s` to the
source whose reduced value is below the `gamma` of the source closes a cycle of
negative weight over the conflict edges. -/
theorem WalkInv.walk_conflict {pi0 : Nat → Int} {e : DLEdge} {v : RepairView}
    {ce ce' : List (Option DLEdge)} (h : WalkInv pi0 e v ce) (s : Nat) (it : DLEdge)
    (hs : v.prime s = true) (hit : it ∈ v.dAdj.getD s []) (hread : v.read it.v = true)
    (htu : it.v = e.u) (hval : v.pi s + it.wt - v.pi it.v < v.gamma it.v)
    (hce : ∀ y, ce'[y]? = if y = it.v then some (some it) else ce[y]?) :
    ∃ es, conflictWalk ce' e.u es.length e.u = some es ∧
      (∀ x ∈ es, x ∈ v.dAdj.getD x.u []) ∧ IsWalk es.reverse e.u e.u ∧
      (es.map (fun d => d.wt)).sum < 0 := by
  obtain ⟨l, hl, hitl⟩ := mem_getD_row v.dAdj s it hit
  have hu : it.u = s := h.placed s l hl it hitl
  have hsu : s ≠ e.u := by
    intro hh
    rw [hh, h.src_unprimed] at hs
    cases hs
  have hg0 : v.gamma e.u = 0 := h.idle e.u h.src_unprimed h.src_off (by rw [← htu]; exact hread)
  obtain ⟨es, hes, hpi⟩ := h.chains s hs
  have hcp : ∀ y, v.prime y = true → ce'[y]? = ce[y]? := by
    intro y hy
    rw [hce y, if_neg]
    intro hyt
    rw [hyt, htu, h.src_unprimed] at hy
    cases hy
  have hes' := Chain.frame hcp (fun _ hy => hy) es s hes
  refine ⟨it :: es, ?_, ?_, ?_, ?_⟩
  · have hw := Chain.walk es s hes'
    have he : ce'[e.u]? = some (some it) := by
      rw [hce e.u, if_pos htu.symm]
    simp only [List.length_cons, conflictWalk, he]
    rw [if_neg (by rw [hu]; exact hsu), hu, hw]
    rfl
  · intro x hx
    rcases List.mem_cons.1 hx with hx | hx
    · rw [hx, hu]
      exact hit
    · exact Chain.active es s hes x hx
  · rw [List.reverse_cons]
    have := isWalk_concat es.reverse it e.u (by rw [hu]; exact Chain.isWalk es s hes)
    rw [htu] at this
    exact this
  · rw [htu, hg0, h.unproc e.u h.src_unprimed, hpi] at hval
    simp only [List.map_cons, List.sum_cons]
    omega

/-! ## The invariant of the conflict edges on the code -/

/-- The state after the refresh of lines 536-540 keeps the invariant of the
conflict edges, and the target is read in it. -/
theorem refresh_walk (pi0 : Nat → Int) (e : DLEdge) (g : DLGraph) (t : Nat)
    (hinv : WalkInv pi0 e g.view g.conflict_edges) :
    WalkInv pi0 e
        (if isGammaRead g t then g
          else readGamma { g with gamma := Function.update g.gamma t 0 } t).view
        (if isGammaRead g t then g
          else readGamma { g with gamma := Function.update g.gamma t 0 } t).conflict_edges ∧
      (if isGammaRead g t then g
          else readGamma { g with gamma := Function.update g.gamma t 0 } t).view.read t = true ∧
      (if isGammaRead g t then g
          else readGamma { g with gamma := Function.update g.gamma t 0 } t).view.prime =
        g.view.prime ∧
      (if isGammaRead g t then g
          else readGamma { g with gamma := Function.update g.gamma t 0 } t).view.dAdj =
        g.view.dAdj := by
  cases hr : isGammaRead g t with
  | true =>
    simp only [if_true]
    exact ⟨hinv, hr, trivial, trivial⟩
  | false =>
    simp only [Bool.false_eq_true, if_false]
    rw [view_refresh g t hr]
    exact ⟨hinv.walk_refresh t hr, by simp, rfl, rfl⟩

/-- The scan of the adjacency list of the extracted vertex `s`: when it ends
without a conflict the invariant of the conflict edges holds, and when it ends
with the conflict the walk from the source is a cycle of negative weight. -/
theorem scanAdjList_walk (pi0 : Nat → Int) (e : DLEdge) (s : Nat) (l : AdjList) :
    ∀ (g g' : DLGraph) (b : Bool), WalkInv pi0 e g.view g.conflict_edges →
      g.view.prime s = true → (∀ x ∈ l, x ∈ g.view.dAdj.getD s []) →
      scanAdjList e.u s l g = some (b, g') →
      (b = true → WalkInv pi0 e g'.view g'.conflict_edges) ∧
        (b = false → ConflictCycle g' e.u) := by
  induction l with
  | nil =>
    intro g g' b hinv _ _ h
    simp only [scanAdjList, Option.some.injEq, Prod.mk.injEq] at h
    obtain ⟨hb, hg⟩ := h
    rw [← hb, ← hg]
    exact ⟨fun _ => hinv, fun hh => by cases hh⟩
  | cons it rest ih =>
    intro g g' b hinv hs hrow h
    have hrow' : ∀ x ∈ rest, x ∈ g.view.dAdj.getD s [] :=
      fun x hx => hrow x (List.mem_cons_of_mem _ hx)
    have hit : it ∈ g.view.dAdj.getD s [] := hrow it (List.mem_cons_self _ _)
    unfold scanAdjList at h
    simp only at h
    split at h
    · exact ih g g' b hinv hs hrow' h
    · rename_i hprime
      have hprime' : g.view.prime it.v = false := by
        cases hh : g.view.prime it.v
        · rfl
        · exact absurd hh hprime
      have hstep := refresh_walk pi0 e g it.v hinv
      generalize (if isGammaRead g it.v then g
        else readGamma { g with gamma := Function.update g.gamma it.v 0 } it.v) = g1 at h hstep
      obtain ⟨hinv1, hread1, hpr1, hd1⟩ := hstep
      have hs1 : g1.view.prime s = true := by rw [hpr1]; exact hs
      have hprime1 : g1.view.prime it.v = false := by rw [hpr1]; exact hprime'
      have hit1 : it ∈ g1.view.dAdj.getD s [] := by rw [hd1]; exact hit
      have hrow1 : ∀ x ∈ rest, x ∈ g1.view.dAdj.getD s [] := by rw [hd1]; exact hrow'
      split at h
      · rename_i htu
        split at h
        · rename_i hval
          split at h
          · cases h
          · rename_i ce hce
            simp only [Option.some.injEq, Prod.mk.injEq] at h
            obtain ⟨hb, hg⟩ := h
            refine ⟨fun hh => (by rw [← hb] at hh; cases hh), fun _ => ?_⟩
            have hce' : ∀ y, ce[y]? = if y = it.v then some (some it)
                else g1.conflict_edges[y]? := by
              intro y
              rw [modifyAt_getElem? _ _ _ _ hce y]
              by_cases hy : y = it.v
              · rw [if_pos hy, if_pos hy]
                obtain ⟨a, ha, -⟩ := modifyAt_eq_some _ _ _ _ hce
                rw [ha]
                rfl
              · rw [if_neg hy, if_neg hy]
            have hc := hinv1.walk_conflict s it hs1 hit1 hread1 htu hval hce'
            rw [← hg]
            exact ⟨rfl, hc⟩
        · exact ih g1 g' b hinv1 hs1 hrow1 h
      · rename_i htu
        split at h
        · rename_i hval
          split at h
          · rename_i hzero
            split at h
            · cases h
            · rename_i ce hce
              have hce' : ∀ y, ce[y]? = if y = it.v then some (some it)
                  else g1.conflict_edges[y]? := by
                intro y
                rw [modifyAt_getElem? _ _ _ _ hce y]
                by_cases hy : y = it.v
                · rw [if_pos hy, if_pos hy]
                  obtain ⟨a, ha, -⟩ := modifyAt_eq_some _ _ _ _ hce
                  rw [ha]
                  rfl
                · rw [if_neg hy, if_neg hy]
              have hnm : it.v ∉ g1.vertex_heap := by
                intro hm
                have := (hinv1.heap_ok it.v hm).2.2.1
                have hz : g1.view.gamma it.v = 0 := hzero
                omega
              have hlow := hinv1.walk_relax s it hs1 hit1 hprime1 hread1 htu hval hce'
              have hview : ({ g1 with
                    gamma := Function.update g1.gamma it.v (g1.pi s + it.wt - g1.pi it.v)
                    vertex_heap := g1.vertex_heap ++ [it.v]
                    conflict_edges := ce } : DLGraph).view =
                  { g1.view with
                    gamma := Function.update g1.view.gamma it.v
                      (g1.view.pi s + it.wt - g1.view.pi it.v)
                    heap := if it.v ∈ g1.view.heap then g1.view.heap
                            else g1.view.heap ++ [it.v] } := by
                have : (if it.v ∈ g1.view.heap then g1.view.heap
                    else g1.view.heap ++ [it.v]) = g1.vertex_heap ++ [it.v] := if_neg hnm
                rw [this]
                rfl
              refine ih _ g' b ?_ ?_ ?_ h
              · rw [hview]
                exact hlow
              · rw [hview]
                exact hs1
              · rw [hview]
                exact hrow1
          · rename_i hzero
            split at h
            · rename_i hneg
              split at h
              · cases h
              · rename_i ce hce
                have hce' : ∀ y, ce[y]? = if y = it.v then some (some it)
                    else g1.conflict_edges[y]? := by
                  intro y
                  rw [modifyAt_getElem? _ _ _ _ hce y]
                  by_cases hy : y = it.v
                  · rw [if_pos hy, if_pos hy]
                    obtain ⟨a, ha, -⟩ := modifyAt_eq_some _ _ _ _ hce
                    rw [ha]
                    rfl
                  · rw [if_neg hy, if_neg hy]
                have hm : it.v ∈ g1.vertex_heap := by
                  by_contra hnm
                  exact hzero (hinv1.idle it.v hprime1 hnm hread1)
                have hlow := hinv1.walk_relax s it hs1 hit1 hprime1 hread1 htu hval hce'
                have hview : ({ g1 with
                      gamma := if it.v ∈ g1.vertex_heap then
                          Function.update g1.gamma it.v (g1.pi s + it.wt - g1.pi it.v)
                        else g1.gamma
                      conflict_edges := ce } : DLGraph).view =
                    { g1.view with
                      gamma := Function.update g1.view.gamma it.v
                        (g1.view.pi s + it.wt - g1.view.pi it.v)
                      heap := if it.v ∈ g1.view.heap then g1.view.heap
                              else g1.view.heap ++ [it.v] } := by
                  have h1 : (if it.v ∈ g1.view.heap then g1.view.heap
                      else g1.view.heap ++ [it.v]) = g1.vertex_heap := if_pos hm
                  have h2 : (if it.v ∈ g1.vertex_heap then
                          Function.update g1.gamma it.v (g1.pi s + it.wt - g1.pi it.v)
                        else g1.gamma) =
                      Function.update g1.gamma it.v (g1.pi s + it.wt - g1.pi it.v) := if_pos hm
                  rw [h1, h2]
                  rfl
                refine ih _ g' b ?_ ?_ ?_ h
                · rw [hview]
                  exact hlow
                · rw [hview]
                  exact hs1
                · rw [hview]
                  exact hrow1
            · cases h
        · exact ih g1 g' b hinv1 hs1 hrow1 h

theorem extractVertex_conflict_edges (g : DLGraph) (s : Nat) (rest : List Nat) :
    (extractVertex g s rest).conflict_edges = g.conflict_edges := by
  unfold extractVertex
  simp only
  split <;> rfl

/-- When the while loop ends with `false`, the walk over the conflict edges
from the source is a cycle of negative weight. -/
theorem negCycleLoop_walk (pi0 : Nat → Int) (e : DLEdge) (fuel : Nat) :
    ∀ (g g' : DLGraph),
      (WalkInv pi0 e g.view g.conflict_edges ∨ WalkInit pi0 e g.view g.conflict_edges) →
      negCycleLoop e.u fuel g = some (false, g') → ConflictCycle g' e.u := by
  induction fuel with
  | zero =>
    intro g g' _ h
    unfold negCycleLoop at h
    split at h
    · simp only [Option.some.injEq, Prod.mk.injEq, Bool.true_eq_false, false_and] at h
    · cases h
  | succ n ih =>
    intro g g' hh h
    unfold negCycleLoop at h
    split at h
    · simp only [Option.some.injEq, Prod.mk.injEq, Bool.true_eq_false, false_and] at h
    · rename_i s rest hheap
      simp only at h
      split at h
      · cases h
      · rename_i adjList hadj
        have hstart : WalkInv pi0 e (extractVertex g s rest).view
            (extractVertex g s rest).conflict_edges := by
          rw [view_extractVertex, extractVertex_conflict_edges]
          rcases hh with h1 | h1
          · have hnd := h1.nodup
            have hheap' : g.view.heap = s :: rest := hheap
            rw [hheap', List.nodup_cons] at hnd
            exact h1.walk_extract s rest _ hheap (mem_insertionSort_gamma g.gamma rest)
              (nodup_insertionSort_gamma g.gamma rest hnd.2)
          · have hhe := h1.heap_eq
            have hheap' : g.view.heap = s :: rest := hheap
            rw [hheap'] at hhe
            simp only [List.cons.injEq] at hhe
            obtain ⟨hs, hr⟩ := hhe
            subst hr
            subst hs
            exact h1.walk_first
        have hs : (extractVertex g s rest).view.prime s = true := by
          rw [view_extractVertex]
          show Function.update g.view.prime s true s = true
          rw [Function.update_same]
        have hrow : ∀ x ∈ adjList, x ∈ (extractVertex g s rest).view.dAdj.getD s [] := by
          intro x hx
          have : (extractVertex g s rest).view.dAdj[s]? = some adjList := hadj
          rw [List.getD_eq_getElem?_getD, this]
          exact hx
        split at h
        · cases h
        · rename_i g5 hscan
          simp only [Option.some.injEq, Prod.mk.injEq, true_and] at h
          rw [← h]
          exact (scanAdjList_walk pi0 e s adjList _ g5 false hstart hs hrow hscan).2 rfl
        · rename_i g5 hscan
          have h5 := (scanAdjList_walk pi0 e s adjList _ g5 true hstart hs hrow hscan).1 rfl
          refine ih _ g' (Or.inl ?_) h
          exact h5.walk_rearrange _ (mem_insertionSort_gamma g5.gamma g5.vertex_heap)
            (nodup_insertionSort_gamma g5.gamma g5.vertex_heap h5.nodup)

/-- The state that `startCheck` hands to the while loop has an empty heap, or
the target of the new edge is alone on the heap with the new edge as its
entry. -/
theorem startCheck_walk (g1 g5 : DLGraph) (e : DLEdge) (h : startCheck g1 e = some g5)
    (hheap : g1.vertex_heap = [])
    (hst1 : ∀ x, g1.pi_prime_list x ≤ g1.pi_prime_token)
    (hst2 : ∀ x, g1.gamma_list x ≤ g1.gamma_token)
    (hplaced : WellPlaced g1) (hnl : e.u ≠ e.v) (hact : e ∈ g1.dAdj.getD e.u []) :
    g5.vertex_heap = [] ∨ WalkInit g1.pi e g5.view g5.conflict_edges := by
  unfold startCheck at h
  simp only [Function.update_same] at h
  split at h
  · cases h
  · rename_i g4 hg4
    simp only [Option.some.injEq] at h
    subst h
    split at hg4
    · rename_i hneg
      split at hg4
      · cases hg4
      · rename_i ce hce
        simp only [Option.some.injEq] at hg4
        subst hg4
        refine Or.inr ?_
        exact
          { placed := hplaced
            noloop := hnl
            pi_eq := rfl
            no_prime := fun x => stamp_ne_of_le _ _ hst1 x
            no_read := fun x => stamp_ne_of_le _ _ hst2 x
            heap_eq := by
              show List.insertionSort _ (g1.vertex_heap ++ [e.v]) = [e.v]
              rw [hheap]
              rfl
            gamma_eq := by
              show Function.update g1.gamma e.v _ e.v = _
              rw [Function.update_same]
            entry := by
              show ce[e.v]? = some (some e)
              obtain ⟨a, ha, -⟩ := modifyAt_eq_some _ _ _ _ hce
              rw [modifyAt_getElem? _ _ _ _ hce e.v, if_pos rfl, ha]
              rfl
            active := hact }
    · simp only [Option.some.injEq] at hg4
      subst hg4
      exact Or.inl hheap

theorem negCycleLoop_of_empty (u fuel : Nat) (g : DLGraph) (h : g.vertex_heap = []) :
    negCycleLoop u fuel g = some (true, g) := by
  cases fuel <;> (unfold negCycleLoop; rw [h])

/-- The conflict cycle from a state with an empty heap, rows of the sources and
no stamp ahead of its token: a call `checkNegCycle( c )` that returns `false`
leaves the source of the new edge in `negCycleVertex`, and the walk over the
conflict edges from it is a cycle of active edges of negative weight. -/
theorem checkNegCycle_walk (cfg : Config) (A : AtomStore) (g g' : DLGraph)
    (c : Enode) (reason : Bool) (fuel : Nat) (hplaced : WellPlaced g)
    (hheap : g.vertex_heap = [])
    (hst1 : ∀ x, g.pi_prime_list x ≤ g.pi_prime_token)
    (hst2 : ∀ x, g.gamma_list x ≤ g.gamma_token)
    (h : checkNegCycle cfg A g c reason fuel = some (false, g')) :
    ∃ p, findEdges g.edgeMap c = some p ∧ ConflictCycle g' (selectEdge A c p).u := by
  have hnever := checkNegCycle_loop_never_false cfg A g g' c reason fuel hheap
  unfold checkNegCycle at h
  split at h
  · cases h
  · split at h
    · cases h
    · rename_i e g1 hins
      obtain ⟨-, -, -, f4, f5, f6, p, hp, he⟩ := insertDynamic_frame cfg A g g1 c reason e hins
      obtain ⟨a, ha, hd, f7, f8⟩ := insertDynamic_active cfg A g g1 c reason e hins
      have hne : e.u ≠ e.v := by
        intro huv
        refine hnever (fun q hq => ?_) ?_
        · rw [hp] at hq
          cases hq
          rw [← he]
          exact huv
        · unfold checkNegCycle
          rw [if_neg (by assumption)]
          simp only [hins]
          exact h
      have hplaced1 : WellPlaced g1 := by
        intro i l hl x hx
        rw [hd] at hl
        rcases row_of_set g.dAdj a e ha i l hl with ⟨hi, hla⟩ | ⟨-, hli⟩
        · rw [hla, List.mem_append, List.mem_singleton] at hx
          rcases hx with hx | hx
          · rw [hi]
            exact hplaced e.u a ha x hx
          · rw [hx, hi]
        · exact hplaced i l hli x hx
      have hact : e ∈ g1.dAdj.getD e.u [] := by
        rw [hd, List.getD_eq_getElem?_getD, getElem?_set_self_of_some g.dAdj e.u a (a ++ [e]) ha]
        simp
      refine ⟨p, hp, ?_⟩
      rw [← he]
      split at h
      · cases h
      · rename_i g5 hstart
        have hhead := startCheck_walk g1 g5 e hstart (by rw [f4]; exact hheap)
          (by rw [f5, f6]; exact hst1) (by rw [f7, f8]; exact hst2) hplaced1 hne hact
        split at h
        · cases h
        · rename_i g6 hloop
          simp only [Option.some.injEq, Prod.mk.injEq, true_and] at h
          rw [← h]
          rcases hhead with h0 | h0
          · rw [negCycleLoop_of_empty e.u fuel g5 h0] at hloop
            simp only [Option.some.injEq, Prod.mk.injEq, Bool.true_eq_false, false_and] at hloop
          · exact negCycleLoop_walk g1.pi e fuel g5 g6 (Or.inr h0) hloop
        · simp only [Option.some.injEq, Prod.mk.injEq, Bool.true_eq_false, false_and] at h

/-! ## The markers between two calls -/

theorem SameMarks.idle {g g' : DLGraph} (h : SameMarks g g') (hi : Idle g) : Idle g' := by
  obtain ⟨h1, h2, h3, h4, h5⟩ := h
  obtain ⟨i1, i2, i3⟩ := hi
  refine ⟨h1.trans i1, ?_, ?_⟩
  · rw [h2, h3]
    exact i2
  · rw [h4, h5]
    exact i3

theorem SameMarks.chain_marks {g g1 g2 : DLGraph} (h1 : SameMarks g g1) (h2 : SameMarks g1 g2) :
    SameMarks g g2 :=
  ⟨h2.1.trans h1.1, h2.2.1.trans h1.2.1, h2.2.2.1.trans h1.2.2.1,
    h2.2.2.2.1.trans h1.2.2.2.1, h2.2.2.2.2.trans h1.2.2.2.2⟩

theorem sameMarks_of_eq {g g' : DLGraph} (h : g' = g) : SameMarks g g' := by
  subst h
  exact ⟨rfl, rfl, rfl, rfl, rfl⟩

theorem getDLVertex_marks (g : DLGraph) (x : Option Enode) : SameMarks g (getDLVertex g x).2 := by
  unfold getDLVertex
  split <;> exact ⟨rfl, rfl, rfl, rfl, rfl⟩

theorem getDLEdge_marks (cfg : Config) (A : AtomStore) (g : DLGraph) (e : Enode)
    (p : DLComplEdges) (g1 : DLGraph) (h : getDLEdge cfg A g e = some (p, g1)) :
    SameMarks g g1 := by
  unfold getDLEdge at h
  split at h
  · simp only [Option.some.injEq, Prod.mk.injEq] at h
    exact sameMarks_of_eq h.2.symm
  · split at h
    · cases h
    · split at h
      · cases h
      · rename_i w x y hcl
        simp only [Option.some.injEq, Prod.mk.injEq] at h
        obtain ⟨-, hg⟩ := h
        subst hg
        have t0 : SameMarks g ({ g with tmp_edge_weight := w } : DLGraph) :=
          ⟨rfl, rfl, rfl, rfl, rfl⟩
        generalize ({ g with tmp_edge_weight := w } : DLGraph) = g0 at t0 ⊢
        have t1 := getDLVertex_marks g0 x
        generalize getDLVertex g0 x = r1 at t1 ⊢
        have t2 := getDLVertex_marks r1.2 y
        generalize getDLVertex r1.2 y = r2 at t2 ⊢
        exact (t0.chain_marks t1).chain_marks t2

theorem insertInactive_marks (g g' : DLGraph) (e : Enode) (h : insertInactive g e = some g') :
    SameMarks g g' := by
  obtain ⟨-, -, -, -, -, -, -, -, hg⟩ := insertInactive_spec g g' e h
  generalize g'.hAdj = a at hg
  generalize g'.hAdjInc = b at hg
  subst hg
  exact ⟨rfl, rfl, rfl, rfl, rfl⟩

theorem deleteInactive_marks (g g' : DLGraph) (e : Enode) (h : deleteInactive g e = some g') :
    SameMarks g g' := by
  obtain ⟨-, -, -, -, -, -, -, -, hg⟩ := deleteInactive_spec g g' e h
  generalize g'.hAdj = a at hg
  generalize g'.hAdjInc = b at hg
  subst hg
  exact ⟨rfl, rfl, rfl, rfl, rfl⟩

theorem insertStatic_marks (cfg : Config) (A : AtomStore) (g g' : DLGraph) (c : Enode)
    (h : insertStatic cfg A g c = some g') : SameMarks g g' := by
  obtain ⟨p, g1, s1, s2, g3, hget, -, -, hg3, -, hcase⟩ := insertStatic_spec cfg A g g' c h
  have m1 := getDLEdge_marks cfg A g c p g1 hget
  have m3 : SameMarks g1 g3 := by
    subst hg3
    exact ⟨rfl, rfl, rfl, rfl, rfl⟩
  rcases hcase with ⟨-, hins⟩ | ⟨-, hg⟩
  · exact (m1.chain_marks m3).chain_marks (insertInactive_marks g3 g' c hins)
  · exact (m1.chain_marks m3).chain_marks (sameMarks_of_eq hg)

theorem insertDynamic_marks (cfg : Config) (A : AtomStore) (g g1 : DLGraph) (c : Enode)
    (reason : Bool) (e : DLEdge) (h : insertDynamic cfg A g c reason = some (e, g1)) :
    SameMarks g g1 := by
  obtain ⟨-, -, -, f4, f5, f6, -⟩ := insertDynamic_frame cfg A g g1 c reason e h
  obtain ⟨-, -, -, f7, f8⟩ := insertDynamic_active cfg A g g1 c reason e h
  exact ⟨f4, f5, f6, f7, f8⟩

theorem deleteActive_marks (cfg : Config) (A : AtomStore) (g g' : DLGraph) (c : Enode)
    (h : deleteActive cfg A g c = some g') : SameMarks g g' := by
  obtain ⟨p, du, dv, gm, -, -, -, -, -, -, -, hgm, hcase⟩ := deleteActive_spec cfg A g g' c h
  have m1 : SameMarks g gm := by
    subst hgm
    exact ⟨rfl, rfl, rfl, rfl, rfl⟩
  rcases hcase with ⟨-, hins⟩ | ⟨-, hg⟩
  · exact m1.chain_marks (insertInactive_marks gm g' c hins)
  · exact m1.chain_marks (sameMarks_of_eq hg)

theorem insertImplied_marks (cfg : Config) (g g' : DLGraph) (c : Enode)
    (h : insertImplied cfg g c = some g') : SameMarks g g' := by
  unfold insertImplied at h
  split at h
  · exact deleteInactive_marks g g' c h
  · cases h

theorem stamps_readGamma (g : DLGraph) (t : Nat) (h : Stamps g) : Stamps (readGamma g t) := by
  refine ⟨h.1, fun x => ?_⟩
  show Function.update g.gamma_list t g.gamma_token x ≤ g.gamma_token
  by_cases hx : x = t
  · rw [hx, Function.update_same]
  · rw [Function.update_noteq hx]
    exact h.2 x

theorem stamps_updatePiPrime (g : DLGraph) (t : Nat) (h : Stamps g) :
    Stamps (updatePiPrime g t) := by
  refine ⟨fun x => ?_, h.2⟩
  show Function.update g.pi_prime_list t g.pi_prime_token x ≤ g.pi_prime_token
  by_cases hx : x = t
  · rw [hx, Function.update_same]
  · rw [Function.update_noteq hx]
    exact h.1 x

theorem stamps_refresh (g : DLGraph) (t : Nat) (h : Stamps g) :
    Stamps (if isGammaRead g t then g
      else readGamma { g with gamma := Function.update g.gamma t 0 } t) := by
  split
  · exact h
  · exact stamps_readGamma _ t h

/-- The scan of an adjacency list keeps the stamps behind their tokens, and the
conflict empties the heap. -/
theorem scanAdjList_stamps (u s : Nat) (l : AdjList) :
    ∀ (g g' : DLGraph) (b : Bool), Stamps g → scanAdjList u s l g = some (b, g') →
      Stamps g' ∧ (b = false → g'.vertex_heap = []) := by
  induction l with
  | nil =>
    intro g g' b hst h
    simp only [scanAdjList, Option.some.injEq, Prod.mk.injEq] at h
    obtain ⟨hb, hg⟩ := h
    rw [← hb, ← hg]
    exact ⟨hst, fun hh => by cases hh⟩
  | cons it rest ih =>
    intro g g' b hst h
    unfold scanAdjList at h
    simp only at h
    split at h
    · exact ih g g' b hst h
    · have hst1 := stamps_refresh g it.v hst
      generalize (if isGammaRead g it.v then g
        else readGamma { g with gamma := Function.update g.gamma it.v 0 } it.v) = g1 at h hst1
      split at h
      · split at h
        · split at h
          · cases h
          · simp only [Option.some.injEq, Prod.mk.injEq] at h
            obtain ⟨-, hg⟩ := h
            rw [← hg]
            exact ⟨hst1, fun _ => rfl⟩
        · exact ih g1 g' b hst1 h
      · split at h
        · split at h
          · split at h
            · cases h
            · refine ih _ g' b ?_ h
              exact hst1
          · split at h
            · split at h
              · cases h
              · refine ih _ g' b ?_ h
                exact hst1
            · cases h
        · exact ih g1 g' b hst1 h

theorem stamps_extractVertex (g : DLGraph) (s : Nat) (rest : List Nat) (h : Stamps g) :
    Stamps (extractVertex g s rest) := by
  unfold extractVertex
  simp only
  apply stamps_readGamma
  split
  · exact stamps_updatePiPrime _ s h
  · exact stamps_updatePiPrime _ s h

/-- The while loop keeps the stamps behind their tokens and ends with an empty
heap. -/
theorem negCycleLoop_idle (u fuel : Nat) :
    ∀ (g g' : DLGraph) (b : Bool), Stamps g → negCycleLoop u fuel g = some (b, g') →
      Idle g' := by
  induction fuel with
  | zero =>
    intro g g' b hst h
    unfold negCycleLoop at h
    split at h
    · rename_i hheap
      simp only [Option.some.injEq, Prod.mk.injEq] at h
      rw [← h.2]
      exact ⟨hheap, hst⟩
    · cases h
  | succ n ih =>
    intro g g' b hst h
    unfold negCycleLoop at h
    split at h
    · rename_i hheap
      simp only [Option.some.injEq, Prod.mk.injEq] at h
      rw [← h.2]
      exact ⟨hheap, hst⟩
    · rename_i s rest hheap
      simp only at h
      split at h
      · cases h
      · rename_i adjList hadj
        have hst4 := stamps_extractVertex g s rest hst
        split at h
        · cases h
        · rename_i g5 hscan
          simp only [Option.some.injEq, Prod.mk.injEq] at h
          rw [← h.2]
          obtain ⟨h1, h2⟩ := scanAdjList_stamps u s adjList _ g5 false hst4 hscan
          exact ⟨h2 rfl, h1⟩
        · rename_i g5 hscan
          obtain ⟨h1, -⟩ := scanAdjList_stamps u s adjList _ g5 true hst4 hscan
          refine ih _ g' b ?_ h
          exact h1

theorem startCheck_stamps (g1 g5 : DLGraph) (e : DLEdge) (h : startCheck g1 e = some g5)
    (hst : Stamps g1) : Stamps g5 := by
  have hbump : ∀ g : DLGraph, Stamps g → Stamps (initPiPrime (initGamma g)) := by
    intro g hg
    refine ⟨fun x => ?_, fun x => ?_⟩
    · show g.pi_prime_list x ≤ g.pi_prime_token + 1
      exact Nat.le_succ_of_le (hg.1 x)
    · show g.gamma_list x ≤ g.gamma_token + 1
      exact Nat.le_succ_of_le (hg.2 x)
  unfold startCheck at h
  simp only [Function.update_same] at h
  split at h
  · cases h
  · rename_i g4 hg4
    simp only [Option.some.injEq] at h
    subst h
    apply hbump
    split at hg4
    · split at hg4
      · cases hg4
      · simp only [Option.some.injEq] at hg4
        subst hg4
        exact hst
    · simp only [Option.some.injEq] at hg4
      subst hg4
      exact hst

/-- A call of `checkNegCycle` from a state between two calls ends in a state
between two calls. -/
theorem checkNegCycle_idle (cfg : Config) (A : AtomStore) (g g' : DLGraph) (c : Enode)
    (reason : Bool) (fuel : Nat) (b : Bool) (hi : Idle g)
    (h : checkNegCycle cfg A g c reason fuel = some (b, g')) : Idle g' := by
  unfold checkNegCycle at h
  split at h
  · cases h
  · split at h
    · cases h
    · rename_i e g1 hins
      have hi1 := (insertDynamic_marks cfg A g g1 c reason e hins).idle hi
      split at h
      · cases h
      · rename_i g5 hstart
        have hst5 := startCheck_stamps g1 g5 e hstart hi1.2
        split at h
        · cases h
        · rename_i g6 hloop
          simp only [Option.some.injEq, Prod.mk.injEq] at h
          rw [← h.2]
          exact negCycleLoop_idle e.u fuel g5 g6 false hst5 hloop
        · rename_i g6 hloop
          simp only [Option.some.injEq, Prod.mk.injEq] at h
          rw [← h.2]
          exact negCycleLoop_idle e.u fuel g5 g6 true hst5 hloop

/-- Every reachable state is a state between two calls. -/
theorem reach_idle (cfg : Config) (st : List (Enode × lbool)) (g : DLGraph)
    (h : Reach cfg st g) : Idle g := by
  induction h with
  | init => exact ⟨rfl, fun _ => Nat.le_refl _, fun _ => Nat.le_refl _⟩
  | static A c _ _ hins ih => exact (insertStatic_marks cfg A _ _ c hins).idle ih
  | dynamic A c reason e _ _ hins ih => exact (insertDynamic_marks cfg A _ _ c reason e hins).idle ih
  | check A c reason fuel b _ _ hchk ih => exact checkNegCycle_idle cfg A _ _ c reason fuel b ih hchk
  | delete A c _ hdel ih => exact (deleteActive_marks cfg A _ _ c hdel).idle ih
  | implied c _ himp ih => exact (insertImplied_marks cfg _ _ c himp).idle ih

theorem StoreInv.wellPlaced {st : List (Enode × lbool)} {g : DLGraph} (h : StoreInv st g) :
    WellPlaced g := by
  intro i l hl x hx
  have hi : i < g.dAdj.length := by
    by_contra hc
    rw [List.getElem?_eq_none (Nat.le_of_not_lt hc)] at hl
    cases hl
  rw [h.rows i hi] at hl
  cases hl
  simpa using (List.mem_filter.1 hx).2

/-- C17, conflict cycle reconstruction: in every state reached through the
interface, whenever `checkNegCycle( c )` returns `false`, `negCycleVertex` is
the source `u` of the edge of `c`, and the walk that starts at it and steps
from `s` to the source of `conflict_edges[ s ]` is back at `u` after finitely
many steps (the number of its edges, and any larger bound gives the same
walk); every edge `x` visited is active, i.e. in the row `dAdj[ x.u ]`; the
visited edges, read against the order of the walk, form a directed cycle from
`u` to `u`; and the sum of their weights is negative. -/
theorem checkNegCycle_conflict_cycle (cfg : Config) (A : AtomStore)
    (st : List (Enode × lbool)) (g g' : DLGraph) (c : Enode) (reason : Bool) (fuel : Nat)
    (hr : Reach cfg st g) (h : checkNegCycle cfg A g c reason fuel = some (false, g')) :
    ∃ p es, findEdges g.edgeMap c = some p ∧
      g'.negCycleVertex = some (selectEdge A c p).u ∧
      (∀ k, conflictWalk g'.conflict_edges (selectEdge A c p).u (es.length + k)
        (selectEdge A c p).u = some es) ∧
      (∀ x ∈ es, x ∈ g'.dAdj.getD x.u []) ∧
      IsWalk es.reverse (selectEdge A c p).u (selectEdge A c p).u ∧
      (es.map (fun d => d.wt)).sum < 0 := by
  have hi := reach_idle cfg st g hr
  have hp := (reach_storeInv cfg st g hr).wellPlaced
  obtain ⟨p, hfind, hneg, es, hw, hact, hcyc, hsum⟩ :=
    checkNegCycle_walk cfg A g g' c reason fuel hp hi.1 hi.2.1 hi.2.2 h
  exact ⟨p, es, hfind, hneg, conflictWalk_fuel_mono _ _ _ _ es hw, hact, hcyc, hsum⟩

theorem checkNegCycle_conflict_cycle_witness :
    Reach exCfg [(exAtom1, getPolarity exAllTrue exAtom1)] exGraph13 ∧
    checkNegCycle exCfg exAllTrue exGraph13 exAtom3 false 2 =
      some (false, exCheck exAllTrue exGraph13 exAtom3) ∧
    ∃ p es, findEdges exGraph13.edgeMap exAtom3 = some p ∧
      (exCheck exAllTrue exGraph13 exAtom3).negCycleVertex =
        some (selectEdge exAllTrue exAtom3 p).u ∧
      (∀ k, conflictWalk (exCheck exAllTrue exGraph13 exAtom3).conflict_edges
        (selectEdge exAllTrue exAtom3 p).u (es.length + k)
        (selectEdge exAllTrue exAtom3 p).u = some es) ∧
      (∀ x ∈ es, x ∈ (exCheck exAllTrue exGraph13 exAtom3).dAdj.getD x.u []) ∧
      IsWalk es.reverse (selectEdge exAllTrue exAtom3 p).u (selectEdge exAllTrue exAtom3 p).u ∧
      (es.map (fun d => d.wt)).sum < 0 :=
  have hr : Reach exCfg [(exAtom1, getPolarity exAllTrue exAtom1)] exGraph13 :=
    Reach.check exAllTrue exAtom1 false 1 true
      (Reach.static exNoPol exAtom3
        (Reach.static exNoPol exAtom1 Reach.init rfl (by rfl : _ = some exGraph1))
        (by decide) (by rfl : _ = some (exStatic [exAtom1, exAtom3])))
      (by decide) (by rfl)
  have h : checkNegCycle exCfg exAllTrue exGraph13 exAtom3 false 2 =
      some (false, exCheck exAllTrue exGraph13 exAtom3) := by rfl
  ⟨hr, h, checkNegCycle_conflict_cycle exCfg exAllTrue _ exGraph13 _ exAtom3 false 2 hr h⟩

/-! ## Paths and their reduced weight -/

theorem pathRwt_cons (g : DLGraph) (e : DLEdge) (es : List DLEdge) :
    pathRwt g (e :: es) = rwtOf g e + pathRwt g es := by
  unfold pathRwt
  simp only [List.map_cons, List.sum_cons]

theorem pathRwt_concat (g : DLGraph) (es : List DLEdge) (e : DLEdge) :
    pathRwt g (es ++ [e]) = pathRwt g es + rwtOf g e := by
  unfold pathRwt
  simp only [List.map_append, List.map_cons, List.map_nil, List.sum_append, List.sum_cons,
    List.sum_nil, add_zero]

theorem pathRwt_nonneg (g : DLGraph) (d : DL_sssp_direction) (hf : RwtNonneg g d) :
    ∀ (es : List DLEdge) (a b : Nat), ActivePath g d es a b → 0 ≤ pathRwt g es := by
  intro es
  induction es with
  | nil =>
    intro a b _
    exact le_refl _
  | cons e rest ih =>
    intro a b h
    rw [pathRwt_cons]
    have h1 := hf a e h.1
    have h2 := ih _ b h.2
    omega

theorem activePath_concat (g : DLGraph) (d : DL_sssp_direction) (e : DLEdge) :
    ∀ (es : List DLEdge) (a b : Nat), ActivePath g d es a b → e ∈ adjOf g d b →
      ActivePath g d (es ++ [e]) a (farEnd d e) := by
  intro es
  induction es with
  | nil =>
    intro a b h he
    have hab : a = b := h
    rw [hab]
    exact ⟨he, rfl⟩
  | cons x rest ih =>
    intro a b h he
    exact ⟨h.1, ih _ b h.2 he⟩

/-- A path from a vertex with a final distance to a vertex without one is at
least as long as the way to the nearest vertex on the heap. -/
theorem path_leaves_final (g : DLGraph) (d : DL_sssp_direction) (V : DistView) (m : Int)
    (hf : RwtNonneg g d)
    (hheap : ∀ y, V.read y = true → V.final y = false → m ≤ V.dist y)
    (hrel : ∀ a, V.final a = true → ∀ e ∈ adjOf g d a,
      V.read (farEnd d e) = true ∧ V.dist (farEnd d e) ≤ V.dist a + rwtOf g e) :
    ∀ (es : List DLEdge) (a t : Nat), ActivePath g d es a t → V.final a = true →
      V.final t = false → m ≤ V.dist a + pathRwt g es := by
  intro es
  induction es with
  | nil =>
    intro a t h ha ht
    have hat : a = t := h
    rw [hat, ht] at ha
    cases ha
  | cons e rest ih =>
    intro a t h ha ht
    obtain ⟨he, hrest⟩ := h
    obtain ⟨h1, h2⟩ := hrel a ha e he
    rw [pathRwt_cons]
    cases hfin : V.final (farEnd d e) with
    | true =>
      have := ih _ t hrest hfin ht
      omega
    | false =>
      have h3 := hheap _ h1 hfin
      have h4 := pathRwt_nonneg g d hf rest _ t hrest
      omega

/-! ## The invariant of a pass on views -/

theorem mem_sortBy (f : Nat → Int) (l : List Nat) (y : Nat) : y ∈ sortBy f l ↔ y ∈ l :=
  mem_insertionSort_gamma f l y

theorem nodup_sortBy (f : Nat → Int) (l : List Nat) (h : l.Nodup) : (sortBy f l).Nodup :=
  nodup_insertionSort_gamma f l h

theorem sorted_sortBy (f : Nat → Int) (l : List Nat) :
    (sortBy f l).Sorted (fun a b => f a ≤ f b) :=
  sorted_insertionSort_gamma f l

/-- An edge whose far end has a distance within the reach of the edge leaves
the view as it is and is relaxed. -/
theorem SpInv.skip_step {g : DLGraph} {d : DL_sssp_direction} {root u : Nat} {it : DLEdge}
    {rest : AdjList} {V : DistView} (h : SpInv g d root u (it :: rest) V)
    (hrd : V.read (farEnd d it) = true)
    (hle : V.dist (farEnd d it) ≤ V.dist u + rwtOf g it) : SpInv g d root u rest V :=
  { root_final := h.root_final
    root_dist := h.root_dist
    final_read := h.final_read
    heap_iff := h.heap_iff
    nodup := h.nodup
    sorted := h.sorted
    attained := h.attained
    relaxed := by
      intro a ha e he hpend
      by_cases hc : a = u ∧ e = it
      · obtain ⟨hau, hei⟩ := hc
        rw [hei, hau]
        exact ⟨hrd, hle⟩
      · refine h.relaxed a ha e he ?_
        intro hau hm
        rcases List.mem_cons.1 hm with hm | hm
        · exact hc ⟨hau, hm⟩
        · exact hpend hau hm
    order := h.order
    lower := h.lower
    cur_final := h.cur_final
    cur_max := h.cur_max }

/-- An edge that gives its far end `v` a smaller distance: the view with the
new distance of `v`, with `v` read and on the heap, keeps the invariant. -/
theorem SpInv.lower_step {g : DLGraph} {d : DL_sssp_direction} {root u : Nat} {it : DLEdge}
    {rest : AdjList} {V : DistView} (h : SpInv g d root u (it :: rest) V)
    (hf : RwtNonneg g d) (hit : it ∈ adjOf g d u) (heap' : List Nat)
    (hfin : V.final (farEnd d it) = false)
    (hlt : V.read (farEnd d it) = true → V.dist u + rwtOf g it < V.dist (farEnd d it))
    (hmem : ∀ y, y ∈ heap' ↔ y ∈ V.heap ∨ y = farEnd d it) (hnd : heap'.Nodup)
    (hsorted : heap'.Sorted (fun a b =>
      Function.update V.dist (farEnd d it) (V.dist u + rwtOf g it) a ≤
        Function.update V.dist (farEnd d it) (V.dist u + rwtOf g it) b)) :
    SpInv g d root u rest
      { V with
        dist := Function.update V.dist (farEnd d it) (V.dist u + rwtOf g it)
        read := Function.update V.read (farEnd d it) true
        heap := heap' } := by
  have hw : 0 ≤ rwtOf g it := hf u it hit
  have hne : ∀ a, V.final a = true → a ≠ farEnd d it := by
    intro a ha hav
    rw [hav, hfin] at ha
    cases ha
  have hdist : ∀ a, V.final a = true →
      Function.update V.dist (farEnd d it) (V.dist u + rwtOf g it) a = V.dist a :=
    fun a ha => Function.update_noteq (hne a ha) _ _
  have hread : ∀ y, V.read y = true → Function.update V.read (farEnd d it) true y = true := by
    intro y hy
    by_cases hyv : y = farEnd d it
    · rw [hyv, Function.update_same]
    · rw [Function.update_noteq hyv]
      exact hy
  refine
    { root_final := h.root_final
      root_dist := ?_
      final_read := fun a ha => hread a (h.final_read a ha)
      heap_iff := ?_
      nodup := hnd
      sorted := hsorted
      attained := ?_
      relaxed := ?_
      order := ?_
      lower := ?_
      cur_final := h.cur_final
      cur_max := ?_ }
  · show Function.update V.dist _ _ root = 0
    rw [hdist root h.root_final]
    exact h.root_dist
  · intro y
    show y ∈ heap' ↔ (Function.update V.read (farEnd d it) true y = true ∧ V.final y = false)
    rw [hmem y]
    by_cases hyv : y = farEnd d it
    · rw [hyv, Function.update_same]
      exact ⟨fun _ => ⟨rfl, hfin⟩, fun _ => Or.inr rfl⟩
    · rw [Function.update_noteq hyv, h.heap_iff y]
      exact ⟨fun hh => hh.resolve_right hyv, Or.inl⟩
  · intro t ht
    have ht' : Function.update V.read (farEnd d it) true t = true := ht
    show ∃ es, ActivePath g d es root t ∧ Function.update V.dist _ _ t = pathRwt g es
    by_cases htv : t = farEnd d it
    · obtain ⟨es, hes, hd⟩ := h.attained u (h.final_read u h.cur_final)
      refine ⟨es ++ [it], ?_, ?_⟩
      · rw [htv]
        exact activePath_concat g d it es root u hes hit
      · rw [htv, Function.update_same, pathRwt_concat, hd]
    · rw [Function.update_noteq htv] at ht'
      rw [Function.update_noteq htv]
      exact h.attained t ht'
  · intro a ha e he hpend
    show Function.update V.read _ true (farEnd d e) = true ∧
      Function.update V.dist _ _ (farEnd d e) ≤ Function.update V.dist _ _ a + rwtOf g e
    rw [hdist a ha]
    by_cases hc : a = u ∧ e = it
    · obtain ⟨hau, hei⟩ := hc
      rw [hei, hau, Function.update_same, Function.update_same]
      exact ⟨rfl, le_refl _⟩
    · have hold := h.relaxed a ha e he (by
        intro hau hm
        rcases List.mem_cons.1 hm with hm | hm
        · exact hc ⟨hau, hm⟩
        · exact hpend hau hm)
      refine ⟨hread _ hold.1, ?_⟩
      by_cases hbv : farEnd d e = farEnd d it
      · rw [hbv, Function.update_same]
        have h1 := hlt (by rw [← hbv]; exact hold.1)
        have h2 := hold.2
        rw [hbv] at h2
        omega
      · rw [Function.update_noteq hbv]
        exact hold.2
  · intro a ha y hy
    show Function.update V.dist _ _ a ≤ Function.update V.dist _ _ y
    rw [hdist a ha]
    by_cases hyv : y = farEnd d it
    · rw [hyv, Function.update_same]
      have := h.cur_max a ha
      omega
    · rw [Function.update_noteq hyv]
      exact h.order a ha y (((hmem y).1 hy).resolve_right hyv)
  · intro t ht es hes
    show Function.update V.dist _ _ t ≤ pathRwt g es
    rw [hdist t ht]
    exact h.lower t ht es hes
  · intro a ha
    show Function.update V.dist _ _ a ≤ Function.update V.dist _ _ u
    rw [hdist a ha, hdist u h.cur_final]
    exact h.cur_max a ha

/-- The body of the for loop keeps the invariant. -/
theorem SpInv.relax_step {g : DLGraph} {d : DL_sssp_direction} {root u : Nat} {it : DLEdge}
    {rest : AdjList} {V : DistView} (h : SpInv g d root u (it :: rest) V)
    (hf : RwtNonneg g d) (hit : it ∈ adjOf g d u) :
    SpInv g d root u rest (V.relax u (farEnd d it) (rwtOf g it)) := by
  have hw : 0 ≤ rwtOf g it := hf u it hit
  unfold DistView.relax
  cases hfin : V.final (farEnd d it) with
  | true =>
    simp only [if_true]
    refine h.skip_step (h.final_read _ hfin) ?_
    have := h.cur_max _ hfin
    omega
  | false =>
    simp only [Bool.false_eq_true, if_false]
    cases hrd : V.read (farEnd d it) with
    | false =>
      simp only [Bool.not_false, if_true]
      have hnm : farEnd d it ∉ V.heap := by
        intro hm
        have := ((h.heap_iff _).1 hm).1
        rw [hrd] at this
        cases this
      refine h.lower_step hf hit _ hfin (fun hh => by rw [hrd] at hh; cases hh) ?_ ?_
        (sorted_sortBy _ _)
      · intro y
        rw [mem_sortBy, List.mem_append, List.mem_singleton]
      · apply nodup_sortBy
        exact List.Nodup.append h.nodup (List.nodup_singleton _)
          (by
            intro a ha hb
            rw [List.mem_singleton] at hb
            rw [hb] at ha
            exact hnm ha)
    | true =>
      simp only [Bool.not_true, Bool.false_eq_true, if_false]
      have hm : farEnd d it ∈ V.heap := (h.heap_iff _).2 ⟨hrd, hfin⟩
      split
      · rename_i hgt
        refine h.lower_step hf hit _ hfin (fun _ => hgt) ?_ (nodup_sortBy _ _ h.nodup)
          (sorted_sortBy _ _)
        intro y
        rw [mem_sortBy]
        constructor
        · exact Or.inl
        · rintro (hy | hy)
          · exact hy
          · rw [hy]
            exact hm
      · rename_i hgt
        have hsame : Function.update V.read (farEnd d it) true = V.read := by
          funext y
          by_cases hyv : y = farEnd d it
          · rw [hyv, Function.update_same, hrd]
          · rw [Function.update_noteq hyv]
        rw [hsame]
        exact h.skip_step hrd (not_lt.1 hgt)

/-- The extraction of the front of the heap keeps the invariant: the front is
a vertex of least distance on the heap, so no path to it is shorter than its
distance. -/
theorem SpInv.extract_step {g : DLGraph} {d : DL_sssp_direction} {root u0 : Nat}
    {V : DistView} (h : SpInv g d root u0 [] V) (hf : RwtNonneg g d) (u : Nat)
    (rest : List Nat) (hheap : V.heap = u :: rest) :
    SpInv g d root u (adjOf g d u) (V.extract u rest) := by
  have hu : u ∈ V.heap := by
    rw [hheap]
    exact List.mem_cons_self _ _
  obtain ⟨hur, huf⟩ := (h.heap_iff u).1 hu
  have hnd := h.nodup
  rw [hheap, List.nodup_cons] at hnd
  have hsorted := h.sorted
  rw [hheap] at hsorted
  have hmin : ∀ y ∈ V.heap, V.dist u ≤ V.dist y := by
    intro y hy
    rw [hheap] at hy
    rcases List.mem_cons.1 hy with hy | hy
    · rw [hy]
    · exact List.rel_of_sorted_cons hsorted y hy
  have hmono : ∀ a, V.final a = true → Function.update V.final u true a = true := by
    intro a ha
    by_cases hau : a = u
    · rw [hau, Function.update_same]
    · rw [Function.update_noteq hau]
      exact ha
  have hcases : ∀ a, Function.update V.final u true a = true → a = u ∨ V.final a = true := by
    intro a ha
    by_cases hau : a = u
    · exact Or.inl hau
    · rw [Function.update_noteq hau] at ha
      exact Or.inr ha
  unfold DistView.extract
  refine
    { root_final := hmono root h.root_final
      root_dist := h.root_dist
      final_read := ?_
      heap_iff := ?_
      nodup := nodup_sortBy _ _ hnd.2
      sorted := sorted_sortBy _ _
      attained := h.attained
      relaxed := ?_
      order := ?_
      lower := ?_
      cur_final := ?_
      cur_max := ?_ }
  · intro a ha
    rcases hcases a ha with hau | hfa
    · rw [hau]
      exact hur
    · exact h.final_read a hfa
  · intro y
    show y ∈ sortBy V.dist rest ↔ (V.read y = true ∧ Function.update V.final u true y = false)
    rw [mem_sortBy]
    by_cases hyu : y = u
    · rw [hyu, Function.update_same]
      exact ⟨fun hh => absurd hh hnd.1, fun hh => by cases hh.2⟩
    · rw [Function.update_noteq hyu, ← h.heap_iff y, hheap, List.mem_cons]
      exact ⟨Or.inr, fun hh => hh.resolve_left hyu⟩
  · intro a ha e he hpend
    rcases hcases a ha with hau | hfa
    · exact absurd (by rw [← hau]; exact he) (hpend hau)
    · exact h.relaxed a hfa e he (fun _ => List.not_mem_nil _)
  · intro a ha y hy
    have hy' : y ∈ V.heap := by
      rw [hheap]
      exact List.mem_cons_of_mem _ ((mem_sortBy _ _ _).1 hy)
    rcases hcases a ha with hau | hfa
    · rw [hau]
      exact hmin y hy'
    · exact h.order a hfa y hy'
  · intro t ht es hes
    rcases hcases t ht with htu | hft
    · rw [htu]
      rw [htu] at hes
      have := path_leaves_final g d V (V.dist u) hf
        (fun y hy1 hy2 => hmin y ((h.heap_iff y).2 ⟨hy1, hy2⟩))
        (fun a ha e he => h.relaxed a ha e he (fun _ => List.not_mem_nil _))
        es root u hes h.root_final huf
      rw [h.root_dist] at this
      show V.dist u ≤ pathRwt g es
      omega
    · exact h.lower t hft es hes
  · show Function.update V.final u true u = true
    rw [Function.update_same]
  · intro a ha
    rcases hcases a ha with hau | hfa
    · rw [hau]
    · exact h.order a hfa u hu

/-- The first extraction, of the root, gives the invariant. -/
theorem SpInit.extract_root {g : DLGraph} {d : DL_sssp_direction} {root : Nat} {V : DistView}
    (h : SpInit root V) (hf : RwtNonneg g d) :
    SpInv g d root root (adjOf g d root) (V.extract root []) := by
  have hcases : ∀ a, Function.update V.final root true a = true → a = root := by
    intro a ha
    by_contra hau
    rw [Function.update_noteq hau, h.no_final a] at ha
    cases ha
  have hroot : Function.update V.final root true root = true := by
    rw [Function.update_same]
  unfold DistView.extract
  refine
    { root_final := hroot
      root_dist := h.dist_root
      final_read := ?_
      heap_iff := ?_
      nodup := List.nodup_nil
      sorted := List.sorted_nil
      attained := ?_
      relaxed := ?_
      order := ?_
      lower := ?_
      cur_final := hroot
      cur_max := ?_ }
  · intro a ha
    rw [hcases a ha]
    exact (h.read_iff root).2 rfl
  · intro y
    show y ∈ sortBy V.dist [] ↔ (V.read y = true ∧ Function.update V.final root true y = false)
    constructor
    · intro hy
      cases hy
    · rintro ⟨h1, h2⟩
      rw [(h.read_iff y).1 h1, Function.update_same] at h2
      cases h2
  · intro t ht
    rw [(h.read_iff t).1 ht]
    exact ⟨[], rfl, h.dist_root⟩
  · intro a ha e he hpend
    have hau := hcases a ha
    exact absurd (by rw [← hau]; exact he) (hpend hau)
  · intro a _ y hy
    cases hy
  · intro t ht es hes
    rw [hcases t ht]
    show V.dist root ≤ _
    rw [h.dist_root]
    exact pathRwt_nonneg g d hf es root t hes
  · intro a ha
    rw [hcases a ha]

/-! ## The view after the steps of the code -/

theorem SameDist.same (s : SPState) : SameDist s s :=
  ⟨rfl, rfl, rfl, rfl, rfl, rfl, rfl, rfl, rfl, rfl, rfl⟩

theorem SameDist.next {s s1 s2 : SPState} (h1 : SameDist s s1) (h2 : SameDist s1 s2) :
    SameDist s s2 :=
  ⟨h2.dx.trans h1.dx, h2.dy.trans h1.dy, h2.dist_list.trans h1.dist_list,
    h2.dist_token.trans h1.dist_token, h2.final_dist_list.trans h1.final_dist_list,
    h2.final_dist_token.trans h1.final_dist_token, h2.pq_dx.trans h1.pq_dx,
    h2.pq_dy.trans h1.pq_dy, h2.rwt.trans h1.rwt, h2.rwt_list.trans h1.rwt_list,
    h2.rwt_token.trans h1.rwt_token⟩

theorem SameDist.view_eq {s s' : SPState} (h : SameDist s s') (d : DL_sssp_direction) :
    s'.view d = s.view d := by
  unfold SPState.view getDist isDistRead isDistFinal pqOf
  rw [h.dx, h.dy, h.dist_list, h.dist_token, h.final_dist_list, h.final_dist_token, h.pq_dx,
    h.pq_dy]

theorem SameDist.rwtOk {s s' : SPState} (h : SameDist s s') {g : DLGraph} (hr : RwtOk g s) :
    RwtOk g s' := by
  intro e he
  unfold isRwtValid at he
  rw [h.rwt_list, h.rwt_token] at he
  rw [h.rwt]
  exact hr e he

theorem sameDist_setRelevancy (s : SPState) (d : DL_sssp_direction) (v : Nat) (b : Bool) :
    SameDist s (setRelevancy s d v b) := by
  cases d <;> exact ⟨rfl, rfl, rfl, rfl, rfl, rfl, rfl, rfl, rfl, rfl, rfl⟩

theorem sameDist_updateRel (s : SPState) (d : DL_sssp_direction) (v : Nat) :
    SameDist s (if d = .DL_sssp_forward then updateDxRel s v else updateDyRel s v) := by
  split <;> exact ⟨rfl, rfl, rfl, rfl, rfl, rfl, rfl, rfl, rfl, rfl, rfl⟩

theorem sameDist_setDistFrom (s : SPState) (d : DL_sssp_direction) (v k : Nat) :
    SameDist s (setDistFrom s d v k) := by
  cases d <;> exact ⟨rfl, rfl, rfl, rfl, rfl, rfl, rfl, rfl, rfl, rfl, rfl⟩

theorem sameDist_insertRelevantVertices (g : DLGraph) (s : SPState) (u : Nat)
    (d : DL_sssp_direction) : SameDist s (insertRelevantVertices g s u d) := by
  cases d <;> exact ⟨rfl, rfl, rfl, rfl, rfl, rfl, rfl, rfl, rfl, rfl, rfl⟩

theorem sameDist_updateSPT (s s' : SPState) (e : DLEdge) (d : DL_sssp_direction)
    (h : updateSPT s e d = some s') : SameDist s s' := by
  unfold updateSPT at h
  cases d with
  | DL_sssp_forward =>
    simp only at h
    split at h
    · cases h
    · simp only [Option.some.injEq] at h
      rw [← h]
      split <;> exact ⟨rfl, rfl, rfl, rfl, rfl, rfl, rfl, rfl, rfl, rfl, rfl⟩
  | DL_sssp_backward =>
    simp only at h
    split at h
    · cases h
    · simp only [Option.some.injEq] at h
      rw [← h]
      split <;> exact ⟨rfl, rfl, rfl, rfl, rfl, rfl, rfl, rfl, rfl, rfl, rfl⟩

theorem sameDist_lazySPT (lazy : Int) (s s' : SPState) (e : DLEdge) (d : DL_sssp_direction)
    (h : (if lazy = 0 then updateSPT s e d else some s) = some s') : SameDist s s' := by
  split at h
  · exact sameDist_updateSPT s s' e d h
  · simp only [Option.some.injEq] at h
    rw [← h]
    exact SameDist.same s

theorem view_setDist (s : SPState) (d : DL_sssp_direction) (v : Nat) (x : Int) :
    (setDist s d v x).view d =
      { s.view d with dist := Function.update (s.view d).dist v x } := by
  cases d <;> rfl

theorem view_readDist (s : SPState) (d : DL_sssp_direction) (v : Nat) :
    (readDist s v).view d =
      { s.view d with read := Function.update (s.view d).read v true } := by
  have hr : isDistRead (readDist s v) = Function.update (isDistRead s) v true := by
    funext x
    unfold isDistRead readDist
    simp only
    by_cases hx : x = v
    · rw [hx]
      simp
    · rw [Function.update_noteq hx, Function.update_noteq hx]
  unfold SPState.view
  rw [hr]
  cases d <;> rfl

theorem view_finalDist (s : SPState) (d : DL_sssp_direction) (v : Nat) :
    (finalDist s v).view d =
      { s.view d with final := Function.update (s.view d).final v true } := by
  have hr : isDistFinal (finalDist s v) = Function.update (isDistFinal s) v true := by
    funext x
    unfold isDistFinal finalDist
    simp only
    by_cases hx : x = v
    · rw [hx]
      simp
    · rw [Function.update_noteq hx, Function.update_noteq hx]
  unfold SPState.view
  rw [hr]
  cases d <;> rfl

theorem view_pushPBheap (s : SPState) (d : DL_sssp_direction) (v : Nat) :
    (pushPBheap s d v).view d =
      { s.view d with heap := sortBy (s.view d).dist ((s.view d).heap ++ [v]) } := by
  cases d <;> rfl

theorem view_modifyPBheap (s : SPState) (d : DL_sssp_direction) (v : Nat) :
    (modifyPBheap s d v).view d =
      { s.view d with heap := sortBy (s.view d).dist (s.view d).heap } := by
  cases d <;> rfl

theorem view_popPBheap (s : SPState) (d : DL_sssp_direction) (rest : List Nat) :
    (popPBheap s d rest).view d =
      { s.view d with heap := sortBy (s.view d).dist rest } := by
  cases d <;> rfl

/-- The reduced weight of the scanned edge is valid and right after lines
762-767. -/
theorem rwt_step (g : DLGraph) (s s1 : SPState) (it : DLEdge) (d : DL_sssp_direction)
    (hr : RwtOk g s)
    (h : (if isRwtValid s it then some s
        else if g.pi it.u + it.wt - g.pi it.v ≥ 0 then
          some (updateRwt
            { s with rwt := Function.update s.rwt it (g.pi it.u + it.wt - g.pi it.v) } it)
        else none) = some s1) :
    RwtOk g s1 ∧ s1.view d = s.view d ∧ s1.rwt it = rwtOf g it := by
  split at h
  · rename_i hv
    simp only [Option.some.injEq] at h
    rw [← h]
    exact ⟨hr, rfl, hr it hv⟩
  · rename_i hv
    split at h
    · simp only [Option.some.injEq] at h
      rw [← h]
      refine ⟨?_, ?_, ?_⟩
      · intro e he
        show Function.update s.rwt it _ e = rwtOf g e
        by_cases hei : e = it
        · rw [hei, Function.update_same]
          rfl
        · rw [Function.update_noteq hei]
          apply hr e
          have he' : (Function.update s.rwt_list it s.rwt_token e == s.rwt_token) = true := he
          rw [Function.update_noteq hei] at he'
          exact he'
      · cases d <;> rfl
      · show Function.update s.rwt it _ it = _
        rw [Function.update_same]
        rfl
    · cases h

theorem rwtOk_of_fields {g : DLGraph} {s s' : SPState} (h1 : s'.rwt = s.rwt)
    (h2 : s'.rwt_list = s.rwt_list) (h3 : s'.rwt_token = s.rwt_token) (hr : RwtOk g s) :
    RwtOk g s' := by
  intro e he
  unfold isRwtValid at he
  rw [h2, h3] at he
  rw [h1]
  exact hr e he

theorem rwtOk_setDist {g : DLGraph} {s : SPState} (d : DL_sssp_direction) (v : Nat) (x : Int)
    (hr : RwtOk g s) : RwtOk g (setDist s d v x) := by
  cases d <;> exact rwtOk_of_fields rfl rfl rfl hr

theorem rwtOk_readDist {g : DLGraph} {s : SPState} (v : Nat) (hr : RwtOk g s) :
    RwtOk g (readDist s v) :=
  rwtOk_of_fields rfl rfl rfl hr

theorem rwtOk_finalDist {g : DLGraph} {s : SPState} (v : Nat) (hr : RwtOk g s) :
    RwtOk g (finalDist s v) :=
  rwtOk_of_fields rfl rfl rfl hr

theorem rwtOk_setPq {g : DLGraph} {s : SPState} (d : DL_sssp_direction) (l : List Nat)
    (hr : RwtOk g s) : RwtOk g (setPq s d l) := by
  cases d <;> exact rwtOk_of_fields rfl rfl rfl hr

theorem sameDist_relFresh (s3 : SPState) (d : DL_sssp_direction) (v : Nat) (rel_u : Bool) :
    SameDist s3
      (if (!if d = DL_sssp_direction.DL_sssp_forward then isDxRelValid s3 v
          else isDyRelValid s3 v) = true then
        if d = DL_sssp_direction.DL_sssp_forward then updateDxRel (setRelevancy s3 d v rel_u) v
        else updateDyRel (setRelevancy s3 d v rel_u) v
      else s3) := by
  generalize (if d = DL_sssp_direction.DL_sssp_forward then isDxRelValid s3 v
    else isDyRelValid s3 v) = b
  cases b
  · simp only [Bool.not_false, if_true]
    exact (sameDist_setRelevancy s3 d v rel_u).next (sameDist_updateRel _ d v)
  · simp only [Bool.not_true, Bool.false_eq_true, if_false]
    exact SameDist.same s3

/-- The view after the body of the for loop on the code, and the reduced
weights stay right. -/
theorem relaxEdge_view (lazy : Int) (g : DLGraph) (d : DL_sssp_direction) (u : Nat)
    (rel_u : Bool) (it : DLEdge) (s s' : SPState) (nr nr' : Nat) (hr : RwtOk g s)
    (h : relaxEdge lazy g d u rel_u it s nr = some (s', nr')) :
    RwtOk g s' ∧ s'.view d = (s.view d).relax u (farEnd d it) (rwtOf g it) := by
  unfold relaxEdge at h
  simp only at h
  unfold DistView.relax
  split at h
  · rename_i hfin
    simp only [Option.some.injEq, Prod.mk.injEq] at h
    rw [← h.1]
    have hfin' : (s.view d).final (farEnd d it) = true := hfin
    rw [if_pos hfin']
    exact ⟨hr, rfl⟩
  · rename_i hfin
    have hfin' : ¬ (s.view d).final (farEnd d it) = true := hfin
    rw [if_neg hfin']
    split at h
    · cases h
    · rename_i s1 hvalid
      obtain ⟨hr1, hv1, hw⟩ := rwt_step g s s1 it d hr hvalid
      have hdu : getDist s1 d u = (s.view d).dist u := by
        have : (s1.view d).dist u = (s.view d).dist u := by rw [hv1]
        exact this
      have hdv : getDist s1 d (farEnd d it) = (s.view d).dist (farEnd d it) := by
        have : (s1.view d).dist (farEnd d it) = (s.view d).dist (farEnd d it) := by rw [hv1]
        exact this
      have hrd : isDistRead s1 (farEnd d it) = (s.view d).read (farEnd d it) := by
        have : (s1.view d).read (farEnd d it) = (s.view d).read (farEnd d it) := by rw [hv1]
        exact this
      rw [hw, hdu] at h
      split at h
      · cases h
      · split at h
        · rename_i hnr
          rw [hrd] at hnr
          rw [if_pos hnr]
          split at h
          · cases h
          · rename_i s3 hs3
            have h23 := sameDist_lazySPT lazy _ s3 it d hs3
            have h34 := sameDist_relFresh s3 d (farEnd d it) rel_u
            generalize (if (!if d = DL_sssp_direction.DL_sssp_forward then
                    isDxRelValid s3 (farEnd d it)
                  else isDyRelValid s3 (farEnd d it)) = true then
                if d = DL_sssp_direction.DL_sssp_forward then
                  updateDxRel (setRelevancy s3 d (farEnd d it) rel_u) (farEnd d it)
                else updateDyRel (setRelevancy s3 d (farEnd d it) rel_u) (farEnd d it)
              else s3) = s4 at h h34
            have h24 := h23.next h34
            have hv4 : s4.view d = { s.view d with
                dist := Function.update (s.view d).dist (farEnd d it)
                  ((s.view d).dist u + rwtOf g it) } := by
              rw [h24.view_eq, view_setDist, hv1]
            split at h
            · cases h
            · split at h
              · simp only [Option.some.injEq, Prod.mk.injEq] at h
                rw [← h.1]
                refine ⟨?_, ?_⟩
                · exact rwtOk_readDist _ ((sameDist_setDistFrom _ d _ _).rwtOk
                    (rwtOk_setPq d _ (h24.rwtOk (rwtOk_setDist d _ _ hr1))))
                · rw [view_readDist, (sameDist_setDistFrom _ d _ _).view_eq, view_pushPBheap,
                    hv4]
              · simp only [Option.some.injEq, Prod.mk.injEq] at h
                rw [← h.1]
                refine ⟨?_, ?_⟩
                · exact rwtOk_readDist _ (rwtOk_setPq d _ (h24.rwtOk (rwtOk_setDist d _ _ hr1)))
                · rw [view_readDist, view_pushPBheap, hv4]
        · rename_i hnr
          rw [hrd] at hnr
          rw [if_neg hnr]
          split at h
          · cases h
          · rw [hdv] at h
            split at h
            · rename_i hgt
              rw [if_pos hgt]
              split at h
              · cases h
              · rename_i s5 hs5
                have h45 := sameDist_lazySPT lazy _ s5 it d hs5
                simp only [Option.some.injEq, Prod.mk.injEq] at h
                rw [← h.1]
                have h56 : SameDist s5
                    (if getRelevancy s5 d (farEnd d it) = true then
                      setDistFrom s5 d (farEnd d it) (getDistFrom s5 d u + 1)
                    else s5) := by
                  split
                  · exact sameDist_setDistFrom s5 d _ _
                  · exact SameDist.same s5
                generalize (if getRelevancy s5 d (farEnd d it) = true then
                    setDistFrom s5 d (farEnd d it) (getDistFrom s5 d u + 1)
                  else s5) = s6 at h56 ⊢
                have h23 := (sameDist_setRelevancy
                  (setDist s1 d (farEnd d it) ((s.view d).dist u + rwtOf g it)) d (farEnd d it)
                  rel_u).next (sameDist_updateRel _ d (farEnd d it))
                have h46 := h45.next h56
                refine ⟨?_, ?_⟩
                · exact rwtOk_readDist _ (h46.rwtOk (rwtOk_setPq d _
                    (h23.rwtOk (rwtOk_setDist d _ _ hr1))))
                · rw [view_readDist, h46.view_eq, view_modifyPBheap, h23.view_eq, view_setDist,
                    hv1]
            · rename_i hgt
              rw [if_neg hgt]
              simp only [Option.some.injEq, Prod.mk.injEq] at h
              rw [← h.1]
              refine ⟨?_, ?_⟩
              · exact rwtOk_readDist _ hr1
              · rw [view_readDist, hv1]

/-- The for loop keeps the invariant and leaves no edge pending. -/
theorem scanSSSP_inv (lazy : Int) (g : DLGraph) (d : DL_sssp_direction) (root u : Nat)
    (rel_u : Bool) (hf : RwtNonneg g d) (l : AdjList) :
    ∀ (s s' : SPState) (nr nr' : Nat), RwtOk g s → SpInv g d root u l (s.view d) →
      (∀ x ∈ l, x ∈ adjOf g d u) → scanSSSP lazy g d u rel_u l s nr = some (s', nr') →
      RwtOk g s' ∧ SpInv g d root u [] (s'.view d) := by
  induction l with
  | nil =>
    intro s s' nr nr' hr hinv _ h
    simp only [scanSSSP, Option.some.injEq, Prod.mk.injEq] at h
    rw [← h.1]
    exact ⟨hr, hinv⟩
  | cons it rest ih =>
    intro s s' nr nr' hr hinv hrow h
    unfold scanSSSP at h
    split at h
    · cases h
    · rename_i s1 nr1 hstep
      obtain ⟨hr1, hv1⟩ := relaxEdge_view lazy g d u rel_u it s s1 nr nr1 hr hstep
      refine ih s1 s' nr1 nr' hr1 ?_ (fun x hx => hrow x (List.mem_cons_of_mem _ hx)) h
      rw [hv1]
      exact hinv.relax_step hf (hrow it (List.mem_cons_self _ _))

/-- The state in which the for loop starts: the view after the extraction, and
the list that is scanned is the adjacency list of the extracted vertex. -/
theorem extractSSSP_view (g : DLGraph) (d : DL_sssp_direction) (u : Nat) (rest : List Nat)
    (s s4 : SPState) (nr nr1 : Nat) (rel_u : Bool) (adj : AdjList) (hr : RwtOk g s)
    (h : extractSSSP g d u rest s nr = some (s4, nr1, rel_u, adj)) :
    RwtOk g s4 ∧ s4.view d = (s.view d).extract u rest ∧ adj = adjOf g d u := by
  unfold extractSSSP at h
  simp only at h
  split at h
  · cases h
  · rename_i adj0 hadj
    simp only [Option.some.injEq, Prod.mk.injEq] at h
    obtain ⟨h4, -, -, hadj0⟩ := h
    have h12 : SameDist (finalDist (popPBheap s d rest) u)
        (if getRelevancy (finalDist (popPBheap s d rest) u) d u = true then
          insertRelevantVertices g (finalDist (popPBheap s d rest) u) u d
        else finalDist (popPBheap s d rest) u) := by
      split
      · exact sameDist_insertRelevantVertices g _ u d
      · exact SameDist.same _
    generalize (if getRelevancy (finalDist (popPBheap s d rest) u) d u = true then
        insertRelevantVertices g (finalDist (popPBheap s d rest) u) u d
      else finalDist (popPBheap s d rest) u) = s2 at h4 h12
    have h23 := sameDist_updateRel s2 d u
    generalize (if d = DL_sssp_direction.DL_sssp_forward then updateDxRel s2 u
      else updateDyRel s2 u) = s3 at h4 h23
    have h34 : SameDist s3 s4 := by
      rw [← h4]
      split
      · exact ⟨rfl, rfl, rfl, rfl, rfl, rfl, rfl, rfl, rfl, rfl, rfl⟩
      · exact SameDist.same s3
    have h14 := (h12.next h23).next h34
    refine ⟨h14.rwtOk (rwtOk_finalDist u (rwtOk_setPq d _ hr)), ?_, ?_⟩
    · rw [h14.view_eq, view_finalDist, view_popPBheap]
      rfl
    · rw [← hadj0]
      unfold adjOf
      rw [List.getD_eq_getElem?_getD, hadj]
      rfl

/-- The while loop ends in a state with the invariant. -/
theorem ssspLoop_inv (lazy : Int) (g : DLGraph) (d : DL_sssp_direction) (root : Nat)
    (hf : RwtNonneg g d) (fuel : Nat) :
    ∀ (s s' : SPState) (nr : Nat), RwtOk g s →
      (SpInit root (s.view d) ∨ ∃ u0, SpInv g d root u0 [] (s.view d)) →
      ssspLoop lazy g d fuel s nr = some s' → ∃ u, SpInv g d root u [] (s'.view d) := by
  have hbase : ∀ (s s' : SPState),
      (SpInit root (s.view d) ∨ ∃ u0, SpInv g d root u0 [] (s.view d)) →
      pqOf s d = [] → some s = some s' → ∃ u, SpInv g d root u [] (s'.view d) := by
    intro s s' hh hheap h
    simp only [Option.some.injEq] at h
    rw [← h]
    rcases hh with h1 | h1
    · have := h1.heap_eq
      have h2 : (s.view d).heap = [] := hheap
      rw [h2] at this
      cases this
    · exact h1
  induction fuel with
  | zero =>
    intro s s' nr _ hh h
    unfold ssspLoop at h
    split at h
    · rename_i hheap
      exact hbase s s' hh hheap h
    · cases h
  | succ n ih =>
    intro s s' nr hr hh h
    unfold ssspLoop at h
    split at h
    · rename_i hheap
      exact hbase s s' hh hheap h
    · rename_i u rest hheap
      split at h
      · cases h
      · rename_i s4 nr1 rel_u adj hext
        obtain ⟨hr4, hv4, hadj⟩ := extractSSSP_view g d u rest s s4 nr nr1 rel_u adj hr hext
        have hstart : SpInv g d root u adj (s4.view d) := by
          rw [hv4, hadj]
          rcases hh with h1 | ⟨u0, h1⟩
          · have hhe := h1.heap_eq
            have hheap' : (s.view d).heap = u :: rest := hheap
            rw [hheap'] at hhe
            simp only [List.cons.injEq] at hhe
            obtain ⟨hs, hrest⟩ := hhe
            subst hrest
            subst hs
            exact h1.extract_root hf
          · exact h1.extract_step hf u rest hheap
        split at h
        · cases h
        · rename_i s5 nr2 hscan
          obtain ⟨hr5, h5⟩ := scanSSSP_inv lazy g d root u rel_u hf adj s4 s5 nr1 nr2 hr4 hstart
            (fun x hx => by rw [← hadj]; exact hx) hscan
          split at h
          · simp only [Option.some.injEq] at h
            rw [← h]
            exact ⟨u, h5⟩
          · exact ih s5 s' nr2 hr5 (Or.inr ⟨u, h5⟩) h

/-- A pass from a scratch state whose stamps are behind their tokens and whose
reduced weights are right, on a graph whose active edges have non-negative
reduced weights: on return every vertex with a final distance has a path of
that reduced weight from the root, and no path from the root to it is
shorter. -/
theorem findSSSP_inv (lazy : Int) (g : DLGraph) (s s' : SPState) (x : Nat)
    (d : DL_sssp_direction) (fuel : Nat) (hst : DistStamps s) (hr : RwtOk g s)
    (hf : RwtNonneg g d) (h : findSSSP lazy g s x d fuel = some s') :
    ∀ t, isDistFinal s' t = true →
      (∃ es, ActivePath g d es x t ∧ getDist s' d t = pathRwt g es) ∧
        (∀ es, ActivePath g d es x t → getDist s' d t ≤ pathRwt g es) := by
  unfold findSSSP at h
  simp only at h
  split at h
  · cases h
  · rename_i hpq
    have hpq' : pqOf s d = [] := by
      have : pqOf (initFinalDist (initDist s)) d = pqOf s d := by cases d <;> rfl
      rw [← this]
      exact not_not.1 hpq
    have h34 := (sameDist_setRelevancy
      (setDistFrom (readDist (setDist (initFinalDist (initDist s)) d x 0) x) d x 0) d x
      false).next (sameDist_updateRel _ d x)
    generalize (if d = DL_sssp_direction.DL_sssp_forward then
        updateDxRel (setRelevancy
          (setDistFrom (readDist (setDist (initFinalDist (initDist s)) d x 0) x) d x 0) d x
          false) x
      else updateDyRel (setRelevancy
          (setDistFrom (readDist (setDist (initFinalDist (initDist s)) d x 0) x) d x 0) d x
          false) x) = s4 at h h34
    have h24 := (sameDist_setDistFrom
      (readDist (setDist (initFinalDist (initDist s)) d x 0) x) d x 0).next h34
    have hv1 : (initFinalDist (initDist s)).view d =
        ⟨getDist s d, fun y => s.dist_list y == s.dist_token + 1,
          fun y => s.final_dist_list y == s.final_dist_token + 1, pqOf s d⟩ := by
      cases d <;> rfl
    have hr4 : RwtOk g s4 :=
      h24.rwtOk (rwtOk_readDist x (rwtOk_setDist d x 0 (rwtOk_of_fields rfl rfl rfl hr)))
    have hinit : SpInit x ((pushPBheap s4 d x).view d) := by
      rw [view_pushPBheap, h24.view_eq, view_readDist, view_setDist, hv1]
      refine
        { heap_eq := ?_
          dist_root := ?_
          read_iff := ?_
          no_final := ?_ }
      · show sortBy _ (pqOf s d ++ [x]) = [x]
        rw [hpq']
        rfl
      · show Function.update (getDist s d) x 0 x = 0
        rw [Function.update_same]
      · intro y
        show Function.update (fun y => s.dist_list y == s.dist_token + 1) x true y = true ↔ y = x
        by_cases hy : y = x
        · rw [hy, Function.update_same]
          exact ⟨fun _ => rfl, fun _ => rfl⟩
        · rw [Function.update_noteq hy]
          constructor
          · intro hh
            have := stamp_ne_of_le _ _ hst.1 y
            rw [this] at hh
            cases hh
          · intro hh
            exact absurd hh hy
      · intro y
        exact stamp_ne_of_le _ _ hst.2 y
    split at h
    · cases h
    · rename_i s6 hloop
      simp only [Option.some.injEq] at h
      obtain ⟨u, hinv⟩ := ssspLoop_inv lazy g d x hf fuel _ s6 0 (rwtOk_setPq d _ hr4)
        (Or.inl hinit) hloop
      intro t ht
      have hfin : isDistFinal s' t = isDistFinal s6 t := by
        rw [← h]
        cases d <;> rfl
      have hdist : getDist s' d t = getDist s6 d t := by
        rw [← h]
        cases d <;> rfl
      rw [hfin] at ht
      rw [hdist]
      exact ⟨hinv.attained t (hinv.final_read t ht), hinv.lower t ht⟩

/-- In a reached state whose active edges are feasible, the active edges in the
adjacency lists of either direction have non-negative reduced weights. -/
theorem rwtNonneg_of_feasible (cfg : Config) (st : List (Enode × lbool)) (g : DLGraph)
    (hr : Reach cfg st g) (hfeas : AllFeasible g) (d : DL_sssp_direction) : RwtNonneg g d := by
  have hs := reach_storeInv cfg st g hr
  have hrow : ∀ (a : Nat) (e : DLEdge), e ∈ g.dAdj.getD a [] → 0 ≤ rwtOf g e := by
    intro a e he
    obtain ⟨l, hl, hel⟩ := mem_getD_row g.dAdj a e he
    exact hfeas l (List.getElem?_mem hl) e hel
  intro a e he
  unfold adjOf at he
  cases d with
  | DL_sssp_forward => exact hrow a e he
  | DL_sssp_backward =>
    have he' : e ∈ g.dAdjInc.getD a [] := he
    obtain ⟨l, hl, hel⟩ := mem_getD_row g.dAdjInc a e he'
    have ha : a < g.dAdjInc.length := by
      by_contra hc
      rw [List.getElem?_eq_none (Nat.le_of_not_lt hc)] at hl
      cases hl
    rw [hs.rows_in a ha] at hl
    cases hl
    have hed : e ∈ g.dEdges := List.mem_of_mem_filter hel
    have hu : e.u < g.dAdj.length := by
      rw [hs.len_d]
      exact (hs.dbound e hed).1
    apply hrow e.u e
    rw [List.getD_eq_getElem?_getD, hs.rows e.u hu]
    exact List.mem_filter.2 ⟨hed, by simp⟩

/-- The example graph is reached through the interface, its active edges are
feasible, and the example scratch state has its stamps behind their tokens and
no valid reduced weight. -/
theorem exSssp_ready :
    Reach exCfg
        [(exAtomE, getPolarity exAllTrue exAtomE), (exAtomC, getPolarity exAllTrue exAtomC),
          (exAtomB, getPolarity exAllTrue exAtomB), (exAtomA, getPolarity exAllTrue exAtomA)]
        exSsspGraph ∧
      AllFeasible exSsspGraph ∧ DistStamps exSsspState ∧ RwtOk exSsspGraph exSsspState := by
  have r1 : Reach exCfg [] (exStatic [exAtomA]) :=
    Reach.static exNoPol exAtomA Reach.init rfl (by rfl)
  have r2 : Reach exCfg [] (exStatic [exAtomA, exAtomB]) :=
    Reach.static exNoPol exAtomB r1 (by decide) (by rfl)
  have r3 : Reach exCfg [] (exStatic [exAtomA, exAtomB, exAtomC]) :=
    Reach.static exNoPol exAtomC r2 (by decide) (by rfl)
  have r4 : Reach exCfg [] (exStatic [exAtomA, exAtomB, exAtomC, exAtomE]) :=
    Reach.static exNoPol exAtomE r3 (by decide) (by rfl)
  have c1 : Reach exCfg [(exAtomA, getPolarity exAllTrue exAtomA)]
      (exCheck exAllTrue (exStatic [exAtomA, exAtomB, exAtomC, exAtomE]) exAtomA) :=
    Reach.check exAllTrue exAtomA false 2 true r4 (by decide) (by rfl)
  have c2 : Reach exCfg
      [(exAtomB, getPolarity exAllTrue exAtomB), (exAtomA, getPolarity exAllTrue exAtomA)]
      (exCheck exAllTrue
        (exCheck exAllTrue (exStatic [exAtomA, exAtomB, exAtomC, exAtomE]) exAtomA) exAtomB) :=
    Reach.check exAllTrue exAtomB false 2 true c1 (by decide) (by rfl)
  have c3 : Reach exCfg
      [(exAtomC, getPolarity exAllTrue exAtomC), (exAtomB, getPolarity exAllTrue exAtomB),
        (exAtomA, getPolarity exAllTrue exAtomA)]
      (exCheck exAllTrue (exCheck exAllTrue
        (exCheck exAllTrue (exStatic [exAtomA, exAtomB, exAtomC, exAtomE]) exAtomA) exAtomB)
        exAtomC) :=
    Reach.check exAllTrue exAtomC false 2 true c2 (by decide) (by rfl)
  have c4 : Reach exCfg
      [(exAtomE, getPolarity exAllTrue exAtomE), (exAtomC, getPolarity exAllTrue exAtomC),
        (exAtomB, getPolarity exAllTrue exAtomB), (exAtomA, getPolarity exAllTrue exAtomA)]
      exSsspGraph :=
    Reach.check exAllTrue exAtomE false 2 true c3 (by decide) (by rfl)
  refine ⟨c4, by decide, ⟨fun _ => Nat.le_refl _, fun _ => Nat.le_refl _⟩, ?_⟩
  intro e he
  have hv : isRwtValid exSsspState e = false := rfl
  rw [hv] at he
  cases he

/-- C20, amended: SSSP distance soundness for the final distances.  In a state
reached through the interface whose active edges are feasible (the invariant
`rwt >= 0` of the code), from a scratch state whose distance stamps are behind
their tokens and whose valid reduced weights are right: on return of
`findSSSP( x, direction )`, for every vertex `t` whose distance was made final
during the pass (which was extracted from the heap), the stored distance of `t`
is the total reduced weight of an active path between the root `x` and `t` in
the direction, and no such path has a smaller total reduced weight. -/
theorem findSSSP_final_dist (cfg : Config) (st : List (Enode × lbool)) (g : DLGraph)
    (LAZY_GENERATION : Int) (s s' : SPState) (x : Nat) (direction : DL_sssp_direction)
    (fuel : Nat) (hr : Reach cfg st g) (hfeas : AllFeasible g) (hst : DistStamps s)
    (hrwt : RwtOk g s) (h : findSSSP LAZY_GENERATION g s x direction fuel = some s') :
    ∀ t, isDistFinal s' t = true →
      (∃ es, ActivePath g direction es x t ∧ getDist s' direction t = pathRwt g es) ∧
        (∀ es, ActivePath g direction es x t → getDist s' direction t ≤ pathRwt g es) :=
  findSSSP_inv LAZY_GENERATION g s s' x direction fuel hst hrwt
    (rwtNonneg_of_feasible cfg st g hr hfeas direction) h

theorem findSSSP_final_dist_witness :
    Reach exCfg
        [(exAtomE, getPolarity exAllTrue exAtomE), (exAtomC, getPolarity exAllTrue exAtomC),
          (exAtomB, getPolarity exAllTrue exAtomB), (exAtomA, getPolarity exAllTrue exAtomA)]
        exSsspGraph ∧
      AllFeasible exSsspGraph ∧ DistStamps exSsspState ∧ RwtOk exSsspGraph exSsspState ∧
      findSSSP 0 exSsspGraph exSsspState 0 .DL_sssp_forward 4 = some exSsspDone ∧
      isDistFinal exSsspDone 3 = true ∧
      ∀ t, isDistFinal exSsspDone t = true →
        (∃ es, ActivePath exSsspGraph .DL_sssp_forward es 0 t ∧
          getDist exSsspDone .DL_sssp_forward t = pathRwt exSsspGraph es) ∧
        (∀ es, ActivePath exSsspGraph .DL_sssp_forward es 0 t →
          getDist exSsspDone .DL_sssp_forward t ≤ pathRwt exSsspGraph es) :=
  ⟨exSssp_ready.1, exSssp_ready.2.1, exSssp_ready.2.2.1, exSssp_ready.2.2.2, by rfl, by rfl,
    findSSSP_final_dist exCfg _ exSsspGraph 0 exSsspState exSsspDone 0 .DL_sssp_forward 4
      exSssp_ready.1 exSssp_ready.2.1 exSssp_ready.2.2.1 exSssp_ready.2.2.2 (by rfl)⟩

/-- C20 as stated fails: in the example the pass from `x0` returns after the
second extraction, when no relevant vertex is left on the heap; the vertex
`x1` has received the distance 5 along the edge `x0 -> x1`, and the active
path `x0 -> x2 -> x1` has the total reduced weight 2. -/
theorem findSSSP_reached_counterexample :
    Reach exCfg
        [(exAtomE, getPolarity exAllTrue exAtomE), (exAtomC, getPolarity exAllTrue exAtomC),
          (exAtomB, getPolarity exAllTrue exAtomB), (exAtomA, getPolarity exAllTrue exAtomA)]
        exSsspGraph ∧
      AllFeasible exSsspGraph ∧ DistStamps exSsspState ∧ RwtOk exSsspGraph exSsspState ∧
      findSSSP 0 exSsspGraph exSsspState 0 .DL_sssp_forward 4 = some exSsspDone ∧
      isDistRead exSsspDone 1 = true ∧ getDist exSsspDone .DL_sssp_forward 1 = 5 ∧
      ActivePath exSsspGraph .DL_sssp_forward
        [⟨exAtomB, 2, 0, 2, 1⟩, ⟨exAtomC, 4, 2, 1, 1⟩] 0 1 ∧
      pathRwt exSsspGraph [⟨exAtomB, 2, 0, 2, 1⟩, ⟨exAtomC, 4, 2, 1, 1⟩] = 2 :=
  ⟨exSssp_ready.1, exSssp_ready.2.1, exSssp_ready.2.2.1, exSssp_ready.2.2.2, by rfl, by rfl,
    by rfl, ⟨by decide, by decide, rfl⟩, by rfl⟩

/-! ## Atoms outside the four shapes -/

/-- On an atom `-k <= x` without an entry `getDLEdge` gives no edge pair: the
classification reads `rhs->get1st( )` (lines 85 and 87), the first argument of
the variable, which has none. -/
theorem getDLEdge_neg_const_any (cfg : Config) (A : AtomStore) (g : DLGraph) (k : Int) (n : Nat)
    (hn : findEdges g.edgeMap (.leq (.uminus (.num k)) (.var n)) = none) :
    getDLEdge cfg A g (.leq (.uminus (.num k)) (.var n)) = none := by
  unfold getDLEdge
  rw [hn]
  have hc : classify (.leq (.uminus (.num k)) (.var n)) = none := by
    simp [classify, Enode.get1st, Enode.get2nd, Enode.isVar, Enode.isConstant,
      Enode.isUminusConstant, Enode.isUminus, Enode.isMinus, Enode.getValue]
  simp only [hc]
  split <;> rfl

/-- C26, the code at the failing input: for the atom `5 <= x0` the weight is
the value of the left child, 5; for the atom `-5 <= x0`, whose left child is a
negated constant, the classification reads `rhs->get1st( )` (lines 85 and 87),
the first argument of the variable `x0`, which has none, and `getDLEdge` gives no
edge pair. -/
theorem getDLEdge_neg_const_var :
    classify exConstVar = some (5, none, some (.var 0)) ∧
      classify exNegConstVar = none ∧
      getDLEdge exCfg exNoPol DLGraph.empty exNegConstVar = none :=
  ⟨by rfl, by rfl, by rfl⟩

/-- The atoms that fail the assertion on the constant are rejected. -/
theorem classify_no_constant (lhs rhs : Enode)
    (hvc : ((lhs.isVar || lhs.isConstant || lhs.isUminusConstant) &&
      (rhs.isVar || rhs.isConstant || rhs.isUminusConstant)) = false)
    (hc : isConstLike (if lhs.isMinus then rhs else lhs) = false) :
    classify (.leq lhs rhs) = none := by
  unfold classify
  simp only [Enode.get1st, Enode.get2nd]
  rw [if_neg (by rw [hvc]; exact Bool.false_ne_true)]
  unfold isConstLike at hc
  rw [if_neg (by rw [hc]; exact Bool.false_ne_true)]

/-- C25, as the code has it: an atom `lhs <= rhs` without an entry, whose
children are not both a variable, a constant or a negated constant, and whose
child in the place of the constant (`rhs` when `lhs` is a difference, else
`lhs`) is neither a constant nor a negated constant, is of none of the four
shapes, and `getDLEdge` fails on it, by the assertion of line 97, and gives no
edge pair and no new state. -/
theorem getDLEdge_no_constant (cfg : Config) (A : AtomStore) (g : DLGraph) (lhs rhs : Enode)
    (hn : findEdges g.edgeMap (.leq lhs rhs) = none)
    (hvc : ((lhs.isVar || lhs.isConstant || lhs.isUminusConstant) &&
      (rhs.isVar || rhs.isConstant || rhs.isUminusConstant)) = false)
    (hc : isConstLike (if lhs.isMinus then rhs else lhs) = false) :
    fourShapes (.leq lhs rhs) = false ∧ getDLEdge cfg A g (.leq lhs rhs) = none := by
  constructor
  · unfold fourShapes isConstLike
    unfold isConstLike at hc
    cases lhs <;> cases rhs <;>
      simp_all [Enode.isVar, Enode.isConstant, Enode.isUminusConstant, Enode.isUminus,
        Enode.isMinus, Enode.get1st, isVarDiff]
  · unfold getDLEdge
    rw [hn]
    simp only [classify_no_constant lhs rhs hvc hc]
    split <;> rfl

theorem getDLEdge_no_constant_witness :
    findEdges DLGraph.empty.edgeMap (.leq (.plus (.var 0) (.var 1)) (.var 2)) = none ∧
      fourShapes (.leq (.plus (.var 0) (.var 1)) (.var 2)) = false ∧
      getDLEdge exCfg exNoPol DLGraph.empty (.leq (.plus (.var 0) (.var 1)) (.var 2)) = none :=
  ⟨rfl, getDLEdge_no_constant exCfg exNoPol DLGraph.empty (.plus (.var 0) (.var 1)) (.var 2)
    rfl (by rfl) (by rfl)⟩

/-- C25 as stated fails: the atom `3 <= 5` is of none of the four shapes, it has
no entry and no polarity, and `getDLEdge` does not fail on it: it returns a
pair of edges between the vertex of the `NULL` term and the vertex of the term
`5`, and `edgeMap` has the new entry. -/
theorem getDLEdge_malformed_counterexample :
    fourShapes exConstAtom = false ∧ findEdges DLGraph.empty.edgeMap exConstAtom = none ∧
      hasPolarity exNoPol exConstAtom = false ∧
      ∃ g', getDLEdge exCfg exNoPol DLGraph.empty exConstAtom =
          some (⟨⟨exConstAtom, 0, 0, 1, 3⟩, ⟨exConstAtom, 1, 1, 0, -4⟩⟩, g') ∧
        g'.edgeMap = [(exConstAtom, ⟨⟨exConstAtom, 0, 0, 1, 3⟩, ⟨exConstAtom, 1, 1, 0, -4⟩⟩)] :=
  ⟨by rfl, by rfl, by rfl, _, by rfl, by rfl⟩

/-! ## Reduced and true weights of a path -/

theorem pathWt_cons (e : DLEdge) (es : List DLEdge) : pathWt (e :: es) = e.wt + pathWt es := by
  unfold pathWt
  simp only [List.map_cons, List.sum_cons]

/-- Along a forward path from `a` to `b` the reduced weights add up to
`pi[a] + wt - pi[b]`. -/
theorem pathRwt_forward (g : DLGraph) (hp : WellPlaced g) :
    ∀ (es : List DLEdge) (a b : Nat), ActivePath g .DL_sssp_forward es a b →
      pathRwt g es = g.pi a + pathWt es - g.pi b := by
  intro es
  induction es with
  | nil =>
    intro a b h
    have hab : a = b := h
    rw [hab]
    simp [pathRwt, pathWt]
  | cons e rest ih =>
    intro a b h
    obtain ⟨he, hrest⟩ := h
    have he' : e ∈ g.dAdj.getD a [] := he
    obtain ⟨l, hl, hel⟩ := mem_getD_row g.dAdj a e he'
    have hu : e.u = a := hp a l hl e hel
    have := ih _ b hrest
    have hfar : farEnd .DL_sssp_forward e = e.v := rfl
    rw [hfar] at this
    rw [pathRwt_cons, pathWt_cons, this]
    unfold rwtOf
    rw [hu]
    omega

/-- Along a backward path from `a` to `b`, which is a directed path from `b` to
`a`, the reduced weights add up to `pi[b] + wt - pi[a]`. -/
theorem pathRwt_backward (g : DLGraph)
    (hp : ∀ (i : Nat) (l : AdjList), g.dAdjInc[i]? = some l → ∀ x ∈ l, x.v = i) :
    ∀ (es : List DLEdge) (a b : Nat), ActivePath g .DL_sssp_backward es a b →
      pathRwt g es = g.pi b + pathWt es - g.pi a := by
  intro es
  induction es with
  | nil =>
    intro a b h
    have hab : a = b := h
    rw [hab]
    simp [pathRwt, pathWt]
  | cons e rest ih =>
    intro a b h
    obtain ⟨he, hrest⟩ := h
    have he' : e ∈ g.dAdjInc.getD a [] := he
    obtain ⟨l, hl, hel⟩ := mem_getD_row g.dAdjInc a e he'
    have hv : e.v = a := hp a l hl e hel
    have := ih _ b hrest
    have hfar : farEnd .DL_sssp_backward e = e.u := rfl
    rw [hfar] at this
    rw [pathRwt_cons, pathWt_cons, this]
    unfold rwtOf
    rw [hv]
    omega

theorem StoreInv.placedInc {st : List (Enode × lbool)} {g : DLGraph} (h : StoreInv st g) :
    ∀ (i : Nat) (l : AdjList), g.dAdjInc[i]? = some l → ∀ x ∈ l, x.v = i := by
  intro i l hl x hx
  have hi : i < g.dAdjInc.length := by
    by_contra hc
    rw [List.getElem?_eq_none (Nat.le_of_not_lt hc)] at hl
    cases hl
  rw [h.rows_in i hi] at hl
  cases hl
  simpa using (List.mem_filter.1 hx).2

/-- The true weight that belongs to a distance: `dist - pi[root] + pi[t]` in the
forward pass, `dist + pi[root] - pi[t]` in the backward pass. -/
theorem pathRwt_true (cfg : Config) (st : List (Enode × lbool)) (g : DLGraph)
    (hr : Reach cfg st g) (d : DL_sssp_direction) (es : List DLEdge) (x t : Nat)
    (h : ActivePath g d es x t) :
    pathRwt g es =
      (match d with
        | .DL_sssp_forward => g.pi x - g.pi t
        | .DL_sssp_backward => g.pi t - g.pi x) + pathWt es := by
  have hs := reach_storeInv cfg st g hr
  cases d with
  | DL_sssp_forward =>
    rw [pathRwt_forward g hs.wellPlaced es x t h]
    simp only
    omega
  | DL_sssp_backward =>
    rw [pathRwt_backward g hs.placedInc es x t h]
    simp only
    omega

/-- The example graph with the negative edge is reached through the interface,
its active edge is feasible, and the example scratch state has its stamps
behind their tokens and no valid reduced weight. -/
theorem exNeg_ready :
    Reach exCfg [(exAtom2, getPolarity exAllTrue exAtom2)] exNegGraph ∧
      AllFeasible exNegGraph ∧ DistStamps exNegState ∧ RwtOk exNegGraph exNegState := by
  have r1 : Reach exCfg [] (exStatic [exAtom2]) :=
    Reach.static exNoPol exAtom2 Reach.init rfl (by rfl)
  have c1 : Reach exCfg [(exAtom2, getPolarity exAllTrue exAtom2)] exNegGraph :=
    Reach.check exAllTrue exAtom2 false 2 true r1 (by decide) (by rfl)
  refine ⟨c1, by decide, ⟨fun _ => Nat.le_refl _, fun _ => Nat.le_refl _⟩, ?_⟩
  intro e he
  have hv : isRwtValid exNegState e = false := rfl
  rw [hv] at he
  cases he

/-- C21, as the code has it: true-weight recovery.  In a state reached through
the interface, for every vertex `t` whose distance computed by
`findSSSP( x, direction )` is the minimum reduced-weight length of the active
paths between the root `x` and `t` in the direction, the minimum true-weight
(sum of `wt`) length of these paths is `dist[t] - pi[x] + pi[t]` in the forward
pass and `dist[t] + pi[x] - pi[t]` in the backward pass. -/
theorem findSSSP_true_weight (cfg : Config) (st : List (Enode × lbool)) (g : DLGraph)
    (LAZY_GENERATION : Int) (s s' : SPState) (x : Nat) (direction : DL_sssp_direction)
    (fuel : Nat) (t : Nat) (hr : Reach cfg st g)
    (_hret : findSSSP LAZY_GENERATION g s x direction fuel = some s')
    (hex : ∃ es, ActivePath g direction es x t ∧ getDist s' direction t = pathRwt g es)
    (hmin : ∀ es, ActivePath g direction es x t → getDist s' direction t ≤ pathRwt g es) :
    (∃ es, ActivePath g direction es x t ∧ trueDist g s' direction x t = pathWt es) ∧
      (∀ es, ActivePath g direction es x t → trueDist g s' direction x t ≤ pathWt es) := by
  constructor
  · obtain ⟨es, hes, hd⟩ := hex
    refine ⟨es, hes, ?_⟩
    have := pathRwt_true cfg st g hr direction es x t hes
    unfold trueDist
    cases direction <;> simp only at this ⊢ <;> omega
  · intro es hes
    have h1 := hmin es hes
    have := pathRwt_true cfg st g hr direction es x t hes
    unfold trueDist
    cases direction <;> simp only at this ⊢ <;> omega

theorem findSSSP_true_weight_witness :
    Reach exCfg [(exAtom2, getPolarity exAllTrue exAtom2)] exNegGraph ∧
      findSSSP 0 exNegGraph exNegState 0 .DL_sssp_forward 2 = some exNegDone ∧
      (∃ es, ActivePath exNegGraph .DL_sssp_forward es 0 1 ∧
        getDist exNegDone .DL_sssp_forward 1 = pathRwt exNegGraph es) ∧
      (∀ es, ActivePath exNegGraph .DL_sssp_forward es 0 1 →
        getDist exNegDone .DL_sssp_forward 1 ≤ pathRwt exNegGraph es) ∧
      trueDist exNegGraph exNegDone .DL_sssp_forward 0 1 = -2 ∧
      (∃ es, ActivePath exNegGraph .DL_sssp_forward es 0 1 ∧
        trueDist exNegGraph exNegDone .DL_sssp_forward 0 1 = pathWt es) ∧
      (∀ es, ActivePath exNegGraph .DL_sssp_forward es 0 1 →
        trueDist exNegGraph exNegDone .DL_sssp_forward 0 1 ≤ pathWt es) :=
  have hret : findSSSP 0 exNegGraph exNegState 0 .DL_sssp_forward 2 = some exNegDone := by rfl
  have hfin := findSSSP_inv 0 exNegGraph exNegState exNegDone 0 .DL_sssp_forward 2
    exNeg_ready.2.2.1 exNeg_ready.2.2.2
    (rwtNonneg_of_feasible exCfg _ exNegGraph exNeg_ready.1 exNeg_ready.2.1 _) hret 1 (by rfl)
  ⟨exNeg_ready.1, hret, hfin.1, hfin.2, by rfl,
    findSSSP_true_weight exCfg _ exNegGraph 0 exNegState exNegDone 0 .DL_sssp_forward 2 1
      exNeg_ready.1 hret hfin.1 hfin.2⟩

/-- C21 as stated fails in the forward direction: on the graph with the active
edge `x1 -> x2` of weight -2 and the potentials 0 and -2, the forward pass from
`x1` gives `x2` the distance 0, which is the minimum reduced-weight length;
`dist + pi[root] - pi[t]` is 2, and the active path of the edge alone has the
true weight -2. -/
theorem findSSSP_true_weight_counterexample :
    Reach exCfg [(exAtom2, getPolarity exAllTrue exAtom2)] exNegGraph ∧
      findSSSP 0 exNegGraph exNegState 0 .DL_sssp_forward 2 = some exNegDone ∧
      (∃ es, ActivePath exNegGraph .DL_sssp_forward es 0 1 ∧
        getDist exNegDone .DL_sssp_forward 1 = pathRwt exNegGraph es) ∧
      (∀ es, ActivePath exNegGraph .DL_sssp_forward es 0 1 →
        getDist exNegDone .DL_sssp_forward 1 ≤ pathRwt exNegGraph es) ∧
      getDist exNegDone .DL_sssp_forward 1 + exNegGraph.pi 0 - exNegGraph.pi 1 = 2 ∧
      ActivePath exNegGraph .DL_sssp_forward [⟨exAtom2, 0, 0, 1, -2⟩] 0 1 ∧
      pathWt [⟨exAtom2, 0, 0, 1, -2⟩] = -2 :=
  have hret : findSSSP 0 exNegGraph exNegState 0 .DL_sssp_forward 2 = some exNegDone := by rfl
  have hfin := findSSSP_inv 0 exNegGraph exNegState exNegDone 0 .DL_sssp_forward 2
    exNeg_ready.2.2.1 exNeg_ready.2.2.2
    (rwtNonneg_of_feasible exCfg _ exNegGraph exNeg_ready.1 exNeg_ready.2.1 _) hret 1 (by rfl)
  ⟨exNeg_ready.1, hret, hfin.1, hfin.2, by rfl, ⟨by decide, rfl⟩, by rfl⟩

/-! ## The fast path of `findHeavyEdges` -/

theorem sameButTrees_growTrees (L : Int) (g : DLGraph) (s : SPState) :
    SameButTrees s (growTrees L g s) := by
  unfold growTrees
  split <;>
    exact ⟨rfl, rfl, rfl, rfl, rfl, rfl, rfl, rfl, rfl, rfl, rfl, rfl, rfl, rfl, rfl, rfl, rfl,
      rfl, rfl, rfl, rfl, rfl, rfl, rfl, rfl, rfl⟩

/-- C24: the parallel-edge fast path.  When the atom `c` has a polarity and an
entry, and there is already another active edge `u -> v` with a weight `<=` the
weight of its edge `e` (`isParallelAndHeavy( e )` holds), `findHeavyEdges( c )`
returns right after the test: no pass and no scan of the inactive edges is
run, `addIfHeavy` is never called, the graph is as before, and the scratch
state differs at most in the size of the two trees and of `shortest_paths`
(lines 614-619), so every distance, relevancy and reduced weight, with its
stamps, heaps and lists, is as before. -/
theorem findHeavyEdges_parallel (LAZY_GENERATION : Int) (cfg : Config) (A : AtomStore)
    (g : DLGraph) (s : SPState) (c : Enode) (fuel : Nat) (p : DLComplEdges)
    (hpol : hasPolarity A c = true) (hp : findEdges g.edgeMap c = some p)
    (hpar : isParallelAndHeavy g (selectEdge A c p) = true) :
    findHeavyEdges LAZY_GENERATION cfg A g s c fuel =
        some (g, growTrees LAZY_GENERATION g s, []) ∧
      SameButTrees s (growTrees LAZY_GENERATION g s) := by
  refine ⟨?_, sameButTrees_growTrees _ g s⟩
  unfold findHeavyEdges
  rw [hpol, getDLEdge_found cfg A g c p hp]
  simp only [Bool.not_true, Bool.false_eq_true, if_false, hpar, if_true]

theorem findHeavyEdges_parallel_witness :
    hasPolarity exAllTrue exAtom57b = true ∧
      findEdges exParallel.edgeMap exAtom57b =
        some ⟨⟨exAtom57b, 2, 0, 1, 7⟩, ⟨exAtom57b, 3, 1, 0, -8⟩⟩ ∧
      exParallel.dAdj = [[⟨exAtom57a, 0, 0, 1, 5⟩, ⟨exAtom57b, 2, 0, 1, 7⟩], []] ∧
      isParallelAndHeavy exParallel
        (selectEdge exAllTrue exAtom57b ⟨⟨exAtom57b, 2, 0, 1, 7⟩, ⟨exAtom57b, 3, 1, 0, -8⟩⟩) =
          true ∧
      findHeavyEdges 0 exCfg exAllTrue exParallel SPState.empty exAtom57b 2 =
        some (exParallel, growTrees 0 exParallel SPState.empty, []) ∧
      SameButTrees SPState.empty (growTrees 0 exParallel SPState.empty) :=
  ⟨by rfl, by rfl, by rfl, by rfl,
    findHeavyEdges_parallel 0 exCfg exAllTrue exParallel SPState.empty exAtom57b 2
      ⟨⟨exAtom57b, 2, 0, 1, 7⟩, ⟨exAtom57b, 3, 1, 0, -8⟩⟩ (by rfl) (by rfl) (by rfl)⟩

theorem relaxEdge_frame (lazy : Int) (g : DLGraph) (d : DL_sssp_direction)
    (R : SPState → SPState → Prop) (hR : Frame g d R) (u : Nat) (rel_u : Bool) (it : DLEdge)
    (s s' : SPState) (nr nr' : Nat) (h : relaxEdge lazy g d u rel_u it s nr = some (s', nr')) :
    R s s' := by
  have hlazy : ∀ (a b : SPState), (if lazy = 0 then updateSPT a it d else some a) = some b →
      R a b := by
    intro a b hab
    split at hab
    · exact hR.tree a it b hab
    · simp only [Option.some.injEq] at hab
      rw [← hab]
      exact hR.same a
  unfold relaxEdge at h
  simp only at h
  split at h
  · simp only [Option.some.injEq, Prod.mk.injEq] at h
    rw [← h.1]
    exact hR.same s
  · split at h
    · cases h
    · rename_i s1 hvalid
      have h01 : R s s1 := by
        split at hvalid
        · simp only [Option.some.injEq] at hvalid
          rw [← hvalid]
          exact hR.same s
        · split at hvalid
          · rename_i hge
            simp only [Option.some.injEq] at hvalid
            rw [← hvalid]
            exact hR.newRwt s it _ hge
          · cases hvalid
      split at h
      · cases h
      · split at h
        · split at h
          · cases h
          · rename_i s3 hs3
            have h13 := hR.next _ _ _ (hR.setDist s1 _ _) (hlazy _ s3 hs3)
            have h34 : R s3
                (if (!if d = DL_sssp_direction.DL_sssp_forward then
                      isDxRelValid s3 (farEnd d it)
                    else isDyRelValid s3 (farEnd d it)) = true then
                  if d = DL_sssp_direction.DL_sssp_forward then
                    updateDxRel (setRelevancy s3 d (farEnd d it) rel_u) (farEnd d it)
                  else updateDyRel (setRelevancy s3 d (farEnd d it) rel_u) (farEnd d it)
                else s3) := by
              generalize (if d = DL_sssp_direction.DL_sssp_forward then
                  isDxRelValid s3 (farEnd d it)
                else isDyRelValid s3 (farEnd d it)) = b
              cases b
              · simp only [Bool.not_false, if_true]
                exact hR.next _ _ _ (hR.setRelevancy s3 _ _) (hR.updateRel _ _)
              · simp only [Bool.not_true, Bool.false_eq_true, if_false]
                exact hR.same s3
            generalize (if (!if d = DL_sssp_direction.DL_sssp_forward then
                    isDxRelValid s3 (farEnd d it)
                  else isDyRelValid s3 (farEnd d it)) = true then
                if d = DL_sssp_direction.DL_sssp_forward then
                  updateDxRel (setRelevancy s3 d (farEnd d it) rel_u) (farEnd d it)
                else updateDyRel (setRelevancy s3 d (farEnd d it) rel_u) (farEnd d it)
              else s3) = s4 at h h34
            have h04 := hR.next _ _ _ h01 (hR.next _ _ _ h13 h34)
            have h45 : R s4 (pushPBheap s4 d (farEnd d it)) := hR.setPq s4 _
            split at h
            · cases h
            · split at h
              · simp only [Option.some.injEq, Prod.mk.injEq] at h
                rw [← h.1]
                exact hR.next _ _ _ h04 (hR.next _ _ _ h45
                  (hR.next _ _ _ (hR.setDistFrom _ _ _) (hR.readDist _ _)))
              · simp only [Option.some.injEq, Prod.mk.injEq] at h
                rw [← h.1]
                exact hR.next _ _ _ h04 (hR.next _ _ _ h45 (hR.readDist _ _))
        · split at h
          · cases h
          · split at h
            · split at h
              · cases h
              · rename_i s5 hs5
                simp only [Option.some.injEq, Prod.mk.injEq] at h
                rw [← h.1]
                have h45 := hlazy _ s5 hs5
                have h56 : R s5
                    (if getRelevancy s5 d (farEnd d it) = true then
                      setDistFrom s5 d (farEnd d it) (getDistFrom s5 d u + 1)
                    else s5) := by
                  split
                  · exact hR.setDistFrom s5 _ _
                  · exact hR.same s5
                refine hR.next _ s5 _ ?_ (hR.next _ _ _ h56 (hR.readDist _ _))
                refine hR.next _ _ _ ?_ h45
                refine hR.next _ _ _ ?_ (hR.setPq _ _)
                refine hR.next _ _ _ ?_ (hR.updateRel _ _)
                refine hR.next _ _ _ ?_ (hR.setRelevancy _ _ _)
                exact hR.next _ _ _ h01 (hR.setDist s1 _ _)
            · simp only [Option.some.injEq, Prod.mk.injEq] at h
              rw [← h.1]
              exact hR.next _ _ _ h01 (hR.readDist _ _)

theorem scanSSSP_frame (lazy : Int) (g : DLGraph) (d : DL_sssp_direction)
    (R : SPState → SPState → Prop) (hR : Frame g d R) (u : Nat) (rel_u : Bool) (l : AdjList) :
    ∀ (s s' : SPState) (nr nr' : Nat), scanSSSP lazy g d u rel_u l s nr = some (s', nr') →
      R s s' := by
  induction l with
  | nil =>
    intro s s' nr nr' h
    simp only [scanSSSP, Option.some.injEq, Prod.mk.injEq] at h
    rw [← h.1]
    exact hR.same s
  | cons it rest ih =>
    intro s s' nr nr' h
    unfold scanSSSP at h
    split at h
    · cases h
    · rename_i s1 nr1 hstep
      exact hR.next _ _ _ (relaxEdge_frame lazy g d R hR u rel_u it s s1 nr nr1 hstep)
        (ih s1 s' nr1 nr' h)

theorem extractSSSP_frame (g : DLGraph) (d : DL_sssp_direction)
    (R : SPState → SPState → Prop) (hR : Frame g d R) (u : Nat) (rest : List Nat)
    (s s4 : SPState) (nr nr1 : Nat) (rel_u : Bool) (adj : AdjList)
    (h : extractSSSP g d u rest s nr = some (s4, nr1, rel_u, adj)) : R s s4 := by
  unfold extractSSSP at h
  simp only at h
  split at h
  · cases h
  · simp only [Option.some.injEq, Prod.mk.injEq] at h
    obtain ⟨h4, -, -, -⟩ := h
    have h01 : R s (finalDist (popPBheap s d rest) u) :=
      hR.next _ _ _ (hR.setPq s _) (hR.finalDist _ u)
    have h12 : R (finalDist (popPBheap s d rest) u)
        (if getRelevancy (finalDist (popPBheap s d rest) u) d u = true then
          insertRelevantVertices g (finalDist (popPBheap s d rest) u) u d
        else finalDist (popPBheap s d rest) u) := by
      split
      · exact hR.relevant _ u
      · exact hR.same _
    generalize (if getRelevancy (finalDist (popPBheap s d rest) u) d u = true then
        insertRelevantVertices g (finalDist (popPBheap s d rest) u) u d
      else finalDist (popPBheap s d rest) u) = s2 at h4 h12
    have h23 := hR.updateRel s2 u
    generalize (if d = DL_sssp_direction.DL_sssp_forward then updateDxRel s2 u
      else updateDyRel s2 u) = s3 at h4 h23
    have h34 : R s3 s4 := by
      rw [← h4]
      split
      · exact hR.adjSize s3 _
      · exact hR.same s3
    exact hR.next _ _ _ h01 (hR.next _ _ _ h12 (hR.next _ _ _ h23 h34))

theorem ssspLoop_frame (lazy : Int) (g : DLGraph) (d : DL_sssp_direction)
    (R : SPState → SPState → Prop) (hR : Frame g d R) (fuel : Nat) :
    ∀ (s s' : SPState) (nr : Nat), ssspLoop lazy g d fuel s nr = some s' → R s s' := by
  induction fuel with
  | zero =>
    intro s s' nr h
    unfold ssspLoop at h
    split at h
    · simp only [Option.some.injEq] at h
      rw [← h]
      exact hR.same s
    · cases h
  | succ n ih =>
    intro s s' nr h
    unfold ssspLoop at h
    split at h
    · simp only [Option.some.injEq] at h
      rw [← h]
      exact hR.same s
    · rename_i u rest hheap
      split at h
      · cases h
      · rename_i s4 nr1 rel_u adj hext
        have h04 := extractSSSP_frame g d R hR u rest s s4 nr nr1 rel_u adj hext
        split at h
        · cases h
        · rename_i s5 nr2 hscan
          have h45 := scanSSSP_frame lazy g d R hR u rel_u adj s4 s5 nr1 nr2 hscan
          split at h
          · simp only [Option.some.injEq] at h
            rw [← h]
            exact hR.next _ _ _ h04 h45
          · exact hR.next _ _ _ h04 (hR.next _ _ _ h45 (ih s5 s' nr2 h))

/-- A relation that every step keeps holds between the scratch state before a
pass and the one after it. -/
theorem findSSSP_frame (lazy : Int) (g : DLGraph) (d : DL_sssp_direction)
    (R : SPState → SPState → Prop) (hR : Frame g d R) (s s' : SPState) (x : Nat) (fuel : Nat)
    (h : findSSSP lazy g s x d fuel = some s') : R s s' := by
  unfold findSSSP at h
  simp only at h
  split at h
  · cases h
  · split at h
    · cases h
    · rename_i s6 hloop
      simp only [Option.some.injEq] at h
      rw [← h]
      have h01 : R s (initFinalDist (initDist s)) :=
        hR.next _ _ _ (hR.initDist s) (hR.initFinalDist _)
      have h12 := hR.next _ _ _ (hR.setDist (initFinalDist (initDist s)) x 0)
        (hR.readDist _ x)
      have h23 := hR.setDistFrom (readDist (setDist (initFinalDist (initDist s)) d x 0) x) x 0
      have h34 := hR.next _ _ _ (hR.setRelevancy
        (setDistFrom (readDist (setDist (initFinalDist (initDist s)) d x 0) x) d x 0) x false)
        (hR.updateRel _ x)
      have h56 := ssspLoop_frame lazy g d R hR fuel _ s6 0 hloop
      have h67 : R s6 (clearPBheap (doneFinalDist (doneDist s6)) d) := hR.setPq s6 []
      refine hR.next _ s6 _ ?_ h67
      refine hR.next _ _ _ ?_ h56
      refine hR.next _ _ _ ?_ (hR.setPq _ _)
      exact hR.next _ _ _ h01 (hR.next _ _ _ h12 (hR.next _ _ _ h23 h34))

/-! ## The loop of a pass, in general -/

/-- A pass is its while loop from the start state, and then the heap is
cleared. -/
theorem findSSSP_eq (lazy : Int) (g : DLGraph) (s s' : SPState) (x : Nat)
    (d : DL_sssp_direction) (fuel : Nat) :
    findSSSP lazy g s x d fuel = some s' ↔
      pqOf s d = [] ∧ ∃ s6, ssspLoop lazy g d fuel (startSSSP s x d) 0 = some s6 ∧
        s' = clearPBheap s6 d := by
  have hpq : pqOf (initFinalDist (initDist s)) d = pqOf s d := by cases d <;> rfl
  unfold findSSSP
  simp only
  rw [hpq]
  by_cases hp : pqOf s d = []
  · rw [if_neg (not_not.2 hp)]
    constructor
    · intro h
      refine ⟨hp, ?_⟩
      split at h
      · cases h
      · rename_i s6 hloop
        simp only [Option.some.injEq] at h
        exact ⟨s6, hloop, h.symm⟩
    · rintro ⟨_, s6, hloop, hs⟩
      have hloop' : ssspLoop lazy g d fuel
          (pushPBheap
            (if d = DL_sssp_direction.DL_sssp_forward then
              updateDxRel (setRelevancy
                (setDistFrom (readDist (setDist (initFinalDist (initDist s)) d x 0) x) d x 0) d
                x false) x
            else updateDyRel (setRelevancy
                (setDistFrom (readDist (setDist (initFinalDist (initDist s)) d x 0) x) d x 0) d
                x false) x) d x) 0 = some s6 := hloop
      rw [hloop', hs]
      rfl
  · rw [if_pos hp]
    constructor
    · intro h
      cases h
    · rintro ⟨h, _⟩
      exact absurd h hp

/-- The for loop keeps what its body keeps. -/
theorem scanSSSP_gen (lazy : Int) (g : DLGraph) (d : DL_sssp_direction) (u : Nat) (rel_u : Bool)
    (J : AdjList → SPState → Prop)
    (hrel : ∀ (it : DLEdge) (rest : AdjList) (s : SPState) (nr : Nat) (s1 : SPState) (nr1 : Nat),
      J (it :: rest) s → relaxEdge lazy g d u rel_u it s nr = some (s1, nr1) → J rest s1)
    (l : AdjList) :
    ∀ (s s' : SPState) (nr nr' : Nat), J l s →
      scanSSSP lazy g d u rel_u l s nr = some (s', nr') → J [] s' := by
  induction l with
  | nil =>
    intro s s' nr nr' hJ h
    simp only [scanSSSP, Option.some.injEq, Prod.mk.injEq] at h
    rw [← h.1]
    exact hJ
  | cons it rest ih =>
    intro s s' nr nr' hJ h
    unfold scanSSSP at h
    split at h
    · cases h
    · rename_i s1 nr1 hstep
      exact ih s1 s' nr1 nr' (hrel it rest s nr s1 nr1 hJ hstep) h

/-- The while loop keeps a property `I` of its heads, given a property `J` of
the states inside the for loop that the extraction gives, the body keeps and
that gives `I` back once no edge is pending. -/
theorem ssspLoop_gen (lazy : Int) (g : DLGraph) (d : DL_sssp_direction) (I : SPState → Prop)
    (J : Nat → Bool → AdjList → SPState → Prop)
    (hext : ∀ (s : SPState) (u : Nat) (rest : List Nat) (nr : Nat) (s4 : SPState) (nr1 : Nat)
      (rel_u : Bool) (adj : AdjList), I s → pqOf s d = u :: rest →
      extractSSSP g d u rest s nr = some (s4, nr1, rel_u, adj) → J u rel_u adj s4)
    (hrel : ∀ (u : Nat) (rel_u : Bool) (it : DLEdge) (rest : AdjList) (s : SPState) (nr : Nat)
      (s1 : SPState) (nr1 : Nat), J u rel_u (it :: rest) s →
      relaxEdge lazy g d u rel_u it s nr = some (s1, nr1) → J u rel_u rest s1)
    (hend : ∀ (u : Nat) (rel_u : Bool) (s : SPState), J u rel_u [] s → I s) (fuel : Nat) :
    ∀ (s s' : SPState) (nr : Nat), I s → ssspLoop lazy g d fuel s nr = some s' → I s' := by
  induction fuel with
  | zero =>
    intro s s' nr hI h
    unfold ssspLoop at h
    split at h
    · simp only [Option.some.injEq] at h
      rw [← h]
      exact hI
    · cases h
  | succ n ih =>
    intro s s' nr hI h
    unfold ssspLoop at h
    split at h
    · simp only [Option.some.injEq] at h
      rw [← h]
      exact hI
    · rename_i u rest hheap
      split at h
      · cases h
      · rename_i s4 nr1 rel_u adj hex
        have hJ := hext s u rest nr s4 nr1 rel_u adj hI hheap hex
        split at h
        · cases h
        · rename_i s5 nr2 hscan
          have hJ5 := scanSSSP_gen lazy g d u rel_u (J u rel_u)
            (fun it rest s nr s1 nr1 => hrel u rel_u it rest s nr s1 nr1) adj s4 s5 nr1 nr2 hJ
            hscan
          split at h
          · simp only [Option.some.injEq] at h
            rw [← h]
            exact hend u rel_u s5 hJ5
          · exact ih s5 s' nr2 (hend u rel_u s5 hJ5) h

/-- The start state of a pass has the reduced weights of the state before. -/
theorem rwtOk_startSSSP {g : DLGraph} {s : SPState} (x : Nat) (d : DL_sssp_direction)
    (hr : RwtOk g s) : RwtOk g (startSSSP s x d) := by
  have h34 := (sameDist_setRelevancy
    (setDistFrom (readDist (setDist (initFinalDist (initDist s)) d x 0) x) d x 0) d x
    false).next (sameDist_updateRel _ d x)
  have h24 := (sameDist_setDistFrom
    (readDist (setDist (initFinalDist (initDist s)) d x 0) x) d x 0).next h34
  exact rwtOk_setPq d _
    (h24.rwtOk (rwtOk_readDist x (rwtOk_setDist d x 0 (rwtOk_of_fields rfl rfl rfl hr))))

/-- The view of the start state of a pass: the root alone has a distance,
which is 0, and is alone on the heap. -/
theorem spInit_startSSSP {s : SPState} (x : Nat) (d : DL_sssp_direction) (hst : DistStamps s)
    (hpq : pqOf s d = []) : SpInit x ((startSSSP s x d).view d) := by
  have h34 := (sameDist_setRelevancy
    (setDistFrom (readDist (setDist (initFinalDist (initDist s)) d x 0) x) d x 0) d x
    false).next (sameDist_updateRel _ d x)
  have h24 := (sameDist_setDistFrom
    (readDist (setDist (initFinalDist (initDist s)) d x 0) x) d x 0).next h34
  have hv1 : (initFinalDist (initDist s)).view d =
      ⟨getDist s d, fun y => s.dist_list y == s.dist_token + 1,
        fun y => s.final_dist_list y == s.final_dist_token + 1, pqOf s d⟩ := by
    cases d <;> rfl
  unfold startSSSP
  simp only
  rw [view_pushPBheap, h24.view_eq, view_readDist, view_setDist, hv1]
  refine
    { heap_eq := ?_
      dist_root := ?_
      read_iff := ?_
      no_final := ?_ }
  · show sortBy _ (pqOf s d ++ [x]) = [x]
    rw [hpq]
    rfl
  · show Function.update (getDist s d) x 0 x = 0
    rw [Function.update_same]
  · intro y
    show Function.update (fun y => s.dist_list y == s.dist_token + 1) x true y = true ↔ y = x
    by_cases hy : y = x
    · rw [hy, Function.update_same]
      exact ⟨fun _ => rfl, fun _ => rfl⟩
    · rw [Function.update_noteq hy]
      constructor
      · intro hh
        have := stamp_ne_of_le _ _ hst.1 y
        rw [this] at hh
        cases hh
      · intro hh
        exact absurd hh hy
  · intro y
    exact stamp_ne_of_le _ _ hst.2 y

/-- The properties of the distances at a head of the while loop. -/
theorem ssspLoop_spInv (lazy : Int) (g : DLGraph) (d : DL_sssp_direction) (root : Nat)
    (hf : RwtNonneg g d) (fuel : Nat) (s s' : SPState) (nr : Nat) (hr : RwtOk g s)
    (hh : SpInit root (s.view d) ∨ ∃ u0, SpInv g d root u0 [] (s.view d))
    (h : ssspLoop lazy g d fuel s nr = some s') :
    RwtOk g s' ∧ (SpInit root (s'.view d) ∨ ∃ u0, SpInv g d root u0 [] (s'.view d)) := by
  refine ssspLoop_gen lazy g d
    (fun s => RwtOk g s ∧ (SpInit root (s.view d) ∨ ∃ u0, SpInv g d root u0 [] (s.view d)))
    (fun u _ pending s => RwtOk g s ∧ SpInv g d root u pending (s.view d) ∧
      ∀ x ∈ pending, x ∈ adjOf g d u)
    ?_ ?_ ?_ fuel s s' nr ⟨hr, hh⟩ h
  · intro s u rest nr s4 nr1 rel_u adj hI hheap hex
    obtain ⟨hr4, hv4, hadj⟩ := extractSSSP_view g d u rest s s4 nr nr1 rel_u adj hI.1 hex
    refine ⟨hr4, ?_, fun x hx => by rw [← hadj]; exact hx⟩
    rw [hv4, hadj]
    rcases hI.2 with h1 | ⟨u0, h1⟩
    · have hhe := h1.heap_eq
      have hheap' : (s.view d).heap = u :: rest := hheap
      rw [hheap'] at hhe
      simp only [List.cons.injEq] at hhe
      obtain ⟨hs, hrest⟩ := hhe
      subst hrest
      subst hs
      exact h1.extract_root hf
    · exact h1.extract_step hf u rest hheap
  · intro u rel_u it rest s nr s1 nr1 hJ hstep
    obtain ⟨hr1, hv1⟩ := relaxEdge_view lazy g d u rel_u it s s1 nr nr1 hJ.1 hstep
    refine ⟨hr1, ?_, fun x hx => hJ.2.2 x (List.mem_cons_of_mem _ hx)⟩
    rw [hv1]
    exact hJ.2.1.relax_step hf (hJ.2.2 it (List.mem_cons_self _ _))
  · intro u _ s hJ
    exact ⟨hJ.1, Or.inr ⟨u, hJ.2.1⟩⟩

/-! ## What a pass leaves alone -/

theorem sameSide_updateSPT (d : DL_sssp_direction) (s s' : SPState) (e : DLEdge)
    (go : DL_sssp_direction) (h : updateSPT s e go = some s') : SameSide d s s' := by
  unfold updateSPT at h
  cases go with
  | DL_sssp_forward =>
    simp only at h
    split at h
    · cases h
    · simp only [Option.some.injEq] at h
      rw [← h]
      split <;> cases d <;> exact ⟨rfl, rfl, rfl, rfl, rfl, rfl⟩
  | DL_sssp_backward =>
    simp only at h
    split at h
    · cases h
    · simp only [Option.some.injEq] at h
      rw [← h]
      split <;> cases d <;> exact ⟨rfl, rfl, rfl, rfl, rfl, rfl⟩

/-- A pass leaves the fields of the other direction alone. -/
theorem frame_sameSide (g : DLGraph) (d : DL_sssp_direction) :
    Frame g d (SameSide (otherDir d)) where
  same := fun s => by cases d <;> exact ⟨rfl, rfl, rfl, rfl, rfl, rfl⟩
  next := fun s1 s2 s3 h1 h2 =>
    ⟨h2.dist.trans h1.dist, h2.rel.trans h1.rel, h2.valid.trans h1.valid, h2.pq.trans h1.pq,
      h2.vertices.trans h1.vertices, h2.total.trans h1.total⟩
  setDist := fun s v x => by cases d <;> exact ⟨rfl, rfl, rfl, rfl, rfl, rfl⟩
  readDist := fun s v => by cases d <;> exact ⟨rfl, rfl, rfl, rfl, rfl, rfl⟩
  finalDist := fun s v => by cases d <;> exact ⟨rfl, rfl, rfl, rfl, rfl, rfl⟩
  setRelevancy := fun s v b => by cases d <;> exact ⟨rfl, rfl, rfl, rfl, rfl, rfl⟩
  updateRel := fun s v => by cases d <;> exact ⟨rfl, rfl, rfl, rfl, rfl, rfl⟩
  setDistFrom := fun s v k => by cases d <;> exact ⟨rfl, rfl, rfl, rfl, rfl, rfl⟩
  setPq := fun s l => by cases d <;> exact ⟨rfl, rfl, rfl, rfl, rfl, rfl⟩
  newRwt := fun s e r _ => by cases d <;> exact ⟨rfl, rfl, rfl, rfl, rfl, rfl⟩
  tree := fun s e s' h => sameSide_updateSPT (otherDir d) s s' e d h
  relevant := fun s u => by cases d <;> exact ⟨rfl, rfl, rfl, rfl, rfl, rfl⟩
  adjSize := fun s n => by cases d <;> exact ⟨rfl, rfl, rfl, rfl, rfl, rfl⟩
  initDist := fun s => by cases d <;> exact ⟨rfl, rfl, rfl, rfl, rfl, rfl⟩
  initFinalDist := fun s => by cases d <;> exact ⟨rfl, rfl, rfl, rfl, rfl, rfl⟩

theorem stamp_update_le {α : Type} [DecidableEq α] (list : α → Nat) (token : Nat) (v : α)
    (h : ∀ x, list x ≤ token) : ∀ x, Function.update list v token x ≤ token := by
  intro x
  by_cases hx : x = v
  · rw [hx, Function.update_same]
  · rw [Function.update_noteq hx]
    exact h x

theorem SameDist.distStamps {s s' : SPState} (h : SameDist s s') (hst : DistStamps s) :
    DistStamps s' := by
  unfold DistStamps
  rw [h.dist_list, h.dist_token, h.final_dist_list, h.final_dist_token]
  exact hst

/-- A pass keeps the stamps of the distances behind their tokens. -/
theorem frame_distStamps (g : DLGraph) (d : DL_sssp_direction) :
    Frame g d (fun s s' => DistStamps s → DistStamps s') where
  same := fun _ h => h
  next := fun _ _ _ h1 h2 h => h2 (h1 h)
  setDist := fun s v x h => by cases d <;> exact h
  readDist := fun s v h => ⟨stamp_update_le _ _ v h.1, h.2⟩
  finalDist := fun s v h => ⟨h.1, stamp_update_le _ _ v h.2⟩
  setRelevancy := fun s v b h => by cases d <;> exact h
  updateRel := fun s v h => by cases d <;> exact h
  setDistFrom := fun s v k h => by cases d <;> exact h
  setPq := fun s l h => by cases d <;> exact h
  newRwt := fun s e r _ h => h
  tree := fun s e s' hs h => (sameDist_updateSPT s s' e d hs).distStamps h
  relevant := fun s u h => by cases d <;> exact h
  adjSize := fun s n h => h
  initDist := fun s h => ⟨fun x => Nat.le_succ_of_le (h.1 x), h.2⟩
  initFinalDist := fun s h => ⟨h.1, fun x => Nat.le_succ_of_le (h.2 x)⟩

theorem SameDist.rwtStamps {s s' : SPState} (h : SameDist s s') (hst : RwtStamps s) :
    RwtStamps s' := by
  unfold RwtStamps
  rw [h.rwt_list, h.rwt_token]
  exact hst

/-- A pass keeps the stamps of the reduced weights behind their token. -/
theorem frame_rwtStamps (g : DLGraph) (d : DL_sssp_direction) :
    Frame g d (fun s s' => RwtStamps s → RwtStamps s') where
  same := fun _ h => h
  next := fun _ _ _ h1 h2 h => h2 (h1 h)
  setDist := fun s v x h => by cases d <;> exact h
  readDist := fun s v h => h
  finalDist := fun s v h => h
  setRelevancy := fun s v b h => by cases d <;> exact h
  updateRel := fun s v h => by cases d <;> exact h
  setDistFrom := fun s v k h => by cases d <;> exact h
  setPq := fun s l h => by cases d <;> exact h
  newRwt := fun s e r _ h => stamp_update_le _ _ e h
  tree := fun s e s' hs h => (sameDist_updateSPT s s' e d hs).rwtStamps h
  relevant := fun s u h => by cases d <;> exact h
  adjSize := fun s n h => h
  initDist := fun s h => h
  initFinalDist := fun s h => h

/-- After `initRwt` no reduced weight is valid, so the valid ones are right. -/
theorem rwtOk_of_stale (g : DLGraph) (s : SPState) (h1 : ∀ e, s.rwt_list e < s.rwt_token) :
    RwtOk g s := by
  intro e he
  have he' : (s.rwt_list e == s.rwt_token) = true := he
  have := h1 e
  rw [beq_iff_eq] at he'
  omega

/-! ## What a pass establishes at its root -/

/-- A pass from a scratch state whose stamps are behind their tokens and whose
valid reduced weights are right, on a graph whose active edges have
non-negative reduced weights: on return the valid reduced weights are right,
the stamps are behind their tokens, the heap is empty, and the root has the
final distance 0. -/
theorem findSSSP_facts (lazy : Int) (g : DLGraph) (s s' : SPState) (x : Nat)
    (d : DL_sssp_direction) (fuel : Nat) (hst : DistStamps s) (hr : RwtOk g s)
    (hf : RwtNonneg g d) (h : findSSSP lazy g s x d fuel = some s') :
    RwtOk g s' ∧ DistStamps s' ∧ pqOf s' d = [] ∧ getDist s' d x = 0 ∧
      isDistFinal s' x = true := by
  have hst' := findSSSP_frame lazy g d _ (frame_distStamps g d) s s' x fuel h hst
  obtain ⟨hpq, s6, hloop, hs'⟩ := (findSSSP_eq lazy g s s' x d fuel).1 h
  have hinit := spInit_startSSSP x d hst hpq
  obtain ⟨hr6, _⟩ := ssspLoop_spInv lazy g d x hf fuel _ s6 0 (rwtOk_startSSSP x d hr)
    (Or.inl hinit) hloop
  obtain ⟨u, hinv⟩ := ssspLoop_inv lazy g d x hf fuel _ s6 0 (rwtOk_startSSSP x d hr)
    (Or.inl hinit) hloop
  have hd : getDist s' d x = getDist s6 d x := by
    rw [hs']
    cases d <;> rfl
  have hfin : isDistFinal s' x = isDistFinal s6 x := by
    rw [hs']
    cases d <;> rfl
  refine ⟨?_, hst', ?_, ?_, ?_⟩
  · rw [hs']
    exact rwtOk_setPq d _ hr6
  · rw [hs']
    cases d <;> rfl
  · rw [hd]
    exact hinv.root_dist
  · rw [hfin]
    exact hinv.root_final

/-! ## The roots of the passes of `findHeavyEdges` -/

theorem growTrees_sameDist (L : Int) (g : DLGraph) (s : SPState) :
    SameDist s (growTrees L g s) := by
  unfold growTrees
  split <;> exact ⟨rfl, rfl, rfl, rfl, rfl, rfl, rfl, rfl, rfl, rfl, rfl⟩

/-- The two calls of `updateSPT` before the passes leave the distances and the
reduced weights alone. -/
theorem sameDist_trees (L : Int) (s1 s2 : SPState) (e : DLEdge)
    (h : (if L = 0 then
        match updateSPT s1 e .DL_sssp_forward with
        | none => none
        | some t => updateSPT t e .DL_sssp_backward
      else some s1) = some s2) : SameDist s1 s2 := by
  split at h
  · split at h
    · cases h
    · rename_i t ht
      exact (sameDist_updateSPT s1 t e _ ht).next (sameDist_updateSPT t s2 e _ h)
  · simp only [Option.some.injEq] at h
    rw [← h]
    exact SameDist.same s1

/-- The run of `findHeavyEdges` past the test for a parallel edge: the two
passes and the scan of the inactive edges, in this order. -/
theorem findHeavyEdges_run (LAZY_GENERATION : Int) (cfg : Config) (A : AtomStore)
    (g : DLGraph) (s : SPState) (c : Enode) (fuel : Nat) (p : DLComplEdges) (g' : DLGraph)
    (s' : SPState) (calls : List (Int × DLEdge)) (hp : findEdges g.edgeMap c = some p)
    (hpar : isParallelAndHeavy g (selectEdge A c p) = false)
    (h : findHeavyEdges LAZY_GENERATION cfg A g s c fuel = some (g', s', calls)) :
    g' = g ∧ ∃ s2 s3 s4, SameDist s s2 ∧
      findSSSP LAZY_GENERATION g (startForward s2 (selectEdge A c p)) (selectEdge A c p).u
        .DL_sssp_forward fuel = some s3 ∧
      findSSSP LAZY_GENERATION g (startBackward s3 (selectEdge A c p)) (selectEdge A c p).v
        .DL_sssp_backward fuel = some s4 ∧
      iterateInactive A g s4 (selectEdge A c p) = some calls ∧ s' = clearSPTs s4 := by
  unfold findHeavyEdges at h
  rw [getDLEdge_found cfg A g c p hp] at h
  simp only [hpar, Bool.false_eq_true, if_false] at h
  split at h
  · cases h
  · split at h
    · cases h
    · rename_i s2 htrees
      split at h
      · cases h
      · rename_i s3 h3
        split at h
        · cases h
        · rename_i s4 h4
          split at h
          · cases h
          · rename_i calls' hcalls
            simp only [Option.some.injEq, Prod.mk.injEq] at h
            refine ⟨h.1.symm, s2, s3, s4,
              (growTrees_sameDist LAZY_GENERATION g s).next
                (sameDist_trees LAZY_GENERATION _ s2 _ htrees), h3, h4, ?_, h.2.1.symm⟩
            rw [← h.2.2]
            exact hcalls

/-- C22, as the code has it: the roots of the two passes.  In a state reached
through the interface whose active edges are feasible, for an atom whose edge
`e: u -> v` has no parallel edge of smaller or equal weight: a call of
`findHeavyEdges` that returns has run the forward pass (over the out-edges
`dAdj`) rooted at the source `u` of the edge and then the backward pass (over
the in-edges `dAdjInc`) rooted at the target `v`.  On return `dx[u] = 0` and
`dy[v] = 0`; for every vertex `t` that the forward pass made final, `dx[t]` is
the least total reduced weight of the active paths from `u` to `t`, and for
every vertex `t` that the backward pass made final, `dy[t]` is the least total
reduced weight of the active paths from `t` to `v`. -/
theorem findHeavyEdges_roots (cfg : Config) (st : List (Enode × lbool)) (g : DLGraph)
    (LAZY_GENERATION : Int) (A : AtomStore) (s : SPState) (c : Enode) (fuel : Nat)
    (p : DLComplEdges) (g' : DLGraph) (s' : SPState) (calls : List (Int × DLEdge))
    (hr : Reach cfg st g) (hfeas : AllFeasible g) (hst : DistStamps s) (hrs : RwtStamps s)
    (hp : findEdges g.edgeMap c = some p)
    (hpar : isParallelAndHeavy g (selectEdge A c p) = false)
    (h : findHeavyEdges LAZY_GENERATION cfg A g s c fuel = some (g', s', calls)) :
    ∃ s2 s3 s4,
      findSSSP LAZY_GENERATION g (startForward s2 (selectEdge A c p)) (selectEdge A c p).u
        .DL_sssp_forward fuel = some s3 ∧
      findSSSP LAZY_GENERATION g (startBackward s3 (selectEdge A c p)) (selectEdge A c p).v
        .DL_sssp_backward fuel = some s4 ∧
      s'.dx = s3.dx ∧ s'.dy = s4.dy ∧ s'.dx (selectEdge A c p).u = 0 ∧
      s'.dy (selectEdge A c p).v = 0 ∧
      (∀ t, isDistFinal s3 t = true →
        (∃ es, ActivePath g .DL_sssp_forward es (selectEdge A c p).u t ∧
          s'.dx t = pathRwt g es) ∧
        (∀ es, ActivePath g .DL_sssp_forward es (selectEdge A c p).u t →
          s'.dx t ≤ pathRwt g es)) ∧
      (∀ t, isDistFinal s4 t = true →
        (∃ es, ActivePath g .DL_sssp_backward es (selectEdge A c p).v t ∧
          s'.dy t = pathRwt g es) ∧
        (∀ es, ActivePath g .DL_sssp_backward es (selectEdge A c p).v t →
          s'.dy t ≤ pathRwt g es)) := by
  obtain ⟨_, s2, s3, s4, h02, h3, h4, _, hs'⟩ :=
    findHeavyEdges_run LAZY_GENERATION cfg A g s c fuel p g' s' calls hp hpar h
  have hst2 : DistStamps s2 := h02.distStamps hst
  have hrs2 : RwtStamps s2 := h02.rwtStamps hrs
  have hstF : DistStamps (startForward s2 (selectEdge A c p)) := hst2
  have hrF : RwtOk g (startForward s2 (selectEdge A c p)) := by
    apply rwtOk_of_stale
    intro e
    exact Nat.lt_succ_of_le (hrs2 e)
  have hfF := rwtNonneg_of_feasible cfg st g hr hfeas .DL_sssp_forward
  have hfB := rwtNonneg_of_feasible cfg st g hr hfeas .DL_sssp_backward
  obtain ⟨hr3, hst3, _, hd3, _⟩ := findSSSP_facts LAZY_GENERATION g _ s3 _ _ fuel hstF hrF hfF h3
  have hstB : DistStamps (startBackward s3 (selectEdge A c p)) := hst3
  have hrB : RwtOk g (startBackward s3 (selectEdge A c p)) := rwtOk_of_fields rfl rfl rfl hr3
  obtain ⟨_, _, _, hd4, _⟩ := findSSSP_facts LAZY_GENERATION g _ s4 _ _ fuel hstB hrB hfB h4
  have hside := findSSSP_frame LAZY_GENERATION g .DL_sssp_backward _
    (frame_sameSide g .DL_sssp_backward) _ s4 _ fuel h4
  have hdx : s'.dx = s3.dx := by
    rw [hs']
    exact hside.dist
  have hdy : s'.dy = s4.dy := by rw [hs']; rfl
  have i3 := findSSSP_inv LAZY_GENERATION g _ s3 _ _ fuel hstF hrF hfF h3
  have i4 := findSSSP_inv LAZY_GENERATION g _ s4 _ _ fuel hstB hrB hfB h4
  refine ⟨s2, s3, s4, h3, h4, hdx, hdy, ?_, ?_, ?_, ?_⟩
  · rw [hdx]
    exact hd3
  · rw [hdy]
    exact hd4
  · intro t ht
    rw [hdx]
    exact i3 t ht
  · intro t ht
    rw [hdy]
    exact i4 t ht

/-- The example graph is reached through the interface and its active edge is
feasible. -/
theorem exOneEdge_ready :
    Reach exCfg [(exAtom1, getPolarity exAllTrue exAtom1)] exOneEdge ∧
      AllFeasible exOneEdge := by
  have r1 : Reach exCfg [] (exStatic [exAtom1]) :=
    Reach.static exNoPol exAtom1 Reach.init rfl (by rfl)
  have c1 : Reach exCfg [(exAtom1, getPolarity exAllTrue exAtom1)] exOneEdge :=
    Reach.check exAllTrue exAtom1 false 2 true r1 (by decide) (by rfl)
  exact ⟨c1, by decide⟩

theorem findHeavyEdges_roots_witness :
    Reach exCfg [(exAtom1, getPolarity exAllTrue exAtom1)] exOneEdge ∧
      AllFeasible exOneEdge ∧
      findEdges exOneEdge.edgeMap exAtom1 =
        some ⟨⟨exAtom1, 0, 0, 1, 3⟩, ⟨exAtom1, 1, 1, 0, -4⟩⟩ ∧
      selectEdge exAllTrue exAtom1 ⟨⟨exAtom1, 0, 0, 1, 3⟩, ⟨exAtom1, 1, 1, 0, -4⟩⟩ =
        ⟨exAtom1, 0, 0, 1, 3⟩ ∧
      findHeavyEdges 0 exCfg exAllTrue exOneEdge SPState.empty exAtom1 2 =
        some (exOneEdge, exOneDone, []) ∧
      ∃ s2 s3 s4,
        findSSSP 0 exOneEdge
          (startForward s2
            (selectEdge exAllTrue exAtom1 ⟨⟨exAtom1, 0, 0, 1, 3⟩, ⟨exAtom1, 1, 1, 0, -4⟩⟩))
          (selectEdge exAllTrue exAtom1 ⟨⟨exAtom1, 0, 0, 1, 3⟩, ⟨exAtom1, 1, 1, 0, -4⟩⟩).u
          .DL_sssp_forward 2 = some s3 ∧
        findSSSP 0 exOneEdge
          (startBackward s3
            (selectEdge exAllTrue exAtom1 ⟨⟨exAtom1, 0, 0, 1, 3⟩, ⟨exAtom1, 1, 1, 0, -4⟩⟩))
          (selectEdge exAllTrue exAtom1 ⟨⟨exAtom1, 0, 0, 1, 3⟩, ⟨exAtom1, 1, 1, 0, -4⟩⟩).v
          .DL_sssp_backward 2 = some s4 ∧
        exOneDone.dx = s3.dx ∧ exOneDone.dy = s4.dy ∧
        exOneDone.dx
          (selectEdge exAllTrue exAtom1 ⟨⟨exAtom1, 0, 0, 1, 3⟩, ⟨exAtom1, 1, 1, 0, -4⟩⟩).u = 0 ∧
        exOneDone.dy
          (selectEdge exAllTrue exAtom1 ⟨⟨exAtom1, 0, 0, 1, 3⟩, ⟨exAtom1, 1, 1, 0, -4⟩⟩).v = 0 ∧
        (∀ t, isDistFinal s3 t = true →
          (∃ es, ActivePath exOneEdge .DL_sssp_forward es
              (selectEdge exAllTrue exAtom1
                ⟨⟨exAtom1, 0, 0, 1, 3⟩, ⟨exAtom1, 1, 1, 0, -4⟩⟩).u t ∧
            exOneDone.dx t = pathRwt exOneEdge es) ∧
          (∀ es, ActivePath exOneEdge .DL_sssp_forward es
              (selectEdge exAllTrue exAtom1
                ⟨⟨exAtom1, 0, 0, 1, 3⟩, ⟨exAtom1, 1, 1, 0, -4⟩⟩).u t →
            exOneDone.dx t ≤ pathRwt exOneEdge es)) ∧
        (∀ t, isDistFinal s4 t = true →
          (∃ es, ActivePath exOneEdge .DL_sssp_backward es
              (selectEdge exAllTrue exAtom1
                ⟨⟨exAtom1, 0, 0, 1, 3⟩, ⟨exAtom1, 1, 1, 0, -4⟩⟩).v t ∧
            exOneDone.dy t = pathRwt exOneEdge es) ∧
          (∀ es, ActivePath exOneEdge .DL_sssp_backward es
              (selectEdge exAllTrue exAtom1
                ⟨⟨exAtom1, 0, 0, 1, 3⟩, ⟨exAtom1, 1, 1, 0, -4⟩⟩).v t →
            exOneDone.dy t ≤ pathRwt exOneEdge es)) :=
  ⟨exOneEdge_ready.1, exOneEdge_ready.2, by rfl, by rfl, by rfl,
    findHeavyEdges_roots exCfg _ exOneEdge 0 exAllTrue SPState.empty exAtom1 2
      ⟨⟨exAtom1, 0, 0, 1, 3⟩, ⟨exAtom1, 1, 1, 0, -4⟩⟩ exOneEdge exOneDone []
      exOneEdge_ready.1 exOneEdge_ready.2 ⟨fun _ => Nat.le_refl _, fun _ => Nat.le_refl _⟩
      (fun _ => Nat.le_refl _) (by rfl) (by rfl) (by rfl)⟩

/-- C22 as stated fails: for the freshly activated edge `x0 -> x1` of weight 3,
whose reduced weight is 3, `findHeavyEdges` returns with `dx[x0] = 0` and
`dx[x1] = 3`, the distances of a forward pass rooted at the source `x0`, and
with `dy[x1] = 0` and `dy[x0] = 3`, the distances of a backward pass rooted at
the target `x1`; a forward pass rooted at the target would give `dx[x1] = 0`. -/
theorem findHeavyEdges_roots_counterexample :
    Reach exCfg [(exAtom1, getPolarity exAllTrue exAtom1)] exOneEdge ∧
      findEdges exOneEdge.edgeMap exAtom1 =
        some ⟨⟨exAtom1, 0, 0, 1, 3⟩, ⟨exAtom1, 1, 1, 0, -4⟩⟩ ∧
      selectEdge exAllTrue exAtom1 ⟨⟨exAtom1, 0, 0, 1, 3⟩, ⟨exAtom1, 1, 1, 0, -4⟩⟩ =
        ⟨exAtom1, 0, 0, 1, 3⟩ ∧
      exOneEdge.dAdj = [[⟨exAtom1, 0, 0, 1, 3⟩], []] ∧
      findHeavyEdges 0 exCfg exAllTrue exOneEdge SPState.empty exAtom1 2 =
        some (exOneEdge, exOneDone, []) ∧
      exOneDone.dx 0 = 0 ∧ exOneDone.dx 1 = 3 ∧ exOneDone.dy 1 = 0 ∧ exOneDone.dy 0 = 3 :=
  ⟨exOneEdge_ready.1, by rfl, by rfl, by rfl, by rfl, by rfl, by rfl, by rfl, by rfl⟩

/-! ## A pass returns -/

theorem treeOf_updateSPT (s s' : SPState) (e : DLEdge) (d : DL_sssp_direction)
    (h : updateSPT s e d = some s') : (treeOf s' d).length = (treeOf s d).length := by
  unfold updateSPT at h
  cases d with
  | DL_sssp_forward =>
    simp only at h
    split at h
    · cases h
    · rename_i t ht
      simp only [Option.some.injEq] at h
      rw [← h]
      have := (modifyAt_length _ _ _ _ ht).1
      show t.length = s.fSPT.length
      rw [this]
      split <;> rfl
  | DL_sssp_backward =>
    simp only at h
    split at h
    · cases h
    · rename_i t ht
      simp only [Option.some.injEq] at h
      rw [← h]
      have := (modifyAt_length _ _ _ _ ht).1
      show t.length = s.bSPT.length
      rw [this]
      split <;> rfl

/-- A pass keeps the length of its tree. -/
theorem frame_treeLen (g : DLGraph) (d : DL_sssp_direction) :
    Frame g d (fun s s' => (treeOf s' d).length = (treeOf s d).length) where
  same := fun _ => rfl
  next := fun _ _ _ h1 h2 => h2.trans h1
  setDist := fun s v x => by cases d <;> rfl
  readDist := fun s v => rfl
  finalDist := fun s v => rfl
  setRelevancy := fun s v b => by cases d <;> rfl
  updateRel := fun s v => by cases d <;> rfl
  setDistFrom := fun s v k => by cases d <;> rfl
  setPq := fun s l => by cases d <;> rfl
  newRwt := fun s e r _ => rfl
  tree := fun s e s' hs => treeOf_updateSPT s s' e d hs
  relevant := fun s u => by cases d <;> rfl
  adjSize := fun s n => rfl
  initDist := fun s => rfl
  initFinalDist := fun s => rfl

/-- `updateSPT` succeeds when the tree has a row for the far end of the
edge. -/
theorem updateSPT_ne_none (s : SPState) (e : DLEdge) (d : DL_sssp_direction)
    (h : farEnd d e < (treeOf s d).length) : updateSPT s e d ≠ none := by
  intro hn
  unfold updateSPT at hn
  cases d with
  | DL_sssp_forward =>
    simp only at hn
    split at hn
    · rename_i hm
      have hlen : (if s.dist_from_src e.v > s.max_dist_from_src then
          { s with max_dist_from_src := s.dist_from_src e.v } else s).fSPT.length =
          s.fSPT.length := by
        split <;> rfl
      have := modifyAt_isSome
        (if s.dist_from_src e.v > s.max_dist_from_src then
          { s with max_dist_from_src := s.dist_from_src e.v } else s).fSPT e.v
        (fun _ => some e) (by rw [hlen]; exact h)
      rw [hm] at this
      obtain ⟨w, hw⟩ := this
      cases hw
    · cases hn
  | DL_sssp_backward =>
    simp only at hn
    split at hn
    · rename_i hm
      have hlen : (if s.dist_from_dst e.u > s.max_dist_from_dst then
          { s with max_dist_from_dst := s.dist_from_dst e.u } else s).bSPT.length =
          s.bSPT.length := by
        split <;> rfl
      have := modifyAt_isSome
        (if s.dist_from_dst e.u > s.max_dist_from_dst then
          { s with max_dist_from_dst := s.dist_from_dst e.u } else s).bSPT e.u
        (fun _ => some e) (by rw [hlen]; exact h)
      rw [hm] at this
      obtain ⟨w, hw⟩ := this
      cases hw
    · cases hn

theorem lazySPT_ne_none (lazy : Int) (s : SPState) (e : DLEdge) (d : DL_sssp_direction)
    (h : lazy = 0 → farEnd d e < (treeOf s d).length) :
    (if lazy = 0 then updateSPT s e d else some s) ≠ none := by
  split
  · rename_i hl
    exact updateSPT_ne_none s e d (h hl)
  · intro hn
    cases hn

theorem relax_final (V : DistView) (u v : Nat) (w : Int) : (V.relax u v w).final = V.final := by
  unfold DistView.relax
  split
  · rfl
  · split
    · rfl
    · split <;> rfl

theorem relax_heap_mem (V : DistView) (u v : Nat) (w : Int) (y : Nat)
    (h : y ∈ (V.relax u v w).heap) : y ∈ V.heap ∨ y = v := by
  unfold DistView.relax at h
  split at h
  · exact Or.inl h
  · split at h
    · have h' := (mem_sortBy _ _ y).1 h
      rcases List.mem_append.1 h' with h1 | h1
      · exact Or.inl h1
      · exact Or.inr (List.mem_singleton.1 h1)
    · split at h
      · exact Or.inl ((mem_sortBy _ _ y).1 h)
      · exact Or.inl h

/-- The tree after lines 762-767 is the tree before. -/
theorem rwt_step_tree (g : DLGraph) (s s1 : SPState) (it : DLEdge) (d : DL_sssp_direction)
    (h : (if isRwtValid s it then some s
        else if g.pi it.u + it.wt - g.pi it.v ≥ 0 then
          some (updateRwt
            { s with rwt := Function.update s.rwt it (g.pi it.u + it.wt - g.pi it.v) } it)
        else none) = some s1) :
    treeOf s1 d = treeOf s d := by
  split at h
  · simp only [Option.some.injEq] at h
    rw [← h]
  · split at h
    · simp only [Option.some.injEq] at h
      rw [← h]
      cases d <;> rfl
    · cases h

/-- The body of the for loop fails no assertion: under the invariant of the
pass, with non-negative reduced weights and a tree that has a row for the far
end of the edge, it returns a state. -/
theorem relaxEdge_ne_none (lazy : Int) (g : DLGraph) (d : DL_sssp_direction) (root u : Nat)
    (rel_u : Bool) (it : DLEdge) (rest : AdjList) (s : SPState) (nr : Nat) (hr : RwtOk g s)
    (hinv : SpInv g d root u (it :: rest) (s.view d)) (hit : it ∈ adjOf g d u)
    (hf : RwtNonneg g d) (htree : lazy = 0 → farEnd d it < (treeOf s d).length) :
    relaxEdge lazy g d u rel_u it s nr ≠ none := by
  intro h
  have hw0 : 0 ≤ rwtOf g it := hf u it hit
  have hu0 : 0 ≤ (s.view d).dist u := by
    obtain ⟨es, hes, hd⟩ := hinv.attained u (hinv.final_read u hinv.cur_final)
    rw [hd]
    exact pathRwt_nonneg g d hf es root u hes
  unfold relaxEdge at h
  simp only at h
  split at h
  · cases h
  · rename_i hfin
    have hfin' : (s.view d).final (farEnd d it) = false := by
      cases hx : (s.view d).final (farEnd d it) with
      | false => rfl
      | true => exact absurd hx hfin
    split at h
    · rename_i hvalid
      split at hvalid
      · cases hvalid
      · split at hvalid
        · cases hvalid
        · rename_i hneg
          exact hneg hw0
    · rename_i s1 hvalid
      obtain ⟨hr1, hv1, hw⟩ := rwt_step g s s1 it d hr hvalid
      have ht1 := rwt_step_tree g s s1 it d hvalid
      have hdu : getDist s1 d u = (s.view d).dist u := by
        have : (s1.view d).dist u = (s.view d).dist u := by rw [hv1]
        exact this
      have hdv : getDist s1 d (farEnd d it) = (s.view d).dist (farEnd d it) := by
        have : (s1.view d).dist (farEnd d it) = (s.view d).dist (farEnd d it) := by rw [hv1]
        exact this
      have hrd : isDistRead s1 (farEnd d it) = (s.view d).read (farEnd d it) := by
        have : (s1.view d).read (farEnd d it) = (s.view d).read (farEnd d it) := by rw [hv1]
        exact this
      have hpq : pqOf s1 d = (s.view d).heap := by
        have : (s1.view d).heap = (s.view d).heap := by rw [hv1]
        exact this
      rw [hw, hdu] at h
      split at h
      · rename_i hlt
        omega
      · split at h
        · rename_i hnr
          rw [hrd] at hnr
          split at h
          · rename_i hs3
            refine lazySPT_ne_none lazy _ it d ?_ hs3
            intro hl
            have : treeOf (setDist s1 d (farEnd d it) ((s.view d).dist u + rwtOf g it)) d =
                treeOf s1 d := by cases d <;> rfl
            rw [this, ht1]
            exact htree hl
          · rename_i s3 hs3
            have h23 := sameDist_lazySPT lazy _ s3 it d hs3
            have h34 := sameDist_relFresh s3 d (farEnd d it) rel_u
            generalize (if (!if d = DL_sssp_direction.DL_sssp_forward then
                    isDxRelValid s3 (farEnd d it)
                  else isDyRelValid s3 (farEnd d it)) = true then
                if d = DL_sssp_direction.DL_sssp_forward then
                  updateDxRel (setRelevancy s3 d (farEnd d it) rel_u) (farEnd d it)
                else updateDyRel (setRelevancy s3 d (farEnd d it) rel_u) (farEnd d it)
              else s3) = s4 at h h34
            have h24 := h23.next h34
            have hv4 : s4.view d = { s.view d with
                dist := Function.update (s.view d).dist (farEnd d it)
                  ((s.view d).dist u + rwtOf g it) } := by
              rw [h24.view_eq, view_setDist, hv1]
            have hpq4 : pqOf s4 d = (s.view d).heap := by
              have : (s4.view d).heap = (s.view d).heap := by rw [hv4]
              exact this
            split at h
            · rename_i hmem
              rw [hpq4] at hmem
              have := ((hinv.heap_iff _).1 hmem).1
              rw [this] at hnr
              cases hnr
            · split at h <;> cases h
        · rename_i hnr
          rw [hrd] at hnr
          have hread : (s.view d).read (farEnd d it) = true := by
            cases hx : (s.view d).read (farEnd d it) with
            | true => rfl
            | false =>
              rw [hx] at hnr
              exact absurd rfl hnr
          split at h
          · rename_i hnm
            rw [hpq] at hnm
            exact hnm ((hinv.heap_iff _).2 ⟨hread, hfin'⟩)
          · split at h
            · split at h
              · rename_i hs5
                refine lazySPT_ne_none lazy _ it d ?_ hs5
                intro hl
                have : treeOf (modifyPBheap
                    (if d = DL_sssp_direction.DL_sssp_forward then
                      updateDxRel
                        (setRelevancy
                          (setDist s1 d (farEnd d it) ((s.view d).dist u + rwtOf g it)) d
                          (farEnd d it) rel_u) (farEnd d it)
                    else
                      updateDyRel
                        (setRelevancy
                          (setDist s1 d (farEnd d it) ((s.view d).dist u + rwtOf g it)) d
                          (farEnd d it) rel_u) (farEnd d it)) d (farEnd d it)) d =
                    treeOf s1 d := by cases d <;> rfl
                rw [this, ht1]
                exact htree hl
              · cases h
            · cases h

/-! ## Every assertion of a pass holds -/

theorem notFinal_lt (s s4 : SPState) (n u : Nat) (hu : u < n) (hnf : isDistFinal s u = false)
    (h4 : isDistFinal s4 = Function.update (isDistFinal s) u true) :
    notFinal s4 n < notFinal s n := by
  unfold notFinal
  rw [h4]
  refine Finset.card_lt_card ⟨?_, ?_⟩
  · intro y hy
    simp only [Finset.mem_filter, Finset.mem_range] at hy ⊢
    refine ⟨hy.1, ?_⟩
    by_cases hyu : y = u
    · rw [hyu, Function.update_same] at hy
      cases hy.2
    · rw [Function.update_noteq hyu] at hy
      exact hy.2
  · intro hsub
    have hu' : u ∈ (Finset.range n).filter (fun y => isDistFinal s y = false) := by
      simp only [Finset.mem_filter, Finset.mem_range]
      exact ⟨hu, hnf⟩
    have := hsub hu'
    simp only [Finset.mem_filter, Finset.mem_range, Function.update_same] at this
    cases this.2

theorem notFinal_eq (s s1 : SPState) (n : Nat) (h : isDistFinal s1 = isDistFinal s) :
    notFinal s1 n = notFinal s n := by
  unfold notFinal
  rw [h]

/-- The for loop returns when its body does. -/
theorem scanSSSP_total (lazy : Int) (g : DLGraph) (d : DL_sssp_direction) (u : Nat)
    (rel_u : Bool) (J : AdjList → SPState → Prop) (M : SPState → Nat)
    (hrel : ∀ (it : DLEdge) (rest : AdjList) (s : SPState) (nr : Nat), J (it :: rest) s →
      ∃ s1 nr1, relaxEdge lazy g d u rel_u it s nr = some (s1, nr1) ∧ J rest s1 ∧ M s1 = M s)
    (l : AdjList) :
    ∀ (s : SPState) (nr : Nat), J l s →
      ∃ s' nr', scanSSSP lazy g d u rel_u l s nr = some (s', nr') ∧ J [] s' ∧ M s' = M s := by
  induction l with
  | nil =>
    intro s nr hJ
    exact ⟨s, nr, rfl, hJ, rfl⟩
  | cons it rest ih =>
    intro s nr hJ
    obtain ⟨s1, nr1, hstep, hJ1, hM1⟩ := hrel it rest s nr hJ
    obtain ⟨s', nr', hscan, hJ', hM'⟩ := ih s1 nr1 hJ1
    refine ⟨s', nr', ?_, hJ', hM'.trans hM1⟩
    unfold scanSSSP
    rw [hstep]
    exact hscan

/-- The while loop returns within as many iterations as the measure `M` of its
first state, when every extraction lowers the measure and the body of the for
loop returns and keeps it. -/
theorem ssspLoop_total (lazy : Int) (g : DLGraph) (d : DL_sssp_direction) (I : SPState → Prop)
    (J : Nat → Bool → AdjList → SPState → Prop) (M : SPState → Nat)
    (hext : ∀ (s : SPState) (u : Nat) (rest : List Nat) (nr : Nat), I s →
      pqOf s d = u :: rest →
      ∃ s4 nr1 rel_u adj, extractSSSP g d u rest s nr = some (s4, nr1, rel_u, adj) ∧
        J u rel_u adj s4 ∧ M s4 < M s)
    (hrel : ∀ (u : Nat) (rel_u : Bool) (it : DLEdge) (rest : AdjList) (s : SPState) (nr : Nat),
      J u rel_u (it :: rest) s →
      ∃ s1 nr1, relaxEdge lazy g d u rel_u it s nr = some (s1, nr1) ∧ J u rel_u rest s1 ∧
        M s1 = M s)
    (hend : ∀ (u : Nat) (rel_u : Bool) (s : SPState), J u rel_u [] s → I s) (fuel : Nat) :
    ∀ (s : SPState) (nr : Nat), I s → M s ≤ fuel →
      ∃ s', ssspLoop lazy g d fuel s nr = some s' ∧ I s' := by
  induction fuel with
  | zero =>
    intro s nr hI hM
    unfold ssspLoop
    cases hheap : pqOf s d with
    | nil => exact ⟨s, rfl, hI⟩
    | cons u rest =>
      obtain ⟨s4, _, _, _, _, _, hlt⟩ := hext s u rest nr hI hheap
      omega
  | succ n ih =>
    intro s nr hI hM
    unfold ssspLoop
    cases hheap : pqOf s d with
    | nil => exact ⟨s, rfl, hI⟩
    | cons u rest =>
      obtain ⟨s4, nr1, rel_u, adj, hex, hJ, hlt⟩ := hext s u rest nr hI hheap
      obtain ⟨s5, nr2, hscan, hJ5, hM5⟩ := scanSSSP_total lazy g d u rel_u (J u rel_u) M
        (fun it rest s nr => hrel u rel_u it rest s nr) adj s4 nr1 hJ
      simp only [hex, hscan]
      split
      · exact ⟨s5, rfl, hend u rel_u s5 hJ5⟩
      · exact ih s5 nr2 (hend u rel_u s5 hJ5) (by omega)

/-- In a reached state an edge in an adjacency list of a direction is an
active edge whose near end is the vertex of the list. -/
theorem StoreInv.adj_edges {st : List (Enode × lbool)} {g : DLGraph} (hs : StoreInv st g)
    (d : DL_sssp_direction) (a : Nat) (e : DLEdge) (he : e ∈ adjOf g d a) :
    e ∈ g.dEdges ∧ nearEnd d e = a ∧ a < g.vertexMap.length := by
  unfold adjOf at he
  cases d with
  | DL_sssp_forward =>
    have he' : e ∈ g.dAdj.getD a [] := he
    obtain ⟨l, hl, hel⟩ := mem_getD_row g.dAdj a e he'
    have ha : a < g.dAdj.length := by
      by_contra hc
      rw [List.getElem?_eq_none (Nat.le_of_not_lt hc)] at hl
      cases hl
    rw [hs.rows a ha] at hl
    cases hl
    have := List.mem_filter.1 hel
    refine ⟨this.1, ?_, by rw [← hs.len_d]; exact ha⟩
    have h2 := this.2
    simp only [decide_eq_true_eq] at h2
    exact h2
  | DL_sssp_backward =>
    have he' : e ∈ g.dAdjInc.getD a [] := he
    obtain ⟨l, hl, hel⟩ := mem_getD_row g.dAdjInc a e he'
    have ha : a < g.dAdjInc.length := by
      by_contra hc
      rw [List.getElem?_eq_none (Nat.le_of_not_lt hc)] at hl
      cases hl
    rw [hs.rows_in a ha] at hl
    cases hl
    have := List.mem_filter.1 hel
    refine ⟨this.1, ?_, by rw [← hs.len_di]; exact ha⟩
    have h2 := this.2
    simp only [decide_eq_true_eq] at h2
    exact h2

/-- A pass returns: on a graph whose active edges have non-negative reduced
weights and whose adjacency lists of the direction have a row for each of the
`n` vertices and lead to vertices below `n`, from a scratch state with an
empty heap, stamps behind their tokens, right reduced weights and large enough
trees, a pass from a root below `n` fails no assertion and needs at most `n`
iterations of its while loop. -/
theorem findSSSP_returns (lazy : Int) (g : DLGraph) (s : SPState) (x : Nat)
    (d : DL_sssp_direction) (fuel n : Nat) (hf : RwtNonneg g d)
    (hfar : ∀ (a : Nat) (e : DLEdge), e ∈ adjOf g d a → farEnd d e < n)
    (hrows : n ≤ (if d = DL_sssp_direction.DL_sssp_forward then g.dAdj else g.dAdjInc).length)
    (hx : x < n) (hst : DistStamps s) (hr : RwtOk g s) (hpq : pqOf s d = [])
    (htree : TreeOk lazy n d s) (hfuel : n ≤ fuel) :
    ∃ s', findSSSP lazy g s x d fuel = some s' := by
  have hinit := spInit_startSSSP x d hst hpq
  have htree0 : TreeOk lazy n d (startSSSP s x d) := by
    intro hl
    have : treeOf (startSSSP s x d) d = treeOf s d := by cases d <;> rfl
    rw [this]
    exact htree hl
  have hsome : ∃ s6, ssspLoop lazy g d fuel (startSSSP s x d) 0 = some s6 ∧ True := by
    have := ssspLoop_total lazy g d
      (fun s => RwtOk g s ∧ (SpInit x (s.view d) ∨ ∃ u0, SpInv g d x u0 [] (s.view d)) ∧
        TreeOk lazy n d s ∧ ∀ y ∈ pqOf s d, y < n)
      (fun u _ pending s => RwtOk g s ∧ SpInv g d x u pending (s.view d) ∧
        (∀ e ∈ pending, e ∈ adjOf g d u) ∧ TreeOk lazy n d s ∧ ∀ y ∈ pqOf s d, y < n)
      (fun s => notFinal s n) ?_ ?_ ?_ fuel (startSSSP s x d) 0 ?_ ?_
    · obtain ⟨s6, h6, _⟩ := this
      exact ⟨s6, h6, trivial⟩
    · -- the extraction
      intro s u rest nr hI hheap
      obtain ⟨hr0, hh, ht0, hb0⟩ := hI
      have hu : u < n := hb0 u (by rw [hheap]; exact List.mem_cons_self _ _)
      have hrow : (if d = DL_sssp_direction.DL_sssp_forward then g.dAdj else g.dAdjInc)[u]? =
          some (adjOf g d u) := by
        unfold adjOf
        exact getElem?_eq_some_getD _ u (Nat.lt_of_lt_of_le hu hrows)
      have hex : ∃ r, extractSSSP g d u rest s nr = some r := by
        unfold extractSSSP
        simp only [hrow]
        exact ⟨_, rfl⟩
      obtain ⟨⟨s4, nr1, rel_u, adj⟩, hex⟩ := hex
      obtain ⟨hr4, hv4, hadj⟩ := extractSSSP_view g d u rest s s4 nr nr1 rel_u adj hr0 hex
      have hlen := extractSSSP_frame g d _ (frame_treeLen g d) u rest s s4 nr nr1 rel_u adj hex
      have hunf : isDistFinal s u = false := by
        rcases hh with h1 | ⟨u0, h1⟩
        · exact h1.no_final u
        · have hm : u ∈ (s.view d).heap := by
            show u ∈ pqOf s d
            rw [hheap]
            exact List.mem_cons_self _ _
          exact ((h1.heap_iff u).1 hm).2
      refine ⟨s4, nr1, rel_u, adj, hex, ⟨hr4, ?_, ?_, ?_, ?_⟩, ?_⟩
      · rw [hv4, hadj]
        rcases hh with h1 | ⟨u0, h1⟩
        · have hhe := h1.heap_eq
          have hheap' : (s.view d).heap = u :: rest := hheap
          rw [hheap'] at hhe
          simp only [List.cons.injEq] at hhe
          obtain ⟨hs, hrest⟩ := hhe
          subst hrest
          subst hs
          exact h1.extract_root hf
        · exact h1.extract_step hf u rest hheap
      · intro e he
        rw [← hadj]
        exact he
      · intro hl
        rw [hlen]
        exact ht0 hl
      · intro y hy
        have hy' : y ∈ (s4.view d).heap := hy
        rw [hv4] at hy'
        have hy2 : y ∈ rest := (mem_sortBy _ _ y).1 hy'
        exact hb0 y (by rw [hheap]; exact List.mem_cons_of_mem _ hy2)
      · apply notFinal_lt s s4 n u hu hunf
        have : (s4.view d).final = Function.update (s.view d).final u true := by rw [hv4]; rfl
        exact this
    · -- the body of the for loop
      intro u rel_u it rest s nr hJ
      obtain ⟨hr0, hinv, hrow, ht0, hb0⟩ := hJ
      have hit := hrow it (List.mem_cons_self _ _)
      have hne := relaxEdge_ne_none lazy g d x u rel_u it rest s nr hr0 hinv hit hf
        (fun hl => Nat.lt_of_lt_of_le (hfar u it hit) (ht0 hl))
      cases hstep : relaxEdge lazy g d u rel_u it s nr with
      | none => exact absurd hstep hne
      | some r =>
        obtain ⟨s1, nr1⟩ := r
        obtain ⟨hr1, hv1⟩ := relaxEdge_view lazy g d u rel_u it s s1 nr nr1 hr0 hstep
        have hlen := relaxEdge_frame lazy g d _ (frame_treeLen g d) u rel_u it s s1 nr nr1 hstep
        refine ⟨s1, nr1, rfl, ⟨hr1, ?_, fun e he => hrow e (List.mem_cons_of_mem _ he), ?_, ?_⟩,
          ?_⟩
        · rw [hv1]
          exact hinv.relax_step hf hit
        · intro hl
          rw [hlen]
          exact ht0 hl
        · intro y hy
          have hy' : y ∈ (s1.view d).heap := hy
          rw [hv1] at hy'
          rcases relax_heap_mem _ _ _ _ y hy' with h1 | h1
          · exact hb0 y h1
          · rw [h1]
            exact hfar u it hit
        · apply notFinal_eq
          have : (s1.view d).final = (s.view d).final := by rw [hv1, relax_final]
          exact this
    · intro u _ s hJ
      exact ⟨hJ.1, Or.inr ⟨u, hJ.2.1⟩, hJ.2.2.2.1, hJ.2.2.2.2⟩
    · refine ⟨rwtOk_startSSSP x d hr, Or.inl hinit, htree0, ?_⟩
      intro y hy
      have hy' : y ∈ ((startSSSP s x d).view d).heap := hy
      rw [hinit.heap_eq] at hy'
      rw [List.mem_singleton.1 hy']
      exact hx
    · show notFinal (startSSSP s x d) n ≤ fuel
      refine le_trans ?_ hfuel
      unfold notFinal
      exact le_trans (Finset.card_filter_le _ _) (by rw [Finset.card_range])
  obtain ⟨s6, h6, _⟩ := hsome
  exact ⟨clearPBheap s6 d, (findSSSP_eq lazy g s _ x d fuel).2 ⟨hpq, s6, h6, rfl⟩⟩

/-! ## The reduced weights and distances of a pass are not negative -/

/-- A pass stores no negative reduced weight: for every edge, either the
reduced weight is the one before and has not become valid, or it is not
negative. -/
theorem frame_rwtNew (g : DLGraph) (d : DL_sssp_direction) :
    Frame g d (fun s s' => ∀ e,
      (s'.rwt e = s.rwt e ∧ (isRwtValid s' e = true → isRwtValid s e = true)) ∨
        0 ≤ s'.rwt e) where
  same := fun _ _ => Or.inl ⟨rfl, fun h => h⟩
  next := fun s1 s2 s3 h1 h2 e => by
    rcases h2 e with ⟨h2a, h2b⟩ | h2r
    · rcases h1 e with ⟨h1a, h1b⟩ | h1r
      · exact Or.inl ⟨h2a.trans h1a, fun h => h1b (h2b h)⟩
      · right
        rw [h2a]
        exact h1r
    · exact Or.inr h2r
  setDist := fun s v x e => by cases d <;> exact Or.inl ⟨rfl, fun h => h⟩
  readDist := fun s v e => Or.inl ⟨rfl, fun h => h⟩
  finalDist := fun s v e => Or.inl ⟨rfl, fun h => h⟩
  setRelevancy := fun s v b e => by cases d <;> exact Or.inl ⟨rfl, fun h => h⟩
  updateRel := fun s v e => by cases d <;> exact Or.inl ⟨rfl, fun h => h⟩
  setDistFrom := fun s v k e => by cases d <;> exact Or.inl ⟨rfl, fun h => h⟩
  setPq := fun s l e => by cases d <;> exact Or.inl ⟨rfl, fun h => h⟩
  newRwt := fun s e r hr e' => by
    by_cases he : e' = e
    · right
      show 0 ≤ Function.update s.rwt e r e'
      rw [he, Function.update_same]
      exact hr
    · left
      refine ⟨?_, ?_⟩
      · show Function.update s.rwt e r e' = s.rwt e'
        rw [Function.update_noteq he]
      · intro h
        have h' : (Function.update s.rwt_list e s.rwt_token e' == s.rwt_token) = true := h
        rw [Function.update_noteq he] at h'
        exact h'
  tree := fun s e s' hs e' => by
    have h := sameDist_updateSPT s s' e d hs
    left
    refine ⟨by rw [h.rwt], ?_⟩
    unfold isRwtValid
    rw [h.rwt_list, h.rwt_token]
    exact fun h => h
  relevant := fun s u e => by cases d <;> exact Or.inl ⟨rfl, fun h => h⟩
  adjSize := fun s n e => Or.inl ⟨rfl, fun h => h⟩
  initDist := fun s e => Or.inl ⟨rfl, fun h => h⟩
  initFinalDist := fun s e => Or.inl ⟨rfl, fun h => h⟩

/-- C30: the reduced weights and the distances of a pass are not negative.  In
a state reached through the interface in which every active edge satisfies
`pi[u] + wt - pi[v] >= 0`, from a scratch state as `findHeavyEdges` hands it
over (the heap of the direction empty, the stamps of the distances behind their
tokens, the valid reduced weights right, and with eager generation a tree with
a row per vertex), for a root that is a vertex: `findSSSP` fails none of its
assertions, in particular not `rwt >= 0` and `dist >= 0`, and returns within
as many iterations of its while loop as there are vertices; every reduced
weight that became valid during the pass is `>= 0`, and every distance that
was read is `>= 0`. -/
theorem findSSSP_nonneg (cfg : Config) (st : List (Enode × lbool)) (g : DLGraph)
    (LAZY_GENERATION : Int) (s : SPState) (x : Nat) (direction : DL_sssp_direction)
    (fuel : Nat) (hr : Reach cfg st g) (hfeas : AllFeasible g) (hst : DistStamps s)
    (hrwt : RwtOk g s) (hpq : pqOf s direction = []) (hx : x < g.vertexMap.length)
    (htree : TreeOk LAZY_GENERATION g.vertexMap.length direction s)
    (hfuel : g.vertexMap.length ≤ fuel) :
    ∃ s', findSSSP LAZY_GENERATION g s x direction fuel = some s' ∧
      (∀ e, isRwtValid s' e = true → isRwtValid s e = true ∨ 0 ≤ s'.rwt e) ∧
      (∀ t, isDistRead s' t = true → 0 ≤ getDist s' direction t) := by
  have hs := reach_storeInv cfg st g hr
  have hf := rwtNonneg_of_feasible cfg st g hr hfeas direction
  have hfar : ∀ (a : Nat) (e : DLEdge), e ∈ adjOf g direction a →
      farEnd direction e < g.vertexMap.length := by
    intro a e he
    have hb := hs.dbound e (hs.adj_edges direction a e he).1
    cases direction with
    | DL_sssp_forward => exact hb.2
    | DL_sssp_backward => exact hb.1
  have hrows : g.vertexMap.length ≤
      (if direction = DL_sssp_direction.DL_sssp_forward then g.dAdj else g.dAdjInc).length := by
    cases direction with
    | DL_sssp_forward => exact le_of_eq hs.len_d.symm
    | DL_sssp_backward => exact le_of_eq hs.len_di.symm
  obtain ⟨s', h⟩ := findSSSP_returns LAZY_GENERATION g s x direction fuel g.vertexMap.length hf
    hfar hrows hx hst hrwt hpq htree hfuel
  refine ⟨s', h, ?_, ?_⟩
  · intro e he
    rcases findSSSP_frame LAZY_GENERATION g direction _ (frame_rwtNew g direction) s s' x fuel h
      e with ⟨_, h2⟩ | h2
    · exact Or.inl (h2 he)
    · exact Or.inr h2
  · obtain ⟨_, s6, hloop, hs'⟩ := (findSSSP_eq LAZY_GENERATION g s s' x direction fuel).1 h
    obtain ⟨u, hinv⟩ := ssspLoop_inv LAZY_GENERATION g direction x hf fuel _ s6 0
      (rwtOk_startSSSP x direction hrwt) (Or.inl (spInit_startSSSP x direction hst hpq)) hloop
    intro t ht
    have hrd : isDistRead s' t = isDistRead s6 t := by
      rw [hs']
      cases direction <;> rfl
    have hd : getDist s' direction t = getDist s6 direction t := by
      rw [hs']
      cases direction <;> rfl
    rw [hrd] at ht
    rw [hd]
    obtain ⟨es, hes, hdist⟩ := hinv.attained t ht
    have hdist' : getDist s6 direction t = pathRwt g es := hdist
    rw [hdist']
    exact pathRwt_nonneg g direction hf es x t hes

theorem findSSSP_nonneg_witness :
    Reach exCfg
        [(exAtomE, getPolarity exAllTrue exAtomE), (exAtomC, getPolarity exAllTrue exAtomC),
          (exAtomB, getPolarity exAllTrue exAtomB), (exAtomA, getPolarity exAllTrue exAtomA)]
        exSsspGraph ∧
      AllFeasible exSsspGraph ∧ DistStamps exSsspState ∧ RwtOk exSsspGraph exSsspState ∧
      pqOf exSsspState .DL_sssp_forward = [] ∧ 0 < exSsspGraph.vertexMap.length ∧
      TreeOk 0 exSsspGraph.vertexMap.length .DL_sssp_forward exSsspState ∧
      exSsspGraph.vertexMap.length ≤ 4 ∧
      ∃ s', findSSSP 0 exSsspGraph exSsspState 0 .DL_sssp_forward 4 = some s' ∧
        (∀ e, isRwtValid s' e = true → isRwtValid exSsspState e = true ∨ 0 ≤ s'.rwt e) ∧
        (∀ t, isDistRead s' t = true → 0 ≤ getDist s' .DL_sssp_forward t) :=
  ⟨exSssp_ready.1, exSssp_ready.2.1, exSssp_ready.2.2.1, exSssp_ready.2.2.2, by rfl,
    by decide, fun _ => by decide, by decide,
    findSSSP_nonneg exCfg _ exSsspGraph 0 exSsspState 0 .DL_sssp_forward 4
      exSssp_ready.1 exSssp_ready.2.1 exSssp_ready.2.2.1 exSssp_ready.2.2.2 (by rfl)
      (by decide) (fun _ => by decide) (by decide)⟩

/-! ## The journal between two calls -/

theorem getDLVertex_journal (g : DLGraph) (x : Option Enode) :
    (getDLVertex g x).2.changed_vertices = g.changed_vertices := by
  unfold getDLVertex
  split <;> rfl

theorem getDLEdge_journal (cfg : Config) (A : AtomStore) (g : DLGraph) (e : Enode)
    (p : DLComplEdges) (g1 : DLGraph) (h : getDLEdge cfg A g e = some (p, g1)) :
    g1.changed_vertices = g.changed_vertices := by
  unfold getDLEdge at h
  split at h
  · simp only [Option.some.injEq, Prod.mk.injEq] at h
    rw [← h.2]
  · split at h
    · cases h
    · split at h
      · cases h
      · rename_i w x y hcl
        simp only [Option.some.injEq, Prod.mk.injEq] at h
        obtain ⟨-, hg⟩ := h
        subst hg
        have t0 : ({ g with tmp_edge_weight := w } : DLGraph).changed_vertices =
            g.changed_vertices := rfl
        generalize ({ g with tmp_edge_weight := w } : DLGraph) = g0 at t0 ⊢
        have t1 := getDLVertex_journal g0 x
        generalize getDLVertex g0 x = r1 at t1 ⊢
        have t2 := getDLVertex_journal r1.2 y
        generalize getDLVertex r1.2 y = r2 at t2 ⊢
        show r2.2.changed_vertices = g.changed_vertices
        rw [t2, t1, t0]

theorem insertInactive_ready (g g' : DLGraph) (e : Enode) (h : insertInactive g e = some g')
    (hr : Ready g) : Ready g' := by
  obtain ⟨-, -, -, -, -, -, -, -, hg⟩ := insertInactive_spec g g' e h
  generalize g'.hAdj = a at hg
  generalize g'.hAdjInc = b at hg
  subst hg
  exact hr

theorem deleteInactive_ready (g g' : DLGraph) (e : Enode) (h : deleteInactive g e = some g')
    (hr : Ready g) : Ready g' := by
  obtain ⟨-, -, -, -, -, -, -, -, hg⟩ := deleteInactive_spec g g' e h
  generalize g'.hAdj = a at hg
  generalize g'.hAdjInc = b at hg
  subst hg
  exact hr

theorem insertStatic_ready (cfg : Config) (A : AtomStore) (g g' : DLGraph) (c : Enode)
    (h : insertStatic cfg A g c = some g') (hr : Ready g) : Ready g' := by
  obtain ⟨p, g1, s1, s2, g3, hget, -, -, hg3, -, hcase⟩ := insertStatic_spec cfg A g g' c h
  have m1 := getDLEdge_journal cfg A g c p g1 hget
  have m3 : Ready g3 := by
    subst hg3
    exact ⟨m1.trans hr.1, rfl⟩
  rcases hcase with ⟨-, hins⟩ | ⟨-, hg⟩
  · exact insertInactive_ready g3 g' c hins m3
  · rw [hg]
    exact m3

theorem insertDynamic_ready (cfg : Config) (A : AtomStore) (g g1 : DLGraph) (c : Enode)
    (reason : Bool) (e : DLEdge) (h : insertDynamic cfg A g c reason = some (e, g1))
    (hr : Ready g) : Ready g1 := by
  obtain ⟨p, a, b, gm, -, -, -, -, -, hgm, hcase⟩ := insertDynamic_spec cfg A g g1 c reason e h
  have m1 : Ready gm := by
    subst hgm
    exact hr
  rcases hcase with ⟨-, hdel⟩ | ⟨-, hg1⟩
  · exact deleteInactive_ready gm g1 c hdel m1
  · rw [hg1]
    exact m1

theorem deleteActive_ready (cfg : Config) (A : AtomStore) (g g' : DLGraph) (c : Enode)
    (h : deleteActive cfg A g c = some g') (hr : Ready g) : Ready g' := by
  obtain ⟨p, du, dv, gm, -, -, -, -, -, -, -, hgm, hcase⟩ := deleteActive_spec cfg A g g' c h
  have m1 : Ready gm := by
    subst hgm
    exact hr
  rcases hcase with ⟨-, hins⟩ | ⟨-, hg⟩
  · exact insertInactive_ready gm g' c hins m1
  · rw [hg]
    exact m1

/-- A call of `checkNegCycle` that returns `true` leaves the journal empty. -/
theorem checkNegCycle_true_journal (cfg : Config) (A : AtomStore) (g g' : DLGraph) (c : Enode)
    (reason : Bool) (fuel : Nat) (h : checkNegCycle cfg A g c reason fuel = some (true, g')) :
    g'.changed_vertices = [] := by
  unfold checkNegCycle at h
  split at h
  · cases h
  · split at h
    · cases h
    · split at h
      · cases h
      · split at h
        · cases h
        · simp only [Option.some.injEq, Prod.mk.injEq] at h
          cases h.1
        · simp only [Option.some.injEq, Prod.mk.injEq] at h
          rw [← h.2]

/-- Every reachable state has an empty journal and a `Vcnt` that counts the
vertices. -/
theorem reach_ready (cfg : Config) (st : List (Enode × lbool)) (g : DLGraph)
    (h : Reach cfg st g) : Ready g := by
  induction h with
  | init => exact ⟨rfl, rfl⟩
  | static A c _ _ hins ih => exact insertStatic_ready cfg A _ _ c hins ih
  | dynamic A c reason e _ _ hins ih => exact insertDynamic_ready cfg A _ _ c reason e hins ih
  | @check st0 g0 g1 A c reason fuel b hr0 _ hchk ih =>
    obtain ⟨e, gd, hins, hstore⟩ := checkNegCycle_store cfg A _ _ c reason fuel b hchk
    have hd := insertDynamic_ready cfg A _ _ c reason e hins ih
    refine ⟨?_, ?_⟩
    · cases b with
      | true => exact checkNegCycle_true_journal cfg A _ _ c reason fuel hchk
      | false =>
        exact (checkNegCycle_rollback cfg A _ _ c reason fuel (reach_idle cfg _ _ hr0).2.1
          hchk).2.1
    · rw [hstore.Vcnt, hstore.vertexMap]
      exact hd.2
  | delete A c _ hdel ih => exact deleteActive_ready cfg A _ _ c hdel ih
  | implied c _ himp ih =>
    unfold insertImplied at himp
    split at himp
    · exact deleteInactive_ready _ _ c himp ih
    · cases himp

/-! ## The bookkeeping of the repair, step by step -/

/-- The refresh of lines 536-540 keeps the bookkeeping. -/
theorem HeapInv.book_refresh {pi0 : Nat → Int} {n : Nat} {v : RepairView}
    {ce : List (Option DLEdge)} (h : HeapInv pi0 n v ce) (t : Nat) (hr : v.read t = false) :
    HeapInv pi0 n
      { v with gamma := Function.update v.gamma t 0, read := Function.update v.read t true }
      ce := by
  have hne : ∀ y ∈ v.heap, y ≠ t := by
    intro y hy hyt
    have := (h.heap_ok y hy).2.1
    rw [hyt, hr] at this
    cases this
  refine
    { placed := h.placed
      unproc := h.unproc
      heap_ok := ?_
      nodup := h.nodup
      idle := ?_
      bound_heap := h.bound_heap
      bound_prime := h.bound_prime
      size_ce := h.size_ce
      size_adj := h.size_adj
      targets := h.targets }
  · intro y hy
    obtain ⟨h1, h2, h3, ed, h4, h5, h6, h7⟩ := h.heap_ok y hy
    have hyt := hne y hy
    refine ⟨h1, ?_, ?_, ed, h4, h5, h6, ?_⟩
    · show Function.update v.read t true y = true
      rw [Function.update_noteq hyt]
      exact h2
    · show Function.update v.gamma t 0 y < 0
      rw [Function.update_noteq hyt]
      exact h3
    · show Function.update v.gamma t 0 y = _
      rw [Function.update_noteq hyt]
      exact h7
  · intro x hx hxh hxr
    show Function.update v.gamma t 0 x = 0
    by_cases hxt : x = t
    · rw [hxt, Function.update_same]
    · rw [Function.update_noteq hxt]
      have hxr' : Function.update v.read t true x = true := hxr
      rw [Function.update_noteq hxt] at hxr'
      exact h.idle x hx hxh hxr'

/-- A relaxation that lowers `gamma` of a target that is read and not
processed keeps the bookkeeping: the target is on the heap once, either pushed
or already there, and its entry is the relaxed edge. -/
theorem HeapInv.book_relax {pi0 : Nat → Int} {n : Nat} {v : RepairView}
    {ce ce' : List (Option DLEdge)} (h : HeapInv pi0 n v ce) (s : Nat) (it : DLEdge)
    (hs : v.prime s = true) (hit : it ∈ v.dAdj.getD s []) (hprime : v.prime it.v = false)
    (hread : v.read it.v = true) (hval : v.pi s + it.wt - v.pi it.v < v.gamma it.v)
    (hce : ∀ y, ce'[y]? = if y = it.v then some (some it) else ce[y]?)
    (hlen : ce'.length = ce.length) :
    HeapInv pi0 n
      { v with
        gamma := Function.update v.gamma it.v (v.pi s + it.wt - v.pi it.v)
        heap := if it.v ∈ v.heap then v.heap else v.heap ++ [it.v] }
      ce' := by
  obtain ⟨l, hl, hitl⟩ := mem_getD_row v.dAdj s it hit
  have hu : it.u = s := h.placed s l hl it hitl
  have htn : it.v < n := h.targets l (List.getElem?_mem hl) it hitl
  have hg0 : v.gamma it.v ≤ 0 := by
    by_cases hm : it.v ∈ v.heap
    · exact le_of_lt (h.heap_ok it.v hm).2.2.1
    · exact le_of_eq (h.idle it.v hprime hm hread)
  have hmem : ∀ y, y ∈ (if it.v ∈ v.heap then v.heap else v.heap ++ [it.v]) ↔
      y ∈ v.heap ∨ y = it.v := by
    intro y
    by_cases hm : it.v ∈ v.heap
    · rw [if_pos hm]
      constructor
      · exact fun hy => Or.inl hy
      · rintro (hy | hy)
        · exact hy
        · rw [hy]
          exact hm
    · rw [if_neg hm, List.mem_append, List.mem_singleton]
  refine
    { placed := h.placed
      unproc := h.unproc
      heap_ok := ?_
      nodup := ?_
      idle := ?_
      bound_heap := ?_
      bound_prime := h.bound_prime
      size_ce := by rw [hlen]; exact h.size_ce
      size_adj := h.size_adj
      targets := h.targets }
  · intro y hy
    have hy' := (hmem y).1 hy
    by_cases hyt : y = it.v
    · refine ⟨by rw [hyt]; exact hprime, by rw [hyt]; exact hread, ?_, it, ?_, hyt.symm, ?_, ?_⟩
      · show Function.update v.gamma it.v _ y < 0
        rw [hyt, Function.update_same]
        omega
      · rw [hce y, if_pos hyt]
      · show v.prime it.u = true
        rw [hu]
        exact hs
      · show Function.update v.gamma it.v _ y = v.pi it.u + it.wt - pi0 y
        rw [hyt, Function.update_same, hu, h.unproc it.v hprime]
    · have hyh : y ∈ v.heap := by
        rcases hy' with h1 | h1
        · exact h1
        · exact absurd h1 hyt
      obtain ⟨h1, h2, h3, ed, h4, h5, h6, h7⟩ := h.heap_ok y hyh
      refine ⟨h1, h2, ?_, ed, ?_, h5, h6, ?_⟩
      · show Function.update v.gamma it.v _ y < 0
        rw [Function.update_noteq hyt]
        exact h3
      · rw [hce y, if_neg hyt]
        exact h4
      · show Function.update v.gamma it.v _ y = _
        rw [Function.update_noteq hyt]
        exact h7
  · show (if it.v ∈ v.heap then v.heap else v.heap ++ [it.v]).Nodup
    by_cases hm : it.v ∈ v.heap
    · rw [if_pos hm]
      exact h.nodup
    · rw [if_neg hm]
      refine List.Nodup.append h.nodup (List.nodup_singleton _) ?_
      intro a ha hb
      rw [List.mem_singleton] at hb
      rw [hb] at ha
      exact hm ha
  · intro x hx hxh hxr
    have hxt : x ≠ it.v := fun hh => hxh ((hmem x).2 (Or.inr hh))
    show Function.update v.gamma it.v _ x = 0
    rw [Function.update_noteq hxt]
    exact h.idle x hx (fun hh => hxh ((hmem x).2 (Or.inl hh))) hxr
  · intro y hy
    rcases (hmem y).1 hy with h1 | h1
    · exact h.bound_heap y h1
    · rw [h1]
      exact htn

/-- A rearrangement of the heap keeps the bookkeeping. -/
theorem HeapInv.book_rearrange {pi0 : Nat → Int} {n : Nat} {v : RepairView}
    {ce : List (Option DLEdge)} (h : HeapInv pi0 n v ce) (heap' : List Nat)
    (hmem : ∀ y, y ∈ heap' ↔ y ∈ v.heap) (hnd : heap'.Nodup) :
    HeapInv pi0 n { v with heap := heap' } ce :=
  { placed := h.placed
    unproc := h.unproc
    heap_ok := fun y hy => h.heap_ok y ((hmem y).1 hy)
    nodup := hnd
    idle := fun x hx hxh hxr => h.idle x hx (fun hh => hxh ((hmem x).2 hh)) hxr
    bound_heap := fun y hy => h.bound_heap y ((hmem y).1 hy)
    bound_prime := h.bound_prime
    size_ce := h.size_ce
    size_adj := h.size_adj
    targets := h.targets }

/-- The extraction of the front `s` keeps the bookkeeping. -/
theorem HeapInv.book_extract {pi0 : Nat → Int} {n : Nat} {v : RepairView}
    {ce : List (Option DLEdge)} (h : HeapInv pi0 n v ce) (s : Nat) (rest heap' : List Nat)
    (hheap : v.heap = s :: rest) (hmem : ∀ y, y ∈ heap' ↔ y ∈ rest) (hnd : heap'.Nodup) :
    HeapInv pi0 n
      { v with
        pi := Function.update v.pi s (v.pi s + v.gamma s)
        prime := Function.update v.prime s true
        gamma := Function.update v.gamma s 0
        read := Function.update v.read s true
        heap := heap' }
      ce := by
  have hsh : s ∈ v.heap := by
    rw [hheap]
    exact List.mem_cons_self _ _
  have hsp : v.prime s = false := (h.heap_ok s hsh).1
  have hnd0 := h.nodup
  rw [hheap, List.nodup_cons] at hnd0
  have hrest : ∀ y ∈ rest, y ≠ s ∧ y ∈ v.heap := by
    intro y hy
    refine ⟨fun hh => hnd0.1 (hh ▸ hy), ?_⟩
    rw [hheap]
    exact List.mem_cons_of_mem _ hy
  refine
    { placed := h.placed
      unproc := ?_
      heap_ok := ?_
      nodup := hnd
      idle := ?_
      bound_heap := ?_
      bound_prime := ?_
      size_ce := h.size_ce
      size_adj := h.size_adj
      targets := h.targets }
  · intro x hx
    have hx' : Function.update v.prime s true x = false := hx
    have hxs : x ≠ s := by
      intro hh
      rw [hh, Function.update_same] at hx'
      cases hx'
    rw [Function.update_noteq hxs] at hx'
    show Function.update v.pi s _ x = pi0 x
    rw [Function.update_noteq hxs]
    exact h.unproc x hx'
  · intro y hy
    obtain ⟨hys, hyh⟩ := hrest y ((hmem y).1 hy)
    obtain ⟨h1, h2, h3, ed, h4, h5, h6, h7⟩ := h.heap_ok y hyh
    have heds : ed.u ≠ s := by
      intro hh
      rw [hh, hsp] at h6
      cases h6
    refine ⟨?_, ?_, ?_, ed, h4, h5, ?_, ?_⟩
    · show Function.update v.prime s true y = false
      rw [Function.update_noteq hys]
      exact h1
    · show Function.update v.read s true y = true
      rw [Function.update_noteq hys]
      exact h2
    · show Function.update v.gamma s 0 y < 0
      rw [Function.update_noteq hys]
      exact h3
    · show Function.update v.prime s true ed.u = true
      rw [Function.update_noteq heds]
      exact h6
    · show Function.update v.gamma s 0 y = Function.update v.pi s _ ed.u + ed.wt - pi0 y
      rw [Function.update_noteq hys, Function.update_noteq heds]
      exact h7
  · intro x hx hxh hxr
    have hx' : Function.update v.prime s true x = false := hx
    have hxs : x ≠ s := by
      intro hh
      rw [hh, Function.update_same] at hx'
      cases hx'
    rw [Function.update_noteq hxs] at hx'
    have hxr' : Function.update v.read s true x = true := hxr
    rw [Function.update_noteq hxs] at hxr'
    show Function.update v.gamma s 0 x = 0
    rw [Function.update_noteq hxs]
    apply h.idle x hx' _ hxr'
    rw [hheap]
    intro hh
    rcases List.mem_cons.1 hh with h1 | h1
    · exact hxs h1
    · exact hxh ((hmem x).2 h1)
  · intro y hy
    exact h.bound_heap y (hrest y ((hmem y).1 hy)).2
  · intro x hx
    have hx' : Function.update v.prime s true x = true := hx
    by_cases hxs : x = s
    · rw [hxs]
      exact h.bound_heap s hsh
    · rw [Function.update_noteq hxs] at hx'
      exact h.bound_prime x hx'

/-- The first extraction, of the target of the new edge, gives the
bookkeeping. -/
theorem HeapInit.book_first {pi0 : Nat → Int} {n : Nat} {e : DLEdge} {v : RepairView}
    {ce : List (Option DLEdge)} (h : HeapInit pi0 n e v ce) :
    HeapInv pi0 n
      { v with
        pi := Function.update v.pi e.v (v.pi e.v + v.gamma e.v)
        prime := Function.update v.prime e.v true
        gamma := Function.update v.gamma e.v 0
        read := Function.update v.read e.v true
        heap := [] }
      ce := by
  refine
    { placed := h.placed
      unproc := ?_
      heap_ok := ?_
      nodup := List.nodup_nil
      idle := ?_
      bound_heap := ?_
      bound_prime := ?_
      size_ce := h.size_ce
      size_adj := h.size_adj
      targets := h.targets }
  · intro x hx
    have hx' : Function.update v.prime e.v true x = false := hx
    have hxs : x ≠ e.v := by
      intro hh
      rw [hh, Function.update_same] at hx'
      cases hx'
    show Function.update v.pi e.v _ x = pi0 x
    rw [Function.update_noteq hxs, h.pi_eq]
  · intro y hy
    cases hy
  · intro x hx _ hxr
    have hx' : Function.update v.prime e.v true x = false := hx
    have hxs : x ≠ e.v := by
      intro hh
      rw [hh, Function.update_same] at hx'
      cases hx'
    have hxr' : Function.update v.read e.v true x = true := hxr
    rw [Function.update_noteq hxs, h.no_read x] at hxr'
    cases hxr'
  · intro y hy
    cases hy
  · intro x hx
    have hx' : Function.update v.prime e.v true x = true := hx
    by_cases hxs : x = e.v
    · rw [hxs]
      exact h.bound
    · rw [Function.update_noteq hxs, h.no_prime x] at hx'
      cases hx'

/-! ## The body of the for loop of the repair -/

/-- The for loop over a list, unfolded once: its body makes a step for the
first edge and the loop goes on over the rest, or the body closes a cycle and
returns (line 557), or an assertion fails: the assignment to `conflict_edges`
is outside the table, or `gamma` of the target is positive (line 576). -/
theorem scanAdjList_unfold (u s : Nat) (it : DLEdge) (rest : AdjList) (g : DLGraph)
    (r : Option (Bool × DLGraph)) (h : scanAdjList u s (it :: rest) g = r) :
    (∃ g1, ScanStep u s it g g1 ∧ r = scanAdjList u s rest g1) ∨
      (isPiPrime g it.v = false ∧ it.v = u ∧
        (refreshGamma g it.v).pi s + it.wt - (refreshGamma g it.v).pi it.v <
          (refreshGamma g it.v).gamma it.v ∧
        ∃ f : List (Option DLEdge) → DLGraph,
          r = (modifyAt (refreshGamma g it.v).conflict_edges it.v (fun _ => some it)).map
            (fun ce => (false, f ce))) ∨
      (isPiPrime g it.v = false ∧ it.v ≠ u ∧ r = none ∧
        (modifyAt (refreshGamma g it.v).conflict_edges it.v (fun _ => some it) = none ∨
          ((refreshGamma g it.v).gamma it.v ≠ 0 ∧ ¬ (refreshGamma g it.v).gamma it.v < 0))) := by
  unfold scanAdjList at h
  simp only at h
  split at h
  · rename_i hprime
    exact Or.inl ⟨g, ScanStep.skip hprime, h.symm⟩
  · rename_i hprime
    have hprime' : isPiPrime g it.v = false := by
      cases hh : isPiPrime g it.v
      · rfl
      · exact absurd hh hprime
    have hgr : refreshGamma g it.v = (if isGammaRead g it.v then g
        else readGamma { g with gamma := Function.update g.gamma it.v 0 } it.v) := rfl
    generalize (if isGammaRead g it.v then g
      else readGamma { g with gamma := Function.update g.gamma it.v 0 } it.v) = gr at h hgr
    split at h
    · rename_i htu
      split at h
      · rename_i hval
        right
        left
        rw [← hgr] at hval
        refine ⟨hprime', htu, hval, ?_⟩
        split at h
        · rename_i hm
          refine ⟨fun _ => g, ?_⟩
          rw [hgr, hm, ← h]
          rfl
        · rename_i ce hm
          refine ⟨fun ce => donePiPrime (doneGamma
              { gr with
                negCycleVertex := some u
                conflict_edges := ce
                pi := restorePi gr.old_pi gr.changed_vertices gr.pi
                changed_vertices := []
                vertex_heap := [] }), ?_⟩
          rw [hgr, hm, ← h]
          rfl
      · rename_i hval
        left
        refine ⟨gr, ?_, h.symm⟩
        rw [← hgr] at hval ⊢
        exact ScanStep.keep hprime' hval
    · rename_i htu
      split at h
      · rename_i hval
        split at h
        · rename_i hzero
          split at h
          · rename_i hm
            right
            right
            rw [← hgr] at hm
            exact ⟨hprime', htu, h.symm, Or.inl hm⟩
          · rename_i ce hce
            left
            refine ⟨_, ?_, h.symm⟩
            rw [← hgr] at hval hzero hce ⊢
            exact ScanStep.push hprime' htu hval hzero hce
        · rename_i hzero
          split at h
          · rename_i hneg
            split at h
            · rename_i hm
              right
              right
              rw [← hgr] at hm
              exact ⟨hprime', htu, h.symm, Or.inl hm⟩
            · rename_i ce hce
              left
              refine ⟨_, ?_, h.symm⟩
              rw [← hgr] at hval hzero hneg hce ⊢
              exact ScanStep.lower hprime' htu hval hzero hneg hce
          · rename_i hneg
            right
            right
            rw [← hgr] at hzero hneg
            exact ⟨hprime', htu, h.symm, Or.inr ⟨hzero, hneg⟩⟩
      · rename_i hval
        left
        refine ⟨gr, ?_, h.symm⟩
        rw [← hgr] at hval ⊢
        exact ScanStep.keep hprime' hval

/-- The refresh keeps the bookkeeping and the core of the state, and the target
is read after it. -/
theorem refresh_book (pi0 : Nat → Int) (n : Nat) (g : DLGraph) (t : Nat)
    (hinv : HeapInv pi0 n g.view g.conflict_edges) :
    HeapInv pi0 n (refreshGamma g t).view (refreshGamma g t).conflict_edges ∧
      SameCore g (refreshGamma g t) ∧ isGammaRead (refreshGamma g t) t = true ∧
      (refreshGamma g t).conflict_edges = g.conflict_edges ∧
      (refreshGamma g t).vertex_heap = g.vertex_heap := by
  unfold refreshGamma
  cases hr : isGammaRead g t with
  | true =>
    rw [if_pos rfl]
    exact ⟨hinv, SameCore.refl g, hr, rfl, rfl⟩
  | false =>
    simp only [Bool.false_eq_true, if_false]
    refine ⟨?_, ⟨rfl, rfl, rfl, rfl, rfl, rfl⟩, ?_, rfl, rfl⟩
    · rw [view_refresh g t hr]
      exact hinv.book_refresh t hr
    · rw [isGammaRead_readGamma, Function.update_same]

theorem sameCore_prime {g g' : DLGraph} (h : SameCore g g') : isPiPrime g' = isPiPrime g := by
  obtain ⟨-, -, -, c4, c5, -⟩ := h
  funext x
  unfold isPiPrime
  rw [c4, c5]

/-- What the bookkeeping says of a target that is read and not processed:
`gamma == 0` exactly off the heap, `gamma < 0` exactly on it. -/
theorem HeapInv.gamma_heap {pi0 : Nat → Int} {n : Nat} {v : RepairView}
    {ce : List (Option DLEdge)} (h : HeapInv pi0 n v ce) (t : Nat) (hp : v.prime t = false)
    (hr : v.read t = true) :
    (v.gamma t = 0 ↔ t ∉ v.heap) ∧ (v.gamma t < 0 ↔ t ∈ v.heap) := by
  by_cases hm : t ∈ v.heap
  · have := (h.heap_ok t hm).2.2.1
    exact ⟨⟨fun h0 => by omega, fun h1 => absurd hm h1⟩, ⟨fun _ => hm, fun _ => this⟩⟩
  · have := h.idle t hp hm hr
    exact ⟨⟨fun _ => hm, fun _ => this⟩, ⟨fun h0 => by omega, fun h1 => absurd h1 hm⟩⟩

/-- A step of the body keeps the bookkeeping and the core of the state. -/
theorem ScanStep.book {pi0 : Nat → Int} {n u s : Nat} {it : DLEdge} {g g1 : DLGraph}
    (hst : ScanStep u s it g g1) (hinv : HeapInv pi0 n g.view g.conflict_edges)
    (hs : isPiPrime g s = true) (hit : it ∈ g.dAdj.getD s []) :
    HeapInv pi0 n g1.view g1.conflict_edges ∧ SameCore g g1 := by
  obtain ⟨hinvr, hcore, hread, hcer, hheapr⟩ := refresh_book pi0 n g it.v hinv
  have hpr := sameCore_prime hcore
  have hsr : (refreshGamma g it.v).view.prime s = true := by
    show isPiPrime (refreshGamma g it.v) s = true
    rw [hpr]
    exact hs
  have hitr : it ∈ (refreshGamma g it.v).view.dAdj.getD s [] := by
    show it ∈ (refreshGamma g it.v).dAdj.getD s []
    rw [hcore.2.2.2.2.2]
    exact hit
  cases hst with
  | skip _ => exact ⟨hinv, SameCore.refl g⟩
  | keep _ _ => exact ⟨hinvr, hcore⟩
  | @push ce hprime htu hval hzero hce =>
    have hprimer : (refreshGamma g it.v).view.prime it.v = false := by
      show isPiPrime (refreshGamma g it.v) it.v = false
      rw [hpr]
      exact hprime
    have hce' : ∀ y, ce[y]? = if y = it.v then some (some it)
        else (refreshGamma g it.v).conflict_edges[y]? := by
      intro y
      rw [modifyAt_getElem? _ _ _ _ hce y]
      by_cases hy : y = it.v
      · rw [if_pos hy, if_pos hy]
        obtain ⟨a, ha, -⟩ := modifyAt_eq_some _ _ _ _ hce
        rw [ha]
        rfl
      · rw [if_neg hy, if_neg hy]
    have hnm : it.v ∉ (refreshGamma g it.v).vertex_heap :=
      ((hinvr.gamma_heap it.v hprimer hread).1).1 hzero
    have hlow := hinvr.book_relax s it hsr hitr hprimer hread hval hce'
      (modifyAt_length _ _ _ _ hce).1
    generalize refreshGamma g it.v = gr at *
    have hview : ({ gr with
          gamma := Function.update gr.gamma it.v (gr.pi s + it.wt - gr.pi it.v)
          vertex_heap := gr.vertex_heap ++ [it.v]
          conflict_edges := ce } : DLGraph).view =
        { gr.view with
          gamma := Function.update gr.view.gamma it.v
            (gr.view.pi s + it.wt - gr.view.pi it.v)
          heap := if it.v ∈ gr.view.heap then gr.view.heap
                  else gr.view.heap ++ [it.v] } := by
      have : (if it.v ∈ gr.view.heap then gr.view.heap
          else gr.view.heap ++ [it.v]) = gr.vertex_heap ++ [it.v] := if_neg hnm
      rw [this]
      rfl
    refine ⟨?_, SameCore.trans hcore ⟨rfl, rfl, rfl, rfl, rfl, rfl⟩⟩
    rw [hview]
    exact hlow
  | @lower ce hprime htu hval hzero hneg hce =>
    have hprimer : (refreshGamma g it.v).view.prime it.v = false := by
      show isPiPrime (refreshGamma g it.v) it.v = false
      rw [hpr]
      exact hprime
    have hce' : ∀ y, ce[y]? = if y = it.v then some (some it)
        else (refreshGamma g it.v).conflict_edges[y]? := by
      intro y
      rw [modifyAt_getElem? _ _ _ _ hce y]
      by_cases hy : y = it.v
      · rw [if_pos hy, if_pos hy]
        obtain ⟨a, ha, -⟩ := modifyAt_eq_some _ _ _ _ hce
        rw [ha]
        rfl
      · rw [if_neg hy, if_neg hy]
    have hm : it.v ∈ (refreshGamma g it.v).vertex_heap :=
      ((hinvr.gamma_heap it.v hprimer hread).2).1 hneg
    have hlow := hinvr.book_relax s it hsr hitr hprimer hread hval hce'
      (modifyAt_length _ _ _ _ hce).1
    generalize refreshGamma g it.v = gr at *
    have hview : ({ gr with
          gamma := if it.v ∈ gr.vertex_heap then
              Function.update gr.gamma it.v (gr.pi s + it.wt - gr.pi it.v)
            else gr.gamma
          conflict_edges := ce } : DLGraph).view =
        { gr.view with
          gamma := Function.update gr.view.gamma it.v
            (gr.view.pi s + it.wt - gr.view.pi it.v)
          heap := if it.v ∈ gr.view.heap then gr.view.heap
                  else gr.view.heap ++ [it.v] } := by
      have h1 : (if it.v ∈ gr.view.heap then gr.view.heap
          else gr.view.heap ++ [it.v]) = gr.vertex_heap := if_pos hm
      have h2 : (if it.v ∈ gr.vertex_heap then
              Function.update gr.gamma it.v (gr.pi s + it.wt - gr.pi it.v)
            else gr.gamma) =
          Function.update gr.gamma it.v (gr.pi s + it.wt - gr.pi it.v) := if_pos hm
      rw [h1, h2]
      rfl
    refine ⟨?_, SameCore.trans hcore ⟨rfl, rfl, rfl, rfl, rfl, rfl⟩⟩
    rw [hview]
    exact hlow

/-- A step of the body that lowers `gamma` of its target: afterwards `gamma`
of the target is the value, the target is on the heap once, and its entry of
`conflict_edges` is the edge. -/
theorem ScanStep.relaxed {pi0 : Nat → Int} {n u s : Nat} {it : DLEdge} {g g1 : DLGraph}
    (hst : ScanStep u s it g g1) (hinv : HeapInv pi0 n g.view g.conflict_edges)
    (hprime : isPiPrime g it.v = false)
    (hval : (refreshGamma g it.v).pi s + it.wt - (refreshGamma g it.v).pi it.v <
      (refreshGamma g it.v).gamma it.v) :
    g1.gamma it.v = (refreshGamma g it.v).pi s + it.wt - (refreshGamma g it.v).pi it.v ∧
      g1.vertex_heap.count it.v = 1 ∧ g1.conflict_edges[it.v]? = some (some it) := by
  obtain ⟨hinvr, hcore, hread, hcer, hheapr⟩ := refresh_book pi0 n g it.v hinv
  have hpr := sameCore_prime hcore
  have hprimer : (refreshGamma g it.v).view.prime it.v = false := by
    show isPiPrime (refreshGamma g it.v) it.v = false
    rw [hpr]
    exact hprime
  cases hst with
  | skip hp =>
    rw [hp] at hprime
    cases hprime
  | keep _ hnv => exact absurd hval hnv
  | @push ce _ htu _ hzero hce =>
    have hnm : it.v ∉ (refreshGamma g it.v).vertex_heap :=
      ((hinvr.gamma_heap it.v hprimer hread).1).1 hzero
    refine ⟨?_, ?_, ?_⟩
    · show Function.update _ it.v _ it.v = _
      rw [Function.update_same]
    · show ((refreshGamma g it.v).vertex_heap ++ [it.v]).count it.v = 1
      rw [List.count_append, List.count_eq_zero_of_not_mem hnm]
      simp
    · show ce[it.v]? = some (some it)
      rw [modifyAt_getElem? _ _ _ _ hce it.v, if_pos rfl]
      obtain ⟨a, ha, -⟩ := modifyAt_eq_some _ _ _ _ hce
      rw [ha]
      rfl
  | @lower ce _ htu _ hzero hneg hce =>
    have hm : it.v ∈ (refreshGamma g it.v).vertex_heap :=
      ((hinvr.gamma_heap it.v hprimer hread).2).1 hneg
    refine ⟨?_, ?_, ?_⟩
    · show (if it.v ∈ (refreshGamma g it.v).vertex_heap then
          Function.update (refreshGamma g it.v).gamma it.v _ else _) it.v = _
      rw [if_pos hm, Function.update_same]
    · show (refreshGamma g it.v).vertex_heap.count it.v = 1
      exact List.count_eq_one_of_mem hinvr.nodup hm
    · show ce[it.v]? = some (some it)
      rw [modifyAt_getElem? _ _ _ _ hce it.v, if_pos rfl]
      obtain ⟨a, ha, -⟩ := modifyAt_eq_some _ _ _ _ hce
      rw [ha]
      rfl

/-- Under the bookkeeping the body makes a step for every edge of the list of
the extracted vertex, unless it closes a cycle. -/
theorem scanStep_exists (pi0 : Nat → Int) (n u s : Nat) (it : DLEdge) (g : DLGraph)
    (hinv : HeapInv pi0 n g.view g.conflict_edges) (hit : it ∈ g.dAdj.getD s [])
    (hnc : ¬ (isPiPrime g it.v = false ∧ it.v = u ∧
      (refreshGamma g it.v).pi s + it.wt - (refreshGamma g it.v).pi it.v <
        (refreshGamma g it.v).gamma it.v)) :
    ∃ g1, ScanStep u s it g g1 := by
  obtain ⟨hinvr, hcore, hread, hcer, hheapr⟩ := refresh_book pi0 n g it.v hinv
  have hpr := sameCore_prime hcore
  cases hprime : isPiPrime g it.v with
  | true => exact ⟨g, ScanStep.skip hprime⟩
  | false =>
    have hprimer : (refreshGamma g it.v).view.prime it.v = false := by
      show isPiPrime (refreshGamma g it.v) it.v = false
      rw [hpr]
      exact hprime
    by_cases hval : (refreshGamma g it.v).pi s + it.wt - (refreshGamma g it.v).pi it.v <
        (refreshGamma g it.v).gamma it.v
    · have htu : it.v ≠ u := fun hh => hnc ⟨hprime, hh, hval⟩
      obtain ⟨l, hl, hitl⟩ := mem_getD_row g.dAdj s it hit
      have htn : it.v < n := hinv.targets l (List.getElem?_mem hl) it hitl
      obtain ⟨ce, hce⟩ := modifyAt_isSome (refreshGamma g it.v).conflict_edges it.v
        (fun _ => some it) (Nat.lt_of_lt_of_le htn hinvr.size_ce)
      by_cases hzero : (refreshGamma g it.v).gamma it.v = 0
      · exact ⟨_, ScanStep.push hprime htu hval hzero hce⟩
      · have hneg : (refreshGamma g it.v).gamma it.v < 0 := by
          by_cases hm : it.v ∈ (refreshGamma g it.v).vertex_heap
          · exact ((hinvr.gamma_heap it.v hprimer hread).2).2 hm
          · exact absurd (((hinvr.gamma_heap it.v hprimer hread).1).2 hm) hzero
        exact ⟨_, ScanStep.lower hprime htu hval hzero hneg hce⟩
    · exact ⟨_, ScanStep.keep hprime hval⟩

/-! ## The bookkeeping along a run -/

/-- What the extraction of an unprocessed vertex `s` assigns (lines 519-528):
the potential of `s` goes to `old_pi`, `s` goes to the end of the journal, the
potential grows by `gamma`, and `gamma` is reset. -/
theorem extractVertex_journal (g : DLGraph) (s : Nat) (rest : List Nat)
    (hp : isPiPrime g s = false) :
    (extractVertex g s rest).old_pi s = g.pi s ∧
      (extractVertex g s rest).changed_vertices = g.changed_vertices ++ [s] ∧
      (extractVertex g s rest).pi s = g.pi s + g.gamma s ∧
      (extractVertex g s rest).gamma s = 0 ∧ isPiPrime (extractVertex g s rest) s = true := by
  have hp' : isPiPrime (make_heap { g with vertex_heap := rest }) s = false := hp
  refine ⟨?_, ?_, ?_, ?_, ?_⟩
  · unfold extractVertex
    simp only [hp', Bool.false_eq_true, if_false]
    show Function.update g.old_pi s (g.pi s) s = g.pi s
    rw [Function.update_same]
  · unfold extractVertex
    simp only [hp', Bool.false_eq_true, if_false]
    rfl
  · unfold extractVertex
    simp only [hp', Bool.false_eq_true, if_false]
    show Function.update g.pi s (g.pi s + g.gamma s) s = g.pi s + g.gamma s
    rw [Function.update_same]
  · unfold extractVertex
    simp only [hp', Bool.false_eq_true, if_false]
    show Function.update g.gamma s 0 s = 0
    rw [Function.update_same]
  · rw [isPiPrime_extractVertex, Function.update_same]

/-- The extraction at a head of the while loop gives the bookkeeping of the for
loop. -/
theorem extract_book (pi0 : Nat → Int) (n : Nat) (e : DLEdge) (g : DLGraph) (s : Nat)
    (rest : List Nat)
    (h : HeapInit pi0 n e g.view g.conflict_edges ∨ HeapInv pi0 n g.view g.conflict_edges)
    (hheap : g.vertex_heap = s :: rest) :
    HeapInv pi0 n (extractVertex g s rest).view (extractVertex g s rest).conflict_edges ∧
      isPiPrime g s = false ∧ g.gamma s < 0 ∧ s < n := by
  rw [view_extractVertex, extractVertex_conflict_edges]
  rcases h with h1 | h1
  · have hhe : g.view.heap = [e.v] := h1.heap_eq
    have hheap' : g.view.heap = s :: rest := hheap
    rw [hheap'] at hhe
    simp only [List.cons.injEq] at hhe
    obtain ⟨hs, hrest⟩ := hhe
    subst hrest
    subst hs
    exact ⟨h1.book_first, h1.no_prime e.v, h1.gamma_neg, h1.bound⟩
  · have hm : s ∈ g.view.heap := by
      show s ∈ g.vertex_heap
      rw [hheap]
      exact List.mem_cons_self _ _
    have hnd := h1.nodup
    have hheap' : g.view.heap = s :: rest := hheap
    rw [hheap', List.nodup_cons] at hnd
    refine ⟨h1.book_extract s rest _ hheap (fun y => mem_insertionSort_gamma _ rest y)
      (nodup_insertionSort_gamma _ rest hnd.2), (h1.heap_ok s hm).1, (h1.heap_ok s hm).2.2.1,
      h1.bound_heap s hm⟩

theorem unprimed_lt (g g4 : DLGraph) (n s : Nat) (hs : s < n) (hp : isPiPrime g s = false)
    (h4 : isPiPrime g4 = Function.update (isPiPrime g) s true) :
    unprimed g4 n < unprimed g n := by
  unfold unprimed
  rw [h4]
  refine Finset.card_lt_card ⟨?_, ?_⟩
  · intro y hy
    simp only [Finset.mem_filter, Finset.mem_range] at hy ⊢
    refine ⟨hy.1, ?_⟩
    by_cases hyu : y = s
    · rw [hyu, Function.update_same] at hy
      cases hy.2
    · rw [Function.update_noteq hyu] at hy
      exact hy.2
  · intro hsub
    have hu' : s ∈ (Finset.range n).filter (fun y => isPiPrime g y = false) := by
      simp only [Finset.mem_filter, Finset.mem_range]
      exact ⟨hs, hp⟩
    have := hsub hu'
    simp only [Finset.mem_filter, Finset.mem_range, Function.update_same] at this
    cases this.2

/-- The for loop under the bookkeeping fails no assertion, and when it ends
without the return of line 557 it has kept the bookkeeping and the core of the
state. -/
theorem scanAdjList_book (pi0 : Nat → Int) (n u s : Nat) (l : AdjList) :
    ∀ (g : DLGraph), HeapInv pi0 n g.view g.conflict_edges → isPiPrime g s = true →
      (∀ x ∈ l, x ∈ g.dAdj.getD s []) →
      ∃ b g', scanAdjList u s l g = some (b, g') ∧
        (b = true → HeapInv pi0 n g'.view g'.conflict_edges ∧ SameCore g g') := by
  induction l with
  | nil =>
    intro g hinv _ _
    exact ⟨true, g, rfl, fun _ => ⟨hinv, SameCore.refl g⟩⟩
  | cons it rest ih =>
    intro g hinv hs hrow
    have hit := hrow it (List.mem_cons_self _ _)
    obtain ⟨hinvr, hcore, hread, hcer, hheapr⟩ := refresh_book pi0 n g it.v hinv
    obtain ⟨l0, hl0, hitl⟩ := mem_getD_row g.dAdj s it hit
    have htn : it.v < n := hinv.targets l0 (List.getElem?_mem hl0) it hitl
    obtain ⟨ce, hce⟩ := modifyAt_isSome (refreshGamma g it.v).conflict_edges it.v
      (fun _ => some it) (Nat.lt_of_lt_of_le htn hinvr.size_ce)
    rcases scanAdjList_unfold u s it rest g _ rfl with ⟨g1, hst, hr⟩ | ⟨_, _, _, f, hr⟩ |
      ⟨hprime, _, _, hbad⟩
    · obtain ⟨hinv1, hcore1⟩ := hst.book hinv hs hit
      have hs1 : isPiPrime g1 s = true := by
        rw [sameCore_prime hcore1]
        exact hs
      have hrow1 : ∀ x ∈ rest, x ∈ g1.dAdj.getD s [] := by
        intro x hx
        rw [hcore1.2.2.2.2.2]
        exact hrow x (List.mem_cons_of_mem _ hx)
      obtain ⟨b, g', hscan, hres⟩ := ih g1 hinv1 hs1 hrow1
      refine ⟨b, g', by rw [hr]; exact hscan, fun hb => ?_⟩
      obtain ⟨h1, h2⟩ := hres hb
      exact ⟨h1, SameCore.trans hcore1 h2⟩
    · rw [hce] at hr
      exact ⟨false, f ce, hr, fun hb => by cases hb⟩
    · exfalso
      rcases hbad with hm | ⟨hz, hn⟩
      · rw [hce] at hm
        cases hm
      · have hprimer : (refreshGamma g it.v).view.prime it.v = false := by
          show isPiPrime (refreshGamma g it.v) it.v = false
          rw [sameCore_prime hcore]
          exact hprime
        have hgh := hinvr.gamma_heap it.v hprimer hread
        by_cases hm : it.v ∈ (refreshGamma g it.v).view.heap
        · exact hn (hgh.2.2 hm)
        · exact hz (hgh.1.2 hm)

/-- The for loop that ends without the return of line 557 passes through the
steps of its body. -/
theorem scanAdjList_points (u : Nat) (g0 : DLGraph) (s : Nat) (l : AdjList) :
    ∀ (g g' : DLGraph), RunReach u g0 (RunPoint.scan s l) g →
      scanAdjList u s l g = some (true, g') → RunReach u g0 (RunPoint.scan s []) g' := by
  induction l with
  | nil =>
    intro g g' hreach h
    simp only [scanAdjList, Option.some.injEq, Prod.mk.injEq, true_and] at h
    rw [← h]
    exact hreach
  | cons it rest ih =>
    intro g g' hreach h
    rcases scanAdjList_unfold u s it rest g _ h with ⟨g1, hst, hr⟩ | ⟨_, _, _, f, hr⟩ |
      ⟨_, _, hr, _⟩
    · exact ih g1 g' (RunReach.edge hreach hst) hr.symm
    · exfalso
      cases hm : modifyAt (refreshGamma g it.v).conflict_edges it.v (fun _ => some it) with
      | none =>
        rw [hm] at hr
        cases hr
      | some ce =>
        rw [hm] at hr
        simp only [Option.map_some', Option.some.injEq, Prod.mk.injEq] at hr
        cases hr.1
    · cases hr

/-- The invariant holds at every point of a run that starts with it. -/
theorem runReach_inv (pi0 : Nat → Int) (n : Nat) (e : DLEdge) (u : Nat) (g0 : DLGraph)
    (h0 : PointInv pi0 n e RunPoint.head g0) :
    ∀ (p : RunPoint) (g : DLGraph), RunReach u g0 p g → PointInv pi0 n e p g := by
  intro p g hreach
  induction hreach with
  | start => exact h0
  | @extract g s rest adjList _ hheap hrow ih =>
    obtain ⟨hj, hnd, hhead, _⟩ := ih
    obtain ⟨hinv4, hsp, _, _⟩ := extract_book pi0 n e g s rest hhead hheap
    obtain ⟨_, hcv, _, _, hprime4⟩ := extractVertex_journal g s rest hsp
    refine ⟨hj.extract s rest, ?_, hinv4, hprime4, ?_⟩
    · rw [hcv]
      refine List.Nodup.append hnd (List.nodup_singleton _) ?_
      intro a ha hb
      rw [List.mem_singleton] at hb
      rw [hb] at ha
      have := (hj.2.2 s).2 ha
      rw [hsp] at this
      cases this
    · intro x hx
      rw [List.getD_eq_getElem?_getD, hrow]
      exact hx
  | @edge g g1 s it rest _ hst ih =>
    obtain ⟨hj, hnd, hinv, hs, hrow⟩ := ih
    obtain ⟨hinv1, hcore1⟩ := hst.book hinv hs (hrow it (List.mem_cons_self _ _))
    refine ⟨hj.of_sameCore hcore1, ?_, hinv1, ?_, ?_⟩
    · rw [hcore1.2.2.1]
      exact hnd
    · rw [sameCore_prime hcore1]
      exact hs
    · intro x hx
      rw [hcore1.2.2.2.2.2]
      exact hrow x (List.mem_cons_of_mem _ hx)
  | @next g s _ ih =>
    obtain ⟨hj, hnd, hinv, _, _⟩ := ih
    refine ⟨hj.make_heap, hnd, Or.inr ?_, sorted_insertionSort_gamma _ _⟩
    exact hinv.book_rearrange _ (fun y => mem_insertionSort_gamma _ _ y)
      (nodup_insertionSort_gamma _ _ hinv.nodup)

/-- The while loop under the bookkeeping returns within as many iterations as
there are unprocessed vertices. -/
theorem negCycleLoop_total (pi0 : Nat → Int) (n : Nat) (e : DLEdge) (u : Nat) (fuel : Nat) :
    ∀ (g : DLGraph),
      (HeapInit pi0 n e g.view g.conflict_edges ∨ HeapInv pi0 n g.view g.conflict_edges) →
      unprimed g n ≤ fuel → ∃ b g', negCycleLoop u fuel g = some (b, g') := by
  induction fuel with
  | zero =>
    intro g hhead hM
    unfold negCycleLoop
    cases hheap : g.vertex_heap with
    | nil => exact ⟨true, g, rfl⟩
    | cons s rest =>
      obtain ⟨_, hsp, _, hsn⟩ := extract_book pi0 n e g s rest hhead hheap
      have := unprimed_lt g (extractVertex g s rest) n s hsn hsp
        (isPiPrime_extractVertex g s rest)
      omega
  | succ k ih =>
    intro g hhead hM
    unfold negCycleLoop
    cases hheap : g.vertex_heap with
    | nil => exact ⟨true, g, rfl⟩
    | cons s rest =>
      obtain ⟨hinv4, hsp, _, hsn⟩ := extract_book pi0 n e g s rest hhead hheap
      have hlt := unprimed_lt g (extractVertex g s rest) n s hsn hsp
        (isPiPrime_extractVertex g s rest)
      have hrow : (extractVertex g s rest).dAdj[s]? =
          some ((extractVertex g s rest).dAdj.getD s []) :=
        getElem?_eq_some_getD _ s (Nat.lt_of_lt_of_le hsn hinv4.size_adj)
      have hs4 : isPiPrime (extractVertex g s rest) s = true := by
        rw [isPiPrime_extractVertex, Function.update_same]
      obtain ⟨b, g5, hscan, hres⟩ := scanAdjList_book pi0 n u s _ (extractVertex g s rest) hinv4
        hs4 (fun x hx => hx)
      simp only [hrow, hscan]
      cases b with
      | false => exact ⟨false, g5, rfl⟩
      | true =>
        obtain ⟨hinv5, hcore5⟩ := hres rfl
        refine ih (make_heap g5) (Or.inr ?_) ?_
        · exact hinv5.book_rearrange _ (fun y => mem_insertionSort_gamma _ _ y)
            (nodup_insertionSort_gamma _ _ hinv5.nodup)
        · have h1 : unprimed (make_heap g5) n = unprimed (extractVertex g s rest) n := by
            unfold unprimed
            have : isPiPrime (make_heap g5) = isPiPrime (extractVertex g s rest) :=
              sameCore_prime hcore5
            rw [this]
          omega

/-! ## The first head of the while loop -/

/-- `startCheck` on a state between two calls whose tables have a row per
vertex: it succeeds, and the state at the first head has the bookkeeping of
the first head, or the bookkeeping with an empty heap. -/
theorem startCheck_book (g1 : DLGraph) (e : DLEdge) (n : Nat) (hheap : g1.vertex_heap = [])
    (hst1 : ∀ x, g1.pi_prime_list x ≤ g1.pi_prime_token)
    (hst2 : ∀ x, g1.gamma_list x ≤ g1.gamma_token) (hplaced : WellPlaced g1) (hv : e.v < n)
    (hvc : g1.Vcnt = n) (hadj : n ≤ g1.dAdj.length)
    (htargets : ∀ l ∈ g1.dAdj, ∀ x ∈ l, x.v < n) :
    ∃ g5, startCheck g1 e = some g5 ∧
      (HeapInit g1.pi n e g5.view g5.conflict_edges ∨
        HeapInv g1.pi n g5.view g5.conflict_edges) ∧
      g5.vertex_heap.Sorted (fun a b => g5.gamma a ≤ g5.gamma b) := by
  have hlen : (resize g1.conflict_edges g1.Vcnt none).length = n := by
    rw [resize_length, hvc]
  cases hsc : startCheck g1 e with
  | none =>
    exfalso
    unfold startCheck at hsc
    simp only [Function.update_same] at hsc
    split at hsc
    · rename_i hg4
      split at hg4
      · split at hg4
        · rename_i hm
          obtain ⟨w, hw⟩ := modifyAt_isSome (resize g1.conflict_edges g1.Vcnt none) e.v
            (fun _ => some e) (by rw [hlen]; exact hv)
          have hm' : modifyAt (resize g1.conflict_edges g1.Vcnt none) e.v (fun _ => some e) =
              none := hm
          rw [hw] at hm'
          cases hm'
        · cases hg4
      · cases hg4
    · cases hsc
  | some g5 =>
    refine ⟨g5, rfl, ?_⟩
    unfold startCheck at hsc
    simp only [Function.update_same] at hsc
    split at hsc
    · cases hsc
    · rename_i g4 hg4
      simp only [Option.some.injEq] at hsc
      subst hsc
      split at hg4
      · rename_i hneg
        split at hg4
        · cases hg4
        · rename_i ce hce
          simp only [Option.some.injEq] at hg4
          subst hg4
          have hce' : modifyAt (resize g1.conflict_edges g1.Vcnt none) e.v (fun _ => some e) =
              some ce := hce
          have hheap5 : List.insertionSort
              (fun a b => Function.update g1.gamma e.v (g1.pi e.u + e.wt - g1.pi e.v) a ≤
                Function.update g1.gamma e.v (g1.pi e.u + e.wt - g1.pi e.v) b)
              (g1.vertex_heap ++ [e.v]) = [e.v] := by
            rw [hheap]
            rfl
          refine ⟨Or.inl ?_, ?_⟩
          · exact
              { placed := hplaced
                pi_eq := rfl
                no_prime := fun x => stamp_ne_of_le _ _ hst1 x
                no_read := fun x => stamp_ne_of_le _ _ hst2 x
                heap_eq := hheap5
                gamma_eq := by
                  show Function.update g1.gamma e.v _ e.v = _
                  rw [Function.update_same]
                gamma_neg := by
                  show Function.update g1.gamma e.v _ e.v < 0
                  rw [Function.update_same]
                  exact hneg
                entry := by
                  show ce[e.v]? = some (some e)
                  obtain ⟨a, ha, -⟩ := modifyAt_eq_some _ _ _ _ hce'
                  rw [modifyAt_getElem? _ _ _ _ hce' e.v, if_pos rfl, ha]
                  rfl
                bound := hv
                size_ce := by
                  show n ≤ ce.length
                  rw [(modifyAt_length _ _ _ _ hce').1, hlen]
                size_adj := hadj
                targets := htargets }
          · show List.Sorted _ (List.insertionSort _ (g1.vertex_heap ++ [e.v]))
            exact sorted_insertionSort_gamma _ _
      · simp only [Option.some.injEq] at hg4
        subst hg4
        refine ⟨Or.inr ?_, ?_⟩
        · exact
            { placed := hplaced
              unproc := fun _ _ => rfl
              heap_ok := fun y hy => by
                have hy' : y ∈ g1.vertex_heap := hy
                rw [hheap] at hy'
                cases hy'
              nodup := by
                show g1.vertex_heap.Nodup
                rw [hheap]
                exact List.nodup_nil
              idle := fun x _ _ hxr => by
                have := stamp_ne_of_le _ _ hst2 x
                have hxr' : (g1.gamma_list x == g1.gamma_token + 1) = true := hxr
                rw [this] at hxr'
                cases hxr'
              bound_heap := fun y hy => by
                have hy' : y ∈ g1.vertex_heap := hy
                rw [hheap] at hy'
                cases hy'
              bound_prime := fun x hx => by
                have := stamp_ne_of_le _ _ hst1 x
                have hx' : (g1.pi_prime_list x == g1.pi_prime_token + 1) = true := hx
                rw [this] at hx'
                cases hx'
              size_ce := le_of_eq hlen.symm
              size_adj := hadj
              targets := htargets }
        · show g1.vertex_heap.Sorted _
          rw [hheap]
          exact List.sorted_nil

/-- The call of `checkNegCycle` on a reached state, after `insertDynamic`:
`startCheck` succeeds, and the first head of the while loop has the invariant
of the run for the potentials at the call. -/
theorem checkNegCycle_start (cfg : Config) (st : List (Enode × lbool)) (g : DLGraph)
    (A : AtomStore) (c : Enode) (reason : Bool) (e : DLEdge) (g1 : DLGraph)
    (hr : Reach cfg st g) (hc : c ∉ st.map Prod.fst)
    (hins : insertDynamic cfg A g c reason = some (e, g1)) :
    ∃ g5, startCheck g1 e = some g5 ∧
      PointInv g.pi g.vertexMap.length e RunPoint.head g5 := by
  have hr1 : Reach cfg ((c, getPolarity A c) :: st) g1 := Reach.dynamic A c reason e hr hc hins
  have hs1 := reach_storeInv cfg _ g1 hr1
  have hi1 := reach_idle cfg _ g1 hr1
  have hy1 := reach_ready cfg _ g1 hr1
  obtain ⟨p, a, b, _, _, _, _, _, hvm, _, _, hde, _⟩ := insertDynamic_store cfg A g g1 c reason e hins
  obtain ⟨f1, _, _, _, _, _, _⟩ := insertDynamic_frame cfg A g g1 c reason e hins
  have hed : e ∈ g1.dEdges := by
    rw [hde]
    exact List.mem_append_right _ (List.mem_singleton_self e)
  have hv : e.v < g1.vertexMap.length := (hs1.dbound e hed).2
  have htargets : ∀ l ∈ g1.dAdj, ∀ x ∈ l, x.v < g1.vertexMap.length := by
    intro l hl x hx
    obtain ⟨i, hi, hil⟩ := List.getElem_of_mem hl
    have hrow := hs1.rows i hi
    rw [List.getElem?_eq_getElem hi, hil] at hrow
    simp only [Option.some.injEq] at hrow
    rw [hrow] at hx
    exact (hs1.dbound x (List.mem_of_mem_filter hx)).2
  obtain ⟨g5, hstart, hhead, hsorted⟩ := startCheck_book g1 e g1.vertexMap.length hi1.1
    hi1.2.1 hi1.2.2 hs1.wellPlaced hv hy1.2 (le_of_eq hs1.len_d.symm) htargets
  obtain ⟨s1, s2, s3, s4, s5⟩ := startCheck_frame g1 g5 e hstart
  have hj : JournalInv g1.pi g5 := by
    unfold JournalInv isPiPrime
    rw [s1, s3, s4, s5, hy1.1]
    refine ⟨fun x hx => (by cases hx), fun x _ => rfl, fun x => ?_⟩
    have := hi1.2.1 x
    simp only [List.not_mem_nil, iff_false, beq_iff_eq]
    omega
  refine ⟨g5, hstart, ?_⟩
  rw [← f1, ← hvm]
  refine ⟨hj, ?_, hhead, hsorted⟩
  rw [s3, hy1.1]
  exact List.nodup_nil

/-- The while loop that ends with an empty heap has passed through the heads
of its run. -/
theorem negCycleLoop_points (u : Nat) (g0 : DLGraph) (fuel : Nat) :
    ∀ (g g' : DLGraph), RunReach u g0 RunPoint.head g →
      negCycleLoop u fuel g = some (true, g') →
      RunReach u g0 RunPoint.head g' ∧ g'.vertex_heap = [] := by
  induction fuel with
  | zero =>
    intro g g' hreach h
    unfold negCycleLoop at h
    split at h
    · rename_i hheap
      simp only [Option.some.injEq, Prod.mk.injEq, true_and] at h
      rw [← h]
      exact ⟨hreach, hheap⟩
    · cases h
  | succ k ih =>
    intro g g' hreach h
    unfold negCycleLoop at h
    split at h
    · rename_i hheap
      simp only [Option.some.injEq, Prod.mk.injEq, true_and] at h
      rw [← h]
      exact ⟨hreach, hheap⟩
    · rename_i s rest hheap
      simp only at h
      split at h
      · cases h
      · rename_i adjList hrow
        split at h
        · cases h
        · simp only [Option.some.injEq, Prod.mk.injEq] at h
          cases h.1
        · rename_i g5 hscan
          have h1 := RunReach.extract hreach hheap hrow
          have h2 := scanAdjList_points u g0 s adjList _ g5 h1 hscan
          exact ih (make_heap g5) g' (RunReach.next h2) h

/-! ## The repair step, the order of the extractions and the relaxations -/

/-- C27: the potential repair step.  For a call of `checkNegCycle` on a state
reached through the interface, for an atom that is not on the trail and that
`insertDynamic` accepts: `startCheck` succeeds, and at every head of the while
loop with a non-empty heap the front `s` has not been processed in this call
(it is not in `changed_vertices`), its `gamma` is negative and its potential
is still the one before the call; the extraction saves that potential in
`old_pi`, appends `s` to `changed_vertices`, makes the potential
`pi + gamma` and resets `gamma` to 0.  At every point of the run
`changed_vertices` has no vertex twice and holds exactly the processed
vertices, none of which is on the heap, so no vertex is extracted twice.
Consequently the call returns for every bound on the iterations of the while
loop that is at least the number of the vertices. -/
theorem checkNegCycle_repair_step (cfg : Config) (st : List (Enode × lbool)) (g : DLGraph)
    (A : AtomStore) (c : Enode) (reason : Bool) (e : DLEdge) (g1 : DLGraph)
    (hr : Reach cfg st g) (hc : c ∉ st.map Prod.fst)
    (hins : insertDynamic cfg A g c reason = some (e, g1)) :
    ∃ g5, startCheck g1 e = some g5 ∧
      (∀ (gh : DLGraph) (s : Nat) (rest : List Nat), RunReach e.u g5 RunPoint.head gh →
        gh.vertex_heap = s :: rest →
        isPiPrime gh s = false ∧ s ∉ gh.changed_vertices ∧ gh.gamma s < 0 ∧
          gh.pi s = g.pi s ∧ (extractVertex gh s rest).old_pi s = g.pi s ∧
          (extractVertex gh s rest).changed_vertices = gh.changed_vertices ++ [s] ∧
          (extractVertex gh s rest).pi s = g.pi s + gh.gamma s ∧
          (extractVertex gh s rest).gamma s = 0 ∧
          isPiPrime (extractVertex gh s rest) s = true) ∧
      (∀ (p : RunPoint) (gp : DLGraph), RunReach e.u g5 p gp →
        gp.changed_vertices.Nodup ∧
          (∀ x, x ∈ gp.changed_vertices ↔ isPiPrime gp x = true) ∧
          ∀ y ∈ gp.vertex_heap, isPiPrime gp y = false) ∧
      ∀ fuel, g.vertexMap.length ≤ fuel →
        ∃ b g', checkNegCycle cfg A g c reason fuel = some (b, g') := by
  obtain ⟨g5, hstart, h5⟩ := checkNegCycle_start cfg st g A c reason e g1 hr hc hins
  refine ⟨g5, hstart, ?_, ?_, ?_⟩
  · intro gh s rest hreach hheap
    obtain ⟨hj, _, hhead, _⟩ :=
      runReach_inv g.pi g.vertexMap.length e e.u g5 h5 RunPoint.head gh hreach
    obtain ⟨_, hsp, hneg, _⟩ := extract_book g.pi g.vertexMap.length e gh s rest hhead hheap
    obtain ⟨j1, j2, j3, j4, j5⟩ := extractVertex_journal gh s rest hsp
    have hnot : s ∉ gh.changed_vertices := by
      intro hm
      have := (hj.2.2 s).2 hm
      rw [hsp] at this
      cases this
    have hpi : gh.pi s = g.pi s := hj.2.1 s hnot
    refine ⟨hsp, hnot, hneg, hpi, ?_, j2, ?_, j4, j5⟩
    · rw [j1, hpi]
    · rw [j3, hpi]
  · intro p gp hreach
    obtain ⟨hj, hnd, hrest⟩ := runReach_inv g.pi g.vertexMap.length e e.u g5 h5 p gp hreach
    refine ⟨hnd, fun x => ((hj.2.2 x).symm), ?_⟩
    cases p with
    | head =>
      obtain ⟨hhead, _⟩ := hrest
      intro y hy
      rcases hhead with h1 | h1
      · exact h1.no_prime y
      · exact (h1.heap_ok y hy).1
    | scan s pending =>
      obtain ⟨hinv, _, _⟩ := hrest
      intro y hy
      exact (hinv.heap_ok y hy).1
  · intro fuel hfuel
    obtain ⟨_, _, hhead, _⟩ := h5
    have hM : unprimed g5 g.vertexMap.length ≤ fuel := by
      refine le_trans ?_ hfuel
      unfold unprimed
      exact le_trans (Finset.card_filter_le _ _) (by rw [Finset.card_range])
    obtain ⟨b, g6, hloop⟩ := negCycleLoop_total g.pi g.vertexMap.length e e.u fuel g5 hhead hM
    have hcv := (reach_ready cfg st g hr).1
    unfold checkNegCycle
    rw [if_neg (not_not.2 hcv), hins]
    simp only [hstart, hloop]
    cases b with
    | false => exact ⟨_, _, rfl⟩
    | true => exact ⟨_, _, rfl⟩

theorem checkNegCycle_repair_step_witness :
    Reach exCfg [] (exStatic [exAtom2]) ∧
      exAtom2 ∉ ([] : List (Enode × lbool)).map Prod.fst ∧
      insertDynamic exCfg exAllTrue (exStatic [exAtom2]) exAtom2 false =
        some (⟨exAtom2, 0, 0, 1, -2⟩, exNegInserted) ∧
      exNegStart.vertex_heap = [1] ∧
      ∃ g5, startCheck exNegInserted (⟨exAtom2, 0, 0, 1, -2⟩ : DLEdge) = some g5 ∧
        (∀ (gh : DLGraph) (s : Nat) (rest : List Nat),
          RunReach (⟨exAtom2, 0, 0, 1, -2⟩ : DLEdge).u g5 RunPoint.head gh →
          gh.vertex_heap = s :: rest →
          isPiPrime gh s = false ∧ s ∉ gh.changed_vertices ∧ gh.gamma s < 0 ∧
            gh.pi s = (exStatic [exAtom2]).pi s ∧
            (extractVertex gh s rest).old_pi s = (exStatic [exAtom2]).pi s ∧
            (extractVertex gh s rest).changed_vertices = gh.changed_vertices ++ [s] ∧
            (extractVertex gh s rest).pi s = (exStatic [exAtom2]).pi s + gh.gamma s ∧
            (extractVertex gh s rest).gamma s = 0 ∧
            isPiPrime (extractVertex gh s rest) s = true) ∧
        (∀ (p : RunPoint) (gp : DLGraph),
          RunReach (⟨exAtom2, 0, 0, 1, -2⟩ : DLEdge).u g5 p gp →
          gp.changed_vertices.Nodup ∧
            (∀ x, x ∈ gp.changed_vertices ↔ isPiPrime gp x = true) ∧
            ∀ y ∈ gp.vertex_heap, isPiPrime gp y = false) ∧
        ∀ fuel, (exStatic [exAtom2]).vertexMap.length ≤ fuel →
          ∃ b g', checkNegCycle exCfg exAllTrue (exStatic [exAtom2]) exAtom2 false fuel =
            some (b, g') :=
  ⟨Reach.static exNoPol exAtom2 Reach.init rfl (by rfl), by decide, by rfl, by rfl,
    checkNegCycle_repair_step exCfg [] (exStatic [exAtom2]) exAllTrue exAtom2 false
      ⟨exAtom2, 0, 0, 1, -2⟩ exNegInserted
      (Reach.static exNoPol exAtom2 Reach.init rfl (by rfl)) (by decide) (by rfl)⟩

/-- The graph of the relaxation example is reached through the interface. -/
theorem exScen2_ready :
    Reach exCfg
      [(exAtom2, getPolarity exAllTrue exAtom2), (exAtom1, getPolarity exAllTrue exAtom1)]
      exScen2Active := by
  have r1 : Reach exCfg [] (exStatic [exAtom1]) :=
    Reach.static exNoPol exAtom1 Reach.init rfl (by rfl)
  have r2 : Reach exCfg [] (exStatic [exAtom1, exAtom2]) :=
    Reach.static exNoPol exAtom2 r1 (by decide) (by rfl)
  have r3 : Reach exCfg [] exScen2 := Reach.static exNoPol exAtom4 r2 (by decide) (by rfl)
  have c1 : Reach exCfg [(exAtom1, getPolarity exAllTrue exAtom1)]
      (exCheck exAllTrue exScen2 exAtom1) :=
    Reach.check exAllTrue exAtom1 false 2 true r3 (by decide) (by rfl)
  exact Reach.check exAllTrue exAtom2 false 2 true c1 (by decide) (by rfl)

/-- C29: the bookkeeping of the relaxations.  For a call of `checkNegCycle` on
a state reached through the interface, at every edge `it` that the for loop of
an extracted vertex `s` comes to, whose target `t` is not the source of the new
edge and not processed: after the refresh of lines 536-540, where the code
tests it, `gamma(t) == 0` holds exactly when `t` is not in `vertex_heap` and
`gamma(t) < 0` exactly when it is; and whenever
`value = pi(s) + wt - pi(t) < gamma(t)`, the body of the loop makes its step,
and after it `gamma(t)` is the value, `t` is in the heap exactly once, and
`conflict_edges[t]` is the edge `it`. -/
theorem checkNegCycle_relaxation (cfg : Config) (st : List (Enode × lbool)) (g : DLGraph)
    (A : AtomStore) (c : Enode) (reason : Bool) (e : DLEdge) (g1 g5 gp : DLGraph) (s : Nat)
    (it : DLEdge) (rest : AdjList) (hr : Reach cfg st g) (hc : c ∉ st.map Prod.fst)
    (hins : insertDynamic cfg A g c reason = some (e, g1)) (hstart : startCheck g1 e = some g5)
    (hreach : RunReach e.u g5 (RunPoint.scan s (it :: rest)) gp) (htu : it.v ≠ e.u)
    (hprime : isPiPrime gp it.v = false) :
    ((refreshGamma gp it.v).gamma it.v = 0 ↔ it.v ∉ (refreshGamma gp it.v).vertex_heap) ∧
      ((refreshGamma gp it.v).gamma it.v < 0 ↔ it.v ∈ (refreshGamma gp it.v).vertex_heap) ∧
      (gp.pi s + it.wt - gp.pi it.v < (refreshGamma gp it.v).gamma it.v →
        (∃ g', ScanStep e.u s it gp g') ∧
          ∀ g', ScanStep e.u s it gp g' →
            g'.gamma it.v = gp.pi s + it.wt - gp.pi it.v ∧ g'.vertex_heap.count it.v = 1 ∧
              g'.conflict_edges[it.v]? = some (some it)) := by
  obtain ⟨g5', hstart', h5⟩ := checkNegCycle_start cfg st g A c reason e g1 hr hc hins
  rw [hstart] at hstart'
  simp only [Option.some.injEq] at hstart'
  subst hstart'
  obtain ⟨_, _, hinv, _, hrow⟩ :=
    runReach_inv g.pi g.vertexMap.length e e.u g5 h5 _ gp hreach
  obtain ⟨hinvr, hcore, hread, _, _⟩ := refresh_book g.pi g.vertexMap.length gp it.v hinv
  have hprimer : (refreshGamma gp it.v).view.prime it.v = false := by
    show isPiPrime (refreshGamma gp it.v) it.v = false
    rw [sameCore_prime hcore]
    exact hprime
  have hgh := hinvr.gamma_heap it.v hprimer hread
  refine ⟨hgh.1, hgh.2, ?_⟩
  intro hval
  have hval' : (refreshGamma gp it.v).pi s + it.wt - (refreshGamma gp it.v).pi it.v <
      (refreshGamma gp it.v).gamma it.v := by
    rw [hcore.1]
    exact hval
  refine ⟨?_, ?_⟩
  · exact scanStep_exists g.pi g.vertexMap.length e.u s it gp hinv
      (hrow it (List.mem_cons_self _ _)) (fun hh => htu hh.2.1)
  · intro g' hst
    have := hst.relaxed hinv hprime hval'
    rw [hcore.1] at this
    exact this

theorem checkNegCycle_relaxation_witness :
    Reach exCfg
        [(exAtom2, getPolarity exAllTrue exAtom2), (exAtom1, getPolarity exAllTrue exAtom1)]
        exScen2Active ∧
      insertDynamic exCfg exAllTrue exScen2Active exAtom4 false =
        some (⟨exAtom4, 4, 2, 0, -2⟩, exScen2Inserted) ∧
      startCheck exScen2Inserted (⟨exAtom4, 4, 2, 0, -2⟩ : DLEdge) = some exScen2Start ∧
      RunReach (⟨exAtom4, 4, 2, 0, -2⟩ : DLEdge).u exScen2Start
        (RunPoint.scan 0 [⟨exAtom1, 0, 0, 1, 3⟩]) (extractVertex exScen2Start 0 []) ∧
      (extractVertex exScen2Start 0 []).pi 0 + (⟨exAtom1, 0, 0, 1, 3⟩ : DLEdge).wt -
          (extractVertex exScen2Start 0 []).pi (⟨exAtom1, 0, 0, 1, 3⟩ : DLEdge).v = -1 ∧
      ((refreshGamma (extractVertex exScen2Start 0 [])
            (⟨exAtom1, 0, 0, 1, 3⟩ : DLEdge).v).gamma (⟨exAtom1, 0, 0, 1, 3⟩ : DLEdge).v = 0 ↔
          (⟨exAtom1, 0, 0, 1, 3⟩ : DLEdge).v ∉
            (refreshGamma (extractVertex exScen2Start 0 [])
              (⟨exAtom1, 0, 0, 1, 3⟩ : DLEdge).v).vertex_heap) ∧
        ((refreshGamma (extractVertex exScen2Start 0 [])
            (⟨exAtom1, 0, 0, 1, 3⟩ : DLEdge).v).gamma (⟨exAtom1, 0, 0, 1, 3⟩ : DLEdge).v < 0 ↔
          (⟨exAtom1, 0, 0, 1, 3⟩ : DLEdge).v ∈
            (refreshGamma (extractVertex exScen2Start 0 [])
              (⟨exAtom1, 0, 0, 1, 3⟩ : DLEdge).v).vertex_heap) ∧
        ((extractVertex exScen2Start 0 []).pi 0 + (⟨exAtom1, 0, 0, 1, 3⟩ : DLEdge).wt -
            (extractVertex exScen2Start 0 []).pi (⟨exAtom1, 0, 0, 1, 3⟩ : DLEdge).v <
          (refreshGamma (extractVertex exScen2Start 0 [])
            (⟨exAtom1, 0, 0, 1, 3⟩ : DLEdge).v).gamma (⟨exAtom1, 0, 0, 1, 3⟩ : DLEdge).v →
          (∃ g', ScanStep (⟨exAtom4, 4, 2, 0, -2⟩ : DLEdge).u 0 ⟨exAtom1, 0, 0, 1, 3⟩
            (extractVertex exScen2Start 0 []) g') ∧
          ∀ g', ScanStep (⟨exAtom4, 4, 2, 0, -2⟩ : DLEdge).u 0 ⟨exAtom1, 0, 0, 1, 3⟩
              (extractVertex exScen2Start 0 []) g' →
            g'.gamma (⟨exAtom1, 0, 0, 1, 3⟩ : DLEdge).v =
                (extractVertex exScen2Start 0 []).pi 0 + (⟨exAtom1, 0, 0, 1, 3⟩ : DLEdge).wt -
                  (extractVertex exScen2Start 0 []).pi (⟨exAtom1, 0, 0, 1, 3⟩ : DLEdge).v ∧
              g'.vertex_heap.count (⟨exAtom1, 0, 0, 1, 3⟩ : DLEdge).v = 1 ∧
              g'.conflict_edges[(⟨exAtom1, 0, 0, 1, 3⟩ : DLEdge).v]? =
                some (some ⟨exAtom1, 0, 0, 1, 3⟩)) :=
  ⟨exScen2_ready, by rfl, by rfl, RunReach.extract RunReach.start (by rfl) (by rfl), by rfl,
    checkNegCycle_relaxation exCfg _ exScen2Active exAllTrue exAtom4 false
      ⟨exAtom4, 4, 2, 0, -2⟩ exScen2Inserted exScen2Start (extractVertex exScen2Start 0 []) 0
      ⟨exAtom1, 0, 0, 1, 3⟩ [] exScen2_ready (by decide) (by rfl) (by rfl)
      (RunReach.extract RunReach.start (by rfl) (by rfl)) (by decide) (by rfl)⟩

/-! ## The relevancy flags through the body of the for loop -/

/-- The while loop ends in the state it started in, with an empty heap, or at
the end of a for loop. -/
theorem ssspLoop_ends (lazy : Int) (g : DLGraph) (d : DL_sssp_direction) (I : SPState → Prop)
    (J : Nat → Bool → AdjList → SPState → Prop)
    (hext : ∀ (s : SPState) (u : Nat) (rest : List Nat) (nr : Nat) (s4 : SPState) (nr1 : Nat)
      (rel_u : Bool) (adj : AdjList), I s → pqOf s d = u :: rest →
      extractSSSP g d u rest s nr = some (s4, nr1, rel_u, adj) → J u rel_u adj s4)
    (hrel : ∀ (u : Nat) (rel_u : Bool) (it : DLEdge) (rest : AdjList) (s : SPState) (nr : Nat)
      (s1 : SPState) (nr1 : Nat), J u rel_u (it :: rest) s →
      relaxEdge lazy g d u rel_u it s nr = some (s1, nr1) → J u rel_u rest s1)
    (hend : ∀ (u : Nat) (rel_u : Bool) (s : SPState), J u rel_u [] s → I s) (fuel : Nat) :
    ∀ (s s' : SPState) (nr : Nat), I s → ssspLoop lazy g d fuel s nr = some s' →
      (s' = s ∧ pqOf s d = []) ∨ ∃ u rel_u, J u rel_u [] s' := by
  induction fuel with
  | zero =>
    intro s s' nr _ h
    unfold ssspLoop at h
    split at h
    · rename_i hheap
      simp only [Option.some.injEq] at h
      exact Or.inl ⟨h.symm, hheap⟩
    · cases h
  | succ n ih =>
    intro s s' nr hI h
    unfold ssspLoop at h
    split at h
    · rename_i hheap
      simp only [Option.some.injEq] at h
      exact Or.inl ⟨h.symm, hheap⟩
    · rename_i u rest hheap
      split at h
      · cases h
      · rename_i s4 nr1 rel_u adj hex
        have hJ := hext s u rest nr s4 nr1 rel_u adj hI hheap hex
        split at h
        · cases h
        · rename_i s5 nr2 hscan
          have hJ5 := scanSSSP_gen lazy g d u rel_u (J u rel_u)
            (fun it rest s nr s1 nr1 => hrel u rel_u it rest s nr s1 nr1) adj s4 s5 nr1 nr2 hJ
            hscan
          split at h
          · simp only [Option.some.injEq] at h
            rw [← h]
            exact Or.inr ⟨u, rel_u, hJ5⟩
          · rcases ih s5 s' nr2 (hend u rel_u s5 hJ5) h with ⟨h1, _⟩ | h1
            · rw [h1]
              exact Or.inr ⟨u, rel_u, hJ5⟩
            · exact Or.inr h1

theorem relView_setDist (s : SPState) (d d' : DL_sssp_direction) (v : Nat) (x : Int) :
    (setDist s d v x).relView d' = s.relView d' := by
  cases d <;> rfl

theorem relView_readDist (s : SPState) (d' : DL_sssp_direction) (v : Nat) :
    (readDist s v).relView d' = s.relView d' := rfl

theorem relView_finalDist (s : SPState) (d' : DL_sssp_direction) (v : Nat) :
    (finalDist s v).relView d' = s.relView d' := rfl

theorem relView_setDistFrom (s : SPState) (d d' : DL_sssp_direction) (v k : Nat) :
    (setDistFrom s d v k).relView d' = s.relView d' := by
  cases d <;> rfl

theorem relView_setPq (s : SPState) (d d' : DL_sssp_direction) (l : List Nat) :
    (setPq s d l).relView d' = s.relView d' := by
  cases d <;> rfl

theorem relView_updateSPT (s s' : SPState) (e : DLEdge) (d d' : DL_sssp_direction)
    (h : updateSPT s e d = some s') : s'.relView d' = s.relView d' := by
  unfold updateSPT at h
  cases d with
  | DL_sssp_forward =>
    simp only at h
    split at h
    · cases h
    · simp only [Option.some.injEq] at h
      rw [← h]
      split <;> rfl
  | DL_sssp_backward =>
    simp only at h
    split at h
    · cases h
    · simp only [Option.some.injEq] at h
      rw [← h]
      split <;> rfl

theorem relView_lazySPT (lazy : Int) (s s' : SPState) (e : DLEdge) (d d' : DL_sssp_direction)
    (h : (if lazy = 0 then updateSPT s e d else some s) = some s') :
    s'.relView d' = s.relView d' := by
  split at h
  · exact relView_updateSPT s s' e d d' h
  · simp only [Option.some.injEq] at h
    rw [← h]

theorem relView_insertRelevantVertices (g : DLGraph) (s : SPState) (u : Nat)
    (d d' : DL_sssp_direction) : (insertRelevantVertices g s u d).relView d' = s.relView d' := by
  cases d <;> rfl

/-- The flags after `setRelevancy` and the update of the stamp (lines 784-785
and 810-811). -/
theorem relView_setRel (s : SPState) (d : DL_sssp_direction) (v : Nat) (b : Bool) :
    (if d = DL_sssp_direction.DL_sssp_forward then updateDxRel (setRelevancy s d v b) v
      else updateDyRel (setRelevancy s d v b) v).relView d =
      ⟨Function.update (s.relView d).rel v b, Function.update (s.relView d).valid v true⟩ := by
  cases d with
  | DL_sssp_forward =>
    show RelView.mk _ _ = RelView.mk _ _
    congr 1
    funext y
    show (Function.update s.dx_rel_list v s.dx_rel_token y == s.dx_rel_token) =
      Function.update (fun y => s.dx_rel_list y == s.dx_rel_token) v true y
    by_cases hy : y = v
    · rw [hy, Function.update_same, Function.update_same]
      simp
    · rw [Function.update_noteq hy, Function.update_noteq hy]
  | DL_sssp_backward =>
    show RelView.mk _ _ = RelView.mk _ _
    congr 1
    funext y
    show (Function.update s.dy_rel_list v s.dy_rel_token y == s.dy_rel_token) =
      Function.update (fun y => s.dy_rel_list y == s.dy_rel_token) v true y
    by_cases hy : y = v
    · rw [hy, Function.update_same, Function.update_same]
      simp
    · rw [Function.update_noteq hy, Function.update_noteq hy]

/-- The flags after the update of the stamp alone (line 742). -/
theorem relView_updateRel (s : SPState) (d : DL_sssp_direction) (v : Nat) :
    (if d = DL_sssp_direction.DL_sssp_forward then updateDxRel s v
      else updateDyRel s v).relView d =
      ⟨(s.relView d).rel, Function.update (s.relView d).valid v true⟩ := by
  cases d with
  | DL_sssp_forward =>
    show RelView.mk _ _ = RelView.mk _ _
    congr 1
    funext y
    show (Function.update s.dx_rel_list v s.dx_rel_token y == s.dx_rel_token) =
      Function.update (fun y => s.dx_rel_list y == s.dx_rel_token) v true y
    by_cases hy : y = v
    · rw [hy, Function.update_same, Function.update_same]
      simp
    · rw [Function.update_noteq hy, Function.update_noteq hy]
  | DL_sssp_backward =>
    show RelView.mk _ _ = RelView.mk _ _
    congr 1
    funext y
    show (Function.update s.dy_rel_list v s.dy_rel_token y == s.dy_rel_token) =
      Function.update (fun y => s.dy_rel_list y == s.dy_rel_token) v true y
    by_cases hy : y = v
    · rw [hy, Function.update_same, Function.update_same]
      simp
    · rw [Function.update_noteq hy, Function.update_noteq hy]

/-- The flags after lines 781-786: a vertex without a valid flag takes the
relevancy of the extracted vertex. -/
theorem relView_relFresh (s3 : SPState) (d : DL_sssp_direction) (v : Nat) (rel_u : Bool) :
    (if (!if d = DL_sssp_direction.DL_sssp_forward then isDxRelValid s3 v
          else isDyRelValid s3 v) = true then
        if d = DL_sssp_direction.DL_sssp_forward then updateDxRel (setRelevancy s3 d v rel_u) v
        else updateDyRel (setRelevancy s3 d v rel_u) v
      else s3).relView d =
      if (s3.relView d).valid v then s3.relView d
      else ⟨Function.update (s3.relView d).rel v rel_u,
        Function.update (s3.relView d).valid v true⟩ := by
  have hv : (s3.relView d).valid v = (if d = DL_sssp_direction.DL_sssp_forward then
      isDxRelValid s3 v else isDyRelValid s3 v) := rfl
  rw [hv]
  generalize (if d = DL_sssp_direction.DL_sssp_forward then isDxRelValid s3 v
    else isDyRelValid s3 v) = b
  cases b
  · simp only [Bool.not_false, if_true, Bool.false_eq_true, if_false]
    exact relView_setRel s3 d v rel_u
  · simp only [Bool.not_true, Bool.false_eq_true, if_false, if_true]

/-- The reduced weight of the scanned edge is valid after lines 762-767, the
valid ones stay valid, and the flags are as before. -/
theorem rwt_step_valid (g : DLGraph) (s s1 : SPState) (it : DLEdge) (d : DL_sssp_direction)
    (h : (if isRwtValid s it then some s
        else if g.pi it.u + it.wt - g.pi it.v ≥ 0 then
          some (updateRwt
            { s with rwt := Function.update s.rwt it (g.pi it.u + it.wt - g.pi it.v) } it)
        else none) = some s1) :
    isRwtValid s1 it = true ∧ (∀ e, isRwtValid s e = true → isRwtValid s1 e = true) ∧
      s1.relView d = s.relView d := by
  split at h
  · rename_i hv
    simp only [Option.some.injEq] at h
    rw [← h]
    exact ⟨hv, fun _ he => he, rfl⟩
  · split at h
    · simp only [Option.some.injEq] at h
      rw [← h]
      refine ⟨?_, ?_, ?_⟩
      · show (Function.update s.rwt_list it s.rwt_token it == s.rwt_token) = true
        rw [Function.update_same]
        simp
      · intro e he
        show (Function.update s.rwt_list it s.rwt_token e == s.rwt_token) = true
        by_cases hei : e = it
        · rw [hei, Function.update_same]
          simp
        · rw [Function.update_noteq hei]
          exact he
      · cases d <;> rfl
    · cases h

theorem SameDist.rwtValid {s s' : SPState} (h : SameDist s s') (e : DLEdge) :
    isRwtValid s' e = isRwtValid s e := by
  unfold isRwtValid
  rw [h.rwt_list, h.rwt_token]

/-- The relevancy flags after the body of the for loop on the code; the valid
reduced weights stay valid, and the reduced weight of the edge is valid unless
its far end had a final distance. -/
theorem relaxEdge_rel (lazy : Int) (g : DLGraph) (d : DL_sssp_direction) (u : Nat)
    (rel_u : Bool) (it : DLEdge) (s s' : SPState) (nr nr' : Nat) (hr : RwtOk g s)
    (h : relaxEdge lazy g d u rel_u it s nr = some (s', nr')) :
    s'.relView d = (s.relView d).relax (s.view d) u (farEnd d it) (rwtOf g it) rel_u ∧
      (∀ e, isRwtValid s e = true → isRwtValid s' e = true) ∧
      ((s.view d).final (farEnd d it) = false → isRwtValid s' it = true) := by
  unfold relaxEdge at h
  simp only at h
  unfold RelView.relax
  split at h
  · rename_i hfin
    simp only [Option.some.injEq, Prod.mk.injEq] at h
    rw [← h.1]
    have hfin' : (s.view d).final (farEnd d it) = true := hfin
    rw [if_pos hfin']
    refine ⟨rfl, fun _ he => he, fun hh => ?_⟩
    rw [hfin'] at hh
    cases hh
  · rename_i hfin
    have hfin' : ¬ (s.view d).final (farEnd d it) = true := hfin
    rw [if_neg hfin']
    split at h
    · cases h
    · rename_i s1 hvalid
      obtain ⟨hr1, hv1, hw⟩ := rwt_step g s s1 it d hr hvalid
      obtain ⟨hval1, hmono1, hrel1⟩ := rwt_step_valid g s s1 it d hvalid
      have hdu : getDist s1 d u = (s.view d).dist u := by
        have : (s1.view d).dist u = (s.view d).dist u := by rw [hv1]
        exact this
      have hdv : getDist s1 d (farEnd d it) = (s.view d).dist (farEnd d it) := by
        have : (s1.view d).dist (farEnd d it) = (s.view d).dist (farEnd d it) := by rw [hv1]
        exact this
      have hrd : isDistRead s1 (farEnd d it) = (s.view d).read (farEnd d it) := by
        have : (s1.view d).read (farEnd d it) = (s.view d).read (farEnd d it) := by rw [hv1]
        exact this
      rw [hw, hdu] at h
      have hfinish : ∀ (sa : SPState), (∀ e, isRwtValid sa e = isRwtValid s1 e) →
          (∀ e, isRwtValid s e = true → isRwtValid sa e = true) ∧
            ((s.view d).final (farEnd d it) = false → isRwtValid sa it = true) := by
        intro sa hsa
        refine ⟨fun e he => ?_, fun _ => ?_⟩
        · rw [hsa e]
          exact hmono1 e he
        · rw [hsa it]
          exact hval1
      split at h
      · cases h
      · split at h
        · rename_i hnr
          rw [hrd] at hnr
          rw [if_pos hnr]
          split at h
          · cases h
          · rename_i s3 hs3
            have h23 := sameDist_lazySPT lazy _ s3 it d hs3
            have r23 := relView_lazySPT lazy _ s3 it d d hs3
            have h34 := sameDist_relFresh s3 d (farEnd d it) rel_u
            have r34 := relView_relFresh s3 d (farEnd d it) rel_u
            generalize (if (!if d = DL_sssp_direction.DL_sssp_forward then
                    isDxRelValid s3 (farEnd d it)
                  else isDyRelValid s3 (farEnd d it)) = true then
                if d = DL_sssp_direction.DL_sssp_forward then
                  updateDxRel (setRelevancy s3 d (farEnd d it) rel_u) (farEnd d it)
                else updateDyRel (setRelevancy s3 d (farEnd d it) rel_u) (farEnd d it)
              else s3) = s4 at h h34 r34
            have h24 := h23.next h34
            have hr3 : s3.relView d = s.relView d := by
              rw [r23, relView_setDist, hrel1]
            rw [hr3] at r34
            have hv4 : ∀ e, isRwtValid s4 e = isRwtValid s1 e := by
              intro e
              rw [h24.rwtValid e]
              cases d <;> rfl
            split at h
            · cases h
            · split at h
              · simp only [Option.some.injEq, Prod.mk.injEq] at h
                rw [← h.1]
                refine ⟨?_, hfinish _ ?_⟩
                · rw [relView_readDist, relView_setDistFrom]
                  show (setPq s4 d _).relView d = _
                  rw [relView_setPq, r34]
                · intro e
                  rw [← hv4 e]
                  cases d <;> rfl
              · simp only [Option.some.injEq, Prod.mk.injEq] at h
                rw [← h.1]
                refine ⟨?_, hfinish _ ?_⟩
                · rw [relView_readDist]
                  show (setPq s4 d _).relView d = _
                  rw [relView_setPq, r34]
                · intro e
                  rw [← hv4 e]
                  cases d <;> rfl
        · rename_i hnr
          rw [hrd] at hnr
          rw [if_neg hnr]
          split at h
          · cases h
          · rw [hdv] at h
            split at h
            · rename_i hgt
              rw [if_pos hgt]
              split at h
              · cases h
              · rename_i s5 hs5
                have h45 := sameDist_lazySPT lazy _ s5 it d hs5
                have r45 := relView_lazySPT lazy _ s5 it d d hs5
                simp only [Option.some.injEq, Prod.mk.injEq] at h
                rw [← h.1]
                have h56 : SameDist s5
                    (if getRelevancy s5 d (farEnd d it) = true then
                      setDistFrom s5 d (farEnd d it) (getDistFrom s5 d u + 1)
                    else s5) := by
                  split
                  · exact sameDist_setDistFrom s5 d _ _
                  · exact SameDist.same s5
                have r56 : (if getRelevancy s5 d (farEnd d it) = true then
                      setDistFrom s5 d (farEnd d it) (getDistFrom s5 d u + 1)
                    else s5).relView d = s5.relView d := by
                  split
                  · exact relView_setDistFrom s5 d d _ _
                  · rfl
                generalize (if getRelevancy s5 d (farEnd d it) = true then
                    setDistFrom s5 d (farEnd d it) (getDistFrom s5 d u + 1)
                  else s5) = s6 at h56 r56 ⊢
                have h23 := (sameDist_setRelevancy
                  (setDist s1 d (farEnd d it) ((s.view d).dist u + rwtOf g it)) d (farEnd d it)
                  rel_u).next (sameDist_updateRel _ d (farEnd d it))
                have r23 := relView_setRel
                  (setDist s1 d (farEnd d it) ((s.view d).dist u + rwtOf g it)) d (farEnd d it)
                  rel_u
                have h46 := h45.next h56
                refine ⟨?_, hfinish _ ?_⟩
                · rw [relView_readDist, r56, r45]
                  show (setPq _ d _).relView d = _
                  rw [relView_setPq, r23, relView_setDist, hrel1]
                · intro e
                  have e1 : isRwtValid (readDist s6 (farEnd d it)) e = isRwtValid s6 e := rfl
                  rw [e1, h46.rwtValid e]
                  have e2 : ∀ (sa : SPState), isRwtValid (modifyPBheap sa d (farEnd d it)) e =
                      isRwtValid sa e := by
                    intro sa
                    cases d <;> rfl
                  rw [e2, h23.rwtValid e]
                  cases d <;> rfl
            · rename_i hgt
              rw [if_neg hgt]
              simp only [Option.some.injEq, Prod.mk.injEq] at h
              rw [← h.1]
              refine ⟨?_, hfinish _ (fun e => rfl)⟩
              rw [relView_readDist, hrel1]

/-! ## The relevancy flags through the extraction -/

/-- The relevancy flags after lines 733-745: the extracted vertex has a valid
flag, the relevancies are as they were, the local `rel_u` is the relevancy of
the vertex if its flag was valid, and the valid reduced weights are the same. -/
theorem extractSSSP_rel (g : DLGraph) (d : DL_sssp_direction) (u : Nat) (rest : List Nat)
    (s s4 : SPState) (nr nr1 : Nat) (rel_u : Bool) (adj : AdjList)
    (h : extractSSSP g d u rest s nr = some (s4, nr1, rel_u, adj)) :
    s4.relView d = ⟨(s.relView d).rel, Function.update (s.relView d).valid u true⟩ ∧
      rel_u = ((s.relView d).valid u && (s.relView d).rel u) ∧
      ∀ e, isRwtValid s4 e = isRwtValid s e := by
  unfold extractSSSP at h
  simp only at h
  split at h
  · cases h
  · rename_i adj0 hadj
    simp only [Option.some.injEq, Prod.mk.injEq] at h
    obtain ⟨h4, -, hrel, -⟩ := h
    have r01 : (finalDist (popPBheap s d rest) u).relView d = s.relView d := by
      cases d <;> rfl
    have v01 : ∀ e, isRwtValid (finalDist (popPBheap s d rest) u) e = isRwtValid s e := by
      intro e
      cases d <;> rfl
    have h12 : SameDist (finalDist (popPBheap s d rest) u)
        (if getRelevancy (finalDist (popPBheap s d rest) u) d u = true then
          insertRelevantVertices g (finalDist (popPBheap s d rest) u) u d
        else finalDist (popPBheap s d rest) u) := by
      split
      · exact sameDist_insertRelevantVertices g _ u d
      · exact SameDist.same _
    have r12 : (if getRelevancy (finalDist (popPBheap s d rest) u) d u = true then
          insertRelevantVertices g (finalDist (popPBheap s d rest) u) u d
        else finalDist (popPBheap s d rest) u).relView d = s.relView d := by
      split
      · rw [relView_insertRelevantVertices, r01]
      · exact r01
    generalize (if getRelevancy (finalDist (popPBheap s d rest) u) d u = true then
        insertRelevantVertices g (finalDist (popPBheap s d rest) u) u d
      else finalDist (popPBheap s d rest) u) = s2 at h4 hrel h12 r12
    have h23 := sameDist_updateRel s2 d u
    have r23 := relView_updateRel s2 d u
    generalize (if d = DL_sssp_direction.DL_sssp_forward then updateDxRel s2 u
      else updateDyRel s2 u) = s3 at h4 h23 r23
    have h34 : SameDist s3 s4 := by
      rw [← h4]
      split
      · exact ⟨rfl, rfl, rfl, rfl, rfl, rfl, rfl, rfl, rfl, rfl, rfl⟩
      · exact SameDist.same s3
    have r34 : s4.relView d = s3.relView d := by
      rw [← h4]
      split
      · cases d <;> rfl
      · rfl
    refine ⟨?_, ?_, ?_⟩
    · rw [r34, r23, r12]
    · rw [← hrel]
      have e1 : (if d = DL_sssp_direction.DL_sssp_forward then isDxRelValid s2 u
          else isDyRelValid s2 u) = (s2.relView d).valid u := rfl
      have e2 : getRelevancy s2 d u = (s2.relView d).rel u := rfl
      rw [e1, e2, r12]
      cases (s.relView d).valid u <;> rfl
    · intro e
      rw [((h12.next h23).next h34).rwtValid e]
      exact v01 e

/-! ## The invariant of the relevancy flags -/

/-- One step of the for loop keeps the invariant of the flags, when the views
after it differ from the views before it at the far end of the edge alone. -/
theorem RelInv.rel_step {g : DLGraph} {d : DL_sssp_direction} {root seed : Nat} {e0 : DLEdge}
    {u : Nat} {rel_u : Bool} {it : DLEdge} {rest : AdjList} {V : DistView} {W : RelView}
    {memo : Bool} (h : RelInv g d root seed e0 u rel_u (it :: rest) V W memo)
    (V1 : DistView) (W1 : RelView) (memo1 : Bool) (hfinal : V1.final = V.final)
    (hread : ∀ y, V.read y = true → V1.read y = true)
    (hreadv : V1.read (farEnd d it) = true)
    (hfar : ∀ y, y ≠ farEnd d it → V1.read y = V.read y ∧ V1.dist y = V.dist y ∧
      W1.valid y = W.valid y ∧ W1.rel y = W.rel y)
    (hvalv : W1.valid (farEnd d it) = true) (hroot : W1.rel root = false)
    (hdu : V1.dist u = V.dist u)
    (htr : W1.rel (farEnd d it) = true →
      (seed ≠ root ∧ ∃ es, ActivePath g d es seed (farEnd d it) ∧
        V1.dist (farEnd d it) = rwtOf g e0 + pathRwt g es) ∨
      (u = root ∧ e0 ∈ rest ∧ farEnd d it = seed ∧ rwtOf g e0 ≤ V1.dist seed))
    (hseed : farEnd d e0 = seed) (hm1 : memo = true → memo1 = true)
    (hm2 : it = e0 → memo1 = true ∨ seed = root) :
    RelInv g d root seed e0 u rel_u rest V1 W1 memo1 := by
  have hpend : e0 ∈ it :: rest → it ≠ e0 → e0 ∈ rest := by
    intro he hne
    rcases List.mem_cons.1 he with he | he
    · exact absurd he.symm hne
    · exact he
  refine
    { read_valid := ?_
      valid_read := ?_
      root_rel := hroot
      tracked := ?_
      seed_read := ?_
      memo_ok := ?_
      cur := ?_
      first := ?_ }
  · intro y hy
    by_cases hyv : y = farEnd d it
    · rw [hyv]
      exact hvalv
    · obtain ⟨h1, -, h3, -⟩ := hfar y hyv
      rw [h3]
      rw [h1] at hy
      exact h.read_valid y hy
  · intro y hy
    by_cases hyv : y = farEnd d it
    · rw [hyv]
      exact Or.inl hreadv
    · obtain ⟨-, -, h3, -⟩ := hfar y hyv
      rw [h3] at hy
      rcases h.valid_read y hy with h5 | h5
      · exact Or.inl (hread y h5)
      · exact Or.inr h5
  · intro y hval hrel hrd
    by_cases hyv : y = farEnd d it
    · rw [hyv] at hrel ⊢
      rcases htr hrel with h5 | ⟨h5, h6, h7, h8⟩
      · exact Or.inl h5
      · exact Or.inr ⟨h5, h6, h7, h8⟩
    · obtain ⟨h1, h2, h3, h4⟩ := hfar y hyv
      rw [h3] at hval
      rw [h4] at hrel
      rw [h1] at hrd
      rcases h.tracked y hval hrel hrd with ⟨hsr, es, hp, hd⟩ | ⟨hu, he0, hy, hle⟩
      · refine Or.inl ⟨hsr, es, hp, ?_⟩
        rw [h2]
        exact hd
      · by_cases hie : it = e0
        · exfalso
          apply hyv
          rw [hy, hie, hseed]
        · refine Or.inr ⟨hu, hpend he0 hie, hy, ?_⟩
          rw [← hy, h2, hy]
          exact hle
  · rcases h.seed_read with h5 | ⟨hu, he0⟩
    · exact Or.inl (hread seed h5)
    · by_cases hie : it = e0
      · left
        rw [← hseed, ← hie]
        exact hreadv
      · exact Or.inr ⟨hu, hpend he0 hie⟩
  · rcases h.memo_ok with h5 | ⟨hu, he0⟩ | h5
    · exact Or.inl (hm1 h5)
    · by_cases hie : it = e0
      · rcases hm2 hie with h6 | h6
        · exact Or.inl h6
        · exact Or.inr (Or.inr h6)
      · exact Or.inr (Or.inl ⟨hu, hpend he0 hie⟩)
    · exact Or.inr (Or.inr h5)
  · intro hr
    obtain ⟨hsr, hur, es, hp, hd⟩ := h.cur hr
    refine ⟨hsr, hur, es, hp, ?_⟩
    rw [hdu]
    exact hd
  · intro hu y hy
    rw [hfinal] at hy
    exact h.first hu y hy

/-- The body of the for loop keeps the invariant of the flags: a vertex that
is reached for the first time without a valid flag, or whose distance is
lowered, takes the relevancy of the extracted vertex, and the path to it goes
on from the path to the extracted vertex. -/
theorem RelInv.rel_relax {g : DLGraph} {d : DL_sssp_direction} {root seed : Nat} {e0 : DLEdge}
    {u : Nat} {rel_u : Bool} {it : DLEdge} {rest : AdjList} {V : DistView} {W : RelView}
    {memo : Bool} (h : RelInv g d root seed e0 u rel_u (it :: rest) V W memo)
    (hv : SpInv g d root u (it :: rest) V) (hit : it ∈ adjOf g d u)
    (hseed : farEnd d e0 = seed)
    (hpar : ∀ x ∈ adjOf g d root, farEnd d x = seed → rwtOf g e0 ≤ rwtOf g x)
    (memo1 : Bool) (hm1 : memo = true → memo1 = true)
    (hm2 : it = e0 → V.final (farEnd d it) = false → memo1 = true) :
    RelInv g d root seed e0 u rel_u rest (V.relax u (farEnd d it) (rwtOf g it))
      (W.relax V u (farEnd d it) (rwtOf g it) rel_u) memo1 := by
  have hrootread : V.read root = true := hv.final_read root hv.root_final
  have huread : V.read u = true := hv.final_read u hv.cur_final
  have hnil : pathRwt g [] = 0 := rfl
  unfold DistView.relax RelView.relax
  cases hfin : V.final (farEnd d it) with
  | true =>
    simp only [if_true]
    have hrdv : V.read (farEnd d it) = true := hv.final_read _ hfin
    refine h.rel_step V W memo1 rfl (fun y hy => hy) hrdv
      (fun y _ => ⟨rfl, rfl, rfl, rfl⟩) (h.read_valid _ hrdv) h.root_rel rfl ?_ hseed hm1 ?_
    · intro hrel
      rcases h.tracked _ (h.read_valid _ hrdv) hrel hrdv with h5 | ⟨hu, he0, hy, hle⟩
      · exact Or.inl h5
      · exfalso
        have h6 := h.first hu _ hfin
        rw [h6, h.root_rel] at hrel
        cases hrel
    · intro hie
      rcases h.memo_ok with h5 | ⟨hu, he0⟩ | h5
      · exact Or.inl (hm1 h5)
      · right
        have h6 := h.first hu _ hfin
        rw [← hseed, ← hie]
        exact h6
      · exact Or.inr h5
  | false =>
    simp only [Bool.false_eq_true, if_false]
    have hvroot : farEnd d it ≠ root := by
      intro hc
      rw [hc, hv.root_final] at hfin
      cases hfin
    have hvu : u ≠ farEnd d it := by
      intro hc
      rw [← hc, hv.cur_final] at hfin
      cases hfin
    have hm2b : it = e0 → memo1 = true ∨ seed = root := fun hie => Or.inl (hm2 hie hfin)
    have hmono : ∀ y, V.read y = true → Function.update V.read (farEnd d it) true y = true := by
      intro y hy
      by_cases hyv : y = farEnd d it
      · rw [hyv, Function.update_same]
      · rw [Function.update_noteq hyv]
        exact hy
    have hnewpath : rel_u = true → seed ≠ root ∧ ∃ es, ActivePath g d es seed (farEnd d it) ∧
        V.dist u + rwtOf g it = rwtOf g e0 + pathRwt g es := by
      intro hr
      obtain ⟨hsr, -, es, hp, hd⟩ := h.cur hr
      refine ⟨hsr, es ++ [it], activePath_concat g d it es seed u hp hit, ?_⟩
      rw [pathRwt_concat, hd]
      omega
    have hflag : RelInv g d root seed e0 u rel_u rest
        { V with
          dist := Function.update V.dist (farEnd d it) (V.dist u + rwtOf g it)
          read := Function.update V.read (farEnd d it) true
          heap := V.heap }
        ⟨Function.update W.rel (farEnd d it) rel_u, Function.update W.valid (farEnd d it) true⟩
        memo1 := by
      refine h.rel_step _ _ memo1 rfl hmono (Function.update_same _ _ _)
        (fun y hy => ⟨Function.update_noteq hy _ _, Function.update_noteq hy _ _,
          Function.update_noteq hy _ _, Function.update_noteq hy _ _⟩)
        (Function.update_same _ _ _) ?_ (Function.update_noteq hvu _ _) ?_ hseed hm1 hm2b
      · show Function.update W.rel (farEnd d it) rel_u root = false
        rw [Function.update_noteq (Ne.symm hvroot)]
        exact h.root_rel
      · intro hrel
        have hrel1 : Function.update W.rel (farEnd d it) rel_u (farEnd d it) = true := hrel
        rw [Function.update_same] at hrel1
        obtain ⟨hsr, es, hp, hd⟩ := hnewpath hrel1
        refine Or.inl ⟨hsr, es, hp, ?_⟩
        show Function.update V.dist (farEnd d it) (V.dist u + rwtOf g it) (farEnd d it) = _
        rw [Function.update_same]
        exact hd
    have hheap : ∀ (V1 V2 : DistView) (W1 : RelView),
        RelInv g d root seed e0 u rel_u rest V1 W1 memo1 → V1.dist = V2.dist →
        V1.read = V2.read → V1.final = V2.final →
        RelInv g d root seed e0 u rel_u rest V2 W1 memo1 := by
      intro V1 V2 W1 hh e1 e2 e3
      exact
        { read_valid := fun y hy => hh.read_valid y (by rw [e2]; exact hy)
          valid_read := fun y hy => by rw [← e2]; exact hh.valid_read y hy
          root_rel := hh.root_rel
          tracked := fun y h1 h2 h3 => by
            rw [← e1]
            exact hh.tracked y h1 h2 (by rw [e2]; exact h3)
          seed_read := by rw [← e2]; exact hh.seed_read
          memo_ok := hh.memo_ok
          cur := fun hr => by rw [← e1]; exact hh.cur hr
          first := fun hu y hy => hh.first hu y (by rw [e3]; exact hy) }
    cases hrd : V.read (farEnd d it) with
    | false =>
      simp only [Bool.not_false, if_true]
      cases hval : W.valid (farEnd d it) with
      | false =>
        simp only [Bool.false_eq_true, if_false]
        exact hheap _ _ _ hflag rfl rfl rfl
      | true =>
        simp only [if_true]
        have hvs : farEnd d it = seed := by
          rcases h.valid_read _ hval with h5 | h5
          · rw [hrd] at h5
            cases h5
          · exact h5
        obtain ⟨hu, he0⟩ : u = root ∧ e0 ∈ it :: rest := by
          rcases h.seed_read with h5 | h5
          · rw [← hvs, hrd] at h5
            cases h5
          · exact h5
        refine h.rel_step _ W memo1 rfl hmono (Function.update_same _ _ _)
          (fun y hy => ⟨Function.update_noteq hy _ _, Function.update_noteq hy _ _, rfl, rfl⟩)
          hval h.root_rel (Function.update_noteq hvu _ _) ?_ hseed hm1 hm2b
        intro _
        show (seed ≠ root ∧ ∃ es, ActivePath g d es seed (farEnd d it) ∧
            Function.update V.dist (farEnd d it) (V.dist u + rwtOf g it) (farEnd d it) =
              rwtOf g e0 + pathRwt g es) ∨
          (u = root ∧ e0 ∈ rest ∧ farEnd d it = seed ∧
            rwtOf g e0 ≤ Function.update V.dist (farEnd d it) (V.dist u + rwtOf g it) seed)
        have hdr : V.dist u = 0 := by
          rw [hu]
          exact hv.root_dist
        by_cases hie : it = e0
        · left
          refine ⟨?_, [], hvs.symm, ?_⟩
          · rw [← hvs]
            exact hvroot
          · rw [Function.update_same, hdr, hnil, hie]
            omega
        · right
          have he0r : e0 ∈ rest := by
            rcases List.mem_cons.1 he0 with h5 | h5
            · exact absurd h5.symm hie
            · exact h5
          refine ⟨hu, he0r, hvs, ?_⟩
          rw [← hvs, Function.update_same, hdr]
          have := hpar it (by rw [← hu]; exact hit) hvs
          omega
    | true =>
      simp only [Bool.not_true, Bool.false_eq_true, if_false]
      by_cases hgt : V.dist (farEnd d it) > V.dist u + rwtOf g it
      · rw [if_pos hgt, if_pos hgt]
        exact hheap _ _ _ hflag rfl rfl rfl
      · rw [if_neg hgt, if_neg hgt]
        have hsame : Function.update V.read (farEnd d it) true = V.read := by
          funext y
          by_cases hyv : y = farEnd d it
          · rw [hyv, Function.update_same, hrd]
          · rw [Function.update_noteq hyv]
        refine h.rel_step _ W memo1 rfl hmono (Function.update_same _ _ _)
          (fun y hy => ⟨Function.update_noteq hy _ _, rfl, rfl, rfl⟩) (h.read_valid _ hrd)
          h.root_rel rfl ?_
          hseed hm1 hm2b
        intro hrel
        rcases h.tracked _ (h.read_valid _ hrd) hrel hrd with h5 | ⟨hu, he0, hy, hle⟩
        · exact Or.inl h5
        · by_cases hie : it = e0
          · left
            refine ⟨?_, [], hy.symm, ?_⟩
            · rw [← hy]
              exact hvroot
            · show V.dist (farEnd d it) = rwtOf g e0 + pathRwt g []
              have hdr : V.dist u = 0 := by
                rw [hu]
                exact hv.root_dist
              rw [hnil]
              rw [hy] at hgt ⊢
              rw [hie, hdr] at hgt
              omega
          · right
            have he0r : e0 ∈ rest := by
              rcases List.mem_cons.1 he0 with h5 | h5
              · exact absurd h5.symm hie
              · exact h5
            exact ⟨hu, he0r, hy, hle⟩

/-- The extraction of the next vertex keeps the invariant of the flags: the
list of the vertex before it was scanned to its end, so the activated edge was
scanned, and the extracted vertex is relevant only with a path from the
seed. -/
theorem RelInv.rel_extract {g : DLGraph} {d : DL_sssp_direction} {root seed : Nat}
    {e0 : DLEdge} {u0 : Nat} {rel0 : Bool} {V : DistView} {W : RelView} {memo : Bool}
    (h : RelInv g d root seed e0 u0 rel0 [] V W memo) (hv : SpInv g d root u0 [] V) (u : Nat)
    (rest : List Nat) (hheap : V.heap = u :: rest) (memo1 : Bool)
    (hm1 : memo = true → memo1 = true) :
    RelInv g d root seed e0 u (W.valid u && W.rel u) (adjOf g d u) (V.extract u rest)
      ⟨W.rel, Function.update W.valid u true⟩ memo1 := by
  have hu : u ∈ V.heap := by
    rw [hheap]
    exact List.mem_cons_self _ _
  obtain ⟨hur, huf⟩ := (hv.heap_iff u).1 hu
  have huroot : u ≠ root := by
    intro hc
    rw [hc, hv.root_final] at huf
    cases huf
  have hnone : ∀ {P : Prop}, (u0 = root ∧ e0 ∈ ([] : AdjList)) → P := by
    intro P hh
    exact absurd hh.2 (List.not_mem_nil _)
  have hval : ∀ y, Function.update W.valid u true y = true → V.read y = true →
      W.valid y = true := fun y _ hy => h.read_valid y hy
  unfold DistView.extract
  refine
    { read_valid := ?_
      valid_read := ?_
      root_rel := h.root_rel
      tracked := ?_
      seed_read := ?_
      memo_ok := ?_
      cur := ?_
      first := fun hc => absurd hc huroot }
  · intro y hy
    show Function.update W.valid u true y = true
    by_cases hyu : y = u
    · rw [hyu, Function.update_same]
    · rw [Function.update_noteq hyu]
      exact h.read_valid y hy
  · intro y hy
    have hy1 : Function.update W.valid u true y = true := hy
    by_cases hyu : y = u
    · rw [hyu]
      exact Or.inl hur
    · rw [Function.update_noteq hyu] at hy1
      exact h.valid_read y hy1
  · intro y _ hrel hrd
    rcases h.tracked y (h.read_valid y hrd) hrel hrd with h5 | ⟨h5, h6, -, -⟩
    · exact Or.inl h5
    · exact hnone ⟨h5, h6⟩
  · rcases h.seed_read with h5 | h5
    · exact Or.inl h5
    · exact hnone h5
  · rcases h.memo_ok with h5 | h5 | h5
    · exact Or.inl (hm1 h5)
    · exact hnone h5
    · exact Or.inr (Or.inr h5)
  · intro hr
    rw [Bool.and_eq_true] at hr
    rcases h.tracked u hr.1 hr.2 hur with ⟨hsr, es, hp, hd⟩ | ⟨h5, h6, -, -⟩
    · exact ⟨hsr, huroot, es, hp, hd⟩
    · exact hnone ⟨h5, h6⟩

/-- The first extraction establishes the invariant of the flags: the root is
extracted, it is not relevant, and the activated edge is in its list. -/
theorem RelInit.rel_root {g : DLGraph} {d : DL_sssp_direction} {root seed : Nat}
    {e0 : DLEdge} {V : DistView} {W : RelView} (h : RelInit root seed W) (hv : SpInit root V)
    (he0 : e0 ∈ adjOf g d root) (memo1 : Bool) :
    RelInv g d root seed e0 root (W.valid root && W.rel root) (adjOf g d root)
      (V.extract root []) ⟨W.rel, Function.update W.valid root true⟩ memo1 := by
  unfold DistView.extract
  refine
    { read_valid := ?_
      valid_read := ?_
      root_rel := h.root_rel
      tracked := ?_
      seed_read := Or.inr ⟨rfl, he0⟩
      memo_ok := Or.inr (Or.inl ⟨rfl, he0⟩)
      cur := ?_
      first := ?_ }
  · intro y hy
    have hyr : y = root := (hv.read_iff y).1 hy
    show Function.update W.valid root true y = true
    rw [hyr, Function.update_same]
  · intro y hy
    have hy1 : Function.update W.valid root true y = true := hy
    by_cases hyr : y = root
    · left
      exact (hv.read_iff y).2 hyr
    · rw [Function.update_noteq hyr] at hy1
      rcases h.only y hy1 with h5 | h5
      · exact absurd h5 hyr
      · exact Or.inr h5
  · intro y _ hrel hrd
    exfalso
    have hyr : y = root := (hv.read_iff y).1 hrd
    have hrel1 : W.rel y = true := hrel
    rw [hyr, h.root_rel] at hrel1
    cases hrel1
  · intro hr
    exfalso
    rw [Bool.and_eq_true, h.root_rel] at hr
    cases hr.2
  · intro _ y hy
    have hy1 : Function.update V.final root true y = true := hy
    by_contra hyr
    rw [Function.update_noteq hyr, hv.no_final y] at hy1
    cases hy1

/-! ## The relevant vertices of a pass -/

/-- The flags of the start state of a pass: the root has a valid flag and is
not relevant, and the other flags are those of the caller. -/
theorem relView_startSSSP (s : SPState) (x : Nat) (d : DL_sssp_direction) :
    (startSSSP s x d).relView d =
      ⟨Function.update (s.relView d).rel x false, Function.update (s.relView d).valid x true⟩ := by
  have h0 : (setDistFrom (readDist (setDist (initFinalDist (initDist s)) d x 0) x) d x
      0).relView d = s.relView d := by
    cases d <;> rfl
  have h1 := relView_setRel
    (setDistFrom (readDist (setDist (initFinalDist (initDist s)) d x 0) x) d x 0) d x false
  rw [h0] at h1
  rw [← h1]
  cases d <;> rfl

/-- A pass keeps the stamps of the relevancy flags behind their tokens. -/
theorem frame_relStamps (g : DLGraph) (d : DL_sssp_direction) :
    Frame g d (fun s s' => RelStamps s → RelStamps s') where
  same := fun _ h => h
  next := fun _ _ _ h1 h2 h => h2 (h1 h)
  setDist := fun s v x h => by cases d <;> exact h
  readDist := fun s v h => h
  finalDist := fun s v h => h
  setRelevancy := fun s v b h => by cases d <;> exact h
  updateRel := fun s v h => by
    cases d with
    | DL_sssp_forward => exact ⟨stamp_update_le _ _ v h.1, h.2⟩
    | DL_sssp_backward => exact ⟨h.1, stamp_update_le _ _ v h.2⟩
  setDistFrom := fun s v k h => by cases d <;> exact h
  setPq := fun s l h => by cases d <;> exact h
  newRwt := fun s e r _ h => h
  tree := fun s e s' hs h => by
    unfold updateSPT at hs
    cases d with
    | DL_sssp_forward =>
      simp only at hs
      split at hs
      · cases hs
      · simp only [Option.some.injEq] at hs
        rw [← hs]
        split <;> exact h
    | DL_sssp_backward =>
      simp only at hs
      split at hs
      · cases hs
      · simp only [Option.some.injEq] at hs
        rw [← hs]
        split <;> exact h
  relevant := fun s u h => by cases d <;> exact h
  adjSize := fun s n h => h
  initDist := fun s h => h
  initFinalDist := fun s h => h

/-! ## The rows of the inactive views -/

theorem placed_appendedRow (f : DLEdge → Nat) (t : List AdjList) (i j : Nat) (a b : DLEdge)
    (k : Nat) (ht : ∀ x ∈ t.getD k [], f x = k) (ha : f a = i) (hb : f b = j) :
    ∀ x ∈ appendedRow t i j a b k, f x = k := by
  intro x hx
  unfold appendedRow at hx
  simp only at hx
  split at hx
  · rename_i hkj
    rcases List.mem_append.1 hx with h1 | h1
    · split at h1
      · rename_i hki
        rcases List.mem_append.1 h1 with h2 | h2
        · exact ht x h2
        · rw [List.mem_singleton.1 h2, ha, hki]
      · exact ht x h1
    · rw [List.mem_singleton.1 h1, hb, hkj]
  · split at hx
    · rename_i hki
      rcases List.mem_append.1 hx with h2 | h2
      · exact ht x h2
      · rw [List.mem_singleton.1 h2, ha, hki]
    · exact ht x hx

/-- Rows that lose edges, or stay, keep the placement. -/
theorem HPlaced.shrink {g g' : DLGraph} (h : HPlaced g)
    (r1 : ∀ k x, x ∈ g'.hAdj.getD k [] → x ∈ g.hAdj.getD k [])
    (r2 : ∀ k x, x ∈ g'.hAdjInc.getD k [] → x ∈ g.hAdjInc.getD k []) : HPlaced g' :=
  fun i x => ⟨fun hx => (h i x).1 (r1 i x hx), fun hx => (h i x).2 (r2 i x hx)⟩

/-- Rows that gain the two edges of a pair, each in the row of its end, keep
the placement. -/
theorem HPlaced.grow {g g' : DLGraph} (h : HPlaced g) (p : DLComplEdges)
    (r1 : ∀ k, g'.hAdj.getD k [] = appendedRow g.hAdj p.pos.u p.neg.u p.pos p.neg k)
    (r2 : ∀ k, g'.hAdjInc.getD k [] = appendedRow g.hAdjInc p.pos.v p.neg.v p.pos p.neg k) :
    HPlaced g' := by
  intro i x
  constructor
  · intro hx
    rw [r1 i] at hx
    exact placed_appendedRow (fun e => e.u) g.hAdj _ _ _ _ i (fun y hy => (h i y).1 hy) rfl rfl
      x hx
  · intro hx
    rw [r2 i] at hx
    exact placed_appendedRow (fun e => e.v) g.hAdjInc _ _ _ _ i (fun y hy => (h i y).2 hy) rfl
      rfl x hx

/-- In the reached states every edge of the inactive views is in the row of
its own end. -/
theorem reach_hPlaced (cfg : Config) (st : List (Enode × lbool)) (g : DLGraph)
    (hr : Reach cfg st g) : HPlaced g := by
  induction hr with
  | init =>
    intro i x
    constructor <;> intro hx <;> exact absurd hx (List.not_mem_nil _)
  | static A c hr hn hi ih =>
    have hs := reach_storeInv cfg _ _ hr
    obtain ⟨p, l, g1, -, -, -, e0, -, -, -, -, -, -, -, -, -, -, -, r1, r2⟩ :=
      insertStatic_store cfg A _ _ c hn hi
    rename_i st0 g0 g2
    have hlen : g0.vertexMap.length ≤ g2.vertexMap.length := by
      rw [e0, List.length_append]
      omega
    have hl1 : g0.hAdj.length ≤ g2.vertexMap.length := by rw [hs.len_h]; exact hlen
    have hl2 : g0.hAdjInc.length ≤ g2.vertexMap.length := by rw [hs.len_hi]; exact hlen
    intro i x
    constructor
    · intro hx
      rw [r1 i] at hx
      split at hx
      · exact placed_appendedRow (fun e => e.u) _ _ _ _ _ i
          (fun y hy => (ih i y).1 (by rw [resize_getD _ _ hl1] at hy; exact hy)) rfl rfl x hx
      · rw [resize_getD _ _ hl1] at hx
        exact (ih i x).1 hx
    · intro hx
      rw [r2 i] at hx
      split at hx
      · exact placed_appendedRow (fun e => e.v) _ _ _ _ _ i
          (fun y hy => (ih i y).2 (by rw [resize_getD _ _ hl2] at hy; exact hy)) rfl rfl x hx
      · rw [resize_getD _ _ hl2] at hx
        exact (ih i x).2 hx
  | dynamic A c reason e hr hc hi ih =>
    obtain ⟨p, a, b, -, -, -, -, -, -, -, -, -, -, -, r1, r2⟩ :=
      insertDynamic_store cfg A _ _ c reason e hi
    refine ih.shrink ?_ ?_
    · intro k x hx
      rw [r1 k] at hx
      split at hx
      · exact mem_erasedRow _ _ _ _ _ _ _ hx
      · exact hx
    · intro k x hx
      rw [r2 k] at hx
      split at hx
      · exact mem_erasedRow _ _ _ _ _ _ _ hx
      · exact hx
  | check A c reason fuel b hr hc hi ih =>
    obtain ⟨e, g1, hins, hst⟩ := checkNegCycle_store cfg A _ _ c reason fuel b hi
    obtain ⟨p, a, b, -, -, -, -, -, -, -, -, -, -, -, r1, r2⟩ :=
      insertDynamic_store cfg A _ _ c reason e hins
    refine ih.shrink ?_ ?_
    · intro k x hx
      rw [hst.hAdj, r1 k] at hx
      split at hx
      · exact mem_erasedRow _ _ _ _ _ _ _ hx
      · exact hx
    · intro k x hx
      rw [hst.hAdjInc, r2 k] at hx
      split at hx
      · exact mem_erasedRow _ _ _ _ _ _ _ hx
      · exact hx
  | delete A c hr hi ih =>
    have hs := reach_storeInv cfg _ _ hr
    obtain ⟨-, -, -, -, hpol, -⟩ := deleteActive_spec cfg A _ _ c hi
    obtain ⟨p, -, g2, hp, -, -, -, hd, -, -, -, e1, -, r1, r2⟩ := hs.delete_step cfg A c hpol
    rw [hi] at hd
    cases hd
    by_cases htp : cfg.dlconfig.theory_propagation > 0
    · simp only [if_pos htp] at r1 r2
      exact ih.grow p r1 r2
    · simp only [if_neg htp] at r1 r2
      exact ih.shrink (fun k x hx => by rw [r1 k] at hx; exact hx)
        (fun k x hx => by rw [r2 k] at hx; exact hx)
  | implied c hr hi ih =>
    unfold insertImplied at hi
    split at hi
    · obtain ⟨p, hp, -, -, r1, r2, -⟩ := deleteInactive_rows _ _ c hi
      exact ih.shrink (fun k x hx => by rw [r1 k] at hx; exact mem_erasedRow _ _ _ _ _ _ _ hx)
        (fun k x hx => by rw [r2 k] at hx; exact mem_erasedRow _ _ _ _ _ _ _ hx)
    · cases hi

/-! ## The calls of `addIfHeavy` -/

/-- Every call of the first branch of `iterateInactive`: its edge is in the
row of `hAdj` of a vertex with a valid backward flag that is relevant, the
atom of the edge has no polarity and is not deduced, the target of the edge has
a valid forward flag and is relevant, and the value is
`dy + dx - e->rwt`. -/
theorem iterateOut_mem (A : AtomStore) (g : DLGraph) (s : SPState) (e : DLEdge) :
    ∀ (vs : List Nat) (calls : List (Int × DLEdge)), iterateOut A g s e vs = some calls →
      ∀ (r : Int) (x : DLEdge), (r, x) ∈ calls →
        ∃ it, isDyRelValid s it = true ∧ s.dy_relevant it = true ∧ x ∈ g.hAdj.getD it [] ∧
          hasPolarity A x.c = false ∧ isDeduced A x.c = false ∧
          isDxRelValid s x.v = true ∧ s.dx_relevant x.v = true ∧
          r = s.dy it + s.dx x.v - s.rwt e := by
  intro vs
  induction vs with
  | nil =>
    intro calls h r x hx
    unfold iterateOut at h
    simp only [Option.some.injEq] at h
    rw [← h] at hx
    exact absurd hx (List.not_mem_nil _)
  | cons it rest ih =>
    intro calls h r x hx
    unfold iterateOut at h
    split at h
    · rename_i hflags
      rw [Bool.and_eq_true] at hflags
      split at h
      · cases h
      · rename_i adj hadj
        cases hrest : iterateOut A g s e rest with
        | none =>
          rw [hrest] at h
          cases h
        | some l =>
          rw [hrest] at h
          simp only [Option.map_some', Option.some.injEq] at h
          rw [← h] at hx
          rcases List.mem_append.1 hx with h1 | h1
          · unfold scanInactiveOut at h1
            rw [List.mem_filterMap] at h1
            obtain ⟨a, ha, hsome⟩ := h1
            split at hsome
            · cases hsome
            · rename_i hpol
              split at hsome
              · rename_i hrel
                simp only [Option.some.injEq, Prod.mk.injEq] at hsome
                obtain ⟨hr1, hax⟩ := hsome
                subst hax
                rw [Bool.and_eq_true] at hrel
                rw [Bool.or_eq_true, not_or] at hpol
                refine ⟨it, hflags.1, hflags.2, ?_, ?_, ?_, hrel.1, hrel.2, hr1.symm⟩
                · rw [List.getD_eq_getElem?_getD, hadj]
                  exact ha
                · exact Bool.eq_false_iff.2 hpol.1
                · exact Bool.eq_false_iff.2 hpol.2
              · cases hsome
          · exact ih l hrest r x h1
    · cases h

/-- Every call of the second branch of `iterateInactive`. -/
theorem iterateIn_mem (A : AtomStore) (g : DLGraph) (s : SPState) (e : DLEdge) :
    ∀ (vs : List Nat) (calls : List (Int × DLEdge)), iterateIn A g s e vs = some calls →
      ∀ (r : Int) (x : DLEdge), (r, x) ∈ calls →
        ∃ it, isDxRelValid s it = true ∧ s.dx_relevant it = true ∧
          x ∈ g.hAdjInc.getD it [] ∧ hasPolarity A x.c = false ∧ isDeduced A x.c = false ∧
          isDyRelValid s x.u = true ∧ s.dy_relevant x.u = true ∧
          r = s.dy x.u + s.dx it - s.rwt e := by
  intro vs
  induction vs with
  | nil =>
    intro calls h r x hx
    unfold iterateIn at h
    simp only [Option.some.injEq] at h
    rw [← h] at hx
    exact absurd hx (List.not_mem_nil _)
  | cons it rest ih =>
    intro calls h r x hx
    unfold iterateIn at h
    split at h
    · rename_i hvalid
      split at h
      · rename_i hrelv
        split at h
        · cases h
        · rename_i adj hadj
          cases hrest : iterateIn A g s e rest with
          | none =>
            rw [hrest] at h
            cases h
          | some l =>
            rw [hrest] at h
            simp only [Option.map_some', Option.some.injEq] at h
            rw [← h] at hx
            rcases List.mem_append.1 hx with h1 | h1
            · unfold scanInactiveIn at h1
              rw [List.mem_filterMap] at h1
              obtain ⟨a, ha, hsome⟩ := h1
              split at hsome
              · cases hsome
              · rename_i hpol
                split at hsome
                · rename_i hrel
                  simp only [Option.some.injEq, Prod.mk.injEq] at hsome
                  obtain ⟨hr1, hax⟩ := hsome
                  subst hax
                  rw [Bool.and_eq_true] at hrel
                  rw [Bool.or_eq_true, not_or] at hpol
                  refine ⟨it, hvalid, hrelv, ?_, ?_, ?_, hrel.1, hrel.2, hr1.symm⟩
                  · rw [List.getD_eq_getElem?_getD, hadj]
                    exact ha
                  · exact Bool.eq_false_iff.2 hpol.1
                  · exact Bool.eq_false_iff.2 hpol.2
                · cases hsome
            · exact ih l hrest r x h1
      · cases h
    · cases h

/-! ## Paths of active edges and the atoms they entail -/

theorem activePath_append (g : DLGraph) (d : DL_sssp_direction) :
    ∀ (es1 es2 : List DLEdge) (a b c : Nat), ActivePath g d es1 a b → ActivePath g d es2 b c →
      ActivePath g d (es1 ++ es2) a c := by
  intro es1
  induction es1 with
  | nil =>
    intro es2 a b c h1 h2
    have hab : a = b := h1
    rw [hab]
    exact h2
  | cons x rest ih =>
    intro es2 a b c h1 h2
    exact ⟨h1.1, ih es2 _ b c h1.2 h2⟩

/-- An active edge is in the row of its source in `dAdj` and in the row of its
target in `dAdjInc`. -/
theorem StoreInv.mem_rows {st : List (Enode × lbool)} {g : DLGraph} (hs : StoreInv st g)
    (x : DLEdge) (hx : x ∈ g.dEdges) :
    x ∈ adjOf g .DL_sssp_forward x.u ∧ x ∈ adjOf g .DL_sssp_backward x.v := by
  obtain ⟨hu, hv⟩ := hs.dbound x hx
  constructor
  · show x ∈ g.dAdj.getD x.u []
    rw [List.getD_eq_getElem?_getD, hs.rows x.u (by rw [hs.len_d]; exact hu)]
    show x ∈ g.dEdges.filter _
    rw [List.mem_filter]
    exact ⟨hx, decide_eq_true rfl⟩
  · show x ∈ g.dAdjInc.getD x.v []
    rw [List.getD_eq_getElem?_getD, hs.rows_in x.v (by rw [hs.len_di]; exact hv)]
    show x ∈ g.dEdges.filter _
    rw [List.mem_filter]
    exact ⟨hx, decide_eq_true rfl⟩

/-- A path of the backward pass from `a` to `b`, read from its end, is a
directed path of active edges from `b` to `a`. -/
theorem activePath_reverse {st : List (Enode × lbool)} {g : DLGraph} (hs : StoreInv st g) :
    ∀ (es : List DLEdge) (a b : Nat), ActivePath g .DL_sssp_backward es a b →
      ActivePath g .DL_sssp_forward es.reverse b a := by
  intro es
  induction es with
  | nil =>
    intro a b h
    have hab : a = b := h
    exact hab.symm
  | cons x rest ih =>
    intro a b h
    obtain ⟨hx, hrest⟩ := h
    obtain ⟨hxe, hxa, -⟩ := hs.adj_edges .DL_sssp_backward a x hx
    have hxv : x.v = a := hxa
    have h1 := ih x.u b hrest
    have h2 := activePath_concat g .DL_sssp_forward x rest.reverse b x.u h1 (hs.mem_rows x hxe).1
    have h3 : farEnd .DL_sssp_forward x = a := hxv
    rw [h3] at h2
    rw [List.reverse_cons]
    exact h2

/-- The edge of an atom on the trail, with the polarity of its assertion, is
active. -/
theorem StoreInv.trail_active {st : List (Enode × lbool)} {g : DLGraph} (hs : StoreInv st g)
    (A : AtomStore) (c : Enode) (p : DLComplEdges) (hp : findEdges g.edgeMap c = some p)
    (hact : (c, getPolarity A c) ∈ st) : selectEdge A c p ∈ g.dEdges := by
  have h1 : trailEdge g.edgeMap (c, getPolarity A c) ∈ st.reverse.map (trailEdge g.edgeMap) :=
    List.mem_map_of_mem _ (List.mem_reverse.2 hact)
  rw [hs.edges] at h1
  have h2 : trailEdge g.edgeMap (c, getPolarity A c) = some (selectEdge A c p) := by
    unfold trailEdge selectEdge
    simp only [hp, Option.map_some']
  rw [h2, List.mem_map] at h1
  obtain ⟨x, hx, hxe⟩ := h1
  simp only [Option.some.injEq] at hxe
  rw [← hxe]
  exact hx

/-! ## Edges parallel to the activated edge -/

/-- With a parallel edge of smaller or equal weight `findHeavyEdges` calls
`addIfHeavy` for no edge. -/
theorem findHeavyEdges_fast_calls (LAZY_GENERATION : Int) (cfg : Config) (A : AtomStore)
    (g : DLGraph) (s : SPState) (c : Enode) (fuel : Nat) (p : DLComplEdges) (g' : DLGraph)
    (s' : SPState) (calls : List (Int × DLEdge)) (hp : findEdges g.edgeMap c = some p)
    (hpar : isParallelAndHeavy g (selectEdge A c p) = true)
    (h : findHeavyEdges LAZY_GENERATION cfg A g s c fuel = some (g', s', calls)) :
    calls = [] := by
  unfold findHeavyEdges at h
  rw [getDLEdge_found cfg A g c p hp] at h
  simp only [hpar, if_true] at h
  split at h
  · cases h
  · simp only [Option.some.injEq, Prod.mk.injEq] at h
    exact h.2.2.symm

/-- The classification of an atom with the constant on the left of a
difference: the weight is the negated constant and the terms are swapped. -/
theorem classify_const_left (a b c1 : Enode) (k : Int)
    (hc1 : c1 = .num k ∨ c1 = .uminus (.num (-k))) :
    classify (.leq c1 (.minus a b)) = some (-k, some b, some a) := by
  rcases hc1 with h | h <;> subst h <;>
    simp [classify, Enode.get1st, Enode.get2nd, Enode.isVar, Enode.isConstant,
      Enode.isUminusConstant, Enode.isUminus, Enode.isMinus, Enode.getValue]

/-- The classification of an atom with the difference on the left of a
constant, also when the constant is written with a unary minus. -/
theorem classify_diff_left (a b c2 : Enode) (k : Int)
    (hc2 : c2 = .num k ∨ c2 = .uminus (.num (-k))) :
    classify (.leq (.minus a b) c2) = some (k, some a, some b) := by
  rcases hc2 with h | h <;> subst h <;>
    simp [classify, Enode.get1st, Enode.get2nd, Enode.isVar, Enode.isConstant,
      Enode.isUminusConstant, Enode.isUminus, Enode.isMinus, Enode.getValue]

/-- Two new atoms with the same classification get pairs with the same
identifiers, endpoints and weights, and the same vertices are allocated. -/
theorem getDLEdge_same_class (cfg : Config) (A : AtomStore) (g : DLGraph) (e1 e2 : Enode)
    (cl : Int × Option Enode × Option Enode) (hn1 : findEdges g.edgeMap e1 = none)
    (hn2 : findEdges g.edgeMap e2 = none) (hp1 : hasPolarity A e1 = false)
    (hp2 : hasPolarity A e2 = false) (hc1 : classify e1 = some cl)
    (hc2 : classify e2 = some cl) :
    ∃ p1 g1 p2 g2, getDLEdge cfg A g e1 = some (p1, g1) ∧ getDLEdge cfg A g e2 = some (p2, g2) ∧
      p1.pos.u = p2.pos.u ∧ p1.pos.v = p2.pos.v ∧ p1.pos.wt = p2.pos.wt ∧
      p1.neg.u = p2.neg.u ∧ p1.neg.v = p2.neg.v ∧ p1.neg.wt = p2.neg.wt ∧
      p1.pos.id = p2.pos.id ∧ p1.neg.id = p2.neg.id ∧ g1.vertexMap = g2.vertexMap := by
  obtain ⟨w, x, y⟩ := cl
  unfold getDLEdge
  rw [hn1, hn2]
  simp only [hp1, hp2, hc1, hc2, Bool.false_eq_true, if_false]
  exact ⟨_, _, _, _, rfl, rfl, rfl, rfl, rfl, rfl, rfl, rfl, rfl, rfl, rfl⟩

/-- C40: the symmetry of the two orientations.  For terms `a`, `b` (the
variables) and a constant of value `k`, written as a numeral or with a unary
minus, the new atom `k <= a - b` with the constant on the left and the new atom
`b - a <= -k` with the difference on the left get from `getDLEdge`, called on
the same graph, pairs with the same pos edge and the same neg edge: the same
endpoints, weights and identifiers (the edges differ in the atom they carry).
The pos edge goes from the vertex of `b` to the vertex of `a` with the weight
`-k` times the rescale factor. -/
theorem getDLEdge_orientation_symm (cfg : Config) (A : AtomStore) (g : DLGraph)
    (a b c1 c2 : Enode) (k : Int) (hc1 : c1 = .num k ∨ c1 = .uminus (.num (-k)))
    (hc2 : c2 = .num (-k) ∨ c2 = .uminus (.num k))
    (hn1 : findEdges g.edgeMap (.leq c1 (.minus a b)) = none)
    (hn2 : findEdges g.edgeMap (.leq (.minus b a) c2) = none)
    (hp1 : hasPolarity A (.leq c1 (.minus a b)) = false)
    (hp2 : hasPolarity A (.leq (.minus b a) c2) = false) :
    ∃ p1 g1 p2 g2, getDLEdge cfg A g (.leq c1 (.minus a b)) = some (p1, g1) ∧
      getDLEdge cfg A g (.leq (.minus b a) c2) = some (p2, g2) ∧
      p1.pos.u = p2.pos.u ∧ p1.pos.v = p2.pos.v ∧ p1.pos.wt = p2.pos.wt ∧
      p1.neg.u = p2.neg.u ∧ p1.neg.v = p2.neg.v ∧ p1.neg.wt = p2.neg.wt ∧
      p1.pos.id = p2.pos.id ∧ p1.neg.id = p2.neg.id ∧ g1.vertexMap = g2.vertexMap ∧
      findVertex g1.vertexMap (some b) = some p1.pos.u ∧
      findVertex g1.vertexMap (some a) = some p1.pos.v ∧
      p1.pos.wt = -k * rescaleFactor cfg := by
  have h1 := classify_const_left a b c1 k hc1
  have hc2' : c2 = .num (-k) ∨ c2 = .uminus (.num (- -k)) := by
    rw [neg_neg]
    exact hc2
  have h2 := classify_diff_left b a c2 (-k) hc2'
  obtain ⟨p1, g1, p2, g2, e1, e2, q1, q2, q3, q4, q5, q6, q7, q8, q9⟩ :=
    getDLEdge_same_class cfg A g _ _ _ hn1 hn2 hp1 hp2 h1 h2
  refine ⟨p1, g1, p2, g2, e1, e2, q1, q2, q3, q4, q5, q6, q7, q8, q9, ?_⟩
  unfold getDLEdge at e1
  rw [hn1] at e1
  simp only [hp1, h1, Bool.false_eq_true, if_false, Option.some.injEq, Prod.mk.injEq] at e1
  obtain ⟨hp, hg⟩ := e1
  generalize hg0 : ({ g with tmp_edge_weight := -k } : DLGraph) = g0 at hp hg
  have hw : getPosWeight g0 = -k := by subst hg0; rfl
  obtain ⟨hu, -⟩ := getDLVertex_spec g0 (some b)
  obtain ⟨hv, ⟨l2, hl2⟩⟩ := getDLVertex_spec (getDLVertex g0 (some b)).2 (some a)
  subst hp
  subst hg
  refine ⟨?_, hv, ?_⟩
  · simp only
    rw [hl2]
    exact findVertex_append_of_some _ _ _ _ hu
  · simp only [hw]

theorem getDLEdge_orientation_symm_witness :
    findEdges DLGraph.empty.edgeMap (.leq (.num 4) (.minus (.var 0) (.var 1))) = none ∧
    findEdges DLGraph.empty.edgeMap (.leq (.minus (.var 1) (.var 0)) (.num (-4))) = none ∧
    ∃ p1 g1 p2 g2,
      getDLEdge exCfg exNoPol DLGraph.empty (.leq (.num 4) (.minus (.var 0) (.var 1))) =
        some (p1, g1) ∧
      getDLEdge exCfg exNoPol DLGraph.empty (.leq (.minus (.var 1) (.var 0)) (.num (-4))) =
        some (p2, g2) ∧
      p1.pos.u = p2.pos.u ∧ p1.pos.v = p2.pos.v ∧ p1.pos.wt = p2.pos.wt ∧
      p1.neg.u = p2.neg.u ∧ p1.neg.v = p2.neg.v ∧ p1.neg.wt = p2.neg.wt ∧
      p1.pos.id = p2.pos.id ∧ p1.neg.id = p2.neg.id ∧ g1.vertexMap = g2.vertexMap ∧
      findVertex g1.vertexMap (some (.var 1)) = some p1.pos.u ∧
      findVertex g1.vertexMap (some (.var 0)) = some p1.pos.v ∧
      p1.pos.wt = -4 * rescaleFactor exCfg :=
  ⟨by decide, by decide,
    getDLEdge_orientation_symm exCfg exNoPol DLGraph.empty (.var 0) (.var 1) (.num 4)
      (.num (-4)) 4 (Or.inl rfl) (Or.inl rfl) (by decide) (by decide) (by decide) (by decide)⟩

/-! ## The effect of `insertStatic` -/

/-- A row below the new size of a table that `resize` cut or filled up is the
row of the table before. -/
theorem resize_getD_lt (t : List AdjList) (n k : Nat) (hk : k < n) :
    (resize t n []).getD k [] = t.getD k [] := by
  unfold resize
  simp only [List.getD_eq_getElem?_getD]
  by_cases hkt : k < t.length
  · rw [List.getElem?_append_left (by rw [List.length_take]; omega), List.getElem?_take_of_lt hk]
  · have hle : t.length ≤ k := Nat.le_of_not_lt hkt
    rw [List.getElem?_append_right (by rw [List.length_take]; omega),
      List.getElem?_eq_none hle, List.length_take]
    by_cases h2 : k - min n t.length < n - t.length
    · rw [List.getElem?_replicate_of_lt h2]
      rfl
    · rw [List.getElem?_eq_none (by rw [List.length_replicate]; omega)]

/-- A call of `getDLEdge` leaves the static view, `sEdges` and `Ecnt` as they
are. -/
theorem getDLEdge_static (cfg : Config) (A : AtomStore) (g : DLGraph) (e : Enode)
    (p : DLComplEdges) (g1 : DLGraph) (h : getDLEdge cfg A g e = some (p, g1)) :
    g1.sAdj = g.sAdj ∧ g1.sEdges = g.sEdges ∧ g1.Ecnt = g.Ecnt := by
  have hv : ∀ (g0 : DLGraph) (x : Option Enode), (getDLVertex g0 x).2.sAdj = g0.sAdj ∧
      (getDLVertex g0 x).2.sEdges = g0.sEdges ∧ (getDLVertex g0 x).2.Ecnt = g0.Ecnt := by
    intro g0 x
    unfold getDLVertex
    split <;> exact ⟨rfl, rfl, rfl⟩
  unfold getDLEdge at h
  split at h
  · simp only [Option.some.injEq, Prod.mk.injEq] at h
    rw [← h.2]
    exact ⟨rfl, rfl, rfl⟩
  · split at h
    · cases h
    · split at h
      · cases h
      · rename_i w x y hcl
        simp only [Option.some.injEq, Prod.mk.injEq] at h
        obtain ⟨-, hg⟩ := h
        rw [← hg]
        simp only
        generalize hg0 : ({ g with tmp_edge_weight := w } : DLGraph) = g0
        have t0 : g0.sAdj = g.sAdj ∧ g0.sEdges = g.sEdges ∧ g0.Ecnt = g.Ecnt := by
          subst hg0
          exact ⟨rfl, rfl, rfl⟩
        obtain ⟨a1, a2, a3⟩ := hv g0 x
        obtain ⟨b1, b2, b3⟩ := hv (getDLVertex g0 x).2 y
        exact ⟨(b1.trans a1).trans t0.1, (b2.trans a2).trans t0.2.1, (b3.trans a3).trans t0.2.2⟩

/-- C34: the effect of `insertStatic`.  A call `insertStatic( c )` on an atom
without an entry that returns leaves the pair `(pos, neg)` of the atom in
`edgeMap`; `Vcnt` is the number of vertices; row `k` of `sAdj` is the row of the
table resized to `Vcnt` rows (which below `Vcnt` is the row before the call)
with pos appended in the row of `pos.u` and then neg in the row of `neg.u`;
`sEdges` has pos and neg appended; `Ecnt` is 2 more than before and equals the
size of `sEdges`; and with `theory_propagation > 0` pos and neg are appended to
their rows of `hAdj` (at `pos.u`, `neg.u`) and of `hAdjInc` (at `pos.v`,
`neg.v`), while otherwise the rows of `hAdj` and `hAdjInc` are those of the
resized tables, with no edge added. -/
theorem insertStatic_effect (cfg : Config) (A : AtomStore) (g g1 : DLGraph) (c : Enode)
    (hn : findEdges g.edgeMap c = none) (h : insertStatic cfg A g c = some g1) :
    ∃ p, findEdges g1.edgeMap c = some p ∧ g1.Vcnt = g1.vertexMap.length ∧
      p.pos.u < g1.Vcnt ∧ p.neg.u < g1.Vcnt ∧
      (∀ k, k < g1.Vcnt → (resize g.sAdj g1.Vcnt []).getD k [] = g.sAdj.getD k [] ∧
        (resize g.hAdj g1.Vcnt []).getD k [] = g.hAdj.getD k [] ∧
        (resize g.hAdjInc g1.Vcnt []).getD k [] = g.hAdjInc.getD k []) ∧
      (∀ k, g1.sAdj.getD k [] =
        appendedRow (resize g.sAdj g1.Vcnt []) p.pos.u p.neg.u p.pos p.neg k) ∧
      g1.sEdges = g.sEdges ++ [p.pos, p.neg] ∧ g1.Ecnt = g.Ecnt + 2 ∧
      g1.sEdges.length = g1.Ecnt ∧
      (∀ k, g1.hAdj.getD k [] =
        if cfg.dlconfig.theory_propagation > 0 then
          appendedRow (resize g.hAdj g1.Vcnt []) p.pos.u p.neg.u p.pos p.neg k
        else (resize g.hAdj g1.Vcnt []).getD k []) ∧
      (∀ k, g1.hAdjInc.getD k [] =
        if cfg.dlconfig.theory_propagation > 0 then
          appendedRow (resize g.hAdjInc g1.Vcnt []) p.pos.v p.neg.v p.pos p.neg k
        else (resize g.hAdjInc g1.Vcnt []).getD k []) := by
  obtain ⟨p0, hf0, hv0, -, -, -, -, -, -, u1, u2, hlen0, -⟩ := insertStatic_state cfg A g g1 c h
  obtain ⟨p, l, g2, hg2, -, e1, -, -, -, -, -, -, -, -, -, -, -, -, r1, r2⟩ :=
    insertStatic_store cfg A g g1 c hn h
  have hp0 : p0 = p := by
    rw [e1, findEdges_append_of_none _ _ _ hn, findEdges_singleton] at hf0
    simp only [Option.some.injEq] at hf0
    exact hf0.symm
  subst hp0
  obtain ⟨q, g3, s1, s2, g4, hg3, hs1, hs2, hg4, -, hcase⟩ := insertStatic_spec cfg A g g1 c h
  rw [hg2] at hg3
  simp only [Option.some.injEq, Prod.mk.injEq] at hg3
  obtain ⟨hq, hg23⟩ := hg3
  subst hq
  subst hg23
  obtain ⟨t1, t2, t3⟩ := getDLEdge_static cfg A g c p0 g2 hg2
  have f1 : g4.sAdj = s2 := by rw [hg4]
  have f2 : g4.sEdges = g2.sEdges ++ [p0.pos, p0.neg] := by rw [hg4]
  have f3 : g4.Ecnt = g2.Ecnt + 2 := by rw [hg4]
  have f4 : g4.vertexMap = g2.vertexMap := by rw [hg4]
  clear hg4
  have hsame : g1.sAdj = g4.sAdj ∧ g1.sEdges = g4.sEdges ∧ g1.Ecnt = g4.Ecnt ∧
      g1.vertexMap = g4.vertexMap := by
    rcases hcase with ⟨-, hins⟩ | ⟨-, hg1⟩
    · obtain ⟨_, _, _, _, _, _, _, _, hgeq⟩ := insertInactive_spec g4 g1 c hins
      have k1 := congrArg DLGraph.sAdj hgeq
      have k2 := congrArg DLGraph.sEdges hgeq
      have k3 := congrArg DLGraph.Ecnt hgeq
      have k4 := congrArg DLGraph.vertexMap hgeq
      exact ⟨k1, k2, k3, k4⟩
    · rw [hg1]
      exact ⟨rfl, rfl, rfl, rfl⟩
  obtain ⟨k1, k2, k3, k4⟩ := hsame
  have hV : g1.Vcnt = g1.vertexMap.length := hv0.symm
  have hV2 : g2.vertexMap.length = g1.Vcnt := by rw [hV, k4, f4]
  refine ⟨p0, hf0, hV, u1, u2, ?_, ?_, ?_, ?_, hlen0, ?_, ?_⟩
  · intro k hk
    exact ⟨resize_getD_lt _ _ _ hk, resize_getD_lt _ _ _ hk, resize_getD_lt _ _ _ hk⟩
  · intro k
    rw [k1, f1, modifyAt_twice_getD _ _ _ _ _ _ _ hs1 hs2 k, t1, hV2]
    unfold appendedRow
    by_cases hj : k = p0.neg.u <;> by_cases hi : k = p0.pos.u <;>
      simp only [hj, hi, if_true, if_false]
  · rw [k2, f2, t2]
  · rw [k3, f3, t3]
  · intro k
    rw [hV]
    exact r1 k
  · intro k
    rw [hV]
    exact r2 k

theorem insertStatic_effect_witness :
    findEdges DLGraph.empty.edgeMap exAtom1 = none ∧
    insertStatic exCfg exNoPol DLGraph.empty exAtom1 = some exGraph1 ∧
    ∃ p, findEdges exGraph1.edgeMap exAtom1 = some p ∧
      exGraph1.Vcnt = exGraph1.vertexMap.length ∧
      p.pos.u < exGraph1.Vcnt ∧ p.neg.u < exGraph1.Vcnt ∧
      (∀ k, k < exGraph1.Vcnt →
        (resize DLGraph.empty.sAdj exGraph1.Vcnt []).getD k [] = DLGraph.empty.sAdj.getD k [] ∧
        (resize DLGraph.empty.hAdj exGraph1.Vcnt []).getD k [] = DLGraph.empty.hAdj.getD k [] ∧
        (resize DLGraph.empty.hAdjInc exGraph1.Vcnt []).getD k [] =
          DLGraph.empty.hAdjInc.getD k []) ∧
      (∀ k, exGraph1.sAdj.getD k [] =
        appendedRow (resize DLGraph.empty.sAdj exGraph1.Vcnt []) p.pos.u p.neg.u p.pos p.neg k) ∧
      exGraph1.sEdges = DLGraph.empty.sEdges ++ [p.pos, p.neg] ∧
      exGraph1.Ecnt = DLGraph.empty.Ecnt + 2 ∧
      exGraph1.sEdges.length = exGraph1.Ecnt ∧
      (∀ k, exGraph1.hAdj.getD k [] =
        if exCfg.dlconfig.theory_propagation > 0 then
          appendedRow (resize DLGraph.empty.hAdj exGraph1.Vcnt []) p.pos.u p.neg.u p.pos p.neg k
        else (resize DLGraph.empty.hAdj exGraph1.Vcnt []).getD k []) ∧
      (∀ k, exGraph1.hAdjInc.getD k [] =
        if exCfg.dlconfig.theory_propagation > 0 then
          appendedRow (resize DLGraph.empty.hAdjInc exGraph1.Vcnt []) p.pos.v p.neg.v p.pos
            p.neg k
        else (resize DLGraph.empty.hAdjInc exGraph1.Vcnt []).getD k []) :=
  ⟨by rfl, by rfl,
    insertStatic_effect exCfg exNoPol DLGraph.empty exGraph1 exAtom1 (by rfl) (by rfl)⟩

/-! ## The mirror of the active views -/

theorem sum_indicator (a : Nat) :
    ∀ n : Nat, ((List.range n).map (fun i => if a = i then 1 else 0)).sum =
      if a < n then 1 else 0 := by
  intro n
  induction n with
  | zero => rfl
  | succ n ih =>
    rw [List.range_succ, List.map_append, List.sum_append, ih]
    simp only [List.map_cons, List.map_nil, List.sum_cons, List.sum_nil, Nat.add_zero]
    by_cases h1 : a < n
    · rw [if_pos h1, if_neg (by omega), if_pos (by omega)]
    · rw [if_neg h1]
      by_cases h2 : a = n
      · rw [if_pos h2, if_pos (by omega)]
      · rw [if_neg h2, if_neg (by omega)]

/-- The rows of a list split by a key below `n` have its elements between
them: the lengths of the rows add up to the length of the list. -/
theorem sum_rows_length (f : DLEdge → Nat) (n : Nat) :
    ∀ l : List DLEdge, (∀ e ∈ l, f e < n) →
      ((List.range n).map (fun i => (l.filter (fun e => decide (f e = i))).length)).sum =
        l.length := by
  intro l
  induction l with
  | nil =>
    intro _
    simp
  | cons e rest ih =>
    intro hl
    have hrest := ih (fun x hx => hl x (List.mem_cons_of_mem _ hx))
    have he : f e < n := hl e (List.mem_cons_self _ _)
    have hrow : ∀ i, ((e :: rest).filter (fun x => decide (f x = i))).length =
        (rest.filter (fun x => decide (f x = i))).length + (if f e = i then 1 else 0) := by
      intro i
      by_cases hi : f e = i
      · rw [List.filter_cons_of_pos (by simp [hi]), if_pos hi, List.length_cons]
      · rw [List.filter_cons_of_neg (by simp [hi]), if_neg hi, Nat.add_zero]
    have hfun : (fun i => ((e :: rest).filter (fun x => decide (f x = i))).length) =
        fun i => (rest.filter (fun x => decide (f x = i))).length +
          (if f e = i then 1 else 0) := funext hrow
    rw [hfun, List.sum_map_add, hrest, sum_indicator, if_pos he, List.length_cons]

/-- A table whose row `i` is the list filtered by the key `i`, for every row
of the table, has the lengths of the rows of the split. -/
theorem rows_lengths (f : DLEdge → Nat) (t : List AdjList) (l : List DLEdge)
    (hrows : ∀ i, i < t.length → t[i]? = some (l.filter (fun e => decide (f e = i)))) :
    t.map List.length =
      (List.range t.length).map (fun i => (l.filter (fun e => decide (f e = i))).length) := by
  apply List.ext_getElem?
  intro i
  rw [List.getElem?_map, List.getElem?_map]
  by_cases hi : i < t.length
  · rw [hrows i hi, List.getElem?_range hi]
    rfl
  · rw [List.getElem?_eq_none (Nat.le_of_not_lt hi),
      List.getElem?_eq_none (by rw [List.length_range]; exact Nat.le_of_not_lt hi)]
    rfl

/-- C36: the mirror of the active views.  In every state that the operations
reach under the LIFO discipline, an edge `e` occurs in `dAdj[ e.u ]` as many
times as in `dAdjInc[ e.v ]` and as in `dEdges`; every edge in row `i` of
`dAdj` has `u = i` and every edge in row `i` of `dAdjInc` has `v = i`; and the
size of `dEdges` is the sum of the lengths of the rows of `dAdj`, and of the
rows of `dAdjInc`. -/
theorem reach_mirror (cfg : Config) (st : List (Enode × lbool)) (g : DLGraph)
    (hr : Reach cfg st g) :
    (∀ e : DLEdge, rowCount g.dAdj e.u e = g.dEdges.count e ∧
      rowCount g.dAdjInc e.v e = g.dEdges.count e) ∧
    (∀ (i : Nat) (x : DLEdge), x ∈ g.dAdj.getD i [] → x.u = i) ∧
    (∀ (i : Nat) (x : DLEdge), x ∈ g.dAdjInc.getD i [] → x.v = i) ∧
    g.dEdges.length = (g.dAdj.map List.length).sum ∧
    g.dEdges.length = (g.dAdjInc.map List.length).sum := by
  have hs := reach_storeInv cfg st g hr
  refine ⟨?_, ?_, ?_, ?_, ?_⟩
  · intro e
    constructor
    · rw [hs.rowCount_dAdj e e.u, if_pos rfl]
    · rw [hs.rowCount_dAdjInc e e.v, if_pos rfl]
  · intro i x hx
    exact (hs.adj_edges .DL_sssp_forward i x hx).2.1
  · intro i x hx
    exact (hs.adj_edges .DL_sssp_backward i x hx).2.1
  · rw [rows_lengths (fun e => e.u) g.dAdj g.dEdges hs.rows, hs.len_d]
    exact (sum_rows_length (fun e => e.u) _ g.dEdges (fun e he => (hs.dbound e he).1)).symm
  · rw [rows_lengths (fun e => e.v) g.dAdjInc g.dEdges hs.rows_in, hs.len_di]
    exact (sum_rows_length (fun e => e.v) _ g.dEdges (fun e he => (hs.dbound e he).2)).symm

theorem reach_mirror_witness :
    Reach exCfg [(exAtom1, getPolarity exAllTrue exAtom1)] exOneEdge ∧
    (∀ e : DLEdge, rowCount exOneEdge.dAdj e.u e = exOneEdge.dEdges.count e ∧
      rowCount exOneEdge.dAdjInc e.v e = exOneEdge.dEdges.count e) ∧
    (∀ (i : Nat) (x : DLEdge), x ∈ exOneEdge.dAdj.getD i [] → x.u = i) ∧
    (∀ (i : Nat) (x : DLEdge), x ∈ exOneEdge.dAdjInc.getD i [] → x.v = i) ∧
    exOneEdge.dEdges.length = (exOneEdge.dAdj.map List.length).sum ∧
    exOneEdge.dEdges.length = (exOneEdge.dAdjInc.map List.length).sum :=
  ⟨exOneEdge_ready.1, reach_mirror exCfg _ exOneEdge exOneEdge_ready.1⟩

/-! ## The filter of the scan of the inactive edges -/

/-- C32: the filter of the scan.  In a state reached through the interface,
every call `addIfHeavy( rpath_wt, x, e )` of a returning `iterateInactive( e )`,
in whichever branch it is made, has an edge `x: a -> b` of the inactive views
whose atom has no polarity and is not deduced, whose source `a` is
backward-relevant (`dy_relevant` with a valid stamp) and whose target `b` is
forward-relevant (`dx_relevant` with a valid stamp), and the value is
`a.dy + b.dx - e.rwt`; the same holds of the calls of each of the two branches
taken alone. -/
theorem iterateInactive_filter (cfg : Config) (st : List (Enode × lbool)) (g : DLGraph)
    (A : AtomStore) (s : SPState) (e : DLEdge) (hr : Reach cfg st g) :
    ∀ (calls : List (Int × DLEdge)) (rpath_wt : Int) (x : DLEdge),
      (iterateInactive A g s e = some calls ∨
        iterateOut A g s e s.dy_relevant_vertices = some calls ∨
        iterateIn A g s e s.dx_relevant_vertices = some calls) →
      (rpath_wt, x) ∈ calls →
      (x ∈ g.hAdj.getD x.u [] ∨ x ∈ g.hAdjInc.getD x.v []) ∧
        hasPolarity A x.c = false ∧ isDeduced A x.c = false ∧
        isDyRelValid s x.u = true ∧ s.dy_relevant x.u = true ∧
        isDxRelValid s x.v = true ∧ s.dx_relevant x.v = true ∧
        rpath_wt = s.dy x.u + s.dx x.v - s.rwt e := by
  have hpl := reach_hPlaced cfg st g hr
  have hout : ∀ (calls : List (Int × DLEdge)) (r : Int) (x : DLEdge),
      iterateOut A g s e s.dy_relevant_vertices = some calls → (r, x) ∈ calls →
      (x ∈ g.hAdj.getD x.u [] ∨ x ∈ g.hAdjInc.getD x.v []) ∧
        hasPolarity A x.c = false ∧ isDeduced A x.c = false ∧
        isDyRelValid s x.u = true ∧ s.dy_relevant x.u = true ∧
        isDxRelValid s x.v = true ∧ s.dx_relevant x.v = true ∧
        r = s.dy x.u + s.dx x.v - s.rwt e := by
    intro calls r x hc hx
    obtain ⟨it, h1, h2, hmem, hpol, hded, h5, h6, hval⟩ :=
      iterateOut_mem A g s e _ calls hc r x hx
    have hxu : x.u = it := (hpl it x).1 hmem
    rw [← hxu] at h1 h2 hmem hval
    exact ⟨Or.inl hmem, hpol, hded, h1, h2, h5, h6, hval⟩
  have hin : ∀ (calls : List (Int × DLEdge)) (r : Int) (x : DLEdge),
      iterateIn A g s e s.dx_relevant_vertices = some calls → (r, x) ∈ calls →
      (x ∈ g.hAdj.getD x.u [] ∨ x ∈ g.hAdjInc.getD x.v []) ∧
        hasPolarity A x.c = false ∧ isDeduced A x.c = false ∧
        isDyRelValid s x.u = true ∧ s.dy_relevant x.u = true ∧
        isDxRelValid s x.v = true ∧ s.dx_relevant x.v = true ∧
        r = s.dy x.u + s.dx x.v - s.rwt e := by
    intro calls r x hc hx
    obtain ⟨it, h1, h2, hmem, hpol, hded, h5, h6, hval⟩ :=
      iterateIn_mem A g s e _ calls hc r x hx
    have hxv : x.v = it := (hpl it x).2 hmem
    rw [← hxv] at h1 h2 hmem hval
    exact ⟨Or.inr hmem, hpol, hded, h5, h6, h1, h2, hval⟩
  intro calls r x hc hx
  rcases hc with hc | hc | hc
  · unfold iterateInactive at hc
    split at hc
    · exact hout calls r x hc hx
    · exact hin calls r x hc hx
  · exact hout calls r x hc hx
  · exact hin calls r x hc hx

/-- The example graph is reached through the interface, and its active edges
are feasible. -/
theorem exSideGraph_ready :
    Reach exCfg
      [(exAtom1, getPolarity exOnly12 exAtom1), (exAtom2, getPolarity exOnly12 exAtom2)]
      exSideGraph ∧ AllFeasible exSideGraph := by
  have r1 : Reach exCfg [] (exStatic [exAtom1]) :=
    Reach.static exNoPol exAtom1 Reach.init rfl (by rfl)
  have r2 : Reach exCfg [] (exStatic [exAtom1, exAtom2]) :=
    Reach.static exNoPol exAtom2 r1 (by decide) (by rfl)
  have r3 : Reach exCfg [] (exStatic [exAtom1, exAtom2, exAtomB]) :=
    Reach.static exNoPol exAtomB r2 (by decide) (by rfl)
  have r4 : Reach exCfg [] (exStatic [exAtom1, exAtom2, exAtomB, exAtomA]) :=
    Reach.static exNoPol exAtomA r3 (by decide) (by rfl)
  have c1 : Reach exCfg [(exAtom2, getPolarity exOnly12 exAtom2)]
      (exCheck exOnly12 (exStatic [exAtom1, exAtom2, exAtomB, exAtomA]) exAtom2) :=
    Reach.check exOnly12 exAtom2 false 2 true r4 (by decide) (by rfl)
  have c2 : Reach exCfg
      [(exAtom1, getPolarity exOnly12 exAtom1), (exAtom2, getPolarity exOnly12 exAtom2)]
      exSideGraph :=
    Reach.check exOnly12 exAtom1 false 2 true c1 (by decide) (by rfl)
  exact ⟨c2, by decide⟩

theorem iterateInactive_filter_witness :
    Reach exCfg
      [(exAtom1, getPolarity exOnly12 exAtom1), (exAtom2, getPolarity exOnly12 exAtom2)]
      exSideGraph ∧
    iterateInactive exOnly12 exSideGraph exSideDone ⟨exAtom1, 0, 0, 1, 3⟩ =
      some [(3, ⟨exAtomB, 4, 0, 2, 1⟩), (3, ⟨exAtomA, 6, 0, 1, 5⟩)] ∧
    ((⟨exAtomB, 4, 0, 2, 1⟩ : DLEdge) ∈ exSideGraph.hAdj.getD 0 [] ∨
        (⟨exAtomB, 4, 0, 2, 1⟩ : DLEdge) ∈ exSideGraph.hAdjInc.getD 2 []) ∧
      hasPolarity exOnly12 exAtomB = false ∧ isDeduced exOnly12 exAtomB = false ∧
      isDyRelValid exSideDone 0 = true ∧ exSideDone.dy_relevant 0 = true ∧
      isDxRelValid exSideDone 2 = true ∧ exSideDone.dx_relevant 2 = true ∧
      (3 : Int) = exSideDone.dy 0 + exSideDone.dx 2 - exSideDone.rwt ⟨exAtom1, 0, 0, 1, 3⟩ :=
  ⟨exSideGraph_ready.1, by rfl,
    iterateInactive_filter exCfg _ exSideGraph exOnly12 exSideDone ⟨exAtom1, 0, 0, 1, 3⟩
      exSideGraph_ready.1 [(3, ⟨exAtomB, 4, 0, 2, 1⟩), (3, ⟨exAtomA, 6, 0, 1, 5⟩)] 3
      ⟨exAtomB, 4, 0, 2, 1⟩ (Or.inl (by rfl))
      (List.mem_cons_self _ _)⟩

/-! ## The side that the scan of the inactive edges iterates -/

/-- A pass keeps the total of its direction the number of its relevant
vertices. -/
theorem frame_totalOk (g : DLGraph) (d : DL_sssp_direction) :
    Frame g d (fun s s' => TotalOk d s → TotalOk d s') where
  same := fun _ h => h
  next := fun _ _ _ h1 h2 h => h2 (h1 h)
  setDist := fun s v x h => by cases d <;> exact h
  readDist := fun s v h => h
  finalDist := fun s v h => h
  setRelevancy := fun s v b h => by cases d <;> exact h
  updateRel := fun s v h => by cases d <;> exact h
  setDistFrom := fun s v k h => by cases d <;> exact h
  setPq := fun s l h => by cases d <;> exact h
  newRwt := fun s e r _ h => h
  tree := fun s e s' hs h => by
    unfold updateSPT at hs
    cases d with
    | DL_sssp_forward =>
      simp only at hs
      split at hs
      · cases hs
      · simp only [Option.some.injEq] at hs
        rw [← hs]
        split <;> exact h
    | DL_sssp_backward =>
      simp only at hs
      split at hs
      · cases hs
      · simp only [Option.some.injEq] at hs
        rw [← hs]
        split <;> exact h
  relevant := fun s u h => by
    cases d with
    | DL_sssp_forward =>
      have h1 : s.total_in_deg_dx_rel = s.dx_relevant_vertices.length := h
      show s.total_in_deg_dx_rel + 1 = (s.dx_relevant_vertices ++ [u]).length
      rw [List.length_append, h1]
      rfl
    | DL_sssp_backward =>
      have h1 : s.total_out_deg_dy_rel = s.dy_relevant_vertices.length := h
      show s.total_out_deg_dy_rel + 1 = (s.dy_relevant_vertices ++ [u]).length
      rw [List.length_append, h1]
      rfl
  adjSize := fun s n h => h
  initDist := fun s h => h
  initFinalDist := fun s h => h

/-- The calls of the first branch are the calls of the scans of the rows of
`hAdj` of the listed vertices, in the order of the list. -/
theorem iterateOut_eq (A : AtomStore) (g : DLGraph) (s : SPState) (e : DLEdge) :
    ∀ (vs : List Nat) (calls : List (Int × DLEdge)), iterateOut A g s e vs = some calls →
      calls = vs.flatMap (fun it => scanInactiveOut A s e it (g.hAdj.getD it [])) := by
  intro vs
  induction vs with
  | nil =>
    intro calls h
    unfold iterateOut at h
    simp only [Option.some.injEq] at h
    rw [← h]
    rfl
  | cons it rest ih =>
    intro calls h
    unfold iterateOut at h
    split at h
    · split at h
      · cases h
      · rename_i adj hadj
        cases hrest : iterateOut A g s e rest with
        | none =>
          rw [hrest] at h
          cases h
        | some l =>
          rw [hrest] at h
          simp only [Option.map_some', Option.some.injEq] at h
          rw [← h, ih l hrest, List.flatMap_cons, List.getD_eq_getElem?_getD, hadj]
          rfl
    · cases h

/-- The calls of the second branch are the calls of the scans of the rows of
`hAdjInc` of the listed vertices, in the order of the list. -/
theorem iterateIn_eq (A : AtomStore) (g : DLGraph) (s : SPState) (e : DLEdge) :
    ∀ (vs : List Nat) (calls : List (Int × DLEdge)), iterateIn A g s e vs = some calls →
      calls = vs.flatMap (fun it => scanInactiveIn A s e it (g.hAdjInc.getD it [])) := by
  intro vs
  induction vs with
  | nil =>
    intro calls h
    unfold iterateIn at h
    simp only [Option.some.injEq] at h
    rw [← h]
    rfl
  | cons it rest ih =>
    intro calls h
    unfold iterateIn at h
    split at h
    · split at h
      · split at h
        · cases h
        · rename_i adj hadj
          cases hrest : iterateIn A g s e rest with
          | none =>
            rw [hrest] at h
            cases h
          | some l =>
            rw [hrest] at h
            simp only [Option.map_some', Option.some.injEq] at h
            rw [← h, ih l hrest, List.flatMap_cons, List.getD_eq_getElem?_getD, hadj]
            rfl
      · cases h
    · cases h

/-- Clearing the trees changes no call of the first branch. -/
theorem iterateOut_clearSPTs (A : AtomStore) (g : DLGraph) (s : SPState) (e : DLEdge) :
    ∀ vs : List Nat, iterateOut A g (clearSPTs s) e vs = iterateOut A g s e vs := by
  intro vs
  induction vs with
  | nil => rfl
  | cons it rest ih =>
    show (if isDyRelValid s it && s.dy_relevant it then
        match g.hAdj[it]? with
        | none => none
        | some adj_list =>
          (iterateOut A g (clearSPTs s) e rest).map
            (fun l => scanInactiveOut A s e it adj_list ++ l)
      else none) = iterateOut A g s e (it :: rest)
    rw [ih]
    rfl

/-- Clearing the trees changes no call of the second branch. -/
theorem iterateIn_clearSPTs (A : AtomStore) (g : DLGraph) (s : SPState) (e : DLEdge) :
    ∀ vs : List Nat, iterateIn A g (clearSPTs s) e vs = iterateIn A g s e vs := by
  intro vs
  induction vs with
  | nil => rfl
  | cons it rest ih =>
    show (if isDxRelValid s it then
        if s.dx_relevant it then
          match g.hAdjInc[it]? with
          | none => none
          | some adj_list =>
            (iterateIn A g (clearSPTs s) e rest).map
              (fun l => scanInactiveIn A s e it adj_list ++ l)
        else none
      else none) = iterateIn A g s e (it :: rest)
    rw [ih]
    rfl

/-- Clearing the trees changes no call of `iterateInactive`. -/
theorem iterateInactive_clearSPTs (A : AtomStore) (g : DLGraph) (s : SPState) (e : DLEdge) :
    iterateInactive A g (clearSPTs s) e = iterateInactive A g s e := by
  unfold iterateInactive
  rw [iterateOut_clearSPTs, iterateIn_clearSPTs]
  rfl

/-- C31: the side of the scan.  In a call of `findHeavyEdges` that returns,
for an atom whose edge `e` has no parallel edge of smaller or equal weight, the
totals that `iterateInactive` compares are the sizes of the two lists of
relevant vertices, `total_out_deg_dy_rel` that of `dy_relevant_vertices` and
`total_in_deg_dx_rel` that of `dx_relevant_vertices`; so `iterateInactive`
iterates the smaller list: when `dy_relevant_vertices` has fewer vertices than
`dx_relevant_vertices` its calls are those of the scan of the rows of `hAdj`
of `dy_relevant_vertices`, in the order of the list, and otherwise those of
the scan of the rows of `hAdjInc` of `dx_relevant_vertices`. -/
theorem iterateInactive_side (LAZY_GENERATION : Int) (cfg : Config) (A : AtomStore)
    (g : DLGraph) (s : SPState) (c : Enode) (fuel : Nat) (p : DLComplEdges) (g' : DLGraph)
    (s' : SPState) (calls : List (Int × DLEdge)) (hp : findEdges g.edgeMap c = some p)
    (hpar : isParallelAndHeavy g (selectEdge A c p) = false)
    (h : findHeavyEdges LAZY_GENERATION cfg A g s c fuel = some (g', s', calls)) :
    s'.total_out_deg_dy_rel = s'.dy_relevant_vertices.length ∧
      s'.total_in_deg_dx_rel = s'.dx_relevant_vertices.length ∧
      iterateInactive A g s' (selectEdge A c p) = some calls ∧
      (s'.dy_relevant_vertices.length < s'.dx_relevant_vertices.length →
        calls = s'.dy_relevant_vertices.flatMap
          (fun it => scanInactiveOut A s' (selectEdge A c p) it (g.hAdj.getD it []))) ∧
      (¬ s'.dy_relevant_vertices.length < s'.dx_relevant_vertices.length →
        calls = s'.dx_relevant_vertices.flatMap
          (fun it => scanInactiveIn A s' (selectEdge A c p) it (g.hAdjInc.getD it []))) := by
  obtain ⟨-, s2, s3, s4, -, h3, h4, hcalls, hs'⟩ :=
    findHeavyEdges_run LAZY_GENERATION cfg A g s c fuel p g' s' calls hp hpar h
  have t3 : TotalOk .DL_sssp_forward s3 :=
    findSSSP_frame LAZY_GENERATION g .DL_sssp_forward _ (frame_totalOk g .DL_sssp_forward) _ s3
      _ fuel h3 rfl
  have t4 : TotalOk .DL_sssp_backward s4 :=
    findSSSP_frame LAZY_GENERATION g .DL_sssp_backward _ (frame_totalOk g .DL_sssp_backward) _
      s4 _ fuel h4 rfl
  have hside := findSSSP_frame LAZY_GENERATION g .DL_sssp_backward _
    (frame_sameSide g .DL_sssp_backward) _ s4 _ fuel h4
  have hv : s4.dx_relevant_vertices = s3.dx_relevant_vertices := hside.vertices
  have ht : s4.total_in_deg_dx_rel = s3.total_in_deg_dx_rel := hside.total
  have e1 : s'.total_out_deg_dy_rel = s4.total_out_deg_dy_rel := by rw [hs']; rfl
  have e2 : s'.total_in_deg_dx_rel = s4.total_in_deg_dx_rel := by rw [hs']; rfl
  have e3 : s'.dy_relevant_vertices = s4.dy_relevant_vertices := by rw [hs']; rfl
  have e4 : s'.dx_relevant_vertices = s4.dx_relevant_vertices := by rw [hs']; rfl
  have hcalls' : iterateInactive A g s' (selectEdge A c p) = some calls := by
    rw [hs', iterateInactive_clearSPTs]
    exact hcalls
  have k1 : s'.total_out_deg_dy_rel = s'.dy_relevant_vertices.length := by
    rw [e1, e3]
    exact t4
  have k2 : s'.total_in_deg_dx_rel = s'.dx_relevant_vertices.length := by
    rw [e2, e4, ht, hv]
    exact t3
  refine ⟨k1, k2, hcalls', ?_, ?_⟩
  · intro hlt
    rw [← k1, ← k2] at hlt
    unfold iterateInactive at hcalls'
    rw [if_pos hlt] at hcalls'
    exact iterateOut_eq A g s' _ _ calls hcalls'
  · intro hlt
    rw [← k1, ← k2] at hlt
    unfold iterateInactive at hcalls'
    rw [if_neg hlt] at hcalls'
    exact iterateIn_eq A g s' _ _ calls hcalls'

theorem iterateInactive_side_witness :
    findEdges exSideGraph.edgeMap exAtom1 =
      some ⟨⟨exAtom1, 0, 0, 1, 3⟩, ⟨exAtom1, 1, 1, 0, -4⟩⟩ ∧
    isParallelAndHeavy exSideGraph
      (selectEdge exOnly12 exAtom1 ⟨⟨exAtom1, 0, 0, 1, 3⟩, ⟨exAtom1, 1, 1, 0, -4⟩⟩) = false ∧
    findHeavyEdges 0 exCfg exOnly12 exSideGraph SPState.empty exAtom1 4 =
      some (exSideGraph, exSideDone,
        [(3, ⟨exAtomB, 4, 0, 2, 1⟩), (3, ⟨exAtomA, 6, 0, 1, 5⟩)]) ∧
    exSideDone.dy_relevant_vertices = [0] ∧ exSideDone.dx_relevant_vertices = [1, 2] ∧
    iterateOut exOnly12 exSideGraph exSideDone ⟨exAtom1, 0, 0, 1, 3⟩
        exSideDone.dy_relevant_vertices =
      some [(3, ⟨exAtomB, 4, 0, 2, 1⟩), (3, ⟨exAtomA, 6, 0, 1, 5⟩)] ∧
    iterateIn exOnly12 exSideGraph exSideDone ⟨exAtom1, 0, 0, 1, 3⟩
        exSideDone.dx_relevant_vertices =
      some [(3, ⟨exAtomA, 6, 0, 1, 5⟩), (3, ⟨exAtomB, 4, 0, 2, 1⟩)] ∧
    exSideDone.total_out_deg_dy_rel = exSideDone.dy_relevant_vertices.length ∧
      exSideDone.total_in_deg_dx_rel = exSideDone.dx_relevant_vertices.length ∧
      iterateInactive exOnly12 exSideGraph exSideDone
          (selectEdge exOnly12 exAtom1 ⟨⟨exAtom1, 0, 0, 1, 3⟩, ⟨exAtom1, 1, 1, 0, -4⟩⟩) =
        some [(3, ⟨exAtomB, 4, 0, 2, 1⟩), (3, ⟨exAtomA, 6, 0, 1, 5⟩)] ∧
      (exSideDone.dy_relevant_vertices.length < exSideDone.dx_relevant_vertices.length →
        [(3, ⟨exAtomB, 4, 0, 2, 1⟩), (3, ⟨exAtomA, 6, 0, 1, 5⟩)] =
          exSideDone.dy_relevant_vertices.flatMap
            (fun it => scanInactiveOut exOnly12 exSideDone
              (selectEdge exOnly12 exAtom1 ⟨⟨exAtom1, 0, 0, 1, 3⟩, ⟨exAtom1, 1, 1, 0, -4⟩⟩) it
              (exSideGraph.hAdj.getD it []))) ∧
      (¬ exSideDone.dy_relevant_vertices.length < exSideDone.dx_relevant_vertices.length →
        [(3, ⟨exAtomB, 4, 0, 2, 1⟩), (3, ⟨exAtomA, 6, 0, 1, 5⟩)] =
          exSideDone.dx_relevant_vertices.flatMap
            (fun it => scanInactiveIn exOnly12 exSideDone
              (selectEdge exOnly12 exAtom1 ⟨⟨exAtom1, 0, 0, 1, 3⟩, ⟨exAtom1, 1, 1, 0, -4⟩⟩) it
              (exSideGraph.hAdjInc.getD it []))) :=
  ⟨by rfl, by rfl, by rfl, by rfl, by rfl, by rfl, by rfl,
    iterateInactive_side 0 exCfg exOnly12 exSideGraph SPState.empty exAtom1 4
      ⟨⟨exAtom1, 0, 0, 1, 3⟩, ⟨exAtom1, 1, 1, 0, -4⟩⟩ exSideGraph exSideDone
      [(3, ⟨exAtomB, 4, 0, 2, 1⟩), (3, ⟨exAtomA, 6, 0, 1, 5⟩)] (by rfl) (by rfl) (by rfl)⟩

/-! ## The two branches of `iterateInactive` -/

/-- Rows that lose the two edges of a pair, each from the row of its end in
either view, keep the two views mirrored. -/
theorem HMirror.erase {g g' : DLGraph} (h : HMirror g) (p : DLComplEdges)
    (r1 : ∀ k, g'.hAdj.getD k [] = erasedRow g.hAdj p.pos.u p.neg.u p.pos p.neg k)
    (r2 : ∀ k, g'.hAdjInc.getD k [] = erasedRow g.hAdjInc p.pos.v p.neg.v p.pos p.neg k) :
    HMirror g' := by
  intro x
  have hx := h x
  unfold rowCount at hx ⊢
  rw [r1, r2, count_erasedRow, count_erasedRow, hx]
  have e1 : (x.u = p.pos.u ∧ x = p.pos) ↔ (x.v = p.pos.v ∧ x = p.pos) :=
    ⟨fun hh => ⟨by rw [hh.2], hh.2⟩, fun hh => ⟨by rw [hh.2], hh.2⟩⟩
  have e2 : (x.u = p.neg.u ∧ x = p.neg) ↔ (x.v = p.neg.v ∧ x = p.neg) :=
    ⟨fun hh => ⟨by rw [hh.2], hh.2⟩, fun hh => ⟨by rw [hh.2], hh.2⟩⟩
  simp only [e1, e2]

/-- Rows that gain the two edges of a pair, each in the row of its end in
either view, keep the two views mirrored. -/
theorem hMirror_append {g' : DLGraph} (t1 t2 : List AdjList)
    (h : ∀ x : DLEdge, rowCount t1 x.u x = rowCount t2 x.v x) (p : DLComplEdges)
    (r1 : ∀ k, g'.hAdj.getD k [] = appendedRow t1 p.pos.u p.neg.u p.pos p.neg k)
    (r2 : ∀ k, g'.hAdjInc.getD k [] = appendedRow t2 p.pos.v p.neg.v p.pos p.neg k) :
    HMirror g' := by
  intro x
  have hx := h x
  unfold rowCount at hx ⊢
  rw [r1, r2, count_appendedRow, count_appendedRow, hx]
  have e1 : (x.u = p.pos.u ∧ x = p.pos) ↔ (x.v = p.pos.v ∧ x = p.pos) :=
    ⟨fun hh => ⟨by rw [hh.2], hh.2⟩, fun hh => ⟨by rw [hh.2], hh.2⟩⟩
  have e2 : (x.u = p.neg.u ∧ x = p.neg) ↔ (x.v = p.neg.v ∧ x = p.neg) :=
    ⟨fun hh => ⟨by rw [hh.2], hh.2⟩, fun hh => ⟨by rw [hh.2], hh.2⟩⟩
  simp only [e1, e2]

/-- Rows that stay as they are keep the two views mirrored. -/
theorem HMirror.rows_same {g g' : DLGraph} (h : HMirror g)
    (r1 : ∀ k, g'.hAdj.getD k [] = g.hAdj.getD k [])
    (r2 : ∀ k, g'.hAdjInc.getD k [] = g.hAdjInc.getD k []) : HMirror g' := by
  intro x
  have hx := h x
  unfold rowCount at hx ⊢
  rw [r1, r2, hx]

/-- In the reached states the two inactive views are mirrored: every edge is
as often in the row of `hAdj` of its source as in the row of `hAdjInc` of its
target. -/
theorem reach_hMirror (cfg : Config) (st : List (Enode × lbool)) (g : DLGraph)
    (hr : Reach cfg st g) : HMirror g := by
  induction hr with
  | init =>
    intro x
    rfl
  | static A c hr hn hi ih =>
    have hs := reach_storeInv cfg _ _ hr
    obtain ⟨p, l, g1, -, -, -, e0, -, -, -, -, -, -, -, -, -, -, -, r1, r2⟩ :=
      insertStatic_store cfg A _ _ c hn hi
    rename_i st0 g0 g2
    have hlen : g0.vertexMap.length ≤ g2.vertexMap.length := by
      rw [e0, List.length_append]
      omega
    have hl1 : g0.hAdj.length ≤ g2.vertexMap.length := by rw [hs.len_h]; exact hlen
    have hl2 : g0.hAdjInc.length ≤ g2.vertexMap.length := by rw [hs.len_hi]; exact hlen
    have hres : ∀ x : DLEdge, rowCount (resize g0.hAdj g2.vertexMap.length []) x.u x =
        rowCount (resize g0.hAdjInc g2.vertexMap.length []) x.v x := by
      intro x
      rw [rowCount_resize _ _ hl1, rowCount_resize _ _ hl2]
      exact ih x
    by_cases htp : cfg.dlconfig.theory_propagation > 0
    · simp only [if_pos htp] at r1 r2
      exact hMirror_append _ _ hres p r1 r2
    · simp only [if_neg htp] at r1 r2
      intro x
      have hx := hres x
      unfold rowCount at hx ⊢
      rw [r1, r2, hx]
  | dynamic A c reason e hr hc hi ih =>
    obtain ⟨p, a, b, -, -, -, -, -, -, -, -, -, -, -, r1, r2⟩ :=
      insertDynamic_store cfg A _ _ c reason e hi
    by_cases htp : cfg.dlconfig.theory_propagation > 0
    · simp only [if_pos htp] at r1 r2
      exact ih.erase p r1 r2
    · simp only [if_neg htp] at r1 r2
      exact ih.rows_same r1 r2
  | check A c reason fuel b hr hc hi ih =>
    obtain ⟨e, g1, hins, hst⟩ := checkNegCycle_store cfg A _ _ c reason fuel b hi
    obtain ⟨p, a, b, -, -, -, -, -, -, -, -, -, -, -, r1, r2⟩ :=
      insertDynamic_store cfg A _ _ c reason e hins
    by_cases htp : cfg.dlconfig.theory_propagation > 0
    · simp only [if_pos htp] at r1 r2
      exact ih.erase p (fun k => by rw [hst.hAdj]; exact r1 k)
        (fun k => by rw [hst.hAdjInc]; exact r2 k)
    · simp only [if_neg htp] at r1 r2
      exact ih.rows_same (fun k => by rw [hst.hAdj]; exact r1 k)
        (fun k => by rw [hst.hAdjInc]; exact r2 k)
  | delete A c hr hi ih =>
    have hs := reach_storeInv cfg _ _ hr
    obtain ⟨-, -, -, -, hpol, -⟩ := deleteActive_spec cfg A _ _ c hi
    obtain ⟨p, -, g2, hp, -, -, -, hd, -, -, -, e1, -, r1, r2⟩ := hs.delete_step cfg A c hpol
    rw [hi] at hd
    cases hd
    by_cases htp : cfg.dlconfig.theory_propagation > 0
    · simp only [if_pos htp] at r1 r2
      exact hMirror_append _ _ ih p r1 r2
    · simp only [if_neg htp] at r1 r2
      exact ih.rows_same r1 r2
  | implied c hr hi ih =>
    unfold insertImplied at hi
    split at hi
    · obtain ⟨p, hp, -, -, r1, r2, -⟩ := deleteInactive_rows _ _ c hi
      exact ih.erase p r1 r2
    · cases hi

/-- The calls of the scan of one row in the first branch of
`iterateInactive`. -/
theorem scanInactiveOut_mem (A : AtomStore) (s : SPState) (e : DLEdge) (it : Nat) (l : AdjList)
    (r : Int) (x : DLEdge) :
    (r, x) ∈ scanInactiveOut A s e it l ↔
      (x ∈ l ∧ hasPolarity A x.c = false ∧ isDeduced A x.c = false ∧
        isDxRelValid s x.v = true ∧ s.dx_relevant x.v = true ∧
        r = s.dy it + s.dx x.v - s.rwt e) := by
  unfold scanInactiveOut
  rw [List.mem_filterMap]
  constructor
  · rintro ⟨a, ha, h⟩
    split at h
    · cases h
    · rename_i h1
      split at h
      · rename_i h2
        simp only [Option.some.injEq, Prod.mk.injEq] at h
        obtain ⟨hr, hx⟩ := h
        subst hx
        rw [Bool.or_eq_true, not_or] at h1
        rw [Bool.and_eq_true] at h2
        exact ⟨ha, Bool.eq_false_iff.2 h1.1, Bool.eq_false_iff.2 h1.2, h2.1, h2.2, hr.symm⟩
      · cases h
  · rintro ⟨hx, h1, h2, h3, h4, hr⟩
    refine ⟨x, hx, ?_⟩
    rw [h1, h2, h3, h4, hr]
    rfl

/-- The calls of the scan of one row in the second branch of
`iterateInactive`. -/
theorem scanInactiveIn_mem (A : AtomStore) (s : SPState) (e : DLEdge) (it : Nat) (l : AdjList)
    (r : Int) (x : DLEdge) :
    (r, x) ∈ scanInactiveIn A s e it l ↔
      (x ∈ l ∧ hasPolarity A x.c = false ∧ isDeduced A x.c = false ∧
        isDyRelValid s x.u = true ∧ s.dy_relevant x.u = true ∧
        r = s.dy x.u + s.dx it - s.rwt e) := by
  unfold scanInactiveIn
  rw [List.mem_filterMap]
  constructor
  · rintro ⟨a, ha, h⟩
    split at h
    · cases h
    · rename_i h1
      split at h
      · rename_i h2
        simp only [Option.some.injEq, Prod.mk.injEq] at h
        obtain ⟨hr, hx⟩ := h
        subst hx
        rw [Bool.or_eq_true, not_or] at h1
        rw [Bool.and_eq_true] at h2
        exact ⟨ha, Bool.eq_false_iff.2 h1.1, Bool.eq_false_iff.2 h1.2, h2.1, h2.2, hr.symm⟩
      · cases h
  · rintro ⟨hx, h1, h2, h3, h4, hr⟩
    refine ⟨x, hx, ?_⟩
    rw [h1, h2, h3, h4, hr]
    rfl

/-- The first branch of `iterateInactive` returns when every listed vertex has
a valid backward flag that is true and a row in `hAdj`. -/
theorem iterateOut_some (A : AtomStore) (g : DLGraph) (s : SPState) (e : DLEdge) :
    ∀ (vs : List Nat),
      (∀ it ∈ vs, it < g.hAdj.length ∧ isDyRelValid s it = true ∧ s.dy_relevant it = true) →
      iterateOut A g s e vs =
        some (vs.flatMap (fun it => scanInactiveOut A s e it (g.hAdj.getD it []))) := by
  intro vs
  induction vs with
  | nil =>
    intro _
    rfl
  | cons it rest ih =>
    intro h
    obtain ⟨h1, h2, h3⟩ := h it (List.mem_cons_self _ _)
    have hrest := ih (fun y hy => h y (List.mem_cons_of_mem _ hy))
    show (if isDyRelValid s it && s.dy_relevant it then
      match g.hAdj[it]? with
      | none => none
      | some adj_list =>
        (iterateOut A g s e rest).map (fun l => scanInactiveOut A s e it adj_list ++ l)
      else none) = _
    rw [h2, h3, hrest, List.getElem?_eq_getElem h1, List.flatMap_cons, List.getD_eq_getElem?_getD,
      List.getElem?_eq_getElem h1]
    rfl

/-- The second branch of `iterateInactive` returns when every listed vertex
has a valid forward flag that is true and a row in `hAdjInc`. -/
theorem iterateIn_some (A : AtomStore) (g : DLGraph) (s : SPState) (e : DLEdge) :
    ∀ (vs : List Nat),
      (∀ it ∈ vs, it < g.hAdjInc.length ∧ isDxRelValid s it = true ∧ s.dx_relevant it = true) →
      iterateIn A g s e vs =
        some (vs.flatMap (fun it => scanInactiveIn A s e it (g.hAdjInc.getD it []))) := by
  intro vs
  induction vs with
  | nil =>
    intro _
    rfl
  | cons it rest ih =>
    intro h
    obtain ⟨h1, h2, h3⟩ := h it (List.mem_cons_self _ _)
    have hrest := ih (fun y hy => h y (List.mem_cons_of_mem _ hy))
    show (if isDxRelValid s it then
      if s.dx_relevant it then
        match g.hAdjInc[it]? with
        | none => none
        | some adj_list =>
          (iterateIn A g s e rest).map (fun l => scanInactiveIn A s e it adj_list ++ l)
      else none
      else none) = _
    rw [h2, h3, hrest, List.getElem?_eq_getElem h1, List.flatMap_cons, List.getD_eq_getElem?_getD,
      List.getElem?_eq_getElem h1]
    rfl

/-- An edge in a row of a table has a row there: the index is below the
length. -/
theorem mem_getD_lt (t : List AdjList) (k : Nat) (x : DLEdge) (h : x ∈ t.getD k []) :
    k < t.length := by
  by_contra hk
  rw [List.getD_eq_default _ _ (Nat.le_of_not_lt hk)] at h
  exact absurd h (List.not_mem_nil _)

/-- C39: the two branches of `iterateInactive` are equivalent.  In a state
reached through the interface, provided every edge is in the row of `hAdj` of
its source exactly when it is in the row of `hAdjInc` of its target, and
`dy_relevant_vertices` and `dx_relevant_vertices` hold exactly the vertices
whose backward, respectively forward, relevancy flag is valid and true (the
vertices being the indices with a row), the two branches of `iterateInactive`
both run to their end and pass the same pairs of value and edge to
`addIfHeavy`; `iterateInactive` itself returns the calls of one of the two. -/
theorem iterateInactive_branches (cfg : Config) (st : List (Enode × lbool)) (A : AtomStore)
    (g : DLGraph) (s : SPState) (e : DLEdge) (hr : Reach cfg st g)
    (hm : ∀ x : DLEdge, x ∈ g.hAdj.getD x.u [] ↔ x ∈ g.hAdjInc.getD x.v [])
    (hdy : ∀ y, y ∈ s.dy_relevant_vertices ↔
      (y < g.hAdj.length ∧ isDyRelValid s y = true ∧ s.dy_relevant y = true))
    (hdx : ∀ y, y ∈ s.dx_relevant_vertices ↔
      (y < g.hAdjInc.length ∧ isDxRelValid s y = true ∧ s.dx_relevant y = true)) :
    ∃ callsOut callsIn calls,
      iterateOut A g s e s.dy_relevant_vertices = some callsOut ∧
      iterateIn A g s e s.dx_relevant_vertices = some callsIn ∧
      iterateInactive A g s e = some calls ∧
      (calls = callsOut ∨ calls = callsIn) ∧
      ∀ (rpath_wt : Int) (x : DLEdge), (rpath_wt, x) ∈ callsOut ↔ (rpath_wt, x) ∈ callsIn := by
  have hpl := reach_hPlaced cfg st g hr
  have h1 := iterateOut_some A g s e s.dy_relevant_vertices (fun y hy => (hdy y).1 hy)
  have h2 := iterateIn_some A g s e s.dx_relevant_vertices (fun y hy => (hdx y).1 hy)
  refine ⟨_, _, (if s.total_out_deg_dy_rel < s.total_in_deg_dx_rel then
      s.dy_relevant_vertices.flatMap (fun it => scanInactiveOut A s e it (g.hAdj.getD it []))
    else s.dx_relevant_vertices.flatMap
      (fun it => scanInactiveIn A s e it (g.hAdjInc.getD it []))), h1, h2, ?_, ?_, ?_⟩
  · show (if s.total_out_deg_dy_rel < s.total_in_deg_dx_rel then
      iterateOut A g s e s.dy_relevant_vertices
      else iterateIn A g s e s.dx_relevant_vertices) =
      some (if s.total_out_deg_dy_rel < s.total_in_deg_dx_rel then
        s.dy_relevant_vertices.flatMap
          (fun it => scanInactiveOut A s e it (g.hAdj.getD it []))
        else s.dx_relevant_vertices.flatMap
          (fun it => scanInactiveIn A s e it (g.hAdjInc.getD it [])))
    split
    · exact h1
    · exact h2
  · split
    · exact Or.inl rfl
    · exact Or.inr rfl
  · intro r x
    rw [List.mem_flatMap, List.mem_flatMap]
    constructor
    · rintro ⟨it, hit, hx⟩
      rw [scanInactiveOut_mem] at hx
      obtain ⟨hx, a1, a2, a3, a4, a5⟩ := hx
      have hu : x.u = it := (hpl it x).1 hx
      subst hu
      have hx2 := (hm x).1 hx
      refine ⟨x.v, (hdx x.v).2 ⟨mem_getD_lt _ _ _ hx2, a3, a4⟩, ?_⟩
      rw [scanInactiveIn_mem]
      obtain ⟨-, b1, b2⟩ := (hdy x.u).1 hit
      exact ⟨hx2, a1, a2, b1, b2, a5⟩
    · rintro ⟨it, hit, hx⟩
      rw [scanInactiveIn_mem] at hx
      obtain ⟨hx, a1, a2, a3, a4, a5⟩ := hx
      have hv : x.v = it := (hpl it x).2 hx
      subst hv
      have hx2 := (hm x).2 hx
      refine ⟨x.u, (hdy x.u).2 ⟨mem_getD_lt _ _ _ hx2, a3, a4⟩, ?_⟩
      rw [scanInactiveOut_mem]
      obtain ⟨-, b1, b2⟩ := (hdx x.v).1 hit
      exact ⟨hx2, a1, a2, b1, b2, a5⟩

/-- Mirrored views list every edge in the row of `hAdj` of its source exactly
when they list it in the row of `hAdjInc` of its target. -/
theorem HMirror.mem {g : DLGraph} (h : HMirror g) (x : DLEdge) :
    x ∈ g.hAdj.getD x.u [] ↔ x ∈ g.hAdjInc.getD x.v [] := by
  have hx := h x
  unfold rowCount at hx
  rw [← List.count_pos_iff, ← List.count_pos_iff, hx]

theorem iterateInactive_branches_witness :
    Reach exCfg
      [(exAtom1, getPolarity exOnly12 exAtom1), (exAtom2, getPolarity exOnly12 exAtom2)]
      exSideGraph ∧
    iterateOut exOnly12 exSideGraph exSideDone ⟨exAtom1, 0, 0, 1, 3⟩
        exSideDone.dy_relevant_vertices =
      some [(3, ⟨exAtomB, 4, 0, 2, 1⟩), (3, ⟨exAtomA, 6, 0, 1, 5⟩)] ∧
    iterateIn exOnly12 exSideGraph exSideDone ⟨exAtom1, 0, 0, 1, 3⟩
        exSideDone.dx_relevant_vertices =
      some [(3, ⟨exAtomA, 6, 0, 1, 5⟩), (3, ⟨exAtomB, 4, 0, 2, 1⟩)] ∧
    (∀ x : DLEdge, x ∈ exSideGraph.hAdj.getD x.u [] ↔ x ∈ exSideGraph.hAdjInc.getD x.v []) ∧
    (∀ y, y ∈ exSideDone.dy_relevant_vertices ↔
      (y < exSideGraph.hAdj.length ∧ isDyRelValid exSideDone y = true ∧
        exSideDone.dy_relevant y = true)) ∧
    (∀ y, y ∈ exSideDone.dx_relevant_vertices ↔
      (y < exSideGraph.hAdjInc.length ∧ isDxRelValid exSideDone y = true ∧
        exSideDone.dx_relevant y = true)) ∧
    ∃ callsOut callsIn calls,
      iterateOut exOnly12 exSideGraph exSideDone ⟨exAtom1, 0, 0, 1, 3⟩
        exSideDone.dy_relevant_vertices = some callsOut ∧
      iterateIn exOnly12 exSideGraph exSideDone ⟨exAtom1, 0, 0, 1, 3⟩
        exSideDone.dx_relevant_vertices = some callsIn ∧
      iterateInactive exOnly12 exSideGraph exSideDone ⟨exAtom1, 0, 0, 1, 3⟩ = some calls ∧
      (calls = callsOut ∨ calls = callsIn) ∧
      ∀ (rpath_wt : Int) (x : DLEdge), (rpath_wt, x) ∈ callsOut ↔ (rpath_wt, x) ∈ callsIn := by
  have hm := (reach_hMirror exCfg _ exSideGraph exSideGraph_ready.1).mem
  have l1 : exSideDone.dy_relevant_vertices = [0] := by rfl
  have l2 : exSideDone.dx_relevant_vertices = [1, 2] := by rfl
  have n1 : exSideGraph.hAdj.length = 3 := by rfl
  have n2 : exSideGraph.hAdjInc.length = 3 := by rfl
  have k1 : ∀ y, y < 3 → (y ∈ [0] ↔
      (isDyRelValid exSideDone y = true ∧ exSideDone.dy_relevant y = true)) := by decide
  have k2 : ∀ y, y < 3 → (y ∈ [1, 2] ↔
      (isDxRelValid exSideDone y = true ∧ exSideDone.dx_relevant y = true)) := by decide
  have hdy : ∀ y, y ∈ exSideDone.dy_relevant_vertices ↔
      (y < exSideGraph.hAdj.length ∧ isDyRelValid exSideDone y = true ∧
        exSideDone.dy_relevant y = true) := by
    intro y
    rw [l1, n1]
    constructor
    · intro h
      have hy : y < 3 := by
        rw [List.mem_singleton] at h
        omega
      exact ⟨hy, (k1 y hy).1 h⟩
    · rintro ⟨hy, h⟩
      exact (k1 y hy).2 h
  have hdx : ∀ y, y ∈ exSideDone.dx_relevant_vertices ↔
      (y < exSideGraph.hAdjInc.length ∧ isDxRelValid exSideDone y = true ∧
        exSideDone.dx_relevant y = true) := by
    intro y
    rw [l2, n2]
    constructor
    · intro h
      have hy : y < 3 := by
        rcases List.mem_cons.1 h with h | h
        · omega
        · rw [List.mem_singleton] at h
          omega
      exact ⟨hy, (k2 y hy).1 h⟩
    · rintro ⟨hy, h⟩
      exact (k2 y hy).2 h
  exact ⟨exSideGraph_ready.1, by rfl, by rfl, hm, hdy, hdx,
    iterateInactive_branches exCfg _ exOnly12 exSideGraph exSideDone ⟨exAtom1, 0, 0, 1, 3⟩
      exSideGraph_ready.1 hm hdy hdx⟩

/-! ## The counter of the relevant vertices on the heap -/

/-- Flags that differ at most at a vertex that is not in a list count the same
in the list. -/
theorem countP_off (f f' : Nat → Bool) (v : Nat) (l : List Nat) (hv : v ∉ l)
    (hf : ∀ y, y ≠ v → f' y = f y) : l.countP f' = l.countP f := by
  apply List.countP_congr
  intro y hy
  have hne : y ≠ v := fun h => hv (h ▸ hy)
  rw [hf y hne]

/-- Flags that differ at most at a vertex that is once in a list: the count
moves by the flag of that vertex. -/
theorem countP_at (f f' : Nat → Bool) (v : Nat) :
    ∀ (l : List Nat), l.Nodup → v ∈ l → (∀ y, y ≠ v → f' y = f y) →
      l.countP f' + (if f v = true then 1 else 0) =
        l.countP f + (if f' v = true then 1 else 0) := by
  intro l
  induction l with
  | nil =>
    intro _ hv
    exact absurd hv (List.not_mem_nil _)
  | cons a rest ih =>
    intro hd hv hf
    rw [List.nodup_cons] at hd
    rw [List.countP_cons, List.countP_cons]
    by_cases ha : a = v
    · subst ha
      rw [countP_off f f' a rest hd.1 hf]
      omega
    · have hv' : v ∈ rest := by
        rcases List.mem_cons.1 hv with h | h
        · exact absurd h.symm ha
        · exact h
      have := ih hd.2 hv' hf
      rw [hf a ha]
      omega

/-- A list of different numbers below `n` has at most `n` members. -/
theorem nodup_bounded_length (l : List Nat) (n : Nat) (hd : l.Nodup) (hb : ∀ y ∈ l, y < n) :
    l.length ≤ n := by
  have hsub : l ⊆ List.range n := fun y hy => List.mem_range.2 (hb y hy)
  have := (List.subperm_of_subset hd hsub).length_le
  rw [List.length_range] at this
  exact this

theorem CounterInv.lt {n : Nat} {d : DL_sssp_direction} {s : SPState} {nr : Nat}
    (h : CounterInv n d s nr) : nr ≤ n := by
  rw [h.count]
  unfold relevantOnHeap
  exact le_trans (List.countP_le_length _) (nodup_bounded_length _ n h.nodup h.bound)

theorem pqOf_setPq (s : SPState) (d : DL_sssp_direction) (l : List Nat) :
    pqOf (setPq s d l) d = l := by
  cases d <;> rfl

theorem heapOrder_perm (s : SPState) (d : DL_sssp_direction) (l : List Nat) :
    (heapOrder s d l).Perm l := List.perm_insertionSort _ l

/-- The heap and the relevancy flags are as before after lines 762-767. -/
theorem counter_rwt (g : DLGraph) (s s1 : SPState) (it : DLEdge) (d : DL_sssp_direction)
    (h : (if isRwtValid s it then some s
        else if g.pi it.u + it.wt - g.pi it.v ≥ 0 then
          some (updateRwt
            { s with rwt := Function.update s.rwt it (g.pi it.u + it.wt - g.pi it.v) } it)
        else none) = some s1) :
    pqOf s1 d = pqOf s d ∧ getRelevancy s1 d = getRelevancy s d := by
  split at h
  · simp only [Option.some.injEq] at h
    rw [← h]
    exact ⟨rfl, rfl⟩
  · split at h
    · simp only [Option.some.injEq] at h
      rw [← h]
      cases d <;> exact ⟨rfl, rfl⟩
    · cases h

/-- The heap and the relevancy flags are as before after `updateSPT`. -/
theorem counter_lazySPT (lazy : Int) (s s' : SPState) (e : DLEdge) (d : DL_sssp_direction)
    (h : (if lazy = 0 then updateSPT s e d else some s) = some s') :
    pqOf s' d = pqOf s d ∧ getRelevancy s' d = getRelevancy s d := by
  have hr := relView_lazySPT lazy s s' e d d h
  refine ⟨?_, congrArg RelView.rel hr⟩
  split at h
  · unfold updateSPT at h
    cases d with
    | DL_sssp_forward =>
      simp only at h
      split at h
      · cases h
      · simp only [Option.some.injEq] at h
        rw [← h]
        show (if _ then _ else _ : SPState).pq_dx = _
        split <;> rfl
    | DL_sssp_backward =>
      simp only at h
      split at h
      · cases h
      · simp only [Option.some.injEq] at h
        rw [← h]
        show (if _ then _ else _ : SPState).pq_dy = _
        split <;> rfl
  · simp only [Option.some.injEq] at h
    rw [← h]

/-- The heap is as before after lines 781-786, and the relevancy flags are as
before but for the one of the vertex. -/
theorem counter_relFresh (s3 : SPState) (d : DL_sssp_direction) (v : Nat) (rel_u : Bool) :
    pqOf (if (!if d = DL_sssp_direction.DL_sssp_forward then isDxRelValid s3 v
          else isDyRelValid s3 v) = true then
        if d = DL_sssp_direction.DL_sssp_forward then updateDxRel (setRelevancy s3 d v rel_u) v
        else updateDyRel (setRelevancy s3 d v rel_u) v
      else s3) d = pqOf s3 d ∧
    ∀ y, y ≠ v → getRelevancy (if (!if d = DL_sssp_direction.DL_sssp_forward then
          isDxRelValid s3 v else isDyRelValid s3 v) = true then
        if d = DL_sssp_direction.DL_sssp_forward then updateDxRel (setRelevancy s3 d v rel_u) v
        else updateDyRel (setRelevancy s3 d v rel_u) v
      else s3) d y = getRelevancy s3 d y := by
  generalize (if d = DL_sssp_direction.DL_sssp_forward then isDxRelValid s3 v
    else isDyRelValid s3 v) = b
  cases b
  · simp only [Bool.not_false, if_true]
    cases d with
    | DL_sssp_forward =>
      refine ⟨rfl, fun y hy => ?_⟩
      show Function.update s3.dx_relevant v rel_u y = _
      rw [Function.update_noteq hy]
      rfl
    | DL_sssp_backward =>
      refine ⟨rfl, fun y hy => ?_⟩
      show Function.update s3.dy_relevant v rel_u y = _
      rw [Function.update_noteq hy]
      rfl
  · exact ⟨rfl, fun _ _ => rfl⟩

theorem counter_setDist (s : SPState) (d : DL_sssp_direction) (v : Nat) (x : Int) :
    pqOf (setDist s d v x) d = pqOf s d ∧ getRelevancy (setDist s d v x) d = getRelevancy s d := by
  cases d <;> exact ⟨rfl, rfl⟩

/-- The flags after `setRelevancy` and the update of the stamp (lines 810-811),
and the heap. -/
theorem counter_setRel (s : SPState) (d : DL_sssp_direction) (v : Nat) (b : Bool) :
    pqOf (if d = DL_sssp_direction.DL_sssp_forward then updateDxRel (setRelevancy s d v b) v
      else updateDyRel (setRelevancy s d v b) v) d = pqOf s d ∧
    getRelevancy (if d = DL_sssp_direction.DL_sssp_forward then
        updateDxRel (setRelevancy s d v b) v
      else updateDyRel (setRelevancy s d v b) v) d = Function.update (getRelevancy s d) v b := by
  cases d <;> exact ⟨rfl, rfl⟩

theorem counter_modify (s : SPState) (d : DL_sssp_direction) (v : Nat) :
    pqOf (modifyPBheap s d v) d = heapOrder s d (pqOf s d) ∧
      getRelevancy (modifyPBheap s d v) d = getRelevancy s d := by
  cases d <;> exact ⟨rfl, rfl⟩

theorem counter_push (s : SPState) (d : DL_sssp_direction) (v : Nat) :
    pqOf (pushPBheap s d v) d = heapOrder s d (pqOf s d ++ [v]) ∧
      getRelevancy (pushPBheap s d v) d = getRelevancy s d := by
  cases d <;> exact ⟨rfl, rfl⟩

theorem counter_setDistFrom (s : SPState) (d : DL_sssp_direction) (v k : Nat) :
    pqOf (setDistFrom s d v k) d = pqOf s d ∧
      getRelevancy (setDistFrom s d v k) d = getRelevancy s d := by
  cases d <;> exact ⟨rfl, rfl⟩

theorem counter_readDist (s : SPState) (d : DL_sssp_direction) (v : Nat) :
    pqOf (readDist s v) d = pqOf s d ∧ getRelevancy (readDist s v) d = getRelevancy s d := by
  cases d <;> exact ⟨rfl, rfl⟩

/-- The heap, the relevancy flags and the counter `no_relevant` after the body
of the for loop of `findSSSP` for the edge `it`, on the code: nothing changes;
or the far end of the edge, which was not on the heap, is pushed, and the
counter is incremented when its flag is true (lines 794-799); or the far end,
which is on the heap, takes the relevancy of the extracted vertex, and the
counter is incremented when the flag turns true and decremented when it turns
false (lines 805-811). -/
theorem relaxEdge_counter (lazy : Int) (g : DLGraph) (d : DL_sssp_direction) (u : Nat)
    (rel_u : Bool) (it : DLEdge) (s s' : SPState) (nr nr' : Nat)
    (h : relaxEdge lazy g d u rel_u it s nr = some (s', nr')) :
    (pqOf s' d = pqOf s d ∧ getRelevancy s' d = getRelevancy s d ∧ nr' = nr) ∨
    (farEnd d it ∉ pqOf s d ∧ (pqOf s' d).Perm (pqOf s d ++ [farEnd d it]) ∧
      (∀ y, y ≠ farEnd d it → getRelevancy s' d y = getRelevancy s d y) ∧
      nr' = if getRelevancy s' d (farEnd d it) = true then (nr + 1) % 4294967296 else nr) ∨
    (farEnd d it ∈ pqOf s d ∧ (pqOf s' d).Perm (pqOf s d) ∧
      (∀ y, y ≠ farEnd d it → getRelevancy s' d y = getRelevancy s d y) ∧
      getRelevancy s' d (farEnd d it) = rel_u ∧
      nr' = if getRelevancy s d (farEnd d it) = false ∧ rel_u = true then
          (nr + 1) % 4294967296
        else if getRelevancy s d (farEnd d it) = true ∧ rel_u = false then
          (nr + 4294967295) % 4294967296
        else nr) := by
  unfold relaxEdge at h
  simp only at h
  split at h
  · simp only [Option.some.injEq, Prod.mk.injEq] at h
    rw [← h.1, ← h.2]
    exact Or.inl ⟨rfl, rfl, rfl⟩
  · split at h
    · cases h
    · rename_i s1 hvalid
      obtain ⟨p1, f1⟩ := counter_rwt g s s1 it d hvalid
      split at h
      · cases h
      · split at h
        · split at h
          · cases h
          · rename_i s3 hs3
            obtain ⟨p23, f23⟩ := counter_lazySPT lazy _ s3 it d hs3
            obtain ⟨p12, f12⟩ := counter_setDist s1 d (farEnd d it)
              (getDist s1 d u + s1.rwt it)
            obtain ⟨p34, f34⟩ := counter_relFresh s3 d (farEnd d it) rel_u
            generalize (if (!if d = DL_sssp_direction.DL_sssp_forward then
                    isDxRelValid s3 (farEnd d it)
                  else isDyRelValid s3 (farEnd d it)) = true then
                if d = DL_sssp_direction.DL_sssp_forward then
                  updateDxRel (setRelevancy s3 d (farEnd d it) rel_u) (farEnd d it)
                else updateDyRel (setRelevancy s3 d (farEnd d it) rel_u) (farEnd d it)
              else s3) = s4 at h p34 f34
            have p4 : pqOf s4 d = pqOf s d := by rw [p34, p23, p12, p1]
            have f4 : ∀ y, y ≠ farEnd d it → getRelevancy s4 d y = getRelevancy s d y := by
              intro y hy
              rw [f34 y hy, f23, f12, f1]
            obtain ⟨p45, f45⟩ := counter_push s4 d (farEnd d it)
            split at h
            · cases h
            · rename_i hnot
              rw [p4] at hnot
              have hperm : (pqOf (pushPBheap s4 d (farEnd d it)) d).Perm
                  (pqOf s d ++ [farEnd d it]) := by
                rw [p45, p4]
                exact heapOrder_perm _ _ _
              split at h
              · rename_i hrel
                simp only [Option.some.injEq, Prod.mk.injEq] at h
                rw [← h.1, ← h.2]
                refine Or.inr (Or.inl ⟨hnot, ?_, ?_, ?_⟩)
                · rw [(counter_readDist _ d _).1, (counter_setDistFrom _ d _ _).1]
                  exact hperm
                · intro y hy
                  rw [(counter_readDist _ d _).2, (counter_setDistFrom _ d _ _).2, f45]
                  exact f4 y hy
                · rw [(counter_readDist _ d _).2, (counter_setDistFrom _ d _ _).2, if_pos hrel]
              · rename_i hrel
                simp only [Option.some.injEq, Prod.mk.injEq] at h
                rw [← h.1, ← h.2]
                refine Or.inr (Or.inl ⟨hnot, ?_, ?_, ?_⟩)
                · rw [(counter_readDist _ d _).1]
                  exact hperm
                · intro y hy
                  rw [(counter_readDist _ d _).2, f45]
                  exact f4 y hy
                · rw [(counter_readDist _ d _).2, if_neg hrel]
        · split at h
          · cases h
          · rename_i hin
            rw [p1, not_not] at hin
            split at h
            · split at h
              · cases h
              · rename_i s5 hs5
                obtain ⟨p45, f45⟩ := counter_lazySPT lazy _ s5 it d hs5
                simp only [Option.some.injEq, Prod.mk.injEq] at h
                rw [← h.1, ← h.2]
                obtain ⟨p12, f12⟩ := counter_setDist s1 d (farEnd d it)
                  (getDist s1 d u + s1.rwt it)
                obtain ⟨p23, f23⟩ := counter_setRel
                  (setDist s1 d (farEnd d it) (getDist s1 d u + s1.rwt it)) d (farEnd d it) rel_u
                obtain ⟨p34, f34⟩ := counter_modify
                  (if d = DL_sssp_direction.DL_sssp_forward then
                    updateDxRel (setRelevancy
                      (setDist s1 d (farEnd d it) (getDist s1 d u + s1.rwt it)) d (farEnd d it)
                      rel_u) (farEnd d it)
                  else updateDyRel (setRelevancy
                      (setDist s1 d (farEnd d it) (getDist s1 d u + s1.rwt it)) d (farEnd d it)
                      rel_u) (farEnd d it)) d (farEnd d it)
                have p56 : pqOf (if getRelevancy s5 d (farEnd d it) = true then
                      setDistFrom s5 d (farEnd d it) (getDistFrom s5 d u + 1)
                    else s5) d = pqOf s5 d := by
                  split
                  · exact (counter_setDistFrom _ d _ _).1
                  · rfl
                have f56 : getRelevancy (if getRelevancy s5 d (farEnd d it) = true then
                      setDistFrom s5 d (farEnd d it) (getDistFrom s5 d u + 1)
                    else s5) d = getRelevancy s5 d := by
                  split
                  · exact (counter_setDistFrom _ d _ _).2
                  · rfl
                have f5 : getRelevancy s5 d = Function.update (getRelevancy s d) (farEnd d it)
                    rel_u := by
                  rw [f45, f34, f23, f12, f1]
                refine Or.inr (Or.inr ⟨hin, ?_, ?_, ?_, ?_⟩)
                · rw [(counter_readDist _ d _).1, p56, p45, p34, p23, p12, p1]
                  exact heapOrder_perm _ _ _
                · intro y hy
                  rw [(counter_readDist _ d _).2, f56, f5, Function.update_noteq hy]
                · rw [(counter_readDist _ d _).2, f56, f5, Function.update_same]
                · rw [f12, f1]
            · simp only [Option.some.injEq, Prod.mk.injEq] at h
              rw [← h.1, ← h.2]
              exact Or.inl ⟨(counter_readDist _ d _).1.trans p1,
                (counter_readDist _ d _).2.trans f1, rfl⟩

/-- The heap, the relevancy flags and the counter `no_relevant` after the
extraction of the front `u` of the heap (lines 733-747), on the code: the rest
of the heap stays, the flags are as before, and the counter is decremented
when the flag of `u` is true (lines 736-740). -/
theorem extractSSSP_counter (g : DLGraph) (d : DL_sssp_direction) (u : Nat) (rest : List Nat)
    (s s4 : SPState) (nr nr1 : Nat) (rel_u : Bool) (adj : AdjList)
    (h : extractSSSP g d u rest s nr = some (s4, nr1, rel_u, adj)) :
    (pqOf s4 d).Perm rest ∧ getRelevancy s4 d = getRelevancy s d ∧
      nr1 = (if getRelevancy s d u = true then (nr + 4294967295) % 4294967296 else nr) ∧
      adj = adjOf g d u := by
  unfold extractSSSP at h
  simp only at h
  split at h
  · cases h
  · rename_i row hrow
    simp only [Option.some.injEq, Prod.mk.injEq] at h
    obtain ⟨h1, h2, -, h4⟩ := h
    have hflag : getRelevancy (finalDist (popPBheap s d rest) u) d = getRelevancy s d := by
      cases d <;> rfl
    have hpq : pqOf (finalDist (popPBheap s d rest) u) d = heapOrder s d rest := by
      cases d <;> rfl
    have c2 : ∀ (sa : SPState), pqOf (if getRelevancy sa d u = true then
          insertRelevantVertices g sa u d else sa) d = pqOf sa d ∧
        getRelevancy (if getRelevancy sa d u = true then
          insertRelevantVertices g sa u d else sa) d = getRelevancy sa d := by
      intro sa
      split
      · cases d <;> exact ⟨rfl, rfl⟩
      · exact ⟨rfl, rfl⟩
    have c3 : ∀ (sa : SPState), pqOf (if d = DL_sssp_direction.DL_sssp_forward then
          updateDxRel sa u else updateDyRel sa u) d = pqOf sa d ∧
        getRelevancy (if d = DL_sssp_direction.DL_sssp_forward then
          updateDxRel sa u else updateDyRel sa u) d = getRelevancy sa d := by
      intro sa
      cases d <;> exact ⟨rfl, rfl⟩
    have c4 : ∀ (sa : SPState), pqOf (if row.length > sa.max_adj_list_size then
          { sa with max_adj_list_size := row.length } else sa) d = pqOf sa d ∧
        getRelevancy (if row.length > sa.max_adj_list_size then
          { sa with max_adj_list_size := row.length } else sa) d = getRelevancy sa d := by
      intro sa
      split
      · cases d <;> exact ⟨rfl, rfl⟩
      · exact ⟨rfl, rfl⟩
    refine ⟨?_, ?_, ?_, ?_⟩
    · rw [← h1, (c4 _).1, (c3 _).1, (c2 _).1, hpq]
      exact heapOrder_perm _ _ _
    · rw [← h1, (c4 _).2, (c3 _).2, (c2 _).2, hflag]
    · rw [← h2, hflag]
    · rw [← h4]
      unfold adjOf
      rw [List.getD_eq_getElem?_getD, hrow]
      rfl

/-- The counter at the first head of the while loop: the root is alone on the
heap and not relevant. -/
theorem counterInv_start (n : Nat) (s : SPState) (x : Nat) (d : DL_sssp_direction)
    (hpq : pqOf s d = []) (hx : x < n) : CounterInv n d (startSSSP s x d) 0 := by
  have hheap : pqOf (startSSSP s x d) d = [x] := by
    cases d with
    | DL_sssp_forward =>
      have hp : s.pq_dx = [] := hpq
      show heapOrder _ _ (s.pq_dx ++ [x]) = [x]
      rw [hp]
      rfl
    | DL_sssp_backward =>
      have hp : s.pq_dy = [] := hpq
      show heapOrder _ _ (s.pq_dy ++ [x]) = [x]
      rw [hp]
      rfl
  have hflag : getRelevancy (startSSSP s x d) d x = false := by
    cases d with
    | DL_sssp_forward =>
      have e1 : getRelevancy (startSSSP s x DL_sssp_direction.DL_sssp_forward)
          DL_sssp_direction.DL_sssp_forward x = Function.update s.dx_relevant x false x := rfl
      rw [e1, Function.update_same]
    | DL_sssp_backward =>
      have e1 : getRelevancy (startSSSP s x DL_sssp_direction.DL_sssp_backward)
          DL_sssp_direction.DL_sssp_backward x = Function.update s.dy_relevant x false x := rfl
      rw [e1, Function.update_same]
  refine ⟨?_, ?_, ?_⟩
  · rw [hheap]
    exact List.nodup_singleton x
  · intro y hy
    rw [hheap, List.mem_singleton] at hy
    rw [hy]
    exact hx
  · unfold relevantOnHeap
    rw [hheap, List.countP_cons, List.countP_nil, hflag]
    rfl

/-- The extraction keeps the bookkeeping of the counter, and its decrement
does not pass below zero. -/
theorem CounterInv.extract_ok {n : Nat} {g : DLGraph} {d : DL_sssp_direction} {s s4 : SPState}
    {nr nr1 u : Nat} {rest : List Nat} {rel_u : Bool} {adj : AdjList}
    (hinv : CounterInv n d s nr) (hn : n < 4294967296) (hheap : pqOf s d = u :: rest)
    (h : extractSSSP g d u rest s nr = some (s4, nr1, rel_u, adj)) :
    CounterInv n d s4 nr1 ∧
      (if getRelevancy s d u = true then nr1 + 1 = nr else nr1 = nr) := by
  obtain ⟨hperm, hflag, hnr, -⟩ := extractSSSP_counter g d u rest s s4 nr nr1 rel_u adj h
  have hlt := hinv.lt
  have hnd := hinv.nodup
  rw [hheap, List.nodup_cons] at hnd
  have hcount : nr = rest.countP (fun v => getRelevancy s d v) +
      (if getRelevancy s d u = true then 1 else 0) := by
    have := hinv.count
    unfold relevantOnHeap at this
    rw [hheap, List.countP_cons] at this
    exact this
  have hcount4 : relevantOnHeap s4 d = rest.countP (fun v => getRelevancy s d v) := by
    unfold relevantOnHeap
    rw [hflag]
    exact hperm.countP_eq _
  have hstep : (if getRelevancy s d u = true then nr1 + 1 = nr else nr1 = nr) ∧
      nr1 = rest.countP (fun v => getRelevancy s d v) := by
    by_cases hu : getRelevancy s d u = true
    · rw [if_pos hu] at hnr hcount ⊢
      omega
    · rw [if_neg hu] at hnr hcount ⊢
      omega
  refine ⟨⟨?_, ?_, ?_⟩, hstep.1⟩
  · exact hperm.nodup_iff.2 hnd.2
  · intro y hy
    exact hinv.bound y (by rw [hheap]; exact List.mem_cons_of_mem _ (hperm.mem_iff.1 hy))
  · rw [hcount4]
    exact hstep.2

/-- The body of the for loop keeps the bookkeeping of the counter, and the
counter moves by at most one, without a wrap-around. -/
theorem CounterInv.relax_ok {n : Nat} {lazy : Int} {g : DLGraph} {d : DL_sssp_direction}
    {s s1 : SPState} {nr nr1 u : Nat} {rel_u : Bool} {it : DLEdge}
    (hinv : CounterInv n d s nr) (hn : n < 4294967296) (hfar : farEnd d it < n)
    (h : relaxEdge lazy g d u rel_u it s nr = some (s1, nr1)) :
    CounterInv n d s1 nr1 ∧ (nr1 = nr ∨ nr1 = nr + 1 ∨ nr1 + 1 = nr) := by
  have hlt := hinv.lt
  rcases relaxEdge_counter lazy g d u rel_u it s s1 nr nr1 h with
    ⟨hp, hf, hnr⟩ | ⟨hnot, hperm, hf, hnr⟩ | ⟨hin, hperm, hf, hv, hnr⟩
  · refine ⟨⟨?_, ?_, ?_⟩, Or.inl hnr⟩
    · rw [hp]
      exact hinv.nodup
    · rw [hp]
      exact hinv.bound
    · unfold relevantOnHeap
      rw [hp, hf, hnr]
      exact hinv.count
  · have hnd : (pqOf s1 d).Nodup := by
      rw [hperm.nodup_iff]
      exact List.Nodup.append hinv.nodup (List.nodup_singleton _)
        (by
          intro a ha hb
          rw [List.mem_singleton] at hb
          exact hnot (hb ▸ ha))
    have hb : ∀ y ∈ pqOf s1 d, y < n := by
      intro y hy
      rcases List.mem_append.1 (hperm.mem_iff.1 hy) with h1 | h1
      · exact hinv.bound y h1
      · rw [List.mem_singleton] at h1
        rw [h1]
        exact hfar
    have hcount : relevantOnHeap s1 d = nr +
        (if getRelevancy s1 d (farEnd d it) = true then 1 else 0) := by
      unfold relevantOnHeap
      rw [hperm.countP_eq, List.countP_append,
        countP_off (getRelevancy s d) (getRelevancy s1 d) (farEnd d it) (pqOf s d) hnot hf,
        List.countP_cons, List.countP_nil, hinv.count, Nat.zero_add]
      rfl
    have hle : relevantOnHeap s1 d ≤ n :=
      le_trans (List.countP_le_length _) (nodup_bounded_length _ n hnd hb)
    have hstep : nr1 = relevantOnHeap s1 d ∧ (nr1 = nr ∨ nr1 = nr + 1 ∨ nr1 + 1 = nr) := by
      by_cases hr : getRelevancy s1 d (farEnd d it) = true
      · rw [if_pos hr] at hnr hcount
        omega
      · rw [if_neg hr] at hnr hcount
        omega
    exact ⟨⟨hnd, hb, hstep.1⟩, hstep.2⟩
  · have hnd : (pqOf s1 d).Nodup := hperm.nodup_iff.2 hinv.nodup
    have hb : ∀ y ∈ pqOf s1 d, y < n := fun y hy => hinv.bound y (hperm.mem_iff.1 hy)
    have hcount := countP_at (getRelevancy s d) (getRelevancy s1 d) (farEnd d it) (pqOf s d)
      hinv.nodup hin hf
    have hc1 : relevantOnHeap s1 d = (pqOf s d).countP (getRelevancy s1 d) := by
      unfold relevantOnHeap
      exact hperm.countP_eq _
    have hc0 : nr = (pqOf s d).countP (getRelevancy s d) := hinv.count
    have hle : relevantOnHeap s1 d ≤ n :=
      le_trans (List.countP_le_length _) (nodup_bounded_length _ n hnd hb)
    rw [hv] at hcount
    have hstep : nr1 = relevantOnHeap s1 d ∧ (nr1 = nr ∨ nr1 = nr + 1 ∨ nr1 + 1 = nr) := by
      cases hs : getRelevancy s d (farEnd d it) <;> cases hr : rel_u <;>
        simp only [hs, hr, if_true, if_false, and_self, and_true, and_false, true_and,
          false_and, Bool.false_eq_true, reduceCtorEq] at hnr hcount <;> omega
    exact ⟨⟨hnd, hb, hstep.1⟩, hstep.2⟩

/-- The bookkeeping of the counter holds at every point of a run, and the
edges that are still to scan are edges of the adjacency list of the extracted
vertex. -/
theorem ssspRun_inv (n : Nat) (lazy : Int) (g : DLGraph) (d : DL_sssp_direction) (s0 : SPState)
    (hn : n < 4294967296) (hfar : ∀ (a : Nat) (e : DLEdge), e ∈ adjOf g d a → farEnd d e < n)
    (h0 : CounterInv n d s0 0) :
    ∀ (p : SsspPoint) (s : SPState) (nr : Nat), SsspRun lazy g d s0 p s nr →
      CounterInv n d s nr ∧
        ∀ u rel_u pending, p = SsspPoint.scan u rel_u pending →
          ∀ e ∈ pending, e ∈ adjOf g d u := by
  intro p s nr hrun
  induction hrun with
  | start =>
    refine ⟨h0, ?_⟩
    intro u rel_u pending hp
    cases hp
  | extract hprev hheap hext ih =>
    refine ⟨(ih.1.extract_ok hn hheap hext).1, ?_⟩
    intro u rel_u pending hp e he
    cases hp
    obtain ⟨-, -, -, hadj⟩ := extractSSSP_counter g d _ _ _ _ _ _ _ _ hext
    rw [← hadj]
    exact he
  | edge hprev hrel ih =>
    have hmem := ih.2 _ _ _ rfl
    refine ⟨(ih.1.relax_ok hn (hfar _ _ (hmem _ (List.mem_cons_self _ _))) hrel).1, ?_⟩
    intro u rel_u pending hp e he
    cases hp
    exact hmem e (List.mem_cons_of_mem _ he)
  | next hprev hnr ih =>
    refine ⟨ih.1, ?_⟩
    intro u rel_u pending hp
    cases hp

/-- The for loop leads from its head to its end through the points of the
run. -/
theorem scanSSSP_run (lazy : Int) (g : DLGraph) (d : DL_sssp_direction) (s0 : SPState) (u : Nat)
    (rel_u : Bool) :
    ∀ (adj : AdjList) (s : SPState) (nr : Nat) (s5 : SPState) (nr1 : Nat),
      SsspRun lazy g d s0 (SsspPoint.scan u rel_u adj) s nr →
      scanSSSP lazy g d u rel_u adj s nr = some (s5, nr1) →
      SsspRun lazy g d s0 (SsspPoint.scan u rel_u []) s5 nr1 := by
  intro adj
  induction adj with
  | nil =>
    intro s nr s5 nr1 hrun h
    unfold scanSSSP at h
    simp only [Option.some.injEq, Prod.mk.injEq] at h
    rw [← h.1, ← h.2]
    exact hrun
  | cons it rest ih =>
    intro s nr s5 nr1 hrun h
    unfold scanSSSP at h
    split at h
    · cases h
    · rename_i s1 nr' hrel
      exact ih s1 nr' s5 nr1 (SsspRun.edge hrun hrel) h

/-- The while loop that starts with a vertex on the heap ends at the end of an
iteration of its run, by the test `no_relevant <= 0` of line 822. -/
theorem ssspLoop_run (n : Nat) (lazy : Int) (g : DLGraph) (d : DL_sssp_direction)
    (s0 : SPState) (hn : n < 4294967296)
    (hfar : ∀ (a : Nat) (e : DLEdge), e ∈ adjOf g d a → farEnd d e < n)
    (h0 : CounterInv n d s0 0) (fuel : Nat) :
    ∀ (s : SPState) (nr : Nat) (s' : SPState), SsspRun lazy g d s0 SsspPoint.head s nr →
      pqOf s d ≠ [] → ssspLoop lazy g d fuel s nr = some s' →
      ∃ u rel_u nr', SsspRun lazy g d s0 (SsspPoint.scan u rel_u []) s' nr' ∧ nr' ≤ 0 := by
  induction fuel with
  | zero =>
    intro s nr s' _ hne h
    unfold ssspLoop at h
    split at h
    · rename_i hheap
      exact absurd hheap hne
    · cases h
  | succ k ih =>
    intro s nr s' hrun hne h
    unfold ssspLoop at h
    split at h
    · rename_i hheap
      exact absurd hheap hne
    · rename_i u rest hheap
      split at h
      · cases h
      · rename_i s4 nr1 rel_u adj hext
        split at h
        · cases h
        · rename_i s5 nr2 hscan
          have hend := scanSSSP_run lazy g d s0 u rel_u adj s4 nr1 s5 nr2
            (SsspRun.extract hrun hheap hext) hscan
          split at h
          · rename_i hle
            simp only [Option.some.injEq] at h
            rw [← h]
            exact ⟨u, rel_u, nr2, hend, hle⟩
          · rename_i hle
            have hinv := (ssspRun_inv n lazy g d s0 hn hfar h0 _ _ _ hend).1
            have hne5 : pqOf s5 d ≠ [] := by
              intro hempty
              have hc := hinv.count
              unfold relevantOnHeap at hc
              rw [hempty, List.countP_nil] at hc
              omega
            exact ih s5 nr2 s' (SsspRun.next hend hle) hne5 h

/-- C38.  In a reached state with fewer than 2^32 vertices, in a pass of
`findSSSP` from a vertex `x` that starts with an empty heap: at every point of
the run of the while loop, in particular at the end of every iteration, the
counter `no_relevant` is the number of vertices on the heap of the direction
whose relevancy flag is true; the decrement at an extraction (line 739)
happens at a counter of at least 1, and the body of the for loop moves the
counter by at most one without a wrap-around of the `unsigned`; at the end of
an iteration the test `no_relevant <= 0` (line 822) succeeds exactly when no
vertex on the heap is relevant; and a pass that returns has left its loop by
that test at the end of an iteration. -/
theorem findSSSP_counter (cfg : Config) (st : List (Enode × lbool)) (g : DLGraph)
    (LAZY_GENERATION : Int) (s : SPState) (x : Nat) (direction : DL_sssp_direction)
    (hr : Reach cfg st g) (hn : g.vertexMap.length < 4294967296)
    (hx : x < g.vertexMap.length) (hpq : pqOf s direction = []) :
    (∀ (p : SsspPoint) (s1 : SPState) (nr : Nat),
      SsspRun LAZY_GENERATION g direction (startSSSP s x direction) p s1 nr →
      nr = relevantOnHeap s1 direction) ∧
    (∀ (s1 s4 : SPState) (nr nr1 u : Nat) (rest : List Nat) (rel_u : Bool) (adj : AdjList),
      SsspRun LAZY_GENERATION g direction (startSSSP s x direction) SsspPoint.head s1 nr →
      pqOf s1 direction = u :: rest →
      extractSSSP g direction u rest s1 nr = some (s4, nr1, rel_u, adj) →
      if getRelevancy s1 direction u = true then nr1 + 1 = nr else nr1 = nr) ∧
    (∀ (s1 s2 : SPState) (nr nr1 u : Nat) (rel_u : Bool) (it : DLEdge) (rest : AdjList),
      SsspRun LAZY_GENERATION g direction (startSSSP s x direction)
        (SsspPoint.scan u rel_u (it :: rest)) s1 nr →
      relaxEdge LAZY_GENERATION g direction u rel_u it s1 nr = some (s2, nr1) →
      nr1 = nr ∨ nr1 = nr + 1 ∨ nr1 + 1 = nr) ∧
    (∀ (s1 : SPState) (nr u : Nat) (rel_u : Bool),
      SsspRun LAZY_GENERATION g direction (startSSSP s x direction)
        (SsspPoint.scan u rel_u []) s1 nr →
      (nr ≤ 0 ↔ ∀ v ∈ pqOf s1 direction, getRelevancy s1 direction v = false)) ∧
    (∀ (fuel : Nat) (s' : SPState),
      findSSSP LAZY_GENERATION g s x direction fuel = some s' →
      ∃ u rel_u s6 nr,
        SsspRun LAZY_GENERATION g direction (startSSSP s x direction)
          (SsspPoint.scan u rel_u []) s6 nr ∧ nr ≤ 0 ∧ s' = clearPBheap s6 direction) := by
  have hs := reach_storeInv cfg st g hr
  have hfar : ∀ (a : Nat) (e : DLEdge), e ∈ adjOf g direction a →
      farEnd direction e < g.vertexMap.length := by
    intro a e he
    have hb := hs.dbound e (hs.adj_edges direction a e he).1
    cases direction with
    | DL_sssp_forward => exact hb.2
    | DL_sssp_backward => exact hb.1
  have h0 := counterInv_start g.vertexMap.length s x direction hpq hx
  have hinv := ssspRun_inv g.vertexMap.length LAZY_GENERATION g direction _ hn hfar h0
  refine ⟨?_, ?_, ?_, ?_, ?_⟩
  · intro p s1 nr hrun
    exact (hinv p s1 nr hrun).1.count
  · intro s1 s4 nr nr1 u rest rel_u adj hrun hheap hext
    exact ((hinv _ s1 nr hrun).1.extract_ok hn hheap hext).2
  · intro s1 s2 nr nr1 u rel_u it rest hrun hrel
    obtain ⟨hi, hmem⟩ := hinv _ s1 nr hrun
    exact (hi.relax_ok hn (hfar _ _ (hmem _ _ _ rfl _ (List.mem_cons_self _ _))) hrel).2
  · intro s1 nr u rel_u hrun
    have hc := (hinv _ s1 nr hrun).1.count
    unfold relevantOnHeap at hc
    rw [hc, Nat.le_zero, List.countP_eq_zero]
    constructor
    · intro h v hv
      exact Bool.eq_false_iff.2 (h v hv)
    · intro h v hv
      rw [h v hv]
      exact Bool.false_ne_true
  · intro fuel s' h
    obtain ⟨-, s6, hloop, hs'⟩ := (findSSSP_eq LAZY_GENERATION g s s' x direction fuel).1 h
    have hne : pqOf (startSSSP s x direction) direction ≠ [] := by
      intro hempty
      have hnd := h0.count
      cases direction with
      | DL_sssp_forward =>
        have hp : s.pq_dx = [] := hpq
        have e1 : pqOf (startSSSP s x DL_sssp_direction.DL_sssp_forward)
            DL_sssp_direction.DL_sssp_forward = heapOrder _ _ (s.pq_dx ++ [x]) := rfl
        rw [e1, hp] at hempty
        cases hempty
      | DL_sssp_backward =>
        have hp : s.pq_dy = [] := hpq
        have e1 : pqOf (startSSSP s x DL_sssp_direction.DL_sssp_backward)
            DL_sssp_direction.DL_sssp_backward = heapOrder _ _ (s.pq_dy ++ [x]) := rfl
        rw [e1, hp] at hempty
        cases hempty
    obtain ⟨u, rel_u, nr, hrun, hle⟩ := ssspLoop_run g.vertexMap.length LAZY_GENERATION g
      direction _ hn hfar h0 fuel _ 0 s6 SsspRun.start hne hloop
    exact ⟨u, rel_u, s6, nr, hrun, hle, hs'⟩

theorem findSSSP_counter_witness :
    Reach exCfg
        [(exAtomE, getPolarity exAllTrue exAtomE), (exAtomC, getPolarity exAllTrue exAtomC),
          (exAtomB, getPolarity exAllTrue exAtomB), (exAtomA, getPolarity exAllTrue exAtomA)]
        exSsspGraph ∧
    exSsspGraph.vertexMap.length < 4294967296 ∧ 0 < exSsspGraph.vertexMap.length ∧
    pqOf exSsspState .DL_sssp_forward = [] ∧
    ((∀ (p : SsspPoint) (s1 : SPState) (nr : Nat),
      SsspRun 0 exSsspGraph .DL_sssp_forward (startSSSP exSsspState 0 .DL_sssp_forward) p s1 nr →
      nr = relevantOnHeap s1 .DL_sssp_forward) ∧
    (∀ (s1 s4 : SPState) (nr nr1 u : Nat) (rest : List Nat) (rel_u : Bool) (adj : AdjList),
      SsspRun 0 exSsspGraph .DL_sssp_forward (startSSSP exSsspState 0 .DL_sssp_forward)
        SsspPoint.head s1 nr →
      pqOf s1 .DL_sssp_forward = u :: rest →
      extractSSSP exSsspGraph .DL_sssp_forward u rest s1 nr = some (s4, nr1, rel_u, adj) →
      if getRelevancy s1 .DL_sssp_forward u = true then nr1 + 1 = nr else nr1 = nr) ∧
    (∀ (s1 s2 : SPState) (nr nr1 u : Nat) (rel_u : Bool) (it : DLEdge) (rest : AdjList),
      SsspRun 0 exSsspGraph .DL_sssp_forward (startSSSP exSsspState 0 .DL_sssp_forward)
        (SsspPoint.scan u rel_u (it :: rest)) s1 nr →
      relaxEdge 0 exSsspGraph .DL_sssp_forward u rel_u it s1 nr = some (s2, nr1) →
      nr1 = nr ∨ nr1 = nr + 1 ∨ nr1 + 1 = nr) ∧
    (∀ (s1 : SPState) (nr u : Nat) (rel_u : Bool),
      SsspRun 0 exSsspGraph .DL_sssp_forward (startSSSP exSsspState 0 .DL_sssp_forward)
        (SsspPoint.scan u rel_u []) s1 nr →
      (nr ≤ 0 ↔ ∀ v ∈ pqOf s1 .DL_sssp_forward, getRelevancy s1 .DL_sssp_forward v = false)) ∧
    (∀ (fuel : Nat) (s' : SPState),
      findSSSP 0 exSsspGraph exSsspState 0 .DL_sssp_forward fuel = some s' →
      ∃ u rel_u s6 nr,
        SsspRun 0 exSsspGraph .DL_sssp_forward (startSSSP exSsspState 0 .DL_sssp_forward)
          (SsspPoint.scan u rel_u []) s6 nr ∧ nr ≤ 0 ∧
          s' = clearPBheap s6 .DL_sssp_forward)) :=
  ⟨exSssp_ready.1, by decide, by decide, by rfl,
    findSSSP_counter exCfg _ exSsspGraph 0 exSsspState 0 .DL_sssp_forward exSssp_ready.1
      (by decide) (by decide) (by rfl)⟩

/-! ## The potentials through a call of `checkNegCycle` -/

theorem extractVertex_pi (g : DLGraph) (s : Nat) (rest : List Nat) :
    (extractVertex g s rest).pi = Function.update g.pi s (g.pi s + g.gamma s) :=
  congrArg RepairView.pi (view_extractVertex g s rest)

theorem extractVertex_prime (g : DLGraph) (s : Nat) (rest : List Nat) :
    isPiPrime (extractVertex g s rest) = Function.update (isPiPrime g) s true :=
  congrArg RepairView.prime (view_extractVertex g s rest)

theorem extractVertex_heap (g : DLGraph) (s : Nat) (rest : List Nat) :
    (extractVertex g s rest).vertex_heap =
      rest.insertionSort (fun a b => g.gamma a ≤ g.gamma b) :=
  congrArg RepairView.heap (view_extractVertex g s rest)

theorem extractVertex_dAdj (g : DLGraph) (s : Nat) (rest : List Nat) :
    (extractVertex g s rest).dAdj = g.dAdj :=
  congrArg RepairView.dAdj (view_extractVertex g s rest)

/-- The body of the for loop leaves the heap as it is or appends the target of
the edge. -/
theorem ScanStep.heap_mem {u s : Nat} {it : DLEdge} {g g1 : DLGraph} (hst : ScanStep u s it g g1)
    (x : Nat) (hx : x ∈ g1.vertex_heap) : x ∈ g.vertex_heap ∨ x = it.v := by
  have hre : (refreshGamma g it.v).vertex_heap = g.vertex_heap := by
    unfold refreshGamma
    split <;> rfl
  cases hst with
  | skip _ => exact Or.inl hx
  | keep _ _ =>
    rw [hre] at hx
    exact Or.inl hx
  | push _ _ _ _ _ =>
    have hx' : x ∈ (refreshGamma g it.v).vertex_heap ++ [it.v] := hx
    rw [hre] at hx'
    rcases List.mem_append.1 hx' with h1 | h1
    · exact Or.inl h1
    · exact Or.inr (List.mem_singleton.1 h1)
  | lower _ _ _ _ _ _ =>
    have hx' : x ∈ (refreshGamma g it.v).vertex_heap := hx
    rw [hre] at hx'
    exact Or.inl hx'

/-- A path of active edges in the forward direction stays one in a state with
the same active adjacency `dAdj`. -/
theorem activePath_of_adj (g g' : DLGraph) (h1 : g'.dAdj = g.dAdj) :
    ∀ (es : List DLEdge) (a b : Nat), ActivePath g .DL_sssp_forward es a b →
      ActivePath g' .DL_sssp_forward es a b := by
  intro es
  induction es with
  | nil =>
    intro a b h
    exact h
  | cons x rest ih =>
    intro a b h
    refine ⟨?_, ih _ b h.2⟩
    have h3 : x ∈ g.dAdj.getD a [] := h.1
    show x ∈ g'.dAdj.getD a []
    rw [h1]
    exact h3

/-- The touched vertices at every point of a run that starts with the
invariant of the run. -/
theorem runReach_touch (pi0 : Nat → Int) (n : Nat) (e : DLEdge) (g0 : DLGraph)
    (h0 : PointInv pi0 n e RunPoint.head g0) (t0 : TouchInv pi0 g0 e g0) :
    ∀ (p : RunPoint) (g : DLGraph), RunReach e.u g0 p g → TouchInv pi0 g0 e g := by
  intro p g hreach
  induction hreach with
  | start => exact t0
  | @extract g s rest adjList hprev hheap hrow ih =>
    obtain ⟨hj, _, hhead, _⟩ := runReach_inv pi0 n e e.u g0 h0 _ _ hprev
    obtain ⟨_, hsp, hneg, _⟩ := extract_book pi0 n e g s rest hhead hheap
    refine ⟨?_, ?_, ?_⟩
    · intro x
      rw [extractVertex_pi]
      by_cases hx : x = s
      · rw [hx, Function.update_same]
        have := ih.down s
        omega
      · rw [Function.update_noteq hx]
        exact ih.down x
    · rw [extractVertex_dAdj]
      exact ih.adj
    · intro x hx
      rw [extractVertex_prime, extractVertex_heap] at hx
      by_cases hxs : x = s
      · apply ih.touched
        right
        rw [hxs, hheap]
        exact List.mem_cons_self _ _
      · rw [Function.update_noteq hxs] at hx
        apply ih.touched
        rcases hx with h1 | h1
        · exact Or.inl h1
        · right
          rw [hheap]
          exact List.mem_cons_of_mem _ ((mem_insertionSort_gamma _ _ x).1 h1)
  | @edge g g1 s it rest hprev hst ih =>
    obtain ⟨hj, hnd, hinv, hs, hrowm⟩ := runReach_inv pi0 n e e.u g0 h0 _ _ hprev
    have hit := hrowm it (List.mem_cons_self _ _)
    obtain ⟨_, hcore⟩ := hst.book hinv hs hit
    refine ⟨?_, ?_, ?_⟩
    · intro x
      rw [hcore.1]
      exact ih.down x
    · rw [hcore.2.2.2.2.2]
      exact ih.adj
    · intro x hx
      rw [sameCore_prime hcore] at hx
      rcases hx with h1 | h1
      · exact ih.touched x (Or.inl h1)
      · rcases hst.heap_mem x h1 with h2 | h2
        · exact ih.touched x (Or.inr h2)
        · obtain ⟨es, hes⟩ := ih.touched s (Or.inl hs)
          refine ⟨es ++ [it], ?_⟩
          apply activePath_append g0 .DL_sssp_forward es [it] e.v s x hes
          refine ⟨?_, ?_⟩
          · show it ∈ g0.dAdj.getD s []
            rw [← ih.adj]
            exact hit
          · show it.v = x
            exact h2.symm
  | @next g s hprev ih =>
    refine ⟨ih.down, ih.adj, ?_⟩
    intro x hx
    apply ih.touched
    rcases hx with h1 | h1
    · exact Or.inl h1
    · exact Or.inr ((mem_insertionSort_gamma _ _ x).1 h1)

/-- A step of the run leads from a point of the run to a point of the run. -/
theorem RunStep.reach {u : Nat} {g0 : DLGraph} {p q : RunPoint} {g g1 : DLGraph}
    (hst : RunStep u p g q g1) (hr : RunReach u g0 p g) : RunReach u g0 q g1 := by
  cases hst with
  | extract hheap hrow => exact RunReach.extract hr hheap hrow
  | edge hs => exact RunReach.edge hr hs
  | next => exact RunReach.next hr

/-- A vertex that is processed at a point of the run is processed at every
later point, with the same potential. -/
theorem runLater_keep (pi0 : Nat → Int) (n : Nat) (e : DLEdge) (g0 : DLGraph)
    (h0 : PointInv pi0 n e RunPoint.head g0) (pa : RunPoint) (ga : DLGraph)
    (ha : RunReach e.u g0 pa ga) :
    ∀ (pb : RunPoint) (gb : DLGraph), RunLater e.u pa ga pb gb →
      RunReach e.u g0 pb gb ∧
        ∀ x, isPiPrime ga x = true → isPiPrime gb x = true ∧ gb.pi x = ga.pi x := by
  intro pb gb hlater
  induction hlater with
  | refl => exact ⟨ha, fun x hx => ⟨hx, rfl⟩⟩
  | @step q r g1 g2 hprev hst ih =>
    obtain ⟨hq, hkeep⟩ := ih
    refine ⟨hst.reach hq, ?_⟩
    intro x hx
    obtain ⟨hx1, hpi1⟩ := hkeep x hx
    cases hst with
    | @extract _ s rest adjList hheap hrow =>
      obtain ⟨_, _, hhead, _⟩ := runReach_inv pi0 n e e.u g0 h0 _ _ hq
      obtain ⟨_, hsp, _, _⟩ := extract_book pi0 n e g1 s rest hhead hheap
      have hxs : x ≠ s := by
        intro hh
        rw [hh, hsp] at hx1
        cases hx1
      rw [extractVertex_prime, extractVertex_pi, Function.update_noteq hxs,
        Function.update_noteq hxs]
      exact ⟨hx1, hpi1⟩
    | @edge _ _ s it rest hs =>
      obtain ⟨_, _, hinv, hsp, hrowm⟩ := runReach_inv pi0 n e e.u g0 h0 _ _ hq
      obtain ⟨_, hcore⟩ := hs.book hinv hsp (hrowm it (List.mem_cons_self _ _))
      rw [sameCore_prime hcore, hcore.1]
      exact ⟨hx1, hpi1⟩
    | next => exact ⟨hx1, hpi1⟩

/-- The heap at the first head of the while loop holds at most the target of
the new edge. -/
theorem startCheck_heap (g1 g5 : DLGraph) (e : DLEdge) (h : startCheck g1 e = some g5)
    (hheap : g1.vertex_heap = []) : ∀ x ∈ g5.vertex_heap, x = e.v := by
  unfold startCheck at h
  simp only at h
  split at h
  · cases h
  · rename_i g4 hg4
    simp only [Option.some.injEq] at h
    subst h
    split at hg4
    · split at hg4
      · cases hg4
      · simp only [Option.some.injEq] at hg4
        subst hg4
        intro x hx
        have hx' : x ∈ (g1.vertex_heap ++ [e.v]).insertionSort _ := hx
        rw [hheap] at hx'
        exact List.mem_singleton.1 ((List.perm_insertionSort _ _).mem_iff.1 hx')
    · simp only [Option.some.injEq] at hg4
      subst hg4
      intro x hx
      have hx' : x ∈ g1.vertex_heap := hx
      rw [hheap] at hx'
      exact absurd hx' (List.not_mem_nil _)

/-- The parts of a call of `checkNegCycle` that returns `true`. -/
theorem checkNegCycle_true_parts (cfg : Config) (A : AtomStore) (g g' : DLGraph) (c : Enode)
    (reason : Bool) (fuel : Nat) (h : checkNegCycle cfg A g c reason fuel = some (true, g')) :
    ∃ e g1 g5 g6, insertDynamic cfg A g c reason = some (e, g1) ∧
      startCheck g1 e = some g5 ∧ negCycleLoop e.u fuel g5 = some (true, g6) ∧
      g'.pi = g6.pi ∧ g'.dAdj = g6.dAdj := by
  unfold checkNegCycle at h
  split at h
  · cases h
  · split at h
    · cases h
    · rename_i e g1 hins
      split at h
      · cases h
      · rename_i g5 hstart
        split at h
        · cases h
        · simp only [Option.some.injEq, Prod.mk.injEq] at h
          cases h.1
        · rename_i g6 hloop
          simp only [Option.some.injEq, Prod.mk.injEq, true_and] at h
          rw [← h]
          exact ⟨e, g1, g5, g6, hins, hstart, hloop, rfl, rfl⟩

/-- C37: potentials only decrease.  For a call of `checkNegCycle` on a state
reached through the interface, for an atom that is not on the trail, that
returns `true`: `insertDynamic` and `startCheck` leave the potentials as they
are, the while loop runs from its first head to a head with an empty heap, and
the potentials after the call are the ones at that head.  The potential of
every vertex after the call is at most its potential before the call; at every
point of the run a vertex that is not processed has the potential of before
the call, and a potential that differs between two points of the run stays at
every later point as it is at the second one, so it is modified at most once;
and a vertex that no path of active edges reaches from the target of the
activated edge keeps its potential. -/
theorem checkNegCycle_potentials (cfg : Config) (st : List (Enode × lbool)) (g : DLGraph)
    (A : AtomStore) (c : Enode) (reason : Bool) (fuel : Nat) (g' : DLGraph)
    (hr : Reach cfg st g) (hc : c ∉ st.map Prod.fst)
    (h : checkNegCycle cfg A g c reason fuel = some (true, g')) :
    ∃ e g1 g5 g6, insertDynamic cfg A g c reason = some (e, g1) ∧
      startCheck g1 e = some g5 ∧ g5.pi = g.pi ∧
      RunReach e.u g5 RunPoint.head g6 ∧ g6.vertex_heap = [] ∧ g'.pi = g6.pi ∧
      (∀ x, g'.pi x ≤ g.pi x) ∧
      (∀ (p : RunPoint) (gp : DLGraph) (x : Nat), RunReach e.u g5 p gp →
        isPiPrime gp x = false → gp.pi x = g.pi x) ∧
      (∀ (pa pb pc : RunPoint) (ga gb gc : DLGraph) (x : Nat), RunReach e.u g5 pa ga →
        RunLater e.u pa ga pb gb → RunLater e.u pb gb pc gc →
        gb.pi x ≠ ga.pi x → gc.pi x = gb.pi x) ∧
      (∀ x, (¬ ∃ es, ActivePath g' .DL_sssp_forward es e.v x) → g'.pi x = g.pi x) := by
  obtain ⟨e, g1, g5, g6, hins, hstart, hloop, hpi, hadj⟩ :=
    checkNegCycle_true_parts cfg A g g' c reason fuel h
  obtain ⟨g5', hstart', h5⟩ := checkNegCycle_start cfg st g A c reason e g1 hr hc hins
  rw [hstart] at hstart'
  cases hstart'
  obtain ⟨f1, _, f3, f4, _⟩ := insertDynamic_frame cfg A g g1 c reason e hins
  obtain ⟨s1, _, s3, _, _⟩ := startCheck_frame g1 g5 e hstart
  have hy := reach_ready cfg st g hr
  have hid := reach_idle cfg st g hr
  have hpi5 : g5.pi = g.pi := by rw [s1, f1]
  have hcv5 : g5.changed_vertices = [] := by rw [s3, f3, hy.1]
  have hheap1 : g1.vertex_heap = [] := by rw [f4, hid.1]
  have hunproc : ∀ (p : RunPoint) (gp : DLGraph) (x : Nat), RunReach e.u g5 p gp →
      isPiPrime gp x = false → gp.pi x = g.pi x := by
    intro p gp x hreach hx
    obtain ⟨hj, _, _⟩ := runReach_inv g.pi g.vertexMap.length e e.u g5 h5 p gp hreach
    apply hj.2.1 x
    intro hm
    rw [(hj.2.2 x).2 hm] at hx
    cases hx
  have t0 : TouchInv g.pi g5 e g5 := by
    refine ⟨?_, rfl, ?_⟩
    · intro x
      rw [hpi5]
    · intro x hx
      rcases hx with h1 | h1
      · have := (h5.1.2.2 x).1 h1
        rw [hcv5] at this
        exact absurd this (List.not_mem_nil _)
      · refine ⟨[], ?_⟩
        exact (startCheck_heap g1 g5 e hstart hheap1 x h1).symm
  obtain ⟨hreach6, hheap6⟩ := negCycleLoop_points e.u g5 fuel g5 g6 RunReach.start hloop
  have t6 := runReach_touch g.pi g.vertexMap.length e g5 h5 t0 _ g6 hreach6
  refine ⟨e, g1, g5, g6, hins, hstart, hpi5, hreach6, hheap6, hpi, ?_, hunproc, ?_, ?_⟩
  · intro x
    rw [hpi]
    exact t6.down x
  · intro pa pb pc ga gb gc x ha hab hbc hne
    obtain ⟨hb, hkeep⟩ := runLater_keep g.pi g.vertexMap.length e g5 h5 pa ga ha pb gb hab
    cases hpa : isPiPrime ga x with
    | true => exact absurd (hkeep x hpa).2 hne
    | false =>
      cases hpb : isPiPrime gb x with
      | true =>
        exact ((runLater_keep g.pi g.vertexMap.length e g5 h5 pb gb hb pc gc hbc).2 x hpb).2
      | false =>
        exfalso
        apply hne
        rw [hunproc pa ga x ha hpa, hunproc pb gb x hb hpb]
  · intro x hno
    by_contra hne
    apply hno
    cases hp : isPiPrime g6 x with
    | false =>
      exfalso
      apply hne
      rw [hpi]
      exact hunproc _ g6 x hreach6 hp
    | true =>
      obtain ⟨es, hes⟩ := t6.touched x (Or.inl hp)
      refine ⟨es, activePath_of_adj g5 g' ?_ es e.v x hes⟩
      rw [hadj, t6.adj]

theorem checkNegCycle_potentials_witness :
    Reach exCfg [] (exStatic [exAtom2]) ∧
    exAtom2 ∉ ([] : List (Enode × lbool)).map Prod.fst ∧
    checkNegCycle exCfg exAllTrue (exStatic [exAtom2]) exAtom2 false 2 =
      some (true, exCheck exAllTrue (exStatic [exAtom2]) exAtom2) ∧
    (exCheck exAllTrue (exStatic [exAtom2]) exAtom2).pi 1 = -2 ∧
    ∃ e g1 g5 g6, insertDynamic exCfg exAllTrue (exStatic [exAtom2]) exAtom2 false =
        some (e, g1) ∧
      startCheck g1 e = some g5 ∧ g5.pi = (exStatic [exAtom2]).pi ∧
      RunReach e.u g5 RunPoint.head g6 ∧ g6.vertex_heap = [] ∧
      (exCheck exAllTrue (exStatic [exAtom2]) exAtom2).pi = g6.pi ∧
      (∀ x, (exCheck exAllTrue (exStatic [exAtom2]) exAtom2).pi x ≤
        (exStatic [exAtom2]).pi x) ∧
      (∀ (p : RunPoint) (gp : DLGraph) (x : Nat), RunReach e.u g5 p gp →
        isPiPrime gp x = false → gp.pi x = (exStatic [exAtom2]).pi x) ∧
      (∀ (pa pb pc : RunPoint) (ga gb gc : DLGraph) (x : Nat), RunReach e.u g5 pa ga →
        RunLater e.u pa ga pb gb → RunLater e.u pb gb pc gc →
        gb.pi x ≠ ga.pi x → gc.pi x = gb.pi x) ∧
      (∀ x, (¬ ∃ es, ActivePath (exCheck exAllTrue (exStatic [exAtom2]) exAtom2)
          .DL_sssp_forward es e.v x) →
        (exCheck exAllTrue (exStatic [exAtom2]) exAtom2).pi x = (exStatic [exAtom2]).pi x) :=
  ⟨Reach.static exNoPol exAtom2 Reach.init rfl (by rfl), by decide, by rfl, by rfl,
    checkNegCycle_potentials exCfg [] (exStatic [exAtom2]) exAllTrue exAtom2 false 2
      (exCheck exAllTrue (exStatic [exAtom2]) exAtom2)
      (Reach.static exNoPol exAtom2 Reach.init rfl (by rfl)) (by decide) (by rfl)⟩

/-! ## The shortest-path trees -/

/-- The tree after `updateSPT`: the edge is the entry of its far end. -/
theorem updateSPT_tree (s s' : SPState) (e : DLEdge) (d : DL_sssp_direction)
    (h : updateSPT s e d = some s') :
    treeOf s' d = (treeOf s d).set (farEnd d e) (some e) ∧ farEnd d e < (treeOf s d).length := by
  unfold updateSPT at h
  cases d with
  | DL_sssp_forward =>
    simp only at h
    split at h
    · cases h
    · rename_i t ht
      simp only [Option.some.injEq] at h
      rw [← h]
      obtain ⟨a, ha, hset⟩ := modifyAt_eq_some _ _ _ _ ht
      have hlen := (modifyAt_length _ _ _ _ ht).2
      have e1 : (if s.dist_from_src e.v > s.max_dist_from_src then
          { s with max_dist_from_src := s.dist_from_src e.v } else s).fSPT = s.fSPT := by
        split <;> rfl
      rw [e1] at hset hlen
      exact ⟨hset, hlen⟩
  | DL_sssp_backward =>
    simp only at h
    split at h
    · cases h
    · rename_i t ht
      simp only [Option.some.injEq] at h
      rw [← h]
      obtain ⟨a, ha, hset⟩ := modifyAt_eq_some _ _ _ _ ht
      have hlen := (modifyAt_length _ _ _ _ ht).2
      have e1 : (if s.dist_from_dst e.u > s.max_dist_from_dst then
          { s with max_dist_from_dst := s.dist_from_dst e.u } else s).bSPT = s.bSPT := by
        split <;> rfl
      rw [e1] at hset hlen
      exact ⟨hset, hlen⟩

/-- The tree of the other direction and the explanation paths after
`updateSPT`. -/
theorem updateSPT_other (s s' : SPState) (e : DLEdge) (d : DL_sssp_direction)
    (h : updateSPT s e d = some s') :
    treeOf s' (otherDir d) = treeOf s (otherDir d) ∧ s'.shortest_paths = s.shortest_paths := by
  unfold updateSPT at h
  cases d with
  | DL_sssp_forward =>
    simp only at h
    split at h
    · cases h
    · simp only [Option.some.injEq] at h
      rw [← h]
      constructor
      · show (if _ then _ else _ : SPState).bSPT = _
        split <;> rfl
      · show (if _ then _ else _ : SPState).shortest_paths = _
        split <;> rfl
  | DL_sssp_backward =>
    simp only at h
    split at h
    · cases h
    · simp only [Option.some.injEq] at h
      rw [← h]
      constructor
      · show (if _ then _ else _ : SPState).fSPT = _
        split <;> rfl
      · show (if _ then _ else _ : SPState).shortest_paths = _
        split <;> rfl

/-- A pass leaves the tree of the other direction and the explanation paths
as they are. -/
theorem frame_otherTree (g : DLGraph) (d : DL_sssp_direction) :
    Frame g d (fun s s' => treeOf s' (otherDir d) = treeOf s (otherDir d) ∧
      s'.shortest_paths = s.shortest_paths) where
  same := fun _ => ⟨rfl, rfl⟩
  next := fun _ _ _ h1 h2 => ⟨h2.1.trans h1.1, h2.2.trans h1.2⟩
  setDist := fun s v x => by cases d <;> exact ⟨rfl, rfl⟩
  readDist := fun s v => ⟨rfl, rfl⟩
  finalDist := fun s v => ⟨rfl, rfl⟩
  setRelevancy := fun s v b => by cases d <;> exact ⟨rfl, rfl⟩
  updateRel := fun s v => by cases d <;> exact ⟨rfl, rfl⟩
  setDistFrom := fun s v k => by cases d <;> exact ⟨rfl, rfl⟩
  setPq := fun s l => by cases d <;> exact ⟨rfl, rfl⟩
  newRwt := fun s e r _ => ⟨rfl, rfl⟩
  tree := fun s e s' hs => updateSPT_other s s' e d hs
  relevant := fun s u => by cases d <;> exact ⟨rfl, rfl⟩
  adjSize := fun s n => ⟨rfl, rfl⟩
  initDist := fun s => ⟨rfl, rfl⟩
  initFinalDist := fun s => ⟨rfl, rfl⟩

/-- The extraction leaves the tree as it is. -/
theorem extractSSSP_tree (g : DLGraph) (d : DL_sssp_direction) (u : Nat) (rest : List Nat)
    (s s4 : SPState) (nr nr1 : Nat) (rel_u : Bool) (adj : AdjList)
    (h : extractSSSP g d u rest s nr = some (s4, nr1, rel_u, adj)) :
    treeOf s4 d = treeOf s d := by
  unfold extractSSSP at h
  simp only at h
  split at h
  · cases h
  · rename_i row hrow
    simp only [Option.some.injEq, Prod.mk.injEq] at h
    obtain ⟨h1, -, -, -⟩ := h
    have c1 : treeOf (finalDist (popPBheap s d rest) u) d = treeOf s d := by
      cases d <;> rfl
    have c2 : ∀ (sa : SPState), treeOf (if getRelevancy sa d u = true then
          insertRelevantVertices g sa u d else sa) d = treeOf sa d := by
      intro sa
      split
      · cases d <;> rfl
      · rfl
    have c3 : ∀ (sa : SPState), treeOf (if d = DL_sssp_direction.DL_sssp_forward then
          updateDxRel sa u else updateDyRel sa u) d = treeOf sa d := by
      intro sa
      cases d <;> rfl
    have c4 : ∀ (sa : SPState), treeOf (if row.length > sa.max_adj_list_size then
          { sa with max_adj_list_size := row.length } else sa) d = treeOf sa d := by
      intro sa
      split
      · cases d <;> rfl
      · rfl
    rw [← h1, c4, c3, c2, c1]

/-- The tree after lines 781-786 is the tree before. -/
theorem tree_relFresh (s3 : SPState) (d : DL_sssp_direction) (v : Nat) (rel_u : Bool) :
    treeOf (if (!if d = DL_sssp_direction.DL_sssp_forward then isDxRelValid s3 v
          else isDyRelValid s3 v) = true then
        if d = DL_sssp_direction.DL_sssp_forward then updateDxRel (setRelevancy s3 d v rel_u) v
        else updateDyRel (setRelevancy s3 d v rel_u) v
      else s3) d = treeOf s3 d := by
  generalize (if d = DL_sssp_direction.DL_sssp_forward then isDxRelValid s3 v
    else isDyRelValid s3 v) = b
  cases b
  · simp only [Bool.not_false, if_true]
    cases d <;> rfl
  · rfl

/-- The tree after the body of the for loop with eager generation, on the
code; an edge that becomes an entry has a row in the tree. -/
theorem relaxEdge_tree (g : DLGraph) (d : DL_sssp_direction) (u : Nat)
    (rel_u : Bool) (it : DLEdge) (s s' : SPState) (nr nr' : Nat) (hr : RwtOk g s)
    (h : relaxEdge 0 g d u rel_u it s nr = some (s', nr')) :
    treeOf s' d = treeRelax (treeOf s d) (s.view d) u (farEnd d it) (rwtOf g it) it ∧
      ((s.view d).final (farEnd d it) = false →
        ((s.view d).read (farEnd d it) = false ∨
          (s.view d).dist (farEnd d it) > (s.view d).dist u + rwtOf g it) →
        farEnd d it < (treeOf s d).length) := by
  unfold relaxEdge at h
  simp only at h
  unfold treeRelax
  split at h
  · rename_i hfin
    simp only [Option.some.injEq, Prod.mk.injEq] at h
    rw [← h.1]
    have hfin' : (s.view d).final (farEnd d it) = true := hfin
    rw [if_pos hfin']
    refine ⟨rfl, fun hh => ?_⟩
    rw [hfin'] at hh
    cases hh
  · rename_i hfin
    have hfin' : ¬ (s.view d).final (farEnd d it) = true := hfin
    rw [if_neg hfin']
    split at h
    · cases h
    · rename_i s1 hvalid
      obtain ⟨hr1, hv1, hw⟩ := rwt_step g s s1 it d hr hvalid
      have ht1 := rwt_step_tree g s s1 it d hvalid
      have hdu : getDist s1 d u = (s.view d).dist u := by
        have : (s1.view d).dist u = (s.view d).dist u := by rw [hv1]
        exact this
      have hdv : getDist s1 d (farEnd d it) = (s.view d).dist (farEnd d it) := by
        have : (s1.view d).dist (farEnd d it) = (s.view d).dist (farEnd d it) := by rw [hv1]
        exact this
      have hrd : isDistRead s1 (farEnd d it) = (s.view d).read (farEnd d it) := by
        have : (s1.view d).read (farEnd d it) = (s.view d).read (farEnd d it) := by rw [hv1]
        exact this
      rw [hw, hdu] at h
      split at h
      · cases h
      · split at h
        · rename_i hnr
          rw [hrd] at hnr
          rw [if_pos hnr]
          split at h
          · cases h
          · rename_i s3 hs3
            simp only [if_true] at hs3
            obtain ⟨ht3, hlen3⟩ := updateSPT_tree _ s3 it d hs3
            have ht2 : treeOf (setDist s1 d (farEnd d it) ((s.view d).dist u + rwtOf g it)) d =
                treeOf s1 d := by cases d <;> rfl
            rw [ht2, ht1] at ht3 hlen3
            have h34 := tree_relFresh s3 d (farEnd d it) rel_u
            generalize (if (!if d = DL_sssp_direction.DL_sssp_forward then
                    isDxRelValid s3 (farEnd d it)
                  else isDyRelValid s3 (farEnd d it)) = true then
                if d = DL_sssp_direction.DL_sssp_forward then
                  updateDxRel (setRelevancy s3 d (farEnd d it) rel_u) (farEnd d it)
                else updateDyRel (setRelevancy s3 d (farEnd d it) rel_u) (farEnd d it)
              else s3) = s4 at h h34
            split at h
            · cases h
            · split at h
              · simp only [Option.some.injEq, Prod.mk.injEq] at h
                rw [← h.1]
                refine ⟨?_, fun _ _ => hlen3⟩
                rw [← ht3, ← h34]
                cases d <;> rfl
              · simp only [Option.some.injEq, Prod.mk.injEq] at h
                rw [← h.1]
                refine ⟨?_, fun _ _ => hlen3⟩
                rw [← ht3, ← h34]
                cases d <;> rfl
        · rename_i hnr
          rw [hrd] at hnr
          rw [if_neg hnr]
          split at h
          · cases h
          · rw [hdv] at h
            split at h
            · rename_i hgt
              rw [if_pos hgt]
              split at h
              · cases h
              · rename_i s5 hs5
                simp only [if_true] at hs5
                obtain ⟨ht5, hlen5⟩ := updateSPT_tree _ s5 it d hs5
                have ht4 : treeOf (modifyPBheap
                    (if d = DL_sssp_direction.DL_sssp_forward then
                      updateDxRel (setRelevancy
                        (setDist s1 d (farEnd d it) ((s.view d).dist u + rwtOf g it)) d
                        (farEnd d it) rel_u) (farEnd d it)
                    else updateDyRel (setRelevancy
                        (setDist s1 d (farEnd d it) ((s.view d).dist u + rwtOf g it)) d
                        (farEnd d it) rel_u) (farEnd d it)) d (farEnd d it)) d =
                    treeOf s1 d := by cases d <;> rfl
                rw [ht4, ht1] at ht5 hlen5
                simp only [Option.some.injEq, Prod.mk.injEq] at h
                rw [← h.1]
                refine ⟨?_, fun _ _ => hlen5⟩
                rw [← ht5]
                have h56 : treeOf (if getRelevancy s5 d (farEnd d it) = true then
                      setDistFrom s5 d (farEnd d it) (getDistFrom s5 d u + 1)
                    else s5) d = treeOf s5 d := by
                  split
                  · cases d <;> rfl
                  · rfl
                rw [← h56]
                cases d <;> rfl
            · rename_i hgt
              rw [if_neg hgt]
              simp only [Option.some.injEq, Prod.mk.injEq] at h
              rw [← h.1]
              refine ⟨?_, fun _ hh => ?_⟩
              · rw [← ht1]
                cases d <;> rfl
              · exfalso
                rcases hh with hh | hh
                · rw [hh] at hnr
                  exact hnr rfl
                · exact hgt hh

/-! ## Chains of parent edges -/

/-- A chain of parent edges is a path of active edges. -/
theorem SptPath.activePath {g : DLGraph} {d : DL_sssp_direction} {T : List (Option DLEdge)} :
    ∀ {es : List DLEdge} {a b : Nat}, SptPath g d T es a b → ActivePath g d es a b := by
  intro es
  induction es with
  | nil =>
    intro a b h
    exact h
  | cons x rest ih =>
    intro a b h
    exact ⟨h.1, ih h.2.2.2⟩

/-- A chain goes on by an edge from its end that is the entry of its far
end. -/
theorem SptPath.snoc {g : DLGraph} {d : DL_sssp_direction} {T : List (Option DLEdge)} :
    ∀ {es : List DLEdge} {a b : Nat} {x : DLEdge}, SptPath g d T es a b →
      x ∈ adjOf g d b → nearEnd d x = b → T[farEnd d x]? = some (some x) →
      SptPath g d T (es ++ [x]) a (farEnd d x) := by
  intro es
  induction es with
  | nil =>
    intro a b x h h1 h2 h3
    have hab : a = b := h
    rw [hab]
    exact ⟨h1, h2, h3, rfl⟩
  | cons y rest ih =>
    intro a b x h h1 h2 h3
    exact ⟨h.1, h.2.1, h.2.2.1, ih h.2.2.2 h1 h2 h3⟩

/-- The far end of an edge of a chain is the end of the chain or the near end
of the next edge. -/
theorem SptPath.far_cases {g : DLGraph} {d : DL_sssp_direction} {T : List (Option DLEdge)} :
    ∀ {es : List DLEdge} {a b : Nat}, SptPath g d T es a b →
      ∀ x ∈ es, farEnd d x = b ∨ ∃ y ∈ es, nearEnd d y = farEnd d x := by
  intro es
  induction es with
  | nil =>
    intro a b _ x hx
    exact absurd hx (List.not_mem_nil _)
  | cons z rest ih =>
    intro a b h x hx
    rcases List.mem_cons.1 hx with h1 | h1
    · rw [h1]
      cases rest with
      | nil =>
        left
        exact h.2.2.2
      | cons z2 rest2 =>
        right
        exact ⟨z2, List.mem_cons_of_mem _ (List.mem_cons_self _ _), h.2.2.2.2.1⟩
    · rcases ih h.2.2.2 x h1 with h2 | ⟨y, hy, h2⟩
      · exact Or.inl h2
      · exact Or.inr ⟨y, List.mem_cons_of_mem _ hy, h2⟩

/-- On a chain whose vertices before the last one are final, the far end of
every edge is the end of the chain or final. -/
theorem TreePath.far_fin {g : DLGraph} {d : DL_sssp_direction} {T : List (Option DLEdge)}
    {fin : Nat → Bool} {es : List DLEdge} {a b : Nat} (h : TreePath g d T fin es a b) :
    ∀ x ∈ es, farEnd d x = b ∨ fin (farEnd d x) = true := by
  intro x hx
  rcases h.1.far_cases x hx with h1 | ⟨y, hy, h1⟩
  · exact Or.inl h1
  · right
    rw [← h1]
    exact h.2 y hy

/-- A chain stays one when an entry changes that is the far end of none of its
edges. -/
theorem SptPath.set_off {g : DLGraph} {d : DL_sssp_direction} {T : List (Option DLEdge)}
    (v : Nat) (e : Option DLEdge) :
    ∀ {es : List DLEdge} {a b : Nat}, SptPath g d T es a b →
      (∀ x ∈ es, farEnd d x ≠ v) → SptPath g d (T.set v e) es a b := by
  intro es
  induction es with
  | nil =>
    intro a b h _
    exact h
  | cons x rest ih =>
    intro a b h hne
    refine ⟨h.1, h.2.1, ?_, ih h.2.2.2 (fun y hy => hne y (List.mem_cons_of_mem _ hy))⟩
    rw [List.getElem?_set_ne (fun hc => hne x (List.mem_cons_self _ _) hc.symm)]
    exact h.2.2.1

/-- The tree at the first head of the while loop: the root has the empty
chain. -/
theorem treeInv_init (g : DLGraph) (d : DL_sssp_direction) (root : Nat) (V : DistView)
    (T : List (Option DLEdge)) (h : SpInit root V) : TreeInv g d root V T := by
  intro y hy
  have hyr : y = root := (h.read_iff y).1 hy
  refine ⟨[], ⟨hyr.symm, fun x hx => absurd hx (List.not_mem_nil _)⟩, ?_⟩
  exact List.nodup_singleton root

/-- The extraction keeps the invariant of the tree. -/
theorem TreeInv.tree_extract {g : DLGraph} {d : DL_sssp_direction} {root : Nat} {V : DistView}
    {T : List (Option DLEdge)} (h : TreeInv g d root V T) (u : Nat) (rest : List Nat) :
    TreeInv g d root (V.extract u rest) T := by
  intro y hy
  obtain ⟨es, hp, hnd⟩ := h y hy
  refine ⟨es, ⟨hp.1, fun x hx => ?_⟩, hnd⟩
  show Function.update V.final u true (nearEnd d x) = true
  by_cases hxu : nearEnd d x = u
  · rw [hxu, Function.update_same]
  · rw [Function.update_noteq hxu]
    exact hp.2 x hx

/-- The chain of the far end of a relaxed edge: the chain of the extracted
vertex and the edge. -/
theorem TreeInv.extend {g : DLGraph} {d : DL_sssp_direction} {root : Nat} {V : DistView}
    {T : List (Option DLEdge)} (h : TreeInv g d root V T) (u : Nat) (it : DLEdge)
    (hu : V.final u = true) (hur : V.read u = true) (hroot : V.final root = true)
    (hit : it ∈ adjOf g d u) (hnear : nearEnd d it = u)
    (hv : V.final (farEnd d it) = false) (hlen : farEnd d it < T.length) :
    ∃ es, TreePath g d (T.set (farEnd d it) (some it)) V.final es root (farEnd d it) ∧
      (root :: es.map (farEnd d)).Nodup := by
  obtain ⟨es, hp, hnd⟩ := h u hur
  have hoff : ∀ x ∈ es, farEnd d x ≠ farEnd d it := by
    intro x hx hc
    rcases hp.far_fin x hx with h1 | h1
    · rw [hc] at h1
      rw [h1, hu] at hv
      cases hv
    · rw [hc, hv] at h1
      cases h1
  refine ⟨es ++ [it], ⟨?_, ?_⟩, ?_⟩
  · apply (hp.1.set_off (farEnd d it) (some it) hoff).snoc hit hnear
    rw [List.getElem?_set_self hlen]
  · intro x hx
    rcases List.mem_append.1 hx with h1 | h1
    · exact hp.2 x h1
    · rw [List.mem_singleton.1 h1, hnear]
      exact hu
  · rw [List.map_append, ← List.cons_append]
    refine List.Nodup.append hnd (List.nodup_singleton _) ?_
    intro a ha hb
    have hb' : a = farEnd d it := List.mem_singleton.1 hb
    rw [hb'] at ha
    rcases List.mem_cons.1 ha with h1 | h1
    · rw [h1, hroot] at hv
      cases hv
    · obtain ⟨x, hx, hxe⟩ := List.mem_map.1 h1
      exact hoff x hx hxe

/-- The body of the for loop keeps the invariant of the tree. -/
theorem TreeInv.tree_relax {g : DLGraph} {d : DL_sssp_direction} {root u : Nat} {it : DLEdge}
    {rest : AdjList} {V : DistView} {T : List (Option DLEdge)} (h : TreeInv g d root V T)
    (hv : SpInv g d root u (it :: rest) V) (hit : it ∈ adjOf g d u) (hnear : nearEnd d it = u)
    (w : Int)
    (hlen : V.final (farEnd d it) = false →
      (V.read (farEnd d it) = false ∨ V.dist (farEnd d it) > V.dist u + w) →
      farEnd d it < T.length) :
    TreeInv g d root (V.relax u (farEnd d it) w) (treeRelax T V u (farEnd d it) w it) := by
  have hu := hv.cur_final
  have hur := hv.final_read u hu
  by_cases hfin : V.final (farEnd d it) = true
  · have e1 : V.relax u (farEnd d it) w = V := by
      unfold DistView.relax
      rw [if_pos hfin]
    have e2 : treeRelax T V u (farEnd d it) w it = T := by
      unfold treeRelax
      rw [if_pos hfin]
    rw [e1, e2]
    exact h
  · have hfin' : V.final (farEnd d it) = false := Bool.eq_false_iff.2 hfin
    have keep : ∀ (V1 : DistView), V1.final = V.final →
        (∀ y, V1.read y = true → y ≠ farEnd d it → V.read y = true) →
        (V.read (farEnd d it) = false ∨ V.dist (farEnd d it) > V.dist u + w) →
        TreeInv g d root V1 (T.set (farEnd d it) (some it)) := by
      intro V1 hf1 hr1 hcase y hy
      rw [hf1]
      by_cases hyv : y = farEnd d it
      · rw [hyv]
        exact h.extend u it hu hur hv.root_final hit hnear hfin'
          (hlen hfin' hcase)
      · obtain ⟨es, hp, hnd⟩ := h y (hr1 y hy hyv)
        refine ⟨es, ⟨hp.1.set_off _ _ ?_, hp.2⟩, hnd⟩
        intro x hx hc
        rcases hp.far_fin x hx with h1 | h1
        · exact hyv (h1.symm.trans hc)
        · rw [hc, hfin'] at h1
          cases h1
    by_cases hread : V.read (farEnd d it) = true
    · by_cases hgt : V.dist (farEnd d it) > V.dist u + w
      · have e1 : V.relax u (farEnd d it) w =
            { V with
              dist := Function.update V.dist (farEnd d it) (V.dist u + w)
              read := Function.update V.read (farEnd d it) true
              heap := sortBy (Function.update V.dist (farEnd d it) (V.dist u + w)) V.heap } := by
          unfold DistView.relax
          rw [if_neg hfin, hread]
          simp only [Bool.not_true, Bool.false_eq_true, if_false]
          rw [if_pos hgt]
        have e2 : treeRelax T V u (farEnd d it) w it = T.set (farEnd d it) (some it) := by
          unfold treeRelax
          rw [if_neg hfin, hread]
          simp only [Bool.not_true, Bool.false_eq_true, if_false]
          rw [if_pos hgt]
        rw [e1, e2]
        refine keep _ rfl ?_ (Or.inr hgt)
        intro y hy hyv
        have hy' : Function.update V.read (farEnd d it) true y = true := hy
        rw [Function.update_noteq hyv] at hy'
        exact hy'
      · have e1 : V.relax u (farEnd d it) w =
            { V with read := Function.update V.read (farEnd d it) true } := by
          unfold DistView.relax
          rw [if_neg hfin, hread]
          simp only [Bool.not_true, Bool.false_eq_true, if_false]
          rw [if_neg hgt]
        have e2 : treeRelax T V u (farEnd d it) w it = T := by
          unfold treeRelax
          rw [if_neg hfin, hread]
          simp only [Bool.not_true, Bool.false_eq_true, if_false]
          rw [if_neg hgt]
        rw [e1, e2]
        intro y hy
        have hy' : Function.update V.read (farEnd d it) true y = true := hy
        have hyr : V.read y = true := by
          by_cases hyv : y = farEnd d it
          · rw [hyv]
            exact hread
          · rw [Function.update_noteq hyv] at hy'
            exact hy'
        exact h y hyr
    · have hread' : V.read (farEnd d it) = false := Bool.eq_false_iff.2 hread
      have e1 : V.relax u (farEnd d it) w =
          { V with
            dist := Function.update V.dist (farEnd d it) (V.dist u + w)
            read := Function.update V.read (farEnd d it) true
            heap := sortBy (Function.update V.dist (farEnd d it) (V.dist u + w))
              (V.heap ++ [farEnd d it]) } := by
        unfold DistView.relax
        rw [if_neg hfin, hread']
        simp only [Bool.not_false, if_true]
      have e2 : treeRelax T V u (farEnd d it) w it = T.set (farEnd d it) (some it) := by
        unfold treeRelax
        rw [if_neg hfin, hread']
        simp only [Bool.not_false, if_true]
      rw [e1, e2]
      refine keep _ rfl ?_ (Or.inl hread')
      intro y hy hyv
      have hy' : Function.update V.read (farEnd d it) true y = true := hy
      rw [Function.update_noteq hyv] at hy'
      exact hy'

/-! ## The parents of the relevant vertices -/

/-- The parents after the extraction of the root. -/
theorem relTree_root (g : DLGraph) (d : DL_sssp_direction) (root seed : Nat) (e0 : DLEdge)
    (V : DistView) (W : RelView) (T : List (Option DLEdge)) (h : RelInit root seed W)
    (hv : SpInit root V) :
    RelTree g d root seed e0 root (W.valid root && W.rel root) (adjOf g d root)
      (V.extract root []) ⟨W.rel, Function.update W.valid root true⟩ T := by
  refine ⟨?_, ?_⟩
  · intro y _ hrel hread
    exfalso
    have hyr : y = root := (hv.read_iff y).1 hread
    rw [hyr] at hrel
    have : W.rel root = true := hrel
    rw [h.root_rel] at this
    cases this
  · intro hc
    rw [h.root_rel, Bool.and_false] at hc
    cases hc

/-- The parents after an extraction at a head of the while loop. -/
theorem RelTree.chain_extract {g : DLGraph} {d : DL_sssp_direction} {root seed : Nat}
    {e0 : DLEdge} {u0 : Nat} {rel0 : Bool} {V : DistView} {W : RelView}
    {T : List (Option DLEdge)} (h : RelTree g d root seed e0 u0 rel0 [] V W T) (u : Nat)
    (rest : List Nat) (hvu : W.valid u = true) :
    RelTree g d root seed e0 u (W.valid u && W.rel u) (adjOf g d u) (V.extract u rest)
      ⟨W.rel, Function.update W.valid u true⟩ T := by
  have hval : ∀ y, Function.update W.valid u true y = W.valid y := by
    intro y
    by_cases hy : y = u
    · rw [hy, Function.update_same, hvu]
    · rw [Function.update_noteq hy]
  refine ⟨?_, ?_⟩
  · intro y hy1 hy2 hy3
    have hy1' : W.valid y = true := by
      rw [← hval y]
      exact hy1
    rcases h.parent y hy1' hy2 hy3 with ⟨x, hx1, hx2, hx3⟩ | hex
    · left
      refine ⟨x, hx1, hx2, ?_⟩
      rcases hx3 with h1 | ⟨h1, h2, h3⟩
      · exact Or.inl h1
      · right
        refine ⟨(hval _).trans h1, h2, ?_⟩
        show Function.update V.final u true (nearEnd d x) = true
        by_cases hxu : nearEnd d x = u
        · rw [hxu, Function.update_same]
        · rw [Function.update_noteq hxu]
          exact h3
    · exact absurd hex.2.1 (List.not_mem_nil _)
  · intro hc
    rw [Bool.and_eq_true] at hc
    exact ⟨(hval u).trans hc.1, hc.2⟩

/-- The body of the for loop keeps the parents of the relevant vertices, when
every edge parallel to `e0` is heavier. -/
theorem RelTree.chain_relax {g : DLGraph} {d : DL_sssp_direction} {root seed : Nat} {e0 : DLEdge}
    {u : Nat} {rel_u : Bool} {it : DLEdge} {rest : AdjList} {V : DistView} {W : RelView}
    {T : List (Option DLEdge)} {memo : Bool}
    (h : RelTree g d root seed e0 u rel_u (it :: rest) V W T)
    (hr : RelInv g d root seed e0 u rel_u (it :: rest) V W memo)
    (hv : SpInv g d root u (it :: rest) V) (hit : it ∈ adjOf g d u) (hnear : nearEnd d it = u)
    (hseed : farEnd d e0 = seed)
    (hpar : ∀ x ∈ adjOf g d root, farEnd d x = seed → x ≠ e0 → rwtOf g e0 < rwtOf g x)
    (hlen : V.final (farEnd d it) = false →
      (V.read (farEnd d it) = false ∨ V.dist (farEnd d it) > V.dist u + rwtOf g it) →
      farEnd d it < T.length) :
    RelTree g d root seed e0 u rel_u rest (V.relax u (farEnd d it) (rwtOf g it))
      (W.relax V u (farEnd d it) (rwtOf g it) rel_u)
      (treeRelax T V u (farEnd d it) (rwtOf g it) it) := by
  have hu := hv.cur_final
  have hur := hv.final_read u hu
  have hpend : ∀ y, y ≠ farEnd d it → e0 ∈ it :: rest → y = seed → e0 ∈ rest := by
    intro y hy he hys
    rcases List.mem_cons.1 he with h1 | h1
    · exfalso
      apply hy
      rw [hys, ← hseed, h1]
    · exact h1
  by_cases hfin : V.final (farEnd d it) = true
  · have e1 : V.relax u (farEnd d it) (rwtOf g it) = V := by
      unfold DistView.relax
      rw [if_pos hfin]
    have e2 : treeRelax T V u (farEnd d it) (rwtOf g it) it = T := by
      unfold treeRelax
      rw [if_pos hfin]
    have e3 : W.relax V u (farEnd d it) (rwtOf g it) rel_u = W := by
      unfold RelView.relax
      rw [if_pos hfin]
    rw [e1, e2, e3]
    refine ⟨?_, h.cur⟩
    intro y hy1 hy2 hy3
    rcases h.parent y hy1 hy2 hy3 with hl | ⟨hx1, hx2, hx3, hx4⟩
    · exact Or.inl hl
    · right
      refine ⟨hx1, ?_, hx3, hx4⟩
      rcases List.mem_cons.1 hx2 with h1 | h1
      · exfalso
        have hsf : V.final seed = true := by
          rw [← hseed, h1]
          exact hfin
        have hsr : seed = root := hr.first hx1 seed hsf
        rw [hx3, hsr, hr.root_rel] at hy2
        cases hy2
      · exact h1
  · have hfin' : V.final (farEnd d it) = false := Bool.eq_false_iff.2 hfin
    have hvu : farEnd d it ≠ u := by
      intro hc
      rw [hc, hu] at hfin'
      cases hfin'
    have keep : ∀ (V1 : DistView) (W1 : RelView) (T1 : List (Option DLEdge)),
        V1.final = V.final →
        (∀ y, y ≠ farEnd d it → V1.read y = V.read y ∧ V1.dist y = V.dist y ∧
          W1.valid y = W.valid y ∧ W1.rel y = W.rel y ∧ T1[y]? = T[y]?) →
        ∀ y, y ≠ farEnd d it → W1.valid y = true → W1.rel y = true → V1.read y = true →
          (∃ x, T1[y]? = some (some x) ∧ farEnd d x = y ∧
            (x = e0 ∨ (W1.valid (nearEnd d x) = true ∧ W1.rel (nearEnd d x) = true ∧
              V1.final (nearEnd d x) = true))) ∨
          (u = root ∧ e0 ∈ rest ∧ y = seed ∧ rwtOf g e0 < V1.dist seed) := by
      intro V1 W1 T1 hf1 hsame y hy hy1 hy2 hy3
      obtain ⟨s1, s2, s3, s4, s5⟩ := hsame y hy
      rw [s3] at hy1
      rw [s4] at hy2
      rw [s1] at hy3
      rcases h.parent y hy1 hy2 hy3 with ⟨x, hx1, hx2, hx3⟩ | ⟨hx1, hx2, hx3, hx4⟩
      · left
        refine ⟨x, s5.trans hx1, hx2, ?_⟩
        rcases hx3 with h1 | ⟨h1, h2, h3⟩
        · exact Or.inl h1
        · right
          have hpv : nearEnd d x ≠ farEnd d it := by
            intro hc
            rw [hc, hfin'] at h3
            cases h3
          obtain ⟨-, -, t3, t4, -⟩ := hsame _ hpv
          rw [t3, t4, hf1]
          exact ⟨h1, h2, h3⟩
      · right
        refine ⟨hx1, hpend y hy hx2 hx3, hx3, ?_⟩
        have hsv : seed ≠ farEnd d it := by
          rw [← hx3]
          exact hy
        rw [(hsame seed hsv).2.1]
        exact hx4
    have newParent : ∀ (V1 : DistView) (W1 : RelView), V1.final = V.final →
        W1.valid u = W.valid u → W1.rel u = W.rel u → rel_u = true →
        farEnd d it < T.length →
        (∃ x, (T.set (farEnd d it) (some it))[farEnd d it]? = some (some x) ∧
          farEnd d x = farEnd d it ∧
          (x = e0 ∨ (W1.valid (nearEnd d x) = true ∧ W1.rel (nearEnd d x) = true ∧
            V1.final (nearEnd d x) = true))) := by
      intro V1 W1 hf1 hw1 hw2 hrel hl
      refine ⟨it, List.getElem?_set_self hl, rfl, Or.inr ?_⟩
      rw [hnear, hw1, hw2, hf1]
      exact ⟨(h.cur hrel).1, (h.cur hrel).2, hu⟩
    have setOff : ∀ y, y ≠ farEnd d it →
        (T.set (farEnd d it) (some it))[y]? = T[y]? := by
      intro y hy
      exact List.getElem?_set_ne (fun hc => hy hc.symm)
    by_cases hread : V.read (farEnd d it) = true
    · by_cases hgt : V.dist (farEnd d it) > V.dist u + rwtOf g it
      · have e1 : V.relax u (farEnd d it) (rwtOf g it) =
            { V with
              dist := Function.update V.dist (farEnd d it) (V.dist u + rwtOf g it)
              read := Function.update V.read (farEnd d it) true
              heap := sortBy (Function.update V.dist (farEnd d it) (V.dist u + rwtOf g it))
                V.heap } := by
          unfold DistView.relax
          rw [if_neg hfin, hread]
          simp only [Bool.not_true, Bool.false_eq_true, if_false]
          rw [if_pos hgt]
        have e2 : treeRelax T V u (farEnd d it) (rwtOf g it) it =
            T.set (farEnd d it) (some it) := by
          unfold treeRelax
          rw [if_neg hfin, hread]
          simp only [Bool.not_true, Bool.false_eq_true, if_false]
          rw [if_pos hgt]
        have e3 : W.relax V u (farEnd d it) (rwtOf g it) rel_u =
            ⟨Function.update W.rel (farEnd d it) rel_u,
              Function.update W.valid (farEnd d it) true⟩ := by
          unfold RelView.relax
          rw [if_neg hfin, hread]
          simp only [Bool.not_true, Bool.false_eq_true, if_false]
          rw [if_pos hgt]
        rw [e1, e2, e3]
        refine ⟨?_, ?_⟩
        · intro y hy1 hy2 hy3
          by_cases hyv : y = farEnd d it
          · left
            rw [hyv]
            have hrel : rel_u = true := by
              rw [hyv] at hy2
              have : Function.update W.rel (farEnd d it) rel_u (farEnd d it) = true := hy2
              rw [Function.update_same] at this
              exact this
            exact newParent _ _ rfl (Function.update_noteq hvu.symm _ _)
              (Function.update_noteq hvu.symm _ _) hrel (hlen hfin' (Or.inr hgt))
          · exact keep
              { V with
                dist := Function.update V.dist (farEnd d it) (V.dist u + rwtOf g it)
                read := Function.update V.read (farEnd d it) true
                heap := sortBy (Function.update V.dist (farEnd d it) (V.dist u + rwtOf g it))
                  V.heap }
              ⟨Function.update W.rel (farEnd d it) rel_u,
                Function.update W.valid (farEnd d it) true⟩
              (T.set (farEnd d it) (some it)) rfl
              (fun z hz => ⟨Function.update_noteq hz _ _,
                Function.update_noteq hz _ _, Function.update_noteq hz _ _,
                Function.update_noteq hz _ _, setOff z hz⟩) y hyv hy1 hy2 hy3
        · intro hc
          obtain ⟨c1, c2⟩ := h.cur hc
          exact ⟨(Function.update_noteq hvu.symm _ _).trans c1,
            (Function.update_noteq hvu.symm _ _).trans c2⟩
      · have e1 : V.relax u (farEnd d it) (rwtOf g it) =
            { V with read := Function.update V.read (farEnd d it) true } := by
          unfold DistView.relax
          rw [if_neg hfin, hread]
          simp only [Bool.not_true, Bool.false_eq_true, if_false]
          rw [if_neg hgt]
        have e2 : treeRelax T V u (farEnd d it) (rwtOf g it) it = T := by
          unfold treeRelax
          rw [if_neg hfin, hread]
          simp only [Bool.not_true, Bool.false_eq_true, if_false]
          rw [if_neg hgt]
        have e3 : W.relax V u (farEnd d it) (rwtOf g it) rel_u = W := by
          unfold RelView.relax
          rw [if_neg hfin, hread]
          simp only [Bool.not_true, Bool.false_eq_true, if_false]
          rw [if_neg hgt]
        rw [e1, e2, e3]
        refine ⟨?_, h.cur⟩
        intro y hy1 hy2 hy3
        have hy3' : V.read y = true := by
          have hy4 : Function.update V.read (farEnd d it) true y = true := hy3
          by_cases hyv : y = farEnd d it
          · rw [hyv]
            exact hread
          · rw [Function.update_noteq hyv] at hy4
            exact hy4
        rcases h.parent y hy1 hy2 hy3' with hl | ⟨hx1, hx2, hx3, hx4⟩
        · exact Or.inl hl
        · right
          refine ⟨hx1, ?_, hx3, hx4⟩
          rcases List.mem_cons.1 hx2 with h1 | h1
          · exfalso
            apply hgt
            have hd0 : V.dist u = 0 := by
              rw [hx1]
              exact hv.root_dist
            rw [← h1, hseed, hd0]
            have hx4' : rwtOf g e0 < V.dist seed := hx4
            omega
          · exact h1
    · have hread' : V.read (farEnd d it) = false := Bool.eq_false_iff.2 hread
      have e1 : V.relax u (farEnd d it) (rwtOf g it) =
          { V with
            dist := Function.update V.dist (farEnd d it) (V.dist u + rwtOf g it)
            read := Function.update V.read (farEnd d it) true
            heap := sortBy (Function.update V.dist (farEnd d it) (V.dist u + rwtOf g it))
              (V.heap ++ [farEnd d it]) } := by
        unfold DistView.relax
        rw [if_neg hfin, hread']
        simp only [Bool.not_false, if_true]
      have e2 : treeRelax T V u (farEnd d it) (rwtOf g it) it =
          T.set (farEnd d it) (some it) := by
        unfold treeRelax
        rw [if_neg hfin, hread']
        simp only [Bool.not_false, if_true]
      have hl := hlen hfin' (Or.inl hread')
      by_cases hval : W.valid (farEnd d it) = true
      · have e3 : W.relax V u (farEnd d it) (rwtOf g it) rel_u = W := by
          unfold RelView.relax
          rw [if_neg hfin, hread']
          simp only [Bool.not_false, if_true]
          rw [if_pos hval]
        rw [e1, e2, e3]
        refine ⟨?_, h.cur⟩
        intro y hy1 hy2 hy3
        by_cases hyv : y = farEnd d it
        · have hvs : farEnd d it = seed := by
            rcases hr.valid_read (farEnd d it) hval with h1 | h1
            · rw [hread'] at h1
              cases h1
            · exact h1
          have hroot : u = root ∧ e0 ∈ it :: rest := by
            rcases hr.seed_read with h1 | h1
            · rw [← hvs, hread'] at h1
              cases h1
            · exact h1
          by_cases hie : it = e0
          · left
            rw [hyv]
            exact ⟨it, List.getElem?_set_self hl, rfl, Or.inl hie⟩
          · right
            refine ⟨hroot.1, ?_, hyv.trans hvs, ?_⟩
            · rcases List.mem_cons.1 hroot.2 with h1 | h1
              · exact absurd h1.symm hie
              · exact h1
            · show rwtOf g e0 <
                Function.update V.dist (farEnd d it) (V.dist u + rwtOf g it) seed
              rw [← hvs, Function.update_same]
              have hd0 : V.dist u = 0 := by
                rw [hroot.1]
                exact hv.root_dist
              have := hpar it (by rw [← hroot.1]; exact hit) hvs hie
              omega
        · exact keep
            { V with
              dist := Function.update V.dist (farEnd d it) (V.dist u + rwtOf g it)
              read := Function.update V.read (farEnd d it) true
              heap := sortBy (Function.update V.dist (farEnd d it) (V.dist u + rwtOf g it))
                (V.heap ++ [farEnd d it]) }
            W (T.set (farEnd d it) (some it)) rfl
            (fun z hz => ⟨Function.update_noteq hz _ _,
              Function.update_noteq hz _ _, rfl, rfl, setOff z hz⟩) y hyv hy1 hy2 hy3
      · have e3 : W.relax V u (farEnd d it) (rwtOf g it) rel_u =
            ⟨Function.update W.rel (farEnd d it) rel_u,
              Function.update W.valid (farEnd d it) true⟩ := by
          unfold RelView.relax
          rw [if_neg hfin, hread']
          simp only [Bool.not_false, if_true]
          rw [if_neg hval]
        rw [e1, e2, e3]
        refine ⟨?_, ?_⟩
        · intro y hy1 hy2 hy3
          by_cases hyv : y = farEnd d it
          · left
            rw [hyv]
            have hrel : rel_u = true := by
              rw [hyv] at hy2
              have : Function.update W.rel (farEnd d it) rel_u (farEnd d it) = true := hy2
              rw [Function.update_same] at this
              exact this
            exact newParent _ _ rfl (Function.update_noteq hvu.symm _ _)
              (Function.update_noteq hvu.symm _ _) hrel hl
          · exact keep
              { V with
                dist := Function.update V.dist (farEnd d it) (V.dist u + rwtOf g it)
                read := Function.update V.read (farEnd d it) true
                heap := sortBy (Function.update V.dist (farEnd d it) (V.dist u + rwtOf g it))
                  (V.heap ++ [farEnd d it]) }
              ⟨Function.update W.rel (farEnd d it) rel_u,
                Function.update W.valid (farEnd d it) true⟩
              (T.set (farEnd d it) (some it)) rfl
              (fun z hz => ⟨Function.update_noteq hz _ _,
                Function.update_noteq hz _ _, Function.update_noteq hz _ _,
                Function.update_noteq hz _ _, setOff z hz⟩) y hyv hy1 hy2 hy3
        · intro hc
          obtain ⟨c1, c2⟩ := h.cur hc
          exact ⟨(Function.update_noteq hvu.symm _ _).trans c1,
            (Function.update_noteq hvu.symm _ _).trans c2⟩

/-! ## The chains of a pass -/

/-- A chain without its last edge ends at the near end of that edge, whose far
end has the edge as its entry. -/
theorem SptPath.unsnoc {g : DLGraph} {d : DL_sssp_direction} {T : List (Option DLEdge)} :
    ∀ {es : List DLEdge} {a b : Nat} {x : DLEdge}, SptPath g d T (es ++ [x]) a b →
      SptPath g d T es a (nearEnd d x) ∧ x ∈ adjOf g d (nearEnd d x) ∧
        T[farEnd d x]? = some (some x) ∧ farEnd d x = b := by
  intro es
  induction es with
  | nil =>
    intro a b x h
    have h' : SptPath g d T [x] a b := h
    exact ⟨h'.2.1.symm, by rw [h'.2.1]; exact h'.1, h'.2.2.1, h'.2.2.2⟩
  | cons z rest ih =>
    intro a b x h
    have h' : SptPath g d T (z :: (rest ++ [x])) a b := h
    obtain ⟨i1, i2, i3, i4⟩ := ih h'.2.2.2
    exact ⟨⟨h'.1, h'.2.1, h'.2.2.1, i1⟩, i2, i3, i4⟩

/-- The end of a chain with an edge is the far end of one of its edges. -/
theorem SptPath.end_mem {g : DLGraph} {d : DL_sssp_direction} {T : List (Option DLEdge)} :
    ∀ {es : List DLEdge} {a b : Nat}, SptPath g d T es a b → es ≠ [] →
      b ∈ es.map (farEnd d) := by
  intro es
  induction es with
  | nil =>
    intro a b _ hne
    exact absurd rfl hne
  | cons z rest ih =>
    intro a b h _
    cases rest with
    | nil =>
      have hb : farEnd d z = b := h.2.2.2
      rw [← hb]
      exact List.mem_cons_self _ _
    | cons z2 rest2 =>
      exact List.mem_cons_of_mem _ (ih h.2.2.2 (List.cons_ne_nil _ _))

/-- The chain of a relevant vertex starts with the edge `e0`. -/
theorem relTree_head (g : DLGraph) (d : DL_sssp_direction) (root seed : Nat) (e0 : DLEdge)
    (u : Nat) (rel_u : Bool) (V : DistView) (W : RelView) (T : List (Option DLEdge))
    (hp : RelTree g d root seed e0 u rel_u [] V W T) (hroot : W.rel root = false)
    (hfr : ∀ a, V.final a = true → V.read a = true) (he0 : nearEnd d e0 = root) :
    ∀ (n : Nat) (P : List DLEdge) (y : Nat), P.length = n → SptPath g d T P root y →
      (root :: P.map (farEnd d)).Nodup → W.valid y = true → W.rel y = true →
      V.read y = true → ∃ es, P = e0 :: es := by
  intro n
  induction n with
  | zero =>
    intro P y hlen hP _ _ hrel _
    exfalso
    have hnil : P = [] := List.length_eq_zero.1 hlen
    rw [hnil] at hP
    have hy : root = y := hP
    rw [← hy, hroot] at hrel
    cases hrel
  | succ k ih =>
    intro P y hlen hP hnd hval hrel hread
    rcases List.eq_nil_or_concat P with hnil | ⟨P1, x, hPx⟩
    · rw [hnil] at hlen
      cases hlen
    · rw [List.concat_eq_append] at hPx
      rw [hPx] at hP hnd hlen
      obtain ⟨hP1, _, hTx, hfar⟩ := hP.unsnoc
      rcases hp.parent y hval hrel hread with ⟨x1, hx1, _, hx3⟩ | hex
      · rw [← hfar, hTx] at hx1
        simp only [Option.some.injEq] at hx1
        rw [← hx1] at hx3
        rcases hx3 with h1 | ⟨h1, h2, h3⟩
        · have hnear : nearEnd d x = root := by rw [h1]; exact he0
          rw [hnear] at hP1
          have hP1nil : P1 = [] := by
            by_contra hne
            have hmem := hP1.end_mem hne
            rw [List.nodup_cons, List.map_append] at hnd
            exact hnd.1 (List.mem_append_left _ hmem)
          refine ⟨[], ?_⟩
          rw [hPx, hP1nil, h1]
          rfl
        · have hlen1 : P1.length = k := by
            rw [List.length_append] at hlen
            simp only [List.length_singleton] at hlen
            omega
          have hnd1 : (root :: P1.map (farEnd d)).Nodup := by
            rw [List.map_append, ← List.cons_append] at hnd
            exact (List.nodup_append.1 hnd).1
          obtain ⟨es1, hes1⟩ := ih P1 (nearEnd d x) hlen1 hP1 hnd1 h1 h2 (hfr _ h3)
          refine ⟨es1 ++ [x], ?_⟩
          rw [hPx, hes1]
          rfl
      · exact absurd hex.2.1 (List.not_mem_nil _)

/-- The tree of a pass: after a pass of `findSSSP` with eager generation
from a root `x`, every vertex that the pass has read has a chain of parent
edges of the tree of the direction from the root, on which no vertex comes
twice. -/
theorem findSSSP_chains (g : DLGraph) (s s' : SPState) (x : Nat) (d : DL_sssp_direction)
    (fuel : Nat) (hst : DistStamps s) (hr : RwtOk g s) (hf : RwtNonneg g d)
    (hplaced : ∀ (a : Nat) (e : DLEdge), e ∈ adjOf g d a → nearEnd d e = a)
    (h : findSSSP 0 g s x d fuel = some s') :
    ∀ y, isDistRead s' y = true →
      ∃ es, SptPath g d (treeOf s' d) es x y ∧ (x :: es.map (farEnd d)).Nodup := by
  obtain ⟨hpq, s6, hloop, hs'⟩ := (findSSSP_eq 0 g s s' x d fuel).1 h
  have hinit := spInit_startSSSP x d hst hpq
  have hends := ssspLoop_ends 0 g d
    (fun s => RwtOk g s ∧ (SpInit x (s.view d) ∨ ∃ u0, SpInv g d x u0 [] (s.view d)) ∧
      TreeInv g d x (s.view d) (treeOf s d))
    (fun u _ pending s => RwtOk g s ∧ SpInv g d x u pending (s.view d) ∧
      (∀ y ∈ pending, y ∈ adjOf g d u) ∧ TreeInv g d x (s.view d) (treeOf s d))
    ?_ ?_ ?_ fuel (startSSSP s x d) s6 0
    ⟨rwtOk_startSSSP x d hr, Or.inl hinit, treeInv_init g d x _ _ hinit⟩ hloop
  · rcases hends with ⟨-, hnil⟩ | ⟨u, rel_u, -, -, -, htree⟩
    · exfalso
      have h1 : ((startSSSP s x d).view d).heap = [] := hnil
      rw [hinit.heap_eq] at h1
      cases h1
    · intro y hy
      have hy6 : (s6.view d).read y = true := by
        rw [hs'] at hy
        have : isDistRead (clearPBheap s6 d) y = (s6.view d).read y := by cases d <;> rfl
        rw [← this]
        exact hy
      obtain ⟨es, hp, hnd⟩ := htree y hy6
      refine ⟨es, ?_, hnd⟩
      have ht : treeOf s' d = treeOf s6 d := by
        rw [hs']
        cases d <;> rfl
      rw [ht]
      exact hp.1
  · intro s u rest nr s4 nr1 rel_u adj hI hheap hex
    obtain ⟨hr4, hv4, hadj⟩ := extractSSSP_view g d u rest s s4 nr nr1 rel_u adj hI.1 hex
    have ht4 := extractSSSP_tree g d u rest s s4 nr nr1 rel_u adj hex
    refine ⟨hr4, ?_, fun y hy => by rw [← hadj]; exact hy, ?_⟩
    · rw [hv4, hadj]
      rcases hI.2.1 with h1 | ⟨u0, h1⟩
      · have hhe := h1.heap_eq
        have hheap1 : (s.view d).heap = u :: rest := hheap
        rw [hheap1] at hhe
        simp only [List.cons.injEq] at hhe
        obtain ⟨hs, hrest⟩ := hhe
        subst hrest
        subst hs
        exact h1.extract_root hf
      · exact h1.extract_step hf u rest hheap
    · rw [hv4, ht4]
      exact hI.2.2.tree_extract u rest
  · intro u rel_u it rest s nr s1 nr1 hJ hrelax
    obtain ⟨hr0, hv, hpend, htree⟩ := hJ
    obtain ⟨hr1, hv1⟩ := relaxEdge_view 0 g d u rel_u it s s1 nr nr1 hr0 hrelax
    obtain ⟨ht1, hlen⟩ := relaxEdge_tree g d u rel_u it s s1 nr nr1 hr0 hrelax
    have hit : it ∈ adjOf g d u := hpend it (List.mem_cons_self _ _)
    refine ⟨hr1, ?_, fun y hy => hpend y (List.mem_cons_of_mem _ hy), ?_⟩
    · rw [hv1]
      exact hv.relax_step hf hit
    · rw [hv1, ht1]
      exact htree.tree_relax hv hit (hplaced u it hit) (rwtOf g it) hlen
  · intro u rel_u s hJ
    exact ⟨hJ.1, Or.inr ⟨u, hJ.2.1⟩, hJ.2.2.2⟩

/-- The chains of the relevant vertices: after a pass of `findSSSP` with eager
generation from the near end `x` of the activated edge `e0`, whose far end
`seed` alone may carry a valid flag at the call, and every edge parallel to
`e0` is heavier: a vertex with a valid flag that is relevant has a chain of
parent edges from the root that starts with `e0`, on which no vertex comes
twice. -/
theorem findSSSP_relChains (g : DLGraph) (s s' : SPState) (x seed : Nat) (e0 : DLEdge)
    (d : DL_sssp_direction) (fuel : Nat) (hst : DistStamps s) (hr : RwtOk g s)
    (hf : RwtNonneg g d)
    (hplaced : ∀ (a : Nat) (e : DLEdge), e ∈ adjOf g d a → nearEnd d e = a)
    (he0 : e0 ∈ adjOf g d x) (hseed : farEnd d e0 = seed)
    (hpar : ∀ y ∈ adjOf g d x, farEnd d y = seed → y ≠ e0 → rwtOf g e0 < rwtOf g y)
    (honly : ∀ y, relValid s d y = true → y = seed)
    (h : findSSSP 0 g s x d fuel = some s') :
    ∀ y, relValid s' d y = true → getRelevancy s' d y = true →
      ∃ es, SptPath g d (treeOf s' d) (e0 :: es) x y ∧
        (x :: (e0 :: es).map (farEnd d)).Nodup := by
  have hparle : ∀ y ∈ adjOf g d x, farEnd d y = seed → rwtOf g e0 ≤ rwtOf g y := by
    intro y hy hys
    by_cases hye : y = e0
    · rw [hye]
    · exact le_of_lt (hpar y hy hys hye)
  obtain ⟨hpq, s6, hloop, hs'⟩ := (findSSSP_eq 0 g s s' x d fuel).1 h
  have hinit := spInit_startSSSP x d hst hpq
  have hrinit : RelInit x seed ((startSSSP s x d).relView d) := by
    rw [relView_startSSSP]
    refine ⟨Function.update_same _ _ _, Function.update_same _ _ _, ?_⟩
    intro y hy
    have hy1 : Function.update (s.relView d).valid x true y = true := hy
    by_cases hyx : y = x
    · exact Or.inl hyx
    · rw [Function.update_noteq hyx] at hy1
      exact Or.inr (honly y hy1)
  have hends := ssspLoop_ends 0 g d
    (fun s => RwtOk g s ∧ TreeInv g d x (s.view d) (treeOf s d) ∧
      ((SpInit x (s.view d) ∧ RelInit x seed (s.relView d)) ∨
      ∃ u0 r0, SpInv g d x u0 [] (s.view d) ∧
        RelInv g d x seed e0 u0 r0 [] (s.view d) (s.relView d) (isRwtValid s e0) ∧
        RelTree g d x seed e0 u0 r0 [] (s.view d) (s.relView d) (treeOf s d)))
    (fun u rel_u pending s => RwtOk g s ∧ SpInv g d x u pending (s.view d) ∧
      (∀ y ∈ pending, y ∈ adjOf g d u) ∧
      RelInv g d x seed e0 u rel_u pending (s.view d) (s.relView d) (isRwtValid s e0) ∧
      TreeInv g d x (s.view d) (treeOf s d) ∧
      RelTree g d x seed e0 u rel_u pending (s.view d) (s.relView d) (treeOf s d))
    ?_ ?_ ?_ fuel (startSSSP s x d) s6 0
    ⟨rwtOk_startSSSP x d hr, treeInv_init g d x _ _ hinit, Or.inl ⟨hinit, hrinit⟩⟩ hloop
  · rcases hends with ⟨-, hnil⟩ | ⟨u, rel_u, -, hv, -, hrel, htree, hpt⟩
    · exfalso
      have h1 : ((startSSSP s x d).view d).heap = [] := hnil
      rw [hinit.heap_eq] at h1
      cases h1
    · intro y hval hrl
      have hval6 : (s6.relView d).valid y = true := by
        rw [hs'] at hval
        have : relValid (clearPBheap s6 d) d y = (s6.relView d).valid y := by cases d <;> rfl
        rw [← this]
        exact hval
      have hrl6 : (s6.relView d).rel y = true := by
        rw [hs'] at hrl
        have : getRelevancy (clearPBheap s6 d) d y = (s6.relView d).rel y := by cases d <;> rfl
        rw [← this]
        exact hrl
      have hsread : (s6.view d).read seed = true := by
        rcases hrel.seed_read with h5 | h5
        · exact h5
        · exact absurd h5.2 (List.not_mem_nil _)
      have hyread : (s6.view d).read y = true := by
        rcases hrel.valid_read y hval6 with h5 | h5
        · exact h5
        · rw [h5]
          exact hsread
      obtain ⟨P, hP, hnd⟩ := htree y hyread
      obtain ⟨es, hes⟩ := relTree_head g d x seed e0 u rel_u _ _ _ hpt hrel.root_rel
        hv.final_read (hplaced x e0 he0) P.length P y rfl hP.1 hnd hval6 hrl6 hyread
      have ht : treeOf s' d = treeOf s6 d := by
        rw [hs']
        cases d <;> rfl
      refine ⟨es, ?_, ?_⟩
      · rw [ht, ← hes]
        exact hP.1
      · rw [← hes]
        exact hnd
  · intro s u rest nr s4 nr1 rel_u adj hI hheap hex
    obtain ⟨hr4, hv4, hadj⟩ := extractSSSP_view g d u rest s s4 nr nr1 rel_u adj hI.1 hex
    obtain ⟨hw4, hru, hm4⟩ := extractSSSP_rel g d u rest s s4 nr nr1 rel_u adj hex
    have ht4 := extractSSSP_tree g d u rest s s4 nr nr1 rel_u adj hex
    refine ⟨hr4, ?_, fun y hy => by rw [← hadj]; exact hy, ?_, ?_, ?_⟩
    · rw [hv4, hadj]
      rcases hI.2.2 with ⟨h1, -⟩ | ⟨u0, r0, h1, -, -⟩
      · have hhe := h1.heap_eq
        have hheap1 : (s.view d).heap = u :: rest := hheap
        rw [hheap1] at hhe
        simp only [List.cons.injEq] at hhe
        obtain ⟨hs, hrest⟩ := hhe
        subst hrest
        subst hs
        exact h1.extract_root hf
      · exact h1.extract_step hf u rest hheap
    · rw [hv4, hw4, hadj, hru]
      rcases hI.2.2 with ⟨h1, h2⟩ | ⟨u0, r0, h1, h2, -⟩
      · have hhe := h1.heap_eq
        have hheap1 : (s.view d).heap = u :: rest := hheap
        rw [hheap1] at hhe
        simp only [List.cons.injEq] at hhe
        obtain ⟨hs, hrest⟩ := hhe
        subst hrest
        subst hs
        exact h2.rel_root h1 he0 _
      · exact h2.rel_extract h1 u rest hheap _ (fun hm => by rw [hm4 e0]; exact hm)
    · rw [hv4, ht4]
      exact hI.2.1.tree_extract u rest
    · rw [hv4, hw4, hadj, hru, ht4]
      rcases hI.2.2 with ⟨h1, h2⟩ | ⟨u0, r0, h1, h2, h3⟩
      · have hhe := h1.heap_eq
        have hheap1 : (s.view d).heap = u :: rest := hheap
        rw [hheap1] at hhe
        simp only [List.cons.injEq] at hhe
        obtain ⟨hs, hrest⟩ := hhe
        subst hrest
        subst hs
        exact relTree_root g d u seed e0 _ _ _ h2 h1
      · refine h3.chain_extract u rest ?_
        apply h2.read_valid
        have hu : u ∈ (s.view d).heap := by
          have hheap1 : (s.view d).heap = u :: rest := hheap
          rw [hheap1]
          exact List.mem_cons_self _ _
        exact ((h1.heap_iff u).1 hu).1
  · intro u rel_u it rest s nr s1 nr1 hJ hrelax
    obtain ⟨hr0, hv, hpend, hrel, htree, hpt⟩ := hJ
    obtain ⟨hr1, hv1⟩ := relaxEdge_view 0 g d u rel_u it s s1 nr nr1 hr0 hrelax
    obtain ⟨hw1, hmono, hnew⟩ := relaxEdge_rel 0 g d u rel_u it s s1 nr nr1 hr0 hrelax
    obtain ⟨ht1, hlen⟩ := relaxEdge_tree g d u rel_u it s s1 nr nr1 hr0 hrelax
    have hit : it ∈ adjOf g d u := hpend it (List.mem_cons_self _ _)
    refine ⟨hr1, ?_, fun y hy => hpend y (List.mem_cons_of_mem _ hy), ?_, ?_, ?_⟩
    · rw [hv1]
      exact hv.relax_step hf hit
    · rw [hv1, hw1]
      refine hrel.rel_relax hv hit hseed hparle _ (hmono e0) ?_
      intro hie hfin
      rw [← hie]
      exact hnew hfin
    · rw [hv1, ht1]
      exact htree.tree_relax hv hit (hplaced u it hit) (rwtOf g it) hlen
    · rw [hv1, hw1, ht1]
      exact hpt.chain_relax hrel hv hit (hplaced u it hit) hseed hpar hlen
  · intro u rel_u s hJ
    exact ⟨hJ.1, hJ.2.2.2.2.1, Or.inr ⟨u, rel_u, hJ.2.1, hJ.2.2.2.1, hJ.2.2.2.2.2⟩⟩

/-! ## The walks of `findShortestPath` -/

/-- The walk along `bSPT` from a vertex `w` with a chain of parent edges `es`
of the backward tree from the source `x` of the reason `r`, which is the entry
of `x`: it collects the chain from its end and then `r`. -/
theorem walkBSPT_chain (g : DLGraph) (T : List (Option DLEdge)) (r : DLEdge)
    (hr : T[r.u]? = some (some r)) :
    ∀ (es : List DLEdge) (w fuel : Nat),
      SptPath g .DL_sssp_backward T es r.u w →
      r.u ∉ es.map (farEnd .DL_sssp_backward) → es.length ≤ fuel →
      ∃ cur, T[w]? = some (some cur) ∧
        ∀ acc, walkBSPT T r.u fuel cur (acc ++ [cur]) = some (acc ++ (r :: es).reverse) := by
  intro es
  induction es using List.reverseRecOn with
  | nil =>
    intro w fuel hp _ _
    have hw : r.u = w := hp
    rw [← hw]
    refine ⟨r, hr, ?_⟩
    intro acc
    cases fuel with
    | zero =>
      show (if r.u = r.u then some (acc ++ [r]) else none) = _
      rw [if_pos rfl]
      rfl
    | succ k =>
      show (if r.u = r.u then some (acc ++ [r]) else _) = _
      rw [if_pos rfl]
      rfl
  | append_singleton es1 x ih =>
    intro w fuel hp hnot hlen
    obtain ⟨hp1, _, hTx, hfar⟩ := hp.unsnoc
    have hxu : x.u = w := hfar
    have hxw : x.u ≠ r.u := by
      intro hc
      apply hnot
      rw [List.map_append]
      apply List.mem_append_right
      rw [← hc]
      exact List.mem_singleton.2 rfl
    have hnot1 : r.u ∉ es1.map (farEnd .DL_sssp_backward) := by
      intro hc
      apply hnot
      rw [List.map_append]
      exact List.mem_append_left _ hc
    rw [List.length_append, List.length_singleton] at hlen
    cases fuel with
    | zero => omega
    | succ k =>
      obtain ⟨cur1, hcur1, hwalk1⟩ := ih (nearEnd .DL_sssp_backward x) k hp1 hnot1 (by omega)
      have hcur1' : T[x.v]? = some (some cur1) := hcur1
      refine ⟨x, by rw [← hfar]; exact hTx, ?_⟩
      intro acc
      show (if x.u = r.u then some (acc ++ [x])
        else
          match T[x.v]? with
          | some (some next_edge) => walkBSPT T r.u k next_edge (acc ++ [x] ++ [next_edge])
          | _ => none) = _
      rw [if_neg hxw, hcur1']
      show walkBSPT T r.u k cur1 (acc ++ [x] ++ [cur1]) = _
      rw [hwalk1 (acc ++ [x])]
      simp only [List.reverse_cons, List.reverse_append, List.reverse_nil, List.nil_append,
        List.singleton_append, List.append_assoc, List.cons_append]

/-- The walk along `fSPT` from a vertex `w` with a chain of parent edges `es`
of the forward tree from the target `y` of the reason, with at least one edge:
it collects the chain. -/
theorem walkFSPT_chain (g : DLGraph) (T : List (Option DLEdge)) (y : Nat) :
    ∀ (es : List DLEdge) (w fuel : Nat), es ≠ [] →
      SptPath g .DL_sssp_forward T es y w →
      y ∉ es.map (farEnd .DL_sssp_forward) → es.length ≤ fuel + 1 →
      ∃ cur, cur ∈ es ∧ T[w]? = some (some cur) ∧
        ∀ acc, walkFSPT T y fuel cur (cur :: acc) = some (es ++ acc) := by
  intro es
  induction es using List.reverseRecOn with
  | nil =>
    intro w fuel hne
    exact absurd rfl hne
  | append_singleton es1 x ih =>
    intro w fuel _ hp hnot hlen
    obtain ⟨hp1, _, hTx, hfar⟩ := hp.unsnoc
    have hTw : T[w]? = some (some x) := by rw [← hfar]; exact hTx
    refine ⟨x, List.mem_append_right _ (List.mem_singleton.2 rfl), hTw, ?_⟩
    by_cases hes1 : es1 = []
    · rw [hes1] at hp1 ⊢
      have hnear : y = x.u := hp1
      intro acc
      cases fuel with
      | zero =>
        show (if x.u = y then some (x :: acc) else none) = _
        rw [if_pos hnear.symm]
        rfl
      | succ k =>
        show (if x.u = y then some (x :: acc) else _) = _
        rw [if_pos hnear.symm]
        rfl
    · have hmem := hp1.end_mem hes1
      have hxy : x.u ≠ y := by
        intro hc
        apply hnot
        rw [List.map_append]
        apply List.mem_append_left
        rw [← hc]
        exact hmem
      have hnot1 : y ∉ es1.map (farEnd .DL_sssp_forward) := by
        intro hc
        apply hnot
        rw [List.map_append]
        exact List.mem_append_left _ hc
      rw [List.length_append, List.length_singleton] at hlen
      have hpos : 0 < es1.length := List.length_pos.2 hes1
      cases fuel with
      | zero => omega
      | succ k =>
        obtain ⟨cur1, -, hcur1, hwalk1⟩ := ih (nearEnd .DL_sssp_forward x) k hes1 hp1 hnot1
          (by omega)
        have hcur1' : T[x.u]? = some (some cur1) := hcur1
        intro acc
        show (if x.u = y then some (x :: acc)
          else
            match T[x.u]? with
            | some (some next_edge) => walkFSPT T y k next_edge (next_edge :: x :: acc)
            | _ => none) = _
        rw [if_neg hxy, hcur1']
        show walkFSPT T y k cur1 (cur1 :: x :: acc) = _
        rw [hwalk1 (x :: acc)]
        simp only [List.append_assoc, List.singleton_append]

/-- A call of `findShortestPath` for an edge with a path returns `false` and
leaves the state as it is. -/
theorem findShortestPath_known (s : SPState) (e r : DLEdge) (fuel : Nat) (p : List DLEdge)
    (hp : s.shortest_paths[e.id]? = some p) (hne : p ≠ []) :
    findShortestPath s e r fuel = some (false, s) := by
  unfold findShortestPath
  rw [hp]
  simp only
  rw [if_pos hne]

/-! ## The explanation path of a candidate -/

/-- When `isParallelAndHeavy( e )` fails, every other edge of the row of
`e->u` that leads to `e->v` has a larger reduced weight than `e`. -/
theorem heavier_forward {st : List (Enode × lbool)} {g : DLGraph} (hs : StoreInv st g)
    (e : DLEdge) (hpar : isParallelAndHeavy g e = false) :
    ∀ y ∈ adjOf g .DL_sssp_forward e.u, farEnd .DL_sssp_forward y = e.v → y ≠ e →
      rwtOf g e < rwtOf g y := by
  intro y hy hfar hye
  obtain ⟨-, hnear, -⟩ := hs.adj_edges .DL_sssp_forward e.u y hy
  have hyu : y.u = e.u := hnear
  have hyv : y.v = e.v := hfar
  unfold isParallelAndHeavy at hpar
  rw [List.any_eq_false] at hpar
  have h1 := hpar y hy
  have h2 : ¬ y.wt ≤ e.wt := by
    intro hle
    apply h1
    simp only [Bool.and_eq_true, decide_eq_true_eq]
    exact ⟨⟨hye, hyv⟩, hle⟩
  unfold rwtOf
  rw [hyu, hyv]
  omega

/-- The same for the row of `e->v` in `dAdjInc`. -/
theorem heavier_backward {st : List (Enode × lbool)} {g : DLGraph} (hs : StoreInv st g)
    (e : DLEdge) (hpar : isParallelAndHeavy g e = false) :
    ∀ y ∈ adjOf g .DL_sssp_backward e.v, farEnd .DL_sssp_backward y = e.u → y ≠ e →
      rwtOf g e < rwtOf g y := by
  intro y hy hfar hye
  obtain ⟨hyd, hnear, -⟩ := hs.adj_edges .DL_sssp_backward e.v y hy
  have hyu : y.u = e.u := hfar
  have hyv : y.v = e.v := hnear
  have h1 := (hs.mem_rows y hyd).1
  rw [hyu] at h1
  exact heavier_forward hs e hpar y h1 hyv hye

/-- Every edge of a chain is in the adjacency list of its near end. -/
theorem SptPath.mem_adj {g : DLGraph} {d : DL_sssp_direction} {T : List (Option DLEdge)} :
    ∀ {es : List DLEdge} {a b : Nat}, SptPath g d T es a b →
      ∀ x ∈ es, x ∈ adjOf g d (nearEnd d x) := by
  intro es
  induction es with
  | nil =>
    intro a b _ x hx
    exact absurd hx (List.not_mem_nil _)
  | cons z rest ih =>
    intro a b h x hx
    rcases List.mem_cons.1 hx with h1 | h1
    · rw [h1, h.2.1]
      exact h.1
    · exact ih h.2.2.2 x h1

/-- The near end of an edge of a chain is the start of the chain or the far
end of an edge of the chain. -/
theorem SptPath.near_cases {g : DLGraph} {d : DL_sssp_direction} {T : List (Option DLEdge)} :
    ∀ {es : List DLEdge} {a b : Nat}, SptPath g d T es a b →
      ∀ x ∈ es, nearEnd d x = a ∨ nearEnd d x ∈ es.map (farEnd d) := by
  intro es
  induction es with
  | nil =>
    intro a b _ x hx
    exact absurd hx (List.not_mem_nil _)
  | cons z rest ih =>
    intro a b h x hx
    rcases List.mem_cons.1 hx with h1 | h1
    · left
      rw [h1]
      exact h.2.1
    · right
      rcases ih h.2.2.2 x h1 with h2 | h2
      · rw [h2]
        exact List.mem_cons_self _ _
      · exact List.mem_cons_of_mem _ h2

/-- The chains of a candidate of `iterateInactive` after the two passes with
eager generation for an active edge `e` without a parallel edge that is not
heavier: the source of the candidate has a chain of parent edges of `bSPT`
from the target of `e` that starts with `e`, the target of the candidate has a
chain of parent edges of `fSPT` from the source of `e` that starts with `e`,
and no vertex comes twice on either. -/
theorem passes_chains (cfg : Config) (st : List (Enode × lbool)) (g : DLGraph)
    (A : AtomStore) (s2 s3 s4 : SPState) (e : DLEdge) (fuel : Nat)
    (calls : List (Int × DLEdge)) (hr : Reach cfg st g) (hfeas : AllFeasible g)
    (hst : DistStamps s2) (hrs : RwtStamps s2) (hrel : RelStamps s2) (he : e ∈ g.dEdges)
    (hpar : isParallelAndHeavy g e = false)
    (h3 : findSSSP 0 g (startForward s2 e) e.u .DL_sssp_forward fuel = some s3)
    (h4 : findSSSP 0 g (startBackward s3 e) e.v .DL_sssp_backward fuel = some s4)
    (hcalls : iterateInactive A g s4 e = some calls) (r : Int) (x : DLEdge)
    (hx : (r, x) ∈ calls) :
    ∃ esB esF, SptPath g .DL_sssp_backward s4.bSPT (e :: esB) e.v x.u ∧
      (e.v :: (e :: esB).map (farEnd .DL_sssp_backward)).Nodup ∧
      SptPath g .DL_sssp_forward s4.fSPT (e :: esF) e.u x.v ∧
      (e.u :: (e :: esF).map (farEnd .DL_sssp_forward)).Nodup := by
  have hs := reach_storeInv cfg st g hr
  have hpl := reach_hPlaced cfg st g hr
  have hfF := rwtNonneg_of_feasible cfg st g hr hfeas .DL_sssp_forward
  have hfB := rwtNonneg_of_feasible cfg st g hr hfeas .DL_sssp_backward
  obtain ⟨heF, heB⟩ := hs.mem_rows e he
  have hstF : DistStamps (startForward s2 e) := hst
  have hrF : RwtOk g (startForward s2 e) := by
    apply rwtOk_of_stale
    intro y
    exact Nat.lt_succ_of_le (hrs y)
  have hrelF : RelStamps (startForward s2 e) :=
    ⟨stamp_update_le _ _ e.v (fun y => Nat.le_succ_of_le (hrel.1 y)), hrel.2⟩
  obtain ⟨hr3, hst3, -, -, -⟩ := findSSSP_facts 0 g _ s3 _ _ fuel hstF hrF hfF h3
  have hrel3 : RelStamps s3 := findSSSP_frame 0 g .DL_sssp_forward _
    (frame_relStamps g .DL_sssp_forward) _ s3 _ fuel h3 hrelF
  have hstB : DistStamps (startBackward s3 e) := hst3
  have hrB : RwtOk g (startBackward s3 e) := rwtOk_of_fields rfl rfl rfl hr3
  have honlyF : ∀ y, relValid (startForward s2 e) .DL_sssp_forward y = true → y = e.v := by
    intro y hy
    by_contra hne
    have hy1 : (Function.update s2.dx_rel_list e.v (s2.dx_rel_token + 1) y ==
        s2.dx_rel_token + 1) = true := hy
    rw [Function.update_noteq hne, beq_iff_eq] at hy1
    have := hrel.1 y
    omega
  have honlyB : ∀ y, relValid (startBackward s3 e) .DL_sssp_backward y = true → y = e.u := by
    intro y hy
    by_contra hne
    have hy1 : (Function.update s3.dy_rel_list e.u (s3.dy_rel_token + 1) y ==
        s3.dy_rel_token + 1) = true := hy
    rw [Function.update_noteq hne, beq_iff_eq] at hy1
    have := hrel3.2 y
    omega
  have hplaced : ∀ (d : DL_sssp_direction) (a : Nat) (y : DLEdge), y ∈ adjOf g d a →
      nearEnd d y = a := fun d a y hy => (hs.adj_edges d a y hy).2.1
  have hF := findSSSP_relChains g _ s3 e.u e.v e .DL_sssp_forward fuel hstF hrF hfF
    (hplaced _) heF rfl (heavier_forward hs e hpar) honlyF h3
  have hB := findSSSP_relChains g _ s4 e.v e.u e .DL_sssp_backward fuel hstB hrB hfB
    (hplaced _) heB rfl (heavier_backward hs e hpar) honlyB h4
  have hside := findSSSP_frame 0 g .DL_sssp_backward _
    (frame_sameSide g .DL_sssp_backward) _ s4 _ fuel h4
  have hother := (findSSSP_frame 0 g .DL_sssp_backward _
    (frame_otherTree g .DL_sssp_backward) _ s4 _ fuel h4).1
  have htree : s4.fSPT = s3.fSPT := hother
  have hrelx : s4.dx_relevant = s3.dx_relevant := hside.rel
  have hvalx : ∀ y, isDxRelValid s4 y = isDxRelValid s3 y := fun y => congrFun hside.valid y
  have hcore : ∀ a b, isDyRelValid s4 a = true → s4.dy_relevant a = true →
      isDxRelValid s4 b = true → s4.dx_relevant b = true →
      ∃ esB esF, SptPath g .DL_sssp_backward s4.bSPT (e :: esB) e.v a ∧
        (e.v :: (e :: esB).map (farEnd .DL_sssp_backward)).Nodup ∧
        SptPath g .DL_sssp_forward s4.fSPT (e :: esF) e.u b ∧
        (e.u :: (e :: esF).map (farEnd .DL_sssp_forward)).Nodup := by
    intro a b ha1 ha2 hb1 hb2
    rw [hvalx b] at hb1
    rw [hrelx] at hb2
    obtain ⟨esB, hpB, hnB⟩ := hB a ha1 ha2
    obtain ⟨esF, hpF, hnF⟩ := hF b hb1 hb2
    refine ⟨esB, esF, hpB, hnB, ?_, hnF⟩
    rw [htree]
    exact hpF
  unfold iterateInactive at hcalls
  split at hcalls
  · obtain ⟨it, h1, h2, hmem, -, -, h5, h6, -⟩ :=
      iterateOut_mem A g s4 e _ calls hcalls r x hx
    have hxu : x.u = it := (hpl it x).1 hmem
    rw [← hxu] at h1 h2
    exact hcore x.u x.v h1 h2 h5 h6
  · obtain ⟨it, h1, h2, hmem, -, -, h5, h6, -⟩ :=
      iterateIn_mem A g s4 e _ calls hcalls r x hx
    have hxv : x.v = it := (hpl it x).2 hmem
    rw [← hxv] at h1 h2
    exact hcore x.u x.v h5 h6 h1 h2

/-- The call of `findShortestPath` for a candidate whose ends have chains of
parent edges that start with the reason `e`, and whose row of
`shortest_paths` is empty: within as many iterations of its loops as there are
vertices it returns `true`, and the row is the chain of `bSPT` read from its
end, which ends with `e`, and then the chain of `fSPT` after `e`. -/
theorem findShortestPath_chains {st : List (Enode × lbool)} {g : DLGraph} (hs : StoreInv st g)
    (s : SPState) (x e : DLEdge) (esB esF : List DLEdge) (he : e ∈ g.dEdges)
    (hB : SptPath g .DL_sssp_backward s.bSPT (e :: esB) e.v x.u)
    (hnB : (e.v :: (e :: esB).map (farEnd .DL_sssp_backward)).Nodup)
    (hF : SptPath g .DL_sssp_forward s.fSPT (e :: esF) e.u x.v)
    (hnF : (e.u :: (e :: esF).map (farEnd .DL_sssp_forward)).Nodup)
    (hrow : s.shortest_paths[x.id]? = some []) (k : Nat) (hk : g.vertexMap.length ≤ k) :
    findShortestPath s x e k =
      some (true, { s with
        shortest_paths := s.shortest_paths.set x.id (esB.reverse ++ e :: esF) }) := by
  obtain ⟨-, -, hrB, hpB⟩ := hB
  obtain ⟨-, -, hrF, hpF⟩ := hF
  have hrB' : s.bSPT[e.u]? = some (some e) := hrB
  have hrF' : s.fSPT[e.v]? = some (some e) := hrF
  have hpB' : SptPath g .DL_sssp_backward s.bSPT esB e.u x.u := hpB
  have hpF' : SptPath g .DL_sssp_forward s.fSPT esF e.v x.v := hpF
  have hbound : ∀ (d : DL_sssp_direction) (es : List DLEdge) (a b : Nat) (T : List (Option DLEdge)),
      SptPath g d T es a b → ∀ y ∈ es.map (farEnd d), y < g.vertexMap.length := by
    intro d es a b T hp y hy
    obtain ⟨z, hz, hzy⟩ := List.mem_map.1 hy
    have hzd := (hs.adj_edges d _ z (hp.mem_adj z hz)).1
    have hb := hs.dbound z hzd
    rw [← hzy]
    cases d with
    | DL_sssp_forward => exact hb.2
    | DL_sssp_backward => exact hb.1
  have heb := hs.dbound e he
  have hlenB : esB.length + 2 ≤ g.vertexMap.length := by
    have := nodup_bounded_length _ g.vertexMap.length hnB (by
      intro y hy
      rcases List.mem_cons.1 hy with h1 | h1
      · rw [h1]
        exact heb.2
      · rcases List.mem_cons.1 h1 with h2 | h2
        · rw [h2]
          exact heb.1
        · exact hbound _ esB _ _ _ hpB' y h2)
    simp only [List.length_cons, List.length_map] at this
    omega
  have hlenF : esF.length + 2 ≤ g.vertexMap.length := by
    have := nodup_bounded_length _ g.vertexMap.length hnF (by
      intro y hy
      rcases List.mem_cons.1 hy with h1 | h1
      · rw [h1]
        exact heb.1
      · rcases List.mem_cons.1 h1 with h2 | h2
        · rw [h2]
          exact heb.2
        · exact hbound _ esF _ _ _ hpF' y h2)
    simp only [List.length_cons, List.length_map] at this
    omega
  have hnotB : e.u ∉ esB.map (farEnd .DL_sssp_backward) := by
    intro hc
    have h1 := (List.nodup_cons.1 hnB).2
    have h2 : (e.u :: esB.map (farEnd .DL_sssp_backward)).Nodup := h1
    exact (List.nodup_cons.1 h2).1 hc
  have hnotF : e.v ∉ esF.map (farEnd .DL_sssp_forward) := by
    intro hc
    have h1 := (List.nodup_cons.1 hnF).2
    have h2 : (e.v :: esF.map (farEnd .DL_sssp_forward)).Nodup := h1
    exact (List.nodup_cons.1 h2).1 hc
  have hrootF : e.u ≠ e.v ∧ e.u ∉ esF.map (farEnd .DL_sssp_forward) := by
    have h1 := (List.nodup_cons.1 hnF).1
    have h2 : e.u ∉ e.v :: esF.map (farEnd .DL_sssp_forward) := h1
    constructor
    · intro hc
      apply h2
      rw [← hc]
      exact List.mem_cons_self _ _
    · intro hc
      exact h2 (List.mem_cons_of_mem _ hc)
  obtain ⟨cur, hcur, hwalk⟩ := walkBSPT_chain g s.bSPT e hrB' esB x.u k hpB' hnotB (by omega)
  have hlast : ((e :: esB).reverse).getLast? = some e := by
    rw [List.getLast?_reverse]
    rfl
  unfold findShortestPath
  rw [hrow]
  simp only [ne_eq, not_true_eq_false, if_false, List.nil_append]
  rw [hcur]
  simp only
  have hwalk0 := hwalk []
  simp only [List.nil_append] at hwalk0
  rw [hwalk0]
  simp only [hlast, not_true_eq_false, if_false]
  cases esF with
  | nil =>
    have hxv : e.v = x.v := hpF'
    rw [← hxv, hrF']
    simp only [not_true_eq_false, if_false, List.reverse_cons]
  | cons z rest =>
    obtain ⟨cur2, hmem2, hcur2, hwalk2⟩ := walkFSPT_chain g s.fSPT e.v (z :: rest) x.v k
      (List.cons_ne_nil _ _) hpF' hnotF (by
        simp only [List.length_cons] at hlenF ⊢
        omega)
    have hne2 : cur2.u ≠ e.u := by
      intro hc
      rcases hpF'.near_cases cur2 hmem2 with h1 | h1
      · have h1' : cur2.u = e.v := h1
        exact hrootF.1 (hc.symm.trans h1')
      · have h1' : cur2.u ∈ (z :: rest).map (farEnd .DL_sssp_forward) := h1
        rw [hc] at h1'
        exact hrootF.2 h1'
    rw [hcur2]
    simp only [ne_eq, hne2, not_false_eq_true, if_true]
    have hwalk20 := hwalk2 []
    rw [hwalk20]
    simp only [List.append_nil, List.reverse_cons, List.append_assoc, List.singleton_append]

/-- The run of `findHeavyEdges` past the test for a parallel edge: the two
passes, the scan of the inactive edges in the state after them, and the
result, which is that state with the trees cleared. -/
theorem findHeavyEdges_scan (LAZY_GENERATION : Int) (cfg : Config) (A : AtomStore)
    (g : DLGraph) (s : SPState) (c : Enode) (fuel : Nat) (p : DLComplEdges) (g' : DLGraph)
    (s' : SPState) (calls : List (Int × DLEdge)) (hp : findEdges g.edgeMap c = some p)
    (hpar : isParallelAndHeavy g (selectEdge A c p) = false)
    (h : findHeavyEdges LAZY_GENERATION cfg A g s c fuel = some (g', s', calls)) :
    ∃ s2 s3 s4, SameDist s s2 ∧ (RelStamps s → RelStamps s2) ∧
      findSSSP LAZY_GENERATION g (startForward s2 (selectEdge A c p)) (selectEdge A c p).u
        .DL_sssp_forward fuel = some s3 ∧
      findSSSP LAZY_GENERATION g (startBackward s3 (selectEdge A c p)) (selectEdge A c p).v
        .DL_sssp_backward fuel = some s4 ∧
      iterateInactive A g s4 (selectEdge A c p) = some calls ∧ s' = clearSPTs s4 ∧ g' = g ∧
      (LAZY_GENERATION = 0 → g.Ecnt ≤ s4.shortest_paths.length) := by
  unfold findHeavyEdges at h
  rw [getDLEdge_found cfg A g c p hp] at h
  simp only [hpar, Bool.false_eq_true, if_false] at h
  split at h
  · cases h
  · split at h
    · cases h
    · rename_i s2 htrees
      split at h
      · cases h
      · rename_i s3 h3
        split at h
        · cases h
        · rename_i s4 h4
          split at h
          · cases h
          · rename_i calls1 hcalls
            simp only [Option.some.injEq, Prod.mk.injEq] at h
            refine ⟨s2, s3, s4,
              (growTrees_sameDist LAZY_GENERATION g s).next
                (sameDist_trees LAZY_GENERATION _ s2 _ htrees), ?_, h3, h4, ?_, ?_, h.1.symm,
              ?_⟩
            · intro hrel
              have h1 : RelStamps (growTrees LAZY_GENERATION g s) := by
                unfold growTrees
                split <;> exact hrel
              split at htrees
              · split at htrees
                · cases htrees
                · rename_i t ht
                  exact (frame_relStamps g .DL_sssp_backward).tree t _ s2 htrees
                    ((frame_relStamps g .DL_sssp_forward).tree _ _ t ht h1)
              · simp only [Option.some.injEq] at htrees
                rw [← htrees]
                exact h1
            · rw [← h.2.2]
              exact hcalls
            · rw [← h.2.1]
              rfl
            · intro hz
              have e4 : s4.shortest_paths = (startBackward s3 (selectEdge A c p)).shortest_paths :=
                (findSSSP_frame LAZY_GENERATION g .DL_sssp_backward _
                  (frame_otherTree g .DL_sssp_backward) _ _ _ fuel h4).2
              have e3 : s3.shortest_paths = (startForward s2 (selectEdge A c p)).shortest_paths :=
                (findSSSP_frame LAZY_GENERATION g .DL_sssp_forward _
                  (frame_otherTree g .DL_sssp_forward) _ _ _ fuel h3).2
              have e2 : s2.shortest_paths = (growTrees LAZY_GENERATION g s).shortest_paths := by
                rw [if_pos hz] at htrees
                split at htrees
                · cases htrees
                · rename_i t ht
                  rw [(updateSPT_other t s2 _ _ htrees).2, (updateSPT_other _ t _ _ ht).2]
              have e1 : (growTrees LAZY_GENERATION g s).shortest_paths =
                  growTo s.shortest_paths g.Ecnt [] := by
                unfold growTrees
                rw [if_pos hz]
              have e5 : (startBackward s3 (selectEdge A c p)).shortest_paths = s3.shortest_paths :=
                rfl
              have e6 : (startForward s2 (selectEdge A c p)).shortest_paths = s2.shortest_paths :=
                rfl
              rw [e4, e5, e3, e6, e2, e1]
              unfold growTo
              split
              · rw [resize_length]
              · omega

/-! ## The identifiers of the inactive edges -/

theorem getDLVertex_Ecnt (g : DLGraph) (x : Option Enode) :
    (getDLVertex g x).2.Ecnt = g.Ecnt := by
  unfold getDLVertex
  split <;> rfl

theorem getDLEdge_Ecnt (cfg : Config) (A : AtomStore) (g : DLGraph) (e : Enode)
    (p : DLComplEdges) (g1 : DLGraph) (h : getDLEdge cfg A g e = some (p, g1)) :
    g1.Ecnt = g.Ecnt := by
  unfold getDLEdge at h
  split at h
  · simp only [Option.some.injEq, Prod.mk.injEq] at h
    rw [← h.2]
  · split at h
    · cases h
    · split at h
      · cases h
      · rename_i w x y hcl
        simp only [Option.some.injEq, Prod.mk.injEq] at h
        rw [← h.2]
        show (getDLVertex (getDLVertex { g with tmp_edge_weight := w } x).2 y).2.Ecnt = g.Ecnt
        rw [getDLVertex_Ecnt, getDLVertex_Ecnt]

theorem insertInactive_Ecnt (g g' : DLGraph) (c : Enode) (h : insertInactive g c = some g') :
    g'.Ecnt = g.Ecnt ∧ g'.edgeMap = g.edgeMap := by
  obtain ⟨p, -, -, -, -, -, hg⟩ := insertInactive_rows g g' c h
  rw [hg]
  exact ⟨rfl, rfl⟩

theorem deleteInactive_Ecnt (g g' : DLGraph) (c : Enode) (h : deleteInactive g c = some g') :
    g'.Ecnt = g.Ecnt ∧ g'.edgeMap = g.edgeMap := by
  obtain ⟨p, -, -, -, -, -, hg⟩ := deleteInactive_rows g g' c h
  rw [hg]
  exact ⟨rfl, rfl⟩

theorem insertStatic_Ecnt (cfg : Config) (A : AtomStore) (g g' : DLGraph) (c : Enode)
    (h : insertStatic cfg A g c = some g') : g'.Ecnt = g.Ecnt + 2 := by
  obtain ⟨p, g1, s1, s2, g3, hg1, -, -, hg3, -, hcase⟩ := insertStatic_spec cfg A g g' c h
  have h1 := getDLEdge_Ecnt cfg A g c p g1 hg1
  have h3 : g3.Ecnt = g1.Ecnt + 2 := by rw [hg3]
  rcases hcase with ⟨-, hins⟩ | ⟨-, hg'⟩
  · rw [(insertInactive_Ecnt g3 g' c hins).1, h3, h1]
  · rw [hg', h3, h1]

theorem insertDynamic_Ecnt (cfg : Config) (A : AtomStore) (g g1 : DLGraph) (c : Enode)
    (reason : Bool) (e : DLEdge) (h : insertDynamic cfg A g c reason = some (e, g1)) :
    g1.Ecnt = g.Ecnt := by
  obtain ⟨p, a, b, gm, -, -, -, -, -, hgm, hcase⟩ := insertDynamic_spec cfg A g g1 c reason e h
  have hm : gm.Ecnt = g.Ecnt := by rw [hgm]
  rcases hcase with ⟨-, hdel⟩ | ⟨-, hg1⟩
  · rw [(deleteInactive_Ecnt gm g1 c hdel).1, hm]
  · rw [hg1, hm]

theorem deleteActive_Ecnt (cfg : Config) (A : AtomStore) (g g' : DLGraph) (c : Enode)
    (h : deleteActive cfg A g c = some g') : g'.Ecnt = g.Ecnt := by
  obtain ⟨p, du, dv, gm, -, -, -, -, -, -, -, hgm, hcase⟩ := deleteActive_spec cfg A g g' c h
  have hm : gm.Ecnt = g.Ecnt := by rw [hgm]
  rcases hcase with ⟨-, hins⟩ | ⟨-, hg'⟩
  · rw [(insertInactive_Ecnt gm g' c hins).1, hm]
  · rw [hg', hm]

/-- The identifiers of a pair of `edgeMap` are below twice the number of
pairs. -/
theorem pair_ids_lt {st : List (Enode × lbool)} {g : DLGraph} (hs : StoreInv st g) (c : Enode)
    (p : DLComplEdges) (hp : findEdges g.edgeMap c = some p) :
    p.pos.id < 2 * g.edgeMap.length ∧ p.neg.id < 2 * g.edgeMap.length := by
  obtain ⟨j, hj⟩ := findEdges_some_index g.edgeMap c p hp
  obtain ⟨h1, h2, -⟩ := hs.ids j c p hj
  have hlt : j < g.edgeMap.length := by
    by_contra hc
    rw [List.getElem?_eq_none (Nat.le_of_not_lt hc)] at hj
    cases hj
  constructor <;> omega

/-- Rows that lose edges, or stay, in a state with the same counter and the
same pairs keep their identifiers counted. -/
theorem HCounted.lose {g g' : DLGraph} (h : HCounted g) (he : g'.Ecnt = g.Ecnt)
    (hm : g'.edgeMap = g.edgeMap)
    (r1 : ∀ k x, x ∈ g'.hAdj.getD k [] → x ∈ g.hAdj.getD k [])
    (r2 : ∀ k x, x ∈ g'.hAdjInc.getD k [] → x ∈ g.hAdjInc.getD k []) : HCounted g' := by
  refine ⟨by rw [he, hm]; exact h.1, ?_⟩
  intro i x hx
  rw [he]
  rcases hx with hx | hx
  · exact h.2 i x (Or.inl (r1 i x hx))
  · exact h.2 i x (Or.inr (r2 i x hx))

/-- Rows that gain the two edges of a pair whose identifiers are counted keep
their identifiers counted. -/
theorem HCounted.gain {g g' : DLGraph} (h : HCounted g) (p : DLComplEdges)
    (he : g'.Ecnt = g.Ecnt) (hm : g'.edgeMap = g.edgeMap)
    (hp : p.pos.id < g.Ecnt ∧ p.neg.id < g.Ecnt)
    (r1 : ∀ k, g'.hAdj.getD k [] = appendedRow g.hAdj p.pos.u p.neg.u p.pos p.neg k)
    (r2 : ∀ k, g'.hAdjInc.getD k [] = appendedRow g.hAdjInc p.pos.v p.neg.v p.pos p.neg k) :
    HCounted g' := by
  refine ⟨by rw [he, hm]; exact h.1, ?_⟩
  intro i x hx
  rw [he]
  rcases hx with hx | hx
  · rw [r1 i] at hx
    rcases mem_appendedRow _ _ _ _ _ _ _ hx with h1 | h1 | h1
    · exact h.2 i x (Or.inl h1)
    · rw [h1]
      exact hp.1
    · rw [h1]
      exact hp.2
  · rw [r2 i] at hx
    rcases mem_appendedRow _ _ _ _ _ _ _ hx with h1 | h1 | h1
    · exact h.2 i x (Or.inr h1)
    · rw [h1]
      exact hp.1
    · rw [h1]
      exact hp.2

/-- In the reached states every edge of the inactive views has an identifier
below `Ecnt`, the size that `findHeavyEdges` gives to `shortest_paths`. -/
theorem reach_hCounted (cfg : Config) (st : List (Enode × lbool)) (g : DLGraph)
    (hr : Reach cfg st g) : HCounted g := by
  induction hr with
  | init =>
    refine ⟨Nat.le_refl _, ?_⟩
    intro i x hx
    rcases hx with hx | hx <;> exact absurd hx (List.not_mem_nil _)
  | static A c hr hn hi ih =>
    have hs := reach_storeInv cfg _ _ hr
    rename_i st0 g0 g2
    have hE := insertStatic_Ecnt cfg A g0 g2 c hi
    obtain ⟨p, l, g1, hg1, -, e1, e0, -, -, -, -, -, -, -, -, -, -, -, r1, r2⟩ :=
      insertStatic_store cfg A _ _ c hn hi
    obtain ⟨-, n2, n3, -⟩ := getDLEdge_new cfg A g0 c p g1 hn hg1
    have hlen : g0.vertexMap.length ≤ g2.vertexMap.length := by
      rw [e0, List.length_append]
      omega
    have hl1 : g0.hAdj.length ≤ g2.vertexMap.length := by rw [hs.len_h]; exact hlen
    have hl2 : g0.hAdjInc.length ≤ g2.vertexMap.length := by rw [hs.len_hi]; exact hlen
    have hm : 2 * g2.edgeMap.length ≤ g2.Ecnt := by
      rw [e1, List.length_append, hE]
      have := ih.1
      simp only [List.length_singleton]
      omega
    have hpos : p.pos.id < g2.Ecnt := by
      have := ih.1
      omega
    have hneg : p.neg.id < g2.Ecnt := by
      have := ih.1
      omega
    have hold : ∀ i x, x ∈ g0.hAdj.getD i [] ∨ x ∈ g0.hAdjInc.getD i [] → x.id < g2.Ecnt := by
      intro i x hx
      have := ih.2 i x hx
      omega
    refine ⟨hm, ?_⟩
    intro i x hx
    rcases hx with hx | hx
    · rw [r1 i] at hx
      split at hx
      · rcases mem_appendedRow _ _ _ _ _ _ _ hx with h1 | h1 | h1
        · rw [resize_getD _ _ hl1] at h1
          exact hold i x (Or.inl h1)
        · rw [h1]
          exact hpos
        · rw [h1]
          exact hneg
      · rw [resize_getD _ _ hl1] at hx
        exact hold i x (Or.inl hx)
    · rw [r2 i] at hx
      split at hx
      · rcases mem_appendedRow _ _ _ _ _ _ _ hx with h1 | h1 | h1
        · rw [resize_getD _ _ hl2] at h1
          exact hold i x (Or.inr h1)
        · rw [h1]
          exact hpos
        · rw [h1]
          exact hneg
      · rw [resize_getD _ _ hl2] at hx
        exact hold i x (Or.inr hx)
  | dynamic A c reason e hr hc hi ih =>
    obtain ⟨p, a, b, -, -, -, -, hm, -, -, -, -, -, -, r1, r2⟩ :=
      insertDynamic_store cfg A _ _ c reason e hi
    refine ih.lose (insertDynamic_Ecnt cfg A _ _ c reason e hi) hm ?_ ?_
    · intro k x hx
      rw [r1 k] at hx
      split at hx
      · exact mem_erasedRow _ _ _ _ _ _ _ hx
      · exact hx
    · intro k x hx
      rw [r2 k] at hx
      split at hx
      · exact mem_erasedRow _ _ _ _ _ _ _ hx
      · exact hx
  | check A c reason fuel b hr hc hi ih =>
    obtain ⟨e, g1, hins, hst⟩ := checkNegCycle_store cfg A _ _ c reason fuel b hi
    obtain ⟨p, a, b, -, -, -, -, hm, -, -, -, -, -, -, r1, r2⟩ :=
      insertDynamic_store cfg A _ _ c reason e hins
    refine ih.lose (hst.Ecnt.trans (insertDynamic_Ecnt cfg A _ _ c reason e hins))
      (hst.edgeMap.trans hm) ?_ ?_
    · intro k x hx
      rw [hst.hAdj, r1 k] at hx
      split at hx
      · exact mem_erasedRow _ _ _ _ _ _ _ hx
      · exact hx
    · intro k x hx
      rw [hst.hAdjInc, r2 k] at hx
      split at hx
      · exact mem_erasedRow _ _ _ _ _ _ _ hx
      · exact hx
  | delete A c hr hi ih =>
    have hs := reach_storeInv cfg _ _ hr
    have hE := deleteActive_Ecnt cfg A _ _ c hi
    obtain ⟨-, -, -, -, hpol, -⟩ := deleteActive_spec cfg A _ _ c hi
    obtain ⟨p, -, g2, hp, -, -, -, hd, -, -, -, e1, -, r1, r2⟩ := hs.delete_step cfg A c hpol
    rw [hi] at hd
    cases hd
    have hids := pair_ids_lt hs c p hp
    have hlt := ih.1
    by_cases htp : cfg.dlconfig.theory_propagation > 0
    · simp only [if_pos htp] at r1 r2
      exact ih.gain p hE e1 ⟨by omega, by omega⟩ r1 r2
    · simp only [if_neg htp] at r1 r2
      exact ih.lose hE e1 (fun k x hx => by rw [r1 k] at hx; exact hx)
        (fun k x hx => by rw [r2 k] at hx; exact hx)
  | implied c hr hi ih =>
    unfold insertImplied at hi
    split at hi
    · obtain ⟨p, hp, -, -, r1, r2, -⟩ := deleteInactive_rows _ _ c hi
      obtain ⟨hE, hm⟩ := deleteInactive_Ecnt _ _ c hi
      exact ih.lose hE hm
        (fun k x hx => by rw [r1 k] at hx; exact mem_erasedRow _ _ _ _ _ _ _ hx)
        (fun k x hx => by rw [r2 k] at hx; exact mem_erasedRow _ _ _ _ _ _ _ hx)
    · cases hi

/-- Every candidate of `iterateInactive` is an edge of an inactive view, so in a
state with counted identifiers its identifier is below `Ecnt`. -/
theorem iterateInactive_counted (A : AtomStore) (g : DLGraph) (s : SPState) (e : DLEdge)
    (calls : List (Int × DLEdge)) (hc : HCounted g) (hcalls : iterateInactive A g s e = some calls)
    (r : Int) (x : DLEdge) (hx : (r, x) ∈ calls) : x.id < g.Ecnt := by
  unfold iterateInactive at hcalls
  split at hcalls
  · obtain ⟨it, -, -, hmem, -⟩ := iterateOut_mem A g s e _ calls hcalls r x hx
    exact hc.2 it x (Or.inl hmem)
  · obtain ⟨it, -, -, hmem, -⟩ := iterateIn_mem A g s e _ calls hcalls r x hx
    exact hc.2 it x (Or.inr hmem)

/-- C33: the shortest-path tree is a tree.  In a state reached through the
interface whose active edges are feasible: after every pass of `findSSSP` with
eager generation that returns, from a scratch state with its stamps behind
their tokens and right reduced weights, every vertex that the pass has read
has a chain of parent edges of the tree of the direction (`fSPT` forward,
`bSPT` backward): the entry of the vertex is an active edge to it, the entry
of the near end of that edge is the edge before, and so on up to the root of
the pass, and no vertex comes twice on the chain.  And for every candidate `x`
that `iterateInactive` hands to `addIfHeavy` in a returning call of
`findHeavyEdges` for an asserted atom with the edge `e`, in the state after
the two passes: `x.id` has a row in `shortest_paths`, and `findShortestPath`
for `x` with the reason `e` returns within as many iterations of each of its
loops as there are vertices, so the loops that walk `bSPT` and `fSPT`
terminate. -/
theorem findSSSP_spt_tree (cfg : Config) (st : List (Enode × lbool)) (g : DLGraph)
    (A : AtomStore) (s : SPState) (c : Enode) (fuel : Nat) (p : DLComplEdges) (g' : DLGraph)
    (s' : SPState) (calls : List (Int × DLEdge)) (hr : Reach cfg st g) (hfeas : AllFeasible g)
    (hst : DistStamps s) (hrs : RwtStamps s) (hrel : RelStamps s)
    (hp : findEdges g.edgeMap c = some p) (hact : (c, getPolarity A c) ∈ st)
    (h : findHeavyEdges 0 cfg A g s c fuel = some (g', s', calls)) :
    (∀ (s0 s1 : SPState) (root : Nat) (direction : DL_sssp_direction) (k : Nat),
      DistStamps s0 → RwtOk g s0 → findSSSP 0 g s0 root direction k = some s1 →
      ∀ y, isDistRead s1 y = true →
        ∃ es, SptPath g direction (treeOf s1 direction) es root y ∧
          (root :: es.map (farEnd direction)).Nodup) ∧
    ∀ (rpath_wt : Int) (x : DLEdge), (rpath_wt, x) ∈ calls →
      ∃ s2 s3 s4,
        findSSSP 0 g (startForward s2 (selectEdge A c p)) (selectEdge A c p).u
          .DL_sssp_forward fuel = some s3 ∧
        findSSSP 0 g (startBackward s3 (selectEdge A c p)) (selectEdge A c p).v
          .DL_sssp_backward fuel = some s4 ∧
        iterateInactive A g s4 (selectEdge A c p) = some calls ∧ s' = clearSPTs s4 ∧
        x.id < s4.shortest_paths.length ∧
        ∀ k, g.vertexMap.length ≤ k →
          ∃ b s5, findShortestPath s4 x (selectEdge A c p) k = some (b, s5) := by
  have hs := reach_storeInv cfg st g hr
  have he := hs.trail_active A c p hp hact
  refine ⟨?_, ?_⟩
  · intro s0 s1 root direction k hst0 hr0 hpass y hy
    exact findSSSP_chains g s0 s1 root direction k hst0 hr0
      (rwtNonneg_of_feasible cfg st g hr hfeas direction)
      (fun a z hz => (hs.adj_edges direction a z hz).2.1) hpass y hy
  · intro rpath_wt x hx
    by_cases hpar : isParallelAndHeavy g (selectEdge A c p) = true
    · exfalso
      have hnil := findHeavyEdges_fast_calls 0 cfg A g s c fuel p g' s' calls hp hpar h
      rw [hnil] at hx
      exact List.not_mem_nil _ hx
    · have hpar1 : isParallelAndHeavy g (selectEdge A c p) = false := Bool.eq_false_iff.2 hpar
      obtain ⟨s2, s3, s4, h02, hrel2, h3, h4, hcalls, hs', -, hrows⟩ :=
        findHeavyEdges_scan 0 cfg A g s c fuel p g' s' calls hp hpar1 h
      have hid : x.id < s4.shortest_paths.length :=
        Nat.lt_of_lt_of_le
          (iterateInactive_counted A g s4 _ calls (reach_hCounted cfg st g hr) hcalls
            rpath_wt x hx) (hrows rfl)
      refine ⟨s2, s3, s4, h3, h4, hcalls, hs', hid, ?_⟩
      intro k hk
      obtain ⟨esB, esF, hB, hnB, hF, hnF⟩ :=
        passes_chains cfg st g A s2 s3 s4 (selectEdge A c p) fuel calls hr hfeas
          (h02.distStamps hst) (h02.rwtStamps hrs) (hrel2 hrel) he hpar1 h3 h4 hcalls
          rpath_wt x hx
      cases hrow : s4.shortest_paths[x.id]? with
      | none =>
        exfalso
        rw [List.getElem?_eq_getElem hid] at hrow
        cases hrow
      | some row =>
        by_cases hne : row = []
        · rw [hne] at hrow
          exact ⟨true, _, findShortestPath_chains hs s4 x _ esB esF he hB hnB hF hnF hrow k hk⟩
        · exact ⟨false, s4, findShortestPath_known s4 x _ k row hrow hne⟩

theorem findSSSP_spt_tree_witness :
    Reach exCfg
      [(exAtom1, getPolarity exOnly12 exAtom1), (exAtom2, getPolarity exOnly12 exAtom2)]
      exSideGraph ∧ AllFeasible exSideGraph ∧
    findEdges exSideGraph.edgeMap exAtom1 =
      some ⟨⟨exAtom1, 0, 0, 1, 3⟩, ⟨exAtom1, 1, 1, 0, -4⟩⟩ ∧
    findHeavyEdges 0 exCfg exOnly12 exSideGraph SPState.empty exAtom1 4 =
      some (exSideGraph, exSideDone,
        [(3, ⟨exAtomB, 4, 0, 2, 1⟩), (3, ⟨exAtomA, 6, 0, 1, 5⟩)]) ∧
    exSideScan.fSPT = [none, some ⟨exAtom1, 0, 0, 1, 3⟩, some ⟨exAtom2, 2, 1, 2, -2⟩] ∧
    exSideScan.bSPT = [some ⟨exAtom1, 0, 0, 1, 3⟩, none, none] ∧
    iterateInactive exOnly12 exSideGraph exSideScan ⟨exAtom1, 0, 0, 1, 3⟩ =
      some [(3, ⟨exAtomB, 4, 0, 2, 1⟩), (3, ⟨exAtomA, 6, 0, 1, 5⟩)] ∧
    (findShortestPath exSideScan ⟨exAtomB, 4, 0, 2, 1⟩ ⟨exAtom1, 0, 0, 1, 3⟩ 3).map
        (fun res => (res.1, res.2.shortest_paths)) =
      some (true, [[], [], [], [], [⟨exAtom1, 0, 0, 1, 3⟩, ⟨exAtom2, 2, 1, 2, -2⟩], [], [], []]) ∧
    ((∀ (s0 s1 : SPState) (root : Nat) (direction : DL_sssp_direction) (k : Nat),
      DistStamps s0 → RwtOk exSideGraph s0 →
      findSSSP 0 exSideGraph s0 root direction k = some s1 →
      ∀ y, isDistRead s1 y = true →
        ∃ es, SptPath exSideGraph direction (treeOf s1 direction) es root y ∧
          (root :: es.map (farEnd direction)).Nodup) ∧
    ∀ (rpath_wt : Int) (x : DLEdge),
      (rpath_wt, x) ∈ [(3, (⟨exAtomB, 4, 0, 2, 1⟩ : DLEdge)), (3, ⟨exAtomA, 6, 0, 1, 5⟩)] →
      ∃ s2 s3 s4,
        findSSSP 0 exSideGraph
          (startForward s2
            (selectEdge exOnly12 exAtom1 ⟨⟨exAtom1, 0, 0, 1, 3⟩, ⟨exAtom1, 1, 1, 0, -4⟩⟩))
          (selectEdge exOnly12 exAtom1 ⟨⟨exAtom1, 0, 0, 1, 3⟩, ⟨exAtom1, 1, 1, 0, -4⟩⟩).u
          .DL_sssp_forward 4 = some s3 ∧
        findSSSP 0 exSideGraph
          (startBackward s3
            (selectEdge exOnly12 exAtom1 ⟨⟨exAtom1, 0, 0, 1, 3⟩, ⟨exAtom1, 1, 1, 0, -4⟩⟩))
          (selectEdge exOnly12 exAtom1 ⟨⟨exAtom1, 0, 0, 1, 3⟩, ⟨exAtom1, 1, 1, 0, -4⟩⟩).v
          .DL_sssp_backward 4 = some s4 ∧
        iterateInactive exOnly12 exSideGraph s4
          (selectEdge exOnly12 exAtom1 ⟨⟨exAtom1, 0, 0, 1, 3⟩, ⟨exAtom1, 1, 1, 0, -4⟩⟩) =
          some [(3, ⟨exAtomB, 4, 0, 2, 1⟩), (3, ⟨exAtomA, 6, 0, 1, 5⟩)] ∧
        exSideDone = clearSPTs s4 ∧
        x.id < s4.shortest_paths.length ∧
        ∀ k, exSideGraph.vertexMap.length ≤ k →
          ∃ b s5, findShortestPath s4 x
            (selectEdge exOnly12 exAtom1 ⟨⟨exAtom1, 0, 0, 1, 3⟩, ⟨exAtom1, 1, 1, 0, -4⟩⟩) k =
              some (b, s5)) :=
  ⟨exSideGraph_ready.1, exSideGraph_ready.2, by rfl, by rfl, by rfl, by rfl, by rfl, by rfl,
    findSSSP_spt_tree exCfg _ exSideGraph exOnly12 SPState.empty exAtom1 4
      ⟨⟨exAtom1, 0, 0, 1, 3⟩, ⟨exAtom1, 1, 1, 0, -4⟩⟩ exSideGraph exSideDone
      [(3, ⟨exAtomB, 4, 0, 2, 1⟩), (3, ⟨exAtomA, 6, 0, 1, 5⟩)]
      exSideGraph_ready.1 exSideGraph_ready.2
      ⟨fun _ => Nat.le_refl _, fun _ => Nat.le_refl _⟩ (fun _ => Nat.le_refl _)
      ⟨fun _ => Nat.le_refl _, fun _ => Nat.le_refl _⟩ (by rfl)
      (List.mem_cons_self _ _) (by rfl)⟩

/-- C35: the explanation path.  A call of `findShortestPath` for an edge whose
row of `shortest_paths` is not empty returns `false` and leaves the state as it
is.  And in a state reached through the interface whose active edges are
feasible, for every candidate `x` that `iterateInactive` hands to `addIfHeavy`
in a returning call of `findHeavyEdges` with eager generation for an asserted
atom with the edge `e`: in the state after the two passes `x.id` has a row in
`shortest_paths`, and when that row is empty, `findShortestPath` for `x` with
the reason `e` returns `true` within as many iterations of each of its loops as
there are vertices, and the row of `x.id` is then a path of active edges from
`x.u` to `x.v`, made of a path from `x.u` to the source of `e`, the edge `e`,
and a path from the target of `e` to `x.v`; nothing else of the state
changes. -/
theorem findShortestPath_path (cfg : Config) (st : List (Enode × lbool)) (g : DLGraph)
    (A : AtomStore) (s : SPState) (c : Enode) (fuel : Nat) (p : DLComplEdges) (g' : DLGraph)
    (s' : SPState) (calls : List (Int × DLEdge)) (hr : Reach cfg st g) (hfeas : AllFeasible g)
    (hst : DistStamps s) (hrs : RwtStamps s) (hrel : RelStamps s)
    (hp : findEdges g.edgeMap c = some p) (hact : (c, getPolarity A c) ∈ st)
    (h : findHeavyEdges 0 cfg A g s c fuel = some (g', s', calls)) :
    (∀ (s0 : SPState) (x r0 : DLEdge) (k : Nat) (row : List DLEdge),
      s0.shortest_paths[x.id]? = some row → row ≠ [] →
      findShortestPath s0 x r0 k = some (false, s0)) ∧
    ∀ (rpath_wt : Int) (x : DLEdge), (rpath_wt, x) ∈ calls →
      ∃ s2 s3 s4,
        findSSSP 0 g (startForward s2 (selectEdge A c p)) (selectEdge A c p).u
          .DL_sssp_forward fuel = some s3 ∧
        findSSSP 0 g (startBackward s3 (selectEdge A c p)) (selectEdge A c p).v
          .DL_sssp_backward fuel = some s4 ∧
        iterateInactive A g s4 (selectEdge A c p) = some calls ∧ s' = clearSPTs s4 ∧
        x.id < s4.shortest_paths.length ∧
        (s4.shortest_paths[x.id]? = some [] → ∀ k, g.vertexMap.length ≤ k →
          ∃ es1 es2 s5, findShortestPath s4 x (selectEdge A c p) k = some (true, s5) ∧
            s5 = { s4 with
              shortest_paths := s4.shortest_paths.set x.id (es1 ++ selectEdge A c p :: es2) } ∧
            s5.shortest_paths[x.id]? = some (es1 ++ selectEdge A c p :: es2) ∧
            ActivePath g .DL_sssp_forward es1 x.u (selectEdge A c p).u ∧
            ActivePath g .DL_sssp_forward es2 (selectEdge A c p).v x.v ∧
            ActivePath g .DL_sssp_forward (es1 ++ selectEdge A c p :: es2) x.u x.v ∧
            ∀ z ∈ es1 ++ selectEdge A c p :: es2, z ∈ g.dEdges) := by
  have hs := reach_storeInv cfg st g hr
  have he := hs.trail_active A c p hp hact
  refine ⟨fun s0 x r0 k row hrow hne => findShortestPath_known s0 x r0 k row hrow hne, ?_⟩
  intro rpath_wt x hx
  by_cases hpar : isParallelAndHeavy g (selectEdge A c p) = true
  · exfalso
    have hnil := findHeavyEdges_fast_calls 0 cfg A g s c fuel p g' s' calls hp hpar h
    rw [hnil] at hx
    exact List.not_mem_nil _ hx
  · have hpar1 : isParallelAndHeavy g (selectEdge A c p) = false := Bool.eq_false_iff.2 hpar
    obtain ⟨s2, s3, s4, h02, hrel2, h3, h4, hcalls, hs', -, hrows⟩ :=
      findHeavyEdges_scan 0 cfg A g s c fuel p g' s' calls hp hpar1 h
    have hid : x.id < s4.shortest_paths.length :=
      Nat.lt_of_lt_of_le
        (iterateInactive_counted A g s4 _ calls (reach_hCounted cfg st g hr) hcalls
          rpath_wt x hx) (hrows rfl)
    refine ⟨s2, s3, s4, h3, h4, hcalls, hs', hid, ?_⟩
    intro hrow k hk
    obtain ⟨esB, esF, hB, hnB, hF, hnF⟩ :=
      passes_chains cfg st g A s2 s3 s4 (selectEdge A c p) fuel calls hr hfeas
        (h02.distStamps hst) (h02.rwtStamps hrs) (hrel2 hrel) he hpar1 h3 h4 hcalls
        rpath_wt x hx
    have hcall := findShortestPath_chains hs s4 x _ esB esF he hB hnB hF hnF hrow k hk
    have hpB : ActivePath g .DL_sssp_forward esB.reverse x.u (selectEdge A c p).u :=
      activePath_reverse hs esB _ x.u hB.2.2.2.activePath
    have hpF : ActivePath g .DL_sssp_forward esF (selectEdge A c p).v x.v := hF.2.2.2.activePath
    have hpath : ActivePath g .DL_sssp_forward (esB.reverse ++ selectEdge A c p :: esF)
        x.u x.v :=
      activePath_append g .DL_sssp_forward esB.reverse (selectEdge A c p :: esF) x.u
        (selectEdge A c p).u x.v hpB ⟨(hs.mem_rows _ he).1, hpF⟩
    refine ⟨esB.reverse, esF, _, hcall, rfl, ?_, hpB, hpF, hpath, ?_⟩
    · exact List.getElem?_set_self hid
    · intro z hz
      rcases List.mem_append.1 hz with h1 | h1
      · have h2 : z ∈ esB := List.mem_reverse.1 h1
        exact (hs.adj_edges _ _ z (hB.2.2.2.mem_adj z h2)).1
      · rcases List.mem_cons.1 h1 with h2 | h2
        · rw [h2]
          exact he
        · exact (hs.adj_edges _ _ z (hF.2.2.2.mem_adj z h2)).1

theorem findShortestPath_path_witness :
    Reach exCfg
      [(exAtom1, getPolarity exOnly12 exAtom1), (exAtom2, getPolarity exOnly12 exAtom2)]
      exSideGraph ∧ AllFeasible exSideGraph ∧
    findEdges exSideGraph.edgeMap exAtom1 =
      some ⟨⟨exAtom1, 0, 0, 1, 3⟩, ⟨exAtom1, 1, 1, 0, -4⟩⟩ ∧
    findHeavyEdges 0 exCfg exOnly12 exSideGraph SPState.empty exAtom1 4 =
      some (exSideGraph, exSideDone,
        [(3, ⟨exAtomB, 4, 0, 2, 1⟩), (3, ⟨exAtomA, 6, 0, 1, 5⟩)]) ∧
    exSideScan.shortest_paths = [[], [], [], [], [], [], [], []] ∧
    exSideGraph.dEdges = [⟨exAtom2, 2, 1, 2, -2⟩, ⟨exAtom1, 0, 0, 1, 3⟩] ∧
    findShortestPath exSideScan ⟨exAtomB, 4, 0, 2, 1⟩ ⟨exAtom1, 0, 0, 1, 3⟩ 3 =
      some (true, { exSideScan with
        shortest_paths := [[], [], [], [],
          [⟨exAtom1, 0, 0, 1, 3⟩, ⟨exAtom2, 2, 1, 2, -2⟩], [], [], []] }) ∧
    findShortestPath
        { exSideScan with
          shortest_paths := [[], [], [], [],
            [⟨exAtom1, 0, 0, 1, 3⟩, ⟨exAtom2, 2, 1, 2, -2⟩], [], [], []] }
        ⟨exAtomB, 4, 0, 2, 1⟩ ⟨exAtom1, 0, 0, 1, 3⟩ 3 =
      some (false, { exSideScan with
        shortest_paths := [[], [], [], [],
          [⟨exAtom1, 0, 0, 1, 3⟩, ⟨exAtom2, 2, 1, 2, -2⟩], [], [], []] }) ∧
    ((∀ (s0 : SPState) (x r0 : DLEdge) (k : Nat) (row : List DLEdge),
      s0.shortest_paths[x.id]? = some row → row ≠ [] →
      findShortestPath s0 x r0 k = some (false, s0)) ∧
    ∀ (rpath_wt : Int) (x : DLEdge),
      (rpath_wt, x) ∈ [(3, (⟨exAtomB, 4, 0, 2, 1⟩ : DLEdge)), (3, ⟨exAtomA, 6, 0, 1, 5⟩)] →
      ∃ s2 s3 s4,
        findSSSP 0 exSideGraph
          (startForward s2
            (selectEdge exOnly12 exAtom1 ⟨⟨exAtom1, 0, 0, 1, 3⟩, ⟨exAtom1, 1, 1, 0, -4⟩⟩))
          (selectEdge exOnly12 exAtom1 ⟨⟨exAtom1, 0, 0, 1, 3⟩, ⟨exAtom1, 1, 1, 0, -4⟩⟩).u
          .DL_sssp_forward 4 = some s3 ∧
        findSSSP 0 exSideGraph
          (startBackward s3
            (selectEdge exOnly12 exAtom1 ⟨⟨exAtom1, 0, 0, 1, 3⟩, ⟨exAtom1, 1, 1, 0, -4⟩⟩))
          (selectEdge exOnly12 exAtom1 ⟨⟨exAtom1, 0, 0, 1, 3⟩, ⟨exAtom1, 1, 1, 0, -4⟩⟩).v
          .DL_sssp_backward 4 = some s4 ∧
        iterateInactive exOnly12 exSideGraph s4
          (selectEdge exOnly12 exAtom1 ⟨⟨exAtom1, 0, 0, 1, 3⟩, ⟨exAtom1, 1, 1, 0, -4⟩⟩) =
          some [(3, ⟨exAtomB, 4, 0, 2, 1⟩), (3, ⟨exAtomA, 6, 0, 1, 5⟩)] ∧
        exSideDone = clearSPTs s4 ∧
        x.id < s4.shortest_paths.length ∧
        (s4.shortest_paths[x.id]? = some [] → ∀ k, exSideGraph.vertexMap.length ≤ k →
          ∃ es1 es2 s5,
            findShortestPath s4 x
              (selectEdge exOnly12 exAtom1 ⟨⟨exAtom1, 0, 0, 1, 3⟩, ⟨exAtom1, 1, 1, 0, -4⟩⟩) k =
              some (true, s5) ∧
            s5 = { s4 with
              shortest_paths := s4.shortest_paths.set x.id
                (es1 ++ selectEdge exOnly12 exAtom1
                  ⟨⟨exAtom1, 0, 0, 1, 3⟩, ⟨exAtom1, 1, 1, 0, -4⟩⟩ :: es2) } ∧
            s5.shortest_paths[x.id]? =
              some (es1 ++ selectEdge exOnly12 exAtom1
                ⟨⟨exAtom1, 0, 0, 1, 3⟩, ⟨exAtom1, 1, 1, 0, -4⟩⟩ :: es2) ∧
            ActivePath exSideGraph .DL_sssp_forward es1 x.u
              (selectEdge exOnly12 exAtom1 ⟨⟨exAtom1, 0, 0, 1, 3⟩, ⟨exAtom1, 1, 1, 0, -4⟩⟩).u ∧
            ActivePath exSideGraph .DL_sssp_forward es2
              (selectEdge exOnly12 exAtom1 ⟨⟨exAtom1, 0, 0, 1, 3⟩, ⟨exAtom1, 1, 1, 0, -4⟩⟩).v
              x.v ∧
            ActivePath exSideGraph .DL_sssp_forward
              (es1 ++ selectEdge exOnly12 exAtom1
                ⟨⟨exAtom1, 0, 0, 1, 3⟩, ⟨exAtom1, 1, 1, 0, -4⟩⟩ :: es2) x.u x.v ∧
            ∀ z ∈ es1 ++ selectEdge exOnly12 exAtom1
                ⟨⟨exAtom1, 0, 0, 1, 3⟩, ⟨exAtom1, 1, 1, 0, -4⟩⟩ :: es2,
              z ∈ exSideGraph.dEdges)) :=
  ⟨exSideGraph_ready.1, exSideGraph_ready.2, by rfl, by rfl, by rfl, by rfl, by rfl, by rfl,
    findShortestPath_path exCfg _ exSideGraph exOnly12 SPState.empty exAtom1 4
      ⟨⟨exAtom1, 0, 0, 1, 3⟩, ⟨exAtom1, 1, 1, 0, -4⟩⟩ exSideGraph exSideDone
      [(3, ⟨exAtomB, 4, 0, 2, 1⟩), (3, ⟨exAtomA, 6, 0, 1, 5⟩)]
      exSideGraph_ready.1 exSideGraph_ready.2
      ⟨fun _ => Nat.le_refl _, fun _ => Nat.le_refl _⟩ (fun _ => Nat.le_refl _)
      ⟨fun _ => Nat.le_refl _, fun _ => Nat.le_refl _⟩ (by rfl)
      (List.mem_cons_self _ _) (by rfl)⟩

/-! ## The order of the extractions, for every arrangement of the heap -/

/-- The front of a heap has the least `gamma` of its elements. -/
theorem isHeap_front (g : DLGraph) (l : List Nat) (h : is_heap g l) :
    ∀ i, i < l.length → g.gamma (l.getD 0 0) ≤ g.gamma (l.getD i 0) := by
  intro i
  induction i using Nat.strong_induction_on with
  | _ i ih =>
    intro hi
    by_cases h0 : i = 0
    · rw [h0]
    · have hpos : 0 < i := Nat.pos_of_ne_zero h0
      have hp : (i - 1) / 2 < i := by omega
      have h1 := ih ((i - 1) / 2) hp (by omega)
      have h2 := h i hpos hi
      unfold gammaGreaterThan at h2
      have h3 : ¬ g.gamma (l.getD ((i - 1) / 2) 0) > g.gamma (l.getD i 0) := by
        intro hc
        rw [decide_eq_true hc] at h2
        cases h2
      omega

/-- The front of a heap has the least `gamma` of the members of the heap. -/
theorem isHeap_head_le (g : DLGraph) (s : Nat) (rest : List Nat) (h : is_heap g (s :: rest)) :
    ∀ y ∈ s :: rest, g.gamma s ≤ g.gamma y := by
  intro y hy
  obtain ⟨i, hi, hiy⟩ := List.getElem_of_mem hy
  have h1 := isHeap_front g (s :: rest) h i hi
  rw [List.getD_eq_getElem _ _ hi, hiy] at h1
  exact h1

/-- A vector sorted by ascending `gamma` is a heap. -/
theorem sorted_isHeap (g : DLGraph) (l : List Nat)
    (h : l.Sorted (fun a b => g.gamma a ≤ g.gamma b)) : is_heap g l := by
  intro i hpos hi
  have hp : (i - 1) / 2 < i := by omega
  have hpl : (i - 1) / 2 < l.length := by omega
  have h1 := List.pairwise_iff_getElem.1 h ((i - 1) / 2) i hpl hi hp
  rw [List.getD_eq_getElem _ _ hpl, List.getD_eq_getElem _ _ hi]
  unfold gammaGreaterThan
  exact decide_eq_false (by omega)

/-- The arrangement of the model, sorted by ascending `gamma`, is one of the
arrangements that the heap operations may choose. -/
theorem heapOf_insertionSort (g : DLGraph) (l : List Nat) :
    HeapOf g l (l.insertionSort (fun a b => g.gamma a ≤ g.gamma b)) :=
  ⟨List.perm_insertionSort _ l, sorted_isHeap g _ (sorted_insertionSort_gamma g.gamma l)⟩

/-- A vector whose elements are all the same vertex is a heap. -/
theorem isHeap_const (g : DLGraph) (l : List Nat) (v : Nat) (h : ∀ x ∈ l, x = v) :
    is_heap g l := by
  intro i hpos hi
  have hpl : (i - 1) / 2 < l.length := by omega
  rw [List.getD_eq_getElem _ _ hpl, List.getD_eq_getElem _ _ hi,
    h _ (List.getElem_mem hpl), h _ (List.getElem_mem hi)]
  unfold gammaGreaterThan
  exact decide_eq_false (lt_irrefl _)

/-- The run of the model is one of the runs over the arrangements of the
heap. -/
theorem runReach_heapRun (u : Nat) (g0 : DLGraph) :
    ∀ (p : RunPoint) (g : DLGraph), RunReach u g0 p g → HeapRun u g0 p g := by
  intro p g h
  induction h with
  | start => exact HeapRun.start
  | @extract g s rest adjList _ hheap hrow ih =>
    have h1 := HeapRun.extract ih hheap (heapOf_insertionSort g rest) hrow
    rw [← extractVertex_heap g s rest] at h1
    exact h1
  | edge _ hst ih => exact HeapRun.edge ih hst
  | @next g s _ ih => exact HeapRun.next ih (heapOf_insertionSort g g.vertex_heap)

/-- The for loop that ends without the return of line 557 passes through the
steps of its body, whatever the arrangement of the heap. -/
theorem scanAdjList_heapPoints (u : Nat) (g0 : DLGraph) (s : Nat) (l : AdjList) :
    ∀ (g g' : DLGraph), HeapRun u g0 (RunPoint.scan s l) g →
      scanAdjList u s l g = some (true, g') → HeapRun u g0 (RunPoint.scan s []) g' := by
  induction l with
  | nil =>
    intro g g' hreach h
    simp only [scanAdjList, Option.some.injEq, Prod.mk.injEq, true_and] at h
    rw [← h]
    exact hreach
  | cons it rest ih =>
    intro g g' hreach h
    rcases scanAdjList_unfold u s it rest g _ h with ⟨g1, hst, hr⟩ | ⟨_, _, _, f, hr⟩ |
      ⟨_, _, hr, _⟩
    · exact ih g1 g' (HeapRun.edge hreach hst) hr.symm
    · exfalso
      cases hm : modifyAt (refreshGamma g it.v).conflict_edges it.v (fun _ => some it) with
      | none =>
        rw [hm] at hr
        cases hr
      | some ce =>
        rw [hm] at hr
        simp only [Option.map_some', Option.some.injEq, Prod.mk.injEq] at hr
        cases hr.1
    · cases hr

/-- C28: the order of the extractions.  For a call of `checkNegCycle` on a
state reached through the interface, and for every arrangement that the heap
operations of the standard library may give to `vertex_heap` (`pop_heap` and
`make_heap` fix the elements and the heap property of their result, not the
arrangement): at every head of the while loop, the first one and every one
that follows an iteration in which `gamma` of heap members was lowered in
place and vertices were appended, the assertion `is_heap` holds, and the
front, which is the vertex that the iteration extracts, has the least `gamma`
of all vertices in `vertex_heap`.  The run of the model, whose arrangement is
sorted by `gamma`, is one of these runs. -/
theorem checkNegCycle_extraction_order (cfg : Config) (st : List (Enode × lbool))
    (g : DLGraph) (A : AtomStore) (c : Enode) (reason : Bool) (e : DLEdge) (g1 g5 gh : DLGraph)
    (s : Nat) (rest : List Nat) (hr : Reach cfg st g) (hc : c ∉ st.map Prod.fst)
    (hins : insertDynamic cfg A g c reason = some (e, g1)) (hstart : startCheck g1 e = some g5)
    (hreach : HeapRun e.u g5 RunPoint.head gh) (hheap : gh.vertex_heap = s :: rest) :
    is_heap gh gh.vertex_heap ∧ (∀ y ∈ gh.vertex_heap, gh.gamma s ≤ gh.gamma y) ∧
      ∀ (p : RunPoint) (gp : DLGraph), RunReach e.u g5 p gp → HeapRun e.u g5 p gp := by
  have hr1 : Reach cfg ((c, getPolarity A c) :: st) g1 := Reach.dynamic A c reason e hr hc hins
  have hi1 := reach_idle cfg _ g1 hr1
  have hh : is_heap gh gh.vertex_heap := by
    cases hreach with
    | start =>
      exact isHeap_const g5 _ e.v (startCheck_heap g1 g5 e hstart hi1.1)
    | next _ hof => exact hof.2
  refine ⟨hh, ?_, runReach_heapRun e.u g5⟩
  rw [hheap] at hh ⊢
  exact isHeap_head_le gh s rest hh

/-- The graph of the example of the extraction order is reached through the
interface. -/
theorem exOrd_ready :
    Reach exCfg
      [(exOrdE, getPolarity exAllTrue exOrdE), (exOrdD, getPolarity exAllTrue exOrdD),
        (exOrdC, getPolarity exAllTrue exOrdC), (exOrdB, getPolarity exAllTrue exOrdB)]
      exOrdGraph := by
  have r1 : Reach exCfg [] (exStatic [exOrdA]) :=
    Reach.static exNoPol exOrdA Reach.init rfl (by rfl)
  have r2 : Reach exCfg [] (exStatic [exOrdA, exOrdB]) :=
    Reach.static exNoPol exOrdB r1 (by decide) (by rfl)
  have r3 : Reach exCfg [] (exStatic [exOrdA, exOrdB, exOrdC]) :=
    Reach.static exNoPol exOrdC r2 (by decide) (by rfl)
  have r4 : Reach exCfg [] (exStatic [exOrdA, exOrdB, exOrdC, exOrdD]) :=
    Reach.static exNoPol exOrdD r3 (by decide) (by rfl)
  have r5 : Reach exCfg [] (exStatic [exOrdA, exOrdB, exOrdC, exOrdD, exOrdE]) :=
    Reach.static exNoPol exOrdE r4 (by decide) (by rfl)
  have c1 := Reach.check exAllTrue exOrdB false 2 true r5 (by decide)
    (by rfl : checkNegCycle exCfg exAllTrue _ exOrdB false 2 =
      some (true, exCheck exAllTrue (exStatic [exOrdA, exOrdB, exOrdC, exOrdD, exOrdE]) exOrdB))
  have c2 := Reach.check exAllTrue exOrdC false 2 true c1 (by decide)
    (by rfl : checkNegCycle exCfg exAllTrue _ exOrdC false 2 =
      some (true, exCheck exAllTrue (exCheck exAllTrue
        (exStatic [exOrdA, exOrdB, exOrdC, exOrdD, exOrdE]) exOrdB) exOrdC))
  have c3 := Reach.check exAllTrue exOrdD false 2 true c2 (by decide)
    (by rfl : checkNegCycle exCfg exAllTrue _ exOrdD false 2 =
      some (true, exCheck exAllTrue (exCheck exAllTrue (exCheck exAllTrue
        (exStatic [exOrdA, exOrdB, exOrdC, exOrdD, exOrdE]) exOrdB) exOrdC) exOrdD))
  exact Reach.check exAllTrue exOrdE false 2 true c3 (by decide) (by rfl)

/-- A vector of at most three vertices is a heap when the front is not
`gamma`-greater than the two others. -/
theorem isHeap_of_front (g : DLGraph) (l : List Nat) (hl : l.length ≤ 3)
    (h : ∀ y ∈ l, gammaGreaterThan g (l.getD 0 0) y = false) : is_heap g l := by
  intro i hpos hi
  have hp : (i - 1) / 2 = 0 := by omega
  rw [hp]
  exact h _ (by rw [List.getD_eq_getElem _ _ hi]; exact List.getElem_mem hi)

/-- A result of the for loop whose flag is `true` is the pair of `true` and its
state. -/
theorem stateOf_eq (r : Option (Bool × DLGraph)) (h : r.map Prod.fst = some true) :
    r = some (true, stateOf r) := by
  cases r with
  | none => cases h
  | some x =>
    obtain ⟨b, g⟩ := x
    simp only [Option.map_some', Option.some.injEq] at h
    cases h
    rfl

/-- The run of the example up to its third head, with the arrangement
`[2, 3, 4]` at the second head. -/
theorem exOrd_run : HeapRun 0 exOrdStart RunPoint.head exOrdHead := by
  have h1 : HeapRun 0 exOrdStart
      (RunPoint.scan 1 [⟨exOrdB, 2, 1, 2, 0⟩, ⟨exOrdC, 4, 1, 3, 2⟩, ⟨exOrdD, 6, 1, 4, 1⟩])
      exOrdExt1 :=
    HeapRun.extract (HeapRun.start : HeapRun 0 exOrdStart RunPoint.head exOrdStart)
      (by rfl : exOrdStart.vertex_heap = 1 :: [])
      (⟨List.Perm.refl _, isHeap_of_front _ _ (by decide) (by decide)⟩ :
        HeapOf exOrdStart [] []) (by rfl)
  have h2 : HeapRun 0 exOrdStart (RunPoint.scan 1 []) exOrdPass1 :=
    scanAdjList_heapPoints 0 exOrdStart 1 _ exOrdExt1 exOrdPass1 h1
      (stateOf_eq _ (by rfl))
  have e2 : exOrdPass1.vertex_heap = [2, 3, 4] := by rfl
  have h3 : HeapRun 0 exOrdStart RunPoint.head exOrdHead2 :=
    HeapRun.next h2
      ⟨by rw [e2], isHeap_of_front _ _ (by decide) (by decide)⟩
  have h4 : HeapRun 0 exOrdStart (RunPoint.scan 2 [⟨exOrdE, 8, 2, 3, 0⟩]) exOrdExt2 :=
    HeapRun.extract h3 (by rfl : exOrdHead2.vertex_heap = 2 :: [3, 4])
      (⟨List.Perm.swap _ _ _, isHeap_of_front _ _ (by decide) (by decide)⟩ :
        HeapOf exOrdHead2 [3, 4] [4, 3]) (by rfl)
  have h5 : HeapRun 0 exOrdStart (RunPoint.scan 2 []) exOrdPass2 :=
    scanAdjList_heapPoints 0 exOrdStart 2 _ exOrdExt2 exOrdPass2 h4
      (stateOf_eq _ (by rfl))
  have e5 : exOrdPass2.vertex_heap = [4, 3] := by rfl
  exact HeapRun.next h5
    ⟨by rw [e5]; exact List.Perm.swap _ _ _, isHeap_of_front _ _ (by decide) (by decide)⟩

theorem checkNegCycle_extraction_order_witness :
    Reach exCfg
      [(exOrdE, getPolarity exAllTrue exOrdE), (exOrdD, getPolarity exAllTrue exOrdD),
        (exOrdC, getPolarity exAllTrue exOrdC), (exOrdB, getPolarity exAllTrue exOrdB)]
      exOrdGraph ∧
    insertDynamic exCfg exAllTrue exOrdGraph exOrdA false =
      some (⟨exOrdA, 0, 0, 1, -5⟩, exOrdInserted) ∧
    startCheck exOrdInserted (⟨exOrdA, 0, 0, 1, -5⟩ : DLEdge) = some exOrdStart ∧
    exOrdStart.vertex_heap = [1] ∧
    exOrdPass1.vertex_heap = [2, 3, 4] ∧
    (exOrdPass1.gamma 2, exOrdPass1.gamma 3, exOrdPass1.gamma 4) = (-5, -3, -4) ∧
    exOrdPass2.vertex_heap = [4, 3] ∧ (exOrdPass2.gamma 4, exOrdPass2.gamma 3) = (-4, -5) ∧
    ¬ is_heap exOrdPass2 exOrdPass2.vertex_heap ∧
    HeapRun (⟨exOrdA, 0, 0, 1, -5⟩ : DLEdge).u exOrdStart RunPoint.head exOrdHead ∧
    exOrdHead.vertex_heap = 3 :: [4] ∧
    (exOrdHead.gamma 3, exOrdHead.gamma 4) = (-5, -4) ∧
    is_heap exOrdHead exOrdHead.vertex_heap ∧
    (∀ y ∈ exOrdHead.vertex_heap, exOrdHead.gamma 3 ≤ exOrdHead.gamma y) ∧
    ∀ (p : RunPoint) (gp : DLGraph),
      RunReach (⟨exOrdA, 0, 0, 1, -5⟩ : DLEdge).u exOrdStart p gp →
        HeapRun (⟨exOrdA, 0, 0, 1, -5⟩ : DLEdge).u exOrdStart p gp :=
  ⟨exOrd_ready, by rfl, by rfl, by rfl, by rfl, by rfl, by rfl, by rfl,
    fun h => by
      have h1 := h 1 (by decide) (by decide)
      revert h1
      decide,
    exOrd_run, by rfl, by rfl,
    checkNegCycle_extraction_order exCfg _ exOrdGraph exAllTrue exOrdA false
      ⟨exOrdA, 0, 0, 1, -5⟩ exOrdInserted exOrdStart exOrdHead 3 [4] exOrd_ready (by decide)
      (by rfl) (by rfl) exOrd_run (by rfl)⟩

/-! ## The test of a candidate -/

end DL
